import Mathlib

/-! A disk-backed B+Tree index (btree.cc)

The index keeps its nodes in fixed-size blocks of a buffer cache.  This file
embeds the operations of `BTreeIndex` (btree.cc) as functions on an explicit
state and proves properties of them.  A call that does not return normally
(a failed assertion, a recursion that never ends) evaluates to `none`.
-/

/-- Sizes fixed by the compiler of the C++ sources: `sizeof(SIZE_T)` and
`sizeof(NodeMetadata)`. They come from headers, so they are parameters here. -/
structure Machine where
  sizeofSIZE_T : Nat
  sizeofNodeMetadata : Nat
deriving DecidableEq, Repr

/-- Error codes returned by the operations. `ERROR_NOERROR` is the only code
that tests false in `if (rc)`. The last three are the codec and block-interface
failures the design names (OutOfRange, WrongNodeType, I/O failure). -/
inductive ERROR_T where
  | ERROR_NOERROR
  | ERROR_NOSPACE
  | ERROR_NONEXISTENT
  | ERROR_CONFLICT
  | ERROR_INSANE
  | ERROR_BADCONFIG
  | ERROR_UNIMPL
  | ERROR_OUTOFRANGE
  | ERROR_WRONGNODETYPE
  | ERROR_NOSUCHBLOCK
deriving DecidableEq, Repr

/-- The node type tag stored in every block header. -/
inductive NodeType where
  | BTREE_UNALLOCATED_BLOCK
  | BTREE_SUPERBLOCK
  | BTREE_ROOT_NODE
  | BTREE_INTERIOR_NODE
  | BTREE_LEAF_NODE
deriving DecidableEq, Repr

/-- Keys are byte strings (of `keysize` bytes). -/
abbrev KEY_T := List Nat

/-- Values are byte strings (of `valuesize` bytes). -/
abbrev VALUE_T := List Nat

/-- The two operations of the shared descent. -/
inductive BTreeOp where
  | BTREE_OP_LOOKUP
  | BTREE_OP_UPDATE
deriving DecidableEq, Repr

/-- The per-block header. -/
structure NodeMetadata where
  nodetype : NodeType
  keysize : Nat
  valuesize : Nat
  blocksize : Nat
  rootnode : Nat
  freelist : Nat
  numkeys : Nat
deriving DecidableEq, Repr

/-- A node: its header and its packed slot bytes (`[]` is the null buffer). -/
structure BTreeNode where
  info : NodeMetadata
  data : List Nat
deriving DecidableEq, Repr

/-- The node with `info.numkeys` set to `n`. -/
def BTreeNode.withNumkeys (b : BTreeNode) (n : Nat) : BTreeNode :=
  { b with info := { b.info with numkeys := n } }

/-- The node with `info.freelist` set to `f`. -/
def BTreeNode.withFreelist (b : BTreeNode) (f : Nat) : BTreeNode :=
  { b with info := { b.info with freelist := f } }

/-- The node with `info.rootnode` set to `r`. -/
def BTreeNode.withRootnode (b : BTreeNode) (r : Nat) : BTreeNode :=
  { b with info := { b.info with rootnode := r } }

/-- The node with its slot bytes replaced. -/
def BTreeNode.withData (b : BTreeNode) (d : List Nat) : BTreeNode :=
  { b with data := d }

/-- The block device behind the cache: a block size and the stored blocks,
each the image a node was serialized to. -/
structure BufferCache where
  blocksize : Nat
  blocks : List BTreeNode
deriving DecidableEq, Repr

/-- The index object: its cached superblock, the superblock's block number and
the buffer cache it works on. -/
structure BTreeIndex where
  superblock : BTreeNode
  superblock_index : Nat
  buffercache : BufferCache
deriving DecidableEq, Repr

/-- Result of the key scan over an interior node. -/
inductive ScanResult where
  | fail (rc : ERROR_T)
  | hit (offset ptr : Nat)
  | miss
deriving DecidableEq, Repr

/-- Result of the key scan over a leaf. -/
inductive LeafScanResult where
  | fail (rc : ERROR_T)
  | hit (offset : Nat)
  | miss
deriving DecidableEq, Repr

/-- Modelled from the spec: `operator<` of KEY_T (its header is not among the
sources): keys are totally ordered by lexicographic byte comparison. -/
def keyLt : KEY_T → KEY_T → Bool
  | [], [] => false
  | [], _ :: _ => true
  | _ :: _, [] => false
  | a :: as, b :: bs => if a < b then true else if b < a then false else keyLt as bs

/-- A run of zero bytes. -/
def zeros (n : Nat) : List Nat := List.replicate n 0

/-- Reading `len` bytes at `off`: bytes past the end of the buffer are not
transferred. -/
def readAt (d : List Nat) (off len : Nat) : List Nat := (d.drop off).take len

/-- Writing `bs` at `off` (memcpy/memmove into a buffer of fixed size): bytes
that fall past the end of the buffer are not transferred. -/
def writeAt (d : List Nat) (off : Nat) (bs : List Nat) : List Nat :=
  (d.take off ++ bs ++ d.drop (off + bs.length)).take d.length

/-- The bytes of a SIZE_T in memory, least significant first. -/
def encodeSIZE_T : Nat → Nat → List Nat
  | 0, _ => []
  | w + 1, n => (n % 256) :: encodeSIZE_T w (n / 256)

/-- The SIZE_T a run of bytes stands for. -/
def decodeSIZE_T : List Nat → Nat
  | [] => 0
  | b :: bs => b + 256 * decodeSIZE_T bs

/-- Keeps the old object when a call whose result code is ignored fails. -/
def orKeep {α : Type} (old : α) : Except ERROR_T α → α
  | .ok a => a
  | .error _ => old

/-- The code of a call, `ERROR_NOERROR` on success. -/
def codeOf {α : Type} : Except ERROR_T α → ERROR_T
  | .ok _ => ERROR_T.ERROR_NOERROR
  | .error rc => rc

/-- Node types that carry slot data (`nodetype != BTREE_UNALLOCATED_BLOCK &&
nodetype != BTREE_SUPERBLOCK`). -/
def hasData : NodeType → Bool
  | NodeType.BTREE_UNALLOCATED_BLOCK => false
  | NodeType.BTREE_SUPERBLOCK => false
  | _ => true

section Codec
variable (m : Machine)

/-- Modelled from the spec: NodeMetadata::GetNumDataBytes (btree_ds.cc is not
among the sources): block size minus header size. -/
def NodeMetadata.GetNumDataBytes (i : NodeMetadata) : Nat :=
  i.blocksize - m.sizeofNodeMetadata

/-- Modelled from the spec: NodeMetadata::GetNumSlotsAsInterior: the largest n
with n*(keysize + sizeof(ptr)) + sizeof(ptr) within the data bytes. -/
def NodeMetadata.GetNumSlotsAsInterior (i : NodeMetadata) : Nat :=
  (i.GetNumDataBytes m - m.sizeofSIZE_T) / (i.keysize + m.sizeofSIZE_T)

/-- Modelled from the spec: NodeMetadata::GetNumSlotsAsLeaf: the number of
(key, value) slots that fit after the leading pointer. -/
def NodeMetadata.GetNumSlotsAsLeaf (i : NodeMetadata) : Nat :=
  (i.GetNumDataBytes m - m.sizeofSIZE_T) / (i.keysize + i.valuesize)

/-- Modelled from the spec: the default constructor `BTreeNode()`: an
unallocated node without data; the header fields it leaves unset read 0. -/
def BTreeNode.default : BTreeNode :=
  { info := { nodetype := NodeType.BTREE_UNALLOCATED_BLOCK, keysize := 0, valuesize := 0,
              blocksize := 0, rootnode := 0, freelist := 0, numkeys := 0 },
    data := [] }

/-- Modelled from the spec: the constructor `BTreeNode(type, keysize,
valuesize, blocksize)`: an empty node, its slot bytes zeroed. -/
def BTreeNode.mk4 (ty : NodeType) (keysize valuesize blocksize : Nat) : BTreeNode :=
  let i : NodeMetadata :=
    { nodetype := ty, keysize := keysize, valuesize := valuesize, blocksize := blocksize,
      rootnode := 0, freelist := 0, numkeys := 0 }
  { info := i, data := if hasData ty then zeros (i.GetNumDataBytes m) else [] }

/-- Modelled from the spec: BTreeNode::Serialize: writes the header and, for a
tree node, the slot bytes to block `blocknum`; fails when there is no such
block. -/
def BTreeNode.Serialize (self : BTreeNode) (c : BufferCache) (blocknum : Nat) :
    ERROR_T × BufferCache :=
  let image : BTreeNode :=
    { info := self.info, data := if hasData self.info.nodetype then self.data else [] }
  if blocknum < c.blocks.length then
    (ERROR_T.ERROR_NOERROR, { c with blocks := c.blocks.set blocknum image })
  else (ERROR_T.ERROR_NOSUCHBLOCK, c)

/-- Modelled from the spec: BTreeNode::Unserialize: reads block `blocknum` into
the node; on failure the node is left as it was. -/
def BTreeNode.Unserialize (self : BTreeNode) (c : BufferCache) (blocknum : Nat) :
    ERROR_T × BTreeNode :=
  match c.blocks[blocknum]? with
  | none => (ERROR_T.ERROR_NOSUCHBLOCK, self)
  | some blk =>
    (ERROR_T.ERROR_NOERROR,
      { info := blk.info, data := if hasData blk.info.nodetype then blk.data else [] })

/-- Modelled from the spec: BTreeNode::ResolveKey: byte offset of key `offset`
in the slot bytes (`none` is the null pointer of a block that is no tree node).
Interior/Root: `ptr0 key0 ptr1 key1 ...`; Leaf: `ptr0 key0 val0 key1 val1 ...`. -/
def BTreeNode.ResolveKey (b : BTreeNode) (offset : Nat) : Option Nat :=
  match b.info.nodetype with
  | NodeType.BTREE_INTERIOR_NODE | NodeType.BTREE_ROOT_NODE =>
    some (m.sizeofSIZE_T + offset * (m.sizeofSIZE_T + b.info.keysize))
  | NodeType.BTREE_LEAF_NODE =>
    some (m.sizeofSIZE_T + offset * (b.info.keysize + b.info.valuesize))
  | _ => none

/-- Modelled from the spec: BTreeNode::ResolvePtr: for an interior or root node
the byte offset of pointer `offset`; for a leaf the leading-pointer-adjusted
offset of slot position `offset`, which is what the leaf split copies from
(position leftKeys) and to (position 0). -/
def BTreeNode.ResolvePtr (b : BTreeNode) (offset : Nat) : Option Nat :=
  match b.info.nodetype with
  | NodeType.BTREE_INTERIOR_NODE | NodeType.BTREE_ROOT_NODE =>
    some (offset * (m.sizeofSIZE_T + b.info.keysize))
  | NodeType.BTREE_LEAF_NODE =>
    some (m.sizeofSIZE_T + offset * (b.info.keysize + b.info.valuesize))
  | _ => none

/-- Modelled from the spec: BTreeNode::ResolveVal: byte offset of value
`offset` of a leaf. -/
def BTreeNode.ResolveVal (b : BTreeNode) (offset : Nat) : Option Nat :=
  match b.info.nodetype with
  | NodeType.BTREE_LEAF_NODE =>
    some (m.sizeofSIZE_T + offset * (b.info.keysize + b.info.valuesize) + b.info.keysize)
  | _ => none

/-- Modelled from the spec: BTreeNode::GetKey: OutOfRange when `offset` is past
the current numkeys, WrongNodeType on a block that is no tree node. -/
def BTreeNode.GetKey (b : BTreeNode) (offset : Nat) : Except ERROR_T KEY_T :=
  match b.ResolveKey m offset with
  | none => .error ERROR_T.ERROR_WRONGNODETYPE
  | some p =>
    if offset < b.info.numkeys then .ok (readAt b.data p b.info.keysize)
    else .error ERROR_T.ERROR_OUTOFRANGE

/-- Modelled from the spec: BTreeNode::SetKey: copies `keysize` bytes of the
key to the key slot. -/
def BTreeNode.SetKey (b : BTreeNode) (offset : Nat) (k : KEY_T) : Except ERROR_T BTreeNode :=
  match b.ResolveKey m offset with
  | none => .error ERROR_T.ERROR_WRONGNODETYPE
  | some p =>
    if offset < b.info.numkeys then
      .ok (b.withData (writeAt b.data p (k.take b.info.keysize)))
    else .error ERROR_T.ERROR_OUTOFRANGE

/-- Modelled from the spec: BTreeNode::GetPtr: an interior or root node has
pointers 0..numkeys (the trailing pointer included), a leaf its leading
pointer, at the start of the slot bytes. -/
def BTreeNode.GetPtr (b : BTreeNode) (offset : Nat) : Except ERROR_T Nat :=
  match b.info.nodetype with
  | NodeType.BTREE_INTERIOR_NODE | NodeType.BTREE_ROOT_NODE =>
    if offset ≤ b.info.numkeys then
      .ok (decodeSIZE_T (readAt b.data (offset * (m.sizeofSIZE_T + b.info.keysize)) m.sizeofSIZE_T))
    else .error ERROR_T.ERROR_OUTOFRANGE
  | NodeType.BTREE_LEAF_NODE =>
    if offset = 0 then .ok (decodeSIZE_T (readAt b.data 0 m.sizeofSIZE_T))
    else .error ERROR_T.ERROR_OUTOFRANGE
  | _ => .error ERROR_T.ERROR_WRONGNODETYPE

/-- Modelled from the spec: BTreeNode::SetPtr, the writer matching GetPtr. -/
def BTreeNode.SetPtr (b : BTreeNode) (offset : Nat) (ptr : Nat) : Except ERROR_T BTreeNode :=
  match b.info.nodetype with
  | NodeType.BTREE_INTERIOR_NODE | NodeType.BTREE_ROOT_NODE =>
    if offset ≤ b.info.numkeys then
      .ok (b.withData (writeAt b.data (offset * (m.sizeofSIZE_T + b.info.keysize))
        (encodeSIZE_T m.sizeofSIZE_T ptr)))
    else .error ERROR_T.ERROR_OUTOFRANGE
  | NodeType.BTREE_LEAF_NODE =>
    if offset = 0 then .ok (b.withData (writeAt b.data 0 (encodeSIZE_T m.sizeofSIZE_T ptr)))
    else .error ERROR_T.ERROR_OUTOFRANGE
  | _ => .error ERROR_T.ERROR_WRONGNODETYPE

/-- Modelled from the spec: BTreeNode::GetVal: WrongNodeType on anything but a
leaf, OutOfRange past numkeys. -/
def BTreeNode.GetVal (b : BTreeNode) (offset : Nat) : Except ERROR_T VALUE_T :=
  match b.ResolveVal m offset with
  | none => .error ERROR_T.ERROR_WRONGNODETYPE
  | some p =>
    if offset < b.info.numkeys then .ok (readAt b.data p b.info.valuesize)
    else .error ERROR_T.ERROR_OUTOFRANGE

/-- Modelled from the spec: BTreeNode::SetVal, the writer matching GetVal. -/
def BTreeNode.SetVal (b : BTreeNode) (offset : Nat) (v : VALUE_T) : Except ERROR_T BTreeNode :=
  match b.ResolveVal m offset with
  | none => .error ERROR_T.ERROR_WRONGNODETYPE
  | some p =>
    if offset < b.info.numkeys then
      .ok (b.withData (writeAt b.data p (v.take b.info.valuesize)))
    else .error ERROR_T.ERROR_OUTOFRANGE

/-- The byte copy `memcpy(dst + dstOff, src + srcOff, len)` (also `memmove`,
the source being read whole before the write); a null location copies
nothing. -/
def copyBytes (dst : List Nat) (dstOff : Option Nat) (src : List Nat) (srcOff : Option Nat)
    (len : Nat) : List Nat :=
  match dstOff, srcOff with
  | some d, some s => writeAt dst d (readAt src s len)
  | _, _ => dst

end Codec

namespace BTreeIndex
variable (m : Machine)

/-- The constructor `BTreeIndex(keysize, valuesize, cache, unique)`: only the
two sizes of the cached superblock and the cache are set. -/
def new (keysize valuesize : Nat) (cache : BufferCache) : BTreeIndex :=
  { superblock :=
      { BTreeNode.default with
        info := { BTreeNode.default.info with keysize := keysize, valuesize := valuesize } },
    superblock_index := 0,
    buffercache := cache }

/-- BTreeIndex::AllocateNode (btree.cc 67-88). `n` is a reference parameter:
`intoRoot` tells that the caller passed `superblock.info.rootnode` itself, so
the assignment to `n` also changes the cached superblock. A failed assertion
is `none`. -/
def AllocateNode (t : BTreeIndex) (intoRoot : Bool) : Option (ERROR_T × Nat × BTreeIndex) :=
  let n := t.superblock.info.freelist
  let t0 : BTreeIndex :=
    if intoRoot then
      { t with superblock := t.superblock.withRootnode n }
    else t
  if n = 0 then some (ERROR_T.ERROR_NOSPACE, n, t0)
  else
    let node := (BTreeNode.default.Unserialize t0.buffercache n).2
    if node.info.nodetype ≠ NodeType.BTREE_UNALLOCATED_BLOCK then none
    else
      let sb : BTreeNode := t0.superblock.withFreelist node.info.freelist
      let c := (sb.Serialize t0.buffercache t0.superblock_index).2
      some (ERROR_T.ERROR_NOERROR, n, { t0 with superblock := sb, buffercache := c })

/-- The loop of BTreeIndex::Attach (btree.cc 160-174) chaining blocks
`i, i+1, ...` onto the free list; `cnt` bounds the iterations left. -/
def attachLoop (keysize valuesize : Nat) (c : BufferCache) : Nat → Nat → ERROR_T × BufferCache
  | _, 0 => (ERROR_T.ERROR_NOERROR, c)
  | i, cnt + 1 =>
    let n0 := BTreeNode.mk4 m NodeType.BTREE_UNALLOCATED_BLOCK keysize valuesize c.blocksize
    let newfreenode : BTreeNode :=
      (n0.withRootnode 1).withFreelist (if i + 1 = c.blocks.length then 0 else i + 1)
    match newfreenode.Serialize c i with
    | (ERROR_T.ERROR_NOERROR, c1) => attachLoop keysize valuesize c1 (i + 1) cnt
    | (rc, c1) => (rc, c1)

/-- BTreeIndex::Attach (btree.cc 115-180). The assertion
`superblock_index==0` failing is `none`. -/
def Attach (t : BTreeIndex) (initblock : Nat) (create : Bool) : Option (ERROR_T × BTreeIndex) :=
  let t := { t with superblock_index := initblock }
  if t.superblock_index ≠ 0 then none
  else if create then
    let ks := t.superblock.info.keysize
    let vs := t.superblock.info.valuesize
    let s0 := BTreeNode.mk4 m NodeType.BTREE_SUPERBLOCK ks vs t.buffercache.blocksize
    let newsuperblock : BTreeNode :=
      ((s0.withRootnode (t.superblock_index + 1)).withFreelist (t.superblock_index + 2)).withNumkeys 0
    match newsuperblock.Serialize t.buffercache t.superblock_index with
    | (ERROR_T.ERROR_NOERROR, c1) =>
      let r0 := BTreeNode.mk4 m NodeType.BTREE_ROOT_NODE ks vs c1.blocksize
      let newrootnode : BTreeNode :=
        ((r0.withRootnode (t.superblock_index + 1)).withFreelist (t.superblock_index + 2)).withNumkeys 0
      match newrootnode.Serialize c1 (t.superblock_index + 1) with
      | (ERROR_T.ERROR_NOERROR, c2) =>
        match attachLoop m ks vs c2 (t.superblock_index + 2)
            (c2.blocks.length - (t.superblock_index + 2)) with
        | (ERROR_T.ERROR_NOERROR, c3) =>
          let r := t.superblock.Unserialize c3 initblock
          some (r.1, { t with superblock := r.2, buffercache := c3 })
        | (rc, c3) => some (rc, { t with buffercache := c3 })
      | (rc, c2) => some (rc, { t with buffercache := c2 })
    | (rc, c1) => some (rc, { t with buffercache := c1 })
  else
    let r := t.superblock.Unserialize t.buffercache initblock
    some (r.1, { t with superblock := r.2 })

/-- The key scan shared by the descents (btree.cc 211-222, 802-810,
1208-1219): the first `offset` with `key < testkey || key == testkey`, and the
pointer stored there. `cnt` is the number of keys left to look at. -/
def scanInterior (b : BTreeNode) (key : KEY_T) : Nat → Nat → ScanResult
  | _, 0 => ScanResult.miss
  | offset, cnt + 1 =>
    match b.GetKey m offset with
    | .error rc => ScanResult.fail rc
    | .ok testkey =>
      if keyLt key testkey = true ∨ key = testkey then
        match b.GetPtr m offset with
        | .error rc => ScanResult.fail rc
        | .ok ptr => ScanResult.hit offset ptr
      else scanInterior b key (offset + 1) cnt

/-- The scan of a leaf for a key equal to `key` (btree.cc 235-250,
1232-1238). -/
def scanLeaf (b : BTreeNode) (key : KEY_T) : Nat → Nat → LeafScanResult
  | _, 0 => LeafScanResult.miss
  | offset, cnt + 1 =>
    match b.GetKey m offset with
    | .error rc => LeafScanResult.fail rc
    | .ok testkey =>
      if testkey = key then LeafScanResult.hit offset
      else scanLeaf b key (offset + 1) cnt

/-- The choice of the child to descend into, written three times in the
source (btree.cc 211-231, 802-856, 1208-1228): the pointer at the first key
with `key <= testkey`, else the trailing pointer when the node has keys, else
`ERROR_NONEXISTENT`. -/
def pickChild (b : BTreeNode) (key : KEY_T) : Except ERROR_T Nat :=
  match scanInterior m b key 0 b.info.numkeys with
  | ScanResult.fail rc => .error rc
  | ScanResult.hit _ ptr => .ok ptr
  | ScanResult.miss =>
    if b.info.numkeys > 0 then b.GetPtr m b.info.numkeys
    else .error ERROR_T.ERROR_NONEXISTENT

/-- BTreeIndex::LookupOrUpdateInternal (btree.cc 189-260). `fuel` bounds the
depth of the recursion; `value` is the in/out reference. -/
def LookupOrUpdateInternal : Nat → BTreeIndex → Nat → BTreeOp → KEY_T → VALUE_T →
    Option (ERROR_T × VALUE_T × BTreeIndex)
  | 0, _, _, _, _, _ => none
  | fuel + 1, t, node, op, key, value =>
    match BTreeNode.default.Unserialize t.buffercache node with
    | (ERROR_T.ERROR_NOERROR, b) =>
      match b.info.nodetype with
      | NodeType.BTREE_ROOT_NODE | NodeType.BTREE_INTERIOR_NODE =>
        match pickChild m b key with
        | .error rc => some (rc, value, t)
        | .ok ptr => LookupOrUpdateInternal fuel t ptr op key value
      | NodeType.BTREE_LEAF_NODE =>
        match scanLeaf m b key 0 b.info.numkeys with
        | LeafScanResult.fail rc => some (rc, value, t)
        | LeafScanResult.hit offset =>
          if op = BTreeOp.BTREE_OP_LOOKUP then
            match b.GetVal m offset with
            | .error rc => some (rc, value, t)
            | .ok v => some (ERROR_T.ERROR_NOERROR, v, t)
          else
            match b.SetVal m offset value with
            | .error rc => some (rc, value, t)
            | .ok b1 =>
              let r := b1.Serialize t.buffercache node
              some (r.1, value, { t with buffercache := r.2 })
        | LeafScanResult.miss => some (ERROR_T.ERROR_NONEXISTENT, value, t)
      | _ => some (ERROR_T.ERROR_INSANE, value, t)
    | (rc, _) => some (rc, value, t)

/-- The depth bound handed to the recursive descents: a descent that visits
more nodes than the device has blocks visits one of them twice and never
ends. -/
def depthBound (t : BTreeIndex) : Nat := t.buffercache.blocks.length + 1

/-- BTreeIndex::Lookup (btree.cc 355-358); the value is `[]` (the caller's
fresh VALUE_T) unless the lookup sets it. -/
def Lookup (t : BTreeIndex) (key : KEY_T) : Option (ERROR_T × VALUE_T) :=
  match LookupOrUpdateInternal m (depthBound t) t t.superblock.info.rootnode
      BTreeOp.BTREE_OP_LOOKUP key [] with
  | none => none
  | some (rc, v, _) => some (rc, v)

/-- BTreeIndex::Update (btree.cc 572-577). -/
def Update (t : BTreeIndex) (key : KEY_T) (value : VALUE_T) : Option (ERROR_T × BTreeIndex) :=
  match LookupOrUpdateInternal m (depthBound t) t t.superblock.info.rootnode
      BTreeOp.BTREE_OP_UPDATE key value with
  | none => none
  | some (rc, _, t1) => some (rc, t1)

/-- BTreeIndex::NeedToSplit (btree.cc 474-490). -/
def NeedToSplit (t : BTreeIndex) (node : Nat) : Bool :=
  let b := (BTreeNode.default.Unserialize t.buffercache node).2
  match b.info.nodetype with
  | NodeType.BTREE_ROOT_NODE | NodeType.BTREE_INTERIOR_NODE =>
    decide (b.info.GetNumSlotsAsInterior m = b.info.numkeys)
  | NodeType.BTREE_LEAF_NODE => decide (b.info.GetNumSlotsAsLeaf m = b.info.numkeys)
  | _ => false

/-- BTreeIndex::SplitNode (btree.cc 494-569). `promotedKey` is the in/out
reference; the result carries `secondNode` and the promoted key. The unsigned
subtraction computing `rightKeys` wraps when the node has too few keys; the
copy length is then far larger than any buffer and the call does not return
normally (`none`). -/
def SplitNode (t : BTreeIndex) (node : Nat) (promotedKey : KEY_T) :
    Option (ERROR_T × Nat × KEY_T × BTreeIndex) :=
  let left := (BTreeNode.default.Unserialize t.buffercache node).2
  let right := left
  match AllocateNode t false with
  | none => none
  | some (ERROR_T.ERROR_NOERROR, secondNode, t1) =>
    match right.Serialize t1.buffercache secondNode with
    | (ERROR_T.ERROR_NOERROR, c2) =>
      if left.info.nodetype = NodeType.BTREE_LEAF_NODE then
        let leftKeys := (left.info.numkeys + 2) / 2
        if left.info.numkeys < leftKeys then none
        else
          let rightKeys := left.info.numkeys - leftKeys
          let promotedKey := orKeep promotedKey (left.GetKey m (leftKeys - 1))
          let rdata := copyBytes right.data (right.ResolvePtr m 0) left.data
            (left.ResolvePtr m leftKeys) (rightKeys * (left.info.keysize + left.info.valuesize))
          let left1 : BTreeNode := left.withNumkeys leftKeys
          let right1 : BTreeNode := (right.withData rdata).withNumkeys rightKeys
          match left1.Serialize c2 node with
          | (ERROR_T.ERROR_NOERROR, c3) =>
            let r := right1.Serialize c3 secondNode
            some (r.1, secondNode, promotedKey, { t1 with buffercache := r.2 })
          | (rc, c3) => some (rc, secondNode, promotedKey, { t1 with buffercache := c3 })
      else
        let leftKeys := left.info.numkeys / 2
        if left.info.numkeys < leftKeys + 1 then none
        else
          let rightKeys := left.info.numkeys - leftKeys - 1
          let promotedKey := orKeep promotedKey (left.GetKey m leftKeys)
          let rdata := copyBytes right.data (right.ResolvePtr m 0) left.data
            (left.ResolvePtr m (leftKeys + 1))
            (rightKeys * (left.info.keysize + m.sizeofSIZE_T + m.sizeofSIZE_T))
          let left1 : BTreeNode := left.withNumkeys leftKeys
          let right1 : BTreeNode := (right.withData rdata).withNumkeys rightKeys
          match left1.Serialize c2 node with
          | (ERROR_T.ERROR_NOERROR, c3) =>
            let r := right1.Serialize c3 secondNode
            some (r.1, secondNode, promotedKey, { t1 with buffercache := r.2 })
          | (rc, c3) => some (rc, secondNode, promotedKey, { t1 with buffercache := c3 })
    | (rc, c2) => some (rc, secondNode, promotedKey, { t1 with buffercache := c2 })
  | some (rc, secondNode, t1) => some (rc, secondNode, promotedKey, t1)

/-- The stores AddKeyVal makes at slot `offset` (btree.cc 918-930 and
937-949): the key, then the value of a leaf or, for an interior node, the
pointer right of the key. The code is the error returned at once, if any. -/
def storeKeyVal (b : BTreeNode) (offset : Nat) (key : KEY_T) (value : VALUE_T) (newNode : Nat) :
    ERROR_T × BTreeNode :=
  match b.SetKey m offset key with
  | .error rc => (rc, b)
  | .ok b2 =>
    if b2.info.nodetype = NodeType.BTREE_LEAF_NODE then
      match b2.SetVal m offset value with
      | .error rc => (rc, b2)
      | .ok b3 => (ERROR_T.ERROR_NOERROR, b3)
    else
      match b2.SetPtr m (offset + 1) newNode with
      | .error rc => (rc, b2)
      | .ok b3 => (ERROR_T.ERROR_NOERROR, b3)

/-- The loop of BTreeIndex::AddKeyVal (btree.cc 902-952) from `offset` on, with
`cnt` keys left to look at. The code is `ERROR_NOERROR` when the loop ends by
`break` or runs out, otherwise the error the function returns at once. -/
def addKeyValLoop (b : BTreeNode) (key : KEY_T) (value : VALUE_T) (newNode numkeys pairSize : Nat) :
    Nat → Nat → ERROR_T × BTreeNode
  | _, 0 => (ERROR_T.ERROR_NOERROR, b)
  | offset, cnt + 1 =>
    let numToMove := cnt + 1
    match b.GetKey m offset with
    | .error rc => (rc, b)
    | .ok testkey =>
      if keyLt key testkey = true then
        let b1 : BTreeNode :=
          b.withData (copyBytes b.data (b.ResolveKey m (offset + 1)) b.data
            (b.ResolveKey m offset) (numToMove * pairSize))
        storeKeyVal m b1 offset key value newNode
      else if offset = numkeys - 1 then storeKeyVal m b numkeys key value newNode
      else addKeyValLoop b key value newNode numkeys pairSize (offset + 1) cnt

/-- The stores AddKeyVal makes into a node without keys (btree.cc 954-960):
the key and the value at slot 0. -/
def storeFirst (b : BTreeNode) (key : KEY_T) (value : VALUE_T) : ERROR_T × BTreeNode :=
  match b.SetKey m 0 key with
  | .error rc => (rc, b)
  | .ok b1 =>
    match b1.SetVal m 0 value with
    | .error rc => (rc, b1)
    | .ok b2 => (ERROR_T.ERROR_NOERROR, b2)

/-- BTreeIndex::AddKeyVal (btree.cc 872-965). -/
def AddKeyVal (t : BTreeIndex) (node : Nat) (key : KEY_T) (value : VALUE_T) (newNode : Nat) :
    ERROR_T × BTreeIndex :=
  let b := (BTreeNode.default.Unserialize t.buffercache node).2
  let numkeys := b.info.numkeys
  match (match b.info.nodetype with
    | NodeType.BTREE_ROOT_NODE | NodeType.BTREE_INTERIOR_NODE =>
      some (b.info.keysize + m.sizeofSIZE_T)
    | NodeType.BTREE_LEAF_NODE => some (b.info.keysize + b.info.valuesize)
    | _ => none) with
  | none => (ERROR_T.ERROR_INSANE, t)
  | some pairSize =>
    let b0 : BTreeNode := b.withNumkeys (b.info.numkeys + 1)
    let r : ERROR_T × BTreeNode :=
      if numkeys > 0 then addKeyValLoop m b0 key value newNode numkeys pairSize 0 numkeys
      else storeFirst m b0 key value
    match r with
    | (ERROR_T.ERROR_NOERROR, b3) =>
      let w := b3.Serialize t.buffercache node
      (w.1, { t with buffercache := w.2 })
    | (rc, _) => (rc, t)

/-- What SearchInternal2 does after the recursive call on child `ptr`
returned without error (btree.cc 818-831 and 842-851): split the child when it
is full and add the promoted key and the new block to `node`. -/
def splitChild (t1 : BTreeIndex) (node ptr : Nat) : Option (ERROR_T × BTreeIndex) :=
  if NeedToSplit m t1 ptr then
    match SplitNode m t1 ptr [] with
    | none => none
    | some (ERROR_T.ERROR_NOERROR, secondNode, promotedKey, t2) =>
      some (AddKeyVal m t2 node promotedKey [] secondNode)
    | some (rc, _, _, t2) => some (rc, t2)
  else some (ERROR_T.ERROR_NOERROR, t1)

/-- BTreeIndex::SearchInternal2 (btree.cc 778-869). `fuel` bounds the depth of
the recursion. -/
def SearchInternal2 : Nat → BTreeIndex → Nat → KEY_T → VALUE_T → Nat → Option (ERROR_T × BTreeIndex)
  | 0, _, _, _, _, _ => none
  | fuel + 1, t, node, key, value, _ =>
    match BTreeNode.default.Unserialize t.buffercache node with
    | (ERROR_T.ERROR_NOERROR, b) =>
      match b.info.nodetype with
      | NodeType.BTREE_ROOT_NODE | NodeType.BTREE_INTERIOR_NODE =>
        match pickChild m b key with
        | .error rc => some (rc, t)
        | .ok ptr =>
          match SearchInternal2 fuel t ptr key value node with
          | none => none
          | some (ERROR_T.ERROR_NOERROR, t1) => splitChild m t1 node ptr
          | some (rc, t1) => some (rc, t1)
      | NodeType.BTREE_LEAF_NODE => some (AddKeyVal m t node key value 0)
      | _ => some (ERROR_T.ERROR_INSANE, t)
    | (rc, _) => some (rc, t)

/-- The three stores that fill a root with one key (btree.cc 399-403 and
452-456): `SetKey(0, key)`, `SetPtr(0, p0)`, `SetPtr(1, p1)`, their result
codes ignored. -/
def fillRoot (root : BTreeNode) (key : KEY_T) (p0 p1 : Nat) : BTreeNode :=
  let root2 := orKeep root (root.SetKey m 0 key)
  let root3 := orKeep root2 (root2.SetPtr m 0 p0)
  orKeep root3 (root3.SetPtr m 1 p1)

/-- CASE 1 of BTreeIndex::Insert (btree.cc 373-407), entered when the root has
no key: two leaves are allocated and written, the key is planted in the root
with the leaves as its two children. The result carries the `root` object as
the rest of Insert sees it. -/
def bootstrap (t : BTreeIndex) (root : BTreeNode) (key : KEY_T) :
    Option (ERROR_T × BTreeNode × BTreeIndex) :=
  let leaf := BTreeNode.mk4 m NodeType.BTREE_LEAF_NODE t.superblock.info.keysize
    t.superblock.info.valuesize t.buffercache.blocksize
  match AllocateNode t false with
  | none => none
  | some (ERROR_T.ERROR_NOERROR, firstNode, t1) =>
    match AllocateNode t1 false with
    | none => none
    | some (ERROR_T.ERROR_NOERROR, secondNode, t2) =>
      let c3 := (leaf.Serialize t2.buffercache firstNode).2
      let c4 := (leaf.Serialize c3 secondNode).2
      let root4 := fillRoot m (root.withNumkeys (root.info.numkeys + 1)) key firstNode secondNode
      let c5 := (root4.Serialize c4 t2.superblock.info.rootnode).2
      some (ERROR_T.ERROR_NOERROR, root4, { t2 with buffercache := c5 })
    | some (rc, _, t2) => some (rc, root, t2)
  | some (rc, _, t1) => some (rc, root, t1)

/-- SUBCASE 2B of BTreeIndex::Insert (btree.cc 423-460), entered when the root
needs splitting: the root block is split, both halves are read and written
back, a block is allocated for the new root (the reference passed is
`superblock.info.rootnode` itself) and the `root` object, a copy of the root
read when Insert began, is written there with one key. -/
def splitRoot (t1 : BTreeIndex) (root : BTreeNode) (originalRoot : Nat) :
    Option (ERROR_T × BTreeIndex) :=
  match SplitNode m t1 originalRoot [] with
  | none => none
  | some (_, newNode, promotedKey, t2) =>
    let interior := BTreeNode.mk4 m NodeType.BTREE_INTERIOR_NODE
      t2.superblock.info.keysize t2.superblock.info.valuesize t2.buffercache.blocksize
    let interior := (interior.Unserialize t2.buffercache originalRoot).2
    let c3 := (interior.Serialize t2.buffercache originalRoot).2
    let interior := (interior.Unserialize c3 newNode).2
    let c4 := (interior.Serialize c3 newNode).2
    match AllocateNode { t2 with buffercache := c4 } true with
    | none => none
    | some (ERROR_T.ERROR_NOERROR, _, t4) =>
      let root4 := fillRoot m (root.withNumkeys 1) promotedKey originalRoot newNode
      let c5 := (root4.Serialize t4.buffercache t4.superblock.info.rootnode).2
      some (ERROR_T.ERROR_NOERROR, { t4 with buffercache := c5 })
    | some (rc, _, t4) => some (rc, t4)

/-- BTreeIndex::Insert (btree.cc 360-470). -/
def Insert (t : BTreeIndex) (key : KEY_T) (value : VALUE_T) : Option (ERROR_T × BTreeIndex) :=
  let root := (BTreeNode.default.Unserialize t.buffercache t.superblock.info.rootnode).2
  let originalRoot := t.superblock.info.rootnode
  -- CASE 1: the root is empty
  match (if root.info.numkeys = 0 then bootstrap m t root key
      else some (ERROR_T.ERROR_NOERROR, root, t)) with
  | none => none
  | some (ERROR_T.ERROR_NOERROR, root, t) =>
    -- CASE 2: the key does not exist yet
    match Lookup m t key with
    | none => none
    | some (ERROR_T.ERROR_NONEXISTENT, _) =>
      match SearchInternal2 m (depthBound t) t t.superblock.info.rootnode key value
          t.superblock.info.rootnode with
      | none => none
      | some (rc, t1) =>
        if NeedToSplit m t1 t1.superblock.info.rootnode then splitRoot m t1 root originalRoot
        else some (rc, t1)
    | some _ => some (ERROR_T.ERROR_CONFLICT, t)
  | some (rc, _, t) => some (rc, t)

/-- BTreeIndex::ConstLookup (btree.cc 1189-1249). -/
def ConstLookup : Nat → BTreeIndex → Nat → KEY_T → Option ERROR_T
  | 0, _, _, _ => none
  | fuel + 1, t, node, key =>
    match BTreeNode.default.Unserialize t.buffercache node with
    | (ERROR_T.ERROR_NOERROR, b) =>
      match b.info.nodetype with
      | NodeType.BTREE_ROOT_NODE | NodeType.BTREE_INTERIOR_NODE =>
        match pickChild m b key with
        | .error rc => some rc
        | .ok ptr => ConstLookup fuel t ptr key
      | NodeType.BTREE_LEAF_NODE =>
        match scanLeaf m b key 0 b.info.numkeys with
        | LeafScanResult.fail rc => some rc
        | LeafScanResult.hit _ => some ERROR_T.ERROR_NOERROR
        | LeafScanResult.miss => some ERROR_T.ERROR_NONEXISTENT
      | _ => some ERROR_T.ERROR_INSANE
    | (rc, _) => some rc

/-- The leaf loop of BTreeIndex::SanityCheckRecurse (btree.cc 1154-1173):
`testkey1` is the comparison key, `rc1` turns to `ERROR_NOERROR` once the
parent key is seen. The result is the code to return at once, or `rc1`. -/
def sanityLeafLoop (b : BTreeNode) (key : KEY_T) : KEY_T → ERROR_T → Nat → Nat → Except ERROR_T ERROR_T
  | _, rc1, _, 0 => .ok rc1
  | testkey1, rc1, offset, cnt + 1 =>
    match b.GetVal m offset with
    | .error rc => .error rc
    | .ok _ =>
      match b.GetKey m offset with
      | .error rc => .error rc
      | .ok testkey2 =>
        if ¬ (offset = 0) ∧ (testkey1 = testkey2 ∨ ¬ keyLt testkey1 testkey2 = true) then
          .error ERROR_T.ERROR_BADCONFIG
        else
          let rc1 := if testkey2 = key then ERROR_T.ERROR_NOERROR else rc1
          match b.GetKey m offset with
          | .error rc => .error rc
          | .ok testkey1 => sanityLeafLoop b key testkey1 rc1 (offset + 1) cnt

/-- The loop over the keys of a root or interior node shared by
BTreeIndex::SanityCheck (btree.cc 1074-1093) and SanityCheckRecurse
(btree.cc 1126-1148); `lookup` and `recurse` are the calls to ConstLookup and
SanityCheckRecurse. -/
def sanityLoop (lookup recurse : Nat → KEY_T → Option ERROR_T) (b : BTreeNode) :
    KEY_T → Nat → Nat → Option ERROR_T
  | _, _, 0 => some ERROR_T.ERROR_NOERROR
  | testkey1, offset, cnt + 1 =>
    match b.GetPtr m offset with
    | .error rc => some rc
    | .ok ptr =>
      match b.GetKey m offset with
      | .error rc => some rc
      | .ok testkey2 =>
        if ¬ (offset = 0) ∧ (testkey1 = testkey2 ∨ ¬ keyLt testkey1 testkey2 = true) then
          some ERROR_T.ERROR_BADCONFIG
        else
          match b.GetKey m offset with
          | .error rc => some rc
          | .ok testkey1 =>
            match lookup ptr testkey1 with
            | none => none
            | some ERROR_T.ERROR_NOERROR =>
              match recurse ptr testkey1 with
              | none => none
              | some ERROR_T.ERROR_NOERROR =>
                sanityLoop lookup recurse b testkey1 (offset + 1) cnt
              | some rc => some rc
            | some rc => some rc

/-- BTreeIndex::SanityCheckRecurse (btree.cc 1098-1187). -/
def SanityCheckRecurse : Nat → BTreeIndex → Nat → KEY_T → Option ERROR_T
  | 0, _, _, _ => none
  | fuel + 1, t, node, key =>
    match BTreeNode.default.Unserialize t.buffercache node with
    | (ERROR_T.ERROR_NOERROR, b) =>
      match b.GetKey m 0 with
      | .error rc => some rc
      | .ok testkey1 =>
        if b.info.numkeys = 0 ∨ keyLt key testkey1 = true then some ERROR_T.ERROR_BADCONFIG
        else
          match b.info.nodetype with
          | NodeType.BTREE_ROOT_NODE => some ERROR_T.ERROR_BADCONFIG
          | NodeType.BTREE_INTERIOR_NODE =>
            sanityLoop m (fun ptr k => ConstLookup m (depthBound t) t ptr k)
              (fun ptr k => SanityCheckRecurse fuel t ptr k) b testkey1 0 b.info.numkeys
          | NodeType.BTREE_LEAF_NODE =>
            match sanityLeafLoop m b key testkey1 ERROR_T.ERROR_BADCONFIG 0 b.info.numkeys with
            | .error rc => some rc
            | .ok rc1 => some rc1
          | _ => some ERROR_T.ERROR_INSANE
    | (rc, _) => some rc

/-- BTreeIndex::SanityCheck (btree.cc 1046-1096). -/
def SanityCheck (t : BTreeIndex) : Option ERROR_T :=
  match BTreeNode.default.Unserialize t.buffercache t.superblock.info.rootnode with
  | (ERROR_T.ERROR_NOERROR, b) =>
    if b.info.numkeys = 0 then some ERROR_T.ERROR_NOERROR
    else
      match b.GetKey m 0 with
      | .error rc => some rc
      | .ok testkey1 =>
        sanityLoop m (fun ptr k => ConstLookup m (depthBound t) t ptr k)
          (fun ptr k => SanityCheckRecurse m (depthBound t) t ptr k) b testkey1 0 b.info.numkeys
  | (rc, _) => some rc

/-- PrintNode (btree.cc 263-353) for BTREE_SORTED_KEYVAL on a leaf: the
(key, value) pairs printed, in slot order, and the code returned. -/
def printLeafLoop (b : BTreeNode) : Nat → Nat → ERROR_T × List (KEY_T × VALUE_T)
  | _, 0 => (ERROR_T.ERROR_NOERROR, [])
  | offset, cnt + 1 =>
    match (if offset = 0 then codeOf (b.GetPtr m offset) else ERROR_T.ERROR_NOERROR) with
    | ERROR_T.ERROR_NOERROR =>
      match b.GetKey m offset with
      | .error rc => (rc, [])
      | .ok key =>
        match b.GetVal m offset with
        | .error rc => (rc, [])
        | .ok value =>
          let r := printLeafLoop b (offset + 1) cnt
          (r.1, (key, value) :: r.2)
    | rc => (rc, [])

/-- PrintNode (btree.cc 263-353) with display type BTREE_SORTED_KEYVAL:
nothing for an interior or root node, the pairs of a leaf. -/
def PrintNode (b : BTreeNode) : ERROR_T × List (KEY_T × VALUE_T) :=
  match b.info.nodetype with
  | NodeType.BTREE_LEAF_NODE => printLeafLoop m b 0 b.info.numkeys
  | _ => (ERROR_T.ERROR_NOERROR, [])

/-- The loop over the pointers `offset..numkeys` of a node in
DisplayInternal (btree.cc 1005-1013); `recurse` is the recursive call. -/
def displayLoop (recurse : Nat → Option (ERROR_T × List (KEY_T × VALUE_T))) (b : BTreeNode) :
    Nat → Nat → Option (ERROR_T × List (KEY_T × VALUE_T))
  | _, 0 => some (ERROR_T.ERROR_NOERROR, [])
  | offset, cnt + 1 =>
    match b.GetPtr m offset with
    | .error rc => some (rc, [])
    | .ok ptr =>
      match recurse ptr with
      | none => none
      | some (ERROR_T.ERROR_NOERROR, out) =>
        match displayLoop recurse b (offset + 1) cnt with
        | none => none
        | some (rc, out1) => some (rc, out ++ out1)
      | some (rc, out) => some (rc, out)

/-- BTreeIndex::DisplayInternal (btree.cc 973-1029) with display type
BTREE_SORTED_KEYVAL: the code and the pairs written to the stream. -/
def DisplayInternal : Nat → BTreeIndex → Nat → Option (ERROR_T × List (KEY_T × VALUE_T))
  | 0, _, _ => none
  | fuel + 1, t, node =>
    match BTreeNode.default.Unserialize t.buffercache node with
    | (ERROR_T.ERROR_NOERROR, b) =>
      match PrintNode m b with
      | (ERROR_T.ERROR_NOERROR, out) =>
        match b.info.nodetype with
        | NodeType.BTREE_ROOT_NODE | NodeType.BTREE_INTERIOR_NODE =>
          if b.info.numkeys > 0 then
            match displayLoop m (fun ptr => DisplayInternal fuel t ptr) b 0 (b.info.numkeys + 1) with
            | none => none
            | some (rc, out1) => some (rc, out ++ out1)
          else some (ERROR_T.ERROR_NOERROR, out)
        | NodeType.BTREE_LEAF_NODE => some (ERROR_T.ERROR_NOERROR, out)
        | _ => some (ERROR_T.ERROR_INSANE, out)
      | (rc, out) => some (rc, out)
    | (rc, _) => some (rc, [])

/-- BTreeIndex::Display (btree.cc 1032-1043) with BTREE_SORTED_KEYVAL: it
returns ERROR_NOERROR whatever the traversal returned; the result is the list
of pairs written. -/
def Display (t : BTreeIndex) : Option (ERROR_T × List (KEY_T × VALUE_T)) :=
  match DisplayInternal m (depthBound t) t t.superblock.info.rootnode with
  | none => none
  | some (_, out) => some (ERROR_T.ERROR_NOERROR, out)

end BTreeIndex

/-! ## Workloads, capacities and the block partition -/

/-- Capacity of a leaf for the given sizes (GetNumSlotsAsLeaf of any node of
the tree). -/
def leafCapacity (m : Machine) (keysize valuesize blocksize : Nat) : Nat :=
  (blocksize - m.sizeofNodeMetadata - m.sizeofSIZE_T) / (keysize + valuesize)

/-- Capacity of an interior or root node for the given sizes
(GetNumSlotsAsInterior of any node of the tree). -/
def interiorCapacity (m : Machine) (keysize blocksize : Nat) : Nat :=
  (blocksize - m.sizeofNodeMetadata - m.sizeofSIZE_T) / (keysize + m.sizeofSIZE_T)

/-- A machine with 8-byte SIZE_T and a header of seven such words. -/
def machine64 : Machine := { sizeofSIZE_T := 8, sizeofNodeMetadata := 56 }

/-- A device of `n` blocks of `blocksize` bytes that was never formatted. -/
def blankCache (blocksize n : Nat) : BufferCache :=
  { blocksize := blocksize, blocks := List.replicate n BTreeNode.default }

/-- The state after `BTreeIndex(keysize, valuesize, cache)` and a successful
`Attach(0, true)`. -/
def fresh (m : Machine) (keysize valuesize : Nat) (cache : BufferCache) : Option BTreeIndex :=
  match BTreeIndex.Attach m (BTreeIndex.new keysize valuesize cache) 0 true with
  | some (ERROR_T.ERROR_NOERROR, t) => some t
  | _ => none

/-- Runs a workload of inserts, every one of which must return
ERROR_NOERROR. -/
def runInserts (m : Machine) : BTreeIndex → List (KEY_T × VALUE_T) → Option BTreeIndex
  | t, [] => some t
  | t, kv :: rest =>
    match BTreeIndex.Insert m t kv.1 kv.2 with
    | some (ERROR_T.ERROR_NOERROR, t1) => runInserts m t1 rest
    | _ => none

/-- A call of a workload: insert or update of a (key, value) pair. -/
inductive Call where
  | insert (key : KEY_T) (value : VALUE_T)
  | update (key : KEY_T) (value : VALUE_T)
deriving DecidableEq, Repr

/-- The key of a call. -/
def Call.key : Call → KEY_T
  | .insert k _ => k
  | .update k _ => k

/-- The value of a call. -/
def Call.value : Call → VALUE_T
  | .insert _ v => v
  | .update _ v => v

/-- Runs a workload of inserts and updates, every one of which must return
ERROR_NOERROR. -/
def runCalls (m : Machine) : BTreeIndex → List Call → Option BTreeIndex
  | t, [] => some t
  | t, Call.insert k v :: rest =>
    match BTreeIndex.Insert m t k v with
    | some (ERROR_T.ERROR_NOERROR, t1) => runCalls m t1 rest
    | _ => none
  | t, Call.update k v :: rest =>
    match BTreeIndex.Update m t k v with
    | some (ERROR_T.ERROR_NOERROR, t1) => runCalls m t1 rest
    | _ => none

/-- The blocks on the free list: those met following the `freelist` fields
from block `n` until 0. -/
def freeListFrom (c : BufferCache) : Nat → Nat → List Nat
  | 0, _ => []
  | fuel + 1, n =>
    if n = 0 then []
    else
      match c.blocks[n]? with
      | none => [n]
      | some b => n :: freeListFrom c fuel b.info.freelist

/-- The blocks on the free list of the index. -/
def freeBlocks (t : BTreeIndex) : List Nat :=
  freeListFrom t.buffercache (BTreeIndex.depthBound t) t.superblock.info.freelist

/-- The pointers 0..numkeys of a root or interior node that has keys. -/
def childPointers (m : Machine) (b : BTreeNode) : List Nat :=
  if b.info.numkeys > 0 then
    (List.range (b.info.numkeys + 1)).filterMap (fun i =>
      match b.GetPtr m i with
      | .ok p => some p
      | .error _ => none)
  else []

/-- The live nodes under block `n`: the root, interior and leaf nodes reached
through child pointers. -/
def liveFrom (m : Machine) (c : BufferCache) : Nat → Nat → List Nat
  | 0, _ => []
  | fuel + 1, n =>
    match c.blocks[n]? with
    | none => []
    | some b =>
      match b.info.nodetype with
      | NodeType.BTREE_ROOT_NODE | NodeType.BTREE_INTERIOR_NODE =>
        n :: ((childPointers m b).map (fun p => liveFrom m c fuel p)).flatten
      | NodeType.BTREE_LEAF_NODE => [n]
      | _ => []

/-- The live nodes of the index: those reachable from the superblock's
rootnode. -/
def liveBlocks (m : Machine) (t : BTreeIndex) : List Nat :=
  liveFrom m t.buffercache (BTreeIndex.depthBound t) t.superblock.info.rootnode

/-- A 4-byte key or value spelled by a number below 1000, as in "b007". -/
def word4 (c : Nat) (i : Nat) : List Nat := [c, 48 + i / 100, 48 + (i / 10) % 10, 48 + i % 10]

/-- The state after attaching to a fresh device and running a workload of
inserts (the unattached index if a step fails). -/
def stateAfter (m : Machine) (keysize valuesize : Nat) (cache : BufferCache)
    (w : List (KEY_T × VALUE_T)) : BTreeIndex :=
  match (fresh m keysize valuesize cache).bind (fun t0 => runInserts m t0 w) with
  | some t => t
  | none => BTreeIndex.new keysize valuesize cache

/-! ## The slot view of a node's bytes -/

/-- The bytes of a run of slots, each a key followed by its value bytes (the
value of a leaf slot, the encoded right pointer of an interior slot). -/
def flat : List (List Nat × List Nat) → List Nat
  | [] => []
  | e :: es => e.1 ++ e.2 ++ flat es

/-- Every slot of the run has a key of `ks` bytes and a value part of `w`
bytes. -/
def Uniform (ks w : Nat) (es : List (List Nat × List Nat)) : Prop :=
  ∀ e ∈ es, e.1.length = ks ∧ e.2.length = w

/-- The insertion AddKeyVal performs: before the first slot whose key is
greater than `key`, else at the end. -/
def insSlot {β : Type} (key : KEY_T) (e : KEY_T × β) : List (KEY_T × β) → List (KEY_T × β)
  | [] => [e]
  | x :: xs => if keyLt key x.1 = true then e :: x :: xs else x :: insSlot key e xs

/-- The value stored with `key` in a list of pairs, if any. -/
def assoc (key : KEY_T) : List (KEY_T × VALUE_T) → Option VALUE_T
  | [] => none
  | e :: r => if e.1 = key then some e.2 else assoc key r

/-- The child a descent for `key` takes: `p` is the pointer left of the first
separator, each separator carries the pointer to its right. -/
def pick (key : KEY_T) : Nat → List (KEY_T × Nat) → Nat
  | p, [] => p
  | p, (k, q) :: r => if keyLt key k = true ∨ key = k then p else pick key q r

/-! ## Well-formed nodes -/

/-- The sizes a tree is built with: the machine, the key and value sizes and
the block size of the device. -/
structure Geom where
  m : Machine
  keysize : Nat
  valuesize : Nat
  blocksize : Nat

/-- The pointer size `sizeof(SIZE_T)`. -/
def Geom.P (g : Geom) : Nat := g.m.sizeofSIZE_T

/-- The number of slot bytes of a block. -/
def Geom.D (g : Geom) : Nat := g.blocksize - g.m.sizeofNodeMetadata

/-- The leaf capacity. -/
def Geom.capL (g : Geom) : Nat := leafCapacity g.m g.keysize g.valuesize g.blocksize

/-- The interior capacity. -/
def Geom.capI (g : Geom) : Nat := interiorCapacity g.m g.keysize g.blocksize

/-- The slots of an interior node: each separator with the bytes of the
pointer to its right. -/
def ptrSlots (g : Geom) (kps : List (KEY_T × Nat)) : List (List Nat × List Nat) :=
  kps.map (fun e => (e.1, encodeSIZE_T g.P e.2))

/-- The header of the node carries the sizes of the tree and its buffer has
the full number of slot bytes. -/
def HdrOK (g : Geom) (b : BTreeNode) : Prop :=
  b.info.keysize = g.keysize ∧ b.info.valuesize = g.valuesize ∧
  b.info.blocksize = g.blocksize ∧ b.data.length = g.D

/-- The node `b` is a leaf holding exactly the entries `es`, in slot order,
with `slack` slots to spare. -/
def LeafAt (g : Geom) (b : BTreeNode) (es : List (KEY_T × VALUE_T)) (slack : Nat) : Prop :=
  b.info.nodetype = NodeType.BTREE_LEAF_NODE ∧ HdrOK g b ∧
  b.info.numkeys = es.length ∧ es.length + slack ≤ g.capL ∧
  Uniform g.keysize g.valuesize es ∧
  ∃ pre rest, pre.length = g.P ∧ b.data = pre ++ flat es ++ rest

/-- The node `b` is a root or interior node holding the leftmost pointer `p0`
and the separators `kps`, each with the pointer to its right, with `slack`
slots to spare. -/
def IntAt (g : Geom) (b : BTreeNode) (p0 : Nat) (kps : List (KEY_T × Nat)) (slack : Nat) : Prop :=
  (b.info.nodetype = NodeType.BTREE_ROOT_NODE ∨ b.info.nodetype = NodeType.BTREE_INTERIOR_NODE) ∧
  HdrOK g b ∧ b.info.numkeys = kps.length ∧ kps.length + slack ≤ g.capI ∧
  (∀ e ∈ kps, e.1.length = g.keysize ∧ e.2 < 256 ^ g.P) ∧ p0 < 256 ^ g.P ∧
  ∃ rest, b.data = encodeSIZE_T g.P p0 ++ flat (ptrSlots g kps) ++ rest

/-- The trailing pointer: the pointer right of the last separator, `p` when
there is none. -/
def lastPtr : Nat → List (KEY_T × Nat) → Nat
  | p, [] => p
  | _, (_, q) :: r => lastPtr q r

/-- The index with block `i` of the device replaced by `b`. -/
def BTreeIndex.put (t : BTreeIndex) (i : Nat) (b : BTreeNode) : BTreeIndex :=
  { t with buffercache := { t.buffercache with blocks := t.buffercache.blocks.set i b } }

/-! ## The superblock and the free list -/

/-- The cached superblock is a superblock, sits at block 0 and equals what is
stored there. -/
def SuperOK (t : BTreeIndex) : Prop :=
  t.superblock_index = 0 ∧ t.superblock.info.nodetype = NodeType.BTREE_SUPERBLOCK ∧
  t.superblock.data = [] ∧ t.buffercache.blocks[0]? = some t.superblock

/-- The blocks `fl` are chained from `head` by their `freelist` fields, each
stored as unallocated and met once, the last one pointing to 0. -/
def FreeChain (blocks : List BTreeNode) : Nat → List Nat → Prop
  | head, [] => head = 0
  | head, x :: xs =>
    head = x ∧ x ≠ 0 ∧ x ∉ xs ∧ ∃ b, blocks[x]? = some b ∧
      b.info.nodetype = NodeType.BTREE_UNALLOCATED_BLOCK ∧ FreeChain blocks b.info.freelist xs

/-- Going from `t` to `t1` keeps the superblock in step with block 0 and
keeps the root pointer and the size of the device. -/
def Keeps (t t1 : BTreeIndex) : Prop :=
  SuperOK t1 ∧ t1.superblock.info.rootnode = t.superblock.info.rootnode ∧
  t1.buffercache.blocks.length = t.buffercache.blocks.length ∧
  t1.buffercache.blocksize = t.buffercache.blocksize ∧
  t1.superblock.info.keysize = t.superblock.info.keysize ∧
  t1.superblock.info.valuesize = t.superblock.info.valuesize

/-- The state after attaching to a fresh device and running a workload of
inserts and updates (the unattached index if a step fails). -/
def stateAfterCalls (m : Machine) (keysize valuesize : Nat) (cache : BufferCache)
    (w : List Call) : BTreeIndex :=
  match (fresh m keysize valuesize cache).bind (fun t0 => runCalls m t0 w) with
  | some t => t
  | none => BTreeIndex.new keysize valuesize cache

/-- Every leaf stored on the device carries the value size of the tree and
keeps its `numkeys` slots inside its slot bytes. -/
def LeavesOK (m : Machine) (t : BTreeIndex) : Prop :=
  ∀ b ∈ t.buffercache.blocks, b.info.nodetype = NodeType.BTREE_LEAF_NODE →
    b.info.valuesize = t.superblock.info.valuesize ∧
    m.sizeofSIZE_T + b.info.numkeys * (b.info.keysize + b.info.valuesize) ≤ b.data.length

instance (m : Machine) (t : BTreeIndex) : Decidable (LeavesOK m t) :=
  inferInstanceAs (Decidable (∀ b ∈ t.buffercache.blocks,
    b.info.nodetype = NodeType.BTREE_LEAF_NODE →
      b.info.valuesize = t.superblock.info.valuesize ∧
      m.sizeofSIZE_T + b.info.numkeys * (b.info.keysize + b.info.valuesize) ≤ b.data.length))

/-- The kind of node AddKeyVal works on and the value part it stores: the
value of a leaf, the encoded pointer of an interior or root node. -/
def SlotKind (g : Geom) (b : BTreeNode) (v : VALUE_T) (newNode w : Nat) (val : List Nat) : Prop :=
  (b.info.nodetype = NodeType.BTREE_LEAF_NODE ∧ w = g.valuesize ∧ val = v) ∨
  ((b.info.nodetype = NodeType.BTREE_ROOT_NODE ∨ b.info.nodetype = NodeType.BTREE_INTERIOR_NODE) ∧
    w = g.P ∧ val = encodeSIZE_T g.P newNode)

/-! ## Well-formed trees -/

/-- The key lies above the lower bound `lo`; no bound is no constraint. -/
def above (lo : Option KEY_T) (key : KEY_T) : Prop := ∀ l, lo = some l → keyLt l key = true

/-- The key is at most the upper bound `hi`. -/
def below (key : KEY_T) (hi : Option KEY_T) : Prop :=
  ∀ u, hi = some u → keyLt key u = true ∨ key = u

/-- The key lies strictly below the upper bound `hi`. -/
def sbelow (key : KEY_T) (hi : Option KEY_T) : Prop := ∀ u, hi = some u → keyLt key u = true

/-- The children of an interior node: `p` is the pointer left of the first
separator of `kps`, each separator carries the pointer to its right. The child
left of a separator `k` holds keys at most `k`, the child right of it keys
above `k`; separators increase strictly and lie strictly between `lo` and
`hi`. `S p lo hi c o` says that block `p` roots a subtree for the key range
`(lo, hi]` with the pairs `c`, in key order, stored in the blocks `o`. -/
def Kids (S : Nat → Option KEY_T → Option KEY_T → List (KEY_T × VALUE_T) → Finset Nat → Prop) :
    Nat → Option KEY_T → List (KEY_T × Nat) → Option KEY_T → List (KEY_T × VALUE_T) →
      Finset Nat → Prop
  | p, lo, [], hi, c, o => S p lo hi c o
  | p, lo, e :: r, hi, c, o =>
    above lo e.1 ∧ sbelow e.1 hi ∧
    ∃ c1 o1 c2 o2, S p lo (some e.1) c1 o1 ∧ Kids S e.2 (some e.1) r hi c2 o2 ∧
      c = c1 ++ c2 ∧ o = o1 ∪ o2 ∧ Disjoint o1 o2

/-- Block `blk` of the device roots a subtree of height `h` for the key range
`(lo, hi]`: its leaves, all at depth `h`, hold the pairs `c` in key order, its
nodes are the blocks `o`, each met once, and the node `blk` itself has `slack`
slots to spare while every node below it has one. -/
def Node (g : Geom) (dev : List BTreeNode) :
    Nat → Nat → Option KEY_T → Option KEY_T → List (KEY_T × VALUE_T) → Finset Nat → Nat → Prop
  | 0, blk, lo, hi, c, o, s =>
    ∃ b, dev[blk]? = some b ∧ LeafAt g b c s ∧
      c.Pairwise (fun x y => keyLt x.1 y.1 = true) ∧
      (∀ e ∈ c, above lo e.1 ∧ below e.1 hi) ∧ o = {blk}
  | h + 1, blk, lo, hi, c, o, s =>
    ∃ b p0 kps o1, dev[blk]? = some b ∧ IntAt g b p0 kps s ∧ 1 ≤ kps.length ∧
      blk ∉ o1 ∧ o = insert blk o1 ∧
      Kids (fun p l u c1 o2 => Node g dev h p l u c1 o2 1) p0 lo kps hi c o1

/-- The root block holds a root without keys, as Attach leaves it. -/
def EmptyRoot (g : Geom) (dev : List BTreeNode) (blk : Nat) : Prop :=
  ∃ b, dev[blk]? = some b ∧ b.info.nodetype = NodeType.BTREE_ROOT_NODE ∧ HdrOK g b ∧
    b.info.numkeys = 0

/-- The free list of the index: a chain of unallocated blocks from the
superblock's head or, on a device of two blocks, the head Attach leaves
behind, the number of a block the device does not have. -/
def FreeOK (t : BTreeIndex) (fl : List Nat) : Prop :=
  FreeChain t.buffercache.blocks t.superblock.info.freelist fl ∨
  (fl = [] ∧ t.superblock.info.freelist = t.buffercache.blocks.length)

/-- The tree invariant of the index: the superblock is in step with block 0,
the sizes are those of `g`, block numbers fit a SIZE_T, and the root is either
an empty root or roots a tree holding exactly the pairs `c`. -/
def TreeInv (g : Geom) (t : BTreeIndex) (c : List (KEY_T × VALUE_T)) : Prop :=
  SuperOK t ∧ t.superblock.info.keysize = g.keysize ∧
  t.superblock.info.valuesize = g.valuesize ∧ t.buffercache.blocksize = g.blocksize ∧
  t.buffercache.blocks.length ≤ 256 ^ g.P ∧
  ∃ fl, (c = [] ∧ EmptyRoot g t.buffercache.blocks t.superblock.info.rootnode ∧ FreeOK t fl) ∨
     (∃ h o, FreeChain t.buffercache.blocks t.superblock.info.freelist fl ∧
        Node g t.buffercache.blocks (h + 1) t.superblock.info.rootnode none none c o 1)

/-- The result of a lookup that ends at the value `r` found, if any. -/
def lookupResult (r : Option VALUE_T) (x : VALUE_T) (t : BTreeIndex) :
    ERROR_T × VALUE_T × BTreeIndex :=
  match r with
  | some v => (ERROR_T.ERROR_NOERROR, v, t)
  | none => (ERROR_T.ERROR_NONEXISTENT, x, t)

/-! ## A coarser invariant: every block is well formed for its type

It holds also on devices whose interior nodes are too small for the split to
keep all children (one or two keys), where the tree loses subtrees but stays a
structure every descent gets through. -/

/-- The block `p` holds a tree node (root, interior or leaf). -/
def Live (dev : List BTreeNode) (p : Nat) : Prop :=
  ∃ c, dev[p]? = some c ∧ hasData c.info.nodetype = true

/-- The block `p` holds a root or interior node without keys: every descent
that reaches it ends there with ERROR_NONEXISTENT. -/
def Dead (dev : List BTreeNode) (p : Nat) : Prop :=
  ∃ c, dev[p]? = some c ∧
    (c.info.nodetype = NodeType.BTREE_ROOT_NODE ∨
      c.info.nodetype = NodeType.BTREE_INTERIOR_NODE) ∧ c.info.numkeys = 0

/-- The child pointers of a node with leftmost pointer `p0` and separators
`kps`. -/
def kidsOf (p0 : Nat) (kps : List (KEY_T × Nat)) : List Nat := p0 :: kps.map Prod.snd

/-- The block `blk` with content `b` is well formed for its type, with `s`
slots to spare: a leaf sits at height 0 and holds keys of `ks` only; a root or
interior node sits at a positive height and either has no key or points to tree
nodes one level below. -/
def WB (g : Geom) (ks : List KEY_T) (dev : List BTreeNode) (ht : Nat → Nat) (blk : Nat)
    (b : BTreeNode) (s : Nat) : Prop :=
  (b.info.nodetype = NodeType.BTREE_LEAF_NODE →
    ht blk = 0 ∧ ∃ es, LeafAt g b es s ∧ ∀ e ∈ es, e.1 ∈ ks) ∧
  ((b.info.nodetype = NodeType.BTREE_ROOT_NODE ∨
      b.info.nodetype = NodeType.BTREE_INTERIOR_NODE) →
    1 ≤ ht blk ∧ HdrOK g b ∧ b.info.numkeys + s ≤ g.capI ∧
    (b.info.numkeys = 0 ∨
      ∃ p0 kps, kps ≠ [] ∧ IntAt g b p0 kps s ∧
        ∀ p ∈ kidsOf p0 kps, Live dev p ∧ ht p + 1 = ht blk))

/-- Every block of the device is well formed, block `j` with `sl j` slots to
spare. -/
def WBs (g : Geom) (ks : List KEY_T) (dev : List BTreeNode) (ht : Nat → Nat)
    (sl : Nat → Nat) : Prop :=
  ∀ j c, dev[j]? = some c → WB g ks dev ht j c (sl j)

/-- The coarse invariant of the index: the superblock is in step with block
0, the sizes are those of `g`, block numbers fit a SIZE_T, the free list is a
chain of unallocated blocks, every block is well formed for its type, every
node but the root has a slot to spare, a root without keys sits at height 1
(its children will be leaves), and a root that is full has only children
without keys. The keys stored in leaves are among `ks`. -/
def WeakInv (g : Geom) (t : BTreeIndex) (ks : List KEY_T) : Prop :=
  SuperOK t ∧ t.superblock.info.keysize = g.keysize ∧
  t.superblock.info.valuesize = g.valuesize ∧ t.buffercache.blocksize = g.blocksize ∧
  t.buffercache.blocks.length ≤ 256 ^ g.P ∧
  ∃ ht fl b,
    t.buffercache.blocks[t.superblock.info.rootnode]? = some b ∧
    (b.info.nodetype = NodeType.BTREE_ROOT_NODE ∨
      b.info.nodetype = NodeType.BTREE_INTERIOR_NODE) ∧
    (FreeChain t.buffercache.blocks t.superblock.info.freelist fl ∨
      (b.info.numkeys = 0 ∧ fl = [] ∧
        t.superblock.info.freelist = t.buffercache.blocks.length)) ∧
    ht t.superblock.info.rootnode + fl.length + 1 ≤ t.buffercache.blocks.length ∧
    (b.info.numkeys = 0 → ht t.superblock.info.rootnode = 1) ∧
    WBs g ks t.buffercache.blocks ht
      (fun j => if j = t.superblock.info.rootnode then 0 else 1) ∧
    (b.info.numkeys + 1 ≤ g.capI ∨
      ∃ p0 kps, IntAt g b p0 kps 0 ∧ ∀ p ∈ kidsOf p0 kps, Dead t.buffercache.blocks p)

open BTreeIndex

/-! ## Definitions for the allocator, the split and the descent of an insert -/

/-- The cached superblock after a successful AllocateNode that popped a block
whose stored `freelist` field is `next`: the head is `next`, and the cached
rootnode is the popped block when the caller passed that field as `n`. -/
def poppedSuper (t : BTreeIndex) (into : Bool) (next : Nat) : BTreeNode :=
  (if into then t.superblock.withRootnode t.superblock.info.freelist
    else t.superblock).withFreelist next

/-- BTreeIndex::Insert up to the return of the descent (btree.cc 360-421):
the bootstrap of an empty root, the existence check and the call of
SearchInternal2. The result carries the code of the descent, the `root` object
and the index as the test `NeedToSplit(superblock.info.rootnode)` finds them;
`none` when Insert does not get that far. -/
def insertDescent (m : Machine) (t : BTreeIndex) (key : KEY_T) (value : VALUE_T) :
    Option (ERROR_T × BTreeNode × BTreeIndex) :=
  let root := (BTreeNode.default.Unserialize t.buffercache t.superblock.info.rootnode).2
  match (if root.info.numkeys = 0 then bootstrap m t root key
      else some (ERROR_T.ERROR_NOERROR, root, t)) with
  | some (ERROR_T.ERROR_NOERROR, root, t) =>
    match Lookup m t key with
    | some (ERROR_T.ERROR_NONEXISTENT, _) =>
      match SearchInternal2 m (depthBound t) t t.superblock.info.rootnode key value
          t.superblock.info.rootnode with
      | none => none
      | some (rc, t1) => some (rc, root, t1)
    | _ => none
  | _ => none

/-- The blocks the descent of SearchInternal2 for `key` visits from `node`
down (btree.cc 778-856, the reads on the way down): a root or interior node is
followed by the child the scan picks, anything else ends the path. -/
def descentPath (m : Machine) : Nat → BTreeIndex → Nat → KEY_T → List Nat
  | 0, _, _, _ => []
  | fuel + 1, t, node, key =>
    match BTreeNode.default.Unserialize t.buffercache node with
    | (ERROR_T.ERROR_NOERROR, b) =>
      match b.info.nodetype with
      | NodeType.BTREE_ROOT_NODE | NodeType.BTREE_INTERIOR_NODE =>
        match pickChild m b key with
        | .error _ => [node]
        | .ok ptr => node :: descentPath m fuel t ptr key
      | _ => [node]
    | _ => [node]

/-- The workload of `n` inserts ("b000","v000"), ("b001","v001"), .. in
ascending key order. -/
def ascendingRun (n : Nat) : List (KEY_T × VALUE_T) :=
  (List.range n).map (fun i => (word4 98 i, word4 118 i))

/-- The workload of `n` inserts ("b009","v009"), ("b008","v008"), .. in
descending key order: a first key followed by smaller keys. -/
def descendingRun (n : Nat) : List (KEY_T × VALUE_T) :=
  (List.range n).map (fun i => (word4 98 (9 - i), word4 118 (9 - i)))

/-- The workload of `n` inserts of the keys "b000", "b001", .. in ascending
order, each with a value of 12 bytes. -/
def wideRun (n : Nat) : List (KEY_T × VALUE_T) :=
  (List.range n).map (fun i => (word4 98 i, List.replicate 12 i))

/-! ## Ordered trees of any shape -/

/-- The node with `info.nodetype` set to `ty`. -/
def BTreeNode.withNodetype (b : BTreeNode) (ty : NodeType) : BTreeNode :=
  { b with info := { b.info with nodetype := ty } }

/-- A leaf of 100-byte blocks holding the two keys "b009", "b005", in this
order: its keys are not increasing. -/
def unsortedLeaf : BTreeNode :=
  let b0 := (BTreeNode.mk4 machine64 NodeType.BTREE_LEAF_NODE 4 4 100).withNumkeys 2
  let b1 := orKeep b0 (b0.SetKey machine64 0 (word4 98 9))
  orKeep b1 (b1.SetKey machine64 1 (word4 98 5))

/-- The workload of `n` inserts of the keys "b000", "b001", .. in ascending
order, each with a value of `valuesize` equal bytes. -/
def plainRun (valuesize n : Nat) : List (KEY_T × VALUE_T) :=
  (List.range n).map (fun i => (word4 98 i, List.replicate valuesize i))

/-- Block `q` is reachable from block `p` through child pointers: a root or
interior node leads to the blocks its pointers 0..numkeys name, the trailing
pointer (index numkeys) included. -/
inductive Reach (m : Machine) (dev : List BTreeNode) : Nat → Nat → Prop
  | here (p : Nat) : Reach m dev p p
  | step (p q r : Nat) (b : BTreeNode) (i : Nat) :
      dev[p]? = some b →
      (b.info.nodetype = NodeType.BTREE_ROOT_NODE ∨
        b.info.nodetype = NodeType.BTREE_INTERIOR_NODE) →
      i ≤ b.info.numkeys → b.GetPtr m i = .ok q → Reach m dev q r → Reach m dev p r

/-- Some leaf reachable from block `p` holds an entry with key `key`. -/
def LeafKeyUnder (m : Machine) (dev : List BTreeNode) (p : Nat) (key : KEY_T) : Prop :=
  ∃ q lf j, Reach m dev p q ∧ dev[q]? = some lf ∧
    lf.info.nodetype = NodeType.BTREE_LEAF_NODE ∧ j < lf.info.numkeys ∧
    lf.GetKey m j = .ok key

/-- Every separator key of every root or interior block of the device is one
of the keys `ks`. -/
def SepIn (m : Machine) (dev : List BTreeNode) (ks : List KEY_T) : Prop :=
  ∀ (j : Nat) (b : BTreeNode), dev[j]? = some b →
    (b.info.nodetype = NodeType.BTREE_ROOT_NODE ∨
      b.info.nodetype = NodeType.BTREE_INTERIOR_NODE) →
    ∀ (i : Nat) (k : KEY_T), i < b.info.numkeys → b.GetKey m i = .ok k → k ∈ ks

/-- The byte copy of the interior branch of BTreeIndex::SplitNode (btree.cc
537-556) on the node `left`: the location written in the new node
(`right.ResolvePtr(0)`), the location read in the old one
(`left.ResolvePtr(leftKeys + 1)`) and the number of bytes copied,
`rightKeys * (keysize + sizeof(SIZE_T) + sizeof(SIZE_T))`. -/
def interiorSplitCopy (m : Machine) (left : BTreeNode) : Option Nat × Option Nat × Nat :=
  let leftKeys := left.info.numkeys / 2
  let rightKeys := left.info.numkeys - leftKeys - 1
  (left.ResolvePtr m 0, left.ResolvePtr m (leftKeys + 1),
    rightKeys * (left.info.keysize + m.sizeofSIZE_T + m.sizeofSIZE_T))

/-! ## The sanity check with a record of the nodes it visits -/

/-- The loop `sanityLoop` with a record of the calls of SanityCheckRecurse it
makes: `recurse` returns the code of the call, if it returns, and the calls
made by it, itself included. The record of the loop is that of its calls in
order; it ends with the first call that does not return ERROR_NOERROR. -/
def sanityLoopLog (m : Machine) (lookup : Nat → KEY_T → Option ERROR_T)
    (recurse : Nat → KEY_T → Option ERROR_T × List (Nat × KEY_T)) (b : BTreeNode) :
    KEY_T → Nat → Nat → Option ERROR_T × List (Nat × KEY_T)
  | _, _, 0 => (some ERROR_T.ERROR_NOERROR, [])
  | testkey1, offset, cnt + 1 =>
    match b.GetPtr m offset with
    | .error rc => (some rc, [])
    | .ok ptr =>
      match b.GetKey m offset with
      | .error rc => (some rc, [])
      | .ok testkey2 =>
        if ¬ (offset = 0) ∧ (testkey1 = testkey2 ∨ ¬ keyLt testkey1 testkey2 = true) then
          (some ERROR_T.ERROR_BADCONFIG, [])
        else
          match b.GetKey m offset with
          | .error rc => (some rc, [])
          | .ok testkey1 =>
            match lookup ptr testkey1 with
            | none => (none, [])
            | some ERROR_T.ERROR_NOERROR =>
              match recurse ptr testkey1 with
              | (some ERROR_T.ERROR_NOERROR, log) =>
                let r := sanityLoopLog m lookup recurse b testkey1 (offset + 1) cnt
                (r.1, log ++ r.2)
              | (rc, log) => (rc, log)
            | some rc => (some rc, [])

/-- BTreeIndex::SanityCheckRecurse (btree.cc 1098-1187) with the record of
the calls made: the call itself, as (node, key), then the calls made by its
loop. A call beyond the depth bound is not recorded. -/
def SanityCheckRecurseLog (m : Machine) :
    Nat → BTreeIndex → Nat → KEY_T → Option ERROR_T × List (Nat × KEY_T)
  | 0, _, _, _ => (none, [])
  | fuel + 1, t, node, key =>
    match BTreeNode.default.Unserialize t.buffercache node with
    | (ERROR_T.ERROR_NOERROR, b) =>
      match b.GetKey m 0 with
      | .error rc => (some rc, [(node, key)])
      | .ok testkey1 =>
        if b.info.numkeys = 0 ∨ keyLt key testkey1 = true then
          (some ERROR_T.ERROR_BADCONFIG, [(node, key)])
        else
          match b.info.nodetype with
          | NodeType.BTREE_ROOT_NODE => (some ERROR_T.ERROR_BADCONFIG, [(node, key)])
          | NodeType.BTREE_INTERIOR_NODE =>
            let r := sanityLoopLog m (fun ptr k => ConstLookup m (depthBound t) t ptr k)
              (fun ptr k => SanityCheckRecurseLog m fuel t ptr k) b testkey1 0 b.info.numkeys
            (r.1, (node, key) :: r.2)
          | NodeType.BTREE_LEAF_NODE =>
            match sanityLeafLoop m b key testkey1 ERROR_T.ERROR_BADCONFIG 0 b.info.numkeys with
            | .error rc => (some rc, [(node, key)])
            | .ok rc1 => (some rc1, [(node, key)])
          | _ => (some ERROR_T.ERROR_INSANE, [(node, key)])
    | (rc, _) => (some rc, [(node, key)])

/-- BTreeIndex::SanityCheck (btree.cc 1046-1096) with the record of the calls
of SanityCheckRecurse made: the children visited, each as (node, key), the key
being the separator of the parent passed to the call. -/
def SanityCheckLog (m : Machine) (t : BTreeIndex) : Option ERROR_T × List (Nat × KEY_T) :=
  match BTreeNode.default.Unserialize t.buffercache t.superblock.info.rootnode with
  | (ERROR_T.ERROR_NOERROR, b) =>
    if b.info.numkeys = 0 then (some ERROR_T.ERROR_NOERROR, [])
    else
      match b.GetKey m 0 with
      | .error rc => (some rc, [])
      | .ok testkey1 =>
        sanityLoopLog m (fun ptr k => ConstLookup m (depthBound t) t ptr k)
          (fun ptr k => SanityCheckRecurseLog m (depthBound t) t ptr k) b testkey1 0
          b.info.numkeys
  | (rc, _) => (some rc, [])

/-! ## Insert with a record of the calls of AddKeyVal -/

/-- The function `splitChild` with the record of the call of AddKeyVal it
makes, if any: the node passed to the call and whether that node is full, as
NeedToSplit tells, in the state the call starts from. -/
def splitChildLog (m : Machine) (t1 : BTreeIndex) (node ptr : Nat) :
    Option (ERROR_T × BTreeIndex) × List (Nat × Bool) :=
  if NeedToSplit m t1 ptr then
    match SplitNode m t1 ptr [] with
    | none => (none, [])
    | some (ERROR_T.ERROR_NOERROR, secondNode, promotedKey, t2) =>
      (some (AddKeyVal m t2 node promotedKey [] secondNode), [(node, NeedToSplit m t2 node)])
    | some (rc, _, _, t2) => (some (rc, t2), [])
  else (some (ERROR_T.ERROR_NOERROR, t1), [])

/-- BTreeIndex::SearchInternal2 (btree.cc 778-869) with the record of the
calls of AddKeyVal made, in order: each as the node passed and whether the
node is full when the call starts. -/
def SearchInternal2Log (m : Machine) :
    Nat → BTreeIndex → Nat → KEY_T → VALUE_T → Nat →
      Option (ERROR_T × BTreeIndex) × List (Nat × Bool)
  | 0, _, _, _, _, _ => (none, [])
  | fuel + 1, t, node, key, value, _ =>
    match BTreeNode.default.Unserialize t.buffercache node with
    | (ERROR_T.ERROR_NOERROR, b) =>
      match b.info.nodetype with
      | NodeType.BTREE_ROOT_NODE | NodeType.BTREE_INTERIOR_NODE =>
        match pickChild m b key with
        | .error rc => (some (rc, t), [])
        | .ok ptr =>
          match SearchInternal2Log m fuel t ptr key value node with
          | (none, log) => (none, log)
          | (some (ERROR_T.ERROR_NOERROR, t1), log) =>
            let r := splitChildLog m t1 node ptr
            (r.1, log ++ r.2)
          | (some (rc, t1), log) => (some (rc, t1), log)
      | NodeType.BTREE_LEAF_NODE =>
        (some (AddKeyVal m t node key value 0), [(node, NeedToSplit m t node)])
      | _ => (some (ERROR_T.ERROR_INSANE, t), [])
    | (rc, _) => (some (rc, t), [])

/-- BTreeIndex::Insert (btree.cc 360-470) with the record of the calls of
AddKeyVal made (all of them are made by SearchInternal2). -/
def InsertLog (m : Machine) (t : BTreeIndex) (key : KEY_T) (value : VALUE_T) :
    Option (ERROR_T × BTreeIndex) × List (Nat × Bool) :=
  let root := (BTreeNode.default.Unserialize t.buffercache t.superblock.info.rootnode).2
  let originalRoot := t.superblock.info.rootnode
  match (if root.info.numkeys = 0 then bootstrap m t root key
      else some (ERROR_T.ERROR_NOERROR, root, t)) with
  | none => (none, [])
  | some (ERROR_T.ERROR_NOERROR, root, t) =>
    match Lookup m t key with
    | none => (none, [])
    | some (ERROR_T.ERROR_NONEXISTENT, _) =>
      match SearchInternal2Log m (depthBound t) t t.superblock.info.rootnode key value
          t.superblock.info.rootnode with
      | (none, log) => (none, log)
      | (some (rc, t1), log) =>
        (if NeedToSplit m t1 t1.superblock.info.rootnode then splitRoot m t1 root originalRoot
          else some (rc, t1), log)
    | some _ => (some (ERROR_T.ERROR_CONFLICT, t), [])
  | some (rc, _, t) => (some (rc, t), [])

/-- The workload `runInserts` with the record of the calls of AddKeyVal made
by its inserts, in order. -/
def runInsertsLog (m : Machine) :
    BTreeIndex → List (KEY_T × VALUE_T) → Option BTreeIndex × List (Nat × Bool)
  | t, [] => (some t, [])
  | t, kv :: rest =>
    match InsertLog m t kv.1 kv.2 with
    | (some (ERROR_T.ERROR_NOERROR, t1), log) =>
      let r := runInsertsLog m t1 rest
      (r.1, log ++ r.2)
    | (_, log) => (none, log)

/-- Every tree node of the device other than block `r` is named by a child
pointer (index 0..numkeys) of a root or interior block that has keys. -/
def ParIn (m : Machine) (dev : List BTreeNode) (r : Nat) : Prop :=
  ∀ (j : Nat) (b : BTreeNode), dev[j]? = some b → hasData b.info.nodetype = true → j ≠ r →
    ∃ (p : Nat) (bp : BTreeNode) (i : Nat), dev[p]? = some bp ∧
      (bp.info.nodetype = NodeType.BTREE_ROOT_NODE ∨
        bp.info.nodetype = NodeType.BTREE_INTERIOR_NODE) ∧
      1 ≤ bp.info.numkeys ∧ i ≤ bp.info.numkeys ∧ bp.GetPtr m i = .ok j


/-! ## Definitions for states outside the reach of successful inserts -/

/-- Runs a workload of inserts whatever the codes they return, as a caller
does that goes on after an error; `none` when an insert does not return. -/
def runInsertsAny (m : Machine) : BTreeIndex → List (KEY_T × VALUE_T) → Option BTreeIndex
  | t, [] => some t
  | t, kv :: rest =>
    match BTreeIndex.Insert m t kv.1 kv.2 with
    | some (_, t1) => runInsertsAny m t1 rest
    | none => none

/-- The node with `info.valuesize` set to `vs`. -/
def BTreeNode.withValuesize (b : BTreeNode) (vs : Nat) : BTreeNode :=
  { b with info := { b.info with valuesize := vs } }

/-- The tree of ("b000","v000") on 8 blocks of 100 bytes with the header of
its leaf (block 2) changed to a value size of 2 bytes. -/
def shortValueLeaf : BTreeIndex :=
  let t := stateAfter machine64 4 4 (blankCache 100 8) (ascendingRun 1)
  let leaf := (BTreeNode.default.Unserialize t.buffercache 2).2
  { t with buffercache := ((leaf.withValuesize 2).Serialize t.buffercache 2).2 }

/-! ## What every write of Insert keeps, whatever the capacities -/

/-- The node `b1` has the node type, the sizes and the buffer length of
`b`. -/
def SameShape (b b1 : BTreeNode) : Prop :=
  b1.info.nodetype = b.info.nodetype ∧ b1.info.keysize = b.info.keysize ∧
  b1.info.valuesize = b.info.valuesize ∧ b1.info.blocksize = b.info.blocksize ∧
  b1.data.length = b.data.length

/-- Going from the device `dev` to `dev1` keeps the number of blocks and the
shape of every block stored as a root, interior or leaf node, and every block
`dev1` stores as unallocated is stored the same in `dev`. -/
def Frame (dev dev1 : List BTreeNode) : Prop :=
  dev1.length = dev.length ∧
  (∀ (j : Nat) (b : BTreeNode), dev[j]? = some b → hasData b.info.nodetype = true →
    ∃ b1, dev1[j]? = some b1 ∧ SameShape b b1) ∧
  (∀ (j : Nat) (b1 : BTreeNode), dev1[j]? = some b1 → b1.info.nodetype = NodeType.BTREE_UNALLOCATED_BLOCK →
    dev[j]? = some b1)

/-- What holds of the root block and the free blocks in every state reached by
successful inserts, whatever the capacities of the nodes: the superblock is in
step with block 0, block numbers fit a SIZE_T, the root block is stored as a
root or interior node with the sizes of the tree and a full buffer, and the
`freelist` field of every unallocated block names a block of the device. -/
def RootInv (g : Geom) (t : BTreeIndex) : Prop :=
  SuperOK t ∧ t.buffercache.blocks.length ≤ 256 ^ g.P ∧
  (∃ b, t.buffercache.blocks[t.superblock.info.rootnode]? = some b ∧
    (b.info.nodetype = NodeType.BTREE_ROOT_NODE ∨
      b.info.nodetype = NodeType.BTREE_INTERIOR_NODE) ∧ HdrOK g b) ∧
  (∀ (j : Nat) (b : BTreeNode), t.buffercache.blocks[j]? = some b →
    b.info.nodetype = NodeType.BTREE_UNALLOCATED_BLOCK →
    b.info.freelist < t.buffercache.blocks.length)


/-! ## Naming the states of concrete runs -/

theorem runInserts_append (m : Machine) :
    ∀ (w1 : List (KEY_T × VALUE_T)) (t : BTreeIndex) (w2 : List (KEY_T × VALUE_T)),
      runInserts m t (w1 ++ w2) = (runInserts m t w1).bind (fun t1 => runInserts m t1 w2) := by
  intro w1
  induction w1 with
  | nil => intro t w2; rfl
  | cons e r ih =>
    intro t w2
    simp only [List.cons_append, runInserts]
    cases hi : BTreeIndex.Insert m t e.1 e.2 with
    | none => rfl
    | some x =>
      obtain ⟨rc, t1⟩ := x
      cases rc <;> first | exact ih t1 w2 | rfl

theorem runCalls_append (m : Machine) :
    ∀ (w1 : List Call) (t : BTreeIndex) (w2 : List Call),
      runCalls m t (w1 ++ w2) = (runCalls m t w1).bind (fun t1 => runCalls m t1 w2) := by
  intro w1
  induction w1 with
  | nil => intro t w2; rfl
  | cons e r ih =>
    intro t w2
    cases e with
    | insert k v =>
      simp only [List.cons_append, runCalls]
      cases hi : BTreeIndex.Insert m t k v with
      | none => rfl
      | some x =>
        obtain ⟨rc, t1⟩ := x
        cases rc <;> first | exact ih t1 w2 | rfl
    | update k v =>
      simp only [List.cons_append, runCalls]
      cases hi : Update m t k v with
      | none => rfl
      | some x =>
        obtain ⟨rc, t1⟩ := x
        cases rc <;> first | exact ih t1 w2 | rfl

/-- A workload of inserts that runs through names its final state. -/
theorem stateAfter_run (m : Machine) (ks vs : Nat) (c : BufferCache)
    (w : List (KEY_T × VALUE_T))
    (h : ((fresh m ks vs c).bind (fun t0 => runInserts m t0 w)).isSome = true) :
    ∃ t0, fresh m ks vs c = some t0 ∧ runInserts m t0 w = some (stateAfter m ks vs c w) := by
  unfold stateAfter
  cases hf : fresh m ks vs c with
  | none => rw [hf] at h; cases h
  | some t0 =>
    rw [hf] at h
    simp only [Option.some_bind] at h ⊢
    cases hr : runInserts m t0 w with
    | none => rw [hr] at h; cases h
    | some t => exact ⟨t0, rfl, hr⟩

/-- A workload of inserts that runs through, its last insert apart. -/
theorem stateAfter_step (m : Machine) (ks vs : Nat) (c : BufferCache)
    (w : List (KEY_T × VALUE_T)) (k : KEY_T) (v : VALUE_T)
    (h : ((fresh m ks vs c).bind (fun t0 => runInserts m t0 (w ++ [(k, v)]))).isSome = true) :
    ∃ t0, fresh m ks vs c = some t0 ∧ runInserts m t0 w = some (stateAfter m ks vs c w) ∧
      BTreeIndex.Insert m (stateAfter m ks vs c w) k v
        = some (ERROR_T.ERROR_NOERROR, stateAfter m ks vs c (w ++ [(k, v)])) := by
  unfold stateAfter
  cases hf : fresh m ks vs c with
  | none => rw [hf] at h; cases h
  | some t0 =>
    rw [hf] at h
    simp only [Option.some_bind, runInserts_append] at h ⊢
    cases hr : runInserts m t0 w with
    | none => rw [hr] at h; cases h
    | some t =>
      rw [hr] at h
      simp only [Option.some_bind, runInserts] at h ⊢
      cases hi : BTreeIndex.Insert m t k v with
      | none => rw [hi] at h; cases h
      | some x =>
        obtain ⟨rc, t1⟩ := x
        rw [hi] at h
        cases rc <;> first | exact ⟨t0, rfl, hr, rfl⟩ | cases h

/-- A workload of calls that runs through names its final state. -/
theorem stateAfterCalls_run (m : Machine) (ks vs : Nat) (c : BufferCache) (w : List Call)
    (h : ((fresh m ks vs c).bind (fun t0 => runCalls m t0 w)).isSome = true) :
    ∃ t0, fresh m ks vs c = some t0 ∧ runCalls m t0 w = some (stateAfterCalls m ks vs c w) := by
  unfold stateAfterCalls
  cases hf : fresh m ks vs c with
  | none => rw [hf] at h; cases h
  | some t0 =>
    rw [hf] at h
    simp only [Option.some_bind] at h ⊢
    cases hr : runCalls m t0 w with
    | none => rw [hr] at h; cases h
    | some t => exact ⟨t0, rfl, hr⟩

/-- A workload of calls that runs through, its last call, an insert, apart. -/
theorem stateAfterCalls_step (m : Machine) (ks vs : Nat) (c : BufferCache) (w : List Call)
    (k : KEY_T) (v : VALUE_T)
    (h : ((fresh m ks vs c).bind
      (fun t0 => runCalls m t0 (w ++ [Call.insert k v]))).isSome = true) :
    ∃ t0, fresh m ks vs c = some t0 ∧ runCalls m t0 w = some (stateAfterCalls m ks vs c w) ∧
      BTreeIndex.Insert m (stateAfterCalls m ks vs c w) k v
        = some (ERROR_T.ERROR_NOERROR, stateAfterCalls m ks vs c (w ++ [Call.insert k v])) := by
  unfold stateAfterCalls
  cases hf : fresh m ks vs c with
  | none => rw [hf] at h; cases h
  | some t0 =>
    rw [hf] at h
    simp only [Option.some_bind, runCalls_append] at h ⊢
    cases hr : runCalls m t0 w with
    | none => rw [hr] at h; cases h
    | some t =>
      rw [hr] at h
      simp only [Option.some_bind, runCalls] at h ⊢
      cases hi : BTreeIndex.Insert m t k v with
      | none => rw [hi] at h; cases h
      | some x =>
        obtain ⟨rc, t1⟩ := x
        rw [hi] at h
        cases rc <;> first | exact ⟨t0, rfl, hr, rfl⟩ | cases h


/-! ## Error codes carried by failures are never ERROR_NOERROR -/

theorem GetKey_error_ne (m : Machine) (b : BTreeNode) (i : Nat) (e : ERROR_T)
    (h : b.GetKey m i = .error e) : e ≠ ERROR_T.ERROR_NOERROR := by
  unfold BTreeNode.GetKey at h
  split at h
  · cases h; simp
  · split at h
    · cases h
    · cases h; simp

theorem GetVal_error_ne (m : Machine) (b : BTreeNode) (i : Nat) (e : ERROR_T)
    (h : b.GetVal m i = .error e) : e ≠ ERROR_T.ERROR_NOERROR := by
  unfold BTreeNode.GetVal at h
  split at h
  · cases h; simp
  · split at h
    · cases h
    · cases h; simp

theorem GetPtr_error_ne (m : Machine) (b : BTreeNode) (i : Nat) (e : ERROR_T)
    (h : b.GetPtr m i = .error e) : e ≠ ERROR_T.ERROR_NOERROR := by
  unfold BTreeNode.GetPtr at h
  cases hty : b.info.nodetype <;> simp only [hty] at h <;>
    first
      | (cases h; simp)
      | (split at h
         · cases h
         · cases h; simp)

theorem SetVal_error_ne (m : Machine) (b : BTreeNode) (i : Nat) (v : VALUE_T) (e : ERROR_T)
    (h : b.SetVal m i v = .error e) : e ≠ ERROR_T.ERROR_NOERROR := by
  unfold BTreeNode.SetVal at h
  split at h
  · cases h; simp
  · split at h
    · cases h
    · cases h; simp

theorem scanInterior_fail_ne (m : Machine) (b : BTreeNode) (key : KEY_T) (cnt off : Nat)
    (e : ERROR_T) (h : scanInterior m b key off cnt = ScanResult.fail e) :
    e ≠ ERROR_T.ERROR_NOERROR := by
  induction cnt generalizing off with
  | zero => simp [scanInterior] at h
  | succ n ih =>
    rw [scanInterior] at h
    cases hk : b.GetKey m off with
    | error e1 =>
      rw [hk] at h; simp at h; subst h
      exact GetKey_error_ne m b off _ hk
    | ok tk =>
      rw [hk] at h; simp only at h
      split at h
      · cases hp : b.GetPtr m off with
        | error e1 =>
          rw [hp] at h; simp at h; subst h
          exact GetPtr_error_ne m b off _ hp
        | ok p => rw [hp] at h; simp at h
      · exact ih _ h

theorem scanLeaf_fail_ne (m : Machine) (b : BTreeNode) (key : KEY_T) (cnt off : Nat)
    (e : ERROR_T) (h : scanLeaf m b key off cnt = LeafScanResult.fail e) :
    e ≠ ERROR_T.ERROR_NOERROR := by
  induction cnt generalizing off with
  | zero => simp [scanLeaf] at h
  | succ n ih =>
    rw [scanLeaf] at h
    cases hk : b.GetKey m off with
    | error e1 =>
      rw [hk] at h; simp at h; subst h
      exact GetKey_error_ne m b off _ hk
    | ok tk =>
      rw [hk] at h; simp only at h
      split at h
      · simp at h
      · exact ih _ h

theorem pickChild_error_ne (m : Machine) (b : BTreeNode) (key : KEY_T) (e : ERROR_T)
    (h : pickChild m b key = .error e) : e ≠ ERROR_T.ERROR_NOERROR := by
  unfold pickChild at h
  split at h
  · rename_i rc hs
    cases h
    exact scanInterior_fail_ne m b key _ _ _ hs
  · cases h
  · split at h
    · exact GetPtr_error_ne m b _ _ h
    · cases h; simp

theorem scanInterior_hit_cnt (m : Machine) (b : BTreeNode) (key : KEY_T) (off cnt o p : Nat)
    (h : scanInterior m b key off cnt = ScanResult.hit o p) : 0 < cnt := by
  cases cnt with
  | zero => simp [scanInterior] at h
  | succ n => omega

theorem scanLeaf_hit_cnt (m : Machine) (b : BTreeNode) (key : KEY_T) (off cnt o : Nat)
    (h : scanLeaf m b key off cnt = LeafScanResult.hit o) : 0 < cnt := by
  cases cnt with
  | zero => simp [scanLeaf] at h
  | succ n => omega

theorem pickChild_ok_numkeys (m : Machine) (b : BTreeNode) (key : KEY_T) (p : Nat)
    (h : pickChild m b key = .ok p) : 0 < b.info.numkeys := by
  unfold pickChild at h
  split at h
  · simp at h
  · rename_i o q hs
    exact scanInterior_hit_cnt m b key 0 _ o q hs
  · split at h
    · assumption
    · simp at h

/-- A lookup that succeeds started at a root with at least one key. -/
theorem lookup_noerror_root_numkeys (m : Machine) (t : BTreeIndex) (k : KEY_T) (v : VALUE_T)
    (h : Lookup m t k = some (ERROR_T.ERROR_NOERROR, v)) :
    (BTreeNode.default.Unserialize t.buffercache t.superblock.info.rootnode).2.info.numkeys ≠ 0 := by
  unfold Lookup depthBound at h
  rw [LookupOrUpdateInternal] at h
  generalize hu : BTreeNode.default.Unserialize t.buffercache t.superblock.info.rootnode = u at h ⊢
  obtain ⟨rc, b⟩ := u
  cases rc <;> simp at h
  cases hty : b.info.nodetype <;> simp [hty] at h
  · cases hp : pickChild m b k with
    | error e => simp [hp] at h; exact absurd h.1 (pickChild_error_ne m b k e hp)
    | ok p => exact Nat.pos_iff_ne_zero.mp (pickChild_ok_numkeys m b k p hp)
  · cases hp : pickChild m b k with
    | error e => simp [hp] at h; exact absurd h.1 (pickChild_error_ne m b k e hp)
    | ok p => exact Nat.pos_iff_ne_zero.mp (pickChild_ok_numkeys m b k p hp)
  · cases hs : scanLeaf m b k 0 b.info.numkeys with
    | fail rc => simp [hs] at h; exact absurd h.1 (scanLeaf_fail_ne m b k _ _ _ hs)
    | miss => simp [hs] at h
    | hit o => exact Nat.pos_iff_ne_zero.mp (scanLeaf_hit_cnt m b k 0 _ o hs)

/-- C3: an insert of a key whose lookup succeeds returns ERROR_CONFLICT and
leaves the whole state (every block of the device and the cached superblock)
as it was, so the lookup still returns the same value. -/
theorem insert_existing_key_conflict (m : Machine) (t : BTreeIndex) (k : KEY_T) (v v' : VALUE_T)
    (h : Lookup m t k = some (ERROR_T.ERROR_NOERROR, v)) :
    BTreeIndex.Insert m t k v' = some (ERROR_T.ERROR_CONFLICT, t) ∧
      Lookup m t k = some (ERROR_T.ERROR_NOERROR, v) := by
  have hroot := lookup_noerror_root_numkeys m t k v h
  refine ⟨?_, h⟩
  unfold BTreeIndex.Insert
  simp only [hroot, if_false, h]


/-! ## Order on keys -/

theorem keyLt_irrefl (a : KEY_T) : keyLt a a = false := by
  induction a with
  | nil => rfl
  | cons x xs ih => simp [keyLt, ih]

theorem keyLt_trans {a b c : KEY_T} (h1 : keyLt a b = true) (h2 : keyLt b c = true) :
    keyLt a c = true := by
  induction a generalizing b c with
  | nil =>
    cases b with
    | nil => simp [keyLt] at h1
    | cons y ys =>
      cases c with
      | nil => simp [keyLt] at h2
      | cons z zs => simp [keyLt]
  | cons x xs ih =>
    cases b with
    | nil => simp [keyLt] at h1
    | cons y ys =>
      cases c with
      | nil => simp [keyLt] at h2
      | cons z zs =>
        simp only [keyLt] at h1 h2 ⊢
        by_cases hxy : x < y
        · by_cases hyz : y < z
          · have : x < z := lt_trans hxy hyz
            simp [this]
          · simp only [hyz, if_false] at h2
            by_cases hzy : z < y
            · simp [hzy] at h2
            · have : y = z := by omega
              subst this; simp [hxy]
        · simp only [hxy, if_false] at h1
          by_cases hyx : y < x
          · simp [hyx] at h1
          · simp only [hyx, if_false] at h1
            have hxy' : x = y := by omega
            subst hxy'
            by_cases hyz : x < z
            · simp [hyz]
            · simp only [hyz, if_false] at h2 ⊢
              by_cases hzy : z < x
              · simp [hzy] at h2
              · simp only [hzy, if_false] at h2 ⊢
                exact ih h1 h2

theorem keyLt_asymm {a b : KEY_T} (h : keyLt a b = true) : keyLt b a = false := by
  cases hba : keyLt b a with
  | false => rfl
  | true =>
    have := keyLt_trans h hba
    rw [keyLt_irrefl] at this
    cases this

theorem keyLt_total (a b : KEY_T) : keyLt a b = true ∨ a = b ∨ keyLt b a = true := by
  induction a generalizing b with
  | nil =>
    cases b with
    | nil => simp
    | cons y ys => simp [keyLt]
  | cons x xs ih =>
    cases b with
    | nil => simp [keyLt]
    | cons y ys =>
      simp only [keyLt]
      by_cases hxy : x < y
      · simp [hxy]
      · by_cases hyx : y < x
        · simp [hxy, hyx]
        · have : x = y := by omega
          subst this
          simp only [lt_self_iff_false, if_false]
          rcases ih ys with h | h | h
          · exact Or.inl h
          · exact Or.inr (Or.inl (by rw [h]))
          · exact Or.inr (Or.inr h)

theorem keyLt_ne {a b : KEY_T} (h : keyLt a b = true) : a ≠ b := by
  intro hab
  subst hab
  rw [keyLt_irrefl] at h
  cases h

/-! ## Bytes -/

theorem length_writeAt (d : List Nat) (off : Nat) (bs : List Nat) :
    (writeAt d off bs).length = d.length := by
  unfold writeAt
  simp only [List.length_take, List.length_append, List.length_drop]
  omega

theorem writeAt_mid (a x c y : List Nat) (h : y.length = x.length) :
    writeAt (a ++ x ++ c) a.length y = a ++ y ++ c := by
  unfold writeAt
  have h1 : (a ++ x ++ c).take a.length = a := by
    rw [List.append_assoc, List.take_left]
  have h2 : (a ++ x ++ c).drop (a.length + y.length) = c := by
    rw [h, ← List.length_append, List.drop_left]
  rw [h1, h2]
  apply List.take_of_length_le
  simp only [List.length_append]
  omega

theorem writeAt_mid' (a x c y : List Nat) (off : Nat) (ho : off = a.length)
    (h : y.length = x.length) : writeAt (a ++ x ++ c) off y = a ++ y ++ c := by
  subst ho
  exact writeAt_mid a x c y h

theorem readAt_mid (a x c : List Nat) : readAt (a ++ x ++ c) a.length x.length = x := by
  unfold readAt
  rw [List.append_assoc, List.drop_left, List.take_left]

theorem readAt_mid' (a x c : List Nat) (off len : Nat) (ho : off = a.length)
    (hl : len = x.length) : readAt (a ++ x ++ c) off len = x := by
  subst ho; subst hl
  exact readAt_mid a x c

theorem readAt_from (a c : List Nat) (off len : Nat) (ho : off = a.length) :
    readAt (a ++ c) off len = c.take len := by
  subst ho
  unfold readAt
  rw [List.drop_left]

theorem length_encodeSIZE_T (w n : Nat) : (encodeSIZE_T w n).length = w := by
  induction w generalizing n with
  | zero => rfl
  | succ k ih => simp [encodeSIZE_T, ih]

theorem decode_encodeSIZE_T (w n : Nat) (h : n < 256 ^ w) :
    decodeSIZE_T (encodeSIZE_T w n) = n := by
  induction w generalizing n with
  | zero =>
    simp at h
    simp [encodeSIZE_T, decodeSIZE_T, h]
  | succ k ih =>
    simp only [encodeSIZE_T, decodeSIZE_T]
    have : n / 256 < 256 ^ k := by
      rw [Nat.div_lt_iff_lt_mul (by norm_num)]
      rw [pow_succ] at h
      exact h
    rw [ih _ this]
    omega

/-! ## Runs of slots -/

theorem flat_append (a b : List (List Nat × List Nat)) : flat (a ++ b) = flat a ++ flat b := by
  induction a with
  | nil => rfl
  | cons e es ih => simp [flat, ih]

theorem flat_cons (e : List Nat × List Nat) (es : List (List Nat × List Nat)) :
    flat (e :: es) = e.1 ++ e.2 ++ flat es := rfl

theorem length_flat (ks w : Nat) (es : List (List Nat × List Nat)) (h : Uniform ks w es) :
    (flat es).length = es.length * (ks + w) := by
  induction es with
  | nil => simp [flat]
  | cons e es ih =>
    have he := h e (List.mem_cons_self _ _)
    have hr : Uniform ks w es := fun x hx => h x (List.mem_cons_of_mem _ hx)
    simp only [flat, List.length_append, List.length_cons, ih hr, he.1, he.2]
    ring

theorem Uniform.append {ks w : Nat} {a b : List (List Nat × List Nat)}
    (ha : Uniform ks w a) (hb : Uniform ks w b) : Uniform ks w (a ++ b) := by
  intro e he
  rcases List.mem_append.mp he with h | h
  · exact ha e h
  · exact hb e h

theorem Uniform.left {ks w : Nat} {a b : List (List Nat × List Nat)}
    (h : Uniform ks w (a ++ b)) : Uniform ks w a :=
  fun e he => h e (List.mem_append_left _ he)

theorem Uniform.right {ks w : Nat} {a b : List (List Nat × List Nat)}
    (h : Uniform ks w (a ++ b)) : Uniform ks w b :=
  fun e he => h e (List.mem_append_right _ he)

theorem Uniform.cons {ks w : Nat} {e : List Nat × List Nat} {b : List (List Nat × List Nat)}
    (he : e.1.length = ks ∧ e.2.length = w) (hb : Uniform ks w b) : Uniform ks w (e :: b) := by
  intro x hx
  rcases List.mem_cons.mp hx with h | h
  · subst h; exact he
  · exact hb x h

theorem Uniform.tail {ks w : Nat} {e : List Nat × List Nat} {b : List (List Nat × List Nat)}
    (h : Uniform ks w (e :: b)) : Uniform ks w b :=
  fun x hx => h x (List.mem_cons_of_mem _ hx)

theorem Uniform.head {ks w : Nat} {e : List Nat × List Nat} {b : List (List Nat × List Nat)}
    (h : Uniform ks w (e :: b)) : e.1.length = ks ∧ e.2.length = w :=
  h e (List.mem_cons_self _ _)

/-- Reading the key of the slot after the run `es1`. -/
theorem read_slot_key (pre rest : List Nat) (es1 es2 : List (List Nat × List Nat))
    (e : List Nat × List Nat) (ks w off : Nat) (h1 : Uniform ks w es1) (he : e.1.length = ks)
    (ho : off = pre.length + es1.length * (ks + w)) :
    readAt (pre ++ flat (es1 ++ e :: es2) ++ rest) off ks = e.1 := by
  have : pre ++ flat (es1 ++ e :: es2) ++ rest
      = (pre ++ flat es1) ++ e.1 ++ (e.2 ++ flat es2 ++ rest) := by
    simp [flat_append, flat, List.append_assoc]
  rw [this]
  apply readAt_mid'
  · simp [length_flat ks w es1 h1, ho]
  · exact he.symm

/-- Reading the value part of the slot after the run `es1`. -/
theorem read_slot_val (pre rest : List Nat) (es1 es2 : List (List Nat × List Nat))
    (e : List Nat × List Nat) (ks w off : Nat) (h1 : Uniform ks w es1) (he : e.1.length = ks)
    (hw : e.2.length = w) (ho : off = pre.length + es1.length * (ks + w) + ks) :
    readAt (pre ++ flat (es1 ++ e :: es2) ++ rest) off w = e.2 := by
  have : pre ++ flat (es1 ++ e :: es2) ++ rest
      = (pre ++ flat es1 ++ e.1) ++ e.2 ++ (flat es2 ++ rest) := by
    simp [flat_append, flat, List.append_assoc]
  rw [this]
  apply readAt_mid'
  · simp only [List.length_append, length_flat ks w es1 h1, ho, he]
  · exact hw.symm

/-- Writing a key and then a value part over one slot. -/
theorem set_slot (a x c key val : List Nat) (hx : x.length = key.length + val.length) :
    writeAt (writeAt (a ++ x ++ c) a.length key) (a.length + key.length) val
      = a ++ (key ++ val) ++ c := by
  have e1 : a ++ x ++ c = a ++ x.take key.length ++ (x.drop key.length ++ c) := by
    simp only [List.append_assoc]
    rw [← List.append_assoc (x.take _), List.take_append_drop]
  rw [e1, writeAt_mid _ _ _ _ (by simp; omega)]
  have e2 : a ++ key ++ (x.drop key.length ++ c) = (a ++ key) ++ x.drop key.length ++ c := by
    simp [List.append_assoc]
  rw [e2]
  rw [writeAt_mid' (a ++ key) _ c val _ (by simp) (by simp; omega)]
  simp [List.append_assoc]

/-- The memmove of AddKeyVal: the run `B` moves one slot of `S` bytes to the
right. -/
theorem shift_run (a B rest : List Nat) (S : Nat) (hS : S ≤ rest.length) :
    copyBytes (a ++ B ++ rest) (some (a.length + S)) (a ++ B ++ rest) (some a.length) B.length
      = a ++ (B ++ rest).take S ++ B ++ rest.drop S := by
  unfold copyBytes
  simp only
  rw [readAt_mid]
  have hsplit : B ++ rest = (B ++ rest).take S ++ (((B ++ rest).drop S).take B.length ++
      ((B ++ rest).drop S).drop B.length) := by
    rw [List.take_append_drop, List.take_append_drop]
  have hZ : ((B ++ rest).drop S).drop B.length = rest.drop S := by
    rw [List.drop_drop, Nat.add_comm, ← List.drop_drop, List.drop_left]
  have e1 : a ++ B ++ rest = (a ++ (B ++ rest).take S) ++ ((B ++ rest).drop S).take B.length
      ++ rest.drop S := by
    rw [← hZ]
    simp only [List.append_assoc]
    rw [← hsplit]
  rw [e1]
  rw [writeAt_mid' _ _ _ B _ (by simp; omega) (by simp; omega)]

/-! ## Reads around a write -/

theorem readAt_append_left (a b : List Nat) (off len : Nat) (h : off + len ≤ a.length) :
    readAt (a ++ b) off len = readAt a off len := by
  unfold readAt
  rw [List.drop_append_of_le_length (by omega), List.take_append_of_le_length]
  rw [List.length_drop]; omega

theorem readAt_append_right (a b : List Nat) (off len : Nat) (h : a.length ≤ off) :
    readAt (a ++ b) off len = readAt b (off - a.length) len := by
  unfold readAt
  have : off = a.length + (off - a.length) := by omega
  conv_lhs => rw [this, ← List.drop_drop, List.drop_left]

/-- The three parts of a buffer around a write of `n` bytes at `off`. -/
theorem split_at_write (d : List Nat) (off n : Nat) (h : off + n ≤ d.length) :
    d = d.take off ++ (d.drop off).take n ++ d.drop (off + n) ∧ (d.take off).length = off ∧
      ((d.drop off).take n).length = n := by
  refine ⟨?_, ?_, ?_⟩
  · have : d.drop (off + n) = (d.drop off).drop n := by
      rw [List.drop_drop, Nat.add_comm]
    rw [List.append_assoc, this, List.take_append_drop, List.take_append_drop]
  · rw [List.length_take]; omega
  · rw [List.length_take, List.length_drop]; omega

theorem writeAt_eq (d : List Nat) (off : Nat) (bs : List Nat) (h : off + bs.length ≤ d.length) :
    writeAt d off bs = d.take off ++ bs ++ d.drop (off + bs.length) := by
  obtain ⟨h1, h2, h3⟩ := split_at_write d off bs.length h
  have := writeAt_mid' (d.take off) ((d.drop off).take bs.length) (d.drop (off + bs.length)) bs
    off h2.symm h3.symm
  rw [← h1] at this
  exact this

theorem readAt_writeAt_same (d : List Nat) (off : Nat) (bs : List Nat)
    (h : off + bs.length ≤ d.length) : readAt (writeAt d off bs) off bs.length = bs := by
  rw [writeAt_eq d off bs h]
  apply readAt_mid'
  · rw [List.length_take]; omega
  · rfl

theorem readAt_writeAt_before (d : List Nat) (off : Nat) (bs : List Nat) (o len : Nat)
    (h : off + bs.length ≤ d.length) (hb : o + len ≤ off) :
    readAt (writeAt d off bs) o len = readAt d o len := by
  rw [writeAt_eq d off bs h, List.append_assoc]
  rw [readAt_append_left _ _ _ _ (by rw [List.length_take]; omega)]
  conv_rhs => rw [← List.take_append_drop off d]
  rw [readAt_append_left _ _ _ _ (by rw [List.length_take]; omega)]

theorem readAt_writeAt_after (d : List Nat) (off : Nat) (bs : List Nat) (o len : Nat)
    (h : off + bs.length ≤ d.length) (ha : off + bs.length ≤ o) :
    readAt (writeAt d off bs) o len = readAt d o len := by
  rw [writeAt_eq d off bs h]
  have hl : (d.take off ++ bs).length = off + bs.length := by
    rw [List.length_append, List.length_take]; omega
  rw [readAt_append_right _ _ _ _ (by rw [hl]; exact ha), hl]
  conv_rhs => rw [← List.take_append_drop (off + bs.length) d]
  have hl2 : (d.take (off + bs.length)).length = off + bs.length := by
    rw [List.length_take]; omega
  rw [readAt_append_right _ _ _ _ (by rw [hl2]; exact ha), hl2]


/-! ## Field updates -/

@[simp] theorem withData_info (b : BTreeNode) (d : List Nat) : (b.withData d).info = b.info := rfl
@[simp] theorem withData_data (b : BTreeNode) (d : List Nat) : (b.withData d).data = d := rfl
@[simp] theorem withNumkeys_data (b : BTreeNode) (n : Nat) : (b.withNumkeys n).data = b.data := rfl
@[simp] theorem withNumkeys_numkeys (b : BTreeNode) (n : Nat) :
    (b.withNumkeys n).info.numkeys = n := rfl
@[simp] theorem withNumkeys_nodetype (b : BTreeNode) (n : Nat) :
    (b.withNumkeys n).info.nodetype = b.info.nodetype := rfl
@[simp] theorem withNumkeys_keysize (b : BTreeNode) (n : Nat) :
    (b.withNumkeys n).info.keysize = b.info.keysize := rfl
@[simp] theorem withNumkeys_valuesize (b : BTreeNode) (n : Nat) :
    (b.withNumkeys n).info.valuesize = b.info.valuesize := rfl
@[simp] theorem withNumkeys_blocksize (b : BTreeNode) (n : Nat) :
    (b.withNumkeys n).info.blocksize = b.info.blocksize := rfl
@[simp] theorem withData_withData (b : BTreeNode) (d e : List Nat) :
    (b.withData d).withData e = b.withData e := rfl
@[simp] theorem withNumkeys_withData (b : BTreeNode) (n : Nat) (d : List Nat) :
    (b.withData d).withNumkeys n = (b.withNumkeys n).withData d := rfl

/-! ## Reading the slots of a well-formed node -/

theorem ptrSlots_append (g : Geom) (a b : List (KEY_T × Nat)) :
    ptrSlots g (a ++ b) = ptrSlots g a ++ ptrSlots g b := by
  simp [ptrSlots]

theorem ptrSlots_cons (g : Geom) (e : KEY_T × Nat) (b : List (KEY_T × Nat)) :
    ptrSlots g (e :: b) = (e.1, encodeSIZE_T g.P e.2) :: ptrSlots g b := by
  simp [ptrSlots]

theorem length_ptrSlots (g : Geom) (a : List (KEY_T × Nat)) :
    (ptrSlots g a).length = a.length := by
  simp [ptrSlots]

theorem ptrSlots_uniform (g : Geom) (kps : List (KEY_T × Nat))
    (h : ∀ e ∈ kps, e.1.length = g.keysize ∧ e.2 < 256 ^ g.P) :
    Uniform g.keysize g.P (ptrSlots g kps) := by
  intro e he
  simp only [ptrSlots, List.mem_map] at he
  obtain ⟨x, hx, rfl⟩ := he
  exact ⟨(h x hx).1, length_encodeSIZE_T _ _⟩

theorem leaf_GetKey (g : Geom) (b : BTreeNode) (es1 es2 : List (KEY_T × VALUE_T))
    (e : KEY_T × VALUE_T) (s : Nat) (h : LeafAt g b (es1 ++ e :: es2) s) :
    b.GetKey g.m es1.length = .ok e.1 := by
  obtain ⟨hty, ⟨hk, hv, _, _⟩, hn, _, hu, pre, rest, hpre, hd⟩ := h
  unfold BTreeNode.GetKey BTreeNode.ResolveKey
  simp only [hty, hn, List.length_append, List.length_cons]
  rw [if_pos (by omega), hd, hk, hv]
  congr 1
  exact read_slot_key pre rest es1 es2 e g.keysize g.valuesize _ hu.left
    (hu e (by simp)).1 (by rw [hpre]; rfl)

theorem leaf_GetVal (g : Geom) (b : BTreeNode) (es1 es2 : List (KEY_T × VALUE_T))
    (e : KEY_T × VALUE_T) (s : Nat) (h : LeafAt g b (es1 ++ e :: es2) s) :
    b.GetVal g.m es1.length = .ok e.2 := by
  obtain ⟨hty, ⟨hk, hv, _, _⟩, hn, _, hu, pre, rest, hpre, hd⟩ := h
  unfold BTreeNode.GetVal BTreeNode.ResolveVal
  simp only [hty, hn, List.length_append, List.length_cons]
  rw [if_pos (by omega), hd, hk, hv]
  congr 1
  exact read_slot_val pre rest es1 es2 e g.keysize g.valuesize _ hu.left
    (hu e (by simp)).1 (hu e (by simp)).2 (by rw [hpre]; rfl)

theorem int_GetKey (g : Geom) (b : BTreeNode) (p0 : Nat) (k1 k2 : List (KEY_T × Nat))
    (e : KEY_T × Nat) (s : Nat) (h : IntAt g b p0 (k1 ++ e :: k2) s) :
    b.GetKey g.m k1.length = .ok e.1 := by
  obtain ⟨hty, ⟨hk, hv, _, _⟩, hn, _, hu, hp0, rest, hd⟩ := h
  have hU := ptrSlots_uniform g _ hu
  rw [ptrSlots_append, ptrSlots_cons] at hU hd
  unfold BTreeNode.GetKey BTreeNode.ResolveKey
  have hlen : k1.length < b.info.numkeys := by
    rw [hn]; simp
  rcases hty with hty | hty <;>
  · simp only [hty]
    rw [if_pos hlen, hd, hk]
    congr 1
    exact read_slot_key _ rest _ _ _ g.keysize g.P _ hU.left (hu e (by simp)).1
      (by rw [length_encodeSIZE_T, length_ptrSlots]; simp only [Geom.P]; ring)

theorem int_GetPtr_zero (g : Geom) (b : BTreeNode) (p0 : Nat) (kps : List (KEY_T × Nat))
    (s : Nat) (h : IntAt g b p0 kps s) : b.GetPtr g.m 0 = .ok p0 := by
  obtain ⟨hty, ⟨hk, hv, _, _⟩, hn, _, hu, hp0, rest, hd⟩ := h
  unfold BTreeNode.GetPtr
  have hr : readAt b.data 0 g.m.sizeofSIZE_T = encodeSIZE_T g.P p0 := by
    rw [hd, List.append_assoc]
    have := readAt_mid [] (encodeSIZE_T g.P p0) (flat (ptrSlots g kps) ++ rest)
    simp only [List.nil_append, List.length_nil, length_encodeSIZE_T] at this
    exact this
  rcases hty with hty | hty <;>
  · simp only [hty, Nat.zero_le, if_true, Nat.zero_mul, hr]
    rw [decode_encodeSIZE_T _ _ hp0]

theorem int_GetPtr_succ (g : Geom) (b : BTreeNode) (p0 : Nat) (k1 k2 : List (KEY_T × Nat))
    (e : KEY_T × Nat) (s : Nat) (h : IntAt g b p0 (k1 ++ e :: k2) s) :
    b.GetPtr g.m (k1.length + 1) = .ok e.2 := by
  obtain ⟨hty, ⟨hk, hv, _, _⟩, hn, _, hu, hp0, rest, hd⟩ := h
  have hU := ptrSlots_uniform g _ hu
  rw [ptrSlots_append, ptrSlots_cons] at hU hd
  unfold BTreeNode.GetPtr
  have hlen : k1.length + 1 ≤ b.info.numkeys := by
    rw [hn]; simp
  have hr : readAt b.data ((k1.length + 1) * (g.m.sizeofSIZE_T + b.info.keysize))
      g.m.sizeofSIZE_T = encodeSIZE_T g.P e.2 := by
    rw [hd, hk]
    exact read_slot_val _ rest _ _ _ g.keysize g.P _ hU.left (hu e (by simp)).1
      (length_encodeSIZE_T _ _)
      (by rw [length_encodeSIZE_T, length_ptrSlots]; simp only [Geom.P]; ring)
  rcases hty with hty | hty <;>
  · simp only [hty, hlen, if_true, hr]
    rw [decode_encodeSIZE_T _ _ (hu e (by simp)).2]

/-! ## The scans -/

theorem scanLeaf_spec (g : Geom) (b : BTreeNode) (s : Nat) (key : KEY_T)
    (es2 es1 : List (KEY_T × VALUE_T)) (h : LeafAt g b (es1 ++ es2) s) :
    (assoc key es2 = none ∧ scanLeaf g.m b key es1.length es2.length = LeafScanResult.miss) ∨
    (∃ a e c, es1 ++ es2 = a ++ e :: c ∧ e.1 = key ∧ assoc key es2 = some e.2 ∧
      scanLeaf g.m b key es1.length es2.length = LeafScanResult.hit a.length) := by
  induction es2 generalizing es1 with
  | nil => left; simp [assoc, scanLeaf]
  | cons e r ih =>
    have hk := leaf_GetKey g b es1 r e s h
    simp only [List.length_cons, scanLeaf, hk, assoc]
    by_cases he : e.1 = key
    · right
      exact ⟨es1, e, r, rfl, he, by simp [he], by simp [he]⟩
    · simp only [he, if_false]
      have h' : LeafAt g b ((es1 ++ [e]) ++ r) s := by simpa using h
      have := ih (es1 ++ [e]) h'
      simp only [List.length_append, List.length_singleton, List.append_assoc,
        List.singleton_append] at this
      exact this

theorem lastPtr_concat (p : Nat) (kps : List (KEY_T × Nat)) (e : KEY_T × Nat) :
    lastPtr p (kps ++ [e]) = e.2 := by
  induction kps generalizing p with
  | nil => cases e; simp [lastPtr]
  | cons x xs ih => cases x; simp [lastPtr, ih]

theorem int_GetPtr_at (g : Geom) (b : BTreeNode) (p0 : Nat) (k1 k2 : List (KEY_T × Nat))
    (s : Nat) (h : IntAt g b p0 (k1 ++ k2) s) :
    b.GetPtr g.m k1.length = .ok (lastPtr p0 k1) := by
  rcases List.eq_nil_or_concat k1 with hk | ⟨init, e, hk⟩
  · subst hk
    simpa [lastPtr] using int_GetPtr_zero g b p0 _ s h
  · subst hk
    rw [List.concat_eq_append] at h ⊢
    rw [lastPtr_concat]
    have h' : IntAt g b p0 (init ++ e :: k2) s := by simpa using h
    simpa using int_GetPtr_succ g b p0 init k2 e s h'

theorem scanInterior_spec (g : Geom) (b : BTreeNode) (p0 s : Nat) (key : KEY_T)
    (k2 k1 : List (KEY_T × Nat)) (h : IntAt g b p0 (k1 ++ k2) s) :
    (∃ o, scanInterior g.m b key k1.length k2.length
        = ScanResult.hit o (pick key (lastPtr p0 k1) k2)) ∨
    (scanInterior g.m b key k1.length k2.length = ScanResult.miss ∧
      pick key (lastPtr p0 k1) k2 = lastPtr p0 (k1 ++ k2)) := by
  induction k2 generalizing k1 with
  | nil => right; simp [scanInterior, pick]
  | cons e r ih =>
    obtain ⟨k, q⟩ := e
    have hk := int_GetKey g b p0 k1 r (k, q) s h
    have hp := int_GetPtr_at g b p0 k1 _ s h
    simp only [List.length_cons, scanInterior, hk, hp, pick]
    by_cases hc : keyLt key k = true ∨ key = k
    · left
      simp only [hc, if_true]
      exact ⟨_, rfl⟩
    · simp only [hc, if_false]
      have h' : IntAt g b p0 ((k1 ++ [(k, q)]) ++ r) s := by simpa using h
      have := ih (k1 ++ [(k, q)]) h'
      simp only [List.length_append, List.length_singleton, List.append_assoc,
        List.singleton_append, lastPtr_concat] at this
      exact this

/-- The descent step on a well-formed interior node takes the child `pick`
computes. -/
theorem pickChild_spec (g : Geom) (b : BTreeNode) (p0 s : Nat) (kps : List (KEY_T × Nat))
    (key : KEY_T) (h : IntAt g b p0 kps s) (hne : 1 ≤ kps.length) :
    pickChild g.m b key = .ok (pick key p0 kps) := by
  have hn : b.info.numkeys = kps.length := h.2.2.1
  have hs := scanInterior_spec g b p0 s key kps [] (by simpa using h)
  simp only [List.length_nil, lastPtr, List.nil_append] at hs
  unfold pickChild
  rw [hn]
  rcases hs with ⟨o, ho⟩ | ⟨hm, hp⟩
  · rw [ho]
  · rw [hm]
    simp only [gt_iff_lt, Nat.pos_of_ne_zero (by omega : kps.length ≠ 0), if_true]
    have := int_GetPtr_at g b p0 kps [] s (by simpa using h)
    rw [this, hp]

/-! ## AddKeyVal on a node -/

theorem SlotKind.resolveKey {g : Geom} {b : BTreeNode} {v : VALUE_T} {newNode w : Nat}
    {val : List Nat} (h : SlotKind g b v newNode w val) (hks : b.info.keysize = g.keysize)
    (hvs : b.info.valuesize = g.valuesize) (o : Nat) :
    b.ResolveKey g.m o = some (g.P + o * (g.keysize + w)) := by
  unfold BTreeNode.ResolveKey
  rcases h with ⟨hty, hw, _⟩ | ⟨hty | hty, hw, _⟩ <;> simp only [hty, hw, hks, hvs, Geom.P] <;>
    simp only [Nat.add_comm]

theorem store_slot (g : Geom) (b : BTreeNode) (key : KEY_T) (v : VALUE_T) (newNode o w : Nat)
    (val a x c : List Nat) (hkind : SlotKind g b v newNode w val)
    (hks : b.info.keysize = g.keysize) (hvs : b.info.valuesize = g.valuesize)
    (hkey : key.length = g.keysize) (hval : val.length = w)
    (ho : o < b.info.numkeys) (hd : b.data = a ++ x ++ c)
    (ha : a.length = g.P + o * (g.keysize + w)) (hx : x.length = g.keysize + w) :
    storeKeyVal g.m b o key v newNode
      = (ERROR_T.ERROR_NOERROR, b.withData (a ++ (key ++ val) ++ c)) := by
  have hRK := hkind.resolveKey hks hvs o
  rw [← ha] at hRK
  have hd2 := set_slot a x c key val (by rw [hx, hkey, hval])
  have hk1 : b.SetKey g.m o key = .ok (b.withData (writeAt b.data a.length key)) := by
    unfold BTreeNode.SetKey
    rw [hRK]
    simp only [ho, if_true]
    rw [hks, ← hkey, List.take_length]
  unfold storeKeyVal
  rw [hk1]
  simp only [withData_info]
  rcases hkind with ⟨hty, hw, hv⟩ | ⟨hty, hw, hv⟩
  · subst hw; subst hv
    rw [if_pos hty]
    have hoff : g.m.sizeofSIZE_T + o * (b.info.keysize + b.info.valuesize) + b.info.keysize
        = a.length + key.length := by
      rw [ha, hks, hvs, hkey]; rfl
    have hv1 : BTreeNode.SetVal g.m (b.withData (writeAt b.data a.length key)) o val
        = .ok (b.withData (writeAt (writeAt b.data a.length key) (a.length + key.length) val)) := by
      unfold BTreeNode.SetVal BTreeNode.ResolveVal
      simp only [withData_info, withData_data, hty, ho, if_true, hoff, withData_withData]
      rw [hvs, ← hval, List.take_length]
    rw [hv1]
    simp only [hd, hd2]
  · subst hw; subst hv
    have hne : ¬ b.info.nodetype = NodeType.BTREE_LEAF_NODE := by
      rcases hty with h | h <;> simp [h]
    rw [if_neg hne]
    have ho' : o + 1 ≤ b.info.numkeys := ho
    have hoff : (o + 1) * (g.m.sizeofSIZE_T + b.info.keysize) = a.length + key.length := by
      rw [ha, hks, hkey]; simp only [Geom.P]; ring
    have hv1 : BTreeNode.SetPtr g.m (b.withData (writeAt b.data a.length key)) (o + 1) newNode
        = .ok (b.withData (writeAt (writeAt b.data a.length key) (a.length + key.length)
            (encodeSIZE_T g.P newNode))) := by
      unfold BTreeNode.SetPtr
      rcases hty with hty | hty <;>
        simp only [withData_info, withData_data, hty, ho', if_true, hoff, withData_withData] <;> rfl
    rw [hv1]
    simp only [hd, hd2]

theorem length_insSlot {β : Type} (key : KEY_T) (e : KEY_T × β) (es : List (KEY_T × β)) :
    (insSlot key e es).length = es.length + 1 := by
  induction es with
  | nil => rfl
  | cons x xs ih =>
    simp only [insSlot]
    split <;> simp [ih]

theorem mem_insSlot {β : Type} (key : KEY_T) (e x : KEY_T × β) (es : List (KEY_T × β)) :
    x ∈ insSlot key e es ↔ x = e ∨ x ∈ es := by
  induction es with
  | nil => simp [insSlot]
  | cons y ys ih =>
    simp only [insSlot]
    split
    · simp
    · simp only [List.mem_cons, ih]
      tauto

/-- `insSlot` puts the new slot somewhere in the list. -/
theorem insSlot_split {β : Type} (key : KEY_T) (e : KEY_T × β) (es : List (KEY_T × β)) :
    ∃ a c, es = a ++ c ∧ insSlot key e es = a ++ e :: c ∧
      (∀ x ∈ a, keyLt key x.1 = false) ∧ (∀ x, c.head? = some x → keyLt key x.1 = true) := by
  induction es with
  | nil => exact ⟨[], [], rfl, rfl, by simp, by simp⟩
  | cons y ys ih =>
    simp only [insSlot]
    by_cases h : keyLt key y.1 = true
    · simp only [h, if_true]
      exact ⟨[], y :: ys, rfl, rfl, by simp, by simp [h]⟩
    · simp only [h, if_false]
      obtain ⟨a, c, h1, h2, h3, h4⟩ := ih
      refine ⟨y :: a, c, by simp [h1], by simp [h2], ?_, h4⟩
      intro x hx
      rcases List.mem_cons.mp hx with hx | hx
      · subst hx; simpa using h
      · exact h3 x hx

theorem GetKey_of_resolve (m : Machine) (b : BTreeNode) (o off : Nat)
    (h : b.ResolveKey m o = some off) (ho : o < b.info.numkeys) :
    b.GetKey m o = .ok (readAt b.data off b.info.keysize) := by
  unfold BTreeNode.GetKey
  rw [h]
  simp only [ho, if_true]

theorem addKeyValLoop_spec (g : Geom) (b0 : BTreeNode) (key : KEY_T) (v : VALUE_T)
    (newNode w : Nat) (val pre rest : List Nat) (hkind : SlotKind g b0 v newNode w val)
    (hks : b0.info.keysize = g.keysize) (hvs : b0.info.valuesize = g.valuesize)
    (hkey : key.length = g.keysize) (hval : val.length = w) (hpre : pre.length = g.P)
    (hrest : g.keysize + w ≤ rest.length) (n S : Nat) (hS : S = g.keysize + w)
    (es2 es1 : List (List Nat × List Nat)) (hu : Uniform g.keysize w (es1 ++ es2))
    (hn : b0.info.numkeys = n + 1) (hlen : n = es1.length + es2.length)
    (hd : b0.data = pre ++ flat (es1 ++ es2) ++ rest) (hne : es2 ≠ []) :
    addKeyValLoop g.m b0 key v newNode n S es1.length es2.length
      = (ERROR_T.ERROR_NOERROR,
          b0.withData (pre ++ flat (es1 ++ insSlot key (key, val) es2)
            ++ rest.drop (g.keysize + w))) := by
  subst hS
  induction es2 generalizing es1 with
  | nil => exact absurd rfl hne
  | cons e r ih =>
    have hRK := fun o => hkind.resolveKey hks hvs o
    have he := hu e (by simp)
    have hgk : b0.GetKey g.m es1.length = .ok e.1 := by
      rw [GetKey_of_resolve g.m b0 _ _ (hRK _) (by rw [hn, hlen]; simp; omega), hd, hks]
      congr 1
      exact read_slot_key pre rest es1 r e g.keysize w _ hu.left he.1 (by rw [hpre])
    simp only [List.length_cons, addKeyValLoop, hgk, insSlot]
    have hl1 : (pre ++ flat es1).length = g.P + es1.length * (g.keysize + w) := by
      rw [List.length_append, hpre, length_flat _ _ _ hu.left]
    by_cases hlt : keyLt key e.1 = true
    · simp only [hlt, if_true]
      -- the memmove
      have hB : (flat (e :: r)).length = (r.length + 1) * (g.keysize + w) := by
        rw [length_flat _ _ _ hu.right]; simp
      have hsh := shift_run (pre ++ flat es1) (flat (e :: r)) rest (g.keysize + w) hrest
      rw [hl1, hB] at hsh
      have hd' : b0.data = pre ++ flat es1 ++ flat (e :: r) ++ rest := by
        rw [hd, flat_append]; simp [List.append_assoc]
      rw [hRK, hRK, hd']
      have hoff : g.P + (es1.length + 1) * (g.keysize + w)
          = g.P + es1.length * (g.keysize + w) + (g.keysize + w) := by ring
      rw [hoff, hsh]
      have := store_slot g
        (b0.withData (pre ++ flat es1 ++ List.take (g.keysize + w) (flat (e :: r) ++ rest)
            ++ flat (e :: r) ++ List.drop (g.keysize + w) rest))
        key v newNode es1.length w val (pre ++ flat es1)
        (List.take (g.keysize + w) (flat (e :: r) ++ rest))
        (flat (e :: r) ++ List.drop (g.keysize + w) rest) hkind hks hvs hkey hval
        (by show es1.length < b0.info.numkeys; rw [hn, hlen]; simp; omega)
        (by simp [List.append_assoc]) hl1
        (by rw [List.length_take, List.length_append]; omega)
      rw [this]
      simp [flat_append, flat, List.append_assoc]
    · simp only [hlt, if_false]
      by_cases hlast : es1.length = n - 1
      · have hr : r = [] := by
          have : r.length = 0 := by simp at hlen; omega
          exact List.length_eq_zero.mp this
        subst hr
        simp only [hlast, if_true]
        have hn1 : es1.length + 1 = n := by simp at hlen; omega
        have hd' : b0.data = pre ++ flat (es1 ++ [e]) ++ rest.take (g.keysize + w)
            ++ rest.drop (g.keysize + w) := by
          rw [hd, List.append_assoc _ (rest.take _), List.take_append_drop]
        have := store_slot g b0 key v newNode n w val (pre ++ flat (es1 ++ [e]))
          (rest.take (g.keysize + w)) (rest.drop (g.keysize + w)) hkind hks hvs hkey hval
          (by rw [hn]; omega) hd'
          (by rw [List.length_append, hpre, length_flat _ _ _ hu]; simp [hn1])
          (by rw [List.length_take]; omega)
        have hn2 : n - 1 = es1.length := hlast.symm
        rw [this]
        simp [flat_append, flat, insSlot, List.append_assoc]
      · simp only [hlast, if_false]
        have hr : r ≠ [] := by
          intro hr; subst hr; simp at hlen; omega
        have := ih (es1 ++ [e]) (by simpa using hu) (by simp at hlen ⊢; omega)
          (by simpa using hd) hr
        simp only [List.length_append, List.length_singleton, List.append_assoc,
          List.singleton_append] at this
        simp [this, List.append_assoc]

/-! ## Blocks of the device -/

theorem Unserialize_data (x : BTreeNode) (c : BufferCache) (n : Nat) (b : BTreeNode)
    (h : c.blocks[n]? = some b) (hd : hasData b.info.nodetype = true) :
    x.Unserialize c n = (ERROR_T.ERROR_NOERROR, b) := by
  unfold BTreeNode.Unserialize
  rw [h]
  simp only [hd, if_true]

theorem Serialize_data (b : BTreeNode) (c : BufferCache) (n : Nat) (h : n < c.blocks.length)
    (hd : hasData b.info.nodetype = true) :
    b.Serialize c n = (ERROR_T.ERROR_NOERROR, { c with blocks := c.blocks.set n b }) := by
  unfold BTreeNode.Serialize
  simp only [h, if_true, hd]

theorem lt_length_of_getElem? {α : Type} {l : List α} {n : Nat} {b : α} (h : l[n]? = some b) :
    n < l.length := by
  by_contra hc
  rw [List.getElem?_eq_none (by omega)] at h
  cases h

theorem capL_room (g : Geom) (h : 1 ≤ g.capL) :
    g.P + g.capL * (g.keysize + g.valuesize) ≤ g.D := by
  unfold Geom.capL leafCapacity at h ⊢
  unfold Geom.P Geom.D
  have h1 := Nat.div_mul_le_self (g.blocksize - g.m.sizeofNodeMetadata - g.m.sizeofSIZE_T)
    (g.keysize + g.valuesize)
  have h2 : 0 < g.blocksize - g.m.sizeofNodeMetadata - g.m.sizeofSIZE_T := by
    by_contra hc
    have : g.blocksize - g.m.sizeofNodeMetadata - g.m.sizeofSIZE_T = 0 := by omega
    rw [this, Nat.zero_div] at h
    omega
  omega

theorem capI_room (g : Geom) (h : 1 ≤ g.capI) :
    g.P + g.capI * (g.keysize + g.P) ≤ g.D := by
  unfold Geom.capI interiorCapacity at h ⊢
  unfold Geom.P Geom.D
  have h1 := Nat.div_mul_le_self (g.blocksize - g.m.sizeofNodeMetadata - g.m.sizeofSIZE_T)
    (g.keysize + g.m.sizeofSIZE_T)
  have h2 : 0 < g.blocksize - g.m.sizeofNodeMetadata - g.m.sizeofSIZE_T := by
    by_contra hc
    have : g.blocksize - g.m.sizeofNodeMetadata - g.m.sizeofSIZE_T = 0 := by omega
    rw [this, Nat.zero_div] at h
    omega
  omega

theorem slots_leaf_of_hdr (g : Geom) (b : BTreeNode) (h : HdrOK g b) :
    b.info.GetNumSlotsAsLeaf g.m = g.capL := by
  obtain ⟨hk, hv, hb, _⟩ := h
  simp [NodeMetadata.GetNumSlotsAsLeaf, NodeMetadata.GetNumDataBytes, Geom.capL, leafCapacity,
    hk, hv, hb]

theorem slots_int_of_hdr (g : Geom) (b : BTreeNode) (h : HdrOK g b) :
    b.info.GetNumSlotsAsInterior g.m = g.capI := by
  obtain ⟨hk, hv, hb, _⟩ := h
  simp [NodeMetadata.GetNumSlotsAsInterior, NodeMetadata.GetNumDataBytes, Geom.capI,
    interiorCapacity, hk, hv, hb]

theorem LeafAt.leafHasData {g : Geom} {b : BTreeNode} {es : List (KEY_T × VALUE_T)} {s : Nat}
    (h : LeafAt g b es s) : hasData b.info.nodetype = true := by
  rw [h.1]; rfl

theorem IntAt.nodeHasData {g : Geom} {b : BTreeNode} {p0 : Nat} {kps : List (KEY_T × Nat)} {s : Nat}
    (h : IntAt g b p0 kps s) : hasData b.info.nodetype = true := by
  rcases h.1 with h | h <;> rw [h] <;> rfl

theorem uniform_insSlot (ks w : Nat) (key : KEY_T) (e : List Nat × List Nat)
    (es : List (List Nat × List Nat)) (he : e.1.length = ks ∧ e.2.length = w)
    (h : Uniform ks w es) : Uniform ks w (insSlot key e es) := by
  intro x hx
  rcases (mem_insSlot key e x es).mp hx with hx | hx
  · subst hx; exact he
  · exact h x hx


/-- Storing the first slot of an empty leaf (btree.cc 954-960). -/
theorem store_first (g : Geom) (b0 : BTreeNode) (key : KEY_T) (v : VALUE_T) (pre rest : List Nat)
    (hty : b0.info.nodetype = NodeType.BTREE_LEAF_NODE)
    (hks : b0.info.keysize = g.keysize) (hvs : b0.info.valuesize = g.valuesize)
    (hkey : key.length = g.keysize) (hv : v.length = g.valuesize) (hpre : pre.length = g.P)
    (hrest : g.keysize + g.valuesize ≤ rest.length) (hn : 0 < b0.info.numkeys)
    (hd : b0.data = pre ++ rest) :
    storeFirst g.m b0 key v
      = (ERROR_T.ERROR_NOERROR,
          b0.withData (pre ++ flat [(key, v)] ++ rest.drop (g.keysize + g.valuesize))) := by
  have hd' : b0.data = pre ++ rest.take (g.keysize + g.valuesize)
      ++ rest.drop (g.keysize + g.valuesize) := by
    rw [hd, List.append_assoc, List.take_append_drop]
  have hd2 := set_slot pre (rest.take (g.keysize + g.valuesize))
    (rest.drop (g.keysize + g.valuesize)) key v (by rw [List.length_take, hkey, hv]; omega)
  have hk1 : b0.SetKey g.m 0 key = .ok (b0.withData (writeAt b0.data pre.length key)) := by
    unfold BTreeNode.SetKey BTreeNode.ResolveKey
    simp only [hty, hn, if_true, Nat.zero_mul, Nat.add_zero]
    rw [hks, ← hkey, List.take_length, hpre]; rfl
  have hv1 : BTreeNode.SetVal g.m (b0.withData (writeAt b0.data pre.length key)) 0 v
      = .ok (b0.withData (writeAt (writeAt b0.data pre.length key) (pre.length + key.length) v)) := by
    unfold BTreeNode.SetVal BTreeNode.ResolveVal
    simp only [withData_info, withData_data, hty, hn, if_true, Nat.zero_mul, Nat.add_zero,
      withData_withData]
    rw [hvs, ← hv, List.take_length, hks, hpre, hkey]; rfl
  unfold storeFirst
  rw [hk1]
  simp only
  rw [hv1]
  simp only [hd', hd2, flat, List.append_nil]

/-- AddKeyVal on a leaf with room: the block is rewritten as the leaf holding
the entries with the new one inserted in order. -/
theorem AddKeyVal_leaf (g : Geom) (t : BTreeIndex) (node : Nat) (b : BTreeNode)
    (es : List (KEY_T × VALUE_T)) (key : KEY_T) (v : VALUE_T) (x : Nat)
    (hb : t.buffercache.blocks[node]? = some b) (h : LeafAt g b es 1)
    (hkey : key.length = g.keysize) (hv : v.length = g.valuesize) :
    ∃ b', AddKeyVal g.m t node key v x = (ERROR_T.ERROR_NOERROR, t.put node b') ∧
      LeafAt g b' (insSlot key (key, v) es) 0 := by
  have hdat := h.leafHasData
  obtain ⟨hty, hhdr, hn, hcap, hu, pre, rest, hpre, hd⟩ := h
  obtain ⟨hks, hvs, hbs, hlen⟩ := hhdr
  have hroom := capL_room g (by omega)
  have hrest : g.keysize + g.valuesize ≤ rest.length := by
    have : b.data.length = g.P + es.length * (g.keysize + g.valuesize) + rest.length := by
      rw [hd]; simp only [List.length_append, hpre, length_flat _ _ _ hu]
    have h3 : (es.length + 1) * (g.keysize + g.valuesize)
        ≤ g.capL * (g.keysize + g.valuesize) := Nat.mul_le_mul_right _ hcap
    have h4 : (es.length + 1) * (g.keysize + g.valuesize)
        = es.length * (g.keysize + g.valuesize) + (g.keysize + g.valuesize) := by ring
    omega
  have hlt := lt_length_of_getElem? hb
  have hkind : SlotKind g (b.withNumkeys (b.info.numkeys + 1)) v x g.valuesize v :=
    Or.inl ⟨hty, rfl, rfl⟩
  refine ⟨(b.withNumkeys (b.info.numkeys + 1)).withData
    (pre ++ flat (insSlot key (key, v) es) ++ rest.drop (g.keysize + g.valuesize)), ?_, ?_⟩
  · unfold AddKeyVal
    rw [Unserialize_data _ _ _ _ hb hdat]
    simp only [hty]
    by_cases hz : b.info.numkeys > 0
    · simp only [hz, if_true]
      have hne : es ≠ [] := by
        intro he; rw [he] at hn; simp at hn; omega
      have := addKeyValLoop_spec g (b.withNumkeys (b.info.numkeys + 1)) key v x g.valuesize v
        pre rest hkind hks hvs hkey hv hpre
        hrest b.info.numkeys (b.info.keysize + b.info.valuesize) (by rw [hks, hvs]) es []
        (by simpa using hu) rfl (by simpa using hn) (by simpa using hd) hne
      simp only [List.length_nil, List.nil_append, ← hn] at this
      rw [this]
      simp only
      rw [Serialize_data _ _ _ hlt (by simpa using hdat)]
      rfl
    · have hes : es = [] := by
        have : es.length = 0 := by omega
        exact List.length_eq_zero.mp this
      subst hes
      simp only [hz, if_false]
      have := store_first g (b.withNumkeys (b.info.numkeys + 1)) key v pre rest hty hks hvs hkey
        hv hpre hrest (by simp) (by simpa [flat] using hd)
      rw [this]
      simp only
      rw [Serialize_data _ _ _ hlt (by simpa using hdat)]
      rfl
  · refine ⟨hty, ⟨hks, hvs, hbs, ?_⟩, ?_, ?_, ?_, pre, rest.drop (g.keysize + g.valuesize), hpre, rfl⟩
    · show (pre ++ flat (insSlot key (key, v) es) ++ rest.drop (g.keysize + g.valuesize)).length = g.D
      have hu' := uniform_insSlot g.keysize g.valuesize key (key, v) es ⟨hkey, hv⟩ hu
      rw [← hlen, hd]
      simp only [List.length_append, length_flat _ _ _ hu', length_flat _ _ _ hu, length_insSlot,
        List.length_drop]
      have h4 : (es.length + 1) * (g.keysize + g.valuesize)
          = es.length * (g.keysize + g.valuesize) + (g.keysize + g.valuesize) := by ring
      omega
    · show b.info.numkeys + 1 = _
      rw [hn, length_insSlot]
    · rw [length_insSlot]; omega
    · exact uniform_insSlot g.keysize g.valuesize key (key, v) es ⟨hkey, hv⟩ hu

theorem ptrSlots_insSlot (g : Geom) (pk : KEY_T) (q : Nat) (kps : List (KEY_T × Nat)) :
    insSlot pk (pk, encodeSIZE_T g.P q) (ptrSlots g kps) = ptrSlots g (insSlot pk (pk, q) kps) := by
  induction kps with
  | nil => rfl
  | cons e r ih =>
    rw [ptrSlots_cons]
    simp only [insSlot]
    split
    · simp [ptrSlots]
    · rw [ptrSlots_cons, ih]

/-- AddKeyVal on a root or interior node with room: the block is rewritten
with the separator inserted in order and the new block as the pointer to its
right. -/
theorem AddKeyVal_int (g : Geom) (t : BTreeIndex) (node : Nat) (b : BTreeNode) (p0 : Nat)
    (kps : List (KEY_T × Nat)) (pk : KEY_T) (q : Nat)
    (hb : t.buffercache.blocks[node]? = some b) (h : IntAt g b p0 kps 1) (hne : 1 ≤ kps.length)
    (hpk : pk.length = g.keysize) (hq : q < 256 ^ g.P) :
    ∃ b', AddKeyVal g.m t node pk [] q = (ERROR_T.ERROR_NOERROR, t.put node b') ∧
      IntAt g b' p0 (insSlot pk (pk, q) kps) 0 ∧ b'.info.nodetype = b.info.nodetype := by
  have hdat := h.nodeHasData
  obtain ⟨hty, hhdr, hn, hcap, hu, hp0, rest, hd⟩ := h
  obtain ⟨hks, hvs, hbs, hlen⟩ := hhdr
  have hU := ptrSlots_uniform g kps hu
  have hroom := capI_room g (by omega)
  have hpre : (encodeSIZE_T g.P p0).length = g.P := length_encodeSIZE_T _ _
  have hrest : g.keysize + g.P ≤ rest.length := by
    have : b.data.length = g.P + kps.length * (g.keysize + g.P) + rest.length := by
      rw [hd]; simp only [List.length_append, hpre, length_flat _ _ _ hU, length_ptrSlots]
    have h3 : (kps.length + 1) * (g.keysize + g.P)
        ≤ g.capI * (g.keysize + g.P) := Nat.mul_le_mul_right _ hcap
    have h4 : (kps.length + 1) * (g.keysize + g.P)
        = kps.length * (g.keysize + g.P) + (g.keysize + g.P) := by ring
    omega
  have hlt := lt_length_of_getElem? hb
  have hkind : SlotKind g (b.withNumkeys (b.info.numkeys + 1)) [] q g.P (encodeSIZE_T g.P q) :=
    Or.inr ⟨hty, rfl, rfl⟩
  have hz : b.info.numkeys > 0 := by omega
  have hnes : ptrSlots g kps ≠ [] := by
    intro he
    have := congrArg List.length he
    rw [length_ptrSlots, List.length_nil] at this
    omega
  have hloop := addKeyValLoop_spec g (b.withNumkeys (b.info.numkeys + 1)) pk [] q g.P
    (encodeSIZE_T g.P q) (encodeSIZE_T g.P p0) rest hkind hks hvs hpk (length_encodeSIZE_T _ _)
    hpre hrest b.info.numkeys (b.info.keysize + g.m.sizeofSIZE_T) (by rw [hks]; rfl)
    (ptrSlots g kps) [] (by simpa using hU) rfl (by simpa [length_ptrSlots] using hn)
    (by simpa using hd) hnes
  simp only [List.length_nil, List.nil_append, length_ptrSlots, ← hn, ptrSlots_insSlot] at hloop
  refine ⟨(b.withNumkeys (b.info.numkeys + 1)).withData
    (encodeSIZE_T g.P p0 ++ flat (ptrSlots g (insSlot pk (pk, q) kps))
      ++ rest.drop (g.keysize + g.P)), ?_, ?_, rfl⟩
  · unfold AddKeyVal
    rw [Unserialize_data _ _ _ _ hb hdat]
    rcases hty with hty | hty <;>
    · simp only [hty, hz, if_true]
      rw [hloop]
      simp only
      rw [Serialize_data _ _ _ hlt (by simpa using hdat)]
      rfl
  · have hu' : ∀ e ∈ insSlot pk (pk, q) kps, e.1.length = g.keysize ∧ e.2 < 256 ^ g.P := by
      intro e he
      rcases (mem_insSlot pk (pk, q) e kps).mp he with he | he
      · subst he; exact ⟨hpk, hq⟩
      · exact hu e he
    refine ⟨hty, ⟨hks, hvs, hbs, ?_⟩, ?_, ?_, hu', hp0, rest.drop (g.keysize + g.P), rfl⟩
    · show (encodeSIZE_T g.P p0 ++ flat (ptrSlots g (insSlot pk (pk, q) kps))
        ++ rest.drop (g.keysize + g.P)).length = g.D
      have hU' := ptrSlots_uniform g _ hu'
      rw [← hlen, hd]
      simp only [List.length_append, length_flat _ _ _ hU', length_flat _ _ _ hU, length_insSlot,
        List.length_drop, length_ptrSlots]
      have h4 : (kps.length + 1) * (g.keysize + g.P)
          = kps.length * (g.keysize + g.P) + (g.keysize + g.P) := by ring
      omega
    · show b.info.numkeys + 1 = _
      rw [hn, length_insSlot]
    · rw [length_insSlot]; omega


/-! ## Writes that leave block 0 alone -/

theorem Keeps.refl {t : BTreeIndex} (h : SuperOK t) : Keeps t t := ⟨h, rfl, rfl, rfl, rfl, rfl⟩

theorem Keeps.trans {t t1 t2 : BTreeIndex} (h1 : Keeps t t1) (h2 : Keeps t1 t2) : Keeps t t2 :=
  ⟨h2.1, h2.2.1.trans h1.2.1, h2.2.2.1.trans h1.2.2.1, h2.2.2.2.1.trans h1.2.2.2.1,
    h2.2.2.2.2.1.trans h1.2.2.2.2.1, h2.2.2.2.2.2.trans h1.2.2.2.2.2⟩

theorem Serialize_blocks (b : BTreeNode) (c : BufferCache) (n : Nat) :
    (b.Serialize c n).2.blocksize = c.blocksize ∧
    (b.Serialize c n).2.blocks.length = c.blocks.length ∧
    ∀ j, j ≠ n → (b.Serialize c n).2.blocks[j]? = c.blocks[j]? := by
  unfold BTreeNode.Serialize
  simp only
  split
  · refine ⟨rfl, by simp, ?_⟩
    intro j hj
    simp only
    rw [List.getElem?_set_ne (Ne.symm hj)]
  · exact ⟨rfl, rfl, fun _ _ => rfl⟩

/-- Writing any node to a block other than 0 keeps the superblock in step. -/
theorem Keeps.serialize {t : BTreeIndex} (h : SuperOK t) (b : BTreeNode) (n : Nat) (hn : n ≠ 0) :
    Keeps t { t with buffercache := (b.Serialize t.buffercache n).2 } := by
  obtain ⟨h1, h2, h3⟩ := Serialize_blocks b t.buffercache n
  refine ⟨⟨h.1, h.2.1, h.2.2.1, ?_⟩, rfl, h2, h1, rfl, rfl⟩
  show (b.Serialize t.buffercache n).2.blocks[0]? = _
  rw [h3 0 (Ne.symm hn)]
  exact h.2.2.2

theorem Unserialize_type_ne_zero {t : BTreeIndex} (h : SuperOK t) (x : BTreeNode) (n : Nat)
    (hd : hasData (x.Unserialize t.buffercache n).2.info.nodetype = true) : n ≠ 0 := by
  intro hn
  subst hn
  unfold BTreeNode.Unserialize at hd
  rw [h.2.2.2] at hd
  simp only [h.2.1] at hd
  cases hd

theorem default_noData : hasData BTreeNode.default.info.nodetype = false := rfl

/-! ## AllocateNode -/

theorem Serialize_nodata (b : BTreeNode) (c : BufferCache) (n : Nat) (h : n < c.blocks.length)
    (hd : hasData b.info.nodetype = false) (hb : b.data = []) :
    b.Serialize c n = (ERROR_T.ERROR_NOERROR, { c with blocks := c.blocks.set n b }) := by
  unfold BTreeNode.Serialize
  simp only [h, if_true, hd, Bool.false_eq_true, if_false]
  cases b
  simp only at hb
  subst hb
  rfl

theorem AllocateNode_keeps (t : BTreeIndex) (h : SuperOK t) (rc : ERROR_T) (n : Nat)
    (t1 : BTreeIndex) (ha : AllocateNode t false = some (rc, n, t1)) :
    Keeps t t1 ∧ (rc = ERROR_T.ERROR_NOERROR → n ≠ 0) ∧
      (∀ j, j ≠ 0 → t1.buffercache.blocks[j]? = t.buffercache.blocks[j]?) := by
  unfold AllocateNode at ha
  simp only [Bool.false_eq_true, if_false] at ha
  have hlt : 0 < t.buffercache.blocks.length := lt_length_of_getElem? h.2.2.2
  split at ha
  · cases ha
    exact ⟨Keeps.refl h, by simp, fun _ _ => rfl⟩
  · rename_i hne
    split at ha
    · cases ha
    · generalize (BTreeNode.default.Unserialize t.buffercache t.superblock.info.freelist).2
        = node at ha
      have hser := Serialize_nodata (t.superblock.withFreelist node.info.freelist) t.buffercache 0
        hlt (by show hasData t.superblock.info.nodetype = false; rw [h.2.1]; rfl) h.2.2.1
      rw [h.1, hser] at ha
      cases ha
      refine ⟨⟨⟨rfl, h.2.1, h.2.2.1, ?_⟩, rfl, by simp, rfl, rfl, rfl⟩, fun _ => hne, ?_⟩
      · simp only [List.getElem?_set_self hlt]
      · intro j hj
        simp only [List.getElem?_set_ne (Ne.symm hj)]

/-! ## Every operation keeps the superblock in step -/

theorem Keeps.serialize_eq {t : BTreeIndex} {c c1 : BufferCache} {b : BTreeNode} {n : Nat}
    {rc : ERROR_T} (h : SuperOK { t with buffercache := c }) (hs : b.Serialize c n = (rc, c1))
    (hn : n ≠ 0) : Keeps { t with buffercache := c } { t with buffercache := c1 } := by
  have := Keeps.serialize h b n hn
  simp only [hs] at this
  exact this

theorem AddKeyVal_keeps (m : Machine) (t : BTreeIndex) (h : SuperOK t) (node : Nat) (key : KEY_T)
    (value : VALUE_T) (newNode : Nat) : Keeps t (AddKeyVal m t node key value newNode).2 := by
  unfold AddKeyVal
  simp only
  split
  · exact Keeps.refl h
  · rename_i pairSize hps
    have hn : node ≠ 0 := by
      apply Unserialize_type_ne_zero h BTreeNode.default node
      revert hps
      generalize (BTreeNode.default.Unserialize t.buffercache node).2 = b
      cases hty : b.info.nodetype <;> simp [hty, hasData]
    split
    · exact Keeps.serialize h _ node hn
    · exact Keeps.refl h

theorem NeedToSplit_ne_zero (m : Machine) (t : BTreeIndex) (h : SuperOK t) (node : Nat)
    (hs : NeedToSplit m t node = true) : node ≠ 0 := by
  apply Unserialize_type_ne_zero h BTreeNode.default node
  unfold NeedToSplit at hs
  revert hs
  generalize (BTreeNode.default.Unserialize t.buffercache node).2 = b
  cases hty : b.info.nodetype <;> simp [hty, hasData]

theorem SplitNode_keeps (m : Machine) (t : BTreeIndex) (h : SuperOK t) (node : Nat)
    (hnode : node ≠ 0) (pk pk1 : KEY_T) (rc : ERROR_T) (second : Nat) (t1 : BTreeIndex)
    (hs : SplitNode m t node pk = some (rc, second, pk1, t1)) : Keeps t t1 := by
  unfold SplitNode at hs
  simp only at hs
  cases ha : AllocateNode t false with
  | none => rw [ha] at hs; cases hs
  | some r =>
    obtain ⟨rc0, sn, ta⟩ := r
    obtain ⟨hk, hsn, _⟩ := AllocateNode_keeps t h rc0 sn ta ha
    rw [ha] at hs
    by_cases hrc0 : rc0 = ERROR_T.ERROR_NOERROR
    · subst hrc0
      have hsn := hsn rfl
      simp only at hs
      generalize hS : (BTreeNode.default.Unserialize t.buffercache node).2.Serialize
        ta.buffercache sn = r2 at hs
      obtain ⟨rc2, c2⟩ := r2
      have hk2 : Keeps ta { ta with buffercache := c2 } := Keeps.serialize_eq hk.1 hS hsn
      by_cases hrc2 : rc2 = ERROR_T.ERROR_NOERROR
      · subst hrc2
        simp only at hs
        split at hs
        · split at hs
          · cases hs
          · generalize hS3 : BTreeNode.Serialize _ c2 node = r3 at hs
            obtain ⟨rc3, c3⟩ := r3
            have hk3 : Keeps { ta with buffercache := c2 } { ta with buffercache := c3 } :=
              Keeps.serialize_eq hk2.1 hS3 hnode
            by_cases hrc3 : rc3 = ERROR_T.ERROR_NOERROR
            · subst hrc3
              simp only [Option.some.injEq, Prod.mk.injEq] at hs
              obtain ⟨_, _, _, rfl⟩ := hs
              exact hk.trans (hk2.trans (hk3.trans (Keeps.serialize hk3.1 _ sn hsn)))
            · have : t1 = { ta with buffercache := c3 } := by
                cases rc3 <;> first | exact absurd rfl hrc3 | (simp at hs; exact hs.2.2.2.symm)
              subst this
              exact hk.trans (hk2.trans hk3)
        · split at hs
          · cases hs
          · generalize hS3 : BTreeNode.Serialize _ c2 node = r3 at hs
            obtain ⟨rc3, c3⟩ := r3
            have hk3 : Keeps { ta with buffercache := c2 } { ta with buffercache := c3 } :=
              Keeps.serialize_eq hk2.1 hS3 hnode
            by_cases hrc3 : rc3 = ERROR_T.ERROR_NOERROR
            · subst hrc3
              simp only [Option.some.injEq, Prod.mk.injEq] at hs
              obtain ⟨_, _, _, rfl⟩ := hs
              exact hk.trans (hk2.trans (hk3.trans (Keeps.serialize hk3.1 _ sn hsn)))
            · have : t1 = { ta with buffercache := c3 } := by
                cases rc3 <;> first | exact absurd rfl hrc3 | (simp at hs; exact hs.2.2.2.symm)
              subst this
              exact hk.trans (hk2.trans hk3)
      · have : t1 = { ta with buffercache := c2 } := by
          cases rc2 <;> first | exact absurd rfl hrc2 | (simp at hs; exact hs.2.2.2.symm)
        subst this
        exact hk.trans hk2
    · have : t1 = ta := by
        cases rc0 <;> first | exact absurd rfl hrc0 | (simp at hs; exact hs.2.2.2.symm)
      subst this
      exact hk

theorem splitChild_keeps (m : Machine) (t : BTreeIndex) (h : SuperOK t) (node ptr : Nat)
    (rc : ERROR_T) (t1 : BTreeIndex) (hs : splitChild m t node ptr = some (rc, t1)) :
    Keeps t t1 := by
  unfold splitChild at hs
  split at hs
  · rename_i hsplit
    have hptr := NeedToSplit_ne_zero m t h ptr hsplit
    cases hsn : SplitNode m t ptr [] with
    | none => rw [hsn] at hs; cases hs
    | some r =>
      obtain ⟨rc2, sn, pk, t2⟩ := r
      have hk := SplitNode_keeps m t h ptr hptr [] pk rc2 sn t2 hsn
      rw [hsn] at hs
      by_cases hrc : rc2 = ERROR_T.ERROR_NOERROR
      · subst hrc
        simp only [Option.some.injEq] at hs
        have := AddKeyVal_keeps m t2 hk.1 node pk [] sn
        rw [hs] at this
        exact hk.trans this
      · have : t1 = t2 := by
          cases rc2 <;> first | exact absurd rfl hrc | (simp at hs; exact hs.2.symm)
        subst this
        exact hk
  · cases hs
    exact Keeps.refl h

theorem SearchInternal2_keeps (m : Machine) (fuel : Nat) (t : BTreeIndex) (h : SuperOK t)
    (node : Nat) (key : KEY_T) (value : VALUE_T) (parent : Nat) (rc : ERROR_T) (t1 : BTreeIndex)
    (hs : SearchInternal2 m fuel t node key value parent = some (rc, t1)) : Keeps t t1 := by
  induction fuel generalizing t node parent rc t1 with
  | zero => simp [SearchInternal2] at hs
  | succ f ih =>
    rw [SearchInternal2] at hs
    generalize hu : BTreeNode.default.Unserialize t.buffercache node = u at hs
    obtain ⟨rcu, b⟩ := u
    have hleaf : ∀ r : ERROR_T × BTreeIndex, some (AddKeyVal m t node key value 0) = some r →
        Keeps t r.2 := by
      intro r hr
      cases hr
      exact AddKeyVal_keeps m t h node key value 0
    have hint : ∀ r : ERROR_T × BTreeIndex,
        (match pickChild m b key with
          | .error rc => some (rc, t)
          | .ok ptr =>
            match SearchInternal2 m f t ptr key value node with
            | none => none
            | some (ERROR_T.ERROR_NOERROR, t1) => splitChild m t1 node ptr
            | some (rc, t1) => some (rc, t1)) = some r → Keeps t r.2 := by
      intro r hr
      split at hr
      · cases hr; exact Keeps.refl h
      · rename_i ptr _
        cases hrec : SearchInternal2 m f t ptr key value node with
        | none => rw [hrec] at hr; cases hr
        | some r1 =>
          obtain ⟨rc1, ta⟩ := r1
          have hk := ih t h ptr node rc1 ta hrec
          rw [hrec] at hr
          by_cases hrc : rc1 = ERROR_T.ERROR_NOERROR
          · subst hrc
            simp only at hr
            exact hk.trans (splitChild_keeps m ta hk.1 node ptr r.1 r.2 hr)
          · have : r.2 = ta := by
              cases rc1 <;> first | exact absurd rfl hrc | (simp at hr; rw [← hr])
            rw [this]
            exact hk
    by_cases hrcu : rcu = ERROR_T.ERROR_NOERROR
    · subst hrcu
      simp only at hs
      cases hty : b.info.nodetype <;> simp only [hty] at hs
      · cases hs; exact Keeps.refl h
      · cases hs; exact Keeps.refl h
      · exact hint _ hs
      · exact hint _ hs
      · exact hleaf _ hs
    · have : t1 = t := by
        cases rcu <;> first | exact absurd rfl hrcu | (simp at hs; exact hs.2.symm)
      subst this
      exact Keeps.refl h

theorem AllocateNode_root_keeps (t : BTreeIndex) (h : SuperOK t) (n : Nat) (t1 : BTreeIndex)
    (ha : AllocateNode t true = some (ERROR_T.ERROR_NOERROR, n, t1)) :
    SuperOK t1 ∧ t1.superblock.info.rootnode = n ∧ n ≠ 0 ∧
      t1.buffercache.blocks.length = t.buffercache.blocks.length ∧
      t1.buffercache.blocksize = t.buffercache.blocksize ∧
      t1.superblock.info.keysize = t.superblock.info.keysize ∧
      t1.superblock.info.valuesize = t.superblock.info.valuesize ∧
      (∀ j, j ≠ 0 → t1.buffercache.blocks[j]? = t.buffercache.blocks[j]?) := by
  unfold AllocateNode at ha
  simp only [if_true] at ha
  have hlt : 0 < t.buffercache.blocks.length := lt_length_of_getElem? h.2.2.2
  split at ha
  · cases ha
  · rename_i hne
    split at ha
    · cases ha
    · generalize (BTreeNode.default.Unserialize t.buffercache t.superblock.info.freelist).2
        = node at ha
      have hser := Serialize_nodata
        ((t.superblock.withRootnode t.superblock.info.freelist).withFreelist node.info.freelist)
        t.buffercache 0 hlt
        (by show hasData t.superblock.info.nodetype = false; rw [h.2.1]; rfl) h.2.2.1
      rw [h.1] at ha
      rw [hser] at ha
      cases ha
      refine ⟨⟨rfl, h.2.1, h.2.2.1, ?_⟩, rfl, hne, by simp, rfl, rfl, rfl, ?_⟩
      · simp only [List.getElem?_set_self hlt]
      · intro j hj
        simp only [List.getElem?_set_ne (Ne.symm hj)]


theorem bootstrap_keeps (m : Machine) (t : BTreeIndex) (h : SuperOK t)
    (hr : t.superblock.info.rootnode ≠ 0) (root root1 : BTreeNode) (key : KEY_T) (rc : ERROR_T)
    (tb : BTreeIndex) (hb : bootstrap m t root key = some (rc, root1, tb)) : Keeps t tb := by
  unfold bootstrap at hb
  simp only at hb
  cases ha1 : AllocateNode t false with
  | none => rw [ha1] at hb; cases hb
  | some r1 =>
    obtain ⟨rc1, n1, ta⟩ := r1
    obtain ⟨hk1, hn1, _⟩ := AllocateNode_keeps t h rc1 n1 ta ha1
    rw [ha1] at hb
    by_cases hrc1 : rc1 = ERROR_T.ERROR_NOERROR
    · subst hrc1
      simp only at hb
      cases ha2 : AllocateNode ta false with
      | none => rw [ha2] at hb; cases hb
      | some r2 =>
        obtain ⟨rc2, n2, tb2⟩ := r2
        obtain ⟨hk2, hn2, _⟩ := AllocateNode_keeps ta hk1.1 rc2 n2 tb2 ha2
        rw [ha2] at hb
        by_cases hrc2 : rc2 = ERROR_T.ERROR_NOERROR
        · subst hrc2
          simp only [Option.some.injEq, Prod.mk.injEq] at hb
          obtain ⟨_, _, rfl⟩ := hb
          have k3 := Keeps.serialize hk2.1 (BTreeNode.mk4 m NodeType.BTREE_LEAF_NODE
            t.superblock.info.keysize t.superblock.info.valuesize t.buffercache.blocksize)
            n1 (hn1 rfl)
          have k4 := Keeps.serialize k3.1 (BTreeNode.mk4 m NodeType.BTREE_LEAF_NODE
            t.superblock.info.keysize t.superblock.info.valuesize t.buffercache.blocksize)
            n2 (hn2 rfl)
          have hroot : tb2.superblock.info.rootnode ≠ 0 := by
            rw [hk2.2.1, hk1.2.1]; exact hr
          have k5 := Keeps.serialize k4.1
            (fillRoot m (root.withNumkeys (root.info.numkeys + 1)) key n1 n2)
            tb2.superblock.info.rootnode hroot
          exact hk1.trans (hk2.trans (k3.trans (k4.trans k5)))
        · have : tb = tb2 := by
            cases rc2 <;> first | exact absurd rfl hrc2 | (simp at hb; exact hb.2.2.symm)
          subst this
          exact hk1.trans hk2
    · have : tb = ta := by
        cases rc1 <;> first | exact absurd rfl hrc1 | (simp at hb; exact hb.2.2.symm)
      subst this
      exact hk1

theorem attachLoop_blocks (m : Machine) (ks vs : Nat) (cnt : Nat) (c : BufferCache) (i : Nat) :
    (attachLoop m ks vs c i cnt).2.blocksize = c.blocksize ∧
    (attachLoop m ks vs c i cnt).2.blocks.length = c.blocks.length ∧
    ∀ j, j < i → (attachLoop m ks vs c i cnt).2.blocks[j]? = c.blocks[j]? := by
  induction cnt generalizing c i with
  | zero => exact ⟨rfl, rfl, fun _ _ => rfl⟩
  | succ n ih =>
    rw [attachLoop]
    generalize hS : BTreeNode.Serialize _ c i = r
    obtain ⟨rc, c1⟩ := r
    obtain ⟨h1, h2, h3⟩ := Serialize_blocks
      (((BTreeNode.mk4 m NodeType.BTREE_UNALLOCATED_BLOCK ks vs c.blocksize).withRootnode
        1).withFreelist (if i + 1 = c.blocks.length then 0 else i + 1)) c i
    rw [hS] at h1 h2 h3
    simp only at h1 h2 h3
    cases rc
    case ERROR_NOERROR =>
      obtain ⟨i1, i2, i3⟩ := ih c1 (i + 1)
      refine ⟨i1.trans h1, i2.trans h2, ?_⟩
      intro j hj
      exact (i3 j (by omega)).trans (h3 j (by omega))
    all_goals exact ⟨h1, h2, fun j hj => h3 j (by omega)⟩

theorem set_same {α : Type} (l : List α) (i : Nat) (a : α) (h : l[i]? = some a) :
    l.set i a = l := by
  apply List.ext_getElem?
  intro j
  by_cases hj : i = j
  · subst hj
    rw [List.getElem?_set_self (lt_length_of_getElem? h), h]
  · rw [List.getElem?_set_ne hj]

/-- The state a successful `Attach(0, true)` leaves: the cached superblock is
what block 0 holds and the root is block 1. -/
theorem fresh_super (m : Machine) (ks vs : Nat) (c : BufferCache) (t : BTreeIndex)
    (h : fresh m ks vs c = some t) :
    SuperOK t ∧ t.superblock.info.rootnode = 1 ∧ t.superblock.info.freelist = 2 ∧
      t.superblock.info.keysize = ks ∧ t.superblock.info.valuesize = vs ∧
      t.buffercache.blocksize = c.blocksize ∧ t.buffercache.blocks.length = c.blocks.length := by
  unfold fresh Attach at h
  simp only [ne_eq, not_true_eq_false, if_false, if_true] at h
  generalize hS0 : BTreeNode.Serialize _ (BTreeIndex.new ks vs c).buffercache 0 = r0 at h
  obtain ⟨rc0, c1⟩ := r0
  by_cases hrc0 : rc0 = ERROR_T.ERROR_NOERROR
  swap
  · exfalso
    cases rc0 <;> first | exact absurd rfl hrc0 | simp at h
  subst hrc0
  simp only at h
  generalize hS1 : BTreeNode.Serialize _ c1 (0 + 1) = r1 at h
  obtain ⟨rc1, c2⟩ := r1
  by_cases hrc1 : rc1 = ERROR_T.ERROR_NOERROR
  swap
  · exfalso
    cases rc1 <;> first | exact absurd rfl hrc1 | simp at h
  subst hrc1
  simp only at h
  generalize hL : attachLoop m _ _ c2 (0 + 2) _ = r2 at h
  obtain ⟨rc2, c3⟩ := r2
  by_cases hrc2 : rc2 = ERROR_T.ERROR_NOERROR
  swap
  · exfalso
    cases rc2 <;> first | exact absurd rfl hrc2 | simp at h
  subst hrc2
  simp only at h
  -- the blocks
  have hnew : (BTreeIndex.new ks vs c).buffercache = c := rfl
  rw [hnew] at hS0
  have hlt0 : 0 < c.blocks.length := by
    by_contra hc
    unfold BTreeNode.Serialize at hS0
    simp only [hc, if_false] at hS0
    cases hS0
  have hc1 : c1 = BufferCache.mk c.blocksize (c.blocks.set 0
      ((((BTreeNode.mk4 m NodeType.BTREE_SUPERBLOCK ks vs c.blocksize).withRootnode 1).withFreelist
        2).withNumkeys 0)) := by
    have := Serialize_nodata ((((BTreeNode.mk4 m NodeType.BTREE_SUPERBLOCK ks vs
      c.blocksize).withRootnode 1).withFreelist 2).withNumkeys 0) c 0 hlt0 rfl rfl
    have hS0' : BTreeNode.Serialize ((((BTreeNode.mk4 m NodeType.BTREE_SUPERBLOCK ks vs
      c.blocksize).withRootnode 1).withFreelist 2).withNumkeys 0) c 0
        = (ERROR_T.ERROR_NOERROR, c1) := hS0
    rw [this] at hS0'
    cases hS0'
    rfl
  obtain ⟨s1, s2, s3⟩ := Serialize_blocks
    ((((BTreeNode.mk4 m NodeType.BTREE_ROOT_NODE (BTreeIndex.new ks vs c).superblock.info.keysize
      (BTreeIndex.new ks vs c).superblock.info.valuesize c1.blocksize).withRootnode
      (0 + 1)).withFreelist (0 + 2)).withNumkeys 0) c1 (0 + 1)
  rw [hS1] at s1 s2 s3
  simp only at s1 s2 s3
  obtain ⟨l1, l2, l3⟩ := attachLoop_blocks m (BTreeIndex.new ks vs c).superblock.info.keysize
    (BTreeIndex.new ks vs c).superblock.info.valuesize (c2.blocks.length - (0 + 2)) c2 (0 + 2)
  rw [hL] at l1 l2 l3
  simp only at l1 l2 l3
  have hb0 : c3.blocks[0]? = some ((((BTreeNode.mk4 m NodeType.BTREE_SUPERBLOCK ks vs
      c.blocksize).withRootnode 1).withFreelist 2).withNumkeys 0) := by
    rw [l3 0 (by omega), s3 0 (by omega), hc1]
    simp only [List.getElem?_set_self hlt0]
  have hu : (BTreeIndex.new ks vs c).superblock.Unserialize c3 0
      = (ERROR_T.ERROR_NOERROR, (((BTreeNode.mk4 m NodeType.BTREE_SUPERBLOCK ks vs
      c.blocksize).withRootnode 1).withFreelist 2).withNumkeys 0) := by
    unfold BTreeNode.Unserialize
    rw [hb0]
    rfl
  rw [hu] at h
  simp only [Option.some.injEq] at h
  subst h
  refine ⟨⟨rfl, rfl, rfl, hb0⟩, rfl, rfl, rfl, rfl, ?_, ?_⟩
  · show c3.blocksize = c.blocksize
    rw [l1, s1, hc1]
  · show c3.blocks.length = c.blocks.length
    rw [l2, s2, hc1]
    simp

theorem scanLeaf_hit_range (m : Machine) (b : BTreeNode) (key : KEY_T) (cnt off o : Nat)
    (h : scanLeaf m b key off cnt = LeafScanResult.hit o) :
    off ≤ o ∧ o < off + cnt ∧ o < b.info.numkeys := by
  induction cnt generalizing off with
  | zero => simp [scanLeaf] at h
  | succ n ih =>
    rw [scanLeaf] at h
    cases hk : b.GetKey m off with
    | error e => rw [hk] at h; simp at h
    | ok tk =>
      rw [hk] at h
      simp only at h
      split at h
      · simp only [LeafScanResult.hit.injEq] at h
        subst h
        refine ⟨le_refl _, by omega, ?_⟩
        unfold BTreeNode.GetKey at hk
        split at hk
        · cases hk
        · split at hk
          · assumption
          · cases hk
      · obtain ⟨h1, h2, h3⟩ := ih _ h
        exact ⟨by omega, by omega, h3⟩

theorem scanLeaf_congr (m : Machine) (b b1 : BTreeNode) (key : KEY_T) (cnt off : Nat)
    (h : ∀ j, b1.GetKey m j = b.GetKey m j) :
    scanLeaf m b1 key off cnt = scanLeaf m b key off cnt := by
  induction cnt generalizing off with
  | zero => rfl
  | succ n ih =>
    rw [scanLeaf, scanLeaf, h off]
    cases b.GetKey m off with
    | error e => rfl
    | ok tk =>
      simp only
      split
      · rfl
      · exact ih _

/-- Overwriting the value of slot `o` of a leaf whose slots fit its buffer
leaves every key as it was and makes the value read back. -/
theorem leaf_SetVal (m : Machine) (b : BTreeNode) (o : Nat) (v : VALUE_T)
    (hty : b.info.nodetype = NodeType.BTREE_LEAF_NODE) (ho : o < b.info.numkeys)
    (hv : v.length = b.info.valuesize)
    (hfit : m.sizeofSIZE_T + b.info.numkeys * (b.info.keysize + b.info.valuesize)
      ≤ b.data.length) :
    ∃ b1, b.SetVal m o v = .ok b1 ∧ b1.info = b.info ∧ b1.GetVal m o = .ok v ∧
      ∀ j, b1.GetKey m j = b.GetKey m j := by
  have hmul : (o + 1) * (b.info.keysize + b.info.valuesize)
      ≤ b.info.numkeys * (b.info.keysize + b.info.valuesize) := Nat.mul_le_mul_right _ ho
  have hexp : (o + 1) * (b.info.keysize + b.info.valuesize)
      = o * (b.info.keysize + b.info.valuesize) + (b.info.keysize + b.info.valuesize) := by ring
  have hin : m.sizeofSIZE_T + o * (b.info.keysize + b.info.valuesize) + b.info.keysize
      + v.length ≤ b.data.length := by omega
  refine ⟨b.withData (writeAt b.data
    (m.sizeofSIZE_T + o * (b.info.keysize + b.info.valuesize) + b.info.keysize) v), ?_, rfl, ?_, ?_⟩
  · unfold BTreeNode.SetVal BTreeNode.ResolveVal
    simp only [hty, ho, if_true]
    rw [← hv, List.take_length]
  · unfold BTreeNode.GetVal BTreeNode.ResolveVal
    simp only [withData_info, withData_data, hty, ho, if_true]
    have h2 := readAt_writeAt_same b.data
      (m.sizeofSIZE_T + o * (b.info.keysize + b.info.valuesize) + b.info.keysize) v hin
    rw [hv] at h2
    rw [h2]
  · intro j
    unfold BTreeNode.GetKey BTreeNode.ResolveKey
    simp only [withData_info, withData_data, hty]
    by_cases hj : j < b.info.numkeys
    · simp only [hj, if_true]
      congr 1
      rcases Nat.lt_or_ge o j with hoj | hoj
      · apply readAt_writeAt_after _ _ _ _ _ hin
        have : (o + 1) * (b.info.keysize + b.info.valuesize)
            ≤ j * (b.info.keysize + b.info.valuesize) := Nat.mul_le_mul_right _ hoj
        omega
      · apply readAt_writeAt_before _ _ _ _ _ hin
        have : j * (b.info.keysize + b.info.valuesize)
            ≤ o * (b.info.keysize + b.info.valuesize) := Nat.mul_le_mul_right _ hoj
        omega
    · simp only [hj, if_false]

theorem put_blocks (t : BTreeIndex) (j : Nat) (b : BTreeNode) :
    (t.put j b).buffercache.blocks = t.buffercache.blocks.set j b := rfl

theorem Unserialize_put_ne (x : BTreeNode) (t : BTreeIndex) (j node : Nat) (b1 : BTreeNode)
    (h : j ≠ node) :
    x.Unserialize (t.put j b1).buffercache node = x.Unserialize t.buffercache node := by
  unfold BTreeNode.Unserialize
  rw [put_blocks, List.getElem?_set_ne h]

theorem Unserialize_ok_block (x : BTreeNode) (c : BufferCache) (node : Nat) (b : BTreeNode)
    (h : x.Unserialize c node = (ERROR_T.ERROR_NOERROR, b)) :
    ∃ blk, c.blocks[node]? = some blk ∧ blk.info = b.info ∧
      (hasData blk.info.nodetype = true → blk = b) := by
  unfold BTreeNode.Unserialize at h
  cases hb : c.blocks[node]? with
  | none => rw [hb] at h; simp at h
  | some blk =>
    rw [hb] at h
    simp only [Prod.mk.injEq, true_and] at h
    subst h
    refine ⟨blk, rfl, rfl, ?_⟩
    intro hd
    simp only [hd, if_true]

theorem update_descent (m : Machine) (t : BTreeIndex) (k : KEY_T) (v : VALUE_T)
    (hwf : LeavesOK m t) (hv : v.length = t.superblock.info.valuesize) (fuel : Nat) (node : Nat)
    (x v0 : VALUE_T) (t0 : BTreeIndex)
    (h : LookupOrUpdateInternal m fuel t node BTreeOp.BTREE_OP_LOOKUP k x
      = some (ERROR_T.ERROR_NOERROR, v0, t0)) :
    ∃ j bl b1, t.buffercache.blocks[j]? = some bl ∧
      bl.info.nodetype = NodeType.BTREE_LEAF_NODE ∧ b1.info = bl.info ∧
      LookupOrUpdateInternal m fuel t node BTreeOp.BTREE_OP_UPDATE k v
        = some (ERROR_T.ERROR_NOERROR, v, t.put j b1) ∧
      ∀ y, LookupOrUpdateInternal m fuel (t.put j b1) node BTreeOp.BTREE_OP_LOOKUP k y
        = some (ERROR_T.ERROR_NOERROR, v, t.put j b1) := by
  induction fuel generalizing node with
  | zero => simp [LookupOrUpdateInternal] at h
  | succ f ih =>
    rw [LookupOrUpdateInternal] at h
    cases hu : BTreeNode.default.Unserialize t.buffercache node with
    | mk rcu b =>
    rw [hu] at h
    by_cases hrcu : rcu = ERROR_T.ERROR_NOERROR
    swap
    · exfalso
      cases rcu <;> first | exact absurd rfl hrcu | simp at h
    subst hrcu
    simp only at h
    obtain ⟨blk, hblk, hinfo, hsame⟩ := Unserialize_ok_block _ _ _ _ hu
    have hint : (b.info.nodetype = NodeType.BTREE_ROOT_NODE ∨
        b.info.nodetype = NodeType.BTREE_INTERIOR_NODE) →
        (match pickChild m b k with
          | .error rc => some (rc, x, t)
          | .ok ptr => LookupOrUpdateInternal m f t ptr BTreeOp.BTREE_OP_LOOKUP k x)
          = some (ERROR_T.ERROR_NOERROR, v0, t0) →
        ∃ j bl b1, t.buffercache.blocks[j]? = some bl ∧
          bl.info.nodetype = NodeType.BTREE_LEAF_NODE ∧ b1.info = bl.info ∧
          LookupOrUpdateInternal m (f + 1) t node BTreeOp.BTREE_OP_UPDATE k v
            = some (ERROR_T.ERROR_NOERROR, v, t.put j b1) ∧
          ∀ y, LookupOrUpdateInternal m (f + 1) (t.put j b1) node BTreeOp.BTREE_OP_LOOKUP k y
            = some (ERROR_T.ERROR_NOERROR, v, t.put j b1) := by
      intro hty hh
      cases hp : pickChild m b k with
      | error e =>
        rw [hp] at hh
        simp only [Option.some.injEq, Prod.mk.injEq] at hh
        exact absurd hh.1 (pickChild_error_ne m b k e hp)
      | ok ptr =>
        rw [hp] at hh
        simp only at hh
        obtain ⟨j, bl, b1, hj, hjt, hb1, hup, hlk⟩ := ih ptr hh
        have hne : j ≠ node := by
          intro he
          subst he
          rw [hblk] at hj
          cases hj
          rw [hinfo] at hjt
          rcases hty with h1 | h1 <;> rw [h1] at hjt <;> cases hjt
        refine ⟨j, bl, b1, hj, hjt, hb1, ?_, ?_⟩
        · rw [LookupOrUpdateInternal, hu]
          rcases hty with h1 | h1 <;> simp only [h1, hp, hup]
        · intro y
          rw [LookupOrUpdateInternal, Unserialize_put_ne _ _ _ _ _ hne, hu]
          rcases hty with h1 | h1 <;> simp only [h1, hp, hlk]
    cases hty : b.info.nodetype <;> simp only [hty] at h
    · cases h
    · cases h
    · exact hint (Or.inl hty) h
    · exact hint (Or.inr hty) h
    · -- leaf
      have hdat : hasData blk.info.nodetype = true := by rw [hinfo, hty]; rfl
      have hbb := hsame hdat
      subst hbb
      cases hs : scanLeaf m blk k 0 blk.info.numkeys with
      | fail e =>
        rw [hs] at h
        simp only [Option.some.injEq, Prod.mk.injEq] at h
        exact absurd h.1 (scanLeaf_fail_ne m blk k _ _ _ hs)
      | miss => rw [hs] at h; simp at h
      | hit o =>
        obtain ⟨_, _, ho⟩ := scanLeaf_hit_range m blk k _ _ _ hs
        have hmem : blk ∈ t.buffercache.blocks := List.mem_iff_getElem?.mpr ⟨node, hblk⟩
        obtain ⟨hvs, hfit⟩ := hwf blk hmem hty
        obtain ⟨b1, hset, hb1, hget, hkeys⟩ := leaf_SetVal m blk o v hty ho (by rw [hv, hvs]) hfit
        have hlt := lt_length_of_getElem? hblk
        have hty1 : b1.info.nodetype = NodeType.BTREE_LEAF_NODE := by rw [hb1]; exact hty
        refine ⟨node, blk, b1, hblk, hty, hb1, ?_, ?_⟩
        · rw [LookupOrUpdateInternal, hu]
          simp only [hty, hs, reduceCtorEq, if_false, hset]
          rw [Serialize_data _ _ _ hlt (by rw [hty1]; rfl)]
          rfl
        · intro y
          have hu1 : BTreeNode.default.Unserialize (t.put node b1).buffercache node
              = (ERROR_T.ERROR_NOERROR, b1) := by
            apply Unserialize_data
            · rw [put_blocks, List.getElem?_set_self hlt]
            · rw [hty1]; rfl
          rw [LookupOrUpdateInternal, hu1]
          simp only [hty1, hb1]
          rw [scanLeaf_congr m blk b1 k _ _ hkeys, hs]
          simp only [if_true, hget, hty]

/-- C4 (amended): in every state whose stored leaves carry the value size of
the tree and keep their `numkeys` slots inside their slot bytes, when the
lookup of a key succeeds, the update of that key with a value of the tree's
value size succeeds and the lookup that follows returns that value. -/
theorem update_then_lookup (m : Machine) (t : BTreeIndex) (k : KEY_T) (v v0 : VALUE_T)
    (hwf : LeavesOK m t) (hv : v.length = t.superblock.info.valuesize)
    (h : Lookup m t k = some (ERROR_T.ERROR_NOERROR, v0)) :
    ∃ t1, Update m t k v = some (ERROR_T.ERROR_NOERROR, t1) ∧
      Lookup m t1 k = some (ERROR_T.ERROR_NOERROR, v) := by
  unfold Lookup at h
  cases hl : LookupOrUpdateInternal m (depthBound t) t t.superblock.info.rootnode
      BTreeOp.BTREE_OP_LOOKUP k [] with
  | none => rw [hl] at h; cases h
  | some r =>
    obtain ⟨rc, v1, t0⟩ := r
    rw [hl] at h
    simp only [Option.some.injEq, Prod.mk.injEq] at h
    obtain ⟨rfl, rfl⟩ := h
    obtain ⟨j, bl, b1, hj, hjt, hb1, hup, hlk⟩ :=
      update_descent m t k v hwf hv (depthBound t) _ [] v1 t0 hl
    refine ⟨t.put j b1, ?_, ?_⟩
    · unfold Update
      rw [hup]
    · unfold Lookup
      have hd : depthBound (t.put j b1) = depthBound t := by
        simp [depthBound, put_blocks]
      have hr : (t.put j b1).superblock.info.rootnode = t.superblock.info.rootnode := rfl
      rw [hd, hr, hlk []]


/-! ## Key bounds -/

theorem above_none (k : KEY_T) : above none k := by
  intro l h; cases h

theorem below_none (k : KEY_T) : below k none := by
  intro l h; cases h

theorem sbelow_none (k : KEY_T) : sbelow k none := by
  intro l h; cases h

theorem above_some {l k : KEY_T} : above (some l) k ↔ keyLt l k = true := by
  constructor
  · intro h; exact h l rfl
  · intro h u hu; cases hu; exact h

theorem below_some {k u : KEY_T} : below k (some u) ↔ (keyLt k u = true ∨ k = u) := by
  constructor
  · intro h; exact h u rfl
  · intro h u hu; cases hu; exact h

theorem sbelow_some {k u : KEY_T} : sbelow k (some u) ↔ keyLt k u = true := by
  constructor
  · intro h; exact h u rfl
  · intro h u hu; cases hu; exact h

theorem sbelow.below {k : KEY_T} {hi : Option KEY_T} (h : sbelow k hi) : below k hi :=
  fun u hu => Or.inl (h u hu)

theorem above_trans {lo : Option KEY_T} {a b : KEY_T} (h : above lo a)
    (hab : keyLt a b = true) : above lo b :=
  fun l hl => keyLt_trans (h l hl) hab

theorem above_of_le {lo : Option KEY_T} {a b : KEY_T} (h : above lo a)
    (hab : keyLt a b = true ∨ a = b) : above lo b := by
  rcases hab with hab | rfl
  · exact above_trans h hab
  · exact h

theorem below_trans {hi : Option KEY_T} {a b : KEY_T} (hab : keyLt a b = true ∨ a = b)
    (h : below b hi) : below a hi := by
  intro u hu
  rcases hab with hab | rfl
  · rcases h u hu with h1 | rfl
    · exact Or.inl (keyLt_trans hab h1)
    · exact Or.inl hab
  · exact h u hu

theorem sbelow_of_lt {hi : Option KEY_T} {a b : KEY_T} (hab : keyLt a b = true)
    (h : below b hi) : sbelow a hi := by
  intro u hu
  rcases h u hu with h1 | rfl
  · exact keyLt_trans hab h1
  · exact hab

theorem sbelow_of_le {hi : Option KEY_T} {a b : KEY_T} (hab : keyLt a b = true ∨ a = b)
    (h : sbelow b hi) : sbelow a hi := by
  intro u hu
  rcases hab with hab | rfl
  · exact keyLt_trans hab (h u hu)
  · exact h u hu

theorem not_le_gt {a b : KEY_T} (h : ¬ (keyLt a b = true ∨ a = b)) : keyLt b a = true := by
  rcases keyLt_total a b with h1 | h1 | h1
  · exact absurd (Or.inl h1) h
  · exact absurd (Or.inr h1) h
  · exact h1

/-! ## The value found in a list of pairs -/

theorem assoc_append_none (key : KEY_T) (a b : List (KEY_T × VALUE_T))
    (h : ∀ e ∈ a, e.1 ≠ key) : assoc key (a ++ b) = assoc key b := by
  induction a with
  | nil => rfl
  | cons x r ih =>
    simp only [List.cons_append, assoc]
    rw [if_neg (h x (List.mem_cons_self _ _))]
    exact ih (fun e he => h e (List.mem_cons_of_mem _ he))

theorem assoc_none_of_ne (key : KEY_T) (a : List (KEY_T × VALUE_T))
    (h : ∀ e ∈ a, e.1 ≠ key) : assoc key a = none := by
  have := assoc_append_none key a [] h
  simpa [assoc] using this

theorem assoc_none_ne (key : KEY_T) (a : List (KEY_T × VALUE_T)) (h : assoc key a = none) :
    ∀ e ∈ a, e.1 ≠ key := by
  induction a with
  | nil => intro e he; cases he
  | cons x r ih =>
    simp only [assoc] at h
    by_cases hx : x.1 = key
    · rw [if_pos hx] at h; cases h
    · rw [if_neg hx] at h
      intro e he
      rcases List.mem_cons.mp he with rfl | he
      · exact hx
      · exact ih h e he

theorem assoc_mid (key : KEY_T) (ca cc cb : List (KEY_T × VALUE_T))
    (ha : ∀ e ∈ ca, keyLt e.1 key = true) (hb : ∀ e ∈ cb, keyLt key e.1 = true) :
    assoc key (ca ++ cc ++ cb) = assoc key cc := by
  rw [List.append_assoc, assoc_append_none key ca _ (fun e he => keyLt_ne (ha e he))]
  induction cc with
  | nil =>
    exact assoc_none_of_ne key _ (fun e he => (keyLt_ne (hb e he)).symm)
  | cons x r ih =>
    show (if x.1 = key then some x.2 else assoc key (r ++ cb))
      = (if x.1 = key then some x.2 else assoc key r)
    rw [ih]

/-! ## Children -/

theorem Kids_mono {S S' : Nat → Option KEY_T → Option KEY_T → List (KEY_T × VALUE_T) →
      Finset Nat → Prop} :
    ∀ (kps : List (KEY_T × Nat)) (p : Nat) (lo hi : Option KEY_T) (c : List (KEY_T × VALUE_T))
      (o : Finset Nat),
      (∀ q l u c1 o1, o1 ⊆ o → S q l u c1 o1 → S' q l u c1 o1) →
      Kids S p lo kps hi c o → Kids S' p lo kps hi c o := by
  intro kps
  induction kps with
  | nil =>
    intro p lo hi c o hm hk
    simp only [Kids] at hk ⊢
    exact hm _ _ _ _ _ (Finset.Subset.refl _) hk
  | cons e r ih =>
    intro p lo hi c o hm hk
    simp only [Kids] at hk ⊢
    obtain ⟨hae, hbe, c1, o1, c2, o2, hS, hK, hc, ho, hdis⟩ := hk
    subst ho
    refine ⟨hae, hbe, c1, o1, c2, o2, hm _ _ _ _ _ Finset.subset_union_left hS, ?_, hc, rfl, hdis⟩
    exact ih _ _ _ _ _ (fun q l u c3 o3 h3 => hm q l u c3 o3
      (h3.trans Finset.subset_union_right)) hK

theorem Kids_range {S : Nat → Option KEY_T → Option KEY_T → List (KEY_T × VALUE_T) →
      Finset Nat → Prop}
    (hrange : ∀ q l u c1 o1, S q l u c1 o1 → ∀ e ∈ c1, above l e.1 ∧ below e.1 u) :
    ∀ (kps : List (KEY_T × Nat)) (p : Nat) (lo hi : Option KEY_T) (c : List (KEY_T × VALUE_T))
      (o : Finset Nat), Kids S p lo kps hi c o → ∀ e ∈ c, above lo e.1 ∧ below e.1 hi := by
  intro kps
  induction kps with
  | nil =>
    intro p lo hi c o hk
    simp only [Kids] at hk
    exact hrange _ _ _ _ _ hk
  | cons e r ih =>
    intro p lo hi c o hk
    simp only [Kids] at hk
    obtain ⟨hae, hbe, c1, o1, c2, o2, hS, hK, hc, ho, hdis⟩ := hk
    subst hc
    intro x hx
    rcases List.mem_append.mp hx with hx | hx
    · obtain ⟨h1, h2⟩ := hrange _ _ _ _ _ hS x hx
      exact ⟨h1, below_trans (below_some.mp h2) hbe.below⟩
    · obtain ⟨h1, h2⟩ := ih _ _ _ _ _ hK x hx
      exact ⟨above_trans hae (above_some.mp h1), h2⟩

theorem Kids_sorted {S : Nat → Option KEY_T → Option KEY_T → List (KEY_T × VALUE_T) →
      Finset Nat → Prop}
    (hrange : ∀ q l u c1 o1, S q l u c1 o1 → ∀ e ∈ c1, above l e.1 ∧ below e.1 u)
    (hsorted : ∀ q l u c1 o1, S q l u c1 o1 → c1.Pairwise (fun x y => keyLt x.1 y.1 = true)) :
    ∀ (kps : List (KEY_T × Nat)) (p : Nat) (lo hi : Option KEY_T) (c : List (KEY_T × VALUE_T))
      (o : Finset Nat), Kids S p lo kps hi c o →
      c.Pairwise (fun x y => keyLt x.1 y.1 = true) := by
  intro kps
  induction kps with
  | nil =>
    intro p lo hi c o hk
    simp only [Kids] at hk
    exact hsorted _ _ _ _ _ hk
  | cons e r ih =>
    intro p lo hi c o hk
    simp only [Kids] at hk
    obtain ⟨hae, hbe, c1, o1, c2, o2, hS, hK, hc, ho, hdis⟩ := hk
    subst hc
    rw [List.pairwise_append]
    refine ⟨hsorted _ _ _ _ _ hS, ih _ _ _ _ _ hK, ?_⟩
    intro x hx y hy
    obtain ⟨_, h2⟩ := hrange _ _ _ _ _ hS x hx
    obtain ⟨h3, _⟩ := Kids_range hrange _ _ _ _ _ _ hK y hy
    rcases below_some.mp h2 with h2 | h2
    · exact keyLt_trans h2 (above_some.mp h3)
    · rw [h2]; exact above_some.mp h3

theorem Kids_owned {S : Nat → Option KEY_T → Option KEY_T → List (KEY_T × VALUE_T) →
      Finset Nat → Prop} (Q : Nat → Prop)
    (hq : ∀ q l u c1 o1, S q l u c1 o1 → ∀ j ∈ o1, Q j) :
    ∀ (kps : List (KEY_T × Nat)) (p : Nat) (lo hi : Option KEY_T) (c : List (KEY_T × VALUE_T))
      (o : Finset Nat), Kids S p lo kps hi c o → ∀ j ∈ o, Q j := by
  intro kps
  induction kps with
  | nil =>
    intro p lo hi c o hk
    simp only [Kids] at hk
    exact hq _ _ _ _ _ hk
  | cons e r ih =>
    intro p lo hi c o hk
    simp only [Kids] at hk
    obtain ⟨hae, hbe, c1, o1, c2, o2, hS, hK, hc, ho, hdis⟩ := hk
    subst ho
    intro j hj
    rcases Finset.mem_union.mp hj with hj | hj
    · exact hq _ _ _ _ _ hS j hj
    · exact ih _ _ _ _ _ hK j hj

/-- The child a descent for `key` takes, the siblings left and right of it,
and the ways to put the children back together once the child has changed or
has been split in two. -/
theorem Kids_pick {S : Nat → Option KEY_T → Option KEY_T → List (KEY_T × VALUE_T) →
      Finset Nat → Prop} (key : KEY_T)
    (hrange : ∀ q l u c1 o1, S q l u c1 o1 → ∀ e ∈ c1, above l e.1 ∧ below e.1 u) :
    ∀ (kps : List (KEY_T × Nat)) (p : Nat) (lo hi : Option KEY_T) (c : List (KEY_T × VALUE_T))
      (o : Finset Nat),
      Kids S p lo kps hi c o → above lo key → below key hi →
      ∃ k1 k2 lo1 hi1 ca cc cb oc orest,
        kps = k1 ++ k2 ∧ pick key p kps = lastPtr p k1 ∧
        c = ca ++ cc ++ cb ∧ o = oc ∪ orest ∧ Disjoint oc orest ∧
        S (lastPtr p k1) lo1 hi1 cc oc ∧ above lo1 key ∧ below key hi1 ∧
        (∀ x, above lo1 x → above lo x) ∧ (∀ x, sbelow x hi1 → sbelow x hi) ∧
        (∀ e ∈ ca, keyLt e.1 key = true) ∧ (∀ e ∈ cb, keyLt key e.1 = true) ∧
        (∀ (S' : Nat → Option KEY_T → Option KEY_T → List (KEY_T × VALUE_T) →
            Finset Nat → Prop) cc' oc',
            (∀ q l u c1 o1, o1 ⊆ orest → S q l u c1 o1 → S' q l u c1 o1) →
            Disjoint oc' orest → S' (lastPtr p k1) lo1 hi1 cc' oc' →
            Kids S' p lo kps hi (ca ++ cc' ++ cb) (oc' ∪ orest)) ∧
        (∀ (S' : Nat → Option KEY_T → Option KEY_T → List (KEY_T × VALUE_T) →
            Finset Nat → Prop) pk q cl ol cr orr,
            (∀ q l u c1 o1, o1 ⊆ orest → S q l u c1 o1 → S' q l u c1 o1) →
            Disjoint ol orest → Disjoint orr orest → Disjoint ol orr →
            above lo1 pk → sbelow pk hi1 →
            S' (lastPtr p k1) lo1 (some pk) cl ol → S' q (some pk) hi1 cr orr →
            Kids S' p lo (k1 ++ (pk, q) :: k2) hi (ca ++ (cl ++ cr) ++ cb) (ol ∪ orr ∪ orest)) ∧
        (∀ (pk : KEY_T) (q : Nat), above lo1 pk → sbelow pk hi1 →
            insSlot pk (pk, q) kps = k1 ++ (pk, q) :: k2) := by
  intro kps
  induction kps with
  | nil =>
    intro p lo hi c o hk ha hb
    simp only [Kids] at hk
    refine ⟨[], [], lo, hi, [], c, [], o, ∅, rfl, rfl, by simp, by simp, by simp, hk, ha, hb,
      fun x h => h, fun x h => h, by simp, by simp, ?_, ?_, ?_⟩
    · intro S' cc' oc' _ _ h
      simpa [Kids] using h
    · intro S' pk q cl ol cr orr _ _ _ hd h1 h2 hl hr
      simp only [Kids, List.nil_append, List.append_nil, Finset.union_empty]
      exact ⟨h1, h2, cl, ol, cr, orr, hl, hr, rfl, rfl, hd⟩
    · intro pk q _ _
      rfl
  | cons e r ih =>
    intro p lo hi c o hk ha hb
    obtain ⟨k, q0⟩ := e
    simp only [Kids] at hk
    obtain ⟨hae, hbe, c1, o1, c2, o2, hS, hK, hc, ho, hdis⟩ := hk
    subst hc ho
    by_cases hke : keyLt key k = true ∨ key = k
    · refine ⟨[], (k, q0) :: r, lo, some k, [], c1, c2, o1, o2, rfl, ?_, by simp, rfl, hdis, hS,
        ha, below_some.mpr hke, fun x h => h, ?_, by simp, ?_, ?_, ?_, ?_⟩
      · simp only [pick, lastPtr, if_pos hke]
      · intro x hx
        exact sbelow_of_le (Or.inl (sbelow_some.mp hx)) hbe
      · intro x hx
        obtain ⟨h3, _⟩ := Kids_range hrange _ _ _ _ _ _ hK x hx
        rcases hke with h | h
        · exact keyLt_trans h (above_some.mp h3)
        · rw [h]; exact above_some.mp h3
      · intro S' cc' oc' hm hd h
        simp only [Kids, List.nil_append, lastPtr] at h ⊢
        exact ⟨hae, hbe, cc', oc', c2, o2, h, Kids_mono _ _ _ _ _ _ hm hK, rfl, rfl, hd⟩
      · intro S' pk q cl ol cr orr hm hd1 hd2 hd3 h1 h2 hl hr
        simp only [Kids, List.nil_append, lastPtr] at hl ⊢
        refine ⟨h1, sbelow_of_le (Or.inl (sbelow_some.mp h2)) hbe, cl, ol, cr ++ c2, orr ∪ o2,
          hl, ?_, by simp, by rw [Finset.union_assoc], ?_⟩
        · exact ⟨above_some.mpr (sbelow_some.mp h2), hbe, cr, orr, c2, o2, hr,
            Kids_mono _ _ _ _ _ _ hm hK, rfl, rfl, hd2⟩
        · rw [Finset.disjoint_union_right]
          exact ⟨hd3, hd1⟩
      · intro pk q _ h2
        simp only [insSlot, sbelow_some.mp h2, if_true, List.nil_append]
    · have hgt : keyLt k key = true := not_le_gt hke
      obtain ⟨k1, k2, lo1, hi1, ca, cc, cb, oc, orest, hkps, hpick, hc, ho, hd, hSc, ha1, hb1,
        hlo, hhi, hca, hcb, R1, R2, R3⟩ := ih q0 (some k) hi c2 o2 hK (above_some.mpr hgt) hb
      subst hc ho
      have hd1 : Disjoint o1 oc := (Finset.disjoint_union_right.mp hdis).1
      have hd2 : Disjoint o1 orest := (Finset.disjoint_union_right.mp hdis).2
      refine ⟨(k, q0) :: k1, k2, lo1, hi1, c1 ++ ca, cc, cb, oc, o1 ∪ orest, ?_, ?_, by simp, ?_,
        ?_, hSc, ha1, hb1, ?_, hhi, ?_, hcb, ?_, ?_, ?_⟩
      · rw [hkps]; rfl
      · simp only [pick, lastPtr, if_neg hke]
        exact hpick
      · ext a; simp only [Finset.mem_union]; tauto
      · rw [Finset.disjoint_union_right]
        exact ⟨hd1.symm, hd⟩
      · intro x hx
        exact above_trans hae (above_some.mp (hlo x hx))
      · intro x hx
        rcases List.mem_append.mp hx with hx | hx
        · obtain ⟨_, h2⟩ := hrange _ _ _ _ _ hS x hx
          rcases below_some.mp h2 with h2 | h2
          · exact keyLt_trans h2 hgt
          · rw [h2]; exact hgt
        · exact hca x hx
      · intro S' cc' oc' hm hdd h
        simp only [Kids, lastPtr] at h ⊢
        have hdd1 : Disjoint oc' o1 := (Finset.disjoint_union_right.mp hdd).1
        have hdd2 : Disjoint oc' orest := (Finset.disjoint_union_right.mp hdd).2
        refine ⟨hae, hbe, c1, o1, ca ++ cc' ++ cb, oc' ∪ orest,
          hm _ _ _ _ _ Finset.subset_union_left hS, ?_, by simp, ?_, ?_⟩
        · exact R1 S' cc' oc' (fun q l u c3 o3 h3 => hm q l u c3 o3
            (h3.trans Finset.subset_union_right)) hdd2 h
        · ext a; simp only [Finset.mem_union]; tauto
        · rw [Finset.disjoint_union_right]
          exact ⟨hdd1.symm, hd2⟩
      · intro S' pk q cl ol cr orr hm hdl hdr hd3 h1 h2 hl hr
        simp only [lastPtr] at hl
        have hdl1 : Disjoint ol o1 := (Finset.disjoint_union_right.mp hdl).1
        have hdl2 : Disjoint ol orest := (Finset.disjoint_union_right.mp hdl).2
        have hdr1 : Disjoint orr o1 := (Finset.disjoint_union_right.mp hdr).1
        have hdr2 : Disjoint orr orest := (Finset.disjoint_union_right.mp hdr).2
        have := R2 S' pk q cl ol cr orr (fun q l u c3 o3 h3 => hm q l u c3 o3
            (h3.trans Finset.subset_union_right)) hdl2 hdr2 hd3 h1 h2 hl hr
        simp only [Kids, List.cons_append]
        refine ⟨hae, hbe, c1, o1, ca ++ (cl ++ cr) ++ cb, ol ∪ orr ∪ orest,
          hm _ _ _ _ _ Finset.subset_union_left hS, this, by simp, ?_, ?_⟩
        · ext a; simp only [Finset.mem_union]; tauto
        · simp only [Finset.disjoint_union_right]
          exact ⟨⟨hdl1.symm, hdr1.symm⟩, hd2⟩
      · intro pk q h1 h2
        have hk1 : keyLt k pk = true := above_some.mp (hlo pk h1)
        simp only [insSlot, keyLt_asymm hk1, List.cons_append]
        rw [R3 pk q h1 h2]
        rfl

/-- Cutting the children at a separator. -/
theorem Kids_cut {S : Nat → Option KEY_T → Option KEY_T → List (KEY_T × VALUE_T) →
      Finset Nat → Prop} (e : KEY_T × Nat) (k2 : List (KEY_T × Nat)) :
    ∀ (k1 : List (KEY_T × Nat)) (p : Nat) (lo hi : Option KEY_T) (c : List (KEY_T × VALUE_T))
      (o : Finset Nat), Kids S p lo (k1 ++ e :: k2) hi c o →
      above lo e.1 ∧ sbelow e.1 hi ∧
      ∃ cl ol cr orr, Kids S p lo k1 (some e.1) cl ol ∧ Kids S e.2 (some e.1) k2 hi cr orr ∧
        c = cl ++ cr ∧ o = ol ∪ orr ∧ Disjoint ol orr := by
  intro k1
  induction k1 with
  | nil =>
    intro p lo hi c o hk
    simp only [List.nil_append, Kids] at hk ⊢
    exact hk
  | cons x r ih =>
    intro p lo hi c o hk
    simp only [List.cons_append, Kids] at hk ⊢
    obtain ⟨hae, hbe, c1, o1, c2, o2, hS, hK, hc, ho, hdis⟩ := hk
    obtain ⟨h1, h2, cl, ol, cr, orr, hl, hr, hc2, ho2, hd2⟩ := ih _ _ _ _ _ hK
    subst hc ho hc2 ho2
    refine ⟨above_trans hae (above_some.mp h1), h2, c1 ++ cl, o1 ∪ ol, cr, orr, ?_, hr, by simp,
      ?_, ?_⟩
    · exact ⟨hae, sbelow_some.mpr (above_some.mp h1), c1, o1, cl, ol, hS, hl, rfl, rfl,
        (Finset.disjoint_union_right.mp hdis).1⟩
    · rw [Finset.union_assoc]
    · rw [Finset.disjoint_union_left]
      exact ⟨(Finset.disjoint_union_right.mp hdis).2, hd2⟩


/-! ## Subtrees -/

theorem Node_frame (g : Geom) (dev dev' : List BTreeNode) :
    ∀ (h blk : Nat) (lo hi : Option KEY_T) (c : List (KEY_T × VALUE_T)) (o : Finset Nat) (s : Nat),
      Node g dev h blk lo hi c o s → (∀ j ∈ o, dev'[j]? = dev[j]?) →
      Node g dev' h blk lo hi c o s := by
  intro h
  induction h with
  | zero =>
    intro blk lo hi c o s hn hf
    obtain ⟨b, hb, hl, hs, hr, ho⟩ := hn
    subst ho
    exact ⟨b, by rw [hf blk (Finset.mem_singleton_self _)]; exact hb, hl, hs, hr, rfl⟩
  | succ h ih =>
    intro blk lo hi c o s hn hf
    obtain ⟨b, p0, kps, o1, hb, hi', hne, hni, ho, hk⟩ := hn
    subst ho
    refine ⟨b, p0, kps, o1, by rw [hf blk (Finset.mem_insert_self _ _)]; exact hb, hi', hne, hni,
      rfl, ?_⟩
    exact Kids_mono _ _ _ _ _ _ (fun q l u c1 o2 hsub hq => ih _ _ _ _ _ _ hq
      (fun j hj => hf j (Finset.mem_insert_of_mem (hsub hj)))) hk

theorem Node_range (g : Geom) (dev : List BTreeNode) :
    ∀ (h blk : Nat) (lo hi : Option KEY_T) (c : List (KEY_T × VALUE_T)) (o : Finset Nat) (s : Nat),
      Node g dev h blk lo hi c o s → ∀ e ∈ c, above lo e.1 ∧ below e.1 hi := by
  intro h
  induction h with
  | zero =>
    intro blk lo hi c o s hn
    obtain ⟨b, hb, hl, hs, hr, ho⟩ := hn
    exact hr
  | succ h ih =>
    intro blk lo hi c o s hn
    obtain ⟨b, p0, kps, o1, hb, hi', hne, hni, ho, hk⟩ := hn
    exact Kids_range (fun q l u c1 o2 hq => ih _ _ _ _ _ _ hq) _ _ _ _ _ _ hk

theorem Node_sorted (g : Geom) (dev : List BTreeNode) :
    ∀ (h blk : Nat) (lo hi : Option KEY_T) (c : List (KEY_T × VALUE_T)) (o : Finset Nat) (s : Nat),
      Node g dev h blk lo hi c o s → c.Pairwise (fun x y => keyLt x.1 y.1 = true) := by
  intro h
  induction h with
  | zero =>
    intro blk lo hi c o s hn
    obtain ⟨b, hb, hl, hs, hr, ho⟩ := hn
    exact hs
  | succ h ih =>
    intro blk lo hi c o s hn
    obtain ⟨b, p0, kps, o1, hb, hi', hne, hni, ho, hk⟩ := hn
    exact Kids_sorted (fun q l u c1 o2 hq => Node_range g dev _ _ _ _ _ _ _ hq)
      (fun q l u c1 o2 hq => ih _ _ _ _ _ _ hq) _ _ _ _ _ _ hk

theorem Node_owned (g : Geom) (dev : List BTreeNode) :
    ∀ (h blk : Nat) (lo hi : Option KEY_T) (c : List (KEY_T × VALUE_T)) (o : Finset Nat) (s : Nat),
      Node g dev h blk lo hi c o s →
      ∀ j ∈ o, ∃ b, dev[j]? = some b ∧ hasData b.info.nodetype = true := by
  intro h
  induction h with
  | zero =>
    intro blk lo hi c o s hn j hj
    obtain ⟨b, hb, hl, hs, hr, ho⟩ := hn
    subst ho
    rw [Finset.mem_singleton] at hj
    subst hj
    exact ⟨b, hb, hl.leafHasData⟩
  | succ h ih =>
    intro blk lo hi c o s hn j hj
    obtain ⟨b, p0, kps, o1, hb, hi', hne, hni, ho, hk⟩ := hn
    subst ho
    rcases Finset.mem_insert.mp hj with rfl | hj
    · exact ⟨b, hb, hi'.nodeHasData⟩
    · exact Kids_owned (fun j => ∃ b, dev[j]? = some b ∧ hasData b.info.nodetype = true)
        (fun q l u c1 o2 hq => ih _ _ _ _ _ _ hq) _ _ _ _ _ _ hk j hj

theorem Node_root_mem (g : Geom) (dev : List BTreeNode) (h blk : Nat) (lo hi : Option KEY_T)
    (c : List (KEY_T × VALUE_T)) (o : Finset Nat) (s : Nat)
    (hn : Node g dev h blk lo hi c o s) : blk ∈ o := by
  cases h with
  | zero =>
    obtain ⟨b, hb, hl, hs, hr, ho⟩ := hn
    subst ho
    exact Finset.mem_singleton_self _
  | succ h =>
    obtain ⟨b, p0, kps, o1, hb, hi', hne, hni, ho, hk⟩ := hn
    subst ho
    exact Finset.mem_insert_self _ _

theorem LeafAt.leafWeaken {g : Geom} {b : BTreeNode} {es : List (KEY_T × VALUE_T)} {s : Nat}
    (h : LeafAt g b es s) (s' : Nat) (hs : s' ≤ s) : LeafAt g b es s' := by
  obtain ⟨h1, h2, h3, h4, h5⟩ := h
  exact ⟨h1, h2, h3, by omega, h5⟩

theorem IntAt.nodeWeaken {g : Geom} {b : BTreeNode} {p0 : Nat} {kps : List (KEY_T × Nat)} {s : Nat}
    (h : IntAt g b p0 kps s) (s' : Nat) (hs : s' ≤ s) : IntAt g b p0 kps s' := by
  obtain ⟨h1, h2, h3, h4, h5⟩ := h
  exact ⟨h1, h2, h3, by omega, h5⟩

theorem Node_weaken (g : Geom) (dev : List BTreeNode) (h blk : Nat) (lo hi : Option KEY_T)
    (c : List (KEY_T × VALUE_T)) (o : Finset Nat) (s s' : Nat) (hs : s' ≤ s)
    (hn : Node g dev h blk lo hi c o s) : Node g dev h blk lo hi c o s' := by
  cases h with
  | zero =>
    obtain ⟨b, hb, hl, hs1, hr, ho⟩ := hn
    exact ⟨b, hb, hl.leafWeaken s' hs, hs1, hr, ho⟩
  | succ h =>
    obtain ⟨b, p0, kps, o1, hb, hi', hne, hni, ho, hk⟩ := hn
    exact ⟨b, p0, kps, o1, hb, hi'.nodeWeaken s' hs, hne, hni, ho, hk⟩

theorem Kids_first {S : Nat → Option KEY_T → Option KEY_T → List (KEY_T × VALUE_T) →
      Finset Nat → Prop} (kps : List (KEY_T × Nat)) (p : Nat) (lo hi : Option KEY_T)
    (c : List (KEY_T × VALUE_T)) (o : Finset Nat) (hk : Kids S p lo kps hi c o) :
    ∃ l u c1 o1, S p l u c1 o1 ∧ o1 ⊆ o := by
  cases kps with
  | nil => exact ⟨lo, hi, c, o, hk, Finset.Subset.refl _⟩
  | cons e r =>
    simp only [Kids] at hk
    obtain ⟨hae, hbe, c1, o1, c2, o2, hS, hK, hc, ho, hdis⟩ := hk
    subst ho
    exact ⟨lo, some e.1, c1, o1, hS, Finset.subset_union_left⟩

theorem Node_card (g : Geom) (dev : List BTreeNode) :
    ∀ (h blk : Nat) (lo hi : Option KEY_T) (c : List (KEY_T × VALUE_T)) (o : Finset Nat) (s : Nat),
      Node g dev h blk lo hi c o s → h + 1 ≤ o.card := by
  intro h
  induction h with
  | zero =>
    intro blk lo hi c o s hn
    obtain ⟨b, hb, hl, hs, hr, ho⟩ := hn
    subst ho
    simp
  | succ h ih =>
    intro blk lo hi c o s hn
    obtain ⟨b, p0, kps, o1, hb, hi', hne, hni, ho, hk⟩ := hn
    subst ho
    obtain ⟨l, u, c1, o2, hq, hsub⟩ := Kids_first _ _ _ _ _ _ hk
    have h1 := ih _ _ _ _ _ _ hq
    have h2 := Finset.card_le_card hsub
    rw [Finset.card_insert_of_not_mem hni]
    omega

/-- A subtree of height `h` fits the fuel the descents are given. -/
theorem Node_fuel (g : Geom) (t : BTreeIndex) (h blk : Nat) (lo hi : Option KEY_T)
    (c : List (KEY_T × VALUE_T)) (o : Finset Nat) (s : Nat)
    (hn : Node g t.buffercache.blocks h blk lo hi c o s) : h < depthBound t := by
  have h1 := Node_card g _ _ _ _ _ _ _ _ hn
  have h2 : o ⊆ Finset.range t.buffercache.blocks.length := by
    intro j hj
    obtain ⟨b, hb, _⟩ := Node_owned g _ _ _ _ _ _ _ _ hn j hj
    exact Finset.mem_range.mpr (lt_length_of_getElem? hb)
  have h3 := Finset.card_le_card h2
  rw [Finset.card_range] at h3
  unfold depthBound
  omega

/-! ## Lookup -/

theorem lookup_spec (g : Geom) (t : BTreeIndex) (key : KEY_T) (x : VALUE_T) :
    ∀ (h fuel blk : Nat) (lo hi : Option KEY_T) (c : List (KEY_T × VALUE_T)) (o : Finset Nat)
      (s : Nat), h < fuel → Node g t.buffercache.blocks h blk lo hi c o s →
      above lo key → below key hi →
      LookupOrUpdateInternal g.m fuel t blk BTreeOp.BTREE_OP_LOOKUP key x
        = some (lookupResult (assoc key c) x t) := by
  intro h
  induction h with
  | zero =>
    intro fuel blk lo hi c o s hf hn ha hb
    obtain ⟨f, rfl⟩ : ∃ f, fuel = f + 1 := ⟨fuel - 1, by omega⟩
    obtain ⟨b, hblk, hl, hs, hr, ho⟩ := hn
    have hu := Unserialize_data BTreeNode.default t.buffercache blk b hblk hl.leafHasData
    have hty := hl.1
    have hnum := hl.2.2.1
    rw [LookupOrUpdateInternal, hu]
    simp only [hty, hnum]
    have hl' : LeafAt g b ([] ++ c) s := by simpa using hl
    rcases scanLeaf_spec g b s key c [] hl' with ⟨hnone, hscan⟩ | ⟨a, e, cr, hc, hek, hsome, hscan⟩
    · simp only [List.length_nil] at hscan
      rw [hscan, hnone]
      rfl
    · simp only [List.length_nil, List.nil_append] at hscan hc
      rw [hscan, hsome]
      subst hc
      simp only [if_true, leaf_GetVal g b a cr e s hl]
      rfl
  | succ h ih =>
    intro fuel blk lo hi c o s hf hn ha hb
    obtain ⟨f, rfl⟩ : ∃ f, fuel = f + 1 := ⟨fuel - 1, by omega⟩
    obtain ⟨b, p0, kps, o1, hblk, hint, hne, hni, ho, hk⟩ := hn
    have hu := Unserialize_data BTreeNode.default t.buffercache blk b hblk hint.nodeHasData
    have hp := pickChild_spec g b p0 s kps key hint hne
    obtain ⟨k1, k2, lo1, hi1, ca, cc, cb, oc, orest, hkps, hpick, hc, ho1, hd, hSc, ha1, hb1,
      hlo, hhi, hca, hcb, R1, R2, R3⟩ := Kids_pick key
        (fun q l u c1 o2 hq => Node_range g _ _ _ _ _ _ _ _ hq) _ _ _ _ _ _ hk ha hb
    have hrec := ih f _ _ _ _ _ _ (by omega) hSc ha1 hb1
    rw [← hpick] at hrec
    rw [hc, assoc_mid key ca cc cb hca hcb, ← hrec, LookupOrUpdateInternal, hu]
    rcases hint.1 with hty | hty <;> simp only [hty, hp]

theorem Lookup_spec (g : Geom) (t : BTreeIndex) (key : KEY_T) (h : Nat)
    (c : List (KEY_T × VALUE_T)) (o : Finset Nat) (s : Nat)
    (hn : Node g t.buffercache.blocks h t.superblock.info.rootnode none none c o s) :
    Lookup g.m t key = some ((lookupResult (assoc key c) [] t).1,
      (lookupResult (assoc key c) [] t).2.1) := by
  unfold Lookup
  rw [lookup_spec g t key [] h _ _ _ _ _ _ _ (Node_fuel g t _ _ _ _ _ _ _ hn) hn
    (above_none _) (below_none _)]

/-! ## The traversal -/

theorem leaf_GetPtr_zero (m : Machine) (b : BTreeNode)
    (hty : b.info.nodetype = NodeType.BTREE_LEAF_NODE) :
    codeOf (b.GetPtr m 0) = ERROR_T.ERROR_NOERROR := by
  unfold BTreeNode.GetPtr
  simp only [hty, if_true]
  rfl

theorem printLeafLoop_spec (g : Geom) (b : BTreeNode) (s : Nat) :
    ∀ (es2 es1 : List (KEY_T × VALUE_T)), LeafAt g b (es1 ++ es2) s →
      printLeafLoop g.m b es1.length es2.length = (ERROR_T.ERROR_NOERROR, es2) := by
  intro es2
  induction es2 with
  | nil => intro es1 _; rfl
  | cons e r ih =>
    intro es1 hl
    have hrec := ih (es1 ++ [e]) (by simpa using hl)
    simp only [List.length_append, List.length_singleton] at hrec
    simp only [List.length_cons, printLeafLoop]
    have hcode : (if es1.length = 0 then codeOf (b.GetPtr g.m es1.length)
        else ERROR_T.ERROR_NOERROR) = ERROR_T.ERROR_NOERROR := by
      by_cases h0 : es1.length = 0
      · rw [if_pos h0, h0]; exact leaf_GetPtr_zero g.m b hl.1
      · rw [if_neg h0]
    rw [hcode]
    simp only [leaf_GetKey g b es1 r e s hl, leaf_GetVal g b es1 r e s hl, hrec]

theorem displayLoop_spec (g : Geom) (b : BTreeNode) (p0 s : Nat)
    (recurse : Nat → Option (ERROR_T × List (KEY_T × VALUE_T)))
    (S : Nat → Option KEY_T → Option KEY_T → List (KEY_T × VALUE_T) → Finset Nat → Prop)
    (hS : ∀ q l u c1 o1, S q l u c1 o1 → recurse q = some (ERROR_T.ERROR_NOERROR, c1)) :
    ∀ (k2 k1 : List (KEY_T × Nat)) (lo hi : Option KEY_T) (c : List (KEY_T × VALUE_T))
      (o : Finset Nat), IntAt g b p0 (k1 ++ k2) s → Kids S (lastPtr p0 k1) lo k2 hi c o →
      displayLoop g.m recurse b k1.length (k2.length + 1) = some (ERROR_T.ERROR_NOERROR, c) := by
  intro k2
  induction k2 with
  | nil =>
    intro k1 lo hi c o hint hk
    simp only [Kids] at hk
    simp only [List.length_nil, displayLoop, int_GetPtr_at g b p0 k1 [] s hint,
      hS _ _ _ _ _ hk, List.append_nil]
  | cons e r ih =>
    intro k1 lo hi c o hint hk
    simp only [Kids] at hk
    obtain ⟨hae, hbe, c1, o1, c2, o2, hS1, hK, hc, ho, hdis⟩ := hk
    have hK' : Kids S (lastPtr p0 (k1 ++ [e])) (some e.1) r hi c2 o2 := by
      rw [lastPtr_concat]; exact hK
    have hrec := ih (k1 ++ [e]) _ _ _ _ (by simpa using hint) hK'
    simp only [List.length_append, List.length_singleton] at hrec
    simp only [List.length_cons]
    rw [displayLoop]
    simp only [int_GetPtr_at g b p0 k1 (e :: r) s hint, hS _ _ _ _ _ hS1, hrec, hc]

theorem display_spec (g : Geom) (t : BTreeIndex) :
    ∀ (h fuel blk : Nat) (lo hi : Option KEY_T) (c : List (KEY_T × VALUE_T)) (o : Finset Nat)
      (s : Nat), h < fuel → Node g t.buffercache.blocks h blk lo hi c o s →
      DisplayInternal g.m fuel t blk = some (ERROR_T.ERROR_NOERROR, c) := by
  intro h
  induction h with
  | zero =>
    intro fuel blk lo hi c o s hf hn
    obtain ⟨f, rfl⟩ : ∃ f, fuel = f + 1 := ⟨fuel - 1, by omega⟩
    obtain ⟨b, hblk, hl, hs, hr, ho⟩ := hn
    have hu := Unserialize_data BTreeNode.default t.buffercache blk b hblk hl.leafHasData
    have hty := hl.1
    have hnum := hl.2.2.1
    have hp : PrintNode g.m b = (ERROR_T.ERROR_NOERROR, c) := by
      unfold PrintNode
      simp only [hty, hnum]
      exact printLeafLoop_spec g b s c [] (by simpa using hl)
    rw [DisplayInternal, hu]
    simp only [hp, hty]
  | succ h ih =>
    intro fuel blk lo hi c o s hf hn
    obtain ⟨f, rfl⟩ : ∃ f, fuel = f + 1 := ⟨fuel - 1, by omega⟩
    obtain ⟨b, p0, kps, o1, hblk, hint, hne, hni, ho, hk⟩ := hn
    have hu := Unserialize_data BTreeNode.default t.buffercache blk b hblk hint.nodeHasData
    have hnum := hint.2.2.1
    have hloop := displayLoop_spec g b p0 s (fun ptr => DisplayInternal g.m f t ptr)
      (fun p l u c1 o2 => Node g t.buffercache.blocks h p l u c1 o2 1)
      (fun q l u c1 o2 hq => ih f _ _ _ _ _ _ (by omega) hq) kps [] lo hi c o1
      (by simpa using hint) hk
    simp only [List.length_nil] at hloop
    have hpos : kps.length > 0 := by omega
    rw [DisplayInternal, hu]
    rcases hint.1 with hty | hty <;>
      simp only [PrintNode, hty, hpos, if_true, hnum, hloop, List.nil_append]


/-! ## Owned blocks, block 0 and the free list -/

theorem super_noData {t : BTreeIndex} (hs : SuperOK t) :
    ∃ b, t.buffercache.blocks[0]? = some b ∧ hasData b.info.nodetype = false :=
  ⟨t.superblock, hs.2.2.2, by rw [hs.2.1]; rfl⟩

theorem data_ne_zero {t : BTreeIndex} (hs : SuperOK t) {j : Nat} {b : BTreeNode}
    (hb : t.buffercache.blocks[j]? = some b) (hd : hasData b.info.nodetype = true) : j ≠ 0 := by
  rintro rfl
  obtain ⟨b0, h0, hd0⟩ := super_noData hs
  rw [hb] at h0
  cases h0
  rw [hd] at hd0
  cases hd0

theorem owned_ne_zero {g : Geom} {t : BTreeIndex} (hs : SuperOK t) {h blk : Nat}
    {lo hi : Option KEY_T} {c : List (KEY_T × VALUE_T)} {o : Finset Nat} {s : Nat}
    (hn : Node g t.buffercache.blocks h blk lo hi c o s) : ∀ j ∈ o, j ≠ 0 := by
  intro j hj
  obtain ⟨b, hb, hd⟩ := Node_owned g _ _ _ _ _ _ _ _ hn j hj
  exact data_ne_zero hs hb hd

theorem FreeChain_mem (dev : List BTreeNode) :
    ∀ (fl : List Nat) (head : Nat), FreeChain dev head fl →
      ∀ j ∈ fl, j ≠ 0 ∧ ∃ b, dev[j]? = some b ∧
        b.info.nodetype = NodeType.BTREE_UNALLOCATED_BLOCK := by
  intro fl
  induction fl with
  | nil => intro head _ j hj; cases hj
  | cons x xs ih =>
    intro head hf j hj
    simp only [FreeChain] at hf
    obtain ⟨_, hx0, _, b, hb, hty, hrest⟩ := hf
    rcases List.mem_cons.mp hj with rfl | hj
    · exact ⟨hx0, b, hb, hty⟩
    · exact ih _ hrest j hj

theorem FreeChain_frame (dev dev' : List BTreeNode) :
    ∀ (fl : List Nat) (head : Nat), FreeChain dev head fl →
      (∀ j ∈ fl, dev'[j]? = dev[j]?) → FreeChain dev' head fl := by
  intro fl
  induction fl with
  | nil => intro head hf _; exact hf
  | cons x xs ih =>
    intro head hf hfr
    simp only [FreeChain] at hf ⊢
    obtain ⟨h1, hx0, hnot, b, hb, hty, hrest⟩ := hf
    refine ⟨h1, hx0, hnot, b, ?_, hty, ?_⟩
    · rw [hfr x (List.mem_cons_self _ _)]; exact hb
    · exact ih _ hrest (fun j hj => hfr j (List.mem_cons_of_mem _ hj))

theorem owned_not_free {g : Geom} {dev : List BTreeNode} {h blk : Nat}
    {lo hi : Option KEY_T} {c : List (KEY_T × VALUE_T)} {o : Finset Nat} {s : Nat}
    (hn : Node g dev h blk lo hi c o s) {head : Nat} {fl : List Nat}
    (hf : FreeChain dev head fl) : ∀ j ∈ o, j ∉ fl := by
  intro j hj hjf
  obtain ⟨b, hb, hd⟩ := Node_owned g _ _ _ _ _ _ _ _ hn j hj
  obtain ⟨_, b', hb', hty⟩ := FreeChain_mem dev fl head hf j hjf
  rw [hb] at hb'
  cases hb'
  rw [hty] at hd
  cases hd

/-! ## AllocateNode -/

theorem Unserialize_nodata (x : BTreeNode) (c : BufferCache) (n : Nat) (b : BTreeNode)
    (h : c.blocks[n]? = some b) :
    (x.Unserialize c n).2.info = b.info := by
  unfold BTreeNode.Unserialize
  rw [h]

theorem AllocateNode_spec (t : BTreeIndex) (hs : SuperOK t) (x : Nat) (xs : List Nat)
    (into : Bool)
    (hf : FreeChain t.buffercache.blocks t.superblock.info.freelist (x :: xs)) :
    ∃ t1, AllocateNode t into = some (ERROR_T.ERROR_NOERROR, x, t1) ∧
      SuperOK t1 ∧
      t1.superblock.info.rootnode = (if into then x else t.superblock.info.rootnode) ∧
      t1.buffercache.blocks.length = t.buffercache.blocks.length ∧
      t1.buffercache.blocksize = t.buffercache.blocksize ∧
      t1.superblock.info.keysize = t.superblock.info.keysize ∧
      t1.superblock.info.valuesize = t.superblock.info.valuesize ∧
      FreeChain t1.buffercache.blocks t1.superblock.info.freelist xs ∧
      (∀ j, j ≠ 0 → t1.buffercache.blocks[j]? = t.buffercache.blocks[j]?) ∧
      x ≠ 0 ∧ x ∉ xs ∧ x < t.buffercache.blocks.length := by
  have hf0 := hf
  simp only [FreeChain] at hf
  obtain ⟨hhead, hx0, hnot, b, hb, hty, hrest⟩ := hf
  have hlt : 0 < t.buffercache.blocks.length := lt_length_of_getElem? hs.2.2.2
  have hinfo : (BTreeNode.default.Unserialize t.buffercache x).2.info = b.info :=
    Unserialize_nodata _ _ _ _ hb
  have hframe : ∀ (sb : BTreeNode) (j : Nat), j ≠ 0 →
      (t.buffercache.blocks.set 0 sb)[j]? = t.buffercache.blocks[j]? := by
    intro sb j hj
    simp only [List.getElem?_set_ne (Ne.symm hj)]
  cases into with
  | false =>
    have hser := Serialize_nodata (t.superblock.withFreelist b.info.freelist) t.buffercache 0
      hlt (by show hasData t.superblock.info.nodetype = false; rw [hs.2.1]; rfl) hs.2.2.1
    refine ⟨{ t with superblock := t.superblock.withFreelist b.info.freelist,
                     buffercache := { t.buffercache with
                       blocks := t.buffercache.blocks.set 0
                         (t.superblock.withFreelist b.info.freelist) } }, ?_, ?_, rfl, by simp, rfl,
      rfl, rfl, ?_, ?_, hx0, hnot, lt_length_of_getElem? hb⟩
    · unfold AllocateNode
      simp only [Bool.false_eq_true, if_false, hhead, hx0, hinfo, hty, ne_eq, not_true_eq_false,
        hs.1, hser]
    · exact ⟨hs.1, hs.2.1, hs.2.2.1, by simp only [List.getElem?_set_self hlt]⟩
    · apply FreeChain_frame _ _ _ _ hrest
      intro j hj
      exact hframe _ j (FreeChain_mem _ _ _ hrest j hj).1
    · intro j hj
      exact hframe _ j hj
  | true =>
    have hser := Serialize_nodata ((t.superblock.withRootnode x).withFreelist b.info.freelist)
      t.buffercache 0 hlt
      (by show hasData t.superblock.info.nodetype = false; rw [hs.2.1]; rfl) hs.2.2.1
    refine ⟨{ t with superblock := (t.superblock.withRootnode x).withFreelist b.info.freelist,
                     buffercache := { t.buffercache with
                       blocks := t.buffercache.blocks.set 0
                         ((t.superblock.withRootnode x).withFreelist b.info.freelist) } },
      ?_, ?_, rfl, by simp, rfl, rfl, rfl, ?_, ?_, hx0, hnot, lt_length_of_getElem? hb⟩
    · unfold AllocateNode
      simp only [if_true, hhead, hx0, hinfo, hty, ne_eq, not_true_eq_false, if_false,
        hs.1, hser]
    · exact ⟨hs.1, hs.2.1, hs.2.2.1, by simp only [List.getElem?_set_self hlt]⟩
    · apply FreeChain_frame _ _ _ _ hrest
      intro j hj
      exact hframe _ j (FreeChain_mem _ _ _ hrest j hj).1
    · intro j hj
      exact hframe _ j hj

theorem AllocateNode_nospace (t : BTreeIndex) (hf : t.superblock.info.freelist = 0) :
    AllocateNode t false = some (ERROR_T.ERROR_NOSPACE, 0, t) := by
  unfold AllocateNode
  simp only [Bool.false_eq_true, if_false, hf, if_true]

/-! ## Update -/

theorem leaf_SetVal_slot (g : Geom) (b : BTreeNode) (a cr : List (KEY_T × VALUE_T))
    (e : KEY_T × VALUE_T) (s : Nat) (v : VALUE_T) (hv : v.length = g.valuesize)
    (hl : LeafAt g b (a ++ e :: cr) s) :
    ∃ b1, b.SetVal g.m a.length v = .ok b1 ∧ LeafAt g b1 (a ++ (e.1, v) :: cr) s := by
  obtain ⟨hty, ⟨hks, hvs, hbs, hlen⟩, hnum, hcap, hu, pre, rest, hpre, hd⟩ := hl
  have hua : Uniform g.keysize g.valuesize a := hu.left
  have hue := (hu.right).head
  have hucr : Uniform g.keysize g.valuesize cr := (hu.right).tail
  have hu' : Uniform g.keysize g.valuesize (a ++ (e.1, v) :: cr) :=
    hua.append (Uniform.cons ⟨hue.1, hv⟩ hucr)
  have hd1 : b.data = (pre ++ flat a ++ e.1) ++ e.2 ++ (flat cr ++ rest) := by
    rw [hd]; simp only [flat_append, flat_cons, List.append_assoc]
  have hoff : g.m.sizeofSIZE_T + a.length * (b.info.keysize + b.info.valuesize) + b.info.keysize
      = (pre ++ flat a ++ e.1).length := by
    simp only [List.length_append, hpre, length_flat _ _ _ hua, hue.1, hks, hvs, Geom.P]
  refine ⟨b.withData ((pre ++ flat a ++ e.1) ++ v ++ (flat cr ++ rest)), ?_, hty,
    ⟨hks, hvs, hbs, ?_⟩, ?_, ?_, hu', pre, rest, hpre, ?_⟩
  · unfold BTreeNode.SetVal BTreeNode.ResolveVal
    have hlt : a.length < b.info.numkeys := by
      rw [hnum]; simp
    simp only [hty, hlt, if_true]
    have htk : v.take b.info.valuesize = v := by rw [hvs, ← hv, List.take_length]
    rw [htk, hd1, writeAt_mid' _ _ _ _ _ hoff (by rw [hv, hue.2])]
  · show ((pre ++ flat a ++ e.1) ++ v ++ (flat cr ++ rest)).length = g.D
    rw [← hlen, hd1]
    simp only [List.length_append, hv, hue.2]
  · show b.info.numkeys = _
    rw [hnum]; simp
  · simpa using hcap
  · show (pre ++ flat a ++ e.1) ++ v ++ (flat cr ++ rest) = _
    simp only [flat_append, flat_cons, List.append_assoc]

theorem sorted_replace (a cr : List (KEY_T × VALUE_T)) (k : KEY_T) (v0 v : VALUE_T)
    (h : (a ++ (k, v0) :: cr).Pairwise (fun x y => keyLt x.1 y.1 = true)) :
    (a ++ (k, v) :: cr).Pairwise (fun x y => keyLt x.1 y.1 = true) := by
  have h1 : (a ++ (k, v0) :: cr).map Prod.fst = (a ++ (k, v) :: cr).map Prod.fst := by simp
  have h2 := (List.pairwise_map (f := Prod.fst) (R := fun x y => keyLt x y = true)
    (l := a ++ (k, v0) :: cr)).mpr h
  rw [h1] at h2
  exact List.pairwise_map.mp h2

theorem update_spec (g : Geom) (key : KEY_T) (v : VALUE_T) (hv : v.length = g.valuesize)
    (t : BTreeIndex) :
    ∀ (h fuel blk : Nat) (lo hi : Option KEY_T) (c : List (KEY_T × VALUE_T)) (o : Finset Nat)
      (s : Nat), h < fuel → Node g t.buffercache.blocks h blk lo hi c o s →
      above lo key → below key hi →
      (assoc key c = none ∧
        LookupOrUpdateInternal g.m fuel t blk BTreeOp.BTREE_OP_UPDATE key v
          = some (ERROR_T.ERROR_NONEXISTENT, v, t)) ∨
      (∃ c1 v0 c2 j bj, c = c1 ++ (key, v0) :: c2 ∧
        LookupOrUpdateInternal g.m fuel t blk BTreeOp.BTREE_OP_UPDATE key v
          = some (ERROR_T.ERROR_NOERROR, v, t.put j bj) ∧ j ∈ o ∧
        Node g (t.put j bj).buffercache.blocks h blk lo hi (c1 ++ (key, v) :: c2) o s) := by
  intro h
  induction h with
  | zero =>
    intro fuel blk lo hi c o s hf hn ha hb
    obtain ⟨f, rfl⟩ : ∃ f, fuel = f + 1 := ⟨fuel - 1, by omega⟩
    obtain ⟨b, hblk, hl, hs, hr, ho⟩ := hn
    have hu := Unserialize_data BTreeNode.default t.buffercache blk b hblk hl.leafHasData
    have hty := hl.1
    have hnum := hl.2.2.1
    have hlt := lt_length_of_getElem? hblk
    have hl' : LeafAt g b ([] ++ c) s := by simpa using hl
    rcases scanLeaf_spec g b s key c [] hl' with ⟨hnone, hscan⟩ | ⟨a, e, cr, hc, hek, hsome, hscan⟩
    · left
      refine ⟨hnone, ?_⟩
      simp only [List.length_nil] at hscan
      rw [LookupOrUpdateInternal, hu]
      simp only [hty, hnum, hscan]
    · right
      simp only [List.length_nil, List.nil_append] at hscan hc
      subst hc
      obtain ⟨k0, v0⟩ := e
      simp only at hek
      subst hek
      obtain ⟨b1, hset, hl1⟩ := leaf_SetVal_slot g b a cr (k0, v0) s v hv hl
      refine ⟨a, v0, cr, blk, b1, rfl, ?_, by rw [ho]; exact Finset.mem_singleton_self _, ?_⟩
      · rw [LookupOrUpdateInternal, hu]
        simp only [hty, hnum, hscan, reduceCtorEq, if_false, hset]
        rw [Serialize_data _ _ _ hlt hl1.leafHasData]
        rfl
      · refine ⟨b1, ?_, hl1, sorted_replace a cr k0 v0 v hs, ?_, ho⟩
        · show (t.buffercache.blocks.set blk b1)[blk]? = some b1
          simp only [List.getElem?_set_self hlt]
        · intro e he
          have : e.1 ∈ (a ++ (k0, v0) :: cr).map Prod.fst := by
            have h1 : (a ++ (k0, v0) :: cr).map Prod.fst = (a ++ (k0, v) :: cr).map Prod.fst := by
              simp
            rw [h1]
            exact List.mem_map_of_mem _ he
          obtain ⟨e', he', hee⟩ := List.mem_map.mp this
          rw [← hee]
          exact hr e' he'
  | succ h ih =>
    intro fuel blk lo hi c o s hf hn ha hb
    obtain ⟨f, rfl⟩ : ∃ f, fuel = f + 1 := ⟨fuel - 1, by omega⟩
    obtain ⟨b, p0, kps, o1, hblk, hint, hne, hni, ho, hk⟩ := hn
    have hu := Unserialize_data BTreeNode.default t.buffercache blk b hblk hint.nodeHasData
    have hp := pickChild_spec g b p0 s kps key hint hne
    obtain ⟨k1, k2, lo1, hi1, ca, cc, cb, oc, orest, hkps, hpick, hc, ho1, hd, hSc, ha1, hb1,
      hlo, hhi, hca, hcb, R1, R2, R3⟩ := Kids_pick key
        (fun q l u c1 o2 hq => Node_range g _ _ _ _ _ _ _ _ hq) _ _ _ _ _ _ hk ha hb
    have hstep : LookupOrUpdateInternal g.m (f + 1) t blk BTreeOp.BTREE_OP_UPDATE key v
        = LookupOrUpdateInternal g.m f t (lastPtr p0 k1) BTreeOp.BTREE_OP_UPDATE key v := by
      rw [LookupOrUpdateInternal, hu, ← hpick]
      rcases hint.1 with hty | hty <;> simp only [hty, hp]
    rcases ih f _ _ _ _ _ _ (by omega) hSc ha1 hb1 with ⟨hnone, hrun⟩ |
      ⟨c1, v0, c2, j, bj, hcc, hrun, hj, hnode⟩
    · left
      refine ⟨?_, by rw [hstep, hrun]⟩
      rw [hc, assoc_mid key ca cc cb hca hcb, hnone]
    · right
      have hjo1 : j ∈ o1 := by rw [ho1]; exact Finset.mem_union_left _ hj
      have hjb : j ≠ blk := fun he => hni (he ▸ hjo1)
      refine ⟨ca ++ c1, v0, c2 ++ cb, j, bj, ?_, by rw [hstep, hrun], ?_, ?_⟩
      · rw [hc, hcc]; simp
      · rw [ho]; exact Finset.mem_insert_of_mem hjo1
      · refine ⟨b, p0, kps, o1, ?_, hint, hne, hni, ho, ?_⟩
        · show (t.buffercache.blocks.set j bj)[blk]? = some b
          rw [List.getElem?_set_ne hjb]; exact hblk
        · have := R1 (fun p l u c3 o2 => Node g (t.put j bj).buffercache.blocks h p l u c3 o2 1)
            (c1 ++ (key, v) :: c2) oc ?_ hd hnode
          · rw [← ho1] at this
            simpa using this
          · intro q l u c3 o3 hsub hq
            apply Node_frame g _ _ _ _ _ _ _ _ _ hq
            intro i hi3
            show (t.buffercache.blocks.set j bj)[i]? = _
            rw [List.getElem?_set_ne]
            rintro rfl
            exact (Finset.disjoint_left.mp hd) hj (hsub hi3)


/-! ## The allocator -/

theorem Serialize_image (b : BTreeNode) (c : BufferCache) (n : Nat) (h : n < c.blocks.length) :
    ∃ img, (b.Serialize c n).2.blocks[n]? = some img ∧ img.info = b.info := by
  unfold BTreeNode.Serialize
  simp only [h, if_true]
  exact ⟨_, List.getElem?_set_self h, rfl⟩

/-- AllocateNode with a free list whose head block reads as unallocated. -/
theorem AllocateNode_head (t : BTreeIndex) (into : Bool) (b : BTreeNode)
    (h0 : t.superblock.info.freelist ≠ 0)
    (hb : t.buffercache.blocks[t.superblock.info.freelist]? = some b)
    (hty : b.info.nodetype = NodeType.BTREE_UNALLOCATED_BLOCK) :
    AllocateNode t into = some (ERROR_T.ERROR_NOERROR, t.superblock.info.freelist,
      { t with superblock := poppedSuper t into b.info.freelist,
               buffercache := ((poppedSuper t into b.info.freelist).Serialize t.buffercache
                 t.superblock_index).2 }) := by
  have hinfo : (BTreeNode.default.Unserialize t.buffercache t.superblock.info.freelist).2.info
      = b.info := Unserialize_nodata _ _ _ _ hb
  unfold AllocateNode poppedSuper
  cases into <;>
    simp only [Bool.false_eq_true, if_false, if_true, h0, hinfo, hty, ne_eq, not_true_eq_false]

theorem AllocateNode_empty (t : BTreeIndex) (into : Bool) (h0 : t.superblock.info.freelist = 0) :
    AllocateNode t into = some (ERROR_T.ERROR_NOSPACE, 0,
      if into then { t with superblock := t.superblock.withRootnode 0 } else t) := by
  unfold AllocateNode
  cases into <;> simp only [Bool.false_eq_true, if_false, if_true, h0]

theorem AllocateNode_nospace_iff (t : BTreeIndex) (into : Bool) :
    (∃ n t1, AllocateNode t into = some (ERROR_T.ERROR_NOSPACE, n, t1))
      ↔ t.superblock.info.freelist = 0 := by
  constructor
  · rintro ⟨n, t1, h⟩
    by_contra h0
    unfold AllocateNode at h
    simp only [h0, if_false] at h
    split_ifs at h <;> cases h
  · intro h0
    exact ⟨_, _, AllocateNode_empty t into h0⟩

/-- C11 (amended): in every state whose free-list head is 0 or the number of
a block stored as unallocated, AllocateNode returns ERROR_NOSPACE exactly when
the head is 0, and then no block changes and, when the caller's `n` is a
variable of its own, the index is returned as it was, cached superblock
included; otherwise it returns ERROR_NOERROR with the old head as `n`, the
cached superblock gets the `freelist` field stored in that block as its head,
the superblock is written to block `superblock_index`, and no other block
changes. -/
theorem allocate_pops_free_list_head (t : BTreeIndex) (into : Bool)
    (hfree : t.superblock.info.freelist ≠ 0 →
      ∃ b, t.buffercache.blocks[t.superblock.info.freelist]? = some b ∧
        b.info.nodetype = NodeType.BTREE_UNALLOCATED_BLOCK) :
    ((∃ n t1, AllocateNode t into = some (ERROR_T.ERROR_NOSPACE, n, t1))
      ↔ t.superblock.info.freelist = 0) ∧
    (t.superblock.info.freelist = 0 →
      ∃ t1, AllocateNode t into = some (ERROR_T.ERROR_NOSPACE, 0, t1) ∧
        t1.buffercache = t.buffercache ∧ t1.superblock_index = t.superblock_index ∧
        (into = false → t1 = t)) ∧
    (t.superblock.info.freelist ≠ 0 →
      ∃ b t1, t.buffercache.blocks[t.superblock.info.freelist]? = some b ∧
        AllocateNode t into = some (ERROR_T.ERROR_NOERROR, t.superblock.info.freelist, t1) ∧
        t1.superblock = poppedSuper t into b.info.freelist ∧
        t1.superblock.info.freelist = b.info.freelist ∧
        t1.superblock_index = t.superblock_index ∧
        t1.buffercache.blocks.length = t.buffercache.blocks.length ∧
        (t.superblock_index < t.buffercache.blocks.length →
          ∃ img, t1.buffercache.blocks[t.superblock_index]? = some img ∧
            img.info = t1.superblock.info) ∧
        (∀ j, j ≠ t.superblock_index →
          t1.buffercache.blocks[j]? = t.buffercache.blocks[j]?)) := by
  refine ⟨AllocateNode_nospace_iff t into, ?_, ?_⟩
  · intro h0
    refine ⟨_, AllocateNode_empty t into h0, ?_, ?_, ?_⟩
    · cases into <;> rfl
    · cases into <;> rfl
    · intro hinto
      rw [hinto]
      rfl
  intro h0
  obtain ⟨b, hb, hty⟩ := hfree h0
  obtain ⟨h1, h2, h3⟩ := Serialize_blocks (poppedSuper t into b.info.freelist) t.buffercache
    t.superblock_index
  refine ⟨b, _, hb, AllocateNode_head t into b h0 hb hty, rfl, ?_, rfl, h2, ?_, h3⟩
  · unfold poppedSuper
    cases into <;> rfl
  · intro hlt
    exact Serialize_image _ _ _ hlt

/-! ## The existence check of Insert -/

/-- When the root has keys, Insert answers ERROR_CONFLICT to every result of
its lookup other than ERROR_NONEXISTENT, errors included. -/
theorem Insert_lookup_error (m : Machine) (t : BTreeIndex) (k : KEY_T) (v val : VALUE_T)
    (e : ERROR_T)
    (hroot : (BTreeNode.default.Unserialize t.buffercache
      t.superblock.info.rootnode).2.info.numkeys ≠ 0)
    (hl : Lookup m t k = some (e, val)) (he : e ≠ ERROR_T.ERROR_NONEXISTENT) :
    BTreeIndex.Insert m t k v = some (ERROR_T.ERROR_CONFLICT, t) := by
  unfold BTreeIndex.Insert
  simp only [hroot, if_false, hl]
  cases e <;> first | rfl | exact absurd rfl he


/-! ## Byte copies of a split -/

theorem write_over (pre body Y : List Nat) (off : Nat) (ho : off = pre.length)
    (h : Y.length ≤ body.length) :
    writeAt (pre ++ body) off Y = pre ++ Y ++ body.drop Y.length := by
  have h1 : pre ++ body = pre ++ body.take Y.length ++ body.drop Y.length := by
    rw [List.append_assoc, List.take_append_drop]
  rw [h1, writeAt_mid' _ _ _ _ _ ho (by rw [List.length_take]; omega)]

theorem read_over (A X rest : List Nat) (off len : Nat) (ho : off = A.length)
    (hl : X.length ≤ len) :
    readAt (A ++ X ++ rest) off len = X ++ rest.take (len - X.length) := by
  rw [List.append_assoc, readAt_from _ _ _ _ ho, List.take_append_eq_append_take,
    List.take_of_length_le hl]

theorem write_front (d Y : List Nat) (X Z : List Nat) (hY : Y = X ++ Z)
    (hX : X.length ≤ d.length) : ∃ rest, writeAt d 0 Y = X ++ rest := by
  unfold writeAt
  subst hY
  refine ⟨(Z ++ d.drop (0 + (X ++ Z).length)).take (d.length - X.length), ?_⟩
  simp only [List.take_zero, List.nil_append, List.append_assoc]
  rw [List.take_append_eq_append_take, List.take_of_length_le hX]

/-! ## SplitNode on a full leaf -/

theorem SplitNode_leaf (g : Geom) (t : BTreeIndex) (hs : SuperOK t) (ptr : Nat) (b : BTreeNode)
    (es : List (KEY_T × VALUE_T)) (hb : t.buffercache.blocks[ptr]? = some b)
    (hl : LeafAt g b es 0) (hfull : es.length = g.capL) (hcap : 3 ≤ g.capL) (x : Nat)
    (xs : List Nat)
    (hf : FreeChain t.buffercache.blocks t.superblock.info.freelist (x :: xs)) (pk0 : KEY_T) :
    ∃ t2 bl br el e er, SplitNode g.m t ptr pk0 = some (ERROR_T.ERROR_NOERROR, x, e.1, t2) ∧
      es = el ++ e :: er ∧ er ≠ [] ∧
      t2.buffercache.blocks[ptr]? = some bl ∧ t2.buffercache.blocks[x]? = some br ∧
      LeafAt g bl (el ++ [e]) 1 ∧ LeafAt g br er 1 ∧ Keeps t t2 ∧
      FreeChain t2.buffercache.blocks t2.superblock.info.freelist xs ∧
      (∀ j, j ≠ 0 → j ≠ ptr → j ≠ x → t2.buffercache.blocks[j]? = t.buffercache.blocks[j]?) := by
  have hdat := hl.leafHasData
  have hl0 := hl
  obtain ⟨t1, halloc, hs1, hroot1, hlen1, hbs1, hks1, hvs1, hf1, hfr1, hx0, hxn, hxlt⟩ :=
    AllocateNode_spec t hs x xs false hf
  have hptr0 : ptr ≠ 0 := data_ne_zero hs hb hdat
  have hxptr : x ≠ ptr := by
    rintro rfl
    obtain ⟨_, b', hb', hty'⟩ := FreeChain_mem _ _ _ hf x (List.mem_cons_self _ _)
    rw [hb] at hb'
    cases hb'
    rw [hty'] at hdat
    cases hdat
  have hptrlt : ptr < t1.buffercache.blocks.length := by
    rw [hlen1]; exact lt_length_of_getElem? hb
  have hxlt1 : x < t1.buffercache.blocks.length := by rw [hlen1]; exact hxlt
  obtain ⟨hty, ⟨hks, hvs, hbs, hlen⟩, hnum, hcap0, hu, pre, rest, hpre, hd⟩ := hl
  have hn3 : 3 ≤ es.length := by omega
  have hLn : (es.length + 2) / 2 < es.length := by omega
  have hL1 : 1 ≤ (es.length + 2) / 2 := by omega
  have htl : (es.take ((es.length + 2) / 2)).length = (es.length + 2) / 2 := by
    rw [List.length_take]; omega
  obtain ⟨el, e, hel⟩ : ∃ el e, es.take ((es.length + 2) / 2) = el ++ [e] := by
    rcases List.eq_nil_or_concat (es.take ((es.length + 2) / 2)) with h | ⟨el, e, h⟩
    · rw [h, List.length_nil] at htl; omega
    · exact ⟨el, e, by rw [h, List.concat_eq_append]⟩
  have hell : el.length + 1 = (es.length + 2) / 2 := by
    rw [← htl, hel]; simp
  have hes : es = el ++ e :: es.drop ((es.length + 2) / 2) := by
    have := (List.take_append_drop ((es.length + 2) / 2) es).symm
    rw [hel] at this
    simpa using this
  have herl : (es.drop ((es.length + 2) / 2)).length = es.length - (es.length + 2) / 2 := by
    rw [List.length_drop]
  have her : es.drop ((es.length + 2) / 2) ≠ [] := by
    intro h
    rw [h] at herl
    simp at herl
    omega
  generalize hR : es.drop ((es.length + 2) / 2) = er at hes her herl
  have hu1 : Uniform g.keysize g.valuesize (el ++ [e]) := by
    rw [hes] at hu
    have h' : Uniform g.keysize g.valuesize (el ++ [e] ++ er) := by simpa using hu
    exact h'.left
  have hu2 : Uniform g.keysize g.valuesize er := by
    rw [hes] at hu
    exact (hu.right).tail
  have hgk : b.GetKey g.m ((es.length + 2) / 2 - 1) = .ok e.1 := by
    have := leaf_GetKey g b el er e 0 (by rw [← hes]; exact hl0)
    rw [← this]
    congr 1
    omega
  -- the bytes copied into the new leaf
  have hd2 : b.data = (pre ++ flat (el ++ [e])) ++ flat er ++ rest := by
    rw [hd]
    conv_lhs => rw [hes]
    simp only [flat_append, flat_cons, flat, List.append_assoc, List.append_nil]
  have hread : readAt b.data (g.m.sizeofSIZE_T + (es.length + 2) / 2
      * (b.info.keysize + b.info.valuesize))
      ((es.length - (es.length + 2) / 2) * (b.info.keysize + b.info.valuesize)) = flat er := by
    rw [hd2]
    apply readAt_mid'
    · simp only [List.length_append, hpre, length_flat _ _ _ hu1, List.length_singleton, hell,
        hks, hvs, Geom.P]
    · rw [length_flat _ _ _ hu2, herl, hks, hvs]
  have hbody : (flat er).length ≤ (flat es ++ rest).length := by
    rw [List.length_append, length_flat _ _ _ hu2, length_flat _ _ _ hu, herl]
    have : (es.length - (es.length + 2) / 2) * (g.keysize + g.valuesize)
        ≤ es.length * (g.keysize + g.valuesize) := Nat.mul_le_mul_right _ (by omega)
    omega
  have hwrite : writeAt b.data (g.m.sizeofSIZE_T + 0 * (b.info.keysize + b.info.valuesize))
      (flat er) = pre ++ flat er ++ (flat es ++ rest).drop (flat er).length := by
    have h1 : b.data = pre ++ (flat es ++ rest) := by rw [hd, List.append_assoc]
    rw [h1]
    apply write_over _ _ _ _ _ hbody
    simp only [Nat.zero_mul, Nat.add_zero, hpre, Geom.P]
  have hrp0 : b.ResolvePtr g.m 0
      = some (g.m.sizeofSIZE_T + 0 * (b.info.keysize + b.info.valuesize)) := by
    unfold BTreeNode.ResolvePtr; simp only [hty]
  have hrpL : b.ResolvePtr g.m ((es.length + 2) / 2)
      = some (g.m.sizeofSIZE_T + (es.length + 2) / 2 * (b.info.keysize + b.info.valuesize)) := by
    unfold BTreeNode.ResolvePtr; simp only [hty]
  have hcopy : copyBytes b.data (b.ResolvePtr g.m 0) b.data
      (b.ResolvePtr g.m ((es.length + 2) / 2))
      ((es.length - (es.length + 2) / 2) * (b.info.keysize + b.info.valuesize))
      = pre ++ flat er ++ (flat es ++ rest).drop (flat er).length := by
    rw [hrp0, hrpL]
    show writeAt _ _ (readAt _ _ _) = _
    rw [hread, hwrite]
  have hu0 := Unserialize_data BTreeNode.default t.buffercache ptr b hb hdat
  obtain ⟨bl, hbl⟩ : ∃ bl, bl = b.withNumkeys ((es.length + 2) / 2) := ⟨_, rfl⟩
  obtain ⟨br, hbr⟩ : ∃ br, br = (b.withData (pre ++ flat er
      ++ (flat es ++ rest).drop (flat er).length)).withNumkeys
        (es.length - (es.length + 2) / 2) := ⟨_, rfl⟩
  obtain ⟨t2, ht2⟩ : ∃ t2 : BTreeIndex, t2 = { t1 with buffercache := { t1.buffercache with
      blocks := ((t1.buffercache.blocks.set x b).set ptr bl).set x br } } := ⟨_, rfl⟩
  have hdev2 : t2.buffercache.blocks = ((t1.buffercache.blocks.set x b).set ptr bl).set x br := by
    rw [ht2]
  have heq : SplitNode g.m t ptr pk0 = some (ERROR_T.ERROR_NOERROR, x, e.1, t2) := by
    unfold SplitNode
    rw [hu0]
    simp only [halloc, Serialize_data b t1.buffercache x hxlt1 hdat, hty, if_true, hnum,
      Nat.not_lt.mpr (Nat.le_of_lt hLn), if_false, hgk, orKeep, hcopy]
    rw [Serialize_data _ _ _ (by simpa using hptrlt) (by simpa using hdat)]
    simp only
    rw [Serialize_data _ _ _ (by simpa using hxlt1) (by simpa using hdat)]
    rw [ht2, hbl, hbr]
  have hframe : ∀ j, j ≠ ptr → j ≠ x →
      t2.buffercache.blocks[j]? = t1.buffercache.blocks[j]? := by
    intro j h1 h2
    rw [hdev2, List.getElem?_set_ne (Ne.symm h2), List.getElem?_set_ne (Ne.symm h1),
      List.getElem?_set_ne (Ne.symm h2)]
  refine ⟨t2, bl, br, el, e, er, heq, hes, her, ?_, ?_, ?_, ?_,
    SplitNode_keeps g.m t hs ptr hptr0 pk0 _ _ _ _ heq, ?_, ?_⟩
  · rw [hdev2, List.getElem?_set_ne hxptr, List.getElem?_set_self (by simpa using hptrlt)]
  · rw [hdev2, List.getElem?_set_self (by simpa using hxlt1)]
  · rw [hbl]
    refine ⟨hty, ⟨hks, hvs, hbs, hlen⟩, ?_, ?_, hu1, pre, flat er ++ rest, hpre, ?_⟩
    · show (es.length + 2) / 2 = _
      rw [← hell]; simp
    · simp only [List.length_append, List.length_singleton]; omega
    · show b.data = _
      rw [hd2]; simp only [List.append_assoc]
  · rw [hbr]
    refine ⟨hty, ⟨hks, hvs, hbs, ?_⟩, ?_, ?_, hu2, pre, _, hpre, rfl⟩
    · show (pre ++ flat er ++ (flat es ++ rest).drop (flat er).length).length = g.D
      rw [← hlen, hd]
      simp only [List.length_append, List.length_drop] at hbody ⊢
      omega
    · show es.length - (es.length + 2) / 2 = _
      rw [herl]
    · omega
  · have hfl : t2.superblock.info.freelist = t1.superblock.info.freelist := by rw [ht2]
    rw [hfl]
    apply FreeChain_frame _ _ _ _ hf1
    intro j hj
    apply hframe
    · rintro rfl
      obtain ⟨_, b', hb', hty'⟩ := FreeChain_mem _ _ _ hf1 j hj
      rw [hfr1 j hptr0, hb] at hb'
      cases hb'
      rw [hty'] at hdat
      cases hdat
    · rintro rfl
      exact hxn hj
  · intro j h0 h1 h2
    rw [hframe j h1 h2, hfr1 j h0]

/-! ## SplitNode on a full interior node -/

theorem SplitNode_int (g : Geom) (t : BTreeIndex) (hs : SuperOK t) (ptr : Nat) (b : BTreeNode)
    (p0 : Nat) (kps : List (KEY_T × Nat)) (hb : t.buffercache.blocks[ptr]? = some b)
    (hl : IntAt g b p0 kps 0) (hfull : kps.length = g.capI) (hcap : 3 ≤ g.capI) (x : Nat)
    (xs : List Nat)
    (hf : FreeChain t.buffercache.blocks t.superblock.info.freelist (x :: xs)) (pk0 : KEY_T) :
    ∃ t2 bl br kl e kr, SplitNode g.m t ptr pk0 = some (ERROR_T.ERROR_NOERROR, x, e.1, t2) ∧
      kps = kl ++ e :: kr ∧ 1 ≤ kl.length ∧ 1 ≤ kr.length ∧
      t2.buffercache.blocks[ptr]? = some bl ∧ t2.buffercache.blocks[x]? = some br ∧
      IntAt g bl p0 kl 1 ∧ IntAt g br e.2 kr 1 ∧ Keeps t t2 ∧
      FreeChain t2.buffercache.blocks t2.superblock.info.freelist xs ∧
      (∀ j, j ≠ 0 → j ≠ ptr → j ≠ x → t2.buffercache.blocks[j]? = t.buffercache.blocks[j]?) := by
  have hdat := hl.nodeHasData
  have hl0 := hl
  obtain ⟨t1, halloc, hs1, hroot1, hlen1, hbs1, hks1, hvs1, hf1, hfr1, hx0, hxn, hxlt⟩ :=
    AllocateNode_spec t hs x xs false hf
  have hptr0 : ptr ≠ 0 := data_ne_zero hs hb hdat
  have hxptr : x ≠ ptr := by
    rintro rfl
    obtain ⟨_, b', hb', hty'⟩ := FreeChain_mem _ _ _ hf x (List.mem_cons_self _ _)
    rw [hb] at hb'
    cases hb'
    rw [hty'] at hdat
    cases hdat
  have hptrlt : ptr < t1.buffercache.blocks.length := by
    rw [hlen1]; exact lt_length_of_getElem? hb
  have hxlt1 : x < t1.buffercache.blocks.length := by rw [hlen1]; exact hxlt
  obtain ⟨hty, ⟨hks, hvs, hbs, hlen⟩, hnum, hcap0, hu, hp0, rest, hd⟩ := hl
  have hn3 : 3 ≤ kps.length := by omega
  have hLn : kps.length / 2 + 1 < kps.length := by omega
  have hL1 : 1 ≤ kps.length / 2 := by omega
  have hnl : ¬ b.info.nodetype = NodeType.BTREE_LEAF_NODE := by
    rcases hty with h | h <;> rw [h] <;> simp
  obtain ⟨e, kr, hdrop⟩ : ∃ e kr, kps.drop (kps.length / 2) = e :: kr := by
    cases hdr : kps.drop (kps.length / 2) with
    | nil =>
      have := congrArg List.length hdr
      simp at this
      omega
    | cons e kr => exact ⟨e, kr, rfl⟩
  have hkps : kps = kps.take (kps.length / 2) ++ e :: kr := by
    rw [← hdrop, List.take_append_drop]
  have hkll : (kps.take (kps.length / 2)).length = kps.length / 2 := by
    rw [List.length_take]; omega
  generalize hKL : kps.take (kps.length / 2) = kl at hkps hkll
  have hkrl : kr.length = kps.length - kps.length / 2 - 1 := by
    have := congrArg List.length hkps
    simp only [List.length_append, List.length_cons] at this
    omega
  have hukl : ∀ e ∈ kl, e.1.length = g.keysize ∧ e.2 < 256 ^ g.P :=
    fun y hy => hu y (by rw [hkps]; exact List.mem_append_left _ hy)
  have hue : e.1.length = g.keysize ∧ e.2 < 256 ^ g.P :=
    hu e (by rw [hkps]; exact List.mem_append_right _ (List.mem_cons_self _ _))
  have hukr : ∀ e ∈ kr, e.1.length = g.keysize ∧ e.2 < 256 ^ g.P :=
    fun y hy => hu y (by rw [hkps]; exact List.mem_append_right _ (List.mem_cons_of_mem _ hy))
  have hgk : b.GetKey g.m (kps.length / 2) = .ok e.1 := by
    have := int_GetKey g b p0 kl kr e 0 (by rw [← hkps]; exact hl0)
    rw [← this, hkll]
  have hd2 : b.data = (encodeSIZE_T g.P p0 ++ flat (ptrSlots g kl) ++ e.1)
      ++ (encodeSIZE_T g.P e.2 ++ flat (ptrSlots g kr)) ++ rest := by
    rw [hd]
    conv_lhs => rw [hkps]
    simp only [ptrSlots_append, ptrSlots_cons, flat_append, flat_cons, List.append_assoc]
  have hXlen : (encodeSIZE_T g.P e.2 ++ flat (ptrSlots g kr)).length
      = g.P + kr.length * (g.keysize + g.P) := by
    rw [List.length_append, length_encodeSIZE_T,
      length_flat _ _ _ (ptrSlots_uniform g kr hukr), length_ptrSlots]
  have hXle : (encodeSIZE_T g.P e.2 ++ flat (ptrSlots g kr)).length
      ≤ (kps.length - kps.length / 2 - 1)
        * (b.info.keysize + g.m.sizeofSIZE_T + g.m.sizeofSIZE_T) := by
    rw [hXlen, ← hkrl, hks]
    have h1 : kr.length * (g.keysize + g.m.sizeofSIZE_T + g.m.sizeofSIZE_T)
        = kr.length * (g.keysize + g.P) + kr.length * g.P := by
      simp only [Geom.P]; ring
    have h2 : 1 * g.P ≤ kr.length * g.P := Nat.mul_le_mul_right _ (by omega)
    omega
  have hread : readAt b.data ((kps.length / 2 + 1) * (g.m.sizeofSIZE_T + b.info.keysize))
      ((kps.length - kps.length / 2 - 1)
        * (b.info.keysize + g.m.sizeofSIZE_T + g.m.sizeofSIZE_T))
      = (encodeSIZE_T g.P e.2 ++ flat (ptrSlots g kr))
        ++ rest.take ((kps.length - kps.length / 2 - 1)
          * (b.info.keysize + g.m.sizeofSIZE_T + g.m.sizeofSIZE_T)
          - (encodeSIZE_T g.P e.2 ++ flat (ptrSlots g kr)).length) := by
    rw [hd2]
    apply read_over _ _ _ _ _ _ hXle
    simp only [List.length_append, length_encodeSIZE_T,
      length_flat _ _ _ (ptrSlots_uniform g kl hukl), length_ptrSlots, hue.1, hkll, hks, Geom.P]
    ring
  have hXD : (encodeSIZE_T g.P e.2 ++ flat (ptrSlots g kr)).length ≤ b.data.length := by
    rw [hd2]; simp only [List.length_append]; omega
  obtain ⟨rest', hwrite⟩ := write_front b.data _ _ _ hread.symm.symm hXD
  have hrp0 : b.ResolvePtr g.m 0 = some (0 * (g.m.sizeofSIZE_T + b.info.keysize)) := by
    unfold BTreeNode.ResolvePtr
    rcases hty with h | h <;> simp only [h]
  have hrpL : b.ResolvePtr g.m (kps.length / 2 + 1)
      = some ((kps.length / 2 + 1) * (g.m.sizeofSIZE_T + b.info.keysize)) := by
    unfold BTreeNode.ResolvePtr
    rcases hty with h | h <;> simp only [h]
  have hcopy : copyBytes b.data (b.ResolvePtr g.m 0) b.data
      (b.ResolvePtr g.m (kps.length / 2 + 1))
      ((kps.length - kps.length / 2 - 1)
        * (b.info.keysize + g.m.sizeofSIZE_T + g.m.sizeofSIZE_T))
      = (encodeSIZE_T g.P e.2 ++ flat (ptrSlots g kr)) ++ rest' := by
    rw [hrp0, hrpL]
    show writeAt _ _ (readAt _ _ _) = _
    rw [Nat.zero_mul]
    exact hwrite
  have hrdlen : ((encodeSIZE_T g.P e.2 ++ flat (ptrSlots g kr)) ++ rest').length = g.D := by
    rw [← hwrite, length_writeAt, hlen]
  have hu0 := Unserialize_data BTreeNode.default t.buffercache ptr b hb hdat
  obtain ⟨bl, hbl⟩ : ∃ bl, bl = b.withNumkeys (kps.length / 2) := ⟨_, rfl⟩
  obtain ⟨br, hbr⟩ : ∃ br, br = (b.withData ((encodeSIZE_T g.P e.2 ++ flat (ptrSlots g kr))
      ++ rest')).withNumkeys (kps.length - kps.length / 2 - 1) := ⟨_, rfl⟩
  obtain ⟨t2, ht2⟩ : ∃ t2 : BTreeIndex, t2 = { t1 with buffercache := { t1.buffercache with
      blocks := ((t1.buffercache.blocks.set x b).set ptr bl).set x br } } := ⟨_, rfl⟩
  have hdev2 : t2.buffercache.blocks = ((t1.buffercache.blocks.set x b).set ptr bl).set x br := by
    rw [ht2]
  have heq : SplitNode g.m t ptr pk0 = some (ERROR_T.ERROR_NOERROR, x, e.1, t2) := by
    unfold SplitNode
    rw [hu0]
    simp only [halloc, Serialize_data b t1.buffercache x hxlt1 hdat, hnl, if_false, hnum,
      Nat.not_lt.mpr (Nat.le_of_lt hLn), hgk, orKeep, hcopy]
    rw [Serialize_data _ _ _ (by simpa using hptrlt) (by simpa using hdat)]
    simp only
    rw [Serialize_data _ _ _ (by simpa using hxlt1) (by simpa using hdat)]
    rw [ht2, hbl, hbr]
  have hframe : ∀ j, j ≠ ptr → j ≠ x →
      t2.buffercache.blocks[j]? = t1.buffercache.blocks[j]? := by
    intro j h1 h2
    rw [hdev2, List.getElem?_set_ne (Ne.symm h2), List.getElem?_set_ne (Ne.symm h1),
      List.getElem?_set_ne (Ne.symm h2)]
  refine ⟨t2, bl, br, kl, e, kr, heq, hkps, by omega, by omega, ?_, ?_, ?_, ?_,
    SplitNode_keeps g.m t hs ptr hptr0 pk0 _ _ _ _ heq, ?_, ?_⟩
  · rw [hdev2, List.getElem?_set_ne hxptr, List.getElem?_set_self (by simpa using hptrlt)]
  · rw [hdev2, List.getElem?_set_self (by simpa using hxlt1)]
  · rw [hbl]
    refine ⟨hty, ⟨hks, hvs, hbs, hlen⟩, ?_, ?_, hukl, hp0,
      e.1 ++ (encodeSIZE_T g.P e.2 ++ flat (ptrSlots g kr)) ++ rest, ?_⟩
    · show kps.length / 2 = _
      rw [hkll]
    · omega
    · show b.data = _
      rw [hd2]; simp only [List.append_assoc]
  · rw [hbr]
    refine ⟨hty, ⟨hks, hvs, hbs, hrdlen⟩, ?_, ?_, hukr, hue.2, rest', ?_⟩
    · show kps.length - kps.length / 2 - 1 = _
      rw [hkrl]
    · omega
    · show _ ++ rest' = _
      simp only [List.append_assoc]
  · have hfl : t2.superblock.info.freelist = t1.superblock.info.freelist := by rw [ht2]
    rw [hfl]
    apply FreeChain_frame _ _ _ _ hf1
    intro j hj
    apply hframe
    · rintro rfl
      obtain ⟨_, b', hb', hty'⟩ := FreeChain_mem _ _ _ hf1 j hj
      rw [hfr1 j hptr0, hb] at hb'
      cases hb'
      rw [hty'] at hdat
      cases hdat
    · rintro rfl
      exact hxn hj
  · intro j h0 h1 h2
    rw [hframe j h1 h2, hfr1 j h0]


/-! ## SplitNode on any node that has a free block to take -/

/-- AllocateNode on an index in step with block 0 whose free-list head reads
as unallocated. -/
theorem AllocateNode_pop (t : BTreeIndex) (hs : SuperOK t) (into : Bool) (bx : BTreeNode)
    (h0 : t.superblock.info.freelist ≠ 0)
    (hbx : t.buffercache.blocks[t.superblock.info.freelist]? = some bx)
    (htyx : bx.info.nodetype = NodeType.BTREE_UNALLOCATED_BLOCK) :
    ∃ t1, AllocateNode t into = some (ERROR_T.ERROR_NOERROR, t.superblock.info.freelist, t1) ∧
      SuperOK t1 ∧
      t1.superblock.info.rootnode
        = (if into then t.superblock.info.freelist else t.superblock.info.rootnode) ∧
      t1.buffercache.blocks.length = t.buffercache.blocks.length ∧
      t1.buffercache.blocksize = t.buffercache.blocksize ∧
      t1.superblock.info.keysize = t.superblock.info.keysize ∧
      t1.superblock.info.valuesize = t.superblock.info.valuesize ∧
      t1.superblock.info.freelist = bx.info.freelist ∧
      (∀ j, j ≠ 0 → t1.buffercache.blocks[j]? = t.buffercache.blocks[j]?) := by
  have hlt : 0 < t.buffercache.blocks.length := lt_length_of_getElem? hs.2.2.2
  have hnd : hasData (poppedSuper t into bx.info.freelist).info.nodetype = false := by
    unfold poppedSuper
    cases into <;>
      (show hasData t.superblock.info.nodetype = false; rw [hs.2.1]; rfl)
  have hdt : (poppedSuper t into bx.info.freelist).data = [] := by
    unfold poppedSuper
    cases into <;> exact hs.2.2.1
  have hser := Serialize_nodata (poppedSuper t into bx.info.freelist) t.buffercache 0 hlt hnd hdt
  refine ⟨_, AllocateNode_head t into bx h0 hbx htyx, ?_, ?_, ?_, ?_, ?_, ?_, ?_, ?_⟩
  · refine ⟨hs.1, ?_, hdt, ?_⟩
    · unfold poppedSuper
      cases into <;> exact hs.2.1
    · show ((poppedSuper t into bx.info.freelist).Serialize t.buffercache
        t.superblock_index).2.blocks[0]? = _
      rw [hs.1, hser]
      exact List.getElem?_set_self hlt
  · unfold poppedSuper
    cases into <;> rfl
  · show ((poppedSuper t into bx.info.freelist).Serialize t.buffercache
      t.superblock_index).2.blocks.length = _
    rw [hs.1, hser]
    simp
  · show ((poppedSuper t into bx.info.freelist).Serialize t.buffercache
      t.superblock_index).2.blocksize = _
    rw [hs.1, hser]
  · unfold poppedSuper
    cases into <;> rfl
  · unfold poppedSuper
    cases into <;> rfl
  · unfold poppedSuper
    cases into <;> rfl
  · intro j hj
    show ((poppedSuper t into bx.info.freelist).Serialize t.buffercache
      t.superblock_index).2.blocks[j]? = _
    rw [hs.1, hser]
    exact List.getElem?_set_ne (Ne.symm hj)

/-- SplitNode on a leaf with at least one entry. -/
theorem SplitNode_leaf_gen (g : Geom) (t : BTreeIndex) (hs : SuperOK t) (ptr : Nat)
    (b : BTreeNode) (es : List (KEY_T × VALUE_T)) (hb : t.buffercache.blocks[ptr]? = some b)
    (hl : LeafAt g b es 0) (hn1 : 1 ≤ es.length) (bx : BTreeNode)
    (h0 : t.superblock.info.freelist ≠ 0)
    (hbx : t.buffercache.blocks[t.superblock.info.freelist]? = some bx)
    (htyx : bx.info.nodetype = NodeType.BTREE_UNALLOCATED_BLOCK) (pk0 : KEY_T) :
    ∃ t2 bl br el e er,
      SplitNode g.m t ptr pk0
        = some (ERROR_T.ERROR_NOERROR, t.superblock.info.freelist, e.1, t2) ∧
      es = el ++ e :: er ∧ el.length + 1 = (es.length + 2) / 2 ∧
      t2.buffercache.blocks[ptr]? = some bl ∧
      t2.buffercache.blocks[t.superblock.info.freelist]? = some br ∧
      LeafAt g bl (el ++ [e]) 0 ∧ LeafAt g br er 0 ∧ Keeps t t2 ∧
      t2.superblock.info.freelist = bx.info.freelist ∧
      (∀ j, j ≠ 0 → j ≠ ptr → j ≠ t.superblock.info.freelist →
        t2.buffercache.blocks[j]? = t.buffercache.blocks[j]?) := by
  have hdat := hl.leafHasData
  have hl0 := hl
  obtain ⟨x, hxdef⟩ : ∃ x, x = t.superblock.info.freelist := ⟨_, rfl⟩
  rw [← hxdef] at hbx h0 ⊢
  obtain ⟨t1, halloc, hs1, hroot1, hlen1, hbs1, hks1, hvs1, hf1, hfr1⟩ :=
    AllocateNode_pop t hs false bx (by rw [← hxdef]; exact h0) (by rw [← hxdef]; exact hbx) htyx
  rw [← hxdef] at halloc
  have hxlt : x < t.buffercache.blocks.length := lt_length_of_getElem? hbx
  have hptr0 : ptr ≠ 0 := data_ne_zero hs hb hdat
  have hxptr : x ≠ ptr := by
    intro hxp
    rw [hxp, hb] at hbx
    cases hbx
    rw [htyx] at hdat
    cases hdat
  have hptrlt : ptr < t1.buffercache.blocks.length := by
    rw [hlen1]; exact lt_length_of_getElem? hb
  have hxlt1 : x < t1.buffercache.blocks.length := by rw [hlen1]; exact hxlt
  obtain ⟨hty, ⟨hks, hvs, hbs, hlen⟩, hnum, hcap0, hu, pre, rest, hpre, hd⟩ := hl
  have hLn : (es.length + 2) / 2 ≤ es.length := by omega
  have hL1 : 1 ≤ (es.length + 2) / 2 := by omega
  have htl : (es.take ((es.length + 2) / 2)).length = (es.length + 2) / 2 := by
    rw [List.length_take]; omega
  obtain ⟨el, e, hel⟩ : ∃ el e, es.take ((es.length + 2) / 2) = el ++ [e] := by
    rcases List.eq_nil_or_concat (es.take ((es.length + 2) / 2)) with h | ⟨el, e, h⟩
    · rw [h, List.length_nil] at htl; omega
    · exact ⟨el, e, by rw [h, List.concat_eq_append]⟩
  have hell : el.length + 1 = (es.length + 2) / 2 := by
    rw [← htl, hel]; simp
  have hes : es = el ++ e :: es.drop ((es.length + 2) / 2) := by
    have := (List.take_append_drop ((es.length + 2) / 2) es).symm
    rw [hel] at this
    simpa using this
  have herl : (es.drop ((es.length + 2) / 2)).length = es.length - (es.length + 2) / 2 := by
    rw [List.length_drop]
  generalize hR : es.drop ((es.length + 2) / 2) = er at hes herl
  have hu1 : Uniform g.keysize g.valuesize (el ++ [e]) := by
    rw [hes] at hu
    have h' : Uniform g.keysize g.valuesize (el ++ [e] ++ er) := by simpa using hu
    exact h'.left
  have hu2 : Uniform g.keysize g.valuesize er := by
    rw [hes] at hu
    exact (hu.right).tail
  have hgk : b.GetKey g.m ((es.length + 2) / 2 - 1) = .ok e.1 := by
    have := leaf_GetKey g b el er e 0 (by rw [← hes]; exact hl0)
    rw [← this]
    congr 1
    omega
  -- the bytes copied into the new leaf
  have hd2 : b.data = (pre ++ flat (el ++ [e])) ++ flat er ++ rest := by
    rw [hd]
    conv_lhs => rw [hes]
    simp only [flat_append, flat_cons, flat, List.append_assoc, List.append_nil]
  have hread : readAt b.data (g.m.sizeofSIZE_T + (es.length + 2) / 2
      * (b.info.keysize + b.info.valuesize))
      ((es.length - (es.length + 2) / 2) * (b.info.keysize + b.info.valuesize)) = flat er := by
    rw [hd2]
    apply readAt_mid'
    · simp only [List.length_append, hpre, length_flat _ _ _ hu1, List.length_singleton, hell,
        hks, hvs, Geom.P]
    · rw [length_flat _ _ _ hu2, herl, hks, hvs]
  have hbody : (flat er).length ≤ (flat es ++ rest).length := by
    rw [List.length_append, length_flat _ _ _ hu2, length_flat _ _ _ hu, herl]
    have : (es.length - (es.length + 2) / 2) * (g.keysize + g.valuesize)
        ≤ es.length * (g.keysize + g.valuesize) := Nat.mul_le_mul_right _ (by omega)
    omega
  have hwrite : writeAt b.data (g.m.sizeofSIZE_T + 0 * (b.info.keysize + b.info.valuesize))
      (flat er) = pre ++ flat er ++ (flat es ++ rest).drop (flat er).length := by
    have h1 : b.data = pre ++ (flat es ++ rest) := by rw [hd, List.append_assoc]
    rw [h1]
    apply write_over _ _ _ _ _ hbody
    simp only [Nat.zero_mul, Nat.add_zero, hpre, Geom.P]
  have hrp0 : b.ResolvePtr g.m 0
      = some (g.m.sizeofSIZE_T + 0 * (b.info.keysize + b.info.valuesize)) := by
    unfold BTreeNode.ResolvePtr; simp only [hty]
  have hrpL : b.ResolvePtr g.m ((es.length + 2) / 2)
      = some (g.m.sizeofSIZE_T + (es.length + 2) / 2 * (b.info.keysize + b.info.valuesize)) := by
    unfold BTreeNode.ResolvePtr; simp only [hty]
  have hcopy : copyBytes b.data (b.ResolvePtr g.m 0) b.data
      (b.ResolvePtr g.m ((es.length + 2) / 2))
      ((es.length - (es.length + 2) / 2) * (b.info.keysize + b.info.valuesize))
      = pre ++ flat er ++ (flat es ++ rest).drop (flat er).length := by
    rw [hrp0, hrpL]
    show writeAt _ _ (readAt _ _ _) = _
    rw [hread, hwrite]
  have hu0 := Unserialize_data BTreeNode.default t.buffercache ptr b hb hdat
  obtain ⟨bl, hbl⟩ : ∃ bl, bl = b.withNumkeys ((es.length + 2) / 2) := ⟨_, rfl⟩
  obtain ⟨br, hbr⟩ : ∃ br, br = (b.withData (pre ++ flat er
      ++ (flat es ++ rest).drop (flat er).length)).withNumkeys
        (es.length - (es.length + 2) / 2) := ⟨_, rfl⟩
  obtain ⟨t2, ht2⟩ : ∃ t2 : BTreeIndex, t2 = { t1 with buffercache := { t1.buffercache with
      blocks := ((t1.buffercache.blocks.set x b).set ptr bl).set x br } } := ⟨_, rfl⟩
  have hdev2 : t2.buffercache.blocks = ((t1.buffercache.blocks.set x b).set ptr bl).set x br := by
    rw [ht2]
  have heq : SplitNode g.m t ptr pk0 = some (ERROR_T.ERROR_NOERROR, x, e.1, t2) := by
    unfold SplitNode
    rw [hu0]
    simp only [halloc, Serialize_data b t1.buffercache x hxlt1 hdat, hty, if_true, hnum,
      Nat.not_lt.mpr hLn, if_false, hgk, orKeep, hcopy]
    rw [Serialize_data _ _ _ (by simpa using hptrlt) (by simpa using hdat)]
    simp only
    rw [Serialize_data _ _ _ (by simpa using hxlt1) (by simpa using hdat)]
    rw [ht2, hbl, hbr]
  have hframe : ∀ j, j ≠ ptr → j ≠ x →
      t2.buffercache.blocks[j]? = t1.buffercache.blocks[j]? := by
    intro j h1 h2
    rw [hdev2, List.getElem?_set_ne (Ne.symm h2), List.getElem?_set_ne (Ne.symm h1),
      List.getElem?_set_ne (Ne.symm h2)]
  refine ⟨t2, bl, br, el, e, er, heq, hes, hell, ?_, ?_, ?_, ?_,
    SplitNode_keeps g.m t hs ptr hptr0 pk0 _ _ _ _ heq, ?_, ?_⟩
  · rw [hdev2, List.getElem?_set_ne hxptr, List.getElem?_set_self (by simpa using hptrlt)]
  · rw [hdev2, List.getElem?_set_self (by simpa using hxlt1)]
  · rw [hbl]
    refine ⟨hty, ⟨hks, hvs, hbs, hlen⟩, ?_, ?_, hu1, pre, flat er ++ rest, hpre, ?_⟩
    · show (es.length + 2) / 2 = _
      rw [← hell]; simp
    · simp only [List.length_append, List.length_singleton]; omega
    · show b.data = _
      rw [hd2]; simp only [List.append_assoc]
  · rw [hbr]
    refine ⟨hty, ⟨hks, hvs, hbs, ?_⟩, ?_, ?_, hu2, pre, _, hpre, rfl⟩
    · show (pre ++ flat er ++ (flat es ++ rest).drop (flat er).length).length = g.D
      rw [← hlen, hd]
      simp only [List.length_append, List.length_drop] at hbody ⊢
      omega
    · show es.length - (es.length + 2) / 2 = _
      rw [herl]
    · omega
  · rw [ht2]; exact hf1
  · intro j hj0 h1 h2
    rw [hframe j h1 h2, hfr1 j hj0]

/-- SplitNode on a root or interior node with at least three keys. -/
theorem SplitNode_int_gen (g : Geom) (t : BTreeIndex) (hs : SuperOK t) (ptr : Nat)
    (b : BTreeNode) (p0 : Nat) (kps : List (KEY_T × Nat))
    (hb : t.buffercache.blocks[ptr]? = some b) (hl : IntAt g b p0 kps 0)
    (hn3 : 3 ≤ kps.length) (bx : BTreeNode) (h0 : t.superblock.info.freelist ≠ 0)
    (hbx : t.buffercache.blocks[t.superblock.info.freelist]? = some bx)
    (htyx : bx.info.nodetype = NodeType.BTREE_UNALLOCATED_BLOCK) (pk0 : KEY_T) :
    ∃ t2 bl br kl e kr,
      SplitNode g.m t ptr pk0
        = some (ERROR_T.ERROR_NOERROR, t.superblock.info.freelist, e.1, t2) ∧
      kps = kl ++ e :: kr ∧ kl.length = kps.length / 2 ∧
      t2.buffercache.blocks[ptr]? = some bl ∧
      t2.buffercache.blocks[t.superblock.info.freelist]? = some br ∧
      IntAt g bl p0 kl 0 ∧ IntAt g br e.2 kr 0 ∧
      bl.info.nodetype = b.info.nodetype ∧ br.info.nodetype = b.info.nodetype ∧ Keeps t t2 ∧
      t2.superblock.info.freelist = bx.info.freelist ∧
      (∀ j, j ≠ 0 → j ≠ ptr → j ≠ t.superblock.info.freelist →
        t2.buffercache.blocks[j]? = t.buffercache.blocks[j]?) := by
  have hdat := hl.nodeHasData
  have hl0 := hl
  obtain ⟨x, hxdef⟩ : ∃ x, x = t.superblock.info.freelist := ⟨_, rfl⟩
  rw [← hxdef] at hbx h0 ⊢
  obtain ⟨t1, halloc, hs1, hroot1, hlen1, hbs1, hks1, hvs1, hf1, hfr1⟩ :=
    AllocateNode_pop t hs false bx (by rw [← hxdef]; exact h0) (by rw [← hxdef]; exact hbx) htyx
  rw [← hxdef] at halloc
  have hxlt : x < t.buffercache.blocks.length := lt_length_of_getElem? hbx
  have hptr0 : ptr ≠ 0 := data_ne_zero hs hb hdat
  have hxptr : x ≠ ptr := by
    intro hxp
    rw [hxp, hb] at hbx
    cases hbx
    rw [htyx] at hdat
    cases hdat
  have hptrlt : ptr < t1.buffercache.blocks.length := by
    rw [hlen1]; exact lt_length_of_getElem? hb
  have hxlt1 : x < t1.buffercache.blocks.length := by rw [hlen1]; exact hxlt
  obtain ⟨hty, ⟨hks, hvs, hbs, hlen⟩, hnum, hcap0, hu, hp0, rest, hd⟩ := hl
  have hLn : kps.length / 2 + 1 < kps.length := by omega
  have hL1 : 1 ≤ kps.length / 2 := by omega
  have hnl : ¬ b.info.nodetype = NodeType.BTREE_LEAF_NODE := by
    rcases hty with h | h <;> rw [h] <;> simp
  obtain ⟨e, kr, hdrop⟩ : ∃ e kr, kps.drop (kps.length / 2) = e :: kr := by
    cases hdr : kps.drop (kps.length / 2) with
    | nil =>
      have := congrArg List.length hdr
      simp at this
      omega
    | cons e kr => exact ⟨e, kr, rfl⟩
  have hkps : kps = kps.take (kps.length / 2) ++ e :: kr := by
    rw [← hdrop, List.take_append_drop]
  have hkll : (kps.take (kps.length / 2)).length = kps.length / 2 := by
    rw [List.length_take]; omega
  generalize hKL : kps.take (kps.length / 2) = kl at hkps hkll
  have hkrl : kr.length = kps.length - kps.length / 2 - 1 := by
    have := congrArg List.length hkps
    simp only [List.length_append, List.length_cons] at this
    omega
  have hukl : ∀ e ∈ kl, e.1.length = g.keysize ∧ e.2 < 256 ^ g.P :=
    fun y hy => hu y (by rw [hkps]; exact List.mem_append_left _ hy)
  have hue : e.1.length = g.keysize ∧ e.2 < 256 ^ g.P :=
    hu e (by rw [hkps]; exact List.mem_append_right _ (List.mem_cons_self _ _))
  have hukr : ∀ e ∈ kr, e.1.length = g.keysize ∧ e.2 < 256 ^ g.P :=
    fun y hy => hu y (by rw [hkps]; exact List.mem_append_right _ (List.mem_cons_of_mem _ hy))
  have hgk : b.GetKey g.m (kps.length / 2) = .ok e.1 := by
    have := int_GetKey g b p0 kl kr e 0 (by rw [← hkps]; exact hl0)
    rw [← this, hkll]
  have hd2 : b.data = (encodeSIZE_T g.P p0 ++ flat (ptrSlots g kl) ++ e.1)
      ++ (encodeSIZE_T g.P e.2 ++ flat (ptrSlots g kr)) ++ rest := by
    rw [hd]
    conv_lhs => rw [hkps]
    simp only [ptrSlots_append, ptrSlots_cons, flat_append, flat_cons, List.append_assoc]
  have hXlen : (encodeSIZE_T g.P e.2 ++ flat (ptrSlots g kr)).length
      = g.P + kr.length * (g.keysize + g.P) := by
    rw [List.length_append, length_encodeSIZE_T,
      length_flat _ _ _ (ptrSlots_uniform g kr hukr), length_ptrSlots]
  have hXle : (encodeSIZE_T g.P e.2 ++ flat (ptrSlots g kr)).length
      ≤ (kps.length - kps.length / 2 - 1)
        * (b.info.keysize + g.m.sizeofSIZE_T + g.m.sizeofSIZE_T) := by
    rw [hXlen, ← hkrl, hks]
    have h1 : kr.length * (g.keysize + g.m.sizeofSIZE_T + g.m.sizeofSIZE_T)
        = kr.length * (g.keysize + g.P) + kr.length * g.P := by
      simp only [Geom.P]; ring
    have h2 : 1 * g.P ≤ kr.length * g.P := Nat.mul_le_mul_right _ (by omega)
    omega
  have hread : readAt b.data ((kps.length / 2 + 1) * (g.m.sizeofSIZE_T + b.info.keysize))
      ((kps.length - kps.length / 2 - 1)
        * (b.info.keysize + g.m.sizeofSIZE_T + g.m.sizeofSIZE_T))
      = (encodeSIZE_T g.P e.2 ++ flat (ptrSlots g kr))
        ++ rest.take ((kps.length - kps.length / 2 - 1)
          * (b.info.keysize + g.m.sizeofSIZE_T + g.m.sizeofSIZE_T)
          - (encodeSIZE_T g.P e.2 ++ flat (ptrSlots g kr)).length) := by
    rw [hd2]
    apply read_over _ _ _ _ _ _ hXle
    simp only [List.length_append, length_encodeSIZE_T,
      length_flat _ _ _ (ptrSlots_uniform g kl hukl), length_ptrSlots, hue.1, hkll, hks, Geom.P]
    ring
  have hXD : (encodeSIZE_T g.P e.2 ++ flat (ptrSlots g kr)).length ≤ b.data.length := by
    rw [hd2]; simp only [List.length_append]; omega
  obtain ⟨rest', hwrite⟩ := write_front b.data _ _ _ hread.symm.symm hXD
  have hrp0 : b.ResolvePtr g.m 0 = some (0 * (g.m.sizeofSIZE_T + b.info.keysize)) := by
    unfold BTreeNode.ResolvePtr
    rcases hty with h | h <;> simp only [h]
  have hrpL : b.ResolvePtr g.m (kps.length / 2 + 1)
      = some ((kps.length / 2 + 1) * (g.m.sizeofSIZE_T + b.info.keysize)) := by
    unfold BTreeNode.ResolvePtr
    rcases hty with h | h <;> simp only [h]
  have hcopy : copyBytes b.data (b.ResolvePtr g.m 0) b.data
      (b.ResolvePtr g.m (kps.length / 2 + 1))
      ((kps.length - kps.length / 2 - 1)
        * (b.info.keysize + g.m.sizeofSIZE_T + g.m.sizeofSIZE_T))
      = (encodeSIZE_T g.P e.2 ++ flat (ptrSlots g kr)) ++ rest' := by
    rw [hrp0, hrpL]
    show writeAt _ _ (readAt _ _ _) = _
    rw [Nat.zero_mul]
    exact hwrite
  have hrdlen : ((encodeSIZE_T g.P e.2 ++ flat (ptrSlots g kr)) ++ rest').length = g.D := by
    rw [← hwrite, length_writeAt, hlen]
  have hu0 := Unserialize_data BTreeNode.default t.buffercache ptr b hb hdat
  obtain ⟨bl, hbl⟩ : ∃ bl, bl = b.withNumkeys (kps.length / 2) := ⟨_, rfl⟩
  obtain ⟨br, hbr⟩ : ∃ br, br = (b.withData ((encodeSIZE_T g.P e.2 ++ flat (ptrSlots g kr))
      ++ rest')).withNumkeys (kps.length - kps.length / 2 - 1) := ⟨_, rfl⟩
  obtain ⟨t2, ht2⟩ : ∃ t2 : BTreeIndex, t2 = { t1 with buffercache := { t1.buffercache with
      blocks := ((t1.buffercache.blocks.set x b).set ptr bl).set x br } } := ⟨_, rfl⟩
  have hdev2 : t2.buffercache.blocks = ((t1.buffercache.blocks.set x b).set ptr bl).set x br := by
    rw [ht2]
  have heq : SplitNode g.m t ptr pk0 = some (ERROR_T.ERROR_NOERROR, x, e.1, t2) := by
    unfold SplitNode
    rw [hu0]
    simp only [halloc, Serialize_data b t1.buffercache x hxlt1 hdat, hnl, if_false, hnum,
      Nat.not_lt.mpr (Nat.le_of_lt hLn), hgk, orKeep, hcopy]
    rw [Serialize_data _ _ _ (by simpa using hptrlt) (by simpa using hdat)]
    simp only
    rw [Serialize_data _ _ _ (by simpa using hxlt1) (by simpa using hdat)]
    rw [ht2, hbl, hbr]
  have hframe : ∀ j, j ≠ ptr → j ≠ x →
      t2.buffercache.blocks[j]? = t1.buffercache.blocks[j]? := by
    intro j h1 h2
    rw [hdev2, List.getElem?_set_ne (Ne.symm h2), List.getElem?_set_ne (Ne.symm h1),
      List.getElem?_set_ne (Ne.symm h2)]
  refine ⟨t2, bl, br, kl, e, kr, heq, hkps, hkll, ?_, ?_, ?_, ?_, by rw [hbl]; rfl,
    by rw [hbr]; rfl, SplitNode_keeps g.m t hs ptr hptr0 pk0 _ _ _ _ heq, ?_, ?_⟩
  · rw [hdev2, List.getElem?_set_ne hxptr, List.getElem?_set_self (by simpa using hptrlt)]
  · rw [hdev2, List.getElem?_set_self (by simpa using hxlt1)]
  · rw [hbl]
    refine ⟨hty, ⟨hks, hvs, hbs, hlen⟩, ?_, ?_, hukl, hp0,
      e.1 ++ (encodeSIZE_T g.P e.2 ++ flat (ptrSlots g kr)) ++ rest, ?_⟩
    · show kps.length / 2 = _
      rw [hkll]
    · omega
    · show b.data = _
      rw [hd2]; simp only [List.append_assoc]
  · rw [hbr]
    refine ⟨hty, ⟨hks, hvs, hbs, hrdlen⟩, ?_, ?_, hukr, hue.2, rest', ?_⟩
    · show kps.length - kps.length / 2 - 1 = _
      rw [hkrl]
    · omega
    · show _ ++ rest' = _
      simp only [List.append_assoc]
  · rw [ht2]; exact hf1
  · intro j hj0 h1 h2
    rw [hframe j h1 h2, hfr1 j hj0]


/-! ## AddKeyVal on a root or interior node, whatever value is passed -/

/-- AddKeyVal on a root or interior node with keys and room: the value
argument is not looked at. -/
theorem AddKeyVal_int_gen (g : Geom) (t : BTreeIndex) (node : Nat) (b : BTreeNode) (p0 : Nat)
    (kps : List (KEY_T × Nat)) (pk : KEY_T) (v : VALUE_T) (q : Nat)
    (hb : t.buffercache.blocks[node]? = some b) (h : IntAt g b p0 kps 1) (hne : 1 ≤ kps.length)
    (hpk : pk.length = g.keysize) (hq : q < 256 ^ g.P) :
    ∃ b', AddKeyVal g.m t node pk v q = (ERROR_T.ERROR_NOERROR, t.put node b') ∧
      IntAt g b' p0 (insSlot pk (pk, q) kps) 0 ∧ b'.info.nodetype = b.info.nodetype := by
  have hdat := h.nodeHasData
  obtain ⟨hty, hhdr, hn, hcap, hu, hp0, rest, hd⟩ := h
  obtain ⟨hks, hvs, hbs, hlen⟩ := hhdr
  have hU := ptrSlots_uniform g kps hu
  have hroom := capI_room g (by omega)
  have hpre : (encodeSIZE_T g.P p0).length = g.P := length_encodeSIZE_T _ _
  have hrest : g.keysize + g.P ≤ rest.length := by
    have : b.data.length = g.P + kps.length * (g.keysize + g.P) + rest.length := by
      rw [hd]; simp only [List.length_append, hpre, length_flat _ _ _ hU, length_ptrSlots]
    have h3 : (kps.length + 1) * (g.keysize + g.P)
        ≤ g.capI * (g.keysize + g.P) := Nat.mul_le_mul_right _ hcap
    have h4 : (kps.length + 1) * (g.keysize + g.P)
        = kps.length * (g.keysize + g.P) + (g.keysize + g.P) := by ring
    omega
  have hlt := lt_length_of_getElem? hb
  have hkind : SlotKind g (b.withNumkeys (b.info.numkeys + 1)) v q g.P (encodeSIZE_T g.P q) :=
    Or.inr ⟨hty, rfl, rfl⟩
  have hz : b.info.numkeys > 0 := by omega
  have hnes : ptrSlots g kps ≠ [] := by
    intro he
    have := congrArg List.length he
    rw [length_ptrSlots, List.length_nil] at this
    omega
  have hloop := addKeyValLoop_spec g (b.withNumkeys (b.info.numkeys + 1)) pk v q g.P
    (encodeSIZE_T g.P q) (encodeSIZE_T g.P p0) rest hkind hks hvs hpk (length_encodeSIZE_T _ _)
    hpre hrest b.info.numkeys (b.info.keysize + g.m.sizeofSIZE_T) (by rw [hks]; rfl)
    (ptrSlots g kps) [] (by simpa using hU) rfl (by simpa [length_ptrSlots] using hn)
    (by simpa using hd) hnes
  simp only [List.length_nil, List.nil_append, length_ptrSlots, ← hn, ptrSlots_insSlot] at hloop
  refine ⟨(b.withNumkeys (b.info.numkeys + 1)).withData
    (encodeSIZE_T g.P p0 ++ flat (ptrSlots g (insSlot pk (pk, q) kps))
      ++ rest.drop (g.keysize + g.P)), ?_, ?_, rfl⟩
  · unfold AddKeyVal
    rw [Unserialize_data _ _ _ _ hb hdat]
    rcases hty with hty | hty <;>
    · simp only [hty, hz, if_true]
      rw [hloop]
      simp only
      rw [Serialize_data _ _ _ hlt (by simpa using hdat)]
      rfl
  · have hu' : ∀ e ∈ insSlot pk (pk, q) kps, e.1.length = g.keysize ∧ e.2 < 256 ^ g.P := by
      intro e he
      rcases (mem_insSlot pk (pk, q) e kps).mp he with he | he
      · subst he; exact ⟨hpk, hq⟩
      · exact hu e he
    refine ⟨hty, ⟨hks, hvs, hbs, ?_⟩, ?_, ?_, hu', hp0, rest.drop (g.keysize + g.P), rfl⟩
    · show (encodeSIZE_T g.P p0 ++ flat (ptrSlots g (insSlot pk (pk, q) kps))
        ++ rest.drop (g.keysize + g.P)).length = g.D
      have hU' := ptrSlots_uniform g _ hu'
      rw [← hlen, hd]
      simp only [List.length_append, length_flat _ _ _ hU', length_flat _ _ _ hU, length_insSlot,
        List.length_drop, length_ptrSlots]
      have h4 : (kps.length + 1) * (g.keysize + g.P)
          = kps.length * (g.keysize + g.P) + (g.keysize + g.P) := by ring
      omega
    · show b.info.numkeys + 1 = _
      rw [hn, length_insSlot]
    · rw [length_insSlot]; omega

/-! ## Ordered insertion into a node -/

/-- Inserting a key that is not among the strictly increasing keys of a run
gives a strictly increasing run: the old run with the new slot set in. -/
theorem insSlot_sorted {β : Type} (key : KEY_T) (e : KEY_T × β) (he : e.1 = key)
    (es : List (KEY_T × β)) (hs : es.Pairwise (fun x y => keyLt x.1 y.1 = true))
    (hne : ∀ x ∈ es, x.1 ≠ key) :
    ∃ a c, es = a ++ c ∧ insSlot key e es = a ++ e :: c ∧
      (a ++ e :: c).Pairwise (fun x y => keyLt x.1 y.1 = true) := by
  obtain ⟨a, c', hes, hins, ha, hc⟩ := insSlot_split key e es
  subst hes
  refine ⟨a, c', rfl, hins, ?_⟩
  rw [List.pairwise_append] at hs ⊢
  obtain ⟨hsa, hsc, hac⟩ := hs
  have hlt : ∀ x ∈ a, keyLt x.1 e.1 = true := by
    intro x hx
    rw [he]
    rcases keyLt_total key x.1 with h | h | h
    · rw [ha x hx] at h; cases h
    · exact absurd h.symm (hne x (List.mem_append_left _ hx))
    · exact h
  have hgt : ∀ y ∈ c', keyLt e.1 y.1 = true := by
    intro y hy
    rw [he]
    cases c' with
    | nil => cases hy
    | cons y0 r =>
      have h0 := hc y0 rfl
      rcases List.mem_cons.mp hy with rfl | hy
      · exact h0
      · exact keyLt_trans h0 ((List.pairwise_cons.mp hsc).1 y hy)
  refine ⟨hsa, List.pairwise_cons.mpr ⟨fun y hy => hgt y hy, hsc⟩, ?_⟩
  intro x hx y hy
  rcases List.mem_cons.mp hy with rfl | hy
  · exact hlt x hx
  · exact hac x hx y hy

/-! ## The claims on SplitNode and AddKeyVal -/

/-- C18: SplitNode on a leaf holding the entries `es`, at least one, when the
head of the free list is a block stored as unallocated, returns ERROR_NOERROR
with that block as the new node. The entries split as `es = el ++ e :: er` with
`el ++ [e]` of length `(n + 2) / 2`: the old block is left a leaf holding
exactly `el ++ [e]`, the new block is a leaf holding exactly `er`, in the same
order with their own values, the promoted key is the key of `e`, and the two
leaves together hold `es`. No block other than these two and the superblock
changes. -/
theorem leaf_split_halves (g : Geom) (t : BTreeIndex) (hs : SuperOK t) (node : Nat)
    (b : BTreeNode) (es : List (KEY_T × VALUE_T))
    (hb : t.buffercache.blocks[node]? = some b) (hl : LeafAt g b es 0)
    (hn : 1 ≤ es.length) (bx : BTreeNode) (h0 : t.superblock.info.freelist ≠ 0)
    (hbx : t.buffercache.blocks[t.superblock.info.freelist]? = some bx)
    (htyx : bx.info.nodetype = NodeType.BTREE_UNALLOCATED_BLOCK) (pk0 : KEY_T) :
    ∃ t2 bl br el e er,
      SplitNode g.m t node pk0
        = some (ERROR_T.ERROR_NOERROR, t.superblock.info.freelist, e.1, t2) ∧
      es = el ++ e :: er ∧ (el ++ [e]).length = (es.length + 2) / 2 ∧
      t2.buffercache.blocks[node]? = some bl ∧ LeafAt g bl (el ++ [e]) 0 ∧
      t2.buffercache.blocks[t.superblock.info.freelist]? = some br ∧ LeafAt g br er 0 ∧
      (el ++ [e]) ++ er = es ∧
      (∀ j, j ≠ 0 → j ≠ node → j ≠ t.superblock.info.freelist →
        t2.buffercache.blocks[j]? = t.buffercache.blocks[j]?) := by
  obtain ⟨t2, bl, br, el, e, er, h1, h2, h3, h4, h5, h6, h7, _, _, h10⟩ :=
    SplitNode_leaf_gen g t hs node b es hb hl hn bx h0 hbx htyx pk0
  refine ⟨t2, bl, br, el, e, er, h1, h2, ?_, h4, h6, h5, h7, ?_, h10⟩
  · rw [List.length_append, List.length_singleton]; exact h3
  · rw [h2]; simp

/-- C19 (amended): SplitNode on a root or interior node with leftmost pointer
`p0` and at least three separators `kps`, each with the pointer to its right,
when the head of the free list is a block stored as unallocated, returns
ERROR_NOERROR with that block as the new node. The separators split as
`kps = kl ++ e :: kr` with `kl` of length `n / 2`: the promoted key is the key
of `e`, the old block keeps `p0` and `kl`, the new block holds the pointer of
`e` as its leftmost pointer and `kr`; the children of the two halves together
are the children of the node, in order, and both halves keep the node type. -/
theorem interior_split_halves (g : Geom) (t : BTreeIndex) (hs : SuperOK t) (node : Nat)
    (b : BTreeNode) (p0 : Nat) (kps : List (KEY_T × Nat))
    (hb : t.buffercache.blocks[node]? = some b) (hl : IntAt g b p0 kps 0)
    (hn : 3 ≤ kps.length) (bx : BTreeNode) (h0 : t.superblock.info.freelist ≠ 0)
    (hbx : t.buffercache.blocks[t.superblock.info.freelist]? = some bx)
    (htyx : bx.info.nodetype = NodeType.BTREE_UNALLOCATED_BLOCK) (pk0 : KEY_T) :
    ∃ t2 bl br kl e kr,
      SplitNode g.m t node pk0
        = some (ERROR_T.ERROR_NOERROR, t.superblock.info.freelist, e.1, t2) ∧
      kps = kl ++ e :: kr ∧ kl.length = kps.length / 2 ∧
      t2.buffercache.blocks[node]? = some bl ∧ IntAt g bl p0 kl 0 ∧
      t2.buffercache.blocks[t.superblock.info.freelist]? = some br ∧ IntAt g br e.2 kr 0 ∧
      kidsOf p0 kl ++ kidsOf e.2 kr = kidsOf p0 kps ∧
      (∀ x ∈ kl ++ kr, x ∈ kps) ∧
      bl.info.nodetype = b.info.nodetype ∧ br.info.nodetype = b.info.nodetype ∧
      (∀ j, j ≠ 0 → j ≠ node → j ≠ t.superblock.info.freelist →
        t2.buffercache.blocks[j]? = t.buffercache.blocks[j]?) := by
  obtain ⟨t2, bl, br, kl, e, kr, h1, h2, h3, h4, h5, h6, h7, h8, h9, _, _, h12⟩ :=
    SplitNode_int_gen g t hs node b p0 kps hb hl hn bx h0 hbx htyx pk0
  refine ⟨t2, bl, br, kl, e, kr, h1, h2, h3, h4, h6, h5, h7, ?_, ?_, h8, h9, h12⟩
  · rw [h2]; simp [kidsOf]
  · intro x hx
    rw [h2]
    rcases List.mem_append.mp hx with hx | hx
    · exact List.mem_append_left _ hx
    · exact List.mem_append_right _ (List.mem_cons_of_mem _ hx)

/-- C20 (amended): AddKeyVal with a key of the tree's key size that is not
among the strictly increasing keys of a node with room for one more. On a leaf
holding `es` (a node without keys included) and a value of the tree's value
size it returns ERROR_NOERROR and rewrites the block as the leaf holding `es`
with `(key, value)` set in at its place in key order, every old entry with its
own value. On a root or interior node with at least one key it returns
ERROR_NOERROR and rewrites the block as the node with the same leftmost pointer
and `(key, child)` set in among the separators at its place in key order:
`child` is the pointer right of `key`, the old pointers keep their order. In
both cases numkeys grows by one, the keys stay strictly increasing and the node
type is kept. -/
theorem add_key_val_ordered (g : Geom) (t : BTreeIndex) (node : Nat) (b : BTreeNode)
    (hb : t.buffercache.blocks[node]? = some b) (key : KEY_T)
    (hkey : key.length = g.keysize) (value : VALUE_T) (child : Nat) :
    (∀ es, LeafAt g b es 1 → value.length = g.valuesize →
      es.Pairwise (fun x y => keyLt x.1 y.1 = true) → (∀ e ∈ es, e.1 ≠ key) →
      ∃ b' es1 es2,
        AddKeyVal g.m t node key value child = (ERROR_T.ERROR_NOERROR, t.put node b') ∧
        es = es1 ++ es2 ∧ LeafAt g b' (es1 ++ (key, value) :: es2) 0 ∧
        b'.info.numkeys = b.info.numkeys + 1 ∧
        (es1 ++ (key, value) :: es2).Pairwise (fun x y => keyLt x.1 y.1 = true)) ∧
    (∀ p0 kps, IntAt g b p0 kps 1 → 1 ≤ kps.length → child < 256 ^ g.P →
      kps.Pairwise (fun x y => keyLt x.1 y.1 = true) → (∀ e ∈ kps, e.1 ≠ key) →
      ∃ b' k1 k2,
        AddKeyVal g.m t node key value child = (ERROR_T.ERROR_NOERROR, t.put node b') ∧
        kps = k1 ++ k2 ∧ IntAt g b' p0 (k1 ++ (key, child) :: k2) 0 ∧
        b'.info.nodetype = b.info.nodetype ∧ b'.info.numkeys = b.info.numkeys + 1 ∧
        (k1 ++ (key, child) :: k2).Pairwise (fun x y => keyLt x.1 y.1 = true)) := by
  constructor
  · intro es hl hv hsorted hne
    obtain ⟨b', hadd, hl'⟩ := AddKeyVal_leaf g t node b es key value child hb hl hkey hv
    obtain ⟨a, c, hes, hins, hs'⟩ := insSlot_sorted key (key, value) rfl es hsorted hne
    rw [hins] at hl'
    refine ⟨b', a, c, hadd, hes, hl', ?_, hs'⟩
    rw [hl'.2.2.1, hl.2.2.1, hes]
    simp only [List.length_append, List.length_cons]
    omega
  · intro p0 kps hint hk1 hq hsorted hne
    obtain ⟨b', hadd, hint', hty'⟩ :=
      AddKeyVal_int_gen g t node b p0 kps key value child hb hint hk1 hkey hq
    obtain ⟨a, c, hes, hins, hs'⟩ := insSlot_sorted key (key, child) rfl kps hsorted hne
    rw [hins] at hint'
    refine ⟨b', a, c, hadd, hes, hint', hty', ?_, hs'⟩
    rw [hint'.2.2.1, hint.2.2.1, hes]
    simp only [List.length_append, List.length_cons]
    omega


/-! ## NeedToSplit on a well-formed node -/

theorem NeedToSplit_leaf (g : Geom) (t : BTreeIndex) (blk : Nat) (b : BTreeNode)
    (es : List (KEY_T × VALUE_T)) (s : Nat) (hb : t.buffercache.blocks[blk]? = some b)
    (hl : LeafAt g b es s) : NeedToSplit g.m t blk = decide (g.capL = es.length) := by
  unfold NeedToSplit
  rw [Unserialize_data _ _ _ _ hb hl.leafHasData]
  simp only [hl.1, slots_leaf_of_hdr g b hl.2.1, hl.2.2.1]

theorem NeedToSplit_int (g : Geom) (t : BTreeIndex) (blk : Nat) (b : BTreeNode) (p0 : Nat)
    (kps : List (KEY_T × Nat)) (s : Nat) (hb : t.buffercache.blocks[blk]? = some b)
    (hl : IntAt g b p0 kps s) : NeedToSplit g.m t blk = decide (g.capI = kps.length) := by
  unfold NeedToSplit
  rw [Unserialize_data _ _ _ _ hb hl.nodeHasData]
  rcases hl.1 with hty | hty <;>
    simp only [hty, slots_int_of_hdr g b hl.2.1, hl.2.2.1]

theorem Node_unsplit (g : Geom) (t : BTreeIndex) (h ptr : Nat) (lo hi : Option KEY_T)
    (c : List (KEY_T × VALUE_T)) (o : Finset Nat)
    (hn : Node g t.buffercache.blocks h ptr lo hi c o 0)
    (hns : NeedToSplit g.m t ptr = false) : Node g t.buffercache.blocks h ptr lo hi c o 1 := by
  cases h with
  | zero =>
    obtain ⟨b, hb, hl, hs1, hr, ho⟩ := hn
    rw [NeedToSplit_leaf g t ptr b c 0 hb hl] at hns
    have hne : g.capL ≠ c.length := by simpa using hns
    obtain ⟨h1, h2, h3, h4, h5⟩ := hl
    exact ⟨b, hb, ⟨h1, h2, h3, by omega, h5⟩, hs1, hr, ho⟩
  | succ h =>
    obtain ⟨b, p0, kps, o1, hb, hi', hne1, hni, ho, hk⟩ := hn
    rw [NeedToSplit_int g t ptr b p0 kps 0 hb hi'] at hns
    have hne : g.capI ≠ kps.length := by simpa using hns
    obtain ⟨h1, h2, h3, h4, h5⟩ := hi'
    exact ⟨b, p0, kps, o1, hb, ⟨h1, h2, h3, by omega, h5⟩, hne1, hni, ho, hk⟩

/-! ## Splitting a full subtree root -/

theorem split_spec (g : Geom) (hL : 3 ≤ g.capL) (hI : 3 ≤ g.capI) (t : BTreeIndex)
    (hs : SuperOK t) (h ptr : Nat) (lo hi : Option KEY_T) (c : List (KEY_T × VALUE_T))
    (o : Finset Nat) (hn : Node g t.buffercache.blocks h ptr lo hi c o 0)
    (hsp : NeedToSplit g.m t ptr = true) (x : Nat) (xs : List Nat)
    (hf : FreeChain t.buffercache.blocks t.superblock.info.freelist (x :: xs)) :
    ∃ t2 pk cl cr ol orr, SplitNode g.m t ptr [] = some (ERROR_T.ERROR_NOERROR, x, pk, t2) ∧
      c = cl ++ cr ∧
      Node g t2.buffercache.blocks h ptr lo (some pk) cl ol 1 ∧
      Node g t2.buffercache.blocks h x (some pk) hi cr orr 1 ∧
      ol ∪ orr = insert x o ∧ Disjoint ol orr ∧ above lo pk ∧ sbelow pk hi ∧
      pk.length = g.keysize ∧ Keeps t t2 ∧
      FreeChain t2.buffercache.blocks t2.superblock.info.freelist xs ∧
      (∀ j, j ≠ 0 → j ∉ o → j ≠ x → t2.buffercache.blocks[j]? = t.buffercache.blocks[j]?) := by
  have hx0 : x ≠ 0 := (FreeChain_mem _ _ _ hf x (List.mem_cons_self _ _)).1
  have hxo : x ∉ o := fun hx => owned_not_free hn hf x hx (List.mem_cons_self _ _)
  have ho0 : ∀ j ∈ o, j ≠ 0 := owned_ne_zero hs hn
  have hptro : ptr ∈ o := Node_root_mem g _ _ _ _ _ _ _ _ hn
  have hxptr : x ≠ ptr := fun he => hxo (he ▸ hptro)
  cases h with
  | zero =>
    obtain ⟨b, hb, hl, hs1, hr, ho⟩ := hn
    rw [NeedToSplit_leaf g t ptr b c 0 hb hl] at hsp
    have hfull : c.length = g.capL := by
      have : g.capL = c.length := by simpa using hsp
      exact this.symm
    obtain ⟨t2, bl, br, el, e, er, heq, hes, her, hbl, hbr, hll, hlr, hkeep, hf2, hfr⟩ :=
      SplitNode_leaf g t hs ptr b c hb hl hfull hL x xs hf []
    subst hes
    have hs2 : (el ++ [e] ++ er).Pairwise (fun x y => keyLt x.1 y.1 = true) := by
      simpa using hs1
    rw [List.pairwise_append] at hs2
    obtain ⟨hsl, hsr, hlr2⟩ := hs2
    have hele : ∀ y ∈ el ++ [e], keyLt y.1 e.1 = true ∨ y.1 = e.1 := by
      intro y hy
      rcases List.mem_append.mp hy with hy | hy
      · left
        rw [List.pairwise_append] at hsl
        exact hsl.2.2 y hy e (List.mem_singleton_self _)
      · right
        rw [List.mem_singleton.mp hy]
    have her2 : ∀ y ∈ er, keyLt e.1 y.1 = true :=
      fun y hy => hlr2 e (List.mem_append_right _ (List.mem_singleton_self _)) y hy
    have hre := hr e (List.mem_append_right _ (List.mem_cons_self _ _))
    obtain ⟨y, ys, hys⟩ : ∃ y ys, er = y :: ys := by
      cases er with
      | nil => exact absurd rfl her
      | cons y ys => exact ⟨y, ys, rfl⟩
    have hyr := hr y (by rw [hys]; simp)
    refine ⟨t2, e.1, el ++ [e], er, {ptr}, {x}, heq, by simp, ?_, ?_, ?_, ?_, hre.1,
      sbelow_of_lt (her2 y (by rw [hys]; simp)) hyr.2, ?_, hkeep, hf2, ?_⟩
    · refine ⟨bl, hbl, hll, hsl, ?_, rfl⟩
      intro y hy
      exact ⟨(hr y (by
        rcases List.mem_append.mp hy with hy | hy
        · exact List.mem_append_left _ hy
        · rw [List.mem_singleton.mp hy]
          exact List.mem_append_right _ (List.mem_cons_self _ _))).1,
        below_some.mpr (hele y hy)⟩
    · refine ⟨br, hbr, hlr, hsr, ?_, rfl⟩
      intro y hy
      exact ⟨above_some.mpr (her2 y hy),
        (hr y (List.mem_append_right _ (List.mem_cons_of_mem _ hy))).2⟩
    · rw [ho]; ext a; simp only [Finset.mem_union, Finset.mem_singleton, Finset.mem_insert]; tauto
    · rw [Finset.disjoint_singleton]; exact hxptr.symm
    · exact (hll.2.2.2.2.1 e (List.mem_append_right _ (List.mem_singleton_self _))).1
    · intro j h0 hjo hjx
      apply hfr j h0 _ hjx
      rintro rfl
      exact hjo hptro
  | succ h =>
    obtain ⟨b, p0, kps, o1, hb, hint, hne1, hni, ho, hk⟩ := hn
    rw [NeedToSplit_int g t ptr b p0 kps 0 hb hint] at hsp
    have hfull : kps.length = g.capI := by
      have : g.capI = kps.length := by simpa using hsp
      exact this.symm
    obtain ⟨t2, bl, br, kl, e, kr, heq, hkps, hkl1, hkr1, hbl, hbr, hil, hir, hkeep, hf2, hfr⟩ :=
      SplitNode_int g t hs ptr b p0 kps hb hint hfull hI x xs hf []
    subst hkps
    obtain ⟨hae, hbe, cl, ol, cr, orr, hKl, hKr, hc, ho1, hdis⟩ := Kids_cut e kr kl _ _ _ _ _ hk
    have hxo1 : x ∉ o1 := fun hx => hxo (by rw [ho]; exact Finset.mem_insert_of_mem hx)
    have hmap : ∀ q l u c1 o2, o2 ⊆ o1 → Node g t.buffercache.blocks h q l u c1 o2 1 →
        Node g t2.buffercache.blocks h q l u c1 o2 1 := by
      intro q l u c1 o2 hsub hq
      apply Node_frame g _ _ _ _ _ _ _ _ _ hq
      intro j hj
      have hj1 : j ∈ o1 := hsub hj
      apply hfr j (ho0 j (by rw [ho]; exact Finset.mem_insert_of_mem hj1))
      · rintro rfl; exact hni hj1
      · rintro rfl; exact hxo1 hj1
    refine ⟨t2, e.1, cl, cr, insert ptr ol, insert x orr, heq, hc, ?_, ?_, ?_, ?_, hae, hbe,
      (hint.2.2.2.2.1 e (List.mem_append_right _ (List.mem_cons_self _ _))).1, hkeep, hf2, ?_⟩
    · refine ⟨bl, p0, kl, ol, hbl, hil, hkl1, ?_, rfl, ?_⟩
      · intro hp; exact hni (by rw [ho1]; exact Finset.mem_union_left _ hp)
      · exact Kids_mono _ _ _ _ _ _ (fun q l u c1 o2 hsub hq => hmap q l u c1 o2
          (hsub.trans (by rw [ho1]; exact Finset.subset_union_left)) hq) hKl
    · refine ⟨br, e.2, kr, orr, hbr, hir, hkr1, ?_, rfl, ?_⟩
      · intro hp; exact hxo1 (by rw [ho1]; exact Finset.mem_union_right _ hp)
      · exact Kids_mono _ _ _ _ _ _ (fun q l u c1 o2 hsub hq => hmap q l u c1 o2
          (hsub.trans (by rw [ho1]; exact Finset.subset_union_right)) hq) hKr
    · rw [ho, ho1]; ext a
      simp only [Finset.mem_union, Finset.mem_insert]; tauto
    · rw [Finset.disjoint_insert_left, Finset.disjoint_insert_right, Finset.mem_insert]
      refine ⟨?_, ?_, hdis⟩
      · rintro (hp | hp)
        · exact hxptr hp.symm
        · exact hni (by rw [ho1]; exact Finset.mem_union_right _ hp)
      · intro hp; exact hxo1 (by rw [ho1]; exact Finset.mem_union_left _ hp)
    · intro j h0 hjo hjx
      apply hfr j h0 _ hjx
      rintro rfl
      exact hjo hptro


/-! ## Insertion into a sorted run -/

theorem sorted_insSlot (key : KEY_T) (v : VALUE_T) (c : List (KEY_T × VALUE_T))
    (hs : c.Pairwise (fun x y => keyLt x.1 y.1 = true)) (hnone : assoc key c = none) :
    ∃ c1 c2, c = c1 ++ c2 ∧ insSlot key (key, v) c = c1 ++ (key, v) :: c2 ∧
      (c1 ++ (key, v) :: c2).Pairwise (fun x y => keyLt x.1 y.1 = true) := by
  obtain ⟨a, c', hes, hins, ha, hc⟩ := insSlot_split key (key, v) c
  subst hes
  refine ⟨a, c', rfl, hins, ?_⟩
  have hne := assoc_none_ne key _ hnone
  rw [List.pairwise_append] at hs ⊢
  obtain ⟨hsa, hsc, hac⟩ := hs
  have hlt : ∀ x ∈ a, keyLt x.1 key = true := by
    intro x hx
    rcases keyLt_total key x.1 with h | h | h
    · rw [ha x hx] at h; cases h
    · exact absurd h.symm (hne x (List.mem_append_left _ hx))
    · exact h
  have hgt : ∀ y ∈ c', keyLt key y.1 = true := by
    intro y hy
    cases c' with
    | nil => cases hy
    | cons y0 r =>
      have h0 := hc y0 rfl
      rcases List.mem_cons.mp hy with rfl | hy
      · exact h0
      · exact keyLt_trans h0 ((List.pairwise_cons.mp hsc).1 y hy)
  refine ⟨hsa, List.pairwise_cons.mpr ⟨fun y hy => hgt y hy, hsc⟩, ?_⟩
  intro x hx y hy
  rcases List.mem_cons.mp hy with rfl | hy
  · exact hlt x hx
  · exact hac x hx y hy

/-! ## The descent of an insert -/

theorem SearchInternal2_leaf (m : Machine) (f : Nat) (t : BTreeIndex) (blk : Nat) (key : KEY_T)
    (v : VALUE_T) (parent : Nat) (b : BTreeNode)
    (hu : BTreeNode.default.Unserialize t.buffercache blk = (ERROR_T.ERROR_NOERROR, b))
    (hty : b.info.nodetype = NodeType.BTREE_LEAF_NODE) :
    SearchInternal2 m (f + 1) t blk key v parent = some (AddKeyVal m t blk key v 0) := by
  rw [SearchInternal2, hu]
  simp only [hty]

theorem SearchInternal2_int (m : Machine) (f : Nat) (t : BTreeIndex) (blk : Nat) (key : KEY_T)
    (v : VALUE_T) (parent : Nat) (b : BTreeNode) (ptr : Nat)
    (hu : BTreeNode.default.Unserialize t.buffercache blk = (ERROR_T.ERROR_NOERROR, b))
    (hty : b.info.nodetype = NodeType.BTREE_ROOT_NODE ∨
      b.info.nodetype = NodeType.BTREE_INTERIOR_NODE)
    (hp : pickChild m b key = .ok ptr) :
    (∀ t1, SearchInternal2 m f t ptr key v blk = some (ERROR_T.ERROR_NOERROR, t1) →
      SearchInternal2 m (f + 1) t blk key v parent = splitChild m t1 blk ptr) ∧
    (∀ rc t1, SearchInternal2 m f t ptr key v blk = some (rc, t1) → rc ≠ ERROR_T.ERROR_NOERROR →
      SearchInternal2 m (f + 1) t blk key v parent = some (rc, t1)) := by
  constructor
  · intro t1 h1
    rw [SearchInternal2, hu]
    rcases hty with hty | hty <;> simp only [hty, hp, h1]
  · intro rc t1 h1 hrc
    rw [SearchInternal2, hu]
    cases rc <;> first
      | exact absurd rfl hrc
      | (rcases hty with hty | hty <;> simp only [hty, hp, h1])

theorem descent_spec (g : Geom) (hL : 3 ≤ g.capL) (hI : 3 ≤ g.capI) (key : KEY_T) (v : VALUE_T)
    (hkey : key.length = g.keysize) (hv : v.length = g.valuesize) :
    ∀ (h fuel : Nat) (t : BTreeIndex) (blk parent : Nat) (lo hi : Option KEY_T)
      (c : List (KEY_T × VALUE_T)) (o : Finset Nat) (fl : List Nat),
      h < fuel → SuperOK t → t.buffercache.blocks.length ≤ 256 ^ g.P →
      Node g t.buffercache.blocks h blk lo hi c o 1 →
      FreeChain t.buffercache.blocks t.superblock.info.freelist fl →
      above lo key → below key hi → assoc key c = none →
      (∃ t1 c1 c2 o' used fl',
        SearchInternal2 g.m fuel t blk key v parent = some (ERROR_T.ERROR_NOERROR, t1) ∧
        c = c1 ++ c2 ∧ Node g t1.buffercache.blocks h blk lo hi (c1 ++ (key, v) :: c2) o' 0 ∧
        fl = used ++ fl' ∧ FreeChain t1.buffercache.blocks t1.superblock.info.freelist fl' ∧
        (∀ j ∈ o', j ∈ o ∨ j ∈ used) ∧ Keeps t t1 ∧
        (∀ j, j ≠ 0 → j ∉ o → j ∉ fl → t1.buffercache.blocks[j]? = t.buffercache.blocks[j]?)) ∨
      (∃ rc t1, SearchInternal2 g.m fuel t blk key v parent = some (rc, t1) ∧
        rc ≠ ERROR_T.ERROR_NOERROR ∧
        t1.buffercache.blocks[blk]? = t.buffercache.blocks[blk]? ∧
        (∀ j, j ≠ 0 → j ∉ o → j ∉ fl → t1.buffercache.blocks[j]? = t.buffercache.blocks[j]?)) := by
  intro h
  induction h with
  | zero =>
    intro fuel t blk parent lo hi c o fl hf hs hN hn hfl ha hb hnone
    left
    obtain ⟨f, rfl⟩ : ∃ f, fuel = f + 1 := ⟨fuel - 1, by omega⟩
    have hno := owned_not_free hn hfl
    obtain ⟨b, hblk, hl, hs1, hr, ho⟩ := hn
    have hu := Unserialize_data BTreeNode.default t.buffercache blk b hblk hl.leafHasData
    obtain ⟨b', hadd, hl'⟩ := AddKeyVal_leaf g t blk b c key v 0 hblk hl hkey hv
    obtain ⟨c1, c2, hc, hins, hsorted⟩ := sorted_insSlot key v c hs1 hnone
    have hlt := lt_length_of_getElem? hblk
    have hkeep := AddKeyVal_keeps g.m t hs blk key v 0
    rw [hadd] at hkeep
    refine ⟨t.put blk b', c1, c2, o, [], fl, ?_, hc, ?_, rfl, ?_, fun j hj => Or.inl hj,
      hkeep, ?_⟩
    · rw [SearchInternal2_leaf g.m f t blk key v parent b hu hl.1, hadd]
    · refine ⟨b', ?_, by rw [← hins]; exact hl', hsorted, ?_, ho⟩
      · show (t.buffercache.blocks.set blk b')[blk]? = some b'
        rw [List.getElem?_set_self hlt]
      · intro e he
        rcases List.mem_append.mp he with he | he
        · exact hr e (by rw [hc]; exact List.mem_append_left _ he)
        · rcases List.mem_cons.mp he with rfl | he
          · exact ⟨ha, hb⟩
          · exact hr e (by rw [hc]; exact List.mem_append_right _ he)
    · apply FreeChain_frame _ _ _ _ hfl
      intro j hj
      show (t.buffercache.blocks.set blk b')[j]? = _
      rw [List.getElem?_set_ne]
      rintro rfl
      exact hno blk (by rw [ho]; exact Finset.mem_singleton_self _) hj
    · intro j _ hjo _
      show (t.buffercache.blocks.set blk b')[j]? = _
      rw [List.getElem?_set_ne]
      rintro rfl
      exact hjo (by rw [ho]; exact Finset.mem_singleton_self _)
  | succ h ih =>
    intro fuel t blk parent lo hi c o fl hf hs hN hn hfl ha hb hnone
    obtain ⟨f, rfl⟩ : ∃ f, fuel = f + 1 := ⟨fuel - 1, by omega⟩
    have hno := owned_not_free hn hfl
    have ho0 := owned_ne_zero hs hn
    obtain ⟨b, p0, kps, o1, hblk, hint, hne, hni, ho, hk⟩ := hn
    have hblko : blk ∈ o := by rw [ho]; exact Finset.mem_insert_self _ _
    have ho1o : ∀ j ∈ o1, j ∈ o := fun j hj => by rw [ho]; exact Finset.mem_insert_of_mem hj
    have hu := Unserialize_data BTreeNode.default t.buffercache blk b hblk hint.nodeHasData
    have hp := pickChild_spec g b p0 1 kps key hint hne
    obtain ⟨k1, k2, lo1, hi1, ca, cc, cb, oc, orest, hkps, hpick, hc, ho1, hd, hSc, ha1, hb1,
      hlo, hhi, hca, hcb, R1, R2, R3⟩ := Kids_pick key
        (fun q l u c1 o2 hq => Node_range g _ _ _ _ _ _ _ _ hq) _ _ _ _ _ _ hk ha hb
    rw [hpick] at hp
    have hoco : ∀ j ∈ oc, j ∈ o := fun j hj => ho1o j (by rw [ho1]; exact Finset.mem_union_left _ hj)
    have horo : ∀ j ∈ orest, j ∈ o :=
      fun j hj => ho1o j (by rw [ho1]; exact Finset.mem_union_right _ hj)
    have hblkoc : blk ∉ oc := fun hj => hni (by rw [ho1]; exact Finset.mem_union_left _ hj)
    have hblkor : blk ∉ orest := fun hj => hni (by rw [ho1]; exact Finset.mem_union_right _ hj)
    have hncc : assoc key cc = none := by
      rw [hc, assoc_mid key ca cc cb hca hcb] at hnone
      exact hnone
    obtain ⟨hstepA, hstepB⟩ := SearchInternal2_int g.m f t blk key v parent b _ hu hint.1 hp
    rcases ih f t (lastPtr p0 k1) blk lo1 hi1 cc oc fl (by omega) hs hN hSc hfl ha1 hb1 hncc with
      ⟨t1, cc1, cc2, oc', used, fl', hrun, hcc, hnode1, hflu, hfl1, hsub, hkeep1, hfr1⟩ |
      ⟨rc, t1, hrun, hrc, _, hfr1⟩
    swap
    · right
      refine ⟨rc, t1, hstepB rc t1 hrun hrc, hrc, ?_, ?_⟩
      · exact hfr1 blk (ho0 blk hblko) hblkoc (hno blk hblko)
      · intro j h0 hjo hjf
        exact hfr1 j h0 (fun hj => hjo (hoco j hj)) hjf
    have hs1 : SuperOK t1 := hkeep1.1
    have hused : ∀ j ∈ used, j ∈ fl := fun j hj => by rw [hflu]; exact List.mem_append_left _ hj
    have hfl'fl : ∀ j ∈ fl', j ∈ fl := fun j hj => by rw [hflu]; exact List.mem_append_right _ hj
    have hblk1 : t1.buffercache.blocks[blk]? = some b := by
      rw [hfr1 blk (ho0 blk hblko) hblkoc (hno blk hblko)]; exact hblk
    have hblkoc' : blk ∉ oc' := by
      intro hj
      rcases hsub blk hj with h1 | h1
      · exact hblkoc h1
      · exact hno blk hblko (hused blk h1)
    have hdis' : Disjoint oc' orest := by
      rw [Finset.disjoint_left]
      intro j hj hjr
      rcases hsub j hj with h1 | h1
      · exact (Finset.disjoint_left.mp hd) h1 hjr
      · exact hno j (horo j hjr) (hused j h1)
    have hsib1 : ∀ j ∈ orest, t1.buffercache.blocks[j]? = t.buffercache.blocks[j]? := by
      intro j hj
      exact hfr1 j (ho0 j (horo j hj)) (fun h1 => (Finset.disjoint_left.mp hd) h1 hj)
        (hno j (horo j hj))
    have hcnew : ca ++ (cc1 ++ (key, v) :: cc2) ++ cb = (ca ++ cc1) ++ (key, v) :: (cc2 ++ cb) := by
      simp
    have hcold : c = (ca ++ cc1) ++ (cc2 ++ cb) := by
      rw [hc, hcc]; simp
    rw [hstepA t1 hrun]
    by_cases hsp : NeedToSplit g.m t1 (lastPtr p0 k1) = true
    swap
    · -- the child is not full
      left
      have hsp' : NeedToSplit g.m t1 (lastPtr p0 k1) = false := by
        cases hx : NeedToSplit g.m t1 (lastPtr p0 k1)
        · rfl
        · exact absurd hx hsp
      have hnode2 := Node_unsplit g t1 h _ _ _ _ _ hnode1 hsp'
      refine ⟨t1, ca ++ cc1, cc2 ++ cb, insert blk (oc' ∪ orest), used, fl', ?_, hcold, ?_, hflu,
        hfl1, ?_, hkeep1, ?_⟩
      · unfold splitChild
        simp only [hsp', Bool.false_eq_true, if_false]
      · refine ⟨b, p0, kps, oc' ∪ orest, hblk1, hint.nodeWeaken 0 (by omega), hne, ?_, rfl, ?_⟩
        · rw [Finset.mem_union]
          rintro (h1 | h1)
          · exact hblkoc' h1
          · exact hblkor h1
        · rw [← hcnew]
          apply R1 (fun p l u c3 o2 => Node g t1.buffercache.blocks h p l u c3 o2 1) _ _ _ hdis'
            hnode2
          intro q l u c3 o3 hsub3 hq
          exact Node_frame g _ _ _ _ _ _ _ _ _ hq (fun j hj => hsib1 j (hsub3 hj))
      · intro j hj
        rcases Finset.mem_insert.mp hj with rfl | hj
        · exact Or.inl hblko
        · rcases Finset.mem_union.mp hj with hj | hj
          · rcases hsub j hj with h1 | h1
            · exact Or.inl (hoco j h1)
            · exact Or.inr h1
          · exact Or.inl (horo j hj)
      · intro j h0 hjo hjf
        exact hfr1 j h0 (fun hj => hjo (hoco j hj)) hjf
    · -- the child is full
      cases fl' with
      | nil =>
        right
        have hhead : t1.superblock.info.freelist = 0 := hfl1
        refine ⟨ERROR_T.ERROR_NOSPACE, t1, ?_, by simp, ?_, ?_⟩
        · unfold splitChild
          simp only [hsp, if_true]
          unfold SplitNode
          simp only [AllocateNode_nospace t1 hhead]
        · exact hfr1 blk (ho0 blk hblko) hblkoc (hno blk hblko)
        · intro j h0 hjo hjf
          exact hfr1 j h0 (fun hj => hjo (hoco j hj)) hjf
      | cons x xs =>
        left
        obtain ⟨t2, pk, cl, cr, ol, orr, hsplit, hclr, hnl, hnr, holr, hdlr, hapk, hbpk, hpkl,
          hkeep2, hfl2, hfr2⟩ := split_spec g hL hI t1 hs1 h _ _ _ _ _ hnode1 hsp x xs hfl1
        have hxfl : x ∈ fl := hfl'fl x (List.mem_cons_self _ _)
        have hx0 : x ≠ 0 := (FreeChain_mem _ _ _ hfl1 x (List.mem_cons_self _ _)).1
        have hxo : x ∉ o := fun hx => hno x hx hxfl
        have hxlt : x < t1.buffercache.blocks.length := by
          obtain ⟨_, bx, hbx, _⟩ := FreeChain_mem _ _ _ hfl1 x (List.mem_cons_self _ _)
          exact lt_length_of_getElem? hbx
        have hx256 : x < 256 ^ g.P := by
          have := hkeep1.2.2.1
          omega
        have hxblk : blk ≠ x := fun he => hxo (he ▸ hblko)
        have hblk2 : t2.buffercache.blocks[blk]? = some b := by
          rw [hfr2 blk (ho0 blk hblko) hblkoc' hxblk]; exact hblk1
        obtain ⟨b', hadd, hint', hty'⟩ := AddKeyVal_int g t2 blk b p0 kps pk x hblk2 hint hne
          hpkl hx256
        rw [R3 pk x hapk hbpk] at hint'
        have hkeep3 := AddKeyVal_keeps g.m t2 hkeep2.1 blk pk [] x
        rw [hadd] at hkeep3
        have hlt2 := lt_length_of_getElem? hblk2
        have hmem_lr : ∀ j, j ∈ ol ∪ orr ↔ j = x ∨ j ∈ oc' := by
          intro j; rw [holr, Finset.mem_insert]
        have hxor : x ∉ orest := fun hx => hxo (horo x hx)
        have hdl : Disjoint ol orest := by
          rw [Finset.disjoint_left]
          intro j hj hjr
          rcases (hmem_lr j).mp (Finset.mem_union_left _ hj) with rfl | h1
          · exact hxor hjr
          · exact (Finset.disjoint_left.mp hdis') h1 hjr
        have hdr : Disjoint orr orest := by
          rw [Finset.disjoint_left]
          intro j hj hjr
          rcases (hmem_lr j).mp (Finset.mem_union_right _ hj) with rfl | h1
          · exact hxor hjr
          · exact (Finset.disjoint_left.mp hdis') h1 hjr
        have hblklr : blk ∉ ol ∪ orr := by
          intro hj
          rcases (hmem_lr blk).mp hj with h1 | h1
          · exact hxblk h1
          · exact hblkoc' h1
        have hset : ∀ j, j ≠ blk →
            (t2.put blk b').buffercache.blocks[j]? = t2.buffercache.blocks[j]? := by
          intro j hj
          show (t2.buffercache.blocks.set blk b')[j]? = _
          rw [List.getElem?_set_ne (Ne.symm hj)]
        refine ⟨t2.put blk b', ca ++ cc1, cc2 ++ cb, insert blk (ol ∪ orr ∪ orest), used ++ [x],
          xs, ?_, hcold, ?_, ?_, ?_, ?_, (hkeep1.trans hkeep2).trans hkeep3, ?_⟩
        · unfold splitChild
          simp only [hsp, if_true, hsplit, hadd]
        · refine ⟨b', p0, k1 ++ (pk, x) :: k2, ol ∪ orr ∪ orest, ?_, hint',
            by simp only [List.length_append, List.length_cons]; omega, ?_, rfl, ?_⟩
          · show (t2.buffercache.blocks.set blk b')[blk]? = some b'
            rw [List.getElem?_set_self hlt2]
          · rw [Finset.mem_union]
            rintro (h1 | h1)
            · exact hblklr h1
            · exact hblkor h1
          · rw [← hcnew, hclr]
            apply R2 (fun p l u c3 o2 => Node g (t2.put blk b').buffercache.blocks h p l u c3 o2 1)
              pk x cl ol cr orr _ hdl hdr hdlr hapk hbpk
            · apply Node_frame g _ _ _ _ _ _ _ _ _ hnl
              intro j hj
              apply hset
              rintro rfl
              exact hblklr (Finset.mem_union_left _ hj)
            · apply Node_frame g _ _ _ _ _ _ _ _ _ hnr
              intro j hj
              apply hset
              rintro rfl
              exact hblklr (Finset.mem_union_right _ hj)
            · intro q l u c3 o3 hsub3 hq
              apply Node_frame g _ _ _ _ _ _ _ _ _ hq
              intro j hj
              have hjr := hsub3 hj
              rw [hset j (fun he => hblkor (he ▸ hjr)),
                hfr2 j (ho0 j (horo j hjr))
                  (fun h1 => (Finset.disjoint_left.mp hdis') h1 hjr)
                  (fun he => hxor (he ▸ hjr)), hsib1 j hjr]
        · rw [hflu]; simp
        · apply FreeChain_frame _ _ _ _ hfl2
          intro j hj
          apply hset
          exact fun he => hno blk hblko (hfl'fl blk (List.mem_cons_of_mem _ (he ▸ hj)))
        · intro j hj
          rcases Finset.mem_insert.mp hj with rfl | hj
          · exact Or.inl hblko
          · rcases Finset.mem_union.mp hj with hj | hj
            · rcases (hmem_lr j).mp hj with rfl | h1
              · exact Or.inr (by simp)
              · rcases hsub j h1 with h2 | h2
                · exact Or.inl (hoco j h2)
                · exact Or.inr (List.mem_append_left _ h2)
            · exact Or.inl (horo j hj)
        · intro j h0 hjo hjf
          rw [hset j (fun he => hjo (he ▸ hblko)),
            hfr2 j h0 (fun h1 => by
              rcases hsub j h1 with h2 | h2
              · exact hjo (hoco j h2)
              · exact hjf (hused j h2)) (fun he => hjf (he ▸ hxfl))]
          exact hfr1 j h0 (fun hj => hjo (hoco j hj)) hjf


/-! ## A root with one key -/

theorem fillRoot_spec (g : Geom) (r : BTreeNode)
    (hty : r.info.nodetype = NodeType.BTREE_ROOT_NODE ∨
      r.info.nodetype = NodeType.BTREE_INTERIOR_NODE)
    (hhdr : HdrOK g r) (hcap : 2 ≤ g.capI) (hnum : r.info.numkeys = 1) (key : KEY_T)
    (p0 p1 : Nat) (hkey : key.length = g.keysize) (hp0 : p0 < 256 ^ g.P)
    (hp1 : p1 < 256 ^ g.P) :
    IntAt g (fillRoot g.m r key p0 p1) p0 [(key, p1)] 1 ∧
      (fillRoot g.m r key p0 p1).info = r.info := by
  obtain ⟨hks, hvs, hbs, hlen⟩ := hhdr
  have hroom := capI_room g (by omega)
  have h2 : 2 * (g.keysize + g.P) ≤ g.capI * (g.keysize + g.P) := Nat.mul_le_mul_right _ hcap
  have hD : g.P + g.keysize + g.P ≤ r.data.length := by rw [hlen]; omega
  obtain ⟨hd1, hA, hK⟩ := split_at_write r.data g.P g.keysize (by omega)
  obtain ⟨hd2, hAK, hB⟩ := split_at_write r.data (g.P + g.keysize) g.P (by omega)
  generalize r.data.take g.P = A at hd1 hA
  generalize (r.data.drop g.P).take g.keysize = K at hd1 hK
  generalize r.data.drop (g.P + g.keysize) = R1 at hd1
  generalize r.data.take (g.P + g.keysize) = AK at hd2 hAK
  generalize (r.data.drop (g.P + g.keysize)).take g.P = B at hd2 hB
  generalize r.data.drop (g.P + g.keysize + g.P) = rest at hd2
  have hk1 : key.take r.info.keysize = key := by rw [hks, ← hkey, List.take_length]
  have hw1 : writeAt r.data (g.m.sizeofSIZE_T + 0 * (g.m.sizeofSIZE_T + r.info.keysize))
      (key.take r.info.keysize) = A ++ key ++ R1 := by
    rw [hk1]
    conv_lhs => rw [hd1]
    apply writeAt_mid'
    · simp only [Nat.zero_mul, Nat.add_zero, hA, Geom.P]
    · rw [hkey, hK]
  have hR1 : (A ++ key ++ R1).length = r.data.length := by
    rw [← hw1, length_writeAt]
  have hw2 : writeAt (A ++ key ++ R1) (0 * (g.m.sizeofSIZE_T + r.info.keysize))
      (encodeSIZE_T g.m.sizeofSIZE_T p0) = encodeSIZE_T g.P p0 ++ (key ++ R1) := by
    have := writeAt_mid' [] A (key ++ R1) (encodeSIZE_T g.P p0) 0 rfl
      (by rw [length_encodeSIZE_T, hA])
    simp only [List.nil_append, List.append_assoc] at this ⊢
    rw [Nat.zero_mul]
    exact this
  have hR1len : g.P ≤ R1.length := by
    simp only [List.length_append, hA, hkey] at hR1
    omega
  obtain ⟨hd3, hB', _⟩ := split_at_write R1 0 g.P (by omega)
  simp only [List.take_zero, List.drop_zero, List.nil_append, Nat.zero_add] at hd3 hB'
  have hw3 : writeAt (encodeSIZE_T g.P p0 ++ (key ++ R1)) (1 * (g.m.sizeofSIZE_T + r.info.keysize))
      (encodeSIZE_T g.m.sizeofSIZE_T p1)
      = encodeSIZE_T g.P p0 ++ flat (ptrSlots g [(key, p1)]) ++ R1.drop g.P := by
    have h3 : encodeSIZE_T g.P p0 ++ (key ++ R1)
        = (encodeSIZE_T g.P p0 ++ key) ++ R1.take g.P ++ R1.drop g.P := by
      conv_lhs => rw [hd3]
      simp only [List.append_assoc]
    have hlt : (encodeSIZE_T g.m.sizeofSIZE_T p1).length = (R1.take g.P).length := by
      rw [length_encodeSIZE_T, List.length_take]
      simp only [Geom.P] at hR1len ⊢
      omega
    rw [h3, writeAt_mid' _ _ _ _ _ _ hlt]
    · simp only [ptrSlots, List.map, flat, List.append_nil, List.append_assoc, Geom.P]
    · simp only [List.length_append, length_encodeSIZE_T, hkey, hks, Geom.P, Nat.one_mul]
  have hfill : fillRoot g.m r key p0 p1
      = r.withData (encodeSIZE_T g.P p0 ++ flat (ptrSlots g [(key, p1)]) ++ R1.drop g.P) := by
    unfold fillRoot BTreeNode.SetKey BTreeNode.SetPtr BTreeNode.ResolveKey
    rcases hty with hty | hty <;>
      simp only [hty, hnum, Nat.lt_one_iff, Nat.zero_lt_one, if_true, orKeep, withData_info,
        withData_data, Nat.zero_le, le_refl, hw1, hw2, hw3, withData_withData]
  rw [hfill]
  refine ⟨⟨hty, ⟨hks, hvs, hbs, ?_⟩, hnum, by simpa using hcap, ?_, hp0, R1.drop g.P, rfl⟩, rfl⟩
  · show (encodeSIZE_T g.P p0 ++ flat (ptrSlots g [(key, p1)]) ++ R1.drop g.P).length = g.D
    rw [← hw3, length_writeAt, ← hw2, length_writeAt, hR1, hlen]
  · intro e he
    rw [List.mem_singleton.mp he]
    exact ⟨hkey, hp1⟩

/-! ## The first insert -/

theorem leaf_fresh (g : Geom) (h1 : 1 ≤ g.capL) :
    LeafAt g (BTreeNode.mk4 g.m NodeType.BTREE_LEAF_NODE g.keysize g.valuesize g.blocksize) [] 1 := by
  have hroom := capL_room g h1
  have hD : g.P ≤ g.D := by omega
  refine ⟨rfl, ⟨rfl, rfl, rfl, ?_⟩, rfl, by simpa using h1, ?_, zeros g.P, zeros (g.D - g.P), ?_, ?_⟩
  · show (zeros (g.blocksize - g.m.sizeofNodeMetadata)).length = g.D
    simp [zeros, Geom.D]
  · intro e he; cases he
  · simp [zeros]
  · show zeros (g.blocksize - g.m.sizeofNodeMetadata) = _
    simp only [zeros, flat, List.append_nil]
    rw [← List.replicate_add]
    congr 1
    simp only [Geom.D] at hD ⊢
    omega

theorem AllocateNode_dangling (t : BTreeIndex) (hs : SuperOK t)
    (hf : t.superblock.info.freelist = t.buffercache.blocks.length) :
    ∃ t1, AllocateNode t false
        = some (ERROR_T.ERROR_NOERROR, t.buffercache.blocks.length, t1) ∧
      t1.superblock.info.freelist = 0 := by
  have hlt : 0 < t.buffercache.blocks.length := lt_length_of_getElem? hs.2.2.2
  have hu : (BTreeNode.default.Unserialize t.buffercache t.buffercache.blocks.length).2
      = BTreeNode.default := by
    unfold BTreeNode.Unserialize
    rw [List.getElem?_eq_none (le_refl _)]
  have hser := Serialize_nodata (t.superblock.withFreelist 0) t.buffercache 0
    hlt (by show hasData t.superblock.info.nodetype = false; rw [hs.2.1]; rfl) hs.2.2.1
  refine ⟨{ t with superblock := t.superblock.withFreelist 0,
                   buffercache := { t.buffercache with
                     blocks := t.buffercache.blocks.set 0 (t.superblock.withFreelist 0) } },
    ?_, rfl⟩
  have hd0 : BTreeNode.default.info.freelist = 0 := rfl
  have hdt : BTreeNode.default.info.nodetype = NodeType.BTREE_UNALLOCATED_BLOCK := rfl
  unfold AllocateNode
  simp only [Bool.false_eq_true, if_false, hf, Nat.ne_of_gt hlt, hu, hd0, hdt, ne_eq,
    not_true_eq_false, hs.1, hser]

theorem bootstrap_spec (g : Geom) (hL : 3 ≤ g.capL) (hI : 3 ≤ g.capI) (t : BTreeIndex)
    (hs : SuperOK t) (hks : t.superblock.info.keysize = g.keysize)
    (hvs : t.superblock.info.valuesize = g.valuesize)
    (hbs : t.buffercache.blocksize = g.blocksize)
    (hN : t.buffercache.blocks.length ≤ 256 ^ g.P) (fl : List Nat)
    (hempty : EmptyRoot g t.buffercache.blocks t.superblock.info.rootnode)
    (hfree : FreeOK t fl) (key : KEY_T) (hkey : key.length = g.keysize) :
    (∃ rc r tb, bootstrap g.m t
        (BTreeNode.default.Unserialize t.buffercache t.superblock.info.rootnode).2 key
          = some (rc, r, tb) ∧ rc ≠ ERROR_T.ERROR_NOERROR) ∨
    (∃ tb root4 o fl', bootstrap g.m t
        (BTreeNode.default.Unserialize t.buffercache t.superblock.info.rootnode).2 key
          = some (ERROR_T.ERROR_NOERROR, root4, tb) ∧ Keeps t tb ∧
        tb.buffercache.blocks[t.superblock.info.rootnode]? = some root4 ∧
        FreeChain tb.buffercache.blocks tb.superblock.info.freelist fl' ∧
        Node g tb.buffercache.blocks 1 t.superblock.info.rootnode none none [] o 1) := by
  obtain ⟨b, hb, hty, hhdr, hnum⟩ := hempty
  have hdat : hasData b.info.nodetype = true := by rw [hty]; rfl
  have hu := Unserialize_data BTreeNode.default t.buffercache _ b hb hdat
  have hr0 : t.superblock.info.rootnode ≠ 0 := data_ne_zero hs hb hdat
  rw [hu]
  rcases hfree with hfc | ⟨_, hdang⟩
  swap
  · left
    obtain ⟨t1, ha1, hf1⟩ := AllocateNode_dangling t hs hdang
    refine ⟨ERROR_T.ERROR_NOSPACE, b, t1, ?_, by simp⟩
    unfold bootstrap
    simp only [ha1, AllocateNode_nospace t1 hf1]
  cases fl with
  | nil =>
    left
    have h0 : t.superblock.info.freelist = 0 := hfc
    refine ⟨ERROR_T.ERROR_NOSPACE, b, t, ?_, by simp⟩
    unfold bootstrap
    simp only [AllocateNode_nospace t h0]
  | cons x1 fl1 =>
    obtain ⟨t1, ha1, hs1, hroot1, hlen1, hbs1, hks1, hvs1, hf1, hfr1, hx10, hx1n, hx1lt⟩ :=
      AllocateNode_spec t hs x1 fl1 false hfc
    cases fl1 with
    | nil =>
      left
      have h0 : t1.superblock.info.freelist = 0 := hf1
      refine ⟨ERROR_T.ERROR_NOSPACE, b, t1, ?_, by simp⟩
      unfold bootstrap
      simp only [ha1, AllocateNode_nospace t1 h0]
    | cons x2 xs =>
      right
      obtain ⟨t2, ha2, hs2, hroot2, hlen2, hbs2, hks2, hvs2, hf2, hfr2, hx20, hx2n, hx2lt⟩ :=
        AllocateNode_spec t1 hs1 x2 xs false hf1
      simp only [Bool.false_eq_true, if_false] at hroot1 hroot2
      have hx12 : x1 ≠ x2 := fun he => hx1n (he ▸ List.mem_cons_self _ _)
      have hx1xs : x1 ∉ xs := fun hx => hx1n (List.mem_cons_of_mem _ hx)
      have hrfree : ∀ j ∈ x1 :: x2 :: xs, j ≠ t.superblock.info.rootnode := by
        intro j hj he
        obtain ⟨_, b', hb', hty'⟩ := FreeChain_mem _ _ _ hfc j hj
        rw [he, hb] at hb'
        cases hb'
        rw [hty'] at hty
        cases hty
      have hrx1 : x1 ≠ t.superblock.info.rootnode := hrfree x1 (by simp)
      have hrx2 : x2 ≠ t.superblock.info.rootnode := hrfree x2 (by simp)
      have hx1lt2 : x1 < t2.buffercache.blocks.length := by rw [hlen2, hlen1]; exact hx1lt
      have hx2lt2 : x2 < t2.buffercache.blocks.length := by rw [hlen2]; exact hx2lt
      have hrlt2 : t.superblock.info.rootnode < t2.buffercache.blocks.length := by
        rw [hlen2, hlen1]; exact lt_length_of_getElem? hb
      have hleaf := leaf_fresh g (by omega)
      obtain ⟨hroot4, hinfo4⟩ := fillRoot_spec g (b.withNumkeys (b.info.numkeys + 1))
        (Or.inl hty) hhdr (by omega) (by show b.info.numkeys + 1 = 1; rw [hnum]) key x1 x2 hkey
        (by omega) (by rw [hlen1] at hx2lt; omega)
      obtain ⟨leaf, hleafdef⟩ : ∃ leaf, leaf = BTreeNode.mk4 g.m NodeType.BTREE_LEAF_NODE
        g.keysize g.valuesize g.blocksize := ⟨_, rfl⟩
      obtain ⟨root4, hroot4def⟩ : ∃ root4, root4
        = fillRoot g.m (b.withNumkeys (b.info.numkeys + 1)) key x1 x2 := ⟨_, rfl⟩
      rw [← hleafdef] at hleaf
      rw [← hroot4def] at hroot4 hinfo4
      obtain ⟨tb, htb⟩ : ∃ tb : BTreeIndex, tb = { t2 with buffercache := { t2.buffercache with
        blocks := ((t2.buffercache.blocks.set x1 leaf).set x2 leaf).set
          t.superblock.info.rootnode root4 } } := ⟨_, rfl⟩
      have hdevb : tb.buffercache.blocks = ((t2.buffercache.blocks.set x1 leaf).set x2 leaf).set
          t.superblock.info.rootnode root4 := by rw [htb]
      have heq : bootstrap g.m t b key = some (ERROR_T.ERROR_NOERROR, root4, tb) := by
        unfold bootstrap
        simp only [ha1, ha2, hks, hvs, hbs, ← hleafdef, ← hroot4def]
        rw [Serialize_data leaf _ _ hx1lt2 hleaf.leafHasData]
        simp only
        rw [Serialize_data leaf _ _ (by simpa using hx2lt2) hleaf.leafHasData]
        simp only
        rw [Serialize_data root4 _ _ (by simpa [hroot2, hroot1] using hrlt2) hroot4.nodeHasData]
        simp only [hroot2, hroot1, htb]
      have hframe : ∀ j, j ≠ x1 → j ≠ x2 → j ≠ t.superblock.info.rootnode →
          tb.buffercache.blocks[j]? = t2.buffercache.blocks[j]? := by
        intro j h1 h2 h3
        rw [hdevb, List.getElem?_set_ne (Ne.symm h3), List.getElem?_set_ne (Ne.symm h2),
          List.getElem?_set_ne (Ne.symm h1)]
      have hbr : tb.buffercache.blocks[t.superblock.info.rootnode]? = some root4 := by
        rw [hdevb, List.getElem?_set_self (by simpa using hrlt2)]
      have hb1 : tb.buffercache.blocks[x1]? = some leaf := by
        rw [hdevb, List.getElem?_set_ne (Ne.symm hrx1), List.getElem?_set_ne (Ne.symm hx12),
          List.getElem?_set_self hx1lt2]
      have hb2 : tb.buffercache.blocks[x2]? = some leaf := by
        rw [hdevb, List.getElem?_set_ne (Ne.symm hrx2),
          List.getElem?_set_self (by simpa using hx2lt2)]
      refine ⟨tb, root4, insert t.superblock.info.rootnode ({x1} ∪ {x2}), xs, heq,
        bootstrap_keeps g.m t hs hr0 _ _ key _ _ heq, hbr, ?_, ?_⟩
      · have hfl : tb.superblock.info.freelist = t2.superblock.info.freelist := by rw [htb]
        rw [hfl]
        apply FreeChain_frame _ _ _ _ hf2
        intro j hj
        apply hframe
        · rintro rfl; exact hx1xs hj
        · rintro rfl; exact hx2n hj
        · exact hrfree j (by simp [hj])
      · refine ⟨root4, x1, [(key, x2)], {x1} ∪ {x2}, hbr, hroot4, by simp, ?_, rfl, ?_⟩
        · simp only [Finset.mem_union, Finset.mem_singleton]
          rintro (h | h)
          · exact hrx1 h.symm
          · exact hrx2 h.symm
        · simp only [Kids]
          refine ⟨above_none _, sbelow_none _, [], {x1}, [], {x2}, ?_, ?_, rfl, rfl, ?_⟩
          · exact ⟨leaf, hb1, hleaf, List.Pairwise.nil,
              fun e he => absurd he (List.not_mem_nil e), rfl⟩
          · exact ⟨leaf, hb2, hleaf, List.Pairwise.nil,
              fun e he => absurd he (List.not_mem_nil e), rfl⟩
          · rw [Finset.disjoint_singleton]; exact hx12

/-! ## Splitting the root -/

theorem AllocateNode_nospace_root (t : BTreeIndex) (hf : t.superblock.info.freelist = 0) :
    ∃ t1, AllocateNode t true = some (ERROR_T.ERROR_NOSPACE, 0, t1) := by
  refine ⟨{ t with superblock := t.superblock.withRootnode 0 }, ?_⟩
  unfold AllocateNode
  simp only [if_true, hf]

theorem reserialize_same (x : BTreeNode) (c : BufferCache) (n : Nat) (b : BTreeNode)
    (hb : c.blocks[n]? = some b) (hd : hasData b.info.nodetype = true) :
    ((x.Unserialize c n).2.Serialize c n).2 = c := by
  rw [Unserialize_data x c n b hb hd, Serialize_data b c n (lt_length_of_getElem? hb) hd]
  show { c with blocks := c.blocks.set n b } = c
  rw [set_same c.blocks n b hb]

theorem splitRoot_spec (g : Geom) (hL : 3 ≤ g.capL) (hI : 3 ≤ g.capI) (t1 : BTreeIndex)
    (hs1 : SuperOK t1) (hN : t1.buffercache.blocks.length ≤ 256 ^ g.P) (h : Nat)
    (c : List (KEY_T × VALUE_T)) (o : Finset Nat) (fl : List Nat)
    (hn : Node g t1.buffercache.blocks (h + 1) t1.superblock.info.rootnode none none c o 0)
    (hsp : NeedToSplit g.m t1 t1.superblock.info.rootnode = true)
    (hfl : FreeChain t1.buffercache.blocks t1.superblock.info.freelist fl)
    (rootObj : BTreeNode)
    (hroty : rootObj.info.nodetype = NodeType.BTREE_ROOT_NODE ∨
      rootObj.info.nodetype = NodeType.BTREE_INTERIOR_NODE)
    (hrohdr : HdrOK g rootObj) :
    (∃ rc t2, splitRoot g.m t1 rootObj t1.superblock.info.rootnode = some (rc, t2) ∧
      rc ≠ ERROR_T.ERROR_NOERROR) ∨
    (∃ t2 o' fl', splitRoot g.m t1 rootObj t1.superblock.info.rootnode
        = some (ERROR_T.ERROR_NOERROR, t2) ∧ SuperOK t2 ∧
      t2.superblock.info.keysize = t1.superblock.info.keysize ∧
      t2.superblock.info.valuesize = t1.superblock.info.valuesize ∧
      t2.buffercache.blocksize = t1.buffercache.blocksize ∧
      t2.buffercache.blocks.length = t1.buffercache.blocks.length ∧
      FreeChain t2.buffercache.blocks t2.superblock.info.freelist fl' ∧
      Node g t2.buffercache.blocks (h + 2) t2.superblock.info.rootnode none none c o' 1) := by
  have hno := owned_not_free hn hfl
  have ho0 := owned_ne_zero hs1 hn
  have hroot_o := Node_root_mem g _ _ _ _ _ _ _ _ hn
  cases fl with
  | nil =>
    left
    have h0 : t1.superblock.info.freelist = 0 := hfl
    have hsn : SplitNode g.m t1 t1.superblock.info.rootnode []
        = some (ERROR_T.ERROR_NOSPACE, 0, [], t1) := by
      unfold SplitNode
      simp only [AllocateNode_nospace t1 h0]
    obtain ⟨t4, h4⟩ := AllocateNode_nospace_root
      { t1 with buffercache := (((((BTreeNode.mk4 g.m NodeType.BTREE_INTERIOR_NODE
        t1.superblock.info.keysize t1.superblock.info.valuesize
        t1.buffercache.blocksize).Unserialize t1.buffercache
          t1.superblock.info.rootnode).2.Unserialize
        (((BTreeNode.mk4 g.m NodeType.BTREE_INTERIOR_NODE
        t1.superblock.info.keysize t1.superblock.info.valuesize
        t1.buffercache.blocksize).Unserialize t1.buffercache
          t1.superblock.info.rootnode).2.Serialize t1.buffercache
            t1.superblock.info.rootnode).2 0).2).Serialize
        (((BTreeNode.mk4 g.m NodeType.BTREE_INTERIOR_NODE
        t1.superblock.info.keysize t1.superblock.info.valuesize
        t1.buffercache.blocksize).Unserialize t1.buffercache
          t1.superblock.info.rootnode).2.Serialize t1.buffercache
            t1.superblock.info.rootnode).2 0).2 } h0
    refine ⟨ERROR_T.ERROR_NOSPACE, t4, ?_, by simp⟩
    unfold splitRoot
    simp only [hsn, h4]
  | cons x fl1 =>
    obtain ⟨t2, pk, cl, cr, ol, orr, hsplit, hclr, hnl, hnr, holr, hdlr, hapk, hbpk, hpkl,
      hkeep2, hfl2, hfr2⟩ := split_spec g hL hI t1 hs1 (h + 1) _ _ _ _ _ hn hsp x fl1 hfl
    have hs2 : SuperOK t2 := hkeep2.1
    obtain ⟨bl, hbl, hdl⟩ : ∃ b, t2.buffercache.blocks[t1.superblock.info.rootnode]? = some b ∧
        hasData b.info.nodetype = true :=
      Node_owned g _ _ _ _ _ _ _ _ hnl _ (Node_root_mem g _ _ _ _ _ _ _ _ hnl)
    obtain ⟨br, hbr, hdr⟩ : ∃ b, t2.buffercache.blocks[x]? = some b ∧
        hasData b.info.nodetype = true :=
      Node_owned g _ _ _ _ _ _ _ _ hnr _ (Node_root_mem g _ _ _ _ _ _ _ _ hnr)
    have hre1 := reserialize_same (BTreeNode.mk4 g.m NodeType.BTREE_INTERIOR_NODE
      t2.superblock.info.keysize t2.superblock.info.valuesize t2.buffercache.blocksize)
      t2.buffercache _ bl hbl hdl
    have hre2 := reserialize_same ((BTreeNode.mk4 g.m NodeType.BTREE_INTERIOR_NODE
      t2.superblock.info.keysize t2.superblock.info.valuesize
      t2.buffercache.blocksize).Unserialize t2.buffercache t1.superblock.info.rootnode).2
      t2.buffercache _ br hbr hdr
    have heta : ({ t2 with buffercache := t2.buffercache } : BTreeIndex) = t2 := rfl
    have hxfl : x ∈ x :: fl1 := List.mem_cons_self _ _
    have hx0 : x ≠ 0 := (FreeChain_mem _ _ _ hfl x hxfl).1
    have hxlt : x < t1.buffercache.blocks.length := by
      obtain ⟨_, bx, hbx, _⟩ := FreeChain_mem _ _ _ hfl x hxfl
      exact lt_length_of_getElem? hbx
    cases fl1 with
    | nil =>
      left
      have h0 : t2.superblock.info.freelist = 0 := hfl2
      obtain ⟨t4, h4⟩ := AllocateNode_nospace_root t2 h0
      refine ⟨ERROR_T.ERROR_NOSPACE, t4, ?_, by simp⟩
      unfold splitRoot
      simp only [hsplit, hre1, hre2, heta, h4]
    | cons y ys =>
      right
      obtain ⟨t4, ha4, hs4, hroot4, hlen4, hbs4, hks4, hvs4, hf4, hfr4, hy0, hyn, hylt⟩ :=
        AllocateNode_spec t2 hs2 y ys true hfl2
      simp only [if_true] at hroot4
      have hyfl : y ∈ x :: y :: ys := by simp
      have hxy : x ≠ y := by
        have hfc := hfl
        simp only [FreeChain] at hfc
        exact fun he => hfc.2.2.1 (he ▸ List.mem_cons_self _ _)
      have hyo : y ∉ o := fun hy => hno y hy hyfl
      have hrlt : t1.superblock.info.rootnode < t1.buffercache.blocks.length := by
        obtain ⟨b0, hb0, _⟩ := Node_owned g _ _ _ _ _ _ _ _ hn _ hroot_o
        exact lt_length_of_getElem? hb0
      obtain ⟨hroot4I, hinfo4⟩ := fillRoot_spec g (rootObj.withNumkeys 1) hroty hrohdr (by omega)
        rfl pk t1.superblock.info.rootnode x hpkl (by omega) (by omega)
      obtain ⟨root4, hroot4def⟩ : ∃ root4, root4
        = fillRoot g.m (rootObj.withNumkeys 1) pk t1.superblock.info.rootnode x := ⟨_, rfl⟩
      rw [← hroot4def] at hroot4I hinfo4
      have hylt4 : y < t4.buffercache.blocks.length := by rw [hlen4]; exact hylt
      obtain ⟨tf, htf⟩ : ∃ tf : BTreeIndex, tf = { t4 with buffercache := { t4.buffercache with
        blocks := t4.buffercache.blocks.set y root4 } } := ⟨_, rfl⟩
      have hdevf : tf.buffercache.blocks = t4.buffercache.blocks.set y root4 := by rw [htf]
      have hrootf : tf.superblock.info.rootnode = y := by rw [htf]; exact hroot4
      have heq : splitRoot g.m t1 rootObj t1.superblock.info.rootnode
          = some (ERROR_T.ERROR_NOERROR, tf) := by
        unfold splitRoot
        simp only [hsplit, hre1, hre2, heta, ha4, ← hroot4def, hroot4]
        rw [Serialize_data root4 _ _ hylt4 hroot4I.nodeHasData, htf]
      have hframe : ∀ j, j ≠ 0 → j ≠ y →
          tf.buffercache.blocks[j]? = t2.buffercache.blocks[j]? := by
        intro j h0 h1
        rw [hdevf, List.getElem?_set_ne (Ne.symm h1), hfr4 j h0]
      have hmem_lr : ∀ j, j ∈ ol ∪ orr ↔ j = x ∨ j ∈ o := by
        intro j; rw [holr, Finset.mem_insert]
      have hlr_frame : ∀ j ∈ ol ∪ orr, tf.buffercache.blocks[j]? = t2.buffercache.blocks[j]? := by
        intro j hj
        rcases (hmem_lr j).mp hj with rfl | hjo
        · exact hframe _ hx0 hxy
        · exact hframe j (ho0 j hjo) (fun he => hyo (he ▸ hjo))
      refine ⟨tf, insert y (ol ∪ orr), ys, heq, ?_, ?_, ?_, ?_, ?_, ?_, ?_⟩
      · rw [htf]
        refine ⟨hs4.1, hs4.2.1, hs4.2.2.1, ?_⟩
        show (t4.buffercache.blocks.set y root4)[0]? = _
        rw [List.getElem?_set_ne hy0]
        exact hs4.2.2.2
      · rw [htf]; exact hks4.trans hkeep2.2.2.2.2.1
      · rw [htf]; exact hvs4.trans hkeep2.2.2.2.2.2
      · rw [htf]; exact hbs4.trans hkeep2.2.2.2.1
      · rw [hdevf, List.length_set, hlen4]; exact hkeep2.2.2.1
      · have hflf : tf.superblock.info.freelist = t4.superblock.info.freelist := by rw [htf]
        rw [hflf]
        apply FreeChain_frame _ _ _ _ hf4
        intro j hj
        rw [hdevf, List.getElem?_set_ne]
        exact fun he => hyn (he ▸ hj)
      · rw [hrootf]
        refine ⟨root4, t1.superblock.info.rootnode, [(pk, x)], ol ∪ orr, ?_, hroot4I, by simp, ?_,
          rfl, ?_⟩
        · rw [hdevf, List.getElem?_set_self hylt4]
        · intro hy
          rcases (hmem_lr y).mp hy with h1 | h1
          · exact hxy h1.symm
          · exact hyo h1
        · simp only [Kids]
          refine ⟨above_none _, sbelow_none _, cl, ol, cr, orr, ?_, ?_, hclr, rfl, hdlr⟩
          · exact Node_frame g _ _ _ _ _ _ _ _ _ hnl
              (fun j hj => hlr_frame j (Finset.mem_union_left _ hj))
          · exact Node_frame g _ _ _ _ _ _ _ _ _ hnr
              (fun j hj => hlr_frame j (Finset.mem_union_right _ hj))

/-! ## Insert keeps the tree well formed -/

theorem boot_spec (g : Geom) (hL : 3 ≤ g.capL) (hI : 3 ≤ g.capI) (t : BTreeIndex)
    (c : List (KEY_T × VALUE_T)) (key : KEY_T) (hkey : key.length = g.keysize)
    (hinv : TreeInv g t c) :
    (∃ rc r tb, (if (BTreeNode.default.Unserialize t.buffercache
          t.superblock.info.rootnode).2.info.numkeys = 0
        then bootstrap g.m t (BTreeNode.default.Unserialize t.buffercache
          t.superblock.info.rootnode).2 key
        else some (ERROR_T.ERROR_NOERROR, (BTreeNode.default.Unserialize t.buffercache
          t.superblock.info.rootnode).2, t)) = some (rc, r, tb) ∧ rc ≠ ERROR_T.ERROR_NOERROR) ∨
    (∃ tb rootObj h o fl, (if (BTreeNode.default.Unserialize t.buffercache
          t.superblock.info.rootnode).2.info.numkeys = 0
        then bootstrap g.m t (BTreeNode.default.Unserialize t.buffercache
          t.superblock.info.rootnode).2 key
        else some (ERROR_T.ERROR_NOERROR, (BTreeNode.default.Unserialize t.buffercache
          t.superblock.info.rootnode).2, t)) = some (ERROR_T.ERROR_NOERROR, rootObj, tb) ∧
      Keeps t tb ∧
      (rootObj.info.nodetype = NodeType.BTREE_ROOT_NODE ∨
        rootObj.info.nodetype = NodeType.BTREE_INTERIOR_NODE) ∧ HdrOK g rootObj ∧
      FreeChain tb.buffercache.blocks tb.superblock.info.freelist fl ∧
      Node g tb.buffercache.blocks (h + 1) t.superblock.info.rootnode none none c o 1) := by
  obtain ⟨hs, hks, hvs, hbs, hN, fl, hcase⟩ := hinv
  rcases hcase with ⟨hc, hempty, hfree⟩ | ⟨h, o, hfc, hn⟩
  · have hnum : (BTreeNode.default.Unserialize t.buffercache
        t.superblock.info.rootnode).2.info.numkeys = 0 := by
      obtain ⟨b, hb, hty, hhdr, hnum⟩ := hempty
      rw [Unserialize_data _ _ _ b hb (by rw [hty]; rfl)]
      exact hnum
    rw [if_pos hnum]
    rcases bootstrap_spec g hL hI t hs hks hvs hbs hN fl hempty hfree key hkey with
      ⟨rc, r, tb, hb, hrc⟩ | ⟨tb, root4, o, fl', hb, hkeep, hbr, hfc, hn⟩
    · exact Or.inl ⟨rc, r, tb, hb, hrc⟩
    · right
      obtain ⟨b', p0, kps, o1, hb', hint, _⟩ := hn
      rw [hbr] at hb'
      cases hb'
      subst hc
      exact ⟨tb, root4, 0, o, fl', hb, hkeep, hint.1, hint.2.1, hfc,
        ⟨root4, p0, kps, o1, hbr, hint, ‹_›⟩⟩
  · right
    have hn0 := hn
    obtain ⟨b, p0, kps, o1, hb, hint, hne, _⟩ := hn
    have hu := Unserialize_data BTreeNode.default t.buffercache _ b hb hint.nodeHasData
    have hnum : ¬ (BTreeNode.default.Unserialize t.buffercache
        t.superblock.info.rootnode).2.info.numkeys = 0 := by
      rw [hu]
      show ¬ b.info.numkeys = 0
      rw [hint.2.2.1]
      omega
    rw [if_neg hnum, hu]
    exact ⟨t, b, h, o, fl, rfl, Keeps.refl hs, hint.1, hint.2.1, hfc, hn0⟩

theorem Insert_step (g : Geom) (hL : 3 ≤ g.capL) (hI : 3 ≤ g.capI) (t : BTreeIndex)
    (c : List (KEY_T × VALUE_T)) (key : KEY_T) (v : VALUE_T) (hkey : key.length = g.keysize)
    (hv : v.length = g.valuesize) (hinv : TreeInv g t c) (t1 : BTreeIndex)
    (hins : BTreeIndex.Insert g.m t key v = some (ERROR_T.ERROR_NOERROR, t1)) :
    assoc key c = none ∧ ∃ c1 c2, c = c1 ++ c2 ∧ TreeInv g t1 (c1 ++ (key, v) :: c2) := by
  have hinv0 := hinv
  obtain ⟨hs, hks, hvs, hbs, hN, _⟩ := hinv
  unfold BTreeIndex.Insert at hins
  simp only at hins
  rcases boot_spec g hL hI t c key hkey hinv0 with ⟨rc, r, tb, hboot, hrc⟩ |
    ⟨tb, rootObj, h, o, fl, hboot, hkeepb, hroty, hrohdr, hfc, hn⟩
  · exfalso
    rw [hboot] at hins
    cases rc <;> first | exact absurd rfl hrc | simp at hins
  rw [hboot] at hins
  simp only at hins
  have hrootb : tb.superblock.info.rootnode = t.superblock.info.rootnode := hkeepb.2.1
  rw [← hrootb] at hn
  have hNb : tb.buffercache.blocks.length ≤ 256 ^ g.P := by rw [hkeepb.2.2.1]; exact hN
  rw [Lookup_spec g tb key _ _ _ _ hn] at hins
  cases hassoc : assoc key c with
  | some v0 =>
    exfalso
    rw [hassoc] at hins
    simp [lookupResult] at hins
  | none =>
    refine ⟨rfl, ?_⟩
    rw [hassoc] at hins
    simp only [lookupResult] at hins
    have hbase : ∀ tf cf, SuperOK tf → Keeps tb tf ∨
        (tf.superblock.info.keysize = tb.superblock.info.keysize ∧
          tf.superblock.info.valuesize = tb.superblock.info.valuesize ∧
          tf.buffercache.blocksize = tb.buffercache.blocksize ∧
          tf.buffercache.blocks.length = tb.buffercache.blocks.length) →
        (∃ fl' h' o', FreeChain tf.buffercache.blocks tf.superblock.info.freelist fl' ∧
          Node g tf.buffercache.blocks (h' + 1) tf.superblock.info.rootnode none none cf o' 1) →
        TreeInv g tf cf := by
      intro tf cf hsf hk hex
      have hsz : tf.superblock.info.keysize = tb.superblock.info.keysize ∧
          tf.superblock.info.valuesize = tb.superblock.info.valuesize ∧
          tf.buffercache.blocksize = tb.buffercache.blocksize ∧
          tf.buffercache.blocks.length = tb.buffercache.blocks.length := by
        rcases hk with hk | hk
        · exact ⟨hk.2.2.2.2.1, hk.2.2.2.2.2, hk.2.2.2.1, hk.2.2.1⟩
        · exact hk
      obtain ⟨fl', h', o', hf', hn'⟩ := hex
      refine ⟨hsf, ?_, ?_, ?_, ?_, fl', Or.inr ⟨h', o', hf', hn'⟩⟩
      · rw [hsz.1, hkeepb.2.2.2.2.1]; exact hks
      · rw [hsz.2.1, hkeepb.2.2.2.2.2]; exact hvs
      · rw [hsz.2.2.1, hkeepb.2.2.2.1]; exact hbs
      · rw [hsz.2.2.2, hkeepb.2.2.1]; exact hN
    rcases descent_spec g hL hI key v hkey hv (h + 1) (depthBound tb) tb
        tb.superblock.info.rootnode tb.superblock.info.rootnode none none c o fl
        (Node_fuel g tb _ _ _ _ _ _ _ hn) hkeepb.1 hNb hn hfc (above_none _) (below_none _)
        hassoc with
      ⟨ts, c1, c2, o', used, fl', hrun, hc, hnode, hflu, hfls, hsub, hkeeps, hfrs⟩ |
      ⟨rc, ts, hrun, hrc, hblk, hfrs⟩
    · rw [hrun] at hins
      simp only at hins
      have hroots : ts.superblock.info.rootnode = tb.superblock.info.rootnode := hkeeps.2.1
      rw [← hroots] at hnode
      by_cases hsp : NeedToSplit g.m ts ts.superblock.info.rootnode = true
      · rw [if_pos hsp] at hins
        have hNs : ts.buffercache.blocks.length ≤ 256 ^ g.P := by rw [hkeeps.2.2.1]; exact hNb
        have horig : t.superblock.info.rootnode = ts.superblock.info.rootnode := by
          rw [hroots, hrootb]
        rw [horig] at hins
        rcases splitRoot_spec g hL hI ts hkeeps.1 hNs h _ o' fl' hnode hsp hfls rootObj hroty
            hrohdr with ⟨rc, t2, hsr, hrc⟩ | ⟨t2, o2, fl2, hsr, hs2, hks2, hvs2, hbs2, hlen2, hf2, hn2⟩
        · exfalso
          rw [hsr] at hins
          simp only [Option.some.injEq, Prod.mk.injEq] at hins
          exact hrc hins.1
        · rw [hsr] at hins
          simp only [Option.some.injEq, Prod.mk.injEq, true_and] at hins
          subst hins
          refine ⟨c1, c2, hc, hbase t2 _ hs2 (Or.inr ⟨?_, ?_, ?_, ?_⟩) ⟨fl2, h + 1, o2, hf2, hn2⟩⟩
          · rw [hks2]; exact hkeeps.2.2.2.2.1
          · rw [hvs2]; exact hkeeps.2.2.2.2.2
          · rw [hbs2]; exact hkeeps.2.2.2.1
          · rw [hlen2]; exact hkeeps.2.2.1
      · rw [if_neg hsp] at hins
        simp only [Option.some.injEq, Prod.mk.injEq, true_and] at hins
        subst hins
        have hsp' : NeedToSplit g.m ts ts.superblock.info.rootnode = false := by
          cases hx : NeedToSplit g.m ts ts.superblock.info.rootnode
          · rfl
          · exact absurd hx hsp
        exact ⟨c1, c2, hc, hbase ts _ hkeeps.1 (Or.inl hkeeps)
          ⟨fl', h, o', hfls, Node_unsplit g ts _ _ _ _ _ _ hnode hsp'⟩⟩
    · exfalso
      rw [hrun] at hins
      simp only at hins
      have hkeeps := SearchInternal2_keeps g.m _ tb hkeepb.1 _ key v _ rc ts hrun
      have hroots : ts.superblock.info.rootnode = tb.superblock.info.rootnode := hkeeps.2.1
      obtain ⟨b, p0, kps, o1, hb, hint, hne, _⟩ := hn
      have hsp : NeedToSplit g.m ts ts.superblock.info.rootnode = false := by
        rw [hroots, NeedToSplit_int g ts _ b p0 kps 1 (by rw [hblk]; exact hb) hint]
        have := hint.2.2.2.1
        simp only [decide_eq_false_iff_not]
        omega
      rw [hsp] at hins
      simp only [Bool.false_eq_true, if_false, Option.some.injEq, Prod.mk.injEq] at hins
      exact hrc hins.1


/-! ## The empty tree -/

theorem pickChild_empty (m : Machine) (b : BTreeNode) (key : KEY_T) (h : b.info.numkeys = 0) :
    pickChild m b key = .error ERROR_T.ERROR_NONEXISTENT := by
  unfold pickChild
  rw [h]
  simp only [scanInterior, gt_iff_lt, Nat.lt_irrefl, if_false]

theorem lookup_empty (g : Geom) (t : BTreeIndex) (blk : Nat)
    (he : EmptyRoot g t.buffercache.blocks blk) (f : Nat) (op : BTreeOp) (key : KEY_T)
    (x : VALUE_T) :
    LookupOrUpdateInternal g.m (f + 1) t blk op key x
      = some (ERROR_T.ERROR_NONEXISTENT, x, t) := by
  obtain ⟨b, hb, hty, hhdr, hnum⟩ := he
  rw [LookupOrUpdateInternal, Unserialize_data _ _ _ b hb (by rw [hty]; rfl)]
  simp only [hty, pickChild_empty g.m b key hnum]

theorem display_empty (g : Geom) (t : BTreeIndex) (blk : Nat)
    (he : EmptyRoot g t.buffercache.blocks blk) (f : Nat) :
    DisplayInternal g.m (f + 1) t blk = some (ERROR_T.ERROR_NOERROR, []) := by
  obtain ⟨b, hb, hty, hhdr, hnum⟩ := he
  rw [DisplayInternal, Unserialize_data _ _ _ b hb (by rw [hty]; rfl)]
  simp only [PrintNode, hty, hnum, gt_iff_lt, Nat.lt_irrefl, if_false]

/-! ## What the tree answers -/

theorem TreeInv_lookup (g : Geom) (t : BTreeIndex) (c : List (KEY_T × VALUE_T))
    (hinv : TreeInv g t c) (key : KEY_T) :
    Lookup g.m t key = some ((lookupResult (assoc key c) [] t).1,
      (lookupResult (assoc key c) [] t).2.1) := by
  obtain ⟨hs, hks, hvs, hbs, hN, fl, hcase⟩ := hinv
  rcases hcase with ⟨hc, hempty, hfree⟩ | ⟨h, o, hfc, hn⟩
  · subst hc
    unfold Lookup depthBound
    rw [lookup_empty g t _ hempty]
    rfl
  · exact Lookup_spec g t key _ _ _ _ hn

theorem TreeInv_display (g : Geom) (t : BTreeIndex) (c : List (KEY_T × VALUE_T))
    (hinv : TreeInv g t c) :
    Display g.m t = some (ERROR_T.ERROR_NOERROR, c) ∧
      c.Pairwise (fun x y => keyLt x.1 y.1 = true) := by
  obtain ⟨hs, hks, hvs, hbs, hN, fl, hcase⟩ := hinv
  rcases hcase with ⟨hc, hempty, hfree⟩ | ⟨h, o, hfc, hn⟩
  · subst hc
    refine ⟨?_, List.Pairwise.nil⟩
    unfold Display depthBound
    rw [display_empty g t _ hempty]
  · refine ⟨?_, Node_sorted g _ _ _ _ _ _ _ _ hn⟩
    unfold Display
    rw [display_spec g t _ _ _ _ _ _ _ _ (Node_fuel g t _ _ _ _ _ _ _ hn) hn]

theorem TreeInv_update_absent (g : Geom) (t : BTreeIndex) (c : List (KEY_T × VALUE_T))
    (hinv : TreeInv g t c) (key : KEY_T) (v : VALUE_T) (hv : v.length = g.valuesize)
    (habs : assoc key c = none) :
    Update g.m t key v = some (ERROR_T.ERROR_NONEXISTENT, t) := by
  obtain ⟨hs, hks, hvs, hbs, hN, fl, hcase⟩ := hinv
  rcases hcase with ⟨hc, hempty, hfree⟩ | ⟨h, o, hfc, hn⟩
  · unfold Update depthBound
    rw [lookup_empty g t _ hempty]
  · unfold Update
    rcases update_spec g key v hv t (h + 1) (depthBound t) _ none none c o 1
        (Node_fuel g t _ _ _ _ _ _ _ hn) hn (above_none _) (below_none _) with
      ⟨_, hrun⟩ | ⟨c1, v0, c2, j, bj, hc, hrun, hj, hnode⟩
    · rw [hrun]
    · exfalso
      rw [hc] at habs
      have := assoc_none_ne key _ habs (key, v0) (by simp)
      exact this rfl

theorem Update_step (g : Geom) (t : BTreeIndex) (c : List (KEY_T × VALUE_T)) (key : KEY_T)
    (v : VALUE_T) (hv : v.length = g.valuesize) (hinv : TreeInv g t c) (t1 : BTreeIndex)
    (hup : Update g.m t key v = some (ERROR_T.ERROR_NOERROR, t1)) :
    ∃ c', TreeInv g t1 c' := by
  obtain ⟨hs, hks, hvs, hbs, hN, fl, hcase⟩ := hinv
  rcases hcase with ⟨hc, hempty, hfree⟩ | ⟨h, o, hfc, hn⟩
  · exfalso
    unfold Update depthBound at hup
    rw [lookup_empty g t _ hempty] at hup
    simp at hup
  · have hno := owned_not_free hn hfc
    have ho0 := owned_ne_zero hs hn
    unfold Update at hup
    rcases update_spec g key v hv t (h + 1) (depthBound t) _ none none c o 1
        (Node_fuel g t _ _ _ _ _ _ _ hn) hn (above_none _) (below_none _) with
      ⟨_, hrun⟩ | ⟨c1, v0, c2, j, bj, hc, hrun, hj, hnode⟩
    · exfalso
      rw [hrun] at hup
      simp at hup
    · rw [hrun] at hup
      simp only [Option.some.injEq, Prod.mk.injEq, true_and] at hup
      subst hup
      refine ⟨c1 ++ (key, v) :: c2, ⟨hs.1, hs.2.1, hs.2.2.1, ?_⟩, hks, hvs, hbs, ?_, fl,
        Or.inr ⟨h, o, ?_, hnode⟩⟩
      · show (t.buffercache.blocks.set j bj)[0]? = _
        rw [List.getElem?_set_ne (ho0 j hj)]
        exact hs.2.2.2
      · show (t.buffercache.blocks.set j bj).length ≤ _
        rw [List.length_set]; exact hN
      · apply FreeChain_frame _ _ _ _ hfc
        intro i hi
        show (t.buffercache.blocks.set j bj)[i]? = _
        rw [List.getElem?_set_ne]
        exact fun he => hno j hj (he ▸ hi)

/-! ## The tree Attach creates -/

theorem attachLoop_free (m : Machine) (ks vs : Nat) :
    ∀ (cnt : Nat) (c : BufferCache) (i : Nat), i + cnt = c.blocks.length →
      (attachLoop m ks vs c i cnt).1 = ERROR_T.ERROR_NOERROR ∧
      ∀ j, i ≤ j → j < c.blocks.length →
        (attachLoop m ks vs c i cnt).2.blocks[j]?
          = some (((BTreeNode.mk4 m NodeType.BTREE_UNALLOCATED_BLOCK ks vs
              c.blocksize).withRootnode 1).withFreelist
                (if j + 1 = c.blocks.length then 0 else j + 1)) := by
  intro cnt
  induction cnt with
  | zero =>
    intro c i hi
    exact ⟨rfl, fun j h1 h2 => by omega⟩
  | succ n ih =>
    intro c i hi
    have hlt : i < c.blocks.length := by omega
    obtain ⟨node, hnode⟩ : ∃ node, node = ((BTreeNode.mk4 m NodeType.BTREE_UNALLOCATED_BLOCK ks vs
      c.blocksize).withRootnode 1).withFreelist (if i + 1 = c.blocks.length then 0 else i + 1) :=
      ⟨_, rfl⟩
    have hser := Serialize_nodata node c i hlt (by rw [hnode]; rfl) (by rw [hnode]; rfl)
    rw [attachLoop]
    simp only [← hnode, hser]
    obtain ⟨h1, h2⟩ := ih (BufferCache.mk c.blocksize (c.blocks.set i node))
      (i + 1) (by simp only [List.length_set]; omega)
    refine ⟨h1, ?_⟩
    intro j hj1 hj2
    by_cases hji : j = i
    · subst hji
      have := (attachLoop_blocks m ks vs n (BufferCache.mk c.blocksize (c.blocks.set j node))
        (j + 1)).2.2 j (by omega)
      rw [this]
      simp only [List.getElem?_set_self hlt, hnode]
    · have := h2 j (by omega) (by simp only [List.length_set]; exact hj2)
      simp only [List.length_set] at this
      exact this

theorem freeChain_range (dev : List BTreeNode) (f : Nat → BTreeNode)
    (hf : ∀ j, (f j).info.nodetype = NodeType.BTREE_UNALLOCATED_BLOCK ∧
      (f j).info.freelist = (if j + 1 = dev.length then 0 else j + 1)) :
    ∀ (cnt i : Nat), i + cnt = dev.length → i ≠ 0 →
      (∀ j, i ≤ j → j < dev.length → dev[j]? = some (f j)) →
      FreeChain dev (if cnt = 0 then 0 else i) (List.range' i cnt) := by
  intro cnt
  induction cnt with
  | zero =>
    intro i _ _ _
    simp [FreeChain]
  | succ n ih =>
    intro i hi hi0 hdev
    simp only [List.range'_succ, FreeChain, Nat.succ_ne_zero, if_false, true_and]
    refine ⟨hi0, ?_, f i, hdev i (le_refl _) (by omega), (hf i).1, ?_⟩
    · simp only [List.mem_range'_1, not_and, not_lt]
      intro h; omega
    · rw [(hf i).2]
      have := ih (i + 1) (by omega) (by omega) (fun j h1 h2 => hdev j (by omega) h2)
      by_cases hn : n = 0
      · subst hn
        simp only [if_true] at this
        rw [if_pos (by omega)]
        exact this
      · rw [if_neg hn] at this
        rw [if_neg (by omega)]
        exact this

/-- The blocks a successful `Attach(0, true)` writes: the empty root at block 1
and the chain of unallocated blocks from block 2 on. -/
theorem fresh_layout (m : Machine) (ks vs : Nat) (c : BufferCache) (t : BTreeIndex)
    (h : fresh m ks vs c = some t) :
    t.buffercache.blocks[1]? = some ((((BTreeNode.mk4 m NodeType.BTREE_ROOT_NODE ks vs
        c.blocksize).withRootnode 1).withFreelist 2).withNumkeys 0) ∧
    ∀ j, 2 ≤ j → j < c.blocks.length →
      t.buffercache.blocks[j]? = some (((BTreeNode.mk4 m NodeType.BTREE_UNALLOCATED_BLOCK ks vs
        c.blocksize).withRootnode 1).withFreelist (if j + 1 = c.blocks.length then 0 else j + 1)) := by
  unfold fresh Attach at h
  simp only [ne_eq, not_true_eq_false, if_false, if_true] at h
  generalize hS0 : BTreeNode.Serialize _ (BTreeIndex.new ks vs c).buffercache 0 = r0 at h
  obtain ⟨rc0, c1⟩ := r0
  by_cases hrc0 : rc0 = ERROR_T.ERROR_NOERROR
  swap
  · exfalso
    cases rc0 <;> first | exact absurd rfl hrc0 | simp at h
  subst hrc0
  simp only at h
  generalize hS1 : BTreeNode.Serialize _ c1 (0 + 1) = r1 at h
  obtain ⟨rc1, c2⟩ := r1
  by_cases hrc1 : rc1 = ERROR_T.ERROR_NOERROR
  swap
  · exfalso
    cases rc1 <;> first | exact absurd rfl hrc1 | simp at h
  subst hrc1
  simp only at h
  generalize hL : attachLoop m _ _ c2 (0 + 2) _ = r2 at h
  obtain ⟨rc2, c3⟩ := r2
  by_cases hrc2 : rc2 = ERROR_T.ERROR_NOERROR
  swap
  · exfalso
    cases rc2 <;> first | exact absurd rfl hrc2 | simp at h
  subst hrc2
  simp only at h
  have hnew : (BTreeIndex.new ks vs c).buffercache = c := rfl
  rw [hnew] at hS0
  have hlt0 : 0 < c.blocks.length := by
    by_contra hc
    unfold BTreeNode.Serialize at hS0
    simp only [hc, if_false] at hS0
    cases hS0
  have hc1 : c1 = BufferCache.mk c.blocksize (c.blocks.set 0
      ((((BTreeNode.mk4 m NodeType.BTREE_SUPERBLOCK ks vs c.blocksize).withRootnode 1).withFreelist
        2).withNumkeys 0)) := by
    have := Serialize_nodata ((((BTreeNode.mk4 m NodeType.BTREE_SUPERBLOCK ks vs
      c.blocksize).withRootnode 1).withFreelist 2).withNumkeys 0) c 0 hlt0 rfl rfl
    have hS0' : BTreeNode.Serialize ((((BTreeNode.mk4 m NodeType.BTREE_SUPERBLOCK ks vs
      c.blocksize).withRootnode 1).withFreelist 2).withNumkeys 0) c 0
        = (ERROR_T.ERROR_NOERROR, c1) := hS0
    rw [this] at hS0'
    cases hS0'
    rfl
  have hbs1 : c1.blocksize = c.blocksize := by rw [hc1]
  have hlen1 : c1.blocks.length = c.blocks.length := by rw [hc1]; simp
  have hS1' : BTreeNode.Serialize ((((BTreeNode.mk4 m NodeType.BTREE_ROOT_NODE ks vs
      c1.blocksize).withRootnode 1).withFreelist 2).withNumkeys 0) c1 1
        = (ERROR_T.ERROR_NOERROR, c2) := hS1
  have hlt1 : 1 < c1.blocks.length := by
    by_contra hc
    unfold BTreeNode.Serialize at hS1'
    simp only [hc, if_false] at hS1'
    cases hS1'
  rw [Serialize_data ((((BTreeNode.mk4 m NodeType.BTREE_ROOT_NODE ks vs
      c1.blocksize).withRootnode 1).withFreelist 2).withNumkeys 0) c1 1 hlt1 rfl] at hS1'
  have hc2 : c2 = BufferCache.mk c1.blocksize (c1.blocks.set 1
      ((((BTreeNode.mk4 m NodeType.BTREE_ROOT_NODE ks vs c1.blocksize).withRootnode 1).withFreelist
        2).withNumkeys 0)) := by
    cases hS1'
    rfl
  have hbs2 : c2.blocksize = c.blocksize := by rw [hc2]; exact hbs1
  have hlen2 : c2.blocks.length = c.blocks.length := by rw [hc2]; simp [hlen1]
  have hL' : attachLoop m ks vs c2 2 (c2.blocks.length - 2) = (ERROR_T.ERROR_NOERROR, c3) := hL
  obtain ⟨l1, l2, l3⟩ := attachLoop_blocks m ks vs (c2.blocks.length - 2) c2 2
  obtain ⟨_, f2⟩ := attachLoop_free m ks vs (c2.blocks.length - 2) c2 2 (by omega)
  rw [hL'] at l1 l2 l3 f2
  simp only at l1 l2 l3 f2
  generalize (BTreeIndex.new ks vs c).superblock.Unserialize c3 0 = u at h
  obtain ⟨rcu, sb⟩ := u
  have hbc : t.buffercache = c3 := by
    cases rcu <;> simp at h
    rw [← h]
  rw [hbc]
  constructor
  · rw [l3 1 (by omega), hc2]
    simp only [List.getElem?_set_self hlt1, hbs1]
  · intro j hj1 hj2
    rw [f2 j hj1 (by rw [hlen2]; exact hj2), hbs2, hlen2]

theorem fresh_inv (m : Machine) (ks vs : Nat) (c : BufferCache) (t : BTreeIndex)
    (h : fresh m ks vs c = some t) (hN : c.blocks.length ≤ 256 ^ m.sizeofSIZE_T) :
    TreeInv ⟨m, ks, vs, c.blocksize⟩ t [] := by
  obtain ⟨hs, hroot, hfree, hks, hvs, hbs, hlen⟩ := fresh_super m ks vs c t h
  obtain ⟨hb1, hchain⟩ := fresh_layout m ks vs c t h
  have hlt1 : 1 < t.buffercache.blocks.length := lt_length_of_getElem? hb1
  refine ⟨hs, hks, hvs, hbs, by rw [hlen]; exact hN,
    List.range' 2 (t.buffercache.blocks.length - 2), Or.inl ⟨rfl, ?_, ?_⟩⟩
  · rw [hroot]
    refine ⟨_, hb1, rfl, ⟨rfl, rfl, rfl, ?_⟩, rfl⟩
    show (zeros (c.blocksize - m.sizeofNodeMetadata)).length = _
    simp [zeros, Geom.D]
  · by_cases h2 : t.buffercache.blocks.length = 2
    · right
      rw [h2, hfree]
      exact ⟨rfl, rfl⟩
    · left
      have := freeChain_range t.buffercache.blocks
        (fun j => ((BTreeNode.mk4 m NodeType.BTREE_UNALLOCATED_BLOCK ks vs
          c.blocksize).withRootnode 1).withFreelist
            (if j + 1 = t.buffercache.blocks.length then 0 else j + 1))
        (fun j => ⟨rfl, rfl⟩) (t.buffercache.blocks.length - 2) 2 (by omega) (by omega)
        (fun j h1 h2 => by rw [hchain j h1 (by rw [← hlen]; exact h2), hlen])
      rw [if_neg (by omega)] at this
      rw [hfree]
      exact this


/-! ## Workloads keep the tree well formed -/

theorem runCalls_inv (g : Geom) (hL : 3 ≤ g.capL) (hI : 3 ≤ g.capI) :
    ∀ (ops : List Call) (t : BTreeIndex) (c : List (KEY_T × VALUE_T)) (t1 : BTreeIndex),
      TreeInv g t c →
      (∀ op ∈ ops, op.key.length = g.keysize ∧ op.value.length = g.valuesize) →
      runCalls g.m t ops = some t1 → ∃ c1, TreeInv g t1 c1 := by
  intro ops
  induction ops with
  | nil =>
    intro t c t1 hinv _ hrun
    simp only [runCalls, Option.some.injEq] at hrun
    subst hrun
    exact ⟨c, hinv⟩
  | cons op rest ih =>
    intro t c t1 hinv hops hrun
    have hop := hops op (List.mem_cons_self _ _)
    have hrest : ∀ op ∈ rest, op.key.length = g.keysize ∧ op.value.length = g.valuesize :=
      fun o ho => hops o (List.mem_cons_of_mem _ ho)
    cases op with
    | insert k v =>
      simp only [runCalls] at hrun
      cases hi : BTreeIndex.Insert g.m t k v with
      | none => rw [hi] at hrun; cases hrun
      | some r =>
        obtain ⟨rc, t2⟩ := r
        rw [hi] at hrun
        cases rc <;> simp only at hrun <;> try cases hrun
        obtain ⟨_, c1, c2, _, hinv2⟩ := Insert_step g hL hI t c k v hop.1 hop.2 hinv t2 hi
        exact ih t2 _ t1 hinv2 hrest hrun
    | update k v =>
      simp only [runCalls] at hrun
      cases hi : Update g.m t k v with
      | none => rw [hi] at hrun; cases hrun
      | some r =>
        obtain ⟨rc, t2⟩ := r
        rw [hi] at hrun
        cases rc <;> simp only at hrun <;> try cases hrun
        obtain ⟨c', hinv2⟩ := Update_step g t c k v hop.2 hinv t2 hi
        exact ih t2 _ t1 hinv2 hrest hrun

theorem runInserts_inv (g : Geom) (hL : 3 ≤ g.capL) (hI : 3 ≤ g.capI) :
    ∀ (w : List (KEY_T × VALUE_T)) (t : BTreeIndex) (c : List (KEY_T × VALUE_T))
      (t1 : BTreeIndex), TreeInv g t c →
      (∀ e ∈ w, e.1.length = g.keysize ∧ e.2.length = g.valuesize) →
      runInserts g.m t w = some t1 → ∃ c1, TreeInv g t1 c1 ∧ c1.Perm (c ++ w) := by
  intro w
  induction w with
  | nil =>
    intro t c t1 hinv _ hrun
    simp only [runInserts, Option.some.injEq] at hrun
    subst hrun
    exact ⟨c, hinv, by simp⟩
  | cons e rest ih =>
    intro t c t1 hinv hw hrun
    have he := hw e (List.mem_cons_self _ _)
    have hrest : ∀ e ∈ rest, e.1.length = g.keysize ∧ e.2.length = g.valuesize :=
      fun o ho => hw o (List.mem_cons_of_mem _ ho)
    simp only [runInserts] at hrun
    cases hi : BTreeIndex.Insert g.m t e.1 e.2 with
    | none => rw [hi] at hrun; cases hrun
    | some r =>
      obtain ⟨rc, t2⟩ := r
      rw [hi] at hrun
      cases rc <;> simp only at hrun <;> try cases hrun
      obtain ⟨_, c1, c2, hc, hinv2⟩ := Insert_step g hL hI t c e.1 e.2 he.1 he.2 hinv t2 hi
      obtain ⟨c3, hinv3, hperm⟩ := ih t2 _ t1 hinv2 hrest hrun
      refine ⟨c3, hinv3, hperm.trans ?_⟩
      subst hc
      have h1 : (c1 ++ (e.1, e.2) :: c2).Perm ((c1 ++ c2) ++ [e]) := by
        have : (e.1, e.2) = e := rfl
        rw [this]
        simp only [List.append_assoc]
        exact List.Perm.append_left c1 (List.perm_append_singleton e c2).symm
      have h2 := List.Perm.append_right rest h1
      simpa using h2

/-! ## Values found in a sorted run -/

theorem assoc_insert_same (k : KEY_T) (v : VALUE_T) (c1 c2 : List (KEY_T × VALUE_T))
    (h : assoc k (c1 ++ c2) = none) : assoc k (c1 ++ (k, v) :: c2) = some v := by
  have hne := assoc_none_ne k _ h
  rw [assoc_append_none k c1 _ (fun e he => hne e (List.mem_append_left _ he))]
  simp [assoc]

theorem assoc_insert_ne (k k' : KEY_T) (v : VALUE_T) (c1 c2 : List (KEY_T × VALUE_T))
    (h : k' ≠ k) : assoc k' (c1 ++ (k, v) :: c2) = assoc k' (c1 ++ c2) := by
  induction c1 with
  | nil =>
    simp only [List.nil_append, assoc]
    rw [if_neg (Ne.symm h)]
  | cons x r ih =>
    show (if x.1 = k' then some x.2 else assoc k' (r ++ (k, v) :: c2))
      = (if x.1 = k' then some x.2 else assoc k' (r ++ c2))
    rw [ih]

theorem assoc_of_mem_sorted (c : List (KEY_T × VALUE_T))
    (hs : c.Pairwise (fun x y => keyLt x.1 y.1 = true)) (e : KEY_T × VALUE_T) (he : e ∈ c) :
    assoc e.1 c = some e.2 := by
  induction c with
  | nil => cases he
  | cons x r ih =>
    rw [List.pairwise_cons] at hs
    simp only [assoc]
    by_cases hx : x.1 = e.1
    · rw [if_pos hx]
      rcases List.mem_cons.mp he with rfl | her
      · rfl
      · exfalso
        have := hs.1 e her
        rw [hx, keyLt_irrefl] at this
        cases this
    · rw [if_neg hx]
      rcases List.mem_cons.mp he with rfl | her
      · exact absurd rfl hx
      · exact ih hs.2 her


/-! ## Lookup on an ordered tree of any shape -/

/-- C1 (amended): on a device whose leaves and interior nodes hold at least 3
keys and whose block numbers fit a SIZE_T, after attach(create=true) and any
sequence of successful inserts and updates of keys and values of the tree's
sizes (the empty sequence included, so also the very first insert), an insert
that returns ERROR_NOERROR is followed by a lookup of the same key that returns
ERROR_NOERROR with the inserted value. -/
theorem insert_then_lookup (m : Machine) (keysize valuesize : Nat) (cache : BufferCache)
    (ops : List Call) (t0 t t1 : BTreeIndex) (k : KEY_T) (v : VALUE_T)
    (hL : 3 ≤ leafCapacity m keysize valuesize cache.blocksize)
    (hI : 3 ≤ interiorCapacity m keysize cache.blocksize)
    (hN : cache.blocks.length ≤ 256 ^ m.sizeofSIZE_T)
    (hops : ∀ op ∈ ops, op.key.length = keysize ∧ op.value.length = valuesize)
    (hk : k.length = keysize) (hv : v.length = valuesize)
    (h0 : fresh m keysize valuesize cache = some t0) (hrun : runCalls m t0 ops = some t)
    (hins : BTreeIndex.Insert m t k v = some (ERROR_T.ERROR_NOERROR, t1)) :
    Lookup m t1 k = some (ERROR_T.ERROR_NOERROR, v) := by
  have hinv0 := fresh_inv m keysize valuesize cache t0 h0 hN
  obtain ⟨c, hinv⟩ := runCalls_inv ⟨m, keysize, valuesize, cache.blocksize⟩ hL hI ops t0 [] t
    hinv0 hops hrun
  obtain ⟨hnone, c1, c2, hc, hinv1⟩ := Insert_step ⟨m, keysize, valuesize, cache.blocksize⟩
    hL hI t c k v hk hv hinv t1 hins
  have hl := TreeInv_lookup ⟨m, keysize, valuesize, cache.blocksize⟩ t1 _ hinv1 k
  rw [hc] at hnone
  rw [assoc_insert_same k v c1 c2 hnone] at hl
  exact hl

/-- C2 (amended): on a device whose leaves and interior nodes hold at least 3
keys and whose block numbers fit a SIZE_T, after attach(create=true) and a
workload of successful inserts, a further insert of `k` that returns
ERROR_NOERROR (whatever it splits) leaves the lookup of every other key as it
was, code and value; and every pair inserted so far, the new one included,
looks up to its own value. -/
theorem insert_keeps_other_lookups (m : Machine) (keysize valuesize : Nat)
    (cache : BufferCache) (w : List (KEY_T × VALUE_T)) (t0 t t1 : BTreeIndex) (k : KEY_T)
    (v : VALUE_T)
    (hL : 3 ≤ leafCapacity m keysize valuesize cache.blocksize)
    (hI : 3 ≤ interiorCapacity m keysize cache.blocksize)
    (hN : cache.blocks.length ≤ 256 ^ m.sizeofSIZE_T)
    (hw : ∀ e ∈ w, e.1.length = keysize ∧ e.2.length = valuesize)
    (hk : k.length = keysize) (hv : v.length = valuesize)
    (h0 : fresh m keysize valuesize cache = some t0) (hrun : runInserts m t0 w = some t)
    (hins : BTreeIndex.Insert m t k v = some (ERROR_T.ERROR_NOERROR, t1)) :
    (∀ k', k' ≠ k → Lookup m t1 k' = Lookup m t k') ∧
    (∀ e ∈ w ++ [(k, v)], Lookup m t1 e.1 = some (ERROR_T.ERROR_NOERROR, e.2)) := by
  have hinv0 := fresh_inv m keysize valuesize cache t0 h0 hN
  obtain ⟨c, hinv, hperm⟩ := runInserts_inv ⟨m, keysize, valuesize, cache.blocksize⟩ hL hI w
    t0 [] t hinv0 hw hrun
  obtain ⟨hnone, c1, c2, hc, hinv1⟩ := Insert_step ⟨m, keysize, valuesize, cache.blocksize⟩
    hL hI t c k v hk hv hinv t1 hins
  constructor
  · intro k' hk'
    have hl1 := TreeInv_lookup ⟨m, keysize, valuesize, cache.blocksize⟩ t1 _ hinv1 k'
    have hl := TreeInv_lookup ⟨m, keysize, valuesize, cache.blocksize⟩ t c hinv k'
    rw [hl1, hl, assoc_insert_ne k k' v c1 c2 hk', ← hc]
    cases assoc k' c <;> rfl
  · intro e he
    have hl1 := TreeInv_lookup ⟨m, keysize, valuesize, cache.blocksize⟩ t1 _ hinv1 e.1
    have hsorted := (TreeInv_display ⟨m, keysize, valuesize, cache.blocksize⟩ t1 _ hinv1).2
    have hmem : e ∈ c1 ++ (k, v) :: c2 := by
      rcases List.mem_append.mp he with he | he
      · have : e ∈ c := hperm.mem_iff.mpr (by simpa using he)
        rw [hc] at this
        rcases List.mem_append.mp this with h1 | h1
        · exact List.mem_append_left _ h1
        · exact List.mem_append_right _ (List.mem_cons_of_mem _ h1)
      · rw [List.mem_singleton.mp he]
        exact List.mem_append_right _ (List.mem_cons_self _ _)
    rw [assoc_of_mem_sorted _ hsorted e hmem] at hl1
    exact hl1

/-- C7 (amended): on a device whose leaves and interior nodes hold at least 3
keys and whose block numbers fit a SIZE_T, after attach(create=true) and a
workload of successful inserts, the SortedKeyVal traversal emits the inserted
pairs, each exactly once (a permutation of the workload), with strictly
increasing keys. -/
theorem display_sorted_inserted (m : Machine) (keysize valuesize : Nat) (cache : BufferCache)
    (w : List (KEY_T × VALUE_T)) (t0 t : BTreeIndex)
    (hL : 3 ≤ leafCapacity m keysize valuesize cache.blocksize)
    (hI : 3 ≤ interiorCapacity m keysize cache.blocksize)
    (hN : cache.blocks.length ≤ 256 ^ m.sizeofSIZE_T)
    (hw : ∀ e ∈ w, e.1.length = keysize ∧ e.2.length = valuesize)
    (h0 : fresh m keysize valuesize cache = some t0) (hrun : runInserts m t0 w = some t) :
    ∃ out, Display m t = some (ERROR_T.ERROR_NOERROR, out) ∧ out.Perm w ∧
      out.Pairwise (fun x y => keyLt x.1 y.1 = true) := by
  have hinv0 := fresh_inv m keysize valuesize cache t0 h0 hN
  obtain ⟨c, hinv, hperm⟩ := runInserts_inv ⟨m, keysize, valuesize, cache.blocksize⟩ hL hI w
    t0 [] t hinv0 hw hrun
  obtain ⟨hd, hs⟩ := TreeInv_display ⟨m, keysize, valuesize, cache.blocksize⟩ t c hinv
  exact ⟨c, hd, by simpa using hperm, hs⟩


/-! ## Blocks well formed for their type -/

theorem pick_mem (key : KEY_T) :
    ∀ (kps : List (KEY_T × Nat)) (p0 : Nat), pick key p0 kps ∈ kidsOf p0 kps
  | [], p0 => by simp [pick, kidsOf]
  | (k, q) :: r, p0 => by
    have ih := pick_mem key r q
    unfold pick
    simp only [kidsOf, List.map_cons, List.mem_cons] at ih ⊢
    split
    · left; rfl
    · right; exact ih

theorem kidsOf_insSlot (pk : KEY_T) (x p0 : Nat) (kps : List (KEY_T × Nat)) (p : Nat)
    (h : p ∈ kidsOf p0 (insSlot pk (pk, x) kps)) : p = x ∨ p ∈ kidsOf p0 kps := by
  simp only [kidsOf, List.mem_cons, List.mem_map] at h ⊢
  rcases h with h | ⟨e, he, hep⟩
  · right; left; exact h
  · rcases (mem_insSlot pk (pk, x) e kps).mp he with h1 | h1
    · left; rw [← hep, h1]
    · right; right; exact ⟨e, h1, hep⟩

theorem kidsOf_left (p0 : Nat) (kl : List (KEY_T × Nat)) (e : KEY_T × Nat)
    (kr : List (KEY_T × Nat)) (p : Nat) (h : p ∈ kidsOf p0 kl) :
    p ∈ kidsOf p0 (kl ++ e :: kr) := by
  simp only [kidsOf, List.mem_cons, List.mem_map, List.mem_append] at h ⊢
  rcases h with h | ⟨a, ha, hap⟩
  · left; exact h
  · right; exact ⟨a, Or.inl ha, hap⟩

theorem kidsOf_right (p0 : Nat) (kl : List (KEY_T × Nat)) (e : KEY_T × Nat)
    (kr : List (KEY_T × Nat)) (p : Nat) (h : p ∈ kidsOf e.2 kr) :
    p ∈ kidsOf p0 (kl ++ e :: kr) := by
  simp only [kidsOf, List.mem_cons, List.mem_map, List.mem_append] at h ⊢
  rcases h with h | ⟨a, ha, hap⟩
  · right; exact ⟨e, Or.inr (Or.inl rfl), h.symm⟩
  · right; exact ⟨a, Or.inr (Or.inr ha), hap⟩

theorem Live_ne_zero {t : BTreeIndex} (hs : SuperOK t) {j : Nat}
    (h : Live t.buffercache.blocks j) : j ≠ 0 := by
  obtain ⟨c, hc, hd⟩ := h
  exact data_ne_zero hs hc hd

theorem Live_not_free {dev : List BTreeNode} {head : Nat} {fl : List Nat}
    (hf : FreeChain dev head fl) {j : Nat} (h : Live dev j) : j ∉ fl := by
  intro hj
  obtain ⟨c, hc, hd⟩ := h
  obtain ⟨_, b, hb, hty⟩ := FreeChain_mem _ _ _ hf j hj
  rw [hc] at hb
  cases hb
  rw [hty] at hd
  cases hd

theorem Dead.live {dev : List BTreeNode} {p : Nat} (h : Dead dev p) : Live dev p := by
  obtain ⟨c, hc, hty, _⟩ := h
  exact ⟨c, hc, by rcases hty with h | h <;> rw [h] <;> rfl⟩

theorem WB_mono {g : Geom} {ks ks' : List KEY_T} {dev dev' : List BTreeNode}
    {ht ht' : Nat → Nat} {blk : Nat} {b : BTreeNode} {s : Nat}
    (h : WB g ks dev ht blk b s) (hks : ∀ k ∈ ks, k ∈ ks')
    (hE : ∀ p, Live dev p → Live dev' p ∧ ht' p = ht p) (hblk : ht' blk = ht blk) :
    WB g ks' dev' ht' blk b s := by
  obtain ⟨h1, h2⟩ := h
  refine ⟨?_, ?_⟩
  · intro hty
    obtain ⟨h0, es, hl, hes⟩ := h1 hty
    exact ⟨by rw [hblk]; exact h0, es, hl, fun e he => hks _ (hes e he)⟩
  · intro hty
    obtain ⟨h0, hhdr, hcap, hk⟩ := h2 hty
    refine ⟨by rw [hblk]; exact h0, hhdr, hcap, ?_⟩
    rcases hk with hk | ⟨p0, kps, hne, hint, hkids⟩
    · exact Or.inl hk
    · refine Or.inr ⟨p0, kps, hne, hint, ?_⟩
      intro p hp
      obtain ⟨hl, hh⟩ := hkids p hp
      obtain ⟨hl', hh'⟩ := hE p hl
      exact ⟨hl', by rw [hh', hblk]; exact hh⟩

theorem WB_weaken {g : Geom} {ks : List KEY_T} {dev : List BTreeNode} {ht : Nat → Nat}
    {blk : Nat} {b : BTreeNode} {s : Nat} (h : WB g ks dev ht blk b s) (s' : Nat)
    (hs : s' ≤ s) : WB g ks dev ht blk b s' := by
  obtain ⟨h1, h2⟩ := h
  refine ⟨?_, ?_⟩
  · intro hty
    obtain ⟨h0, es, hl, hes⟩ := h1 hty
    exact ⟨h0, es, hl.leafWeaken s' hs, hes⟩
  · intro hty
    obtain ⟨h0, hhdr, hcap, hk⟩ := h2 hty
    refine ⟨h0, hhdr, by omega, ?_⟩
    rcases hk with hk | ⟨p0, kps, hne, hint, hkids⟩
    · exact Or.inl hk
    · exact Or.inr ⟨p0, kps, hne, hint.nodeWeaken s' hs, hkids⟩

/-- A block that is no tree node is well formed as it is. -/
theorem WB_nodata (g : Geom) (ks : List KEY_T) (dev : List BTreeNode) (ht : Nat → Nat)
    (blk : Nat) (b : BTreeNode) (s : Nat) (h : hasData b.info.nodetype = false) :
    WB g ks dev ht blk b s := by
  refine ⟨?_, ?_⟩
  · intro hty; rw [hty] at h; cases h
  · intro hty; rcases hty with hty | hty <;> rw [hty] at h <;> cases h

/-- A full node that needs no split has a slot to spare. -/
theorem WB_unsplit (g : Geom) (ks : List KEY_T) (t : BTreeIndex) (ht : Nat → Nat) (blk : Nat)
    (b : BTreeNode) (hb : t.buffercache.blocks[blk]? = some b)
    (h : WB g ks t.buffercache.blocks ht blk b 0)
    (hns : NeedToSplit g.m t blk = false) : WB g ks t.buffercache.blocks ht blk b 1 := by
  obtain ⟨h1, h2⟩ := h
  refine ⟨?_, ?_⟩
  · intro hty
    obtain ⟨h0, es, hl, hes⟩ := h1 hty
    rw [NeedToSplit_leaf g t blk b es 0 hb hl] at hns
    have hne : g.capL ≠ es.length := by simpa using hns
    obtain ⟨a1, a2, a3, a4, a5⟩ := hl
    exact ⟨h0, es, ⟨a1, a2, a3, by omega, a5⟩, hes⟩
  · intro hty
    obtain ⟨h0, hhdr, hcap, hk⟩ := h2 hty
    have hd : hasData b.info.nodetype = true := by rcases hty with h | h <;> rw [h] <;> rfl
    have hns' : g.capI ≠ b.info.numkeys := by
      unfold NeedToSplit at hns
      rw [Unserialize_data _ _ _ _ hb hd] at hns
      rcases hty with hty | hty <;>
        simpa only [hty, slots_int_of_hdr g b hhdr, decide_eq_false_iff_not] using hns
    refine ⟨h0, hhdr, by omega, ?_⟩
    rcases hk with hk | ⟨p0, kps, hne, hint, hkids⟩
    · exact Or.inl hk
    · obtain ⟨a1, a2, a3, a4, a5⟩ := hint
      exact Or.inr ⟨p0, kps, hne, ⟨a1, a2, a3, by omega, a5⟩, hkids⟩

/-! ## Lookup and update of a key that is in no leaf -/

theorem wlookup (g : Geom) (t : BTreeIndex) (ks : List KEY_T) (ht : Nat → Nat) (sl : Nat → Nat)
    (hw : WBs g ks t.buffercache.blocks ht sl) (key : KEY_T) (hk : key ∉ ks) (op : BTreeOp)
    (x : VALUE_T) :
    ∀ (h fuel blk : Nat), Live t.buffercache.blocks blk → ht blk = h → h < fuel →
      LookupOrUpdateInternal g.m fuel t blk op key x
        = some (ERROR_T.ERROR_NONEXISTENT, x, t) := by
  intro h
  induction h with
  | zero =>
    intro fuel blk hlive hh hf
    obtain ⟨f, rfl⟩ : ∃ f, fuel = f + 1 := ⟨fuel - 1, by omega⟩
    obtain ⟨b, hb, hd⟩ := hlive
    have hu := Unserialize_data BTreeNode.default t.buffercache blk b hb hd
    obtain ⟨h1, h2⟩ := hw blk b hb
    have hty : b.info.nodetype = NodeType.BTREE_LEAF_NODE := by
      cases hty : b.info.nodetype with
      | BTREE_UNALLOCATED_BLOCK => rw [hty] at hd; cases hd
      | BTREE_SUPERBLOCK => rw [hty] at hd; cases hd
      | BTREE_ROOT_NODE => have := (h2 (Or.inl hty)).1; omega
      | BTREE_INTERIOR_NODE => have := (h2 (Or.inr hty)).1; omega
      | BTREE_LEAF_NODE => rfl
    obtain ⟨_, es, hl, hes⟩ := h1 hty
    have hnum := hl.2.2.1
    rw [LookupOrUpdateInternal, hu]
    simp only [hty, hnum]
    have hl' : LeafAt g b ([] ++ es) (sl blk) := by simpa using hl
    rcases scanLeaf_spec g b (sl blk) key es [] hl' with
      ⟨_, hscan⟩ | ⟨a, e, cr, hc, hek, _, _⟩
    · simp only [List.length_nil] at hscan
      rw [hscan]
    · exfalso
      simp only [List.nil_append] at hc
      apply hk
      rw [← hek]
      exact hes e (by rw [hc]; simp)
  | succ h ih =>
    intro fuel blk hlive hh hf
    obtain ⟨f, rfl⟩ : ∃ f, fuel = f + 1 := ⟨fuel - 1, by omega⟩
    obtain ⟨b, hb, hd⟩ := hlive
    have hu := Unserialize_data BTreeNode.default t.buffercache blk b hb hd
    obtain ⟨h1, h2⟩ := hw blk b hb
    have hty : b.info.nodetype = NodeType.BTREE_ROOT_NODE ∨
        b.info.nodetype = NodeType.BTREE_INTERIOR_NODE := by
      cases hty : b.info.nodetype with
      | BTREE_UNALLOCATED_BLOCK => rw [hty] at hd; cases hd
      | BTREE_SUPERBLOCK => rw [hty] at hd; cases hd
      | BTREE_ROOT_NODE => exact Or.inl rfl
      | BTREE_INTERIOR_NODE => exact Or.inr rfl
      | BTREE_LEAF_NODE => have := (h1 hty).1; omega
    obtain ⟨_, hhdr, _, hkk⟩ := h2 hty
    rw [LookupOrUpdateInternal, hu]
    rcases hkk with hz | ⟨p0, kps, hne, hint, hkids⟩
    · rcases hty with hty | hty <;> simp only [hty, pickChild_empty g.m b key hz]
    · have hp := pickChild_spec g b p0 (sl blk) kps key hint
        (by cases kps with
          | nil => exact absurd rfl hne
          | cons a r => simp)
      obtain ⟨hl, hh1⟩ := hkids _ (pick_mem key kps p0)
      have hrec := ih f (pick key p0 kps) hl (by omega) (by omega)
      rcases hty with hty | hty <;> simp only [hty, hp, hrec]


/-! ## A root with one key, on any device that holds one -/

theorem fillRoot_any (g : Geom) (r : BTreeNode)
    (hty : r.info.nodetype = NodeType.BTREE_ROOT_NODE ∨
      r.info.nodetype = NodeType.BTREE_INTERIOR_NODE)
    (hhdr : HdrOK g r) (s : Nat) (hcap : 1 + s ≤ g.capI) (hnum : r.info.numkeys = 1) (key : KEY_T)
    (p0 p1 : Nat) (hkey : key.length = g.keysize) (hp0 : p0 < 256 ^ g.P)
    (hp1 : p1 < 256 ^ g.P) :
    IntAt g (fillRoot g.m r key p0 p1) p0 [(key, p1)] s ∧
      (fillRoot g.m r key p0 p1).info = r.info := by
  obtain ⟨hks, hvs, hbs, hlen⟩ := hhdr
  have hroom := capI_room g (by omega)
  have h2 : 1 * (g.keysize + g.P) ≤ g.capI * (g.keysize + g.P) :=
    Nat.mul_le_mul_right _ (by omega)
  have hD : g.P + g.keysize + g.P ≤ r.data.length := by rw [hlen]; omega
  obtain ⟨hd1, hA, hK⟩ := split_at_write r.data g.P g.keysize (by omega)
  obtain ⟨hd2, hAK, hB⟩ := split_at_write r.data (g.P + g.keysize) g.P (by omega)
  generalize r.data.take g.P = A at hd1 hA
  generalize (r.data.drop g.P).take g.keysize = K at hd1 hK
  generalize r.data.drop (g.P + g.keysize) = R1 at hd1
  generalize r.data.take (g.P + g.keysize) = AK at hd2 hAK
  generalize (r.data.drop (g.P + g.keysize)).take g.P = B at hd2 hB
  generalize r.data.drop (g.P + g.keysize + g.P) = rest at hd2
  have hk1 : key.take r.info.keysize = key := by rw [hks, ← hkey, List.take_length]
  have hw1 : writeAt r.data (g.m.sizeofSIZE_T + 0 * (g.m.sizeofSIZE_T + r.info.keysize))
      (key.take r.info.keysize) = A ++ key ++ R1 := by
    rw [hk1]
    conv_lhs => rw [hd1]
    apply writeAt_mid'
    · simp only [Nat.zero_mul, Nat.add_zero, hA, Geom.P]
    · rw [hkey, hK]
  have hR1 : (A ++ key ++ R1).length = r.data.length := by
    rw [← hw1, length_writeAt]
  have hw2 : writeAt (A ++ key ++ R1) (0 * (g.m.sizeofSIZE_T + r.info.keysize))
      (encodeSIZE_T g.m.sizeofSIZE_T p0) = encodeSIZE_T g.P p0 ++ (key ++ R1) := by
    have := writeAt_mid' [] A (key ++ R1) (encodeSIZE_T g.P p0) 0 rfl
      (by rw [length_encodeSIZE_T, hA])
    simp only [List.nil_append, List.append_assoc] at this ⊢
    rw [Nat.zero_mul]
    exact this
  have hR1len : g.P ≤ R1.length := by
    simp only [List.length_append, hA, hkey] at hR1
    omega
  obtain ⟨hd3, hB', _⟩ := split_at_write R1 0 g.P (by omega)
  simp only [List.take_zero, List.drop_zero, List.nil_append, Nat.zero_add] at hd3 hB'
  have hw3 : writeAt (encodeSIZE_T g.P p0 ++ (key ++ R1)) (1 * (g.m.sizeofSIZE_T + r.info.keysize))
      (encodeSIZE_T g.m.sizeofSIZE_T p1)
      = encodeSIZE_T g.P p0 ++ flat (ptrSlots g [(key, p1)]) ++ R1.drop g.P := by
    have h3 : encodeSIZE_T g.P p0 ++ (key ++ R1)
        = (encodeSIZE_T g.P p0 ++ key) ++ R1.take g.P ++ R1.drop g.P := by
      conv_lhs => rw [hd3]
      simp only [List.append_assoc]
    have hlt : (encodeSIZE_T g.m.sizeofSIZE_T p1).length = (R1.take g.P).length := by
      rw [length_encodeSIZE_T, List.length_take]
      simp only [Geom.P] at hR1len ⊢
      omega
    rw [h3, writeAt_mid' _ _ _ _ _ _ hlt]
    · simp only [ptrSlots, List.map, flat, List.append_nil, List.append_assoc, Geom.P]
    · simp only [List.length_append, length_encodeSIZE_T, hkey, hks, Geom.P, Nat.one_mul]
  have hfill : fillRoot g.m r key p0 p1
      = r.withData (encodeSIZE_T g.P p0 ++ flat (ptrSlots g [(key, p1)]) ++ R1.drop g.P) := by
    unfold fillRoot BTreeNode.SetKey BTreeNode.SetPtr BTreeNode.ResolveKey
    rcases hty with hty | hty <;>
      simp only [hty, hnum, Nat.lt_one_iff, Nat.zero_lt_one, if_true, orKeep, withData_info,
        withData_data, Nat.zero_le, le_refl, hw1, hw2, hw3, withData_withData]
  rw [hfill]
  refine ⟨⟨hty, ⟨hks, hvs, hbs, ?_⟩, hnum, by simpa using hcap, ?_, hp0, R1.drop g.P, rfl⟩, rfl⟩
  · show (encodeSIZE_T g.P p0 ++ flat (ptrSlots g [(key, p1)]) ++ R1.drop g.P).length = g.D
    rw [← hw3, length_writeAt, ← hw2, length_writeAt, hR1, hlen]
  · intro e he
    rw [List.mem_singleton.mp he]
    exact ⟨hkey, hp1⟩

/-! ## SplitNode on a full interior node of any capacity

With fewer than three keys the right half gets no key: nothing is copied and
the child right of the promoted key is not carried over. -/

theorem SplitNode_int_any (g : Geom) (t : BTreeIndex) (hs : SuperOK t) (ptr : Nat)
    (b : BTreeNode) (p0 : Nat) (kps : List (KEY_T × Nat))
    (hb : t.buffercache.blocks[ptr]? = some b) (hl : IntAt g b p0 kps 0)
    (hfull : kps.length = g.capI) (hcap : 1 ≤ g.capI) (x : Nat) (xs : List Nat)
    (hf : FreeChain t.buffercache.blocks t.superblock.info.freelist (x :: xs)) (pk0 : KEY_T) :
    ∃ t2 bl br kl e kr, SplitNode g.m t ptr pk0 = some (ERROR_T.ERROR_NOERROR, x, e.1, t2) ∧
      kps = kl ++ e :: kr ∧ kl.length = kps.length / 2 ∧
      t2.buffercache.blocks[ptr]? = some bl ∧ t2.buffercache.blocks[x]? = some br ∧
      IntAt g bl p0 kl 1 ∧ bl.info.nodetype = b.info.nodetype ∧
      br.info.nodetype = b.info.nodetype ∧ HdrOK g br ∧ br.info.numkeys = kr.length ∧
      (kr ≠ [] → IntAt g br e.2 kr 1) ∧ Keeps t t2 ∧
      FreeChain t2.buffercache.blocks t2.superblock.info.freelist xs ∧
      (∀ j, j ≠ 0 → j ≠ ptr → j ≠ x → t2.buffercache.blocks[j]? = t.buffercache.blocks[j]?) := by
  have hdat := hl.nodeHasData
  have hl0 := hl
  obtain ⟨t1, halloc, hs1, hroot1, hlen1, hbs1, hks1, hvs1, hf1, hfr1, hx0, hxn, hxlt⟩ :=
    AllocateNode_spec t hs x xs false hf
  have hptr0 : ptr ≠ 0 := data_ne_zero hs hb hdat
  have hxptr : x ≠ ptr := by
    rintro rfl
    obtain ⟨_, b', hb', hty'⟩ := FreeChain_mem _ _ _ hf x (List.mem_cons_self _ _)
    rw [hb] at hb'
    cases hb'
    rw [hty'] at hdat
    cases hdat
  have hptrlt : ptr < t1.buffercache.blocks.length := by
    rw [hlen1]; exact lt_length_of_getElem? hb
  have hxlt1 : x < t1.buffercache.blocks.length := by rw [hlen1]; exact hxlt
  obtain ⟨hty, ⟨hks, hvs, hbs, hlen⟩, hnum, hcap0, hu, hp0, rest, hd⟩ := hl
  have hn1 : 1 ≤ kps.length := by omega
  have hLn : kps.length / 2 + 1 ≤ kps.length := by omega
  have hnl : ¬ b.info.nodetype = NodeType.BTREE_LEAF_NODE := by
    rcases hty with h | h <;> rw [h] <;> simp
  obtain ⟨e, kr, hdrop⟩ : ∃ e kr, kps.drop (kps.length / 2) = e :: kr := by
    cases hdr : kps.drop (kps.length / 2) with
    | nil =>
      have := congrArg List.length hdr
      simp at this
      omega
    | cons e kr => exact ⟨e, kr, rfl⟩
  have hkps : kps = kps.take (kps.length / 2) ++ e :: kr := by
    rw [← hdrop, List.take_append_drop]
  have hkll : (kps.take (kps.length / 2)).length = kps.length / 2 := by
    rw [List.length_take]; omega
  generalize hKL : kps.take (kps.length / 2) = kl at hkps hkll
  have hkrl : kr.length = kps.length - kps.length / 2 - 1 := by
    have := congrArg List.length hkps
    simp only [List.length_append, List.length_cons] at this
    omega
  have hukl : ∀ e ∈ kl, e.1.length = g.keysize ∧ e.2 < 256 ^ g.P :=
    fun y hy => hu y (by rw [hkps]; exact List.mem_append_left _ hy)
  have hue : e.1.length = g.keysize ∧ e.2 < 256 ^ g.P :=
    hu e (by rw [hkps]; exact List.mem_append_right _ (List.mem_cons_self _ _))
  have hukr : ∀ e ∈ kr, e.1.length = g.keysize ∧ e.2 < 256 ^ g.P :=
    fun y hy => hu y (by rw [hkps]; exact List.mem_append_right _ (List.mem_cons_of_mem _ hy))
  have hgk : b.GetKey g.m (kps.length / 2) = .ok e.1 := by
    have := int_GetKey g b p0 kl kr e 0 (by rw [← hkps]; exact hl0)
    rw [← this, hkll]
  have hd2 : b.data = (encodeSIZE_T g.P p0 ++ flat (ptrSlots g kl) ++ e.1)
      ++ (encodeSIZE_T g.P e.2 ++ flat (ptrSlots g kr)) ++ rest := by
    rw [hd]
    conv_lhs => rw [hkps]
    simp only [ptrSlots_append, ptrSlots_cons, flat_append, flat_cons, List.append_assoc]
  have hrp0 : b.ResolvePtr g.m 0 = some (0 * (g.m.sizeofSIZE_T + b.info.keysize)) := by
    unfold BTreeNode.ResolvePtr
    rcases hty with h | h <;> simp only [h]
  have hrpL : b.ResolvePtr g.m (kps.length / 2 + 1)
      = some ((kps.length / 2 + 1) * (g.m.sizeofSIZE_T + b.info.keysize)) := by
    unfold BTreeNode.ResolvePtr
    rcases hty with h | h <;> simp only [h]
  obtain ⟨rd, hrd⟩ : ∃ rd, rd = copyBytes b.data (b.ResolvePtr g.m 0) b.data
      (b.ResolvePtr g.m (kps.length / 2 + 1))
      ((kps.length - kps.length / 2 - 1)
        * (b.info.keysize + g.m.sizeofSIZE_T + g.m.sizeofSIZE_T)) := ⟨_, rfl⟩
  have hrdw : rd = writeAt b.data 0 (readAt b.data
      ((kps.length / 2 + 1) * (g.m.sizeofSIZE_T + b.info.keysize))
      ((kps.length - kps.length / 2 - 1)
        * (b.info.keysize + g.m.sizeofSIZE_T + g.m.sizeofSIZE_T))) := by
    rw [hrd, hrp0, hrpL, Nat.zero_mul]
    rfl
  have hrdlen : rd.length = g.D := by rw [hrdw, length_writeAt, hlen]
  have hrdform : kr ≠ [] → ∃ rest', rd = encodeSIZE_T g.P e.2 ++ flat (ptrSlots g kr) ++ rest' := by
    intro hkr
    have hkr1 : 1 ≤ kr.length := by
      cases kr with
      | nil => exact absurd rfl hkr
      | cons a r => simp
    have hXlen : (encodeSIZE_T g.P e.2 ++ flat (ptrSlots g kr)).length
        = g.P + kr.length * (g.keysize + g.P) := by
      rw [List.length_append, length_encodeSIZE_T,
        length_flat _ _ _ (ptrSlots_uniform g kr hukr), length_ptrSlots]
    have hXle : (encodeSIZE_T g.P e.2 ++ flat (ptrSlots g kr)).length
        ≤ (kps.length - kps.length / 2 - 1)
          * (b.info.keysize + g.m.sizeofSIZE_T + g.m.sizeofSIZE_T) := by
      rw [hXlen, ← hkrl, hks]
      have h1 : kr.length * (g.keysize + g.m.sizeofSIZE_T + g.m.sizeofSIZE_T)
          = kr.length * (g.keysize + g.P) + kr.length * g.P := by
        simp only [Geom.P]; ring
      have h2 : 1 * g.P ≤ kr.length * g.P := Nat.mul_le_mul_right _ (by omega)
      omega
    have hread : readAt b.data ((kps.length / 2 + 1) * (g.m.sizeofSIZE_T + b.info.keysize))
        ((kps.length - kps.length / 2 - 1)
          * (b.info.keysize + g.m.sizeofSIZE_T + g.m.sizeofSIZE_T))
        = (encodeSIZE_T g.P e.2 ++ flat (ptrSlots g kr))
          ++ rest.take ((kps.length - kps.length / 2 - 1)
            * (b.info.keysize + g.m.sizeofSIZE_T + g.m.sizeofSIZE_T)
            - (encodeSIZE_T g.P e.2 ++ flat (ptrSlots g kr)).length) := by
      rw [hd2]
      apply read_over _ _ _ _ _ _ hXle
      simp only [List.length_append, length_encodeSIZE_T,
        length_flat _ _ _ (ptrSlots_uniform g kl hukl), length_ptrSlots, hue.1, hkll, hks, Geom.P]
      ring
    have hXD : (encodeSIZE_T g.P e.2 ++ flat (ptrSlots g kr)).length ≤ b.data.length := by
      rw [hd2]; simp only [List.length_append]; omega
    obtain ⟨rest', hwrite⟩ := write_front b.data _ _ _ hread.symm.symm hXD
    exact ⟨rest', by rw [hrdw]; exact hwrite⟩
  have hu0 := Unserialize_data BTreeNode.default t.buffercache ptr b hb hdat
  obtain ⟨bl, hbl⟩ : ∃ bl, bl = b.withNumkeys (kps.length / 2) := ⟨_, rfl⟩
  obtain ⟨br, hbr⟩ : ∃ br, br = (b.withData rd).withNumkeys (kps.length - kps.length / 2 - 1) :=
    ⟨_, rfl⟩
  obtain ⟨t2, ht2⟩ : ∃ t2 : BTreeIndex, t2 = { t1 with buffercache := { t1.buffercache with
      blocks := ((t1.buffercache.blocks.set x b).set ptr bl).set x br } } := ⟨_, rfl⟩
  have hdev2 : t2.buffercache.blocks = ((t1.buffercache.blocks.set x b).set ptr bl).set x br := by
    rw [ht2]
  have heq : SplitNode g.m t ptr pk0 = some (ERROR_T.ERROR_NOERROR, x, e.1, t2) := by
    unfold SplitNode
    rw [hu0]
    simp only [halloc, Serialize_data b t1.buffercache x hxlt1 hdat, hnl, if_false, hnum,
      Nat.not_lt.mpr hLn, hgk, orKeep, ← hrd]
    rw [Serialize_data _ _ _ (by simpa using hptrlt) (by simpa using hdat)]
    simp only
    rw [Serialize_data _ _ _ (by simpa using hxlt1) (by simpa using hdat)]
    rw [ht2, hbl, hbr]
  have hframe : ∀ j, j ≠ ptr → j ≠ x →
      t2.buffercache.blocks[j]? = t1.buffercache.blocks[j]? := by
    intro j h1 h2
    rw [hdev2, List.getElem?_set_ne (Ne.symm h2), List.getElem?_set_ne (Ne.symm h1),
      List.getElem?_set_ne (Ne.symm h2)]
  refine ⟨t2, bl, br, kl, e, kr, heq, hkps, hkll, ?_, ?_, ?_, by rw [hbl]; rfl,
    by rw [hbr]; rfl, ?_, ?_, ?_, SplitNode_keeps g.m t hs ptr hptr0 pk0 _ _ _ _ heq, ?_, ?_⟩
  · rw [hdev2, List.getElem?_set_ne hxptr, List.getElem?_set_self (by simpa using hptrlt)]
  · rw [hdev2, List.getElem?_set_self (by simpa using hxlt1)]
  · rw [hbl]
    refine ⟨hty, ⟨hks, hvs, hbs, hlen⟩, ?_, ?_, hukl, hp0,
      e.1 ++ (encodeSIZE_T g.P e.2 ++ flat (ptrSlots g kr)) ++ rest, ?_⟩
    · show kps.length / 2 = _
      rw [hkll]
    · omega
    · show b.data = _
      rw [hd2]; simp only [List.append_assoc]
  · rw [hbr]
    exact ⟨hks, hvs, hbs, hrdlen⟩
  · rw [hbr]
    show kps.length - kps.length / 2 - 1 = _
    rw [hkrl]
  · intro hkr
    obtain ⟨rest', hform⟩ := hrdform hkr
    rw [hbr]
    refine ⟨hty, ⟨hks, hvs, hbs, hrdlen⟩, ?_, ?_, hukr, hue.2, rest', ?_⟩
    · show kps.length - kps.length / 2 - 1 = _
      rw [hkrl]
    · omega
    · show rd = _
      exact hform
  · have hfl : t2.superblock.info.freelist = t1.superblock.info.freelist := by rw [ht2]
    rw [hfl]
    apply FreeChain_frame _ _ _ _ hf1
    intro j hj
    apply hframe
    · rintro rfl
      obtain ⟨_, b', hb', hty'⟩ := FreeChain_mem _ _ _ hf1 j hj
      rw [hfr1 j hptr0, hb] at hb'
      cases hb'
      rw [hty'] at hdat
      cases hdat
    · rintro rfl
      exact hxn hj
  · intro j h0 h1 h2
    rw [hframe j h1 h2, hfr1 j h0]

/-! ## Carrying the well-formedness of all blocks over a step -/

theorem WBs_step {g : Geom} {ks ks' : List KEY_T} {dev dev' : List BTreeNode}
    {ht ht' sl sl' : Nat → Nat} (hw : WBs g ks dev ht sl) (hks : ∀ k ∈ ks, k ∈ ks')
    (hE : ∀ p, Live dev p → Live dev' p ∧ ht' p = ht p)
    (hch : ∀ j c, dev'[j]? = some c →
      (dev[j]? = some c ∧ sl' j ≤ sl j) ∨ WB g ks' dev' ht' j c (sl' j)) :
    WBs g ks' dev' ht' sl' := by
  intro j c hc
  rcases hch j c hc with ⟨hold, hle⟩ | hnew
  · cases hd : hasData c.info.nodetype with
    | false => exact WB_nodata g ks' dev' ht' j c _ hd
    | true =>
      exact WB_weaken (WB_mono (hw j c hold) hks hE (hE j ⟨c, hold, hd⟩).2) _ hle
  · exact hnew

theorem node_type_cases (b : BTreeNode) (hd : hasData b.info.nodetype = true) :
    b.info.nodetype = NodeType.BTREE_LEAF_NODE ∨
      (b.info.nodetype = NodeType.BTREE_ROOT_NODE ∨
        b.info.nodetype = NodeType.BTREE_INTERIOR_NODE) := by
  cases hty : b.info.nodetype with
  | BTREE_UNALLOCATED_BLOCK => rw [hty] at hd; cases hd
  | BTREE_SUPERBLOCK => rw [hty] at hd; cases hd
  | BTREE_ROOT_NODE => exact Or.inr (Or.inl rfl)
  | BTREE_INTERIOR_NODE => exact Or.inr (Or.inr rfl)
  | BTREE_LEAF_NODE => exact Or.inl rfl

theorem super_WB (g : Geom) (ks : List KEY_T) (t : BTreeIndex) (hs : SuperOK t)
    (ht : Nat → Nat) (c : BTreeNode) (s : Nat) (hc : t.buffercache.blocks[0]? = some c) :
    WB g ks t.buffercache.blocks ht 0 c s := by
  apply WB_nodata
  rw [hs.2.2.2] at hc
  cases hc
  rw [hs.2.1]
  rfl

/-! ## Splitting a full node -/

theorem wsplit (g : Geom) (hL : 3 ≤ g.capL) (hI : 1 ≤ g.capI) (ks : List KEY_T) (t : BTreeIndex)
    (hs : SuperOK t) (ht sl : Nat → Nat) (ptr : Nat) (b : BTreeNode)
    (hw : WBs g ks t.buffercache.blocks ht sl) (hsl : sl ptr = 0)
    (hb : t.buffercache.blocks[ptr]? = some b) (hd : hasData b.info.nodetype = true)
    (hsp : NeedToSplit g.m t ptr = true) (x : Nat) (xs : List Nat)
    (hf : FreeChain t.buffercache.blocks t.superblock.info.freelist (x :: xs)) :
    ∃ t2 pk bl br, SplitNode g.m t ptr [] = some (ERROR_T.ERROR_NOERROR, x, pk, t2) ∧
      pk.length = g.keysize ∧ Keeps t t2 ∧
      FreeChain t2.buffercache.blocks t2.superblock.info.freelist xs ∧
      t2.buffercache.blocks[ptr]? = some bl ∧ t2.buffercache.blocks[x]? = some br ∧
      bl.info.nodetype = b.info.nodetype ∧ br.info.nodetype = b.info.nodetype ∧
      (b.info.nodetype ≠ NodeType.BTREE_LEAF_NODE →
        bl.info.numkeys = g.capI / 2 ∧ br.info.numkeys = g.capI - g.capI / 2 - 1) ∧
      WBs g ks t2.buffercache.blocks (Function.update ht x (ht ptr))
        (fun j => if j = ptr ∨ j = x then 1 else sl j) ∧
      (∀ p, Live t.buffercache.blocks p →
        Live t2.buffercache.blocks p ∧ Function.update ht x (ht ptr) p = ht p) ∧
      (∀ j, j ≠ 0 → j ≠ ptr → j ≠ x →
        t2.buffercache.blocks[j]? = t.buffercache.blocks[j]?) := by
  have hx0 : x ≠ 0 := (FreeChain_mem _ _ _ hf x (List.mem_cons_self _ _)).1
  have hxl : ¬ Live t.buffercache.blocks x :=
    fun hl => Live_not_free hf hl (List.mem_cons_self _ _)
  have hxptr : x ≠ ptr := fun he => hxl (he ▸ ⟨b, hb, hd⟩)
  have hptr0 : ptr ≠ 0 := data_ne_zero hs hb hd
  have hwb := hw ptr b hb
  rw [hsl] at hwb
  -- what is common to both kinds of node, once the two halves are known
  have hfin : ∀ (t2 : BTreeIndex) (bl br : BTreeNode), SuperOK t2 →
      t2.buffercache.blocks[ptr]? = some bl → t2.buffercache.blocks[x]? = some br →
      bl.info.nodetype = b.info.nodetype →
      (∀ j, j ≠ 0 → j ≠ ptr → j ≠ x →
        t2.buffercache.blocks[j]? = t.buffercache.blocks[j]?) →
      ((∀ p, Live t.buffercache.blocks p →
          Live t2.buffercache.blocks p ∧ Function.update ht x (ht ptr) p = ht p) →
        WB g ks t2.buffercache.blocks (Function.update ht x (ht ptr)) ptr bl 1 ∧
        WB g ks t2.buffercache.blocks (Function.update ht x (ht ptr)) x br 1) →
      WBs g ks t2.buffercache.blocks (Function.update ht x (ht ptr))
        (fun j => if j = ptr ∨ j = x then 1 else sl j) ∧
      (∀ p, Live t.buffercache.blocks p →
        Live t2.buffercache.blocks p ∧ Function.update ht x (ht ptr) p = ht p) := by
    intro t2 bl br hs2 hbl hbr htl hfr hwlr
    have hE : ∀ p, Live t.buffercache.blocks p →
        Live t2.buffercache.blocks p ∧ Function.update ht x (ht ptr) p = ht p := by
      intro p hp
      have hpx : p ≠ x := fun he => hxl (he ▸ hp)
      refine ⟨?_, Function.update_noteq hpx _ _⟩
      by_cases hpp : p = ptr
      · rw [hpp]; exact ⟨bl, hbl, by rw [htl]; exact hd⟩
      · obtain ⟨c, hc, hcd⟩ := hp
        exact ⟨c, by rw [hfr p (data_ne_zero hs hc hcd) hpp hpx]; exact hc, hcd⟩
    obtain ⟨hwl, hwr⟩ := hwlr hE
    refine ⟨WBs_step hw (fun k hk => hk) hE ?_, hE⟩
    intro j c hc
    by_cases hjp : j = ptr
    · right
      subst hjp
      rw [hbl] at hc
      cases hc
      simpa using hwl
    · by_cases hjx : j = x
      · right
        subst hjx
        rw [hbr] at hc
        cases hc
        simpa using hwr
      · by_cases hj0 : j = 0
        · right
          subst hj0
          exact super_WB g ks t2 hs2 _ c _ hc
        · left
          refine ⟨by rw [← hfr j hj0 hjp hjx]; exact hc, ?_⟩
          simp only [hjp, hjx, or_self, if_false, le_refl]
  have hupx : Function.update ht x (ht ptr) x = ht ptr := Function.update_same _ _ _
  have hupp : Function.update ht x (ht ptr) ptr = ht ptr :=
    Function.update_noteq (Ne.symm hxptr) _ _
  rcases node_type_cases b hd with hty | hty
  · -- a leaf
    obtain ⟨hh0, es, hl, hes⟩ := hwb.1 hty
    rw [NeedToSplit_leaf g t ptr b es 0 hb hl] at hsp
    have hfull : es.length = g.capL := by
      have : g.capL = es.length := by simpa using hsp
      exact this.symm
    obtain ⟨t2, bl, br, el, e, er, heq, hes', her, hbl, hbr, hll, hlr, hkeep, hf2, hfr⟩ :=
      SplitNode_leaf g t hs ptr b es hb hl hfull hL x xs hf []
    have htl : bl.info.nodetype = b.info.nodetype := by rw [hll.1, hty]
    have htr : br.info.nodetype = b.info.nodetype := by rw [hlr.1, hty]
    obtain ⟨hW, hE⟩ := hfin t2 bl br hkeep.1 hbl hbr htl hfr (by
      intro _
      refine ⟨⟨fun _ => ⟨by rw [hupp]; exact hh0, el ++ [e], hll, ?_⟩, ?_⟩,
        ⟨fun _ => ⟨by rw [hupx]; exact hh0, er, hlr, ?_⟩, ?_⟩⟩
      · intro y hy
        apply hes
        rw [hes']
        rcases List.mem_append.mp hy with hy | hy
        · exact List.mem_append_left _ hy
        · rw [List.mem_singleton.mp hy]
          exact List.mem_append_right _ (List.mem_cons_self _ _)
      · intro h
        rw [hll.1] at h
        rcases h with h | h <;> cases h
      · intro y hy
        apply hes
        rw [hes']
        exact List.mem_append_right _ (List.mem_cons_of_mem _ hy)
      · intro h
        rw [hlr.1] at h
        rcases h with h | h <;> cases h)
    exact ⟨t2, e.1, bl, br, heq,
      (hll.2.2.2.2.1 e (List.mem_append_right _ (List.mem_singleton_self _))).1, hkeep, hf2,
      hbl, hbr, htl, htr, fun hn => absurd hty hn, hW, hE, hfr⟩
  · -- a root or interior node
    have hnl : b.info.nodetype ≠ NodeType.BTREE_LEAF_NODE := by
      rcases hty with h | h <;> rw [h] <;> simp
    obtain ⟨hh1, hhdr, hcap, hk⟩ := hwb.2 hty
    have hnum : b.info.numkeys = g.capI := by
      unfold NeedToSplit at hsp
      rw [Unserialize_data _ _ _ _ hb hd] at hsp
      have : g.capI = b.info.numkeys := by
        rcases hty with hty | hty <;>
          simpa only [hty, slots_int_of_hdr g b hhdr, decide_eq_true_eq] using hsp
      exact this.symm
    rcases hk with hz | ⟨p0, kps, hne, hint, hkids⟩
    · omega
    have hfull : kps.length = g.capI := by rw [← hint.2.2.1]; exact hnum
    obtain ⟨t2, bl, br, kl, e, kr, heq, hkps, hkll, hbl, hbr, hil, htl, htr, hhr, hnr, hir,
      hkeep, hf2, hfr⟩ := SplitNode_int_any g t hs ptr b p0 kps hb hint hfull hI x xs hf []
    have hlen : kl.length + 1 + kr.length = kps.length := by
      have := congrArg List.length hkps
      simp only [List.length_append, List.length_cons] at this
      omega
    obtain ⟨hW, hE⟩ := hfin t2 bl br hkeep.1 hbl hbr htl hfr (by
      intro hE
      refine ⟨⟨?_, fun _ => ⟨by rw [hupp]; exact hh1, hil.2.1, ?_, ?_⟩⟩,
        ⟨?_, fun _ => ⟨by rw [hupx]; exact hh1, hhr, ?_, ?_⟩⟩⟩
      · intro h
        rw [htl] at h
        exact absurd h hnl
      · rw [hil.2.2.1]; exact hil.2.2.2.1
      · by_cases hkl : kl = []
        · left
          rw [hil.2.2.1, hkl]
          rfl
        · right
          refine ⟨p0, kl, hkl, hil, ?_⟩
          intro p hp
          obtain ⟨hlv, hhp⟩ := hkids p (by rw [hkps]; exact kidsOf_left p0 kl e kr p hp)
          obtain ⟨hlv2, hh2⟩ := hE p hlv
          exact ⟨hlv2, by rw [hh2, hupp]; exact hhp⟩
      · intro h
        rw [htr] at h
        exact absurd h hnl
      · rw [hnr]; omega
      · by_cases hkr : kr = []
        · left
          rw [hnr, hkr]
          rfl
        · right
          refine ⟨e.2, kr, hkr, hir hkr, ?_⟩
          intro p hp
          obtain ⟨hlv, hhp⟩ := hkids p (by rw [hkps]; exact kidsOf_right p0 kl e kr p hp)
          obtain ⟨hlv2, hh2⟩ := hE p hlv
          exact ⟨hlv2, by rw [hh2, hupx]; exact hhp⟩)
    refine ⟨t2, e.1, bl, br, heq,
      (hint.2.2.2.2.1 e (by rw [hkps]; exact List.mem_append_right _ (List.mem_cons_self _ _))).1,
      hkeep, hf2, hbl, hbr, htl, htr, fun _ => ⟨?_, ?_⟩, hW, hE, hfr⟩
    · rw [hil.2.2.1, hkll, hfull]
    · rw [hnr, ← hfull]; omega


/-! ## The descent of Insert on a device of well-formed blocks -/

theorem wdescent (g : Geom) (hL : 3 ≤ g.capL) (hI : 1 ≤ g.capI) (key : KEY_T) (v : VALUE_T)
    (hkey : key.length = g.keysize) (hv : v.length = g.valuesize) (ks : List KEY_T) :
    ∀ (h fuel : Nat) (t : BTreeIndex) (ht : Nat → Nat) (blk parent : Nat) (fl : List Nat),
      h < fuel → SuperOK t → t.buffercache.blocks.length ≤ 256 ^ g.P →
      FreeChain t.buffercache.blocks t.superblock.info.freelist fl →
      WBs g ks t.buffercache.blocks ht (fun _ => 1) →
      Live t.buffercache.blocks blk → ht blk = h →
      (∃ t1 ht1 fl',
        SearchInternal2 g.m fuel t blk key v parent = some (ERROR_T.ERROR_NOERROR, t1) ∧
        FreeChain t1.buffercache.blocks t1.superblock.info.freelist fl' ∧
        fl'.length ≤ fl.length ∧
        WBs g (key :: ks) t1.buffercache.blocks ht1 (fun j => if j = blk then 0 else 1) ∧
        (∀ c, t1.buffercache.blocks[blk]? = some c → 1 ≤ c.info.numkeys) ∧
        (∀ p, Live t.buffercache.blocks p → Live t1.buffercache.blocks p ∧ ht1 p = ht p) ∧
        (∀ j, Live t.buffercache.blocks j → h < ht j →
          t1.buffercache.blocks[j]? = t.buffercache.blocks[j]?)) ∨
      (∃ rc t1, SearchInternal2 g.m fuel t blk key v parent = some (rc, t1) ∧
        rc ≠ ERROR_T.ERROR_NOERROR ∧
        t1.buffercache.blocks[blk]? = t.buffercache.blocks[blk]? ∧
        (∀ j, Live t.buffercache.blocks j → h < ht j →
          t1.buffercache.blocks[j]? = t.buffercache.blocks[j]?)) := by
  intro h
  induction h with
  | zero =>
    intro fuel t ht blk parent fl hf hs hN hfl hw hlive hh
    left
    obtain ⟨f, rfl⟩ : ∃ f, fuel = f + 1 := ⟨fuel - 1, by omega⟩
    obtain ⟨b, hb, hd⟩ := hlive
    have hu := Unserialize_data BTreeNode.default t.buffercache blk b hb hd
    have hwb := hw blk b hb
    have hty : b.info.nodetype = NodeType.BTREE_LEAF_NODE := by
      rcases node_type_cases b hd with hty | hty
      · exact hty
      · have := (hwb.2 hty).1; omega
    obtain ⟨_, es, hl, hes⟩ := hwb.1 hty
    obtain ⟨b', hadd, hl'⟩ := AddKeyVal_leaf g t blk b es key v 0 hb hl hkey hv
    have hlt := lt_length_of_getElem? hb
    have hself : (t.put blk b').buffercache.blocks[blk]? = some b' := by
      show (t.buffercache.blocks.set blk b')[blk]? = some b'
      rw [List.getElem?_set_self hlt]
    have hother : ∀ j, j ≠ blk →
        (t.put blk b').buffercache.blocks[j]? = t.buffercache.blocks[j]? := by
      intro j hj
      show (t.buffercache.blocks.set blk b')[j]? = _
      rw [List.getElem?_set_ne (Ne.symm hj)]
    have hE : ∀ p, Live t.buffercache.blocks p →
        Live (t.put blk b').buffercache.blocks p ∧ ht p = ht p := by
      intro p hp
      refine ⟨?_, rfl⟩
      by_cases hpb : p = blk
      · rw [hpb]; exact ⟨b', hself, hl'.leafHasData⟩
      · obtain ⟨c, hc, hcd⟩ := hp
        exact ⟨c, by rw [hother p hpb]; exact hc, hcd⟩
    refine ⟨t.put blk b', ht, fl, ?_, ?_, le_refl _, ?_, ?_, hE, ?_⟩
    · rw [SearchInternal2_leaf g.m f t blk key v parent b hu hty, hadd]
    · apply FreeChain_frame _ _ _ _ hfl
      intro j hj
      apply hother
      rintro rfl
      exact Live_not_free hfl ⟨b, hb, hd⟩ hj
    · apply WBs_step hw (fun k hk => List.mem_cons_of_mem _ hk) hE
      intro j c hc
      by_cases hjb : j = blk
      · right
        subst hjb
        rw [hself] at hc
        cases hc
        simp only [if_true]
        refine ⟨fun _ => ⟨hh, _, hl', ?_⟩, ?_⟩
        · intro e he
          rcases (mem_insSlot key (key, v) e es).mp he with h1 | h1
          · rw [h1]; exact List.mem_cons_self _ _
          · exact List.mem_cons_of_mem _ (hes e h1)
        · intro h
          rw [hl'.1] at h
          rcases h with h | h <;> cases h
      · left
        refine ⟨by rw [← hother j hjb]; exact hc, ?_⟩
        simp only [hjb, if_false, le_refl]
    · intro c hc
      rw [hself] at hc
      cases hc
      rw [hl'.2.2.1, length_insSlot]
      omega
    · intro j _ hj
      apply hother
      rintro rfl
      omega
  | succ h ih =>
    intro fuel t ht blk parent fl hf hs hN hfl hw hlive hh
    obtain ⟨f, rfl⟩ : ∃ f, fuel = f + 1 := ⟨fuel - 1, by omega⟩
    obtain ⟨b, hb, hd⟩ := hlive
    have hu := Unserialize_data BTreeNode.default t.buffercache blk b hb hd
    have hwb := hw blk b hb
    have hty : b.info.nodetype = NodeType.BTREE_ROOT_NODE ∨
        b.info.nodetype = NodeType.BTREE_INTERIOR_NODE := by
      rcases node_type_cases b hd with hty | hty
      · have := (hwb.1 hty).1; omega
      · exact hty
    obtain ⟨_, hhdr, hcap, hk⟩ := hwb.2 hty
    have hblk0 : blk ≠ 0 := data_ne_zero hs hb hd
    rcases hk with hz | ⟨p0, kps, hne, hint, hkids⟩
    · right
      refine ⟨ERROR_T.ERROR_NONEXISTENT, t, ?_, by simp, rfl, fun _ _ _ => rfl⟩
      rw [SearchInternal2, hu]
      rcases hty with hty | hty <;> simp only [hty, pickChild_empty g.m b key hz]
    have hne1 : 1 ≤ kps.length := by
      cases kps with
      | nil => exact absurd rfl hne
      | cons a r => simp
    have hp := pickChild_spec g b p0 1 kps key hint hne1
    obtain ⟨hlp, hhp⟩ := hkids _ (pick_mem key kps p0)
    have hhp' : ht (pick key p0 kps) = h := by omega
    obtain ⟨hstepA, hstepB⟩ := SearchInternal2_int g.m f t blk key v parent b _ hu hty hp
    rcases ih f t ht (pick key p0 kps) blk fl (by omega) hs hN hfl hw hlp hhp' with
      ⟨t1, ht1, fl', hrun, hfl1, hlen1, hw1, _, hE1, hF1⟩ | ⟨rc, t1, hrun, hrc, _, hF1⟩
    swap
    · right
      refine ⟨rc, t1, hstepB rc t1 hrun hrc, hrc, hF1 blk ⟨b, hb, hd⟩ (by omega), ?_⟩
      intro j hj hlt
      exact hF1 j hj (by omega)
    have hkeep1 := SearchInternal2_keeps g.m f t hs _ key v blk _ t1 hrun
    have hs1 : SuperOK t1 := hkeep1.1
    have hb1 : t1.buffercache.blocks[blk]? = some b := by
      rw [hF1 blk ⟨b, hb, hd⟩ (by omega)]; exact hb
    have hptrblk : pick key p0 kps ≠ blk := by
      intro he
      rw [he] at hhp'
      omega
    obtain ⟨hlp1, hhp1⟩ := hE1 _ hlp
    obtain ⟨c1, hc1, hcd1⟩ := hlp1
    rw [hstepA t1 hrun]
    by_cases hsp : NeedToSplit g.m t1 (pick key p0 kps) = true
    swap
    · -- the child is not full
      left
      have hsp' : NeedToSplit g.m t1 (pick key p0 kps) = false := by
        cases hx : NeedToSplit g.m t1 (pick key p0 kps)
        · rfl
        · exact absurd hx hsp
      refine ⟨t1, ht1, fl', ?_, hfl1, hlen1, ?_, ?_, hE1, ?_⟩
      · unfold splitChild
        simp only [hsp', Bool.false_eq_true, if_false]
      · intro j c hc
        by_cases hjp : j = pick key p0 kps
        · have h0 := hw1 j c hc
          simp only [hjp, if_true] at h0
          have h1 := WB_unsplit g (key :: ks) t1 ht1 _ c (by rw [← hjp]; exact hc) h0 hsp'
          rw [hjp]
          simp only [hptrblk, if_false]
          exact h1
        · have h0 := hw1 j c hc
          simp only [hjp, if_false] at h0
          exact WB_weaken h0 _ (by show (if j = blk then 0 else 1) ≤ 1; split <;> omega)
      · intro c hc
        rw [hb1] at hc
        cases hc
        rw [hint.2.2.1]
        exact hne1
      · intro j hj hlt
        exact hF1 j hj (by omega)
    · -- the child is full
      cases fl' with
      | nil =>
        right
        have hhead : t1.superblock.info.freelist = 0 := hfl1
        refine ⟨ERROR_T.ERROR_NOSPACE, t1, ?_, by simp, hF1 blk ⟨b, hb, hd⟩ (by omega), ?_⟩
        · unfold splitChild
          simp only [hsp, if_true]
          unfold SplitNode
          simp only [AllocateNode_nospace t1 hhead]
        · intro j hj hlt
          exact hF1 j hj (by omega)
      | cons x xs =>
        left
        obtain ⟨t2, pk, bl, br, hsplit, hpkl, hkeep2, hfl2, hbl, hbr, htl, htr, _, hw2, hE2,
          hfr2⟩ := wsplit g hL hI (key :: ks) t1 hs1 ht1 _ (pick key p0 kps) c1 hw1
            (by simp) hc1 hcd1 hsp x xs hfl1
        have hxl1 : ¬ Live t1.buffercache.blocks x :=
          fun hl => Live_not_free hfl1 hl (List.mem_cons_self _ _)
        have hxblk : blk ≠ x := fun he => hxl1 (he ▸ ⟨b, hb1, hd⟩)
        have hxlt : x < t1.buffercache.blocks.length := by
          obtain ⟨_, bx, hbx, _⟩ := FreeChain_mem _ _ _ hfl1 x (List.mem_cons_self _ _)
          exact lt_length_of_getElem? hbx
        have hx256 : x < 256 ^ g.P := by
          have := hkeep1.2.2.1
          omega
        have hb2 : t2.buffercache.blocks[blk]? = some b := by
          rw [hfr2 blk hblk0 (Ne.symm hptrblk) hxblk]; exact hb1
        obtain ⟨b', hadd, hint', hty'⟩ := AddKeyVal_int g t2 blk b p0 kps pk x hb2 hint hne1
          hpkl hx256
        have hlt2 := lt_length_of_getElem? hb2
        have hself : (t2.put blk b').buffercache.blocks[blk]? = some b' := by
          show (t2.buffercache.blocks.set blk b')[blk]? = some b'
          rw [List.getElem?_set_self hlt2]
        have hother : ∀ j, j ≠ blk →
            (t2.put blk b').buffercache.blocks[j]? = t2.buffercache.blocks[j]? := by
          intro j hj
          show (t2.buffercache.blocks.set blk b')[j]? = _
          rw [List.getElem?_set_ne (Ne.symm hj)]
        have hE3 : ∀ p, Live t2.buffercache.blocks p →
            Live (t2.put blk b').buffercache.blocks p ∧
              Function.update ht1 x (ht1 (pick key p0 kps)) p
                = Function.update ht1 x (ht1 (pick key p0 kps)) p := by
          intro p hp
          refine ⟨?_, rfl⟩
          by_cases hpb : p = blk
          · rw [hpb]; exact ⟨b', hself, hint'.nodeHasData⟩
          · obtain ⟨c, hc, hcd⟩ := hp
            exact ⟨c, by rw [hother p hpb]; exact hc, hcd⟩
        have hE : ∀ p, Live t.buffercache.blocks p →
            Live (t2.put blk b').buffercache.blocks p ∧
              Function.update ht1 x (ht1 (pick key p0 kps)) p = ht p := by
          intro p hp
          obtain ⟨hl1, hh1⟩ := hE1 p hp
          obtain ⟨hl2, hh2⟩ := hE2 p hl1
          exact ⟨(hE3 p hl2).1, by rw [hh2, hh1]⟩
        refine ⟨t2.put blk b', Function.update ht1 x (ht1 (pick key p0 kps)), xs, ?_, ?_, ?_, ?_,
          ?_, hE, ?_⟩
        · unfold splitChild
          simp only [hsp, if_true, hsplit, hadd]
        · apply FreeChain_frame _ _ _ _ hfl2
          intro j hj
          apply hother
          rintro rfl
          exact Live_not_free hfl1 ⟨b, hb1, hd⟩ (List.mem_cons_of_mem _ hj)
        · simp only [List.length_cons] at hlen1
          omega
        · apply WBs_step hw2 (fun k hk => hk) hE3
          intro j c hc
          by_cases hjb : j = blk
          · right
            subst hjb
            rw [hself] at hc
            cases hc
            simp only [if_true]
            have hupb : Function.update ht1 x (ht1 (pick key p0 kps)) j = h + 1 := by
              rw [Function.update_noteq hxblk, (hE1 j ⟨b, hb, hd⟩).2, hh]
            refine ⟨?_, fun _ => ⟨by rw [hupb]; omega, hint'.2.1, ?_, Or.inr
              ⟨p0, insSlot pk (pk, x) kps, ?_, hint', ?_⟩⟩⟩
            · intro h
              rcases hint'.1 with h1 | h1 <;> rw [h1] at h <;> cases h
            · rw [hint'.2.2.1]; exact hint'.2.2.2.1
            · intro h
              have := congrArg List.length h
              rw [length_insSlot] at this
              simp at this
            · intro p hp
              rcases kidsOf_insSlot pk x p0 kps p hp with hpx | hpo
              · rw [hpx]
                refine ⟨⟨br, by rw [hother x (Ne.symm hxblk)]; exact hbr,
                  by rw [htr]; exact hcd1⟩, ?_⟩
                rw [Function.update_same, hupb, hhp1, hhp']
              · obtain ⟨hlv, hhv⟩ := hkids p hpo
                obtain ⟨hlv', hhv'⟩ := hE p hlv
                exact ⟨hlv', by rw [hhv', hupb, hhv, hh]⟩
          · left
            refine ⟨by rw [← hother j hjb]; exact hc, ?_⟩
            show (if j = blk then 0 else 1) ≤ (if j = pick key p0 kps ∨ j = x then 1
              else (if j = pick key p0 kps then 0 else 1))
            by_cases hjp : j = pick key p0 kps
            · simp [hjp, hptrblk]
            · simp [hjb, hjp]
        · intro c hc
          rw [hself] at hc
          cases hc
          rw [hint'.2.2.1, length_insSlot]
          omega
        · intro j hj hlt
          have hj1 := (hE1 j hj).1
          have hjx : j ≠ x := fun he => hxl1 (he ▸ hj1)
          have hjb : j ≠ blk := by
            rintro rfl
            omega
          have hjp : j ≠ pick key p0 kps := by
            rintro rfl
            omega
          obtain ⟨c, hc, hcd⟩ := hj
          rw [hother j hjb, hfr2 j (data_ne_zero hs hc hcd) hjp hjx]
          exact hF1 j ⟨c, hc, hcd⟩ (by omega)


/-! ## Splitting the root on a device of well-formed blocks -/

theorem wsplitRoot (g : Geom) (hL : 3 ≤ g.capL) (hI : 1 ≤ g.capI) (ks : List KEY_T)
    (t1 : BTreeIndex) (hs1 : SuperOK t1) (hN : t1.buffercache.blocks.length ≤ 256 ^ g.P)
    (ht : Nat → Nat) (fl : List Nat) (b : BTreeNode)
    (hb : t1.buffercache.blocks[t1.superblock.info.rootnode]? = some b)
    (hty : b.info.nodetype = NodeType.BTREE_ROOT_NODE ∨
      b.info.nodetype = NodeType.BTREE_INTERIOR_NODE)
    (hw : WBs g ks t1.buffercache.blocks ht
      (fun j => if j = t1.superblock.info.rootnode then 0 else 1))
    (hsp : NeedToSplit g.m t1 t1.superblock.info.rootnode = true)
    (hfl : FreeChain t1.buffercache.blocks t1.superblock.info.freelist fl)
    (rootObj : BTreeNode)
    (hroty : rootObj.info.nodetype = NodeType.BTREE_ROOT_NODE ∨
      rootObj.info.nodetype = NodeType.BTREE_INTERIOR_NODE)
    (hrohdr : HdrOK g rootObj) :
    (∃ rc t2, splitRoot g.m t1 rootObj t1.superblock.info.rootnode = some (rc, t2) ∧
      rc ≠ ERROR_T.ERROR_NOERROR) ∨
    (∃ t2 ht2 fl' b4, splitRoot g.m t1 rootObj t1.superblock.info.rootnode
        = some (ERROR_T.ERROR_NOERROR, t2) ∧ SuperOK t2 ∧
      t2.superblock.info.keysize = t1.superblock.info.keysize ∧
      t2.superblock.info.valuesize = t1.superblock.info.valuesize ∧
      t2.buffercache.blocksize = t1.buffercache.blocksize ∧
      t2.buffercache.blocks.length = t1.buffercache.blocks.length ∧
      FreeChain t2.buffercache.blocks t2.superblock.info.freelist fl' ∧
      fl'.length + 2 ≤ fl.length ∧
      ht2 t2.superblock.info.rootnode = ht t1.superblock.info.rootnode + 1 ∧
      t2.buffercache.blocks[t2.superblock.info.rootnode]? = some b4 ∧
      (b4.info.nodetype = NodeType.BTREE_ROOT_NODE ∨
        b4.info.nodetype = NodeType.BTREE_INTERIOR_NODE) ∧ b4.info.numkeys = 1 ∧
      WBs g ks t2.buffercache.blocks ht2
        (fun j => if j = t2.superblock.info.rootnode then 0 else 1) ∧
      (b4.info.numkeys + 1 ≤ g.capI ∨
        ∃ p0 kps, IntAt g b4 p0 kps 0 ∧ ∀ p ∈ kidsOf p0 kps, Dead t2.buffercache.blocks p)) := by
  have hd : hasData b.info.nodetype = true := by rcases hty with h | h <;> rw [h] <;> rfl
  have hnl : b.info.nodetype ≠ NodeType.BTREE_LEAF_NODE := by
    rcases hty with h | h <;> rw [h] <;> simp
  have hr0 : t1.superblock.info.rootnode ≠ 0 := data_ne_zero hs1 hb hd
  have hrlt : t1.superblock.info.rootnode < t1.buffercache.blocks.length :=
    lt_length_of_getElem? hb
  cases fl with
  | nil =>
    left
    have h0 : t1.superblock.info.freelist = 0 := hfl
    have hsn : SplitNode g.m t1 t1.superblock.info.rootnode []
        = some (ERROR_T.ERROR_NOSPACE, 0, [], t1) := by
      unfold SplitNode
      simp only [AllocateNode_nospace t1 h0]
    obtain ⟨t4, h4⟩ := AllocateNode_nospace_root
      { t1 with buffercache := (((((BTreeNode.mk4 g.m NodeType.BTREE_INTERIOR_NODE
        t1.superblock.info.keysize t1.superblock.info.valuesize
        t1.buffercache.blocksize).Unserialize t1.buffercache
          t1.superblock.info.rootnode).2.Unserialize
        (((BTreeNode.mk4 g.m NodeType.BTREE_INTERIOR_NODE
        t1.superblock.info.keysize t1.superblock.info.valuesize
        t1.buffercache.blocksize).Unserialize t1.buffercache
          t1.superblock.info.rootnode).2.Serialize t1.buffercache
            t1.superblock.info.rootnode).2 0).2).Serialize
        (((BTreeNode.mk4 g.m NodeType.BTREE_INTERIOR_NODE
        t1.superblock.info.keysize t1.superblock.info.valuesize
        t1.buffercache.blocksize).Unserialize t1.buffercache
          t1.superblock.info.rootnode).2.Serialize t1.buffercache
            t1.superblock.info.rootnode).2 0).2 } h0
    refine ⟨ERROR_T.ERROR_NOSPACE, t4, ?_, by simp⟩
    unfold splitRoot
    simp only [hsn, h4]
  | cons x fl1 =>
    obtain ⟨t2, pk, bl, br, hsplit, hpkl, hkeep2, hfl2, hbl, hbr, htl, htr, hnums, hw2, hE2,
      hfr2⟩ := wsplit g hL hI ks t1 hs1 ht _ t1.superblock.info.rootnode b hw (by simp) hb hd
        hsp x fl1 hfl
    obtain ⟨hnl2, hnr2⟩ := hnums hnl
    have hs2 : SuperOK t2 := hkeep2.1
    have hdl : hasData bl.info.nodetype = true := by rw [htl]; exact hd
    have hdr : hasData br.info.nodetype = true := by rw [htr]; exact hd
    have hre1 := reserialize_same (BTreeNode.mk4 g.m NodeType.BTREE_INTERIOR_NODE
      t2.superblock.info.keysize t2.superblock.info.valuesize t2.buffercache.blocksize)
      t2.buffercache _ bl hbl hdl
    have hre2 := reserialize_same ((BTreeNode.mk4 g.m NodeType.BTREE_INTERIOR_NODE
      t2.superblock.info.keysize t2.superblock.info.valuesize
      t2.buffercache.blocksize).Unserialize t2.buffercache t1.superblock.info.rootnode).2
      t2.buffercache _ br hbr hdr
    have heta : ({ t2 with buffercache := t2.buffercache } : BTreeIndex) = t2 := rfl
    have hxfl : x ∈ x :: fl1 := List.mem_cons_self _ _
    have hx0 : x ≠ 0 := (FreeChain_mem _ _ _ hfl x hxfl).1
    have hxlt : x < t1.buffercache.blocks.length := by
      obtain ⟨_, bx, hbx, _⟩ := FreeChain_mem _ _ _ hfl x hxfl
      exact lt_length_of_getElem? hbx
    have hxr : x ≠ t1.superblock.info.rootnode :=
      fun he => Live_not_free hfl ⟨b, hb, hd⟩ (he ▸ hxfl)
    cases fl1 with
    | nil =>
      left
      have h0 : t2.superblock.info.freelist = 0 := hfl2
      obtain ⟨t4, h4⟩ := AllocateNode_nospace_root t2 h0
      refine ⟨ERROR_T.ERROR_NOSPACE, t4, ?_, by simp⟩
      unfold splitRoot
      simp only [hsplit, hre1, hre2, heta, h4]
    | cons y ys =>
      right
      obtain ⟨t4, ha4, hs4, hroot4, hlen4, hbs4, hks4, hvs4, hf4, hfr4, hy0, hyn, hylt⟩ :=
        AllocateNode_spec t2 hs2 y ys true hfl2
      simp only [if_true] at hroot4
      have hyl2 : ¬ Live t2.buffercache.blocks y :=
        fun hl => Live_not_free hfl2 hl (List.mem_cons_self _ _)
      have hyx : y ≠ x := fun he => hyl2 (he ▸ ⟨br, hbr, hdr⟩)
      have hyr : y ≠ t1.superblock.info.rootnode := fun he => hyl2 (he ▸ ⟨bl, hbl, hdl⟩)
      obtain ⟨hroot4I, hinfo4⟩ := fillRoot_any g (rootObj.withNumkeys 1) hroty hrohdr 0
        (by omega) rfl pk t1.superblock.info.rootnode x hpkl (by omega) (by omega)
      obtain ⟨root4, hroot4def⟩ : ∃ root4, root4
        = fillRoot g.m (rootObj.withNumkeys 1) pk t1.superblock.info.rootnode x := ⟨_, rfl⟩
      rw [← hroot4def] at hroot4I hinfo4
      have hylt4 : y < t4.buffercache.blocks.length := by rw [hlen4]; exact hylt
      obtain ⟨tf, htf⟩ : ∃ tf : BTreeIndex, tf = { t4 with buffercache := { t4.buffercache with
        blocks := t4.buffercache.blocks.set y root4 } } := ⟨_, rfl⟩
      have hdevf : tf.buffercache.blocks = t4.buffercache.blocks.set y root4 := by rw [htf]
      have hrootf : tf.superblock.info.rootnode = y := by rw [htf]; exact hroot4
      have heq : splitRoot g.m t1 rootObj t1.superblock.info.rootnode
          = some (ERROR_T.ERROR_NOERROR, tf) := by
        unfold splitRoot
        simp only [hsplit, hre1, hre2, heta, ha4, ← hroot4def, hroot4]
        rw [Serialize_data root4 _ _ hylt4 hroot4I.nodeHasData, htf]
      have hframe : ∀ j, j ≠ 0 → j ≠ y →
          tf.buffercache.blocks[j]? = t2.buffercache.blocks[j]? := by
        intro j h0 h1
        rw [hdevf, List.getElem?_set_ne (Ne.symm h1), hfr4 j h0]
      have hsf : SuperOK tf := by
        rw [htf]
        refine ⟨hs4.1, hs4.2.1, hs4.2.2.1, ?_⟩
        show (t4.buffercache.blocks.set y root4)[0]? = _
        rw [List.getElem?_set_ne hy0]
        exact hs4.2.2.2
      have hselff : tf.buffercache.blocks[y]? = some root4 := by
        rw [hdevf, List.getElem?_set_self hylt4]
      have hblf : tf.buffercache.blocks[t1.superblock.info.rootnode]? = some bl := by
        rw [hframe _ hr0 (Ne.symm hyr)]; exact hbl
      have hbrf : tf.buffercache.blocks[x]? = some br := by
        rw [hframe _ hx0 (Ne.symm hyx)]; exact hbr
      obtain ⟨ht2, hht2⟩ : ∃ ht2 : Nat → Nat, ht2 = Function.update ht x
        (ht t1.superblock.info.rootnode) := ⟨_, rfl⟩
      rw [← hht2] at hw2 hE2
      have hh2r : ht2 t1.superblock.info.rootnode = ht t1.superblock.info.rootnode := by
        rw [hht2]; exact Function.update_noteq (Ne.symm hxr) _ _
      have hh2x : ht2 x = ht t1.superblock.info.rootnode := by
        rw [hht2]; exact Function.update_same _ _ _
      have hE3 : ∀ p, Live t2.buffercache.blocks p → Live tf.buffercache.blocks p ∧
          Function.update ht2 y (ht t1.superblock.info.rootnode + 1) p = ht2 p := by
        intro p hp
        have hpy : p ≠ y := fun he => hyl2 (he ▸ hp)
        refine ⟨?_, Function.update_noteq hpy _ _⟩
        obtain ⟨c, hc, hcd⟩ := hp
        exact ⟨c, by rw [hframe p (data_ne_zero hs2 hc hcd) hpy]; exact hc, hcd⟩
      refine ⟨tf, Function.update ht2 y (ht t1.superblock.info.rootnode + 1), ys, root4, heq, hsf,
        ?_, ?_, ?_, ?_, ?_, by simp, ?_, ?_, hroot4I.1, hroot4I.2.2.1, ?_, ?_⟩
      · rw [htf]; exact hks4.trans hkeep2.2.2.2.2.1
      · rw [htf]; exact hvs4.trans hkeep2.2.2.2.2.2
      · rw [htf]; exact hbs4.trans hkeep2.2.2.2.1
      · rw [hdevf, List.length_set, hlen4]; exact hkeep2.2.2.1
      · have hflf : tf.superblock.info.freelist = t4.superblock.info.freelist := by rw [htf]
        rw [hflf]
        apply FreeChain_frame _ _ _ _ hf4
        intro j hj
        rw [hdevf, List.getElem?_set_ne]
        exact fun he => hyn (he ▸ hj)
      · rw [hrootf]; exact Function.update_same _ _ _
      · rw [hrootf]; exact hselff
      · rw [hrootf]
        apply WBs_step hw2 (fun k hk => hk) hE3
        intro j c hc
        by_cases hjy : j = y
        · right
          subst hjy
          rw [hselff] at hc
          cases hc
          simp only [if_true]
          have hupy : Function.update ht2 j (ht t1.superblock.info.rootnode + 1) j
              = ht t1.superblock.info.rootnode + 1 := Function.update_same _ _ _
          refine ⟨?_, fun _ => ⟨by rw [hupy]; omega, hroot4I.2.1, ?_,
            Or.inr ⟨_, _, by simp, hroot4I, ?_⟩⟩⟩
          · intro h
            rcases hroot4I.1 with h1 | h1 <;> rw [h1] at h <;> cases h
          · rw [hroot4I.2.2.1]; exact hroot4I.2.2.2.1
          · intro p hp
            simp only [kidsOf, List.map_cons, List.map_nil, List.mem_cons, List.mem_singleton,
              List.not_mem_nil, or_false] at hp
            rcases hp with hp | hp
            · rw [hp]
              refine ⟨⟨bl, hblf, hdl⟩, ?_⟩
              rw [hupy, Function.update_noteq (Ne.symm hyr), hh2r]
            · rw [hp]
              refine ⟨⟨br, hbrf, hdr⟩, ?_⟩
              rw [hupy, Function.update_noteq (Ne.symm hyx), hh2x]
        · by_cases hj0 : j = 0
          · right
            subst hj0
            exact super_WB g ks tf hsf _ c _ hc
          · left
            refine ⟨by rw [← hframe j hj0 hjy]; exact hc, ?_⟩
            show (if j = y then 0 else 1)
              ≤ (if j = t1.superblock.info.rootnode ∨ j = x then 1
                else (if j = t1.superblock.info.rootnode then 0 else 1))
            by_cases hjr : j = t1.superblock.info.rootnode
            · simp [hjr, Ne.symm hyr]
            · simp [hjy, hjr]
      · by_cases hc2 : 2 ≤ g.capI
        · left
          rw [hroot4I.2.2.1]
          simpa using hc2
        · right
          have hc1 : g.capI = 1 := by omega
          refine ⟨_, _, hroot4I, ?_⟩
          intro p hp
          simp only [kidsOf, List.map_cons, List.map_nil, List.mem_cons, List.mem_singleton,
            List.not_mem_nil, or_false] at hp
          rcases hp with hp | hp
          · rw [hp]
            exact ⟨bl, hblf, by rw [htl]; exact hty, by rw [hnl2, hc1]⟩
          · rw [hp]
            exact ⟨br, hbrf, by rw [htr]; exact hty, by rw [hnr2, hc1]⟩

/-! ## The first insert on a device of well-formed blocks -/

theorem wbootstrap (g : Geom) (hI : 1 ≤ g.capI) (hL : 1 ≤ g.capL) (t : BTreeIndex)
    (hs : SuperOK t) (hks : t.superblock.info.keysize = g.keysize)
    (hvs : t.superblock.info.valuesize = g.valuesize)
    (hbs : t.buffercache.blocksize = g.blocksize)
    (hN : t.buffercache.blocks.length ≤ 256 ^ g.P) (fl : List Nat) (b : BTreeNode)
    (hb : t.buffercache.blocks[t.superblock.info.rootnode]? = some b)
    (hty : b.info.nodetype = NodeType.BTREE_ROOT_NODE ∨
      b.info.nodetype = NodeType.BTREE_INTERIOR_NODE)
    (hhdr : HdrOK g b) (hnum : b.info.numkeys = 0)
    (hfree : FreeChain t.buffercache.blocks t.superblock.info.freelist fl ∨
      (fl = [] ∧ t.superblock.info.freelist = t.buffercache.blocks.length))
    (key : KEY_T) (hkey : key.length = g.keysize) :
    (∃ rc r tb, bootstrap g.m t b key = some (rc, r, tb) ∧ rc ≠ ERROR_T.ERROR_NOERROR) ∨
    (∃ tb root4 x1 x2 fl' leaf, bootstrap g.m t b key = some (ERROR_T.ERROR_NOERROR, root4, tb) ∧
      Keeps t tb ∧ fl = x1 :: x2 :: fl' ∧
      FreeChain t.buffercache.blocks t.superblock.info.freelist fl ∧
      tb.buffercache.blocks[t.superblock.info.rootnode]? = some root4 ∧
      IntAt g root4 x1 [(key, x2)] 0 ∧
      tb.buffercache.blocks[x1]? = some leaf ∧ tb.buffercache.blocks[x2]? = some leaf ∧
      LeafAt g leaf [] 1 ∧ x1 ≠ x2 ∧
      FreeChain tb.buffercache.blocks tb.superblock.info.freelist fl' ∧
      (∀ j, j ≠ 0 → j ≠ x1 → j ≠ x2 → j ≠ t.superblock.info.rootnode →
        tb.buffercache.blocks[j]? = t.buffercache.blocks[j]?)) := by
  have hdat : hasData b.info.nodetype = true := by rcases hty with h | h <;> rw [h] <;> rfl
  have hr0 : t.superblock.info.rootnode ≠ 0 := data_ne_zero hs hb hdat
  rcases hfree with hfc | ⟨_, hdang⟩
  swap
  · left
    obtain ⟨t1, ha1, hf1⟩ := AllocateNode_dangling t hs hdang
    refine ⟨ERROR_T.ERROR_NOSPACE, b, t1, ?_, by simp⟩
    unfold bootstrap
    simp only [ha1, AllocateNode_nospace t1 hf1]
  cases fl with
  | nil =>
    left
    have h0 : t.superblock.info.freelist = 0 := hfc
    refine ⟨ERROR_T.ERROR_NOSPACE, b, t, ?_, by simp⟩
    unfold bootstrap
    simp only [AllocateNode_nospace t h0]
  | cons x1 fl1 =>
    obtain ⟨t1, ha1, hs1, hroot1, hlen1, hbs1, hks1, hvs1, hf1, hfr1, hx10, hx1n, hx1lt⟩ :=
      AllocateNode_spec t hs x1 fl1 false hfc
    cases fl1 with
    | nil =>
      left
      have h0 : t1.superblock.info.freelist = 0 := hf1
      refine ⟨ERROR_T.ERROR_NOSPACE, b, t1, ?_, by simp⟩
      unfold bootstrap
      simp only [ha1, AllocateNode_nospace t1 h0]
    | cons x2 xs =>
      right
      obtain ⟨t2, ha2, hs2, hroot2, hlen2, hbs2, hks2, hvs2, hf2, hfr2, hx20, hx2n, hx2lt⟩ :=
        AllocateNode_spec t1 hs1 x2 xs false hf1
      simp only [Bool.false_eq_true, if_false] at hroot1 hroot2
      have hx12 : x1 ≠ x2 := fun he => hx1n (he ▸ List.mem_cons_self _ _)
      have hx1xs : x1 ∉ xs := fun hx => hx1n (List.mem_cons_of_mem _ hx)
      have hrfree : ∀ j ∈ x1 :: x2 :: xs, j ≠ t.superblock.info.rootnode := by
        intro j hj he
        exact Live_not_free hfc ⟨b, hb, hdat⟩ (he ▸ hj)
      have hrx1 : x1 ≠ t.superblock.info.rootnode := hrfree x1 (by simp)
      have hrx2 : x2 ≠ t.superblock.info.rootnode := hrfree x2 (by simp)
      have hx1lt2 : x1 < t2.buffercache.blocks.length := by rw [hlen2, hlen1]; exact hx1lt
      have hx2lt2 : x2 < t2.buffercache.blocks.length := by rw [hlen2]; exact hx2lt
      have hrlt2 : t.superblock.info.rootnode < t2.buffercache.blocks.length := by
        rw [hlen2, hlen1]; exact lt_length_of_getElem? hb
      have hleaf := leaf_fresh g hL
      obtain ⟨hroot4, hinfo4⟩ := fillRoot_any g (b.withNumkeys (b.info.numkeys + 1))
        hty hhdr 0 (by omega) (by show b.info.numkeys + 1 = 1; rw [hnum]) key x1 x2 hkey
        (by omega) (by rw [hlen1] at hx2lt; omega)
      obtain ⟨leaf, hleafdef⟩ : ∃ leaf, leaf = BTreeNode.mk4 g.m NodeType.BTREE_LEAF_NODE
        g.keysize g.valuesize g.blocksize := ⟨_, rfl⟩
      obtain ⟨root4, hroot4def⟩ : ∃ root4, root4
        = fillRoot g.m (b.withNumkeys (b.info.numkeys + 1)) key x1 x2 := ⟨_, rfl⟩
      rw [← hleafdef] at hleaf
      rw [← hroot4def] at hroot4 hinfo4
      obtain ⟨tb, htb⟩ : ∃ tb : BTreeIndex, tb = { t2 with buffercache := { t2.buffercache with
        blocks := ((t2.buffercache.blocks.set x1 leaf).set x2 leaf).set
          t.superblock.info.rootnode root4 } } := ⟨_, rfl⟩
      have hdevb : tb.buffercache.blocks = ((t2.buffercache.blocks.set x1 leaf).set x2 leaf).set
          t.superblock.info.rootnode root4 := by rw [htb]
      have heq : bootstrap g.m t b key = some (ERROR_T.ERROR_NOERROR, root4, tb) := by
        unfold bootstrap
        simp only [ha1, ha2, hks, hvs, hbs, ← hleafdef, ← hroot4def]
        rw [Serialize_data leaf _ _ hx1lt2 hleaf.leafHasData]
        simp only
        rw [Serialize_data leaf _ _ (by simpa using hx2lt2) hleaf.leafHasData]
        simp only
        rw [Serialize_data root4 _ _ (by simpa [hroot2, hroot1] using hrlt2) hroot4.nodeHasData]
        simp only [hroot2, hroot1, htb]
      have hframe : ∀ j, j ≠ x1 → j ≠ x2 → j ≠ t.superblock.info.rootnode →
          tb.buffercache.blocks[j]? = t2.buffercache.blocks[j]? := by
        intro j h1 h2 h3
        rw [hdevb, List.getElem?_set_ne (Ne.symm h3), List.getElem?_set_ne (Ne.symm h2),
          List.getElem?_set_ne (Ne.symm h1)]
      have hbr : tb.buffercache.blocks[t.superblock.info.rootnode]? = some root4 := by
        rw [hdevb, List.getElem?_set_self (by simpa using hrlt2)]
      have hb1 : tb.buffercache.blocks[x1]? = some leaf := by
        rw [hdevb, List.getElem?_set_ne (Ne.symm hrx1), List.getElem?_set_ne (Ne.symm hx12),
          List.getElem?_set_self hx1lt2]
      have hb2 : tb.buffercache.blocks[x2]? = some leaf := by
        rw [hdevb, List.getElem?_set_ne (Ne.symm hrx2),
          List.getElem?_set_self (by simpa using hx2lt2)]
      refine ⟨tb, root4, x1, x2, xs, leaf, heq, bootstrap_keeps g.m t hs hr0 _ _ key _ _ heq,
        rfl, hfc, hbr, hroot4, hb1, hb2, hleaf, hx12, ?_, ?_⟩
      · have hfl : tb.superblock.info.freelist = t2.superblock.info.freelist := by rw [htb]
        rw [hfl]
        apply FreeChain_frame _ _ _ _ hf2
        intro j hj
        apply hframe
        · rintro rfl; exact hx1xs hj
        · rintro rfl; exact hx2n hj
        · exact hrfree j (by simp [hj])
      · intro j h0 h1 h2 h3
        rw [hframe j h1 h2 h3, hfr2 j h0, hfr1 j h0]

/-! ## Insert keeps the blocks well formed -/

theorem WB_int_slack {g : Geom} {ks : List KEY_T} {dev : List BTreeNode} {ht : Nat → Nat}
    {blk : Nat} {b : BTreeNode} (h : WB g ks dev ht blk b 0)
    (hty : b.info.nodetype = NodeType.BTREE_ROOT_NODE ∨
      b.info.nodetype = NodeType.BTREE_INTERIOR_NODE)
    (hc : b.info.numkeys + 1 ≤ g.capI) : WB g ks dev ht blk b 1 := by
  refine ⟨?_, ?_⟩
  · intro h1
    rcases hty with h2 | h2 <;> rw [h2] at h1 <;> cases h1
  · intro _
    obtain ⟨h0, hhdr, _, hk⟩ := h.2 hty
    refine ⟨h0, hhdr, hc, ?_⟩
    rcases hk with hk | ⟨p0, kps, hne, hint, hkids⟩
    · exact Or.inl hk
    · obtain ⟨a1, a2, a3, a4, a5⟩ := hint
      exact Or.inr ⟨p0, kps, hne, ⟨a1, a2, a3, by omega, a5⟩, hkids⟩

/-- The end of Insert: the root is split when it is full, and either way the
index is well formed again. -/
theorem winsert_finish (g : Geom) (hL : 3 ≤ g.capL) (hI : 1 ≤ g.capI) (ks : List KEY_T)
    (ts : BTreeIndex) (hss : SuperOK ts) (hks : ts.superblock.info.keysize = g.keysize)
    (hvs : ts.superblock.info.valuesize = g.valuesize)
    (hbs : ts.buffercache.blocksize = g.blocksize)
    (hN : ts.buffercache.blocks.length ≤ 256 ^ g.P) (ht : Nat → Nat) (fl : List Nat)
    (c : BTreeNode) (hc : ts.buffercache.blocks[ts.superblock.info.rootnode]? = some c)
    (hcty : c.info.nodetype = NodeType.BTREE_ROOT_NODE ∨
      c.info.nodetype = NodeType.BTREE_INTERIOR_NODE)
    (hcnum : 1 ≤ c.info.numkeys)
    (hfl : FreeChain ts.buffercache.blocks ts.superblock.info.freelist fl)
    (hbound : ht ts.superblock.info.rootnode + fl.length + 1 ≤ ts.buffercache.blocks.length)
    (hw : WBs g ks ts.buffercache.blocks ht
      (fun j => if j = ts.superblock.info.rootnode then 0 else 1))
    (rootObj : BTreeNode)
    (hroty : rootObj.info.nodetype = NodeType.BTREE_ROOT_NODE ∨
      rootObj.info.nodetype = NodeType.BTREE_INTERIOR_NODE)
    (hrohdr : HdrOK g rootObj) (rc : ERROR_T) (t1 : BTreeIndex)
    (hfin : (if NeedToSplit g.m ts ts.superblock.info.rootnode = true
        then splitRoot g.m ts rootObj ts.superblock.info.rootnode
        else some (rc, ts)) = some (ERROR_T.ERROR_NOERROR, t1)) :
    WeakInv g t1 ks := by
  by_cases hsp : NeedToSplit g.m ts ts.superblock.info.rootnode = true
  · rw [if_pos hsp] at hfin
    rcases wsplitRoot g hL hI ks ts hss hN ht fl c hc hcty hw hsp hfl rootObj hroty hrohdr with
      ⟨rc2, t2, hsr, hrc2⟩ |
      ⟨t2, ht2, fl', b4, hsr, hs2, hks2, hvs2, hbs2, hlen2, hf2, hfl2, hht2, hb4, hb4ty, hb4num,
        hw2, hroot2⟩
    · exfalso
      rw [hsr] at hfin
      simp only [Option.some.injEq, Prod.mk.injEq] at hfin
      exact hrc2 hfin.1
    · rw [hsr] at hfin
      simp only [Option.some.injEq, Prod.mk.injEq, true_and] at hfin
      subst hfin
      refine ⟨hs2, by rw [hks2]; exact hks, by rw [hvs2]; exact hvs, by rw [hbs2]; exact hbs,
        by rw [hlen2]; exact hN, ht2, fl', b4, hb4, hb4ty, Or.inl hf2, ?_, ?_, hw2, hroot2⟩
      · rw [hht2, hlen2]; omega
      · intro h0
        rw [hb4num] at h0
        cases h0
  · rw [if_neg hsp] at hfin
    simp only [Option.some.injEq, Prod.mk.injEq] at hfin
    obtain ⟨_, hts⟩ := hfin
    subst hts
    have hsp' : NeedToSplit g.m ts ts.superblock.info.rootnode = false := by
      cases hx : NeedToSplit g.m ts ts.superblock.info.rootnode
      · rfl
      · exact absurd hx hsp
    have hwr := hw _ c hc
    simp only [if_true] at hwr
    have hwr1 := WB_unsplit g ks ts ht _ c hc hwr hsp'
    refine ⟨hss, hks, hvs, hbs, hN, ht, fl, c, hc, hcty, Or.inl hfl, hbound, ?_, hw,
      Or.inl (hwr1.2 hcty).2.2.1⟩
    intro h0
    omega

/-- Insert as the descent followed by the test of the root. -/
theorem Insert_of_descent (m : Machine) (t : BTreeIndex) (key : KEY_T) (v : VALUE_T)
    (rc : ERROR_T) (rootObj : BTreeNode) (ts : BTreeIndex)
    (h : insertDescent m t key v = some (rc, rootObj, ts)) :
    BTreeIndex.Insert m t key v
      = (if NeedToSplit m ts ts.superblock.info.rootnode = true
          then splitRoot m ts rootObj t.superblock.info.rootnode
          else some (rc, ts)) := by
  unfold insertDescent at h
  unfold BTreeIndex.Insert
  simp only at h ⊢
  generalize (if (BTreeNode.default.Unserialize t.buffercache
      t.superblock.info.rootnode).2.info.numkeys = 0
    then bootstrap m t (BTreeNode.default.Unserialize t.buffercache
      t.superblock.info.rootnode).2 key
    else some (ERROR_T.ERROR_NOERROR, (BTreeNode.default.Unserialize t.buffercache
      t.superblock.info.rootnode).2, t)) = pre at h ⊢
  cases pre with
  | none => cases h
  | some r =>
    obtain ⟨rc0, root, tb⟩ := r
    cases rc0 <;> try (simp only at h; cases h)
    simp only at h ⊢
    cases hl : Lookup m tb key with
    | none => rw [hl] at h; cases h
    | some l =>
      obtain ⟨rcl, val⟩ := l
      rw [hl] at h
      cases rcl <;> try (simp only at h; cases h)
      simp only at h ⊢
      cases hd : SearchInternal2 m (depthBound tb) tb tb.superblock.info.rootnode key v
          tb.superblock.info.rootnode with
      | none => rw [hd] at h; cases h
      | some x =>
        obtain ⟨rcs, t1⟩ := x
        rw [hd] at h
        simp only [Option.some.injEq, Prod.mk.injEq] at h
        obtain ⟨h1, h2, h3⟩ := h
        subst h1 h2 h3
        rfl

/-- A successful Insert on a device of well-formed blocks got through its
descent, and the state the descent left is again one of well-formed blocks,
the root with at least one key. -/
theorem insert_tail (g : Geom) (hL : 3 ≤ g.capL) (hI : 1 ≤ g.capI) (t : BTreeIndex)
    (ks : List KEY_T) (key : KEY_T) (v : VALUE_T) (hkey : key.length = g.keysize)
    (hv : v.length = g.valuesize) (hinv : WeakInv g t ks) (t1 : BTreeIndex)
    (hins : BTreeIndex.Insert g.m t key v = some (ERROR_T.ERROR_NOERROR, t1)) :
    ∃ rc rootObj ts ht fl c, insertDescent g.m t key v = some (rc, rootObj, ts) ∧
      ts.superblock.info.rootnode = t.superblock.info.rootnode ∧
      SuperOK ts ∧ ts.superblock.info.keysize = g.keysize ∧
      ts.superblock.info.valuesize = g.valuesize ∧ ts.buffercache.blocksize = g.blocksize ∧
      ts.buffercache.blocks.length ≤ 256 ^ g.P ∧
      ts.buffercache.blocks[ts.superblock.info.rootnode]? = some c ∧
      (c.info.nodetype = NodeType.BTREE_ROOT_NODE ∨
        c.info.nodetype = NodeType.BTREE_INTERIOR_NODE) ∧
      1 ≤ c.info.numkeys ∧
      FreeChain ts.buffercache.blocks ts.superblock.info.freelist fl ∧
      ht ts.superblock.info.rootnode + fl.length + 1 ≤ ts.buffercache.blocks.length ∧
      WBs g (key :: ks) ts.buffercache.blocks ht
        (fun j => if j = ts.superblock.info.rootnode then 0 else 1) ∧
      (rootObj.info.nodetype = NodeType.BTREE_ROOT_NODE ∨
        rootObj.info.nodetype = NodeType.BTREE_INTERIOR_NODE) ∧
      HdrOK g rootObj := by
  obtain ⟨hs, hks, hvs, hbs, hN, ht, fl, b, hb, hty, hfree, hbound, hfresh, hw, hroot⟩ := hinv
  have hd : hasData b.info.nodetype = true := by rcases hty with h | h <;> rw [h] <;> rfl
  have hu := Unserialize_data BTreeNode.default t.buffercache _ b hb hd
  have hwb := hw _ b hb
  simp only [if_true] at hwb
  obtain ⟨hh1, hhdr, hcap0, hk⟩ := hwb.2 hty
  have hr0 : t.superblock.info.rootnode ≠ 0 := data_ne_zero hs hb hd
  have hNpos : 1 ≤ t.buffercache.blocks.length := by
    have := lt_length_of_getElem? hb
    omega
  unfold BTreeIndex.Insert at hins
  simp only [hu] at hins
  by_cases hnum : b.info.numkeys = 0
  · -- the root has no key: the two leaves are made and the key goes into the first
    rw [if_pos hnum] at hins
    rcases wbootstrap g hI (by omega) t hs hks hvs hbs hN fl b hb hty hhdr hnum
        (hfree.imp id (fun h => h.2)) key hkey with
      ⟨rc, r, tb, hboot, hrc⟩ |
      ⟨tb, root4, x1, x2, fl', leaf, hboot, hkeepb, hfleq, hfc, hbr, hroot4, hb1, hb2, hleaf,
        hx12, hfcb, hfrb⟩
    · exfalso
      rw [hboot] at hins
      cases rc <;> first | exact absurd rfl hrc | simp at hins
    rw [hboot] at hins
    simp only at hins
    have hlk : ∃ val, Lookup g.m tb key = some (ERROR_T.ERROR_NONEXISTENT, val) := by
      cases hl : Lookup g.m tb key with
      | none => rw [hl] at hins; simp at hins
      | some r =>
        obtain ⟨rc, val⟩ := r
        rw [hl] at hins
        cases rc <;> first | exact ⟨val, rfl⟩ | simp at hins
    obtain ⟨val, hlk⟩ := hlk
    rw [hlk] at hins
    simp only at hins
    have hrootb : tb.superblock.info.rootnode = t.superblock.info.rootnode := hkeepb.2.1
    have hx1fl : x1 ∈ fl := by rw [hfleq]; simp
    have hx2fl : x2 ∈ fl := by rw [hfleq]; simp
    have hx1l : ¬ Live t.buffercache.blocks x1 := fun hl => Live_not_free hfc hl hx1fl
    have hx2l : ¬ Live t.buffercache.blocks x2 := fun hl => Live_not_free hfc hl hx2fl
    have hx1r : x1 ≠ t.superblock.info.rootnode := fun he => hx1l (he ▸ ⟨b, hb, hd⟩)
    have hx2r : x2 ≠ t.superblock.info.rootnode := fun he => hx2l (he ▸ ⟨b, hb, hd⟩)
    have hu4 := Unserialize_data BTreeNode.default tb.buffercache _ root4 hbr hroot4.nodeHasData
    have hul := Unserialize_data BTreeNode.default tb.buffercache _ leaf hb1 hleaf.leafHasData
    obtain ⟨leaf', hadd, hl'⟩ := AddKeyVal_leaf g tb x1 leaf [] key v 0 hb1 hleaf hkey hv
    have hl1 : LeafAt g leaf' [(key, v)] 0 := hl'
    have hl2 : LeafAt g leaf' [(key, v)] 1 := by
      obtain ⟨a1, a2, a3, a4, a5⟩ := hl1
      exact ⟨a1, a2, a3, by simp only [List.length_singleton]; omega, a5⟩
    have hpick : pickChild g.m root4 key = .ok x1 := by
      have := pickChild_spec g root4 x1 0 [(key, x2)] key hroot4 (by simp)
      simpa [pick] using this
    have hlt1 := lt_length_of_getElem? hb1
    have hself : (tb.put x1 leaf').buffercache.blocks[x1]? = some leaf' := by
      show (tb.buffercache.blocks.set x1 leaf')[x1]? = some leaf'
      rw [List.getElem?_set_self hlt1]
    have hother : ∀ j, j ≠ x1 →
        (tb.put x1 leaf').buffercache.blocks[j]? = tb.buffercache.blocks[j]? := by
      intro j hj
      show (tb.buffercache.blocks.set x1 leaf')[j]? = _
      rw [List.getElem?_set_ne (Ne.symm hj)]
    have hnsl : NeedToSplit g.m (tb.put x1 leaf') x1 = false := by
      rw [NeedToSplit_leaf g (tb.put x1 leaf') x1 leaf' _ 0 hself hl1]
      simp only [List.length_singleton, decide_eq_false_iff_not]
      omega
    have hlenb : tb.buffercache.blocks.length = t.buffercache.blocks.length := hkeepb.2.2.1
    have hrun : SearchInternal2 g.m (depthBound tb) tb tb.superblock.info.rootnode key v
        tb.superblock.info.rootnode = some (ERROR_T.ERROR_NOERROR, tb.put x1 leaf') := by
      obtain ⟨f, hf⟩ : ∃ f, depthBound tb = f + 1 + 1 :=
        ⟨tb.buffercache.blocks.length - 1, by unfold depthBound; omega⟩
      rw [hf, hrootb]
      obtain ⟨hstepA, _⟩ := SearchInternal2_int g.m (f + 1) tb t.superblock.info.rootnode key v
        t.superblock.info.rootnode root4 x1 hu4 hroot4.1 hpick
      rw [hstepA (tb.put x1 leaf') (by
        rw [SearchInternal2_leaf g.m f tb x1 key v _ leaf hul hleaf.1, hadd])]
      unfold splitChild
      simp only [hnsl, Bool.false_eq_true, if_false]
    rw [hrun] at hins
    simp only at hins
    have hkeeps : Keeps tb (tb.put x1 leaf') := by
      have := AddKeyVal_keeps g.m tb hkeepb.1 x1 key v 0
      rw [hadd] at this
      exact this
    have hroots : (tb.put x1 leaf').superblock.info.rootnode = t.superblock.info.rootnode :=
      hrootb
    have hbrs : (tb.put x1 leaf').buffercache.blocks[t.superblock.info.rootnode]? = some root4 := by
      rw [hother _ (Ne.symm hx1r)]; exact hbr
    obtain ⟨hts, hhts⟩ : ∃ hts : Nat → Nat, hts = Function.update (Function.update ht x1 0) x2 0 :=
      ⟨_, rfl⟩
    have hts1 : hts x1 = 0 := by
      rw [hhts, Function.update_noteq hx12, Function.update_same]
    have hts2 : hts x2 = 0 := by rw [hhts, Function.update_same]
    have htso : ∀ p, p ≠ x1 → p ≠ x2 → hts p = ht p := by
      intro p h1 h2
      rw [hhts, Function.update_noteq h2, Function.update_noteq h1]
    have hE : ∀ p, Live t.buffercache.blocks p →
        Live (tb.put x1 leaf').buffercache.blocks p ∧ hts p = ht p := by
      intro p hp
      have hp1 : p ≠ x1 := fun he => hx1l (he ▸ hp)
      have hp2 : p ≠ x2 := fun he => hx2l (he ▸ hp)
      refine ⟨?_, htso p hp1 hp2⟩
      by_cases hpr : p = t.superblock.info.rootnode
      · rw [hpr]; exact ⟨root4, hbrs, hroot4.nodeHasData⟩
      · obtain ⟨c, hc, hcd⟩ := hp
        exact ⟨c, by rw [hother p hp1, hfrb p (data_ne_zero hs hc hcd) hp1 hp2 hpr]; exact hc, hcd⟩
    have hws : WBs g (key :: ks) (tb.put x1 leaf').buffercache.blocks hts
        (fun j => if j = (tb.put x1 leaf').superblock.info.rootnode then 0 else 1) := by
      rw [hroots]
      apply WBs_step hw (fun k hk => List.mem_cons_of_mem _ hk) hE
      intro j c hc
      by_cases hjr : j = t.superblock.info.rootnode
      · right
        subst hjr
        rw [hbrs] at hc
        cases hc
        simp only [if_true]
        have hhr : hts t.superblock.info.rootnode = 1 := by
          rw [htso _ (Ne.symm hx1r) (Ne.symm hx2r)]; exact hfresh hnum
        refine ⟨?_, fun _ => ⟨by omega, hroot4.2.1, ?_, Or.inr ⟨_, _, by simp, hroot4, ?_⟩⟩⟩
        · intro h
          rcases hroot4.1 with h1 | h1 <;> rw [h1] at h <;> cases h
        · rw [hroot4.2.2.1]; exact hroot4.2.2.2.1
        · intro p hp
          simp only [kidsOf, List.map_cons, List.map_nil, List.mem_cons, List.mem_singleton,
            List.not_mem_nil, or_false] at hp
          rcases hp with hp | hp
          · rw [hp]
            exact ⟨⟨leaf', hself, hl1.leafHasData⟩, by rw [hts1, hhr]⟩
          · rw [hp]
            exact ⟨⟨leaf, by rw [hother _ (Ne.symm hx12)]; exact hb2, hleaf.leafHasData⟩,
              by rw [hts2, hhr]⟩
      · by_cases hj1 : j = x1
        · right
          subst hj1
          rw [hself] at hc
          cases hc
          simp only [hjr, if_false]
          refine ⟨fun _ => ⟨hts1, _, hl2, ?_⟩, ?_⟩
          · intro e he
            rw [List.mem_singleton.mp he]
            exact List.mem_cons_self _ _
          · intro h
            rw [hl1.1] at h
            rcases h with h | h <;> cases h
        · by_cases hj2 : j = x2
          · right
            subst hj2
            rw [hother _ hj1, hb2] at hc
            cases hc
            simp only [hjr, if_false]
            refine ⟨fun _ => ⟨hts2, [], hleaf, ?_⟩, ?_⟩
            · intro e he
              exact absurd he (List.not_mem_nil e)
            · intro h
              rw [hleaf.1] at h
              rcases h with h | h <;> cases h
          · by_cases hj0 : j = 0
            · right
              subst hj0
              exact super_WB g (key :: ks) (tb.put x1 leaf') hkeeps.1 _ c _ hc
            · left
              refine ⟨by rw [← hfrb j hj0 hj1 hj2 hjr, ← hother j hj1]; exact hc, le_refl _⟩
    have hkt := hkeepb.trans hkeeps
    have hx1fl' : x1 ∉ fl' := Live_not_free hfcb ⟨leaf, hb1, hleaf.leafHasData⟩
    have hfls : FreeChain (tb.put x1 leaf').buffercache.blocks
        (tb.put x1 leaf').superblock.info.freelist fl' := by
      apply FreeChain_frame _ _ _ _ hfcb
      intro j hj
      apply hother
      rintro rfl
      exact hx1fl' hj
    have hlenfl : fl.length = fl'.length + 2 := by rw [hfleq]; simp
    have hdesc : insertDescent g.m t key v
        = some (ERROR_T.ERROR_NOERROR, root4, tb.put x1 leaf') := by
      unfold insertDescent
      simp only [hu, hnum, if_true, hboot, hlk, hrun]
    refine ⟨ERROR_T.ERROR_NOERROR, root4, tb.put x1 leaf', hts, fl', root4, hdesc, hroots, hkt.1,
      hkt.2.2.2.2.1.trans hks, hkt.2.2.2.2.2.trans hvs, hkt.2.2.2.1.trans hbs,
      by rw [hkt.2.2.1]; exact hN, by rw [hroots]; exact hbrs, hroot4.1,
      by rw [hroot4.2.2.1]; simp, hfls, ?_, hws, hroot4.1, hroot4.2.1⟩
    rw [hroots, htso _ (Ne.symm hx1r) (Ne.symm hx2r), hkt.2.2.1]
    omega
  · -- the root has keys
    rw [if_neg hnum] at hins
    simp only at hins
    have hlk : ∃ val, Lookup g.m t key = some (ERROR_T.ERROR_NONEXISTENT, val) := by
      cases hl : Lookup g.m t key with
      | none => rw [hl] at hins; simp at hins
      | some r =>
        obtain ⟨rc, val⟩ := r
        rw [hl] at hins
        cases rc <;> first | exact ⟨val, rfl⟩ | simp at hins
    obtain ⟨val, hlk⟩ := hlk
    rw [hlk] at hins
    simp only at hins
    have hfc : FreeChain t.buffercache.blocks t.superblock.info.freelist fl := by
      rcases hfree with h | h
      · exact h
      · exact absurd h.1 hnum
    rcases hroot with hslack | ⟨p0, kps, hint, hdead⟩
    · -- the root has a slot to spare
      have hw' : WBs g ks t.buffercache.blocks ht (fun _ => 1) := by
        intro j c hc
        by_cases hjr : j = t.superblock.info.rootnode
        · subst hjr
          rw [hb] at hc
          cases hc
          exact WB_int_slack hwb hty hslack
        · have := hw j c hc
          simpa only [hjr, if_false] using this
      rcases wdescent g hL hI key v hkey hv ks (ht t.superblock.info.rootnode) (depthBound t) t ht
          t.superblock.info.rootnode t.superblock.info.rootnode fl
          (by unfold depthBound; omega) hs hN hfc hw' ⟨b, hb, hd⟩ rfl with
        ⟨ts, ht1, fl', hrun, hfl1, hlen1, hw1, hnum1, hE1, _⟩ | ⟨rc, ts, hrun, hrc, hblk, _⟩
      · rw [hrun] at hins
        simp only at hins
        have hkeeps := SearchInternal2_keeps g.m _ t hs _ key v _ _ ts hrun
        have hroots : ts.superblock.info.rootnode = t.superblock.info.rootnode := hkeeps.2.1
        obtain ⟨⟨c, hc, hcd⟩, hh⟩ := hE1 _ ⟨b, hb, hd⟩
        have hcty : c.info.nodetype = NodeType.BTREE_ROOT_NODE ∨
            c.info.nodetype = NodeType.BTREE_INTERIOR_NODE := by
          rcases node_type_cases c hcd with h | h
          · have := ((hw1 _ c hc).1 h).1
            omega
          · exact h
        have hdesc : insertDescent g.m t key v = some (ERROR_T.ERROR_NOERROR, b, ts) := by
          unfold insertDescent
          simp only [hu, hnum, if_false, hlk, hrun]
        refine ⟨ERROR_T.ERROR_NOERROR, b, ts, ht1, fl', c, hdesc, hroots, hkeeps.1,
          hkeeps.2.2.2.2.1.trans hks, hkeeps.2.2.2.2.2.trans hvs, hkeeps.2.2.2.1.trans hbs,
          by rw [hkeeps.2.2.1]; exact hN, by rw [hroots]; exact hc, hcty, hnum1 c hc, hfl1, ?_,
          by rw [hroots]; exact hw1, hty, hhdr⟩
        rw [hroots, hh, hkeeps.2.2.1]
        omega
      · exfalso
        rw [hrun] at hins
        simp only at hins
        have hkeeps := SearchInternal2_keeps g.m _ t hs _ key v _ _ ts hrun
        have hroots : ts.superblock.info.rootnode = t.superblock.info.rootnode := hkeeps.2.1
        have hsp : NeedToSplit g.m ts ts.superblock.info.rootnode = false := by
          rw [hroots]
          unfold NeedToSplit
          rw [Unserialize_data _ _ _ b (by rw [hblk]; exact hb) hd]
          rcases hty with hty | hty <;>
            simp only [hty, slots_int_of_hdr g b hhdr, decide_eq_false_iff_not] <;> omega
        rw [hsp] at hins
        simp only [Bool.false_eq_true, if_false, Option.some.injEq, Prod.mk.injEq] at hins
        exact hrc hins.1
    · -- the root is full and its children have no keys
      have hne1 : 1 ≤ kps.length := by
        rw [← hint.2.2.1]
        omega
      have hp := pickChild_spec g b p0 0 kps key hint hne1
      obtain ⟨c, hc, hcty, hcnum⟩ := hdead _ (pick_mem key kps p0)
      have hcd : hasData c.info.nodetype = true := by
        rcases hcty with h | h <;> rw [h] <;> rfl
      obtain ⟨f, hf⟩ : ∃ f, depthBound t = f + 1 + 1 :=
        ⟨t.buffercache.blocks.length - 1, by unfold depthBound; omega⟩
      have hrunc : SearchInternal2 g.m (f + 1) t (pick key p0 kps) key v
          t.superblock.info.rootnode = some (ERROR_T.ERROR_NONEXISTENT, t) := by
        rw [SearchInternal2, Unserialize_data _ _ _ c hc hcd]
        rcases hcty with h | h <;> simp only [h, pickChild_empty g.m c key hcnum]
      obtain ⟨_, hstepB⟩ := SearchInternal2_int g.m (f + 1) t t.superblock.info.rootnode key v
        t.superblock.info.rootnode b _ hu hty hp
      have hrun := hstepB _ _ hrunc (by simp)
      rw [hf, hrun] at hins
      simp only at hins
      have hwk : WBs g (key :: ks) t.buffercache.blocks ht
          (fun j => if j = t.superblock.info.rootnode then 0 else 1) :=
        WBs_step hw (fun k hk => List.mem_cons_of_mem _ hk) (fun p hp => ⟨hp, rfl⟩)
          (fun j c hc => Or.inl ⟨hc, le_refl _⟩)
      have hdesc : insertDescent g.m t key v = some (ERROR_T.ERROR_NONEXISTENT, b, t) := by
        unfold insertDescent
        simp only [hu, hnum, if_false, hlk, hf, hrun]
      exact ⟨ERROR_T.ERROR_NONEXISTENT, b, t, ht, fl, b, hdesc, rfl, hs, hks, hvs, hbs, hN, hb, hty,
        by omega, hfc, hbound, hwk, hty, hhdr⟩

theorem WeakInv_insert (g : Geom) (hL : 3 ≤ g.capL) (hI : 1 ≤ g.capI) (t : BTreeIndex)
    (ks : List KEY_T) (key : KEY_T) (v : VALUE_T) (hkey : key.length = g.keysize)
    (hv : v.length = g.valuesize) (hinv : WeakInv g t ks) (t1 : BTreeIndex)
    (hins : BTreeIndex.Insert g.m t key v = some (ERROR_T.ERROR_NOERROR, t1)) :
    WeakInv g t1 (key :: ks) := by
  obtain ⟨rc, rootObj, ts, ht, fl, c, hdesc, hroots, hss, hks, hvs, hbs, hN, hc, hcty, hcnum, hfl,
    hbound, hw, hroty, hrohdr⟩ := insert_tail g hL hI t ks key v hkey hv hinv t1 hins
  rw [Insert_of_descent g.m t key v rc rootObj ts hdesc, ← hroots] at hins
  exact winsert_finish g hL hI (key :: ks) ts hss hks hvs hbs hN ht fl c hc hcty hcnum hfl hbound hw
    rootObj hroty hrohdr rc t1 hins


/-! ## Workloads on a device of well-formed blocks -/

theorem fresh_weak (m : Machine) (ks vs : Nat) (c : BufferCache) (t : BTreeIndex)
    (h : fresh m ks vs c = some t) (hN : c.blocks.length ≤ 256 ^ m.sizeofSIZE_T)
    (hI : 1 ≤ interiorCapacity m ks c.blocksize) :
    WeakInv ⟨m, ks, vs, c.blocksize⟩ t [] := by
  obtain ⟨hs, hroot, hfree, hks, hvs, hbs, hlen⟩ := fresh_super m ks vs c t h
  obtain ⟨hb1, hchain⟩ := fresh_layout m ks vs c t h
  have hlt1 : 1 < t.buffercache.blocks.length := lt_length_of_getElem? hb1
  have hhdr : HdrOK ⟨m, ks, vs, c.blocksize⟩ ((((BTreeNode.mk4 m NodeType.BTREE_ROOT_NODE ks vs
      c.blocksize).withRootnode 1).withFreelist 2).withNumkeys 0) := by
    refine ⟨rfl, rfl, rfl, ?_⟩
    show (zeros (c.blocksize - m.sizeofNodeMetadata)).length = _
    simp [zeros, Geom.D]
  refine ⟨hs, hks, hvs, hbs, by rw [hlen]; exact hN, fun _ => 1,
    List.range' 2 (t.buffercache.blocks.length - 2), _, by rw [hroot]; exact hb1, Or.inl rfl,
    ?_, ?_, fun _ => rfl, ?_, Or.inl ?_⟩
  · by_cases h2 : t.buffercache.blocks.length = 2
    · right
      rw [h2, hfree]
      exact ⟨rfl, rfl, rfl⟩
    · left
      have := freeChain_range t.buffercache.blocks
        (fun j => ((BTreeNode.mk4 m NodeType.BTREE_UNALLOCATED_BLOCK ks vs
          c.blocksize).withRootnode 1).withFreelist
            (if j + 1 = t.buffercache.blocks.length then 0 else j + 1))
        (fun j => ⟨rfl, rfl⟩) (t.buffercache.blocks.length - 2) 2 (by omega) (by omega)
        (fun j h1 h2 => by rw [hchain j h1 (by rw [← hlen]; exact h2), hlen])
      rw [if_neg (by omega)] at this
      rw [hfree]
      exact this
  · simp only [List.length_range']
    omega
  · intro j b hb
    by_cases hj0 : j = 0
    · subst hj0
      exact super_WB _ _ t hs _ b _ hb
    · by_cases hj1 : j = 1
      · subst hj1
        rw [hb1] at hb
        cases hb
        refine ⟨?_, fun _ => ⟨le_refl _, hhdr, ?_, Or.inl rfl⟩⟩
        · intro h
          cases h
        · show 0 + _ ≤ _
          rw [hroot]
          simp
      · have hjlt : j < c.blocks.length := by
          rw [← hlen]; exact lt_length_of_getElem? hb
        rw [hchain j (by omega) hjlt] at hb
        cases hb
        exact WB_nodata _ _ _ _ _ _ _ rfl
  · show 0 + 1 ≤ interiorCapacity m ks c.blocksize
    omega

theorem runInserts_weak (g : Geom) (hL : 3 ≤ g.capL) (hI : 1 ≤ g.capI) :
    ∀ (w : List (KEY_T × VALUE_T)) (t : BTreeIndex) (ks : List KEY_T) (t1 : BTreeIndex),
      WeakInv g t ks →
      (∀ e ∈ w, e.1.length = g.keysize ∧ e.2.length = g.valuesize) →
      runInserts g.m t w = some t1 →
      ∃ ks1, WeakInv g t1 ks1 ∧ ∀ k ∈ ks1, k ∈ ks ∨ ∃ e ∈ w, e.1 = k := by
  intro w
  induction w with
  | nil =>
    intro t ks t1 hinv _ hrun
    simp only [runInserts, Option.some.injEq] at hrun
    subst hrun
    exact ⟨ks, hinv, fun k hk => Or.inl hk⟩
  | cons e r ih =>
    intro t ks t1 hinv hw hrun
    rw [runInserts] at hrun
    cases hi : BTreeIndex.Insert g.m t e.1 e.2 with
    | none => rw [hi] at hrun; simp at hrun
    | some res =>
      obtain ⟨rc, t2⟩ := res
      rw [hi] at hrun
      cases rc <;> try (simp at hrun; done)
      simp only at hrun
      have he := hw e (List.mem_cons_self _ _)
      have hinv2 := WeakInv_insert g hL hI t ks e.1 e.2 he.1 he.2 hinv t2 hi
      obtain ⟨ks1, hinv1, hsub⟩ := ih t2 (e.1 :: ks) t1 hinv2
        (fun x hx => hw x (List.mem_cons_of_mem _ hx)) hrun
      refine ⟨ks1, hinv1, ?_⟩
      intro k hk
      rcases hsub k hk with h1 | ⟨x, hx, hxk⟩
      · rcases List.mem_cons.mp h1 with h2 | h2
        · exact Or.inr ⟨e, List.mem_cons_self _ _, h2.symm⟩
        · exact Or.inl h2
      · exact Or.inr ⟨x, List.mem_cons_of_mem _ hx, hxk⟩

theorem WeakInv_absent (g : Geom) (t : BTreeIndex) (ks : List KEY_T) (hinv : WeakInv g t ks)
    (key : KEY_T) (hk : key ∉ ks) (v : VALUE_T) :
    Lookup g.m t key = some (ERROR_T.ERROR_NONEXISTENT, []) ∧
    Update g.m t key v = some (ERROR_T.ERROR_NONEXISTENT, t) := by
  obtain ⟨hs, _, _, _, _, ht, fl, b, hb, hty, _, hbound, _, hw, _⟩ := hinv
  have hd : hasData b.info.nodetype = true := by rcases hty with h | h <;> rw [h] <;> rfl
  have hfuel : ht t.superblock.info.rootnode < depthBound t := by
    unfold depthBound
    omega
  constructor
  · unfold Lookup
    rw [wlookup g t ks ht _ hw key hk BTreeOp.BTREE_OP_LOOKUP [] _ _ _ ⟨b, hb, hd⟩ rfl hfuel]
  · unfold Update
    rw [wlookup g t ks ht _ hw key hk BTreeOp.BTREE_OP_UPDATE v _ _ _ ⟨b, hb, hd⟩ rfl hfuel]


/-! ## Update on a device of well-formed blocks -/

theorem wupdate (g : Geom) (key : KEY_T) (v : VALUE_T) (hv : v.length = g.valuesize)
    (t : BTreeIndex) (ks : List KEY_T) (ht sl : Nat → Nat)
    (hw : WBs g ks t.buffercache.blocks ht sl) :
    ∀ (h fuel blk : Nat), Live t.buffercache.blocks blk → ht blk = h → h < fuel →
      LookupOrUpdateInternal g.m fuel t blk BTreeOp.BTREE_OP_UPDATE key v
        = some (ERROR_T.ERROR_NONEXISTENT, v, t) ∨
      (∃ j bj b es, t.buffercache.blocks[j]? = some b ∧
        b.info.nodetype = NodeType.BTREE_LEAF_NODE ∧ ht j = 0 ∧ LeafAt g bj es (sl j) ∧
        (∀ e ∈ es, e.1 ∈ ks) ∧
        LookupOrUpdateInternal g.m fuel t blk BTreeOp.BTREE_OP_UPDATE key v
          = some (ERROR_T.ERROR_NOERROR, v, t.put j bj)) := by
  intro h
  induction h with
  | zero =>
    intro fuel blk hlive hh hf
    obtain ⟨f, rfl⟩ : ∃ f, fuel = f + 1 := ⟨fuel - 1, by omega⟩
    obtain ⟨b, hb, hd⟩ := hlive
    have hu := Unserialize_data BTreeNode.default t.buffercache blk b hb hd
    obtain ⟨h1, h2⟩ := hw blk b hb
    have hty : b.info.nodetype = NodeType.BTREE_LEAF_NODE := by
      rcases node_type_cases b hd with hty | hty
      · exact hty
      · have := (h2 hty).1; omega
    obtain ⟨_, es, hl, hes⟩ := h1 hty
    have hnum := hl.2.2.1
    have hlt := lt_length_of_getElem? hb
    have hl' : LeafAt g b ([] ++ es) (sl blk) := by simpa using hl
    rcases scanLeaf_spec g b (sl blk) key es [] hl' with
      ⟨_, hscan⟩ | ⟨a, e, cr, hc, hek, _, hscan⟩
    · left
      simp only [List.length_nil] at hscan
      rw [LookupOrUpdateInternal, hu]
      simp only [hty, hnum, hscan]
    · right
      simp only [List.length_nil, List.nil_append] at hscan hc
      subst hc
      obtain ⟨b1, hset, hl1⟩ := leaf_SetVal_slot g b a cr e (sl blk) v hv hl
      refine ⟨blk, b1, b, a ++ (e.1, v) :: cr, hb, hty, hh, hl1, ?_, ?_⟩
      · intro x hx
        rcases List.mem_append.mp hx with hx | hx
        · exact hes x (List.mem_append_left _ hx)
        · rcases List.mem_cons.mp hx with hx | hx
          · rw [hx]
            exact hes e (List.mem_append_right _ (List.mem_cons_self _ _))
          · exact hes x (List.mem_append_right _ (List.mem_cons_of_mem _ hx))
      · rw [LookupOrUpdateInternal, hu]
        simp only [hty, hnum, hscan, reduceCtorEq, if_false, hset]
        rw [Serialize_data _ _ _ hlt hl1.leafHasData]
        rfl
  | succ h ih =>
    intro fuel blk hlive hh hf
    obtain ⟨f, rfl⟩ : ∃ f, fuel = f + 1 := ⟨fuel - 1, by omega⟩
    obtain ⟨b, hb, hd⟩ := hlive
    have hu := Unserialize_data BTreeNode.default t.buffercache blk b hb hd
    obtain ⟨h1, h2⟩ := hw blk b hb
    have hty : b.info.nodetype = NodeType.BTREE_ROOT_NODE ∨
        b.info.nodetype = NodeType.BTREE_INTERIOR_NODE := by
      rcases node_type_cases b hd with hty | hty
      · have := (h1 hty).1; omega
      · exact hty
    obtain ⟨_, hhdr, _, hkk⟩ := h2 hty
    rcases hkk with hz | ⟨p0, kps, hne, hint, hkids⟩
    · left
      rw [LookupOrUpdateInternal, hu]
      rcases hty with hty | hty <;> simp only [hty, pickChild_empty g.m b key hz]
    · have hp := pickChild_spec g b p0 (sl blk) kps key hint
        (by cases kps with
          | nil => exact absurd rfl hne
          | cons a r => simp)
      obtain ⟨hl, hh1⟩ := hkids _ (pick_mem key kps p0)
      have hstep : LookupOrUpdateInternal g.m (f + 1) t blk BTreeOp.BTREE_OP_UPDATE key v
          = LookupOrUpdateInternal g.m f t (pick key p0 kps) BTreeOp.BTREE_OP_UPDATE key v := by
        rw [LookupOrUpdateInternal, hu]
        rcases hty with hty | hty <;> simp only [hty, hp]
      rcases ih f (pick key p0 kps) hl (by omega) (by omega) with hrun |
        ⟨j, bj, b0, es, hb0, hty0, hh0, hl0, hes0, hrun⟩
      · left
        rw [hstep, hrun]
      · right
        exact ⟨j, bj, b0, es, hb0, hty0, hh0, hl0, hes0, by rw [hstep, hrun]⟩

theorem WeakInv_update (g : Geom) (t : BTreeIndex) (ks : List KEY_T) (key : KEY_T)
    (v : VALUE_T) (hv : v.length = g.valuesize) (hinv : WeakInv g t ks) (t1 : BTreeIndex)
    (hup : Update g.m t key v = some (ERROR_T.ERROR_NOERROR, t1)) : WeakInv g t1 ks := by
  obtain ⟨hs, hks, hvs, hbs, hN, ht, fl, b, hb, hty, hfree, hbound, hfresh, hw, hroot⟩ := hinv
  have hd : hasData b.info.nodetype = true := by rcases hty with h | h <;> rw [h] <;> rfl
  have hfuel : ht t.superblock.info.rootnode < depthBound t := by
    unfold depthBound
    omega
  unfold Update at hup
  rcases wupdate g key v hv t ks ht _ hw _ _ _ ⟨b, hb, hd⟩ rfl hfuel with hrun |
    ⟨j, bj, b0, es, hb0, hty0, hh0, hl0, hes0, hrun⟩
  · exfalso
    rw [hrun] at hup
    simp at hup
  rw [hrun] at hup
  simp only [Option.some.injEq, Prod.mk.injEq, true_and] at hup
  subst hup
  have hd0 : hasData b0.info.nodetype = true := by rw [hty0]; rfl
  have hj0 : j ≠ 0 := data_ne_zero hs hb0 hd0
  have hjr : j ≠ t.superblock.info.rootnode := by
    intro he
    rw [he, hb] at hb0
    cases hb0
    rcases hty with h | h <;> rw [h] at hty0 <;> cases hty0
  have hlt := lt_length_of_getElem? hb0
  have hself : (t.put j bj).buffercache.blocks[j]? = some bj := by
    show (t.buffercache.blocks.set j bj)[j]? = some bj
    rw [List.getElem?_set_self hlt]
  have hother : ∀ i, i ≠ j →
      (t.put j bj).buffercache.blocks[i]? = t.buffercache.blocks[i]? := by
    intro i hi
    show (t.buffercache.blocks.set j bj)[i]? = _
    rw [List.getElem?_set_ne (Ne.symm hi)]
  have hE : ∀ p, Live t.buffercache.blocks p →
      Live (t.put j bj).buffercache.blocks p ∧ ht p = ht p := by
    intro p hp
    refine ⟨?_, rfl⟩
    by_cases hpj : p = j
    · rw [hpj]; exact ⟨bj, hself, hl0.leafHasData⟩
    · obtain ⟨c, hc, hcd⟩ := hp
      exact ⟨c, by rw [hother p hpj]; exact hc, hcd⟩
  refine ⟨⟨hs.1, hs.2.1, hs.2.2.1, by rw [hother 0 (Ne.symm hj0)]; exact hs.2.2.2⟩, hks, hvs,
    hbs, ?_, ht, fl, b, (hother _ (Ne.symm hjr)).trans hb, hty, ?_, ?_, hfresh, ?_, ?_⟩
  · show (t.buffercache.blocks.set j bj).length ≤ _
    rw [List.length_set]; exact hN
  · rcases hfree with hfc | hdang
    · left
      apply FreeChain_frame _ _ _ _ hfc
      intro i hi
      apply hother
      rintro rfl
      exact Live_not_free hfc ⟨b0, hb0, hd0⟩ hi
    · right
      refine ⟨hdang.1, hdang.2.1, ?_⟩
      show _ = (t.buffercache.blocks.set j bj).length
      rw [List.length_set]; exact hdang.2.2
  · show _ ≤ (t.buffercache.blocks.set j bj).length
    rw [List.length_set]; exact hbound
  · apply WBs_step hw (fun k hk => hk) hE
    intro i c hc
    by_cases hij : i = j
    · right
      subst hij
      rw [hself] at hc
      cases hc
      refine ⟨fun _ => ⟨hh0, es, hl0, hes0⟩, ?_⟩
      intro h
      rw [hl0.1] at h
      rcases h with h | h <;> cases h
    · left
      exact ⟨by rw [← hother i hij]; exact hc, le_refl _⟩
  · rcases hroot with hslack | ⟨p0, kps, hint, hdead⟩
    · exact Or.inl hslack
    · refine Or.inr ⟨p0, kps, hint, ?_⟩
      intro p hp
      obtain ⟨c, hc, hcty, hcnum⟩ := hdead p hp
      have hpj : p ≠ j := by
        intro he
        rw [he, hb0] at hc
        cases hc
        rcases hcty with h | h <;> rw [h] at hty0 <;> cases hty0
      exact ⟨c, by rw [hother p hpj]; exact hc, hcty, hcnum⟩

theorem runCalls_weak (g : Geom) (hL : 3 ≤ g.capL) (hI : 1 ≤ g.capI) :
    ∀ (ops : List Call) (t : BTreeIndex) (ks : List KEY_T) (t1 : BTreeIndex),
      WeakInv g t ks →
      (∀ op ∈ ops, op.key.length = g.keysize ∧ op.value.length = g.valuesize) →
      runCalls g.m t ops = some t1 → ∃ ks1, WeakInv g t1 ks1 := by
  intro ops
  induction ops with
  | nil =>
    intro t ks t1 hinv _ hrun
    simp only [runCalls, Option.some.injEq] at hrun
    subst hrun
    exact ⟨ks, hinv⟩
  | cons op rest ih =>
    intro t ks t1 hinv hops hrun
    have hop := hops op (List.mem_cons_self _ _)
    have hrest : ∀ op ∈ rest, op.key.length = g.keysize ∧ op.value.length = g.valuesize :=
      fun o ho => hops o (List.mem_cons_of_mem _ ho)
    cases op with
    | insert k v =>
      simp only [runCalls] at hrun
      cases hi : BTreeIndex.Insert g.m t k v with
      | none => rw [hi] at hrun; cases hrun
      | some r =>
        obtain ⟨rc, t2⟩ := r
        rw [hi] at hrun
        cases rc <;> simp only at hrun <;> try cases hrun
        exact ih t2 _ t1 (WeakInv_insert g hL hI t ks k v hop.1 hop.2 hinv t2 hi) hrest hrun
    | update k v =>
      simp only [runCalls] at hrun
      cases hi : Update g.m t k v with
      | none => rw [hi] at hrun; cases hrun
      | some r =>
        obtain ⟨rc, t2⟩ := r
        rw [hi] at hrun
        cases rc <;> simp only at hrun <;> try cases hrun
        exact ih t2 _ t1 (WeakInv_update g t ks k v hop.2 hinv t2 hi) hrest hrun

/-- On a device of well-formed blocks every stored leaf carries the value size
of the tree and keeps its slots inside its slot bytes. -/
theorem WeakInv_leaves (g : Geom) (t : BTreeIndex) (ks : List KEY_T) (hinv : WeakInv g t ks) :
    LeavesOK g.m t := by
  obtain ⟨hs, hks, hvs, hbs, hN, ht, fl, b, hb, hty, hfree, hbound, hfresh, hw, hroot⟩ := hinv
  intro c hc hcty
  obtain ⟨i, hi⟩ := List.mem_iff_getElem?.mp hc
  obtain ⟨_, es, hl, _⟩ := (hw i c hi).1 hcty
  obtain ⟨_, ⟨hk1, hv1, _, hlen⟩, hnum, hcap, hu, pre, rest, hpre, hdata⟩ := hl
  refine ⟨by rw [hv1, hvs], ?_⟩
  rw [hk1, hv1, hnum, hdata]
  simp only [List.length_append, hpre, length_flat _ _ _ hu, Geom.P]
  omega

/-- Every state reached from attach(create=true) by successful inserts and
updates, on a device whose leaves hold at least 3 and whose interior nodes hold
at least 1 key, has well-formed leaves. -/
theorem reached_leaves_ok (m : Machine) (keysize valuesize : Nat) (cache : BufferCache)
    (ops : List Call) (t0 t : BTreeIndex)
    (hL : 3 ≤ leafCapacity m keysize valuesize cache.blocksize)
    (hI : 1 ≤ interiorCapacity m keysize cache.blocksize)
    (hN : cache.blocks.length ≤ 256 ^ m.sizeofSIZE_T)
    (hops : ∀ op ∈ ops, op.key.length = keysize ∧ op.value.length = valuesize)
    (h0 : fresh m keysize valuesize cache = some t0) (hrun : runCalls m t0 ops = some t) :
    LeavesOK m t := by
  have hinv0 := fresh_weak m keysize valuesize cache t0 h0 hN hI
  obtain ⟨ks, hinv⟩ := runCalls_weak ⟨m, keysize, valuesize, cache.blocksize⟩ hL hI ops t0 [] t
    hinv0 hops hrun
  exact WeakInv_leaves ⟨m, keysize, valuesize, cache.blocksize⟩ t ks hinv


/-! ## The step of the descent at the parent of a leaf -/

theorem NeedToSplit_congr (m : Machine) (t t2 : BTreeIndex) (j : Nat)
    (h : t2.buffercache.blocks[j]? = t.buffercache.blocks[j]?) :
    NeedToSplit m t2 j = NeedToSplit m t j := by
  unfold NeedToSplit BTreeNode.Unserialize
  rw [h]

/-- The descent step at a parent with room whose child for `key` is a leaf
with room: the pair goes into the leaf; when that fills the leaf, the leaf is
split at once and the parent gets the promoted key and the new block. -/
theorem parent_step (g : Geom) (t : BTreeIndex) (hs : SuperOK t)
    (hN : t.buffercache.blocks.length ≤ 256 ^ g.P) (p : Nat) (bp : BTreeNode) (p0 : Nat)
    (kps : List (KEY_T × Nat)) (hbp : t.buffercache.blocks[p]? = some bp)
    (hint : IntAt g bp p0 kps 1) (hk1 : 1 ≤ kps.length) (key : KEY_T) (v : VALUE_T)
    (hkey : key.length = g.keysize) (hv : v.length = g.valuesize) (lf : BTreeNode)
    (es : List (KEY_T × VALUE_T)) (hlf : t.buffercache.blocks[pick key p0 kps]? = some lf)
    (hl : LeafAt g lf es 1) :
    (es.length + 1 < g.capL →
      ∃ lf', LeafAt g lf' (insSlot key (key, v) es) 0 ∧
        ∀ f par, SearchInternal2 g.m (f + 2) t p key v par
          = some (ERROR_T.ERROR_NOERROR, t.put (pick key p0 kps) lf')) ∧
    (es.length + 1 = g.capL → ∀ bx, t.superblock.info.freelist ≠ 0 →
      t.buffercache.blocks[t.superblock.info.freelist]? = some bx →
      bx.info.nodetype = NodeType.BTREE_UNALLOCATED_BLOCK →
      ∃ t2 bl br bp' el e er,
        (∀ f par, SearchInternal2 g.m (f + 2) t p key v par
          = some (ERROR_T.ERROR_NOERROR, t2)) ∧
        insSlot key (key, v) es = el ++ e :: er ∧ (el ++ [e]).length = (g.capL + 2) / 2 ∧
        t2.buffercache.blocks[pick key p0 kps]? = some bl ∧ LeafAt g bl (el ++ [e]) 0 ∧
        t2.buffercache.blocks[t.superblock.info.freelist]? = some br ∧ LeafAt g br er 0 ∧
        t2.buffercache.blocks[p]? = some bp' ∧
        IntAt g bp' p0 (insSlot e.1 (e.1, t.superblock.info.freelist) kps) 0 ∧
        bp'.info.nodetype = bp.info.nodetype ∧
        t2.superblock.info.freelist = bx.info.freelist ∧ Keeps t t2 ∧
        (∀ j, j ≠ 0 → j ≠ pick key p0 kps → j ≠ p → j ≠ t.superblock.info.freelist →
          t2.buffercache.blocks[j]? = t.buffercache.blocks[j]?)) := by
  obtain ⟨lb, hlb⟩ : ∃ lb, lb = pick key p0 kps := ⟨_, rfl⟩
  rw [← hlb] at hlf ⊢
  have hdp : hasData bp.info.nodetype = true := hint.nodeHasData
  have hdl : hasData lf.info.nodetype = true := hl.leafHasData
  have hup := Unserialize_data BTreeNode.default t.buffercache p bp hbp hdp
  have hul := Unserialize_data BTreeNode.default t.buffercache lb lf hlf hdl
  have hpick : pickChild g.m bp key = .ok lb := by
    rw [hlb]; exact pickChild_spec g bp p0 1 kps key hint hk1
  have hpl : p ≠ lb := by
    intro he
    rw [he, hlf] at hbp
    cases hbp
    have h1 := hl.1
    rcases hint.1 with h2 | h2 <;> rw [h1] at h2 <;> cases h2
  have hp0' : p ≠ 0 := data_ne_zero hs hbp hdp
  have hlb0 : lb ≠ 0 := data_ne_zero hs hlf hdl
  obtain ⟨lf', hadd, hl'⟩ := AddKeyVal_leaf g t lb lf es key v 0 hlf hl hkey hv
  have hltlb := lt_length_of_getElem? hlf
  have hself : (t.put lb lf').buffercache.blocks[lb]? = some lf' := by
    show (t.buffercache.blocks.set lb lf')[lb]? = some lf'
    rw [List.getElem?_set_self hltlb]
  have hother : ∀ j, j ≠ lb →
      (t.put lb lf').buffercache.blocks[j]? = t.buffercache.blocks[j]? := by
    intro j hj
    show (t.buffercache.blocks.set lb lf')[j]? = _
    rw [List.getElem?_set_ne (Ne.symm hj)]
  have hstep : ∀ f par, SearchInternal2 g.m (f + 2) t p key v par
      = splitChild g.m (t.put lb lf') p lb := by
    intro f par
    obtain ⟨hA, _⟩ := SearchInternal2_int g.m (f + 1) t p key v par bp lb hup hint.1 hpick
    exact hA (t.put lb lf') (by rw [SearchInternal2_leaf g.m f t lb key v _ lf hul hl.1, hadd])
  have hns := NeedToSplit_leaf g (t.put lb lf') lb lf' _ 0 hself hl'
  rw [length_insSlot] at hns
  have hkeeps : Keeps t (t.put lb lf') := by
    have := AddKeyVal_keeps g.m t hs lb key v 0
    rw [hadd] at this
    exact this
  constructor
  · intro hlt
    refine ⟨lf', hl', ?_⟩
    intro f par
    rw [hstep f par]
    unfold splitChild
    have : NeedToSplit g.m (t.put lb lf') lb = false := by
      rw [hns]
      simp only [decide_eq_false_iff_not]
      omega
    simp only [this, Bool.false_eq_true, if_false]
  · intro hfull bx h0 hbx htyx
    have hsp : NeedToSplit g.m (t.put lb lf') lb = true := by
      rw [hns]
      simp only [decide_eq_true_eq]
      omega
    have hxlb : t.superblock.info.freelist ≠ lb := by
      intro he
      rw [he, hlf] at hbx
      cases hbx
      rw [htyx] at hdl
      cases hdl
    have hxp : t.superblock.info.freelist ≠ p := by
      intro he
      rw [he, hbp] at hbx
      cases hbx
      rw [htyx] at hdp
      cases hdp
    have hxlt : t.superblock.info.freelist < t.buffercache.blocks.length :=
      lt_length_of_getElem? hbx
    obtain ⟨t2, bl, br, el, e, er, hsplit, hins, hell, hbl, hbr, hll, hlr, hkeep2, hfl2, hfr2⟩ :=
      SplitNode_leaf_gen g (t.put lb lf') hkeeps.1 lb lf' _ hself hl'
        (by rw [length_insSlot]; omega) bx h0 ((hother _ hxlb).trans hbx) htyx []
    have hsplit' : SplitNode g.m (t.put lb lf') lb []
        = some (ERROR_T.ERROR_NOERROR, t.superblock.info.freelist, e.1, t2) := hsplit
    have hbp2 : t2.buffercache.blocks[p]? = some bp := by
      rw [hfr2 p hp0' hpl hxp.symm, hother p hpl]
      exact hbp
    have hepk : e.1.length = g.keysize := by
      have := hl'.2.2.2.2.1 e (by rw [hins]; simp)
      exact this.1
    obtain ⟨bp', hadd2, hint', hty'⟩ := AddKeyVal_int g t2 p bp p0 kps e.1
      t.superblock.info.freelist hbp2 hint hk1 hepk (by omega)
    have hltp : p < t2.buffercache.blocks.length := lt_length_of_getElem? hbp2
    refine ⟨t2.put p bp', bl, br, bp', el, e, er, ?_, hins, ?_, ?_, hll, ?_, hlr, ?_, hint', hty',
      hfl2, ?_, ?_⟩
    · intro f par
      rw [hstep f par]
      unfold splitChild
      simp only [hsp, if_true, hsplit', hadd2]
    · rw [List.length_append, List.length_singleton, hell, length_insSlot, hfull]
    · show (t2.buffercache.blocks.set p bp')[lb]? = _
      rw [List.getElem?_set_ne hpl]
      exact hbl
    · show (t2.buffercache.blocks.set p bp')[t.superblock.info.freelist]? = _
      rw [List.getElem?_set_ne hxp.symm]
      exact hbr
    · show (t2.buffercache.blocks.set p bp')[p]? = _
      rw [List.getElem?_set_self hltp]
    · have h3 : Keeps t2 (t2.put p bp') := by
        have := AddKeyVal_keeps g.m t2 hkeep2.1 p e.1 [] t.superblock.info.freelist
        rw [hadd2] at this
        exact this
      exact (hkeeps.trans hkeep2).trans h3
    · intro j hj0 hjlb hjp hjx
      show (t2.buffercache.blocks.set p bp')[j]? = _
      rw [List.getElem?_set_ne (Ne.symm hjp), hfr2 j hj0 hjlb hjx, hother j hjlb]

/-! ## The path of a descent -/

theorem descentPath_head (m : Machine) (fuel : Nat) (t : BTreeIndex) (blk : Nat) (k : KEY_T)
    (x : Nat) (r : List Nat) (h : descentPath m fuel t blk k = x :: r) : blk = x := by
  cases fuel with
  | zero => simp [descentPath] at h
  | succ f =>
    rw [descentPath] at h
    split at h
    · split at h
      · split at h
        · exact (List.cons.inj h).1
        · exact (List.cons.inj h).1
      · split at h
        · exact (List.cons.inj h).1
        · exact (List.cons.inj h).1
      · exact (List.cons.inj h).1
    · exact (List.cons.inj h).1

/-- A path that goes on below its first block: that block is a root or
interior node and the path continues at the child the scan picks. -/
theorem descentPath_cons (m : Machine) (fuel : Nat) (t : BTreeIndex) (blk : Nat) (k : KEY_T)
    (a : Nat) (rest : List Nat) (h : descentPath m fuel t blk k = a :: rest)
    (hne : rest ≠ []) :
    ∃ f b c, fuel = f + 1 ∧ blk = a ∧ t.buffercache.blocks[blk]? = some b ∧
      (b.info.nodetype = NodeType.BTREE_ROOT_NODE ∨
        b.info.nodetype = NodeType.BTREE_INTERIOR_NODE) ∧
      pickChild m b k = .ok c ∧ descentPath m f t c k = rest := by
  cases fuel with
  | zero => simp [descentPath] at h
  | succ f =>
    rw [descentPath] at h
    cases hu : BTreeNode.default.Unserialize t.buffercache blk with
    | mk rc b =>
      rw [hu] at h
      cases rc <;> try (simp only at h; exact absurd (List.cons.inj h).2.symm hne)
      simp only at h
      obtain ⟨blk0, hb0, hinfo, heq⟩ := Unserialize_ok_block _ _ _ _ hu
      cases hty : b.info.nodetype <;> rw [hty] at h <;> simp only at h <;>
        try (exact absurd (List.cons.inj h).2.symm hne)
      · cases hp : pickChild m b k with
        | error e =>
          rw [hp] at h
          exact absurd (List.cons.inj h).2.symm hne
        | ok c =>
          rw [hp] at h
          have hd : hasData blk0.info.nodetype = true := by rw [hinfo, hty]; rfl
          have hbb := heq hd
          subst hbb
          exact ⟨f, blk0, c, rfl, (List.cons.inj h).1, hb0, Or.inl hty, hp, (List.cons.inj h).2⟩
      · cases hp : pickChild m b k with
        | error e =>
          rw [hp] at h
          exact absurd (List.cons.inj h).2.symm hne
        | ok c =>
          rw [hp] at h
          have hd : hasData blk0.info.nodetype = true := by rw [hinfo, hty]; rfl
          have hbb := heq hd
          subst hbb
          exact ⟨f, blk0, c, rfl, (List.cons.inj h).1, hb0, Or.inr hty, hp, (List.cons.inj h).2⟩

/-- A root or interior node with a slot to spare needs no split. -/
theorem NeedToSplit_slack (g : Geom) (ks : List KEY_T) (t : BTreeIndex) (ht : Nat → Nat)
    (blk : Nat) (b : BTreeNode) (hb : t.buffercache.blocks[blk]? = some b)
    (hty : b.info.nodetype = NodeType.BTREE_ROOT_NODE ∨
      b.info.nodetype = NodeType.BTREE_INTERIOR_NODE)
    (h : WB g ks t.buffercache.blocks ht blk b 1) : NeedToSplit g.m t blk = false := by
  obtain ⟨_, hhdr, hcap, _⟩ := h.2 hty
  have hd : hasData b.info.nodetype = true := by rcases hty with h | h <;> rw [h] <;> rfl
  unfold NeedToSplit
  rw [Unserialize_data _ _ _ b hb hd]
  rcases hty with hty | hty <;>
    simp only [hty, slots_int_of_hdr g b hhdr, decide_eq_false_iff_not] <;> omega

/-- What a root or interior node on a path is, on a device of well-formed
blocks: it has keys, and the next block of the path is its child for the key,
one level down. -/
theorem path_node (g : Geom) (ks : List KEY_T) (dev : List BTreeNode) (ht : Nat → Nat)
    (blk : Nat) (b : BTreeNode) (s : Nat) (hw : WB g ks dev ht blk b s)
    (hty : b.info.nodetype = NodeType.BTREE_ROOT_NODE ∨
      b.info.nodetype = NodeType.BTREE_INTERIOR_NODE)
    (key : KEY_T) (c : Nat) (hp : pickChild g.m b key = .ok c) :
    ∃ p0 kps, IntAt g b p0 kps s ∧ 1 ≤ kps.length ∧ c = pick key p0 kps ∧
      Live dev c ∧ ht c + 1 = ht blk := by
  obtain ⟨_, _, _, hk⟩ := hw.2 hty
  have hpos := pickChild_ok_numkeys g.m b key c hp
  rcases hk with hk | ⟨p0, kps, hne, hint, hkids⟩
  · omega
  have hk1 : 1 ≤ kps.length := by
    cases kps with
    | nil => exact absurd rfl hne
    | cons a r => simp
  have hc : c = pick key p0 kps := by
    have := pickChild_spec g b p0 s kps key hint hk1
    rw [hp] at this
    exact Except.ok.inj this
  obtain ⟨hl, hh⟩ := hkids _ (pick_mem key kps p0)
  exact ⟨p0, kps, hint, hk1, hc, by rw [hc]; exact hl, by rw [hc]; exact hh⟩

/-- When the step at the parent `p` of the leaf returns a state `t2` in which
`p` needs no split and the nodes above `p` are as before, every step of the
descent above `p` returns `t2` as well. -/
theorem climb (g : Geom) (ks : List KEY_T) (t t2 : BTreeIndex) (ht : Nat → Nat)
    (hw : WBs g ks t.buffercache.blocks ht (fun _ => 1)) (key : KEY_T) (v : VALUE_T)
    (p lb : Nat)
    (hp : ∀ f par, SearchInternal2 g.m (f + 2) t p key v par
      = some (ERROR_T.ERROR_NOERROR, t2))
    (hunch : ∀ j, Live t.buffercache.blocks j → ht p < ht j →
      t2.buffercache.blocks[j]? = t.buffercache.blocks[j]?)
    (hnsp : NeedToSplit g.m t2 p = false) :
    ∀ (pre : List Nat) (blk fuel par : Nat),
      descentPath g.m fuel t blk key = pre ++ [p, lb] →
      SearchInternal2 g.m fuel t blk key v par = some (ERROR_T.ERROR_NOERROR, t2) ∧
      NeedToSplit g.m t2 blk = false ∧ ht blk = ht p + pre.length := by
  intro pre
  induction pre with
  | nil =>
    intro blk fuel par hpath
    simp only [List.nil_append] at hpath
    obtain ⟨f, b, c, hf, hblk, _, _, _, hrest⟩ :=
      descentPath_cons g.m fuel t blk key p [lb] hpath (by simp)
    have hf1 : ∃ f', f = f' + 1 := by
      cases f with
      | zero => simp [descentPath] at hrest
      | succ f' => exact ⟨f', rfl⟩
    obtain ⟨f', hf'⟩ := hf1
    subst hf hf' hblk
    exact ⟨hp f' par, hnsp, by simp⟩
  | cons a pre' ih =>
    intro blk fuel par hpath
    simp only [List.cons_append] at hpath
    obtain ⟨f, b, c, hf, hblk, hb, hty, hpick, hrest⟩ :=
      descentPath_cons g.m fuel t blk key a (pre' ++ [p, lb]) hpath (by simp)
    subst hf
    obtain ⟨hrec, hnsc, hhc⟩ := ih c f blk hrest
    have hd : hasData b.info.nodetype = true := by rcases hty with h | h <;> rw [h] <;> rfl
    have hu := Unserialize_data BTreeNode.default t.buffercache blk b hb hd
    obtain ⟨p0, kps, hint, hk1, hc, _, hh⟩ := path_node g ks _ ht blk b 1 (hw blk b hb) hty key c
      hpick
    obtain ⟨hA, _⟩ := SearchInternal2_int g.m f t blk key v par b c hu hty hpick
    have hhb : ht blk = ht p + (a :: pre').length := by
      rw [List.length_cons]; omega
    refine ⟨?_, ?_, hhb⟩
    · rw [hA t2 hrec]
      unfold splitChild
      simp only [hnsc, Bool.false_eq_true, if_false]
    · rw [NeedToSplit_congr g.m t t2 blk
        (hunch blk ⟨b, hb, hd⟩ (by rw [hhb, List.length_cons]; omega))]
      exact NeedToSplit_slack g ks t ht blk b hb hty (hw blk b hb)

/-- The parent of the leaf on a path: a root or interior node whose child for
the key is the leaf. -/
theorem path_parent (m : Machine) (t : BTreeIndex) (key : KEY_T) (p lb : Nat) :
    ∀ (pre : List Nat) (blk fuel : Nat), descentPath m fuel t blk key = pre ++ [p, lb] →
      ∃ bp, t.buffercache.blocks[p]? = some bp ∧
        (bp.info.nodetype = NodeType.BTREE_ROOT_NODE ∨
          bp.info.nodetype = NodeType.BTREE_INTERIOR_NODE) ∧
        pickChild m bp key = .ok lb := by
  intro pre
  induction pre with
  | nil =>
    intro blk fuel hpath
    simp only [List.nil_append] at hpath
    obtain ⟨f, b, c, hf, hblk, hb, hty, hpick, hrest⟩ :=
      descentPath_cons m fuel t blk key p [lb] hpath (by simp)
    have hc := descentPath_head m f t c key lb [] hrest
    subst hblk hc
    exact ⟨b, hb, hty, hpick⟩
  | cons a pre' ih =>
    intro blk fuel hpath
    simp only [List.cons_append] at hpath
    obtain ⟨f, b, c, hf, hblk, hb, hty, hpick, hrest⟩ :=
      descentPath_cons m fuel t blk key a (pre' ++ [p, lb]) hpath (by simp)
    exact ih c f hrest

/-- A block from which a path leads to a leaf is no node without keys. -/
theorem path_not_dead (m : Machine) (t : BTreeIndex) (key : KEY_T) (lb : Nat) (lf : BTreeNode)
    (hlf : t.buffercache.blocks[lb]? = some lf)
    (hlty : lf.info.nodetype = NodeType.BTREE_LEAF_NODE) (q : List Nat) (c f : Nat)
    (hpath : descentPath m f t c key = q ++ [lb]) : ¬ Dead t.buffercache.blocks c := by
  rintro ⟨bc, hbc, hcty, hcnum⟩
  cases q with
  | nil =>
    have hc := descentPath_head m f t c key lb [] hpath
    subst hc
    rw [hlf] at hbc
    cases hbc
    rcases hcty with h | h <;> rw [hlty] at h <;> cases h
  | cons x q' =>
    obtain ⟨f', b, c', _, _, hb, _, hpick, _⟩ :=
      descentPath_cons m f t c key x (q' ++ [lb]) hpath (by simp)
    rw [hbc] at hb
    cases hb
    have := pickChild_ok_numkeys m bc key c' hpick
    omega

/-- Insert on a tree whose root has keys, for a key that is in no leaf, when
the descent returns ERROR_NOERROR and leaves a root that needs no split. -/
theorem Insert_descent_result (g : Geom) (t : BTreeIndex) (ks : List KEY_T)
    (hinv : WeakInv g t ks) (key : KEY_T) (hk : key ∉ ks) (v : VALUE_T) (b : BTreeNode)
    (hb : t.buffercache.blocks[t.superblock.info.rootnode]? = some b)
    (hd : hasData b.info.nodetype = true) (hnum : b.info.numkeys ≠ 0) (t2 : BTreeIndex)
    (hrun : SearchInternal2 g.m (depthBound t) t t.superblock.info.rootnode key v
      t.superblock.info.rootnode = some (ERROR_T.ERROR_NOERROR, t2))
    (hroot : t2.superblock.info.rootnode = t.superblock.info.rootnode)
    (hns : NeedToSplit g.m t2 t.superblock.info.rootnode = false) :
    BTreeIndex.Insert g.m t key v = some (ERROR_T.ERROR_NOERROR, t2) := by
  have hu := Unserialize_data BTreeNode.default t.buffercache _ b hb hd
  have hlk := (WeakInv_absent g t ks hinv key hk v).1
  have hdesc : insertDescent g.m t key v = some (ERROR_T.ERROR_NOERROR, b, t2) := by
    unfold insertDescent
    simp only [hu, hnum, if_false, hlk, hrun]
  rw [Insert_of_descent g.m t key v _ _ _ hdesc, hroot, hns]
  simp

/-- C17 (amended): let C be the leaf capacity, at least 3, on a device whose
interior nodes hold at least one key. In every state reached from a fresh tree
by successful inserts, for a key never inserted whose descent ends at the leaf
`lb` below the parent `p`: the leaf holds fewer than C entries and the parent
has a slot to spare. If the insert leaves the leaf with fewer than C entries,
Insert returns ERROR_NOERROR and changes nothing but the leaf block, which
then holds the old entries and the new pair in key order: no block is
allocated and the parent gains no key. If the insert brings the leaf to
exactly C entries and the free list is not empty, the descent step at the
parent splits the leaf at once: the leaf keeps the first (C + 2) / 2 entries,
the block at the head of the free list becomes a leaf holding the rest, the
parent gains exactly one key, the last key the leaf keeps, with the new block
as the pointer right of it, and no block but these three and the superblock
changes; when the parent still has a slot to spare after that, this is the
state Insert returns with ERROR_NOERROR. -/
theorem leaf_split_on_reaching_capacity (m : Machine) (keysize valuesize : Nat)
    (cache : BufferCache) (w : List (KEY_T × VALUE_T)) (t0 t : BTreeIndex) (k : KEY_T)
    (v : VALUE_T) (pre : List Nat) (p lb : Nat)
    (hL : 3 ≤ leafCapacity m keysize valuesize cache.blocksize)
    (hI : 1 ≤ interiorCapacity m keysize cache.blocksize)
    (hN : cache.blocks.length ≤ 256 ^ m.sizeofSIZE_T)
    (hw : ∀ e ∈ w, e.1.length = keysize ∧ e.2.length = valuesize)
    (h0 : fresh m keysize valuesize cache = some t0) (hrun : runInserts m t0 w = some t)
    (hk : k.length = keysize) (hv : v.length = valuesize) (hnew : ∀ e ∈ w, e.1 ≠ k)
    (hpath : descentPath m (depthBound t) t t.superblock.info.rootnode k = pre ++ [p, lb])
    (hleaf : (t.buffercache.blocks[lb]?).map (fun b => b.info.nodetype)
      = some NodeType.BTREE_LEAF_NODE) :
    ∃ bp p0 kps lf es,
      t.buffercache.blocks[p]? = some bp ∧
      IntAt ⟨m, keysize, valuesize, cache.blocksize⟩ bp p0 kps 1 ∧
      t.buffercache.blocks[lb]? = some lf ∧
      LeafAt ⟨m, keysize, valuesize, cache.blocksize⟩ lf es 1 ∧
      (es.length + 1 < leafCapacity m keysize valuesize cache.blocksize →
        ∃ lf', LeafAt ⟨m, keysize, valuesize, cache.blocksize⟩ lf' (insSlot k (k, v) es) 0 ∧
          BTreeIndex.Insert m t k v = some (ERROR_T.ERROR_NOERROR, t.put lb lf')) ∧
      (es.length + 1 = leafCapacity m keysize valuesize cache.blocksize →
        t.superblock.info.freelist ≠ 0 →
        ∃ bx t2 bl br bp' el e er,
          t.buffercache.blocks[t.superblock.info.freelist]? = some bx ∧
          bx.info.nodetype = NodeType.BTREE_UNALLOCATED_BLOCK ∧
          (∀ f par, SearchInternal2 m (f + 2) t p k v par
            = some (ERROR_T.ERROR_NOERROR, t2)) ∧
          insSlot k (k, v) es = el ++ e :: er ∧
          (el ++ [e]).length = (leafCapacity m keysize valuesize cache.blocksize + 2) / 2 ∧
          t2.buffercache.blocks[lb]? = some bl ∧
          LeafAt ⟨m, keysize, valuesize, cache.blocksize⟩ bl (el ++ [e]) 0 ∧
          t2.buffercache.blocks[t.superblock.info.freelist]? = some br ∧
          LeafAt ⟨m, keysize, valuesize, cache.blocksize⟩ br er 0 ∧
          t2.buffercache.blocks[p]? = some bp' ∧
          IntAt ⟨m, keysize, valuesize, cache.blocksize⟩ bp' p0
            (insSlot e.1 (e.1, t.superblock.info.freelist) kps) 0 ∧
          t2.superblock.info.freelist = bx.info.freelist ∧
          (∀ j, j ≠ 0 → j ≠ lb → j ≠ p → j ≠ t.superblock.info.freelist →
            t2.buffercache.blocks[j]? = t.buffercache.blocks[j]?) ∧
          (kps.length + 2 ≤ interiorCapacity m keysize cache.blocksize →
            BTreeIndex.Insert m t k v = some (ERROR_T.ERROR_NOERROR, t2))) := by
  obtain ⟨g, hg⟩ : ∃ g : Geom, g = ⟨m, keysize, valuesize, cache.blocksize⟩ := ⟨_, rfl⟩
  rw [← hg]
  have hgm : g.m = m := by rw [hg]
  have hgL : g.capL = leafCapacity m keysize valuesize cache.blocksize := by rw [hg]; rfl
  have hgI : g.capI = interiorCapacity m keysize cache.blocksize := by rw [hg]; rfl
  rw [← hgL, ← hgI]
  have hinv0 : WeakInv g t0 [] := by rw [hg]; exact fresh_weak m keysize valuesize cache t0 h0 hN hI
  obtain ⟨ks1, hinv, hks1⟩ := runInserts_weak g (by rw [hgL]; exact hL) (by rw [hgI]; exact hI) w
    t0 [] t hinv0 (by rw [hg]; exact hw) (by rw [hgm]; exact hrun)
  have hknew : k ∉ ks1 := by
    intro hmem
    rcases hks1 k hmem with h | ⟨e, he, hek⟩
    · cases h
    · exact hnew e he hek
  have hinv' := hinv
  obtain ⟨hs, hks, hvs, hbs, hNt, ht, fl, b, hb, hty, hfree, hbound, hfresh, hwbs, hroot⟩ := hinv
  have hd : hasData b.info.nodetype = true := by rcases hty with h | h <;> rw [h] <;> rfl
  -- the leaf
  obtain ⟨lf, hlf, hlty⟩ : ∃ lf, t.buffercache.blocks[lb]? = some lf ∧
      lf.info.nodetype = NodeType.BTREE_LEAF_NODE := by
    cases hx : t.buffercache.blocks[lb]? with
    | none => rw [hx] at hleaf; cases hleaf
    | some lf =>
      rw [hx] at hleaf
      exact ⟨lf, rfl, Option.some.inj hleaf⟩
  -- the root has keys and a slot to spare
  obtain ⟨a, q, hq⟩ : ∃ a q, pre ++ [p] = a :: q := by
    cases pre with
    | nil => exact ⟨p, [], rfl⟩
    | cons a r => exact ⟨a, r ++ [p], rfl⟩
  have hpath2 : descentPath m (depthBound t) t t.superblock.info.rootnode k
      = a :: (q ++ [lb]) := by
    rw [hpath]
    have : pre ++ [p, lb] = (pre ++ [p]) ++ [lb] := by simp
    rw [this, hq]
    rfl
  obtain ⟨f, b', c, hf, _, hb', _, hpick, hrest⟩ :=
    descentPath_cons m _ t _ k a (q ++ [lb]) hpath2 (by simp)
  rw [hb] at hb'
  cases hb'
  have hnum : b.info.numkeys ≠ 0 := by
    have := pickChild_ok_numkeys m b k c hpick
    omega
  have hslack : b.info.numkeys + 1 ≤ g.capI := by
    rcases hroot with h | ⟨p0, kps, hint, hdead⟩
    · exact h
    · exfalso
      have hk1 : 1 ≤ kps.length := by
        rw [← hint.2.2.1]; omega
      have hc : c = pick k p0 kps := by
        have := pickChild_spec g b p0 0 kps k hint hk1
        rw [hgm, hpick] at this
        exact Except.ok.inj this
      exact path_not_dead m t k lb lf hlf hlty q c f hrest
        (by rw [hc]; exact hdead _ (pick_mem k kps p0))
  have hfc : FreeChain t.buffercache.blocks t.superblock.info.freelist fl := by
    rcases hfree with h | h
    · exact h
    · exact absurd h.1 hnum
  have hw' : WBs g ks1 t.buffercache.blocks ht (fun _ => 1) := by
    intro j cj hcj
    by_cases hjr : j = t.superblock.info.rootnode
    · subst hjr
      rw [hb] at hcj
      cases hcj
      have hwb := hwbs _ b hb
      simp only [if_true] at hwb
      exact WB_int_slack hwb hty hslack
    · have := hwbs j cj hcj
      simpa only [hjr, if_false] using this
  -- the parent and the leaf
  obtain ⟨bp, hbp, hpty, hppick⟩ := path_parent m t k p lb pre _ _ hpath
  obtain ⟨p0, kps, hint, hk1, hlb, _, hhlb⟩ := path_node g ks1 _ ht p bp 1 (hw' p bp hbp) hpty k lb
    (by rw [hgm]; exact hppick)
  obtain ⟨hlb0, es, hl, _⟩ := (hw' lb lf hlf).1 hlty
  have hdp : hasData bp.info.nodetype = true := hint.nodeHasData
  have hplb : p ≠ lb := by
    intro he
    rw [he] at hhlb
    omega
  have hstep := parent_step g t hs hNt p bp p0 kps hbp hint hk1 k v (by rw [hg]; exact hk)
    (by rw [hg]; exact hv) lf es (by rw [← hlb]; exact hlf) hl
  rw [← hlb, hgm] at hstep
  obtain ⟨hA, hB⟩ := hstep
  have hpathg : descentPath g.m (depthBound t) t t.superblock.info.rootnode k
      = pre ++ [p, lb] := by rw [hgm]; exact hpath
  refine ⟨bp, p0, kps, lf, es, hbp, hint, hlf, hl, ?_, ?_⟩
  · intro hlt
    obtain ⟨lf', hl', hrunA⟩ := hA hlt
    refine ⟨lf', hl', ?_⟩
    have hother : ∀ j, j ≠ lb →
        (t.put lb lf').buffercache.blocks[j]? = t.buffercache.blocks[j]? := by
      intro j hj
      show (t.buffercache.blocks.set lb lf')[j]? = _
      rw [List.getElem?_set_ne (Ne.symm hj)]
    obtain ⟨hfin, hnsr, _⟩ := climb g ks1 t (t.put lb lf') ht hw' k v p lb
      (by rw [hgm]; exact hrunA)
      (fun j _ hj => hother j (by intro he; rw [he] at hj; omega))
      (by
        rw [NeedToSplit_congr g.m t _ p (hother p hplb)]
        exact NeedToSplit_slack g ks1 t ht p bp hbp hpty (hw' p bp hbp))
      pre _ _ t.superblock.info.rootnode hpathg
    have := Insert_descent_result g t ks1 hinv' k hknew v b hb hd hnum _ hfin rfl hnsr
    rw [hgm] at this
    exact this
  · intro hfull hhead
    obtain ⟨x, xs, hfleq⟩ : ∃ x xs, fl = x :: xs := by
      cases fl with
      | nil => exact absurd hfc hhead
      | cons x xs => exact ⟨x, xs, rfl⟩
    rw [hfleq] at hfc
    have hfc' := hfc
    simp only [FreeChain] at hfc
    obtain ⟨hhx, _, _, bx, hbx, htyx, _⟩ := hfc
    rw [← hhx] at hbx
    obtain ⟨t2, bl, br, bp', el, e, er, hrunB, hins, hlen, hbl, hll, hbr, hlr, hbp', hint', hty',
      hfl2, hkeep, hframe⟩ := hB hfull bx hhead hbx htyx
    refine ⟨bx, t2, bl, br, bp', el, e, er, hbx, htyx, hrunB, hins, hlen, hbl, hll, hbr, hlr, hbp',
      hint', hfl2, hframe, ?_⟩
    intro hroom
    have hxl : ¬ Live t.buffercache.blocks t.superblock.info.freelist := by
      rintro ⟨cx, hcx, hdx⟩
      rw [hbx] at hcx
      cases hcx
      rw [htyx] at hdx
      cases hdx
    obtain ⟨hfin, hnsr, _⟩ := climb g ks1 t t2 ht hw' k v p lb
      (by rw [hgm]; exact hrunB)
      (fun j hjl hj => hframe j (Live_ne_zero hs hjl) (by intro he; rw [he] at hj; omega)
        (by intro he; rw [he] at hj; omega) (fun he => hxl (he ▸ hjl)))
      (by
        rw [NeedToSplit_int g t2 p bp' p0 _ 0 hbp' hint', length_insSlot]
        simp only [decide_eq_false_iff_not]
        omega)
      pre _ _ t.superblock.info.rootnode hpathg
    have := Insert_descent_result g t ks1 hinv' k hknew v b hb hd hnum _ hfin hkeep.2.1 hnsr
    rw [hgm] at this
    exact this


/-! ## The blocks of a reached state -/

/-- In every state reached from a fresh tree by successful inserts, on a
device whose leaves hold at least 3 keys and whose interior nodes hold at
least 1: the index is in step with block 0, every leaf is a well-formed leaf
with a slot to spare holding inserted keys only, the root block is a root or
interior node, well formed if it has keys, and every other root or interior
node with keys is well formed with a slot to spare. -/
theorem reached_blocks (m : Machine) (keysize valuesize : Nat) (cache : BufferCache)
    (w : List (KEY_T × VALUE_T)) (t0 t : BTreeIndex)
    (hL : 3 ≤ leafCapacity m keysize valuesize cache.blocksize)
    (hI : 1 ≤ interiorCapacity m keysize cache.blocksize)
    (hN : cache.blocks.length ≤ 256 ^ m.sizeofSIZE_T)
    (hw : ∀ e ∈ w, e.1.length = keysize ∧ e.2.length = valuesize)
    (h0 : fresh m keysize valuesize cache = some t0) (hrun : runInserts m t0 w = some t) :
    SuperOK t ∧
    (∀ (j : Nat) (b : BTreeNode), t.buffercache.blocks[j]? = some b →
      b.info.nodetype = NodeType.BTREE_LEAF_NODE →
      ∃ es, LeafAt ⟨m, keysize, valuesize, cache.blocksize⟩ b es 1 ∧
        ∀ e ∈ es, ∃ x ∈ w, x.1 = e.1) ∧
    (∃ rb, t.buffercache.blocks[t.superblock.info.rootnode]? = some rb ∧
      (rb.info.nodetype = NodeType.BTREE_ROOT_NODE ∨
        rb.info.nodetype = NodeType.BTREE_INTERIOR_NODE) ∧
      (rb.info.numkeys = 0 ∨
        ∃ p0 kps, kps ≠ [] ∧ IntAt ⟨m, keysize, valuesize, cache.blocksize⟩ rb p0 kps 0)) ∧
    (∀ (j : Nat) (b : BTreeNode), t.buffercache.blocks[j]? = some b → j ≠ t.superblock.info.rootnode →
      (b.info.nodetype = NodeType.BTREE_ROOT_NODE ∨
        b.info.nodetype = NodeType.BTREE_INTERIOR_NODE) →
      b.info.numkeys = 0 ∨
        ∃ p0 kps, kps ≠ [] ∧ IntAt ⟨m, keysize, valuesize, cache.blocksize⟩ b p0 kps 1) := by
  have hinv0 := fresh_weak m keysize valuesize cache t0 h0 hN hI
  obtain ⟨ks1, hinv, hks1⟩ := runInserts_weak ⟨m, keysize, valuesize, cache.blocksize⟩ hL hI w
    t0 [] t hinv0 hw hrun
  obtain ⟨hs, _, _, _, _, ht, fl, rb, hrb, hrty, _, _, _, hwbs, _⟩ := hinv
  have hwbs : ∀ j c, t.buffercache.blocks[j]? = some c →
      WB ⟨m, keysize, valuesize, cache.blocksize⟩ ks1 t.buffercache.blocks ht j c
        (if j = t.superblock.info.rootnode then 0 else 1) := hwbs
  refine ⟨hs, ?_, ⟨rb, hrb, hrty, ?_⟩, ?_⟩
  · intro j b hb hty
    have hwb := hwbs j b hb
    obtain ⟨_, es, hl, hes⟩ := hwb.1 hty
    have hj : j ≠ t.superblock.info.rootnode := by
      intro he
      rw [he, hrb] at hb
      cases hb
      rcases hrty with h | h <;> rw [hty] at h <;> cases h
    simp only [hj, if_false] at hl
    refine ⟨es, hl, ?_⟩
    intro e he
    rcases hks1 _ (hes e he) with h | ⟨x, hx, hxe⟩
    · exact absurd h (List.not_mem_nil _)
    · exact ⟨x, hx, hxe⟩
  · have hwb := hwbs _ rb hrb
    simp only [if_true] at hwb
    obtain ⟨_, _, _, hk⟩ := hwb.2 hrty
    rcases hk with hk | ⟨p0, kps, hne, hint, _⟩
    · exact Or.inl hk
    · exact Or.inr ⟨p0, kps, hne, hint⟩
  · intro j b hb hj hty
    have hwb := hwbs j b hb
    simp only [hj, if_false] at hwb
    obtain ⟨_, _, _, hk⟩ := hwb.2 hty
    rcases hk with hk | ⟨p0, kps, hne, hint, _⟩
    · exact Or.inl hk
    · exact Or.inr ⟨p0, kps, hne, hint⟩

theorem LeafAt_slack (g : Geom) (b : BTreeNode) (es : List (KEY_T × VALUE_T)) (s s1 : Nat)
    (h : LeafAt g b es s) (hs : s1 ≤ s) : LeafAt g b es s1 := by
  obtain ⟨h1, h2, h3, h4, h5⟩ := h
  exact ⟨h1, h2, h3, by omega, h5⟩

theorem IntAt_slack (g : Geom) (b : BTreeNode) (p0 : Nat) (kps : List (KEY_T × Nat))
    (s s1 : Nat) (h : IntAt g b p0 kps s) (hs : s1 ≤ s) : IntAt g b p0 kps s1 := by
  obtain ⟨h1, h2, h3, h4, h5⟩ := h
  exact ⟨h1, h2, h3, by omega, h5⟩


/-! ## Keys that were never inserted -/

theorem getElem?_writeAt_outside (d : List Nat) (off : Nat) (bs : List Nat) (i : Nat)
    (h : i < off ∨ off + bs.length ≤ i) : (writeAt d off bs)[i]? = d[i]? := by
  unfold writeAt
  by_cases hi : i < d.length
  · rw [List.getElem?_take_of_lt hi]
    rcases h with h | h
    · rw [List.append_assoc, List.getElem?_append_left (by rw [List.length_take]; omega),
        List.getElem?_take_of_lt h]
    · have hoff : off ≤ d.length := by omega
      have hl : (List.take off d ++ bs).length = off + bs.length := by
        rw [List.length_append, List.length_take]; omega
      rw [List.getElem?_append_right (by rw [hl]; exact h), hl, List.getElem?_drop]
      congr 1
      omega
  · rw [List.getElem?_take_eq_none (by omega), List.getElem?_eq_none (by omega)]

theorem getElem?_readAt (d : List Nat) (o len i : Nat) :
    (readAt d o len)[i]? = if i < len then d[o + i]? else none := by
  unfold readAt
  rw [List.getElem?_take, List.getElem?_drop]

theorem readAt_congr (d1 d2 : List Nat) (o len : Nat)
    (h : ∀ i, o ≤ i → i < o + len → d1[i]? = d2[i]?) : readAt d1 o len = readAt d2 o len := by
  apply List.ext_getElem?
  intro i
  rw [getElem?_readAt, getElem?_readAt]
  split
  · exact h _ (by omega) (by omega)
  · rfl

/-- Writing the value of slot `off` of a leaf: the header stays, and so does
every byte outside the value bytes of that slot, hence every key, the leading
pointer and every other value. -/
theorem SetVal_frame (m : Machine) (b b1 : BTreeNode) (off : Nat) (v : VALUE_T)
    (h : b.SetVal m off v = .ok b1) :
    b.info.nodetype = NodeType.BTREE_LEAF_NODE ∧ off < b.info.numkeys ∧
    b.ResolveVal m off = some (m.sizeofSIZE_T + off * (b.info.keysize + b.info.valuesize)
      + b.info.keysize) ∧
    b1.info = b.info ∧ b1.data.length = b.data.length ∧
    (∀ i, (i < m.sizeofSIZE_T + off * (b.info.keysize + b.info.valuesize) + b.info.keysize ∨
        m.sizeofSIZE_T + off * (b.info.keysize + b.info.valuesize) + b.info.keysize
          + b.info.valuesize ≤ i) → b1.data[i]? = b.data[i]?) ∧
    (∀ i, b1.GetKey m i = b.GetKey m i) ∧ (∀ i, b1.GetPtr m i = b.GetPtr m i) ∧
    (∀ i, i ≠ off → b1.GetVal m i = b.GetVal m i) := by
  unfold BTreeNode.SetVal BTreeNode.ResolveVal at h
  cases hty : b.info.nodetype <;> simp only [hty] at h <;> try cases h
  split at h
  · rename_i ho
    cases h
    have hlen : (v.take b.info.valuesize).length ≤ b.info.valuesize := by
      rw [List.length_take]; omega
    have hout : ∀ i, (i < m.sizeofSIZE_T + off * (b.info.keysize + b.info.valuesize)
          + b.info.keysize ∨
        m.sizeofSIZE_T + off * (b.info.keysize + b.info.valuesize) + b.info.keysize
          + b.info.valuesize ≤ i) →
        (writeAt b.data (m.sizeofSIZE_T + off * (b.info.keysize + b.info.valuesize)
          + b.info.keysize) (v.take b.info.valuesize))[i]? = b.data[i]? := by
      intro i hi
      apply getElem?_writeAt_outside
      omega
    refine ⟨rfl, ho, ?_, rfl, ?_, hout, ?_, ?_, ?_⟩
    · unfold BTreeNode.ResolveVal
      simp only [hty]
    · show (writeAt _ _ _).length = _
      rw [length_writeAt]
    · intro i
      unfold BTreeNode.GetKey BTreeNode.ResolveKey
      simp only [BTreeNode.withData, hty]
      split
      · congr 1
        apply readAt_congr
        intro j hj1 hj2
        apply hout
        rcases Nat.lt_or_ge off i with hoi | hoi
        · right
          have : (off + 1) * (b.info.keysize + b.info.valuesize)
              ≤ i * (b.info.keysize + b.info.valuesize) := Nat.mul_le_mul_right _ hoi
          have h2 : (off + 1) * (b.info.keysize + b.info.valuesize)
              = off * (b.info.keysize + b.info.valuesize)
                + (b.info.keysize + b.info.valuesize) := by ring
          omega
        · left
          have : i * (b.info.keysize + b.info.valuesize)
              ≤ off * (b.info.keysize + b.info.valuesize) := Nat.mul_le_mul_right _ hoi
          omega
      · rfl
    · intro i
      unfold BTreeNode.GetPtr
      simp only [BTreeNode.withData, hty]
      split
      · congr 2
        apply readAt_congr
        intro j hj1 hj2
        apply hout
        left
        omega
      · rfl
    · intro i hio
      unfold BTreeNode.GetVal BTreeNode.ResolveVal
      simp only [BTreeNode.withData, hty]
      split
      · congr 1
        apply readAt_congr
        intro j hj1 hj2
        apply hout
        rcases Nat.lt_or_ge off i with hoi | hoi
        · right
          have : (off + 1) * (b.info.keysize + b.info.valuesize)
              ≤ i * (b.info.keysize + b.info.valuesize) := Nat.mul_le_mul_right _ hoi
          have h2 : (off + 1) * (b.info.keysize + b.info.valuesize)
              = off * (b.info.keysize + b.info.valuesize)
                + (b.info.keysize + b.info.valuesize) := by ring
          omega
        · left
          have hlt : i + 1 ≤ off := by omega
          have : (i + 1) * (b.info.keysize + b.info.valuesize)
              ≤ off * (b.info.keysize + b.info.valuesize) := Nat.mul_le_mul_right _ hlt
          have h2 : (i + 1) * (b.info.keysize + b.info.valuesize)
              = i * (b.info.keysize + b.info.valuesize)
                + (b.info.keysize + b.info.valuesize) := by ring
          omega
      · rfl
  · cases h

theorem scanLeaf_hit_key (m : Machine) (b : BTreeNode) (key : KEY_T) (cnt off o : Nat)
    (h : scanLeaf m b key off cnt = LeafScanResult.hit o) : b.GetKey m o = .ok key := by
  induction cnt generalizing off with
  | zero => simp [scanLeaf] at h
  | succ n ih =>
    rw [scanLeaf] at h
    cases hk : b.GetKey m off with
    | error e => rw [hk] at h; simp at h
    | ok tk =>
      rw [hk] at h
      simp only at h
      split at h
      · rename_i heq
        cases h
        rw [hk, heq]
      · exact ih _ h

/-- A successful update ends at a leaf, writes the value into the first slot
whose key is `k` and writes that leaf back; nothing else is written. -/
theorem update_walk (m : Machine) (t : BTreeIndex) (k : KEY_T) (v : VALUE_T) :
    ∀ (fuel node : Nat) (v1 : VALUE_T) (t1 : BTreeIndex),
      LookupOrUpdateInternal m fuel t node BTreeOp.BTREE_OP_UPDATE k v
        = some (ERROR_T.ERROR_NOERROR, v1, t1) →
      ∃ leaf b b1 off, t.buffercache.blocks[leaf]? = some b ∧
        b.info.nodetype = NodeType.BTREE_LEAF_NODE ∧ b.GetKey m off = .ok k ∧
        b.SetVal m off v = .ok b1 ∧ t1 = t.put leaf b1 := by
  intro fuel
  induction fuel with
  | zero => intro node v1 t1 h; simp [LookupOrUpdateInternal] at h
  | succ f ih =>
    intro node v1 t1 h
    rw [LookupOrUpdateInternal] at h
    generalize hu : BTreeNode.default.Unserialize t.buffercache node = u at h
    obtain ⟨rc, b⟩ := u
    cases rc <;> simp only [Option.some.injEq, Prod.mk.injEq, false_and, reduceCtorEq] at h
    obtain ⟨blk, hblk, hinfo, heq⟩ := Unserialize_ok_block _ _ _ _ hu
    cases hty : b.info.nodetype <;> simp only [hty] at h
    · simp at h
    · simp at h
    · cases hp : pickChild m b k with
      | error e =>
        rw [hp] at h
        simp only [Option.some.injEq, Prod.mk.injEq] at h
        exact absurd h.1 (pickChild_error_ne m b k e hp)
      | ok ptr => rw [hp] at h; exact ih ptr v1 t1 h
    · cases hp : pickChild m b k with
      | error e =>
        rw [hp] at h
        simp only [Option.some.injEq, Prod.mk.injEq] at h
        exact absurd h.1 (pickChild_error_ne m b k e hp)
      | ok ptr => rw [hp] at h; exact ih ptr v1 t1 h
    · have hd : hasData blk.info.nodetype = true := by rw [hinfo, hty]; rfl
      have hbb := heq hd
      subst hbb
      cases hs : scanLeaf m blk k 0 blk.info.numkeys with
      | fail e =>
        rw [hs] at h
        simp only [Option.some.injEq, Prod.mk.injEq] at h
        exact absurd h.1 (scanLeaf_fail_ne m blk k _ _ e hs)
      | miss => rw [hs] at h; simp at h
      | hit off =>
        rw [hs] at h
        simp only [reduceCtorEq, if_false] at h
        cases hsv : blk.SetVal m off v with
        | error e =>
          rw [hsv] at h
          simp only [Option.some.injEq, Prod.mk.injEq] at h
          exact absurd h.1 (SetVal_error_ne m blk off v e hsv)
        | ok b1 =>
          rw [hsv] at h
          simp only [Option.some.injEq, Prod.mk.injEq] at h
          obtain ⟨hrc, _, ht1⟩ := h
          have hfr := SetVal_frame m blk b1 off v hsv
          have hd1 : hasData b1.info.nodetype = true := by rw [hfr.2.2.2.1]; exact hd
          have hlt := lt_length_of_getElem? hblk
          rw [Serialize_data b1 t.buffercache node hlt hd1] at ht1
          exact ⟨node, blk, b1, off, hblk, hty, scanLeaf_hit_key m blk k _ _ _ hs, hsv,
            ht1.symm⟩

/-- Lookups of other keys do not see the value written by an update. -/
theorem lookup_put_value (m : Machine) (t : BTreeIndex) (leaf : Nat) (b b1 : BTreeNode)
    (off : Nat) (k k' : KEY_T) (hb : t.buffercache.blocks[leaf]? = some b)
    (hty : b.info.nodetype = NodeType.BTREE_LEAF_NODE) (hinfo : b1.info = b.info)
    (hkey : b.GetKey m off = .ok k) (hkeys : ∀ i, b1.GetKey m i = b.GetKey m i)
    (hvals : ∀ i, i ≠ off → b1.GetVal m i = b.GetVal m i) (hne : k' ≠ k) :
    ∀ (fuel node : Nat) (x : VALUE_T),
      (LookupOrUpdateInternal m fuel (t.put leaf b1) node BTreeOp.BTREE_OP_LOOKUP k' x).map
          (fun r => (r.1, r.2.1))
        = (LookupOrUpdateInternal m fuel t node BTreeOp.BTREE_OP_LOOKUP k' x).map
          (fun r => (r.1, r.2.1)) := by
  intro fuel
  induction fuel with
  | zero => intro node x; rfl
  | succ f ih =>
    intro node x
    rw [LookupOrUpdateInternal, LookupOrUpdateInternal]
    by_cases hn : node = leaf
    · subst hn
      have hd : hasData b.info.nodetype = true := by rw [hty]; rfl
      have hd1 : hasData b1.info.nodetype = true := by rw [hinfo]; exact hd
      have hlt := lt_length_of_getElem? hb
      have hb1 : (t.put node b1).buffercache.blocks[node]? = some b1 := by
        rw [put_blocks, List.getElem?_set_self hlt]
      rw [Unserialize_data _ _ _ _ hb hd, Unserialize_data _ _ _ _ hb1 hd1]
      have hty1 : b1.info.nodetype = NodeType.BTREE_LEAF_NODE := by rw [hinfo]; exact hty
      simp only [hty, hty1]
      rw [hinfo, scanLeaf_congr m b b1 k' _ _ hkeys]
      cases hs : scanLeaf m b k' 0 b.info.numkeys with
      | fail e => rfl
      | miss => rfl
      | hit o =>
        simp only [if_true]
        have hko := scanLeaf_hit_key m b k' _ _ _ hs
        have hoo : o ≠ off := by
          rintro rfl
          rw [hkey] at hko
          exact hne (Except.ok.inj hko).symm
        rw [hvals o hoo]
        cases b.GetVal m o <;> rfl
    · rw [Unserialize_put_ne _ _ _ _ _ (Ne.symm hn)]
      generalize BTreeNode.default.Unserialize t.buffercache node = u
      obtain ⟨rc, c⟩ := u
      cases rc <;> try rfl
      cases hcty : c.info.nodetype <;> simp only [hcty] <;> try rfl
      · cases hp : pickChild m c k' with
        | error e => rfl
        | ok ptr => exact ih ptr x
      · cases hp : pickChild m c k' with
        | error e => rfl
        | ok ptr => exact ih ptr x
      · cases scanLeaf m c k' 0 c.info.numkeys with
        | fail e => rfl
        | miss => rfl
        | hit o =>
          simp only [if_true]
          cases c.GetVal m o <;> rfl

theorem freeListFrom_congr (c1 c2 : BufferCache)
    (h : ∀ j : Nat, (c1.blocks[j]?).map (fun x => x.info) = (c2.blocks[j]?).map (fun x => x.info)) :
    ∀ (fuel n : Nat), freeListFrom c1 fuel n = freeListFrom c2 fuel n := by
  intro fuel
  induction fuel with
  | zero => intro n; rfl
  | succ f ih =>
    intro n
    rw [freeListFrom, freeListFrom]
    split
    · rfl
    · have hn := h n
      cases h1 : c1.blocks[n]? with
      | none =>
        rw [h1] at hn
        cases h2 : c2.blocks[n]? with
        | none => rfl
        | some b2 => rw [h2] at hn; cases hn
      | some b1 =>
        rw [h1] at hn
        cases h2 : c2.blocks[n]? with
        | none => rw [h2] at hn; cases hn
        | some b2 =>
          rw [h2] at hn
          simp only [Option.map_some', Option.some.injEq] at hn
          simp only [hn, ih]

/-- C28: for every state and every update(k, v) that returns ERROR_NOERROR:
one block is written, a leaf holding `k` (the state after is the state before
with that block replaced); in it the header, the length of the slot bytes and
every byte outside the value bytes of the first slot with key `k` are as
before, so every key, the leading pointer and every other value are too; the
cached superblock, every other block, the header of every block and the free
list are unchanged, and the lookup of every other key returns what it
returned before. -/
theorem update_writes_one_value (m : Machine) (t : BTreeIndex) (k : KEY_T) (v : VALUE_T)
    (t1 : BTreeIndex) (h : Update m t k v = some (ERROR_T.ERROR_NOERROR, t1)) :
    ∃ leaf b b1 off p, t.buffercache.blocks[leaf]? = some b ∧
      b.info.nodetype = NodeType.BTREE_LEAF_NODE ∧ off < b.info.numkeys ∧
      b.GetKey m off = .ok k ∧ b.ResolveVal m off = some p ∧
      t1 = t.put leaf b1 ∧ t1.buffercache.blocks[leaf]? = some b1 ∧
      b1.info = b.info ∧ b1.data.length = b.data.length ∧
      (∀ i, (i < p ∨ p + b.info.valuesize ≤ i) → b1.data[i]? = b.data[i]?) ∧
      (∀ i, b1.GetKey m i = b.GetKey m i) ∧ (∀ i, b1.GetPtr m i = b.GetPtr m i) ∧
      (∀ i, i ≠ off → b1.GetVal m i = b.GetVal m i) ∧
      t1.superblock = t.superblock ∧ t1.superblock_index = t.superblock_index ∧
      (∀ j, j ≠ leaf → t1.buffercache.blocks[j]? = t.buffercache.blocks[j]?) ∧
      (∀ j : Nat, (t1.buffercache.blocks[j]?).map (fun x => x.info)
        = (t.buffercache.blocks[j]?).map (fun x => x.info)) ∧
      freeBlocks t1 = freeBlocks t ∧
      (∀ k', k' ≠ k → Lookup m t1 k' = Lookup m t k') := by
  unfold Update at h
  cases hl : LookupOrUpdateInternal m (depthBound t) t t.superblock.info.rootnode
      BTreeOp.BTREE_OP_UPDATE k v with
  | none => rw [hl] at h; cases h
  | some r =>
    obtain ⟨rc, v1, t2⟩ := r
    rw [hl] at h
    simp only [Option.some.injEq, Prod.mk.injEq] at h
    obtain ⟨hrc, ht⟩ := h
    subst hrc ht
    obtain ⟨leaf, b, b1, off, hb, hty, hkey, hsv, ht1⟩ := update_walk m t k v _ _ _ _ hl
    obtain ⟨_, ho, hres, hinfo, hlen, hout, hkeys, hptrs, hvals⟩ := SetVal_frame m b b1 off v hsv
    have hlt := lt_length_of_getElem? hb
    have hself : (t.put leaf b1).buffercache.blocks[leaf]? = some b1 := by
      rw [put_blocks, List.getElem?_set_self hlt]
    have hother : ∀ j, j ≠ leaf →
        (t.put leaf b1).buffercache.blocks[j]? = t.buffercache.blocks[j]? := by
      intro j hj
      rw [put_blocks, List.getElem?_set_ne (Ne.symm hj)]
    have hinfos : ∀ j : Nat, ((t.put leaf b1).buffercache.blocks[j]?).map (fun x => x.info)
        = (t.buffercache.blocks[j]?).map (fun x => x.info) := by
      intro j
      by_cases hj : j = leaf
      · subst hj; rw [hself, hb]; simp only [Option.map_some', hinfo]
      · rw [hother j hj]
    subst ht1
    refine ⟨leaf, b, b1, off, _, hb, hty, ho, hkey, hres, rfl, hself, hinfo, hlen, hout, hkeys,
      hptrs, hvals, rfl, rfl, hother, hinfos, ?_, ?_⟩
    · unfold freeBlocks depthBound
      rw [put_blocks, List.length_set]
      exact freeListFrom_congr _ _ hinfos _ _
    · intro k' hne
      have := lookup_put_value m t leaf b b1 off k k' hb hty hinfo hkey hkeys hvals hne
        (depthBound t) t.superblock.info.rootnode []
      unfold Lookup
      have hdb : depthBound (t.put leaf b1) = depthBound t := by
        unfold depthBound; rw [put_blocks, List.length_set]
      rw [hdb]
      show (match LookupOrUpdateInternal m (depthBound t) (t.put leaf b1)
        t.superblock.info.rootnode BTreeOp.BTREE_OP_LOOKUP k' [] with
        | none => none
        | some (rc, v, _) => some (rc, v)) = _
      cases h1 : LookupOrUpdateInternal m (depthBound t) (t.put leaf b1)
          t.superblock.info.rootnode BTreeOp.BTREE_OP_LOOKUP k' [] with
      | none =>
        rw [h1] at this
        cases h2 : LookupOrUpdateInternal m (depthBound t) t
            t.superblock.info.rootnode BTreeOp.BTREE_OP_LOOKUP k' [] with
        | none => rfl
        | some r2 => rw [h2] at this; cases this
      | some r1 =>
        rw [h1] at this
        cases h2 : LookupOrUpdateInternal m (depthBound t) t
            t.superblock.info.rootnode BTreeOp.BTREE_OP_LOOKUP k' [] with
        | none => rw [h2] at this; cases this
        | some r2 =>
          rw [h2] at this
          simp only [Option.map_some', Option.some.injEq, Prod.mk.injEq] at this
          obtain ⟨a1, a2, a3⟩ := r1
          obtain ⟨c1, c2, c3⟩ := r2
          simp only at this ⊢
          rw [this.1, this.2]


/-! ## The sanity check and the record of its visits -/

theorem sanityLoopLog_fst (m : Machine) (lookup : Nat → KEY_T → Option ERROR_T)
    (rec1 : Nat → KEY_T → Option ERROR_T × List (Nat × KEY_T))
    (rec0 : Nat → KEY_T → Option ERROR_T) (hrec : ∀ p k, (rec1 p k).1 = rec0 p k)
    (b : BTreeNode) :
    ∀ (cnt : Nat) (tk : KEY_T) (off : Nat),
      (sanityLoopLog m lookup rec1 b tk off cnt).1 = sanityLoop m lookup rec0 b tk off cnt := by
  intro cnt
  induction cnt with
  | zero => intro tk off; rfl
  | succ n ih =>
    intro tk off
    rw [sanityLoopLog, sanityLoop]
    cases b.GetPtr m off with
    | error e => rfl
    | ok ptr =>
      simp only
      cases b.GetKey m off with
      | error e => rfl
      | ok tk2 =>
        simp only
        split
        · rfl
        · cases hl : lookup ptr tk2 with
          | none => rfl
          | some e =>
            cases e <;> (simp only; try rfl)
            have hr := hrec ptr tk2
            cases hr1 : rec1 ptr tk2 with
            | mk rc log =>
              rw [hr1] at hr
              simp only at hr
              rw [← hr]
              cases rc with
              | none => rfl
              | some e2 =>
                cases e2 <;> (simp only; try rfl)
                exact ih tk2 (off + 1)

theorem SanityCheckRecurseLog_fst (m : Machine) (t : BTreeIndex) :
    ∀ (fuel node : Nat) (key : KEY_T),
      (SanityCheckRecurseLog m fuel t node key).1 = SanityCheckRecurse m fuel t node key := by
  intro fuel
  induction fuel with
  | zero => intro node key; rfl
  | succ f ih =>
    intro node key
    rw [SanityCheckRecurseLog, SanityCheckRecurse]
    generalize BTreeNode.default.Unserialize t.buffercache node = u
    obtain ⟨rc, b⟩ := u
    cases rc <;> try rfl
    simp only
    cases b.GetKey m 0 with
    | error e => rfl
    | ok tk =>
      simp only
      split
      · rfl
      · cases hty : b.info.nodetype <;> simp only <;> try rfl
        · exact sanityLoopLog_fst m _ _ _ (fun p k => ih p k) b _ _ _
        · cases sanityLeafLoop m b key tk ERROR_T.ERROR_BADCONFIG 0 b.info.numkeys <;> rfl

/-- The recorded sanity check returns what SanityCheck returns. -/
theorem SanityCheckLog_fst (m : Machine) (t : BTreeIndex) :
    (SanityCheckLog m t).1 = SanityCheck m t := by
  unfold SanityCheckLog SanityCheck
  generalize BTreeNode.default.Unserialize t.buffercache t.superblock.info.rootnode = u
  obtain ⟨rc, b⟩ := u
  cases rc <;> try rfl
  simp only
  split
  · rfl
  · cases b.GetKey m 0 with
    | error e => rfl
    | ok tk =>
      exact sanityLoopLog_fst m _ _ _ (fun p k => SanityCheckRecurseLog_fst m t _ p k) b _ _ _

/-- A loop of the sanity check that returns ERROR_NOERROR has called `rec1` on
(pointer i, key i) for every index i it covers, every call returned
ERROR_NOERROR, and its record is made of the records of these calls. -/
theorem sanityLoopLog_ok (m : Machine) (lookup : Nat → KEY_T → Option ERROR_T)
    (rec1 : Nat → KEY_T → Option ERROR_T × List (Nat × KEY_T)) (b : BTreeNode) :
    ∀ (cnt : Nat) (tk : KEY_T) (off : Nat) (log : List (Nat × KEY_T)),
      sanityLoopLog m lookup rec1 b tk off cnt = (some ERROR_T.ERROR_NOERROR, log) →
      (∀ i, off ≤ i → i < off + cnt → ∃ p k log1, b.GetPtr m i = .ok p ∧ b.GetKey m i = .ok k ∧
        rec1 p k = (some ERROR_T.ERROR_NOERROR, log1) ∧ ∀ e ∈ log1, e ∈ log) ∧
      (∀ e ∈ log, ∃ p k log1, rec1 p k = (some ERROR_T.ERROR_NOERROR, log1) ∧ e ∈ log1 ∧
        ∀ e1 ∈ log1, e1 ∈ log) := by
  intro cnt
  induction cnt with
  | zero =>
    intro tk off log h
    rw [sanityLoopLog] at h
    cases h
    exact ⟨fun i h1 h2 => by omega, fun e he => absurd he (List.not_mem_nil _)⟩
  | succ n ih =>
    intro tk off log h
    rw [sanityLoopLog] at h
    cases hp : b.GetPtr m off with
    | error e =>
      rw [hp] at h
      simp only [Prod.mk.injEq, Option.some.injEq] at h
      exact absurd h.1 (GetPtr_error_ne m b off e hp)
    | ok ptr =>
      rw [hp] at h
      simp only at h
      cases hk : b.GetKey m off with
      | error e =>
        rw [hk] at h
        simp only [Prod.mk.injEq, Option.some.injEq] at h
        exact absurd h.1 (GetKey_error_ne m b off e hk)
      | ok tk2 =>
        rw [hk] at h
        simp only at h
        split at h
        · simp only [Prod.mk.injEq, Option.some.injEq, reduceCtorEq, false_and] at h
        · cases hl : lookup ptr tk2 with
          | none => rw [hl] at h; simp only [Prod.mk.injEq, reduceCtorEq, false_and] at h
          | some e =>
            rw [hl] at h
            cases e <;> simp only [Prod.mk.injEq, Option.some.injEq, reduceCtorEq,
              false_and] at h
            cases hr : rec1 ptr tk2 with
            | mk rc log1 =>
              rw [hr] at h
              cases rc with
              | none => simp only [Prod.mk.injEq, reduceCtorEq, false_and] at h
              | some e2 =>
                cases e2 <;> simp only [Prod.mk.injEq, Option.some.injEq, reduceCtorEq,
                  false_and] at h
                obtain ⟨h1, h2⟩ := h
                cases hrest : sanityLoopLog m lookup rec1 b tk2 (off + 1) n with
                | mk rc2 log2 =>
                  rw [hrest] at h1 h2
                  simp only at h1 h2
                  subst h1 h2
                  obtain ⟨ih1, ih2⟩ := ih tk2 (off + 1) log2 hrest
                  constructor
                  · intro i hi1 hi2
                    by_cases hio : i = off
                    · subst hio
                      exact ⟨ptr, tk2, log1, hp, hk, hr,
                        fun e he => List.mem_append_left _ he⟩
                    · obtain ⟨p, k, l1, g1, g2, g3, g4⟩ := ih1 i (by omega) (by omega)
                      exact ⟨p, k, l1, g1, g2, g3,
                        fun e he => List.mem_append_right _ (g4 e he)⟩
                  · intro e he
                    rcases List.mem_append.mp he with he | he
                    · exact ⟨ptr, tk2, log1, hr, he, fun e1 he1 => List.mem_append_left _ he1⟩
                    · obtain ⟨p, k, l1, g1, g2, g3⟩ := ih2 e he
                      exact ⟨p, k, l1, g1, g2,
                        fun e1 he1 => List.mem_append_right _ (g3 e1 he1)⟩

theorem GetKey_ok_hasData (m : Machine) (b : BTreeNode) (i : Nat) (k : KEY_T)
    (h : b.GetKey m i = .ok k) : hasData b.info.nodetype = true := by
  unfold BTreeNode.GetKey BTreeNode.ResolveKey at h
  cases hty : b.info.nodetype <;> simp only [hty] at h <;> first | rfl | cases h

/-- Every call recorded by a visit that returns ERROR_NOERROR was made on a
stored node with at least one key whose first key is not greater than the key
passed, that is not stored as a root, and whose children, if it is an interior
node, were all visited with their separators. -/
theorem SanityCheckRecurseLog_ok (m : Machine) (t : BTreeIndex) :
    ∀ (fuel node : Nat) (key : KEY_T) (log : List (Nat × KEY_T)),
      SanityCheckRecurseLog m fuel t node key = (some ERROR_T.ERROR_NOERROR, log) →
      (node, key) ∈ log ∧
      ∀ e ∈ log, ∃ c f, t.buffercache.blocks[e.1]? = some c ∧ 1 ≤ c.info.numkeys ∧
        c.GetKey m 0 = .ok f ∧ keyLt e.2 f = false ∧
        c.info.nodetype ≠ NodeType.BTREE_ROOT_NODE ∧
        (c.info.nodetype = NodeType.BTREE_INTERIOR_NODE →
          ∀ i, i < c.info.numkeys → ∃ p k, c.GetPtr m i = .ok p ∧ c.GetKey m i = .ok k ∧
            (p, k) ∈ log) := by
  intro fuel
  induction fuel with
  | zero =>
    intro node key log h
    rw [SanityCheckRecurseLog] at h
    simp only [Prod.mk.injEq, reduceCtorEq, false_and] at h
  | succ f ih =>
    intro node key log h
    rw [SanityCheckRecurseLog] at h
    cases hu : BTreeNode.default.Unserialize t.buffercache node with
    | mk rc b =>
      rw [hu] at h
      cases rc <;> simp only [Prod.mk.injEq, Option.some.injEq, reduceCtorEq, false_and] at h
      obtain ⟨blk, hblk, hinfo, heq⟩ := Unserialize_ok_block _ _ _ _ hu
      cases hk : b.GetKey m 0 with
      | error e =>
        rw [hk] at h
        simp only [Prod.mk.injEq, Option.some.injEq] at h
        exact absurd h.1 (GetKey_error_ne m b 0 e hk)
      | ok tk =>
        rw [hk] at h
        simp only at h
        have hd : hasData blk.info.nodetype = true := by
          rw [hinfo]; exact GetKey_ok_hasData m b 0 tk hk
        have hbb := heq hd
        subst hbb
        split at h
        · simp only [Prod.mk.injEq, Option.some.injEq, reduceCtorEq, false_and] at h
        · rename_i hcond
          have hnum : 1 ≤ blk.info.numkeys := by
            by_contra hc
            exact hcond (Or.inl (by omega))
          have hle : keyLt key tk = false := by
            cases hx : keyLt key tk
            · rfl
            · exact absurd (Or.inr hx) hcond
          cases hty : blk.info.nodetype <;> simp only [hty] at h <;>
            try simp only [Prod.mk.injEq, Option.some.injEq, reduceCtorEq, false_and] at h
          · -- interior
            obtain ⟨h1, h2⟩ := h
            cases hloop : sanityLoopLog m (fun ptr k => ConstLookup m (depthBound t) t ptr k)
                (fun ptr k => SanityCheckRecurseLog m f t ptr k) blk tk 0 blk.info.numkeys with
            | mk rc2 log2 =>
              rw [hloop] at h1 h2
              simp only at h1 h2
              subst h1 h2
              obtain ⟨l1, l2⟩ := sanityLoopLog_ok m _ _ blk _ _ _ _ hloop
              refine ⟨List.mem_cons_self _ _, ?_⟩
              intro e he
              rcases List.mem_cons.mp he with he | he
              · subst he
                refine ⟨blk, tk, hblk, hnum, hk, hle, by rw [hty]; simp, ?_⟩
                intro _ i hi
                obtain ⟨p, k, lg, g1, g2, g3, g4⟩ := l1 i (Nat.zero_le _) (by omega)
                exact ⟨p, k, g1, g2, List.mem_cons_of_mem _ (g4 _ (ih p k lg g3).1)⟩
              · obtain ⟨p, k, lg, g1, g2, g3⟩ := l2 e he
                obtain ⟨c, f1, a1, a2, a3, a4, a5, a6⟩ := (ih p k lg g1).2 e g2
                refine ⟨c, f1, a1, a2, a3, a4, a5, ?_⟩
                intro hc i hi
                obtain ⟨p1, k1, b1, b2, b3⟩ := a6 hc i hi
                exact ⟨p1, k1, b1, b2, List.mem_cons_of_mem _ (g3 _ b3)⟩
          · -- leaf
            cases hleaf : sanityLeafLoop m blk key tk ERROR_T.ERROR_BADCONFIG 0
                blk.info.numkeys with
            | error e =>
              rw [hleaf] at h
              simp only [Prod.mk.injEq] at h
              obtain ⟨_, h2⟩ := h
              subst h2
              refine ⟨List.mem_singleton_self _, ?_⟩
              intro e1 he1
              rw [List.mem_singleton] at he1
              subst he1
              exact ⟨blk, tk, hblk, hnum, hk, hle, by rw [hty]; simp,
                fun hc => by rw [hty] at hc; cases hc⟩
            | ok rc1 =>
              rw [hleaf] at h
              simp only [Prod.mk.injEq] at h
              obtain ⟨_, h2⟩ := h
              subst h2
              refine ⟨List.mem_singleton_self _, ?_⟩
              intro e1 he1
              rw [List.mem_singleton] at he1
              subst he1
              exact ⟨blk, tk, hblk, hnum, hk, hle, by rw [hty]; simp,
                fun hc => by rw [hty] at hc; cases hc⟩

/-- A loop of the sanity check returns ERROR_BADCONFIG as soon as one of the
calls it records meets a condition every call that meets it answers with
ERROR_BADCONFIG. -/
theorem sanityLoopLog_bad (m : Machine) (lookup : Nat → KEY_T → Option ERROR_T)
    (rec1 : Nat → KEY_T → Option ERROR_T × List (Nat × KEY_T)) (b : BTreeNode)
    (Bad : Nat × KEY_T → Prop)
    (hrec : ∀ p k, ∀ e ∈ (rec1 p k).2, Bad e → (rec1 p k).1 = some ERROR_T.ERROR_BADCONFIG) :
    ∀ (cnt : Nat) (tk : KEY_T) (off : Nat),
      ∀ e ∈ (sanityLoopLog m lookup rec1 b tk off cnt).2, Bad e →
        (sanityLoopLog m lookup rec1 b tk off cnt).1 = some ERROR_T.ERROR_BADCONFIG := by
  intro cnt
  induction cnt with
  | zero =>
    intro tk off e he
    rw [sanityLoopLog] at he
    exact absurd he (List.not_mem_nil _)
  | succ n ih =>
    intro tk off e he hbad
    rw [sanityLoopLog] at he ⊢
    cases hp : b.GetPtr m off with
    | error e1 => rw [hp] at he; exact absurd he (List.not_mem_nil _)
    | ok ptr =>
      rw [hp] at he
      simp only at he ⊢
      cases hk : b.GetKey m off with
      | error e1 => rw [hk] at he; exact absurd he (List.not_mem_nil _)
      | ok tk2 =>
        rw [hk] at he
        simp only at he ⊢
        split at he
        · exact absurd he (List.not_mem_nil _)
        · rename_i hcond
          rw [if_neg hcond]
          cases hl : lookup ptr tk2 with
          | none => rw [hl] at he; exact absurd he (List.not_mem_nil _)
          | some e1 =>
            rw [hl] at he
            cases e1 <;> simp only at he ⊢ <;>
              try exact absurd he (List.not_mem_nil _)
            have hr1 := hrec ptr tk2
            cases hr : rec1 ptr tk2 with
            | mk rc log1 =>
              rw [hr] at he hr1
              simp only at hr1
              cases rc with
              | none =>
                simp only at he ⊢
                exact hr1 e he hbad
              | some e2 =>
                cases e2 <;> simp only at he ⊢ <;> try exact hr1 e he hbad
                rcases List.mem_append.mp he with he | he
                · have := hr1 e he hbad
                  simp only [Option.some.injEq, reduceCtorEq] at this
                · exact ih tk2 (off + 1) e he hbad

/-- A visit that records a call on a stored node whose first key is greater
than the key passed returns ERROR_BADCONFIG. -/
theorem SanityCheckRecurseLog_bad (m : Machine) (t : BTreeIndex) :
    ∀ (fuel node : Nat) (key : KEY_T),
      ∀ e ∈ (SanityCheckRecurseLog m fuel t node key).2,
        (∃ c f, t.buffercache.blocks[e.1]? = some c ∧ c.GetKey m 0 = .ok f ∧
          keyLt e.2 f = true) →
        (SanityCheckRecurseLog m fuel t node key).1 = some ERROR_T.ERROR_BADCONFIG := by
  intro fuel
  induction fuel with
  | zero =>
    intro node key e he
    rw [SanityCheckRecurseLog] at he
    exact absurd he (List.not_mem_nil _)
  | succ f ih =>
    intro node key e he hbad
    rw [SanityCheckRecurseLog] at he ⊢
    have hself : ∀ c f1, t.buffercache.blocks[node]? = some c → c.GetKey m 0 = .ok f1 →
        BTreeNode.default.Unserialize t.buffercache node = (ERROR_T.ERROR_NOERROR, c) :=
      fun c f1 hc hf => Unserialize_data _ _ _ _ hc (GetKey_ok_hasData m c 0 f1 hf)
    have hone : e = (node, key) →
        ∃ c f1, BTreeNode.default.Unserialize t.buffercache node = (ERROR_T.ERROR_NOERROR, c) ∧
          c.GetKey m 0 = .ok f1 ∧ keyLt key f1 = true := by
      intro he1
      subst he1
      obtain ⟨c, f1, hc, hf, hlt⟩ := hbad
      exact ⟨c, f1, hself c f1 hc hf, hf, hlt⟩
    cases hu : BTreeNode.default.Unserialize t.buffercache node with
    | mk rc b =>
      rw [hu] at he hone
      by_cases hee : e = (node, key)
      · obtain ⟨c, f1, h1, h2, h3⟩ := hone hee
        simp only [Prod.mk.injEq] at h1
        obtain ⟨h1a, h1b⟩ := h1
        subst h1a h1b
        simp only [h2, h3, or_true, if_true]
      · cases rc <;> simp only at he ⊢ <;>
          try exact absurd (List.mem_singleton.mp he) hee
        cases hk : b.GetKey m 0 with
        | error e1 =>
          rw [hk] at he
          exact absurd (List.mem_singleton.mp he) hee
        | ok tk =>
          rw [hk] at he
          simp only at he ⊢
          split at he
          · exact absurd (List.mem_singleton.mp he) hee
          · rename_i hcond
            rw [if_neg hcond]
            cases hty : b.info.nodetype <;> simp only [hty] at he ⊢ <;>
              try exact absurd (List.mem_singleton.mp he) hee
            · rcases List.mem_cons.mp he with he | he
              · exact absurd he hee
              · exact sanityLoopLog_bad m _ _ b _ (fun p k => ih p k) _ _ _ e he hbad
            · cases hleaf : sanityLeafLoop m b key tk ERROR_T.ERROR_BADCONFIG 0
                  b.info.numkeys with
              | error e1 => rw [hleaf] at he; exact absurd (List.mem_singleton.mp he) hee
              | ok rc1 => rw [hleaf] at he; exact absurd (List.mem_singleton.mp he) hee

theorem SanityCheckLog_ok (m : Machine) (t : BTreeIndex)
    (h : (SanityCheckLog m t).1 = some ERROR_T.ERROR_NOERROR) :
    ((SanityCheckLog m t).2 = [] ∧
      (BTreeNode.default.Unserialize t.buffercache t.superblock.info.rootnode).2.info.numkeys
        = 0) ∨
    ∃ tk, (BTreeNode.default.Unserialize t.buffercache t.superblock.info.rootnode).1
        = ERROR_T.ERROR_NOERROR ∧
      sanityLoopLog m (fun ptr k => ConstLookup m (depthBound t) t ptr k)
        (fun ptr k => SanityCheckRecurseLog m (depthBound t) t ptr k)
        (BTreeNode.default.Unserialize t.buffercache t.superblock.info.rootnode).2 tk 0
        (BTreeNode.default.Unserialize t.buffercache t.superblock.info.rootnode).2.info.numkeys
        = (some ERROR_T.ERROR_NOERROR, (SanityCheckLog m t).2) := by
  unfold SanityCheckLog at h ⊢
  cases hu : BTreeNode.default.Unserialize t.buffercache t.superblock.info.rootnode with
  | mk rc b =>
    rw [hu] at h
    cases rc <;> simp only [Option.some.injEq, reduceCtorEq] at h ⊢
    split at h
    · rename_i h0
      left
      simp only [h0, if_true, and_self]
    · rename_i h0
      right
      simp only [h0, if_false]
      cases hk : b.GetKey m 0 with
      | error e =>
        rw [hk] at h
        simp only [Option.some.injEq] at h
        exact absurd h (GetKey_error_ne m b 0 e hk)
      | ok tk =>
        rw [hk] at h
        simp only at h ⊢
        exact ⟨tk, trivial, Prod.ext h rfl⟩

/-- C26 (amended): for every state, if SanityCheck returns ERROR_NOERROR, then
for every root or interior node it visits (the root and the nodes it calls
SanityCheckRecurse on) and every index i < numkeys, child i is visited with
separator i, has at least one key, and the first key of child i is less than or
equal to the parent's separator key i. And if some visited child has a first
key greater than the separator passed to its visit, SanityCheck returns
ERROR_BADCONFIG. -/
theorem sanity_check_first_key_bound (m : Machine) (t : BTreeIndex) :
    (SanityCheck m t = some ERROR_T.ERROR_NOERROR →
      ∀ n b, (n = t.superblock.info.rootnode ∨ ∃ k0, (n, k0) ∈ (SanityCheckLog m t).2) →
        t.buffercache.blocks[n]? = some b →
        (b.info.nodetype = NodeType.BTREE_ROOT_NODE ∨
          b.info.nodetype = NodeType.BTREE_INTERIOR_NODE) →
        ∀ i, i < b.info.numkeys → ∃ p k c f, b.GetPtr m i = .ok p ∧ b.GetKey m i = .ok k ∧
          (p, k) ∈ (SanityCheckLog m t).2 ∧ t.buffercache.blocks[p]? = some c ∧
          1 ≤ c.info.numkeys ∧ c.GetKey m 0 = .ok f ∧ (keyLt f k = true ∨ f = k)) ∧
    (∀ p k c f, (p, k) ∈ (SanityCheckLog m t).2 → t.buffercache.blocks[p]? = some c →
      c.GetKey m 0 = .ok f → keyLt k f = true →
      SanityCheck m t = some ERROR_T.ERROR_BADCONFIG) := by
  constructor
  · intro hok n b hn hb hty i hi
    rw [← SanityCheckLog_fst] at hok
    have hle : ∀ (k f : KEY_T), keyLt k f = false → keyLt f k = true ∨ f = k := by
      intro k f hkf
      rcases keyLt_total f k with h1 | h1 | h1
      · exact Or.inl h1
      · exact Or.inr h1
      · rw [h1] at hkf; cases hkf
    have hd : hasData b.info.nodetype = true := by
      rcases hty with h1 | h1 <;> rw [h1] <;> rfl
    rcases SanityCheckLog_ok m t hok with ⟨hnil, h0⟩ | ⟨tk, hu1, hloop⟩
    · rcases hn with hn | ⟨k0, hk0⟩
      · subst hn
        rw [Unserialize_data _ _ _ _ hb hd] at h0
        simp only at h0
        omega
      · rw [hnil] at hk0
        exact absurd hk0 (List.not_mem_nil _)
    · obtain ⟨l1, l2⟩ := sanityLoopLog_ok m _ _ _ _ _ _ _ hloop
      rcases hn with hn | ⟨k0, hk0⟩
      · subst hn
        rw [Unserialize_data _ _ _ _ hb hd] at l1
        simp only at l1
        obtain ⟨p, k, lg, g1, g2, g3, g4⟩ := l1 i (Nat.zero_le _) (by omega)
        obtain ⟨r1, r2⟩ := SanityCheckRecurseLog_ok m t _ p k lg g3
        obtain ⟨c, f, a1, a2, a3, a4, _, _⟩ := r2 _ r1
        exact ⟨p, k, c, f, g1, g2, g4 _ r1, a1, a2, a3, hle _ _ a4⟩
      · obtain ⟨p0, k1, lg, g1, g2, g3⟩ := l2 _ hk0
        obtain ⟨_, r2⟩ := SanityCheckRecurseLog_ok m t _ p0 k1 lg g1
        obtain ⟨c0, f0, a1, _, _, _, a5, a6⟩ := r2 _ g2
        simp only at a1
        rw [hb] at a1
        cases a1
        have hint : b.info.nodetype = NodeType.BTREE_INTERIOR_NODE := by
          rcases hty with h1 | h1
          · exact absurd h1 a5
          · exact h1
        obtain ⟨p, k, b1, b2, b3⟩ := a6 hint i hi
        obtain ⟨c, f, d1, d2, d3, d4, _, _⟩ := r2 _ b3
        exact ⟨p, k, c, f, b1, b2, g3 _ b3, d1, d2, d3, hle _ _ d4⟩
  · intro p k c f hmem hc hf hlt
    rw [← SanityCheckLog_fst]
    unfold SanityCheckLog at hmem ⊢
    cases hu : BTreeNode.default.Unserialize t.buffercache t.superblock.info.rootnode with
    | mk rc b =>
      rw [hu] at hmem
      cases rc <;> simp only at hmem ⊢ <;> try exact absurd hmem (List.not_mem_nil _)
      split at hmem
      · exact absurd hmem (List.not_mem_nil _)
      · rename_i h0
        rw [if_neg h0]
        cases hk : b.GetKey m 0 with
        | error e => rw [hk] at hmem; exact absurd hmem (List.not_mem_nil _)
        | ok tk =>
          rw [hk] at hmem
          simp only at hmem ⊢
          exact sanityLoopLog_bad m _ _ b _
            (fun p1 k1 => SanityCheckRecurseLog_bad m t _ p1 k1) _ _ _ _ hmem
            ⟨c, f, hc, hf, hlt⟩


/-! ## Reachable nodes of a well-formed tree -/

/-- The child at position `k1.length` of a run of children: its subtree, the
key range it covers, and the pairs of the other children on either side. -/
theorem Kids_child {S : Nat → Option KEY_T → Option KEY_T → List (KEY_T × VALUE_T) →
      Finset Nat → Prop}
    (hrange : ∀ q l u c1 o1, S q l u c1 o1 → ∀ e ∈ c1, above l e.1 ∧ below e.1 u)
    (k2 : List (KEY_T × Nat)) :
    ∀ (k1 : List (KEY_T × Nat)) (p : Nat) (lo hi : Option KEY_T) (c : List (KEY_T × VALUE_T))
      (o : Finset Nat), Kids S p lo (k1 ++ k2) hi c o →
      ∃ lo1 hi1 ca cc cb oc, S (lastPtr p k1) lo1 hi1 cc oc ∧ c = ca ++ cc ++ cb ∧ oc ⊆ o ∧
        (k1 = [] → lo1 = lo) ∧ (∀ k1' e, k1 = k1' ++ [e] → lo1 = some e.1) ∧
        (k2 = [] → hi1 = hi) ∧ (∀ e k2', k2 = e :: k2' → hi1 = some e.1 ∧ above lo1 e.1) ∧
        (∀ x, above lo1 x → above lo x) ∧ (∀ x, below x hi1 → below x hi) ∧
        (∀ e ∈ ca, ∀ x, above lo1 x → keyLt e.1 x = true) ∧
        (∀ e ∈ cb, ∀ x, below x hi1 → keyLt x e.1 = true) := by
  intro k1
  induction k1 with
  | nil =>
    intro p lo hi c o hk
    simp only [List.nil_append] at hk
    cases k2 with
    | nil =>
      refine ⟨lo, hi, [], c, [], o, hk, by simp, subset_refl _, fun _ => rfl, ?_, fun _ => rfl,
        ?_, fun x h => h, fun x h => h, ?_, ?_⟩
      · intro k1' e h; cases k1' <;> cases h
      · intro e k2' h; cases h
      · intro e he; cases he
      · intro e he; cases he
    | cons e r =>
      obtain ⟨ha, hs, c1, o1, c2, o2, hS, hK, hc, ho, hd⟩ := hk
      refine ⟨lo, some e.1, [], c1, c2, o1, hS, by simpa using hc, ?_, fun _ => rfl, ?_, ?_, ?_,
        fun x h => h, ?_, ?_, ?_⟩
      · rw [ho]; exact Finset.subset_union_left
      · intro k1' e' h; cases k1' <;> cases h
      · intro h; cases h
      · intro e' k2' h
        cases h
        exact ⟨rfl, ha⟩
      · intro x hx
        exact (sbelow_of_le (below_some.mp hx) hs).below
      · intro e' he'; cases he'
      · intro e' he' x hx
        have h1 := above_some.mp (Kids_range hrange _ _ _ _ _ _ hK e' he').1
        rcases below_some.mp hx with h2 | h2
        · exact keyLt_trans h2 h1
        · rw [h2]; exact h1
  | cons e k1' ih =>
    intro p lo hi c o hk
    obtain ⟨ha, hs, c1, o1, c2, o2, hS, hK, hc, ho, hd⟩ := hk
    obtain ⟨lo1, hi1, ca, cc, cb, oc, g1, g2, g3, g4, g5, g6, g7, g8, g9, g10, g11⟩ :=
      ih e.2 (some e.1) hi c2 o2 hK
    have hlast : lastPtr p (e :: k1') = lastPtr e.2 k1' := by
      obtain ⟨ek, ep⟩ := e
      rfl
    refine ⟨lo1, hi1, c1 ++ ca, cc, cb, oc, by rw [hlast]; exact g1, ?_, ?_, ?_, ?_, g6, g7, ?_,
      g9, ?_, g11⟩
    · rw [hc, g2]; simp only [List.append_assoc]
    · rw [ho]; exact g3.trans Finset.subset_union_right
    · intro h; cases h
    · intro k1'' e'' h
      cases k1'' with
      | nil =>
        simp only [List.nil_append, List.cons.injEq] at h
        obtain ⟨h1, h2⟩ := h
        subst h1
        exact g4 h2
      | cons a r =>
        simp only [List.cons_append, List.cons.injEq] at h
        exact g5 r e'' h.2
    · intro x hx
      exact above_trans ha (above_some.mp (g8 x hx))
    · intro e' he' x hx
      rcases List.mem_append.mp he' with h1 | h1
      · have hb := below_some.mp (hrange _ _ _ _ _ hS e' h1).2
        have hx1 := above_some.mp (g8 x hx)
        rcases hb with hb | hb
        · exact keyLt_trans hb hx1
        · rw [hb]; exact hx1
      · exact g10 e' h1 x hx

/-- The child a pointer of an interior node of a well-formed tree names: it
roots a subtree one level below, for a key range inside the node's range,
bounded by the separators on either side of the pointer; the subtree holds
exactly the pairs of the node's subtree that lie in that range. -/
theorem Node_child (g : Geom) (dev : List BTreeNode) (h blk : Nat) (lo hi : Option KEY_T)
    (c : List (KEY_T × VALUE_T)) (o : Finset Nat) (s : Nat)
    (hn : Node g dev (h + 1) blk lo hi c o s) (b : BTreeNode) (hb : dev[blk]? = some b)
    (i q : Nat) (hi' : i ≤ b.info.numkeys) (hq : b.GetPtr g.m i = .ok q) :
    ∃ lo1 hi1 cc oc, Node g dev h q lo1 hi1 cc oc 1 ∧ (∀ e ∈ cc, e ∈ c) ∧
      (∀ e ∈ c, above lo1 e.1 → below e.1 hi1 → e ∈ cc) ∧
      (∀ x, above lo1 x → above lo x) ∧ (∀ x, below x hi1 → below x hi) ∧
      (i < b.info.numkeys → ∃ k, b.GetKey g.m i = .ok k ∧ hi1 = some k ∧ above lo1 k) ∧
      (1 ≤ i → ∃ k, b.GetKey g.m (i - 1) = .ok k ∧ lo1 = some k) := by
  obtain ⟨b', p0, kps, o1, hb', hint, hne, hni, ho, hk⟩ := hn
  rw [hb] at hb'
  cases hb'
  have hnum : b.info.numkeys = kps.length := hint.2.2.1
  have hsplit : kps = kps.take i ++ kps.drop i := (List.take_append_drop i kps).symm
  have hlen : (kps.take i).length = i := by rw [List.length_take]; omega
  have hint2 := hint
  rw [hsplit] at hint2 hk
  have hptr := int_GetPtr_at g b p0 _ _ s hint2
  rw [hlen, hq] at hptr
  have hq' : q = lastPtr p0 (kps.take i) := Except.ok.inj hptr
  obtain ⟨lo1, hi1, ca, cc, cb, oc, g1, g2, g3, g4, g5, g6, g7, g8, g9, g10, g11⟩ :=
    Kids_child (fun q l u c1 o1 hq => Node_range g dev h q l u c1 o1 1 hq) _ _ _ _ _ _ _ hk
  refine ⟨lo1, hi1, cc, oc, by rw [hq']; exact g1, ?_, ?_, g8, g9, ?_, ?_⟩
  · intro e he
    rw [g2]
    exact List.mem_append_left _ (List.mem_append_right _ he)
  · intro e he hlo hhi
    rw [g2] at he
    rcases List.mem_append.mp he with he | he
    · rcases List.mem_append.mp he with he | he
      · have := g10 e he e.1 hlo
        rw [keyLt_irrefl] at this
        cases this
      · exact he
    · have := g11 e he e.1 hhi
      rw [keyLt_irrefl] at this
      cases this
  · intro hlt
    cases hd : kps.drop i with
    | nil =>
      have : (kps.drop i).length = 0 := by rw [hd]; rfl
      rw [List.length_drop] at this
      omega
    | cons e r =>
      rw [hd] at hint2
      have hkey := int_GetKey g b p0 _ _ e s hint2
      rw [hlen] at hkey
      obtain ⟨h1, h2⟩ := g7 e r hd
      exact ⟨e.1, hkey, h1, h2⟩
  · intro h1
    obtain ⟨j, rfl⟩ : ∃ j, i = j + 1 := ⟨i - 1, by omega⟩
    have hj : j < kps.length := by omega
    have htake : kps.take (j + 1) = kps.take j ++ [kps.get ⟨j, hj⟩] := by
      rw [List.take_succ]
      congr 1
      simp [List.getElem?_eq_getElem hj]
    have hsplit2 : kps = kps.take j ++ kps.get ⟨j, hj⟩ :: kps.drop (j + 1) := by
      conv_lhs => rw [hsplit, htake]
      simp
    have hint3 := hint
    rw [hsplit2] at hint3
    have hkey := int_GetKey g b p0 _ _ _ s hint3
    rw [List.length_take, Nat.min_eq_left (by omega)] at hkey
    exact ⟨_, by simpa using hkey, g5 _ _ htake⟩

/-- A node reachable from the root of a well-formed subtree roots a
well-formed subtree itself, for a key range inside the range of the first,
holding exactly the pairs of the first that lie in that range. -/
theorem Node_reach (g : Geom) (dev : List BTreeNode) (p q : Nat)
    (hr : Reach g.m dev p q) :
    ∀ (h : Nat) (lo hi : Option KEY_T) (c : List (KEY_T × VALUE_T)) (o : Finset Nat) (s : Nat),
      Node g dev h p lo hi c o s →
      ∃ h1 lo1 hi1 c1 o1 s1, Node g dev h1 q lo1 hi1 c1 o1 s1 ∧ (∀ e ∈ c1, e ∈ c) ∧
        (∀ e ∈ c, above lo1 e.1 → below e.1 hi1 → e ∈ c1) ∧
        (∀ x, above lo1 x → above lo x) ∧ (∀ x, below x hi1 → below x hi) := by
  induction hr with
  | here p =>
    intro h lo hi c o s hn
    exact ⟨h, lo, hi, c, o, s, hn, fun e he => he, fun e he _ _ => he, fun x hx => hx,
      fun x hx => hx⟩
  | step p q r b i hb hty hi' hq _ ih =>
    intro h lo hi c o s hn
    cases h with
    | zero =>
      obtain ⟨b', hb', hl, _⟩ := hn
      rw [hb] at hb'
      cases hb'
      rw [hl.1] at hty
      rcases hty with hty | hty <;> cases hty
    | succ h =>
      obtain ⟨lo1, hi1, cc, oc, g1, g2, g3, g4, g5, _, _⟩ :=
        Node_child g dev h p lo hi c o s hn b hb i q hi' hq
      obtain ⟨h2, lo2, hi2, c2, o2, s2, a1, a2, a3, a4, a5⟩ := ih h lo1 hi1 cc oc 1 g1
      refine ⟨h2, lo2, hi2, c2, o2, s2, a1, fun e he => g2 e (a2 e he), ?_,
        fun x hx => g4 x (a4 x hx), fun x hx => g5 x (a5 x hx)⟩
      intro e he hlo hhi
      exact a3 e (g3 e he (a4 _ hlo) (a5 _ hhi)) hlo hhi

theorem leaf_key_mem (g : Geom) (b : BTreeNode) (es : List (KEY_T × VALUE_T)) (s j : Nat)
    (k : KEY_T) (hl : LeafAt g b es s) (hj : j < b.info.numkeys)
    (hk : b.GetKey g.m j = .ok k) : ∃ v, (k, v) ∈ es := by
  have hnum : b.info.numkeys = es.length := hl.2.2.1
  have hj' : j < es.length := by omega
  have hsplit : es = es.take j ++ es.get ⟨j, hj'⟩ :: es.drop (j + 1) := by
    have h1 : es.drop j = es.get ⟨j, hj'⟩ :: es.drop (j + 1) :=
      List.drop_eq_getElem_cons hj'
    conv_lhs => rw [← List.take_append_drop j es, h1]
  have hl2 := hl
  rw [hsplit] at hl2
  have hkey := leaf_GetKey g b _ _ _ s hl2
  rw [List.length_take, Nat.min_eq_left (by omega), hk] at hkey
  have hke : k = (es.get ⟨j, hj'⟩).1 := Except.ok.inj hkey
  refine ⟨(es.get ⟨j, hj'⟩).2, ?_⟩
  rw [hke]
  exact List.get_mem es j hj'

theorem leaf_mem_key (g : Geom) (b : BTreeNode) (es : List (KEY_T × VALUE_T)) (s : Nat)
    (e : KEY_T × VALUE_T) (hl : LeafAt g b es s) (he : e ∈ es) :
    ∃ j, j < b.info.numkeys ∧ b.GetKey g.m j = .ok e.1 := by
  obtain ⟨es1, es2, hsplit⟩ := List.append_of_mem he
  have hl2 := hl
  rw [hsplit] at hl2
  refine ⟨es1.length, ?_, leaf_GetKey g b _ _ _ s hl2⟩
  rw [hl.2.2.1, hsplit, List.length_append, List.length_cons]
  omega

/-- A key held by a leaf reachable from the root of a well-formed subtree is
the key of one of the pairs of that subtree. -/
theorem Node_leafkey (g : Geom) (dev : List BTreeNode) (h p : Nat) (lo hi : Option KEY_T)
    (c : List (KEY_T × VALUE_T)) (o : Finset Nat) (s : Nat)
    (hn : Node g dev h p lo hi c o s) (key : KEY_T) (hk : LeafKeyUnder g.m dev p key) :
    ∃ v, (key, v) ∈ c := by
  obtain ⟨q, lf, j, hr, hlf, hty, hj, hkey⟩ := hk
  obtain ⟨h1, lo1, hi1, c1, o1, s1, a1, a2, _, _, _⟩ := Node_reach g dev p q hr h lo hi c o s hn
  cases h1 with
  | zero =>
    obtain ⟨b', hb', hl, _⟩ := a1
    rw [hlf] at hb'
    cases hb'
    obtain ⟨v, hv⟩ := leaf_key_mem g lf c1 s1 j key hl hj hkey
    exact ⟨v, a2 _ hv⟩
  | succ h1 =>
    obtain ⟨b', p0, kps, o2, hb', hint, _⟩ := a1
    rw [hlf] at hb'
    cases hb'
    have hint1 := hint.1
    rw [hty] at hint1
    rcases hint1 with h1 | h1 <;> cases h1

theorem Kids_mem {S : Nat → Option KEY_T → Option KEY_T → List (KEY_T × VALUE_T) →
      Finset Nat → Prop} (e : KEY_T × VALUE_T) :
    ∀ (kps : List (KEY_T × Nat)) (p : Nat) (lo hi : Option KEY_T) (c : List (KEY_T × VALUE_T))
      (o : Finset Nat), Kids S p lo kps hi c o → e ∈ c →
      ∃ k1 k2 lo1 hi1 cc oc, kps = k1 ++ k2 ∧ S (lastPtr p k1) lo1 hi1 cc oc ∧ e ∈ cc := by
  intro kps
  induction kps with
  | nil =>
    intro p lo hi c o hk he
    exact ⟨[], [], lo, hi, c, o, rfl, hk, he⟩
  | cons x r ih =>
    intro p lo hi c o hk he
    obtain ⟨_, _, c1, o1, c2, o2, hS, hK, hc, _, _⟩ := hk
    rw [hc] at he
    rcases List.mem_append.mp he with he | he
    · exact ⟨[], x :: r, lo, some x.1, c1, o1, rfl, hS, he⟩
    · obtain ⟨k1, k2, lo1, hi1, cc, oc, g1, g2, g3⟩ := ih x.2 (some x.1) hi c2 o2 hK he
      refine ⟨x :: k1, k2, lo1, hi1, cc, oc, by rw [g1]; rfl, ?_, g3⟩
      obtain ⟨xk, xp⟩ := x
      exact g2

/-- Every pair of a well-formed subtree is held by a leaf reachable from its
root. -/
theorem Node_mem_leaf (g : Geom) (dev : List BTreeNode) :
    ∀ (h p : Nat) (lo hi : Option KEY_T) (c : List (KEY_T × VALUE_T)) (o : Finset Nat) (s : Nat),
      Node g dev h p lo hi c o s → ∀ e ∈ c, LeafKeyUnder g.m dev p e.1 := by
  intro h
  induction h with
  | zero =>
    intro p lo hi c o s hn e he
    obtain ⟨b, hb, hl, _⟩ := hn
    obtain ⟨j, hj, hk⟩ := leaf_mem_key g b c s e hl he
    exact ⟨p, b, j, Reach.here p, hb, hl.1, hj, hk⟩
  | succ h ih =>
    intro p lo hi c o s hn e he
    obtain ⟨b, p0, kps, o1, hb, hint, hne, hni, ho, hk⟩ := hn
    obtain ⟨k1, k2, lo1, hi1, cc, oc, g1, g2, g3⟩ := Kids_mem e _ _ _ _ _ _ hk he
    obtain ⟨q, lf, j, a1, a2, a3, a4, a5⟩ := ih _ _ _ _ _ _ g2 e g3
    have hint2 := hint
    rw [g1] at hint2
    have hptr := int_GetPtr_at g b p0 _ _ s hint2
    refine ⟨q, lf, j, Reach.step p _ q b k1.length hb hint.1 ?_ hptr a1, a2, a3, a4, a5⟩
    rw [hint.2.2.1, g1, List.length_append]
    omega

theorem decodeSIZE_T_zeros (l : List Nat) (h : ∀ x ∈ l, x = 0) : decodeSIZE_T l = 0 := by
  induction l with
  | nil => rfl
  | cons a r ih =>
    rw [decodeSIZE_T, h a (List.mem_cons_self _ _),
      ih (fun x hx => h x (List.mem_cons_of_mem _ hx))]

/-- From the root of a fresh tree, which has no key and zeroed slot bytes, the
only blocks reachable are the root and block 0, the superblock. -/
theorem fresh_reach (m : Machine) (ks vs : Nat) (c : BufferCache) (t : BTreeIndex)
    (h : fresh m ks vs c = some t) (j : Nat)
    (hr : Reach m t.buffercache.blocks t.superblock.info.rootnode j) :
    j = t.superblock.info.rootnode ∨ j = 0 := by
  obtain ⟨hs, hroot, _⟩ := fresh_super m ks vs c t h
  obtain ⟨hb1, _⟩ := fresh_layout m ks vs c t h
  rw [hroot] at hr ⊢
  cases hr with
  | here => exact Or.inl rfl
  | step _ q _ b i hb hty hi hq hr2 =>
    rw [hb1] at hb
    cases hb
    have hi0 : i = 0 := Nat.le_zero.mp hi
    subst hi0
    have hq0 : q = 0 := by
      unfold BTreeNode.GetPtr at hq
      simp only [BTreeNode.withNumkeys, BTreeNode.withFreelist, BTreeNode.withRootnode,
        BTreeNode.mk4, le_refl, if_true] at hq
      have := Except.ok.inj hq
      rw [← this]
      apply decodeSIZE_T_zeros
      intro x hx
      unfold readAt at hx
      have hx2 := List.mem_of_mem_take hx
      have hx3 := List.mem_of_mem_drop hx2
      simp only [hasData, if_true, zeros] at hx3
      exact (List.mem_replicate.mp hx3).2
    subst hq0
    cases hr2 with
    | here => exact Or.inr rfl
    | step _ q2 _ b2 i2 hb2 hty2 _ _ _ =>
      rw [hs.2.2.2] at hb2
      cases hb2
      rw [hs.2.1] at hty2
      rcases hty2 with h1 | h1 <;> cases h1

/-- The nodes reachable from the root in a state reached from a fresh tree by
successful inserts, on a device whose leaves and interior nodes hold at least
three keys: a root or interior node among them either has no key (the root of
the fresh tree) or roots a well-formed subtree that holds exactly the inserted
pairs lying in its key range. -/
theorem reached_node (m : Machine) (keysize valuesize : Nat) (cache : BufferCache)
    (w : List (KEY_T × VALUE_T)) (t0 t : BTreeIndex)
    (hL : 3 ≤ leafCapacity m keysize valuesize cache.blocksize)
    (hI : 3 ≤ interiorCapacity m keysize cache.blocksize)
    (hN : cache.blocks.length ≤ 256 ^ m.sizeofSIZE_T)
    (hw : ∀ e ∈ w, e.1.length = keysize ∧ e.2.length = valuesize)
    (h0 : fresh m keysize valuesize cache = some t0) (hrun : runInserts m t0 w = some t)
    (j : Nat) (b : BTreeNode)
    (hr : Reach m t.buffercache.blocks t.superblock.info.rootnode j)
    (hb : t.buffercache.blocks[j]? = some b)
    (hty : b.info.nodetype = NodeType.BTREE_ROOT_NODE ∨
      b.info.nodetype = NodeType.BTREE_INTERIOR_NODE) :
    b.info.numkeys = 0 ∨
    ∃ (c : List (KEY_T × VALUE_T)) (h1 : Nat) (lo1 hi1 : Option KEY_T)
      (c1 : List (KEY_T × VALUE_T)) (o1 : Finset Nat) (s1 : Nat), c.Perm w ∧
      Node ⟨m, keysize, valuesize, cache.blocksize⟩ t.buffercache.blocks (h1 + 1) j lo1 hi1 c1
        o1 s1 ∧
      (∀ e ∈ c1, e ∈ c) ∧ (∀ e ∈ c, above lo1 e.1 → below e.1 hi1 → e ∈ c1) := by
  have hinv0 := fresh_inv m keysize valuesize cache t0 h0 hN
  obtain ⟨c1, hinv, hperm⟩ := runInserts_inv ⟨m, keysize, valuesize, cache.blocksize⟩ hL hI w t0 []
    t hinv0 hw hrun
  simp only [List.nil_append] at hperm
  obtain ⟨hs, _, _, _, _, fl, hcase⟩ := hinv
  rcases hcase with ⟨hc, ⟨rb, hrb, _, _, hnum⟩, _⟩ | ⟨h, o, _, hnode⟩
  · left
    subst hc
    have hw0 : w = [] := List.Perm.eq_nil (hperm.symm)
    subst hw0
    simp only [runInserts, Option.some.injEq] at hrun
    subst hrun
    rcases fresh_reach m keysize valuesize cache t0 h0 j hr with hj | hj
    · subst hj
      rw [hrb] at hb
      cases hb
      exact hnum
    · subst hj
      rw [hs.2.2.2] at hb
      cases hb
      rw [hs.2.1] at hty
      rcases hty with h1 | h1 <;> cases h1
  · right
    obtain ⟨h1, lo1, hi1, c2, o1, s1, a1, a2, a3, _, _⟩ :=
      Node_reach ⟨m, keysize, valuesize, cache.blocksize⟩ _ _ _ hr _ _ _ _ _ _ hnode
    cases h1 with
    | zero =>
      obtain ⟨b', hb', hl, _⟩ := a1
      rw [hb] at hb'
      cases hb'
      rw [hl.1] at hty
      rcases hty with h1 | h1 <;> cases h1
    | succ h1 => exact ⟨c1, h1, lo1, hi1, c2, o1, s1, hperm, a1, a2, a3⟩

theorem Node_ptr (g : Geom) (dev : List BTreeNode) (h blk : Nat) (lo hi : Option KEY_T)
    (c : List (KEY_T × VALUE_T)) (o : Finset Nat) (s : Nat)
    (hn : Node g dev (h + 1) blk lo hi c o s) (b : BTreeNode) (hb : dev[blk]? = some b)
    (i : Nat) (hi' : i ≤ b.info.numkeys) : ∃ q, b.GetPtr g.m i = .ok q := by
  obtain ⟨b', p0, kps, o1, hb', hint, _⟩ := hn
  rw [hb] at hb'
  cases hb'
  have hnum : b.info.numkeys = kps.length := hint.2.2.1
  have hlen : (kps.take i).length = i := by rw [List.length_take]; omega
  have hint2 := hint
  rw [← List.take_append_drop i kps] at hint2
  have hptr := int_GetPtr_at g b p0 _ _ s hint2
  rw [hlen] at hptr
  exact ⟨_, hptr⟩

/-- The keys below a node reachable from the root, in a state reached from a
fresh tree by successful inserts on a device whose leaves and interior nodes
hold at least three keys: every key held by a leaf reachable through child i
is less than or equal to separator i, and every key held by a leaf reachable
through the trailing child is greater than or equal to the last separator. -/
theorem reachable_keys_within_separators (m : Machine) (keysize valuesize : Nat)
    (cache : BufferCache) (w : List (KEY_T × VALUE_T)) (t0 t : BTreeIndex)
    (hL : 3 ≤ leafCapacity m keysize valuesize cache.blocksize)
    (hI : 3 ≤ interiorCapacity m keysize cache.blocksize)
    (hN : cache.blocks.length ≤ 256 ^ m.sizeofSIZE_T)
    (hw : ∀ e ∈ w, e.1.length = keysize ∧ e.2.length = valuesize)
    (h0 : fresh m keysize valuesize cache = some t0) (hrun : runInserts m t0 w = some t)
    (j : Nat) (b : BTreeNode)
    (hr : Reach m t.buffercache.blocks t.superblock.info.rootnode j)
    (hb : t.buffercache.blocks[j]? = some b)
    (hty : b.info.nodetype = NodeType.BTREE_ROOT_NODE ∨
      b.info.nodetype = NodeType.BTREE_INTERIOR_NODE) :
    (∀ i, i < b.info.numkeys → ∃ p k, b.GetPtr m i = .ok p ∧ b.GetKey m i = .ok k ∧
      ∀ key, LeafKeyUnder m t.buffercache.blocks p key → keyLt key k = true ∨ key = k) ∧
    (1 ≤ b.info.numkeys → ∃ p k, b.GetPtr m b.info.numkeys = .ok p ∧
      b.GetKey m (b.info.numkeys - 1) = .ok k ∧
      ∀ key, LeafKeyUnder m t.buffercache.blocks p key → keyLt k key = true ∨ k = key) := by
  rcases reached_node m keysize valuesize cache w t0 t hL hI hN hw h0 hrun j b hr hb hty with
    hz | ⟨c, h1, lo1, hi1, c1, o1, s1, _, hnode, _, _⟩
  · exact ⟨fun i hi => by omega, fun h => by omega⟩
  · constructor
    · intro i hi
      obtain ⟨p, hp⟩ := Node_ptr _ _ _ _ _ _ _ _ _ hnode b hb i (by omega)
      obtain ⟨lo2, hi2, cc, oc, g1, _, _, _, _, g6, _⟩ :=
        Node_child _ _ _ _ _ _ _ _ _ hnode b hb i p (by omega) hp
      obtain ⟨k, hk, hhi, _⟩ := g6 hi
      refine ⟨p, k, hp, hk, ?_⟩
      intro key hkey
      obtain ⟨v, hv⟩ := Node_leafkey _ _ _ _ _ _ _ _ _ g1 key hkey
      have := (Node_range _ _ _ _ _ _ _ _ _ g1 _ hv).2
      rw [hhi] at this
      exact below_some.mp this
    · intro hn
      obtain ⟨p, hp⟩ := Node_ptr _ _ _ _ _ _ _ _ _ hnode b hb b.info.numkeys (le_refl _)
      obtain ⟨lo2, hi2, cc, oc, g1, _, _, _, _, _, g7⟩ :=
        Node_child _ _ _ _ _ _ _ _ _ hnode b hb b.info.numkeys p (le_refl _) hp
      obtain ⟨k, hk, hlo⟩ := g7 hn
      refine ⟨p, k, hp, hk, ?_⟩
      intro key hkey
      obtain ⟨v, hv⟩ := Node_leafkey _ _ _ _ _ _ _ _ _ g1 key hkey
      have := (Node_range _ _ _ _ _ _ _ _ _ g1 _ hv).1
      rw [hlo] at this
      exact Or.inl (above_some.mp this)


/-! ## The record of the calls of AddKeyVal: the functions recorded are the originals -/

theorem splitChildLog_fst (m : Machine) (t1 : BTreeIndex) (node ptr : Nat) :
    (splitChildLog m t1 node ptr).1 = splitChild m t1 node ptr := by
  unfold splitChildLog splitChild
  by_cases hsp : NeedToSplit m t1 ptr = true
  · simp only [hsp, if_true]
    cases hs : SplitNode m t1 ptr [] with
    | none => rfl
    | some r =>
      obtain ⟨rc, x, pk, t2⟩ := r
      cases rc <;> rfl
  · simp only [hsp, if_false]
    rfl

theorem SearchInternal2Log_fst (m : Machine) (key : KEY_T) (v : VALUE_T) :
    ∀ (fuel : Nat) (t : BTreeIndex) (blk parent : Nat),
      (SearchInternal2Log m fuel t blk key v parent).1
        = SearchInternal2 m fuel t blk key v parent := by
  intro fuel
  induction fuel with
  | zero => intro t blk parent; rfl
  | succ f ih =>
    intro t blk parent
    rw [SearchInternal2Log, SearchInternal2]
    cases hu : BTreeNode.default.Unserialize t.buffercache blk with
    | mk rc b =>
      cases rc <;> try rfl
      simp only
      cases hty : b.info.nodetype <;> simp only <;> try rfl
      all_goals
        cases hp : pickChild m b key with
        | error rc => rfl
        | ok ptr =>
          simp only
          have hih := ih t ptr blk
          cases hr : SearchInternal2Log m f t ptr key v blk with
          | mk res log =>
            rw [hr] at hih
            simp only at hih
            rw [← hih]
            cases res with
            | none => rfl
            | some x =>
              obtain ⟨rc1, t1⟩ := x
              cases rc1 <;> try rfl
              simp only
              exact splitChildLog_fst m t1 blk ptr

theorem InsertLog_fst (m : Machine) (t : BTreeIndex) (key : KEY_T) (v : VALUE_T) :
    (InsertLog m t key v).1 = BTreeIndex.Insert m t key v := by
  unfold InsertLog BTreeIndex.Insert
  simp only
  generalize (if (BTreeNode.default.Unserialize t.buffercache
      t.superblock.info.rootnode).2.info.numkeys = 0
    then bootstrap m t (BTreeNode.default.Unserialize t.buffercache
      t.superblock.info.rootnode).2 key
    else some (ERROR_T.ERROR_NOERROR, (BTreeNode.default.Unserialize t.buffercache
      t.superblock.info.rootnode).2, t)) = pre
  cases pre with
  | none => rfl
  | some r =>
    obtain ⟨rc0, root, tb⟩ := r
    cases rc0 <;> try rfl
    simp only
    cases hl : Lookup m tb key with
    | none => rfl
    | some l =>
      obtain ⟨rcl, val⟩ := l
      cases rcl <;> try rfl
      simp only
      have hfst := SearchInternal2Log_fst m key v (depthBound tb) tb tb.superblock.info.rootnode
        tb.superblock.info.rootnode
      cases hr : SearchInternal2Log m (depthBound tb) tb tb.superblock.info.rootnode key v
          tb.superblock.info.rootnode with
      | mk res log =>
        rw [hr] at hfst
        simp only at hfst
        rw [← hfst]
        cases res with
        | none => rfl
        | some x => rfl

theorem runInsertsLog_fst (m : Machine) :
    ∀ (w : List (KEY_T × VALUE_T)) (t : BTreeIndex),
      (runInsertsLog m t w).1 = runInserts m t w := by
  intro w
  induction w with
  | nil => intro t; rfl
  | cons e r ih =>
    intro t
    rw [runInsertsLog, runInserts]
    have hfst := InsertLog_fst m t e.1 e.2
    cases hr : InsertLog m t e.1 e.2 with
    | mk res log =>
      rw [hr] at hfst
      simp only at hfst
      rw [← hfst]
      cases res with
      | none => rfl
      | some x =>
        obtain ⟨rc, t1⟩ := x
        cases rc <;> try rfl
        simp only
        exact ih t1

/-! ## The record of a descent, step by step -/

theorem SearchInternal2Log_leaf (m : Machine) (f : Nat) (t : BTreeIndex) (blk : Nat) (key : KEY_T)
    (v : VALUE_T) (parent : Nat) (b : BTreeNode)
    (hu : BTreeNode.default.Unserialize t.buffercache blk = (ERROR_T.ERROR_NOERROR, b))
    (hty : b.info.nodetype = NodeType.BTREE_LEAF_NODE) :
    (SearchInternal2Log m (f + 1) t blk key v parent).2 = [(blk, NeedToSplit m t blk)] := by
  rw [SearchInternal2Log, hu]
  simp only [hty]

theorem SearchInternal2Log_stop (m : Machine) (f : Nat) (t : BTreeIndex) (blk : Nat) (key : KEY_T)
    (v : VALUE_T) (parent : Nat) (b : BTreeNode) (rc : ERROR_T)
    (hu : BTreeNode.default.Unserialize t.buffercache blk = (ERROR_T.ERROR_NOERROR, b))
    (hty : b.info.nodetype = NodeType.BTREE_ROOT_NODE ∨
      b.info.nodetype = NodeType.BTREE_INTERIOR_NODE)
    (hp : pickChild m b key = .error rc) :
    (SearchInternal2Log m (f + 1) t blk key v parent).2 = [] := by
  rw [SearchInternal2Log, hu]
  rcases hty with hty | hty <;> simp only [hty, hp]

theorem SearchInternal2Log_int (m : Machine) (f : Nat) (t : BTreeIndex) (blk : Nat) (key : KEY_T)
    (v : VALUE_T) (parent : Nat) (b : BTreeNode) (ptr : Nat)
    (hu : BTreeNode.default.Unserialize t.buffercache blk = (ERROR_T.ERROR_NOERROR, b))
    (hty : b.info.nodetype = NodeType.BTREE_ROOT_NODE ∨
      b.info.nodetype = NodeType.BTREE_INTERIOR_NODE)
    (hp : pickChild m b key = .ok ptr) :
    (∀ t1, SearchInternal2 m f t ptr key v blk = some (ERROR_T.ERROR_NOERROR, t1) →
      (SearchInternal2Log m (f + 1) t blk key v parent).2
        = (SearchInternal2Log m f t ptr key v blk).2 ++ (splitChildLog m t1 blk ptr).2) ∧
    (∀ rc t1, SearchInternal2 m f t ptr key v blk = some (rc, t1) → rc ≠ ERROR_T.ERROR_NOERROR →
      (SearchInternal2Log m (f + 1) t blk key v parent).2
        = (SearchInternal2Log m f t ptr key v blk).2) := by
  have hfst := SearchInternal2Log_fst m key v f t ptr blk
  constructor
  · intro t1 h1
    rw [h1] at hfst
    rw [SearchInternal2Log, hu]
    cases hr : SearchInternal2Log m f t ptr key v blk with
    | mk res log =>
      rw [hr] at hfst
      simp only at hfst
      subst hfst
      rcases hty with hty | hty <;> simp only [hty, hp, hr]
  · intro rc t1 h1 hrc
    rw [h1] at hfst
    rw [SearchInternal2Log, hu]
    cases hr : SearchInternal2Log m f t ptr key v blk with
    | mk res log =>
      rw [hr] at hfst
      simp only at hfst
      subst hfst
      cases rc <;> first
        | exact absurd rfl hrc
        | (rcases hty with hty | hty <;> simp only [hty, hp, hr])

/-! ## Separators are inserted keys -/

theorem IntAt_key_mem (g : Geom) (b : BTreeNode) (p0 : Nat) (kps : List (KEY_T × Nat)) (s : Nat)
    (h : IntAt g b p0 kps s) (i : Nat) (k : KEY_T) (hi : i < b.info.numkeys)
    (hk : b.GetKey g.m i = .ok k) : ∃ e ∈ kps, e.1 = k := by
  have hlen : i < kps.length := by rw [← h.2.2.1]; exact hi
  have hsplit : kps = kps.take i ++ kps.get ⟨i, hlen⟩ :: kps.drop (i + 1) := by
    have h1 : kps.drop i = kps.get ⟨i, hlen⟩ :: kps.drop (i + 1) :=
      List.drop_eq_getElem_cons hlen
    conv_lhs => rw [← List.take_append_drop i kps, h1]
  have h2 := h
  rw [hsplit] at h2
  have hkey := int_GetKey g b p0 _ _ _ s h2
  rw [List.length_take, Nat.min_eq_left (by omega), hk] at hkey
  exact ⟨kps.get ⟨i, hlen⟩, List.get_mem kps i hlen, (Except.ok.inj hkey).symm⟩

theorem SepIn_step {m : Machine} {dev dev1 : List BTreeNode} {ks ks1 : List KEY_T}
    (h : SepIn m dev ks) (hks : ∀ k ∈ ks, k ∈ ks1)
    (hch : ∀ (j : Nat) (c : BTreeNode), dev1[j]? = some c →
      (c.info.nodetype = NodeType.BTREE_ROOT_NODE ∨
        c.info.nodetype = NodeType.BTREE_INTERIOR_NODE) →
      dev[j]? = some c ∨
        ∀ (i : Nat) (k : KEY_T), i < c.info.numkeys → c.GetKey m i = .ok k → k ∈ ks1) :
    SepIn m dev1 ks1 := by
  intro j c hc hty i k hi hk
  rcases hch j c hc hty with hold | hnew
  · exact hks k (h j c hold hty i k hi hk)
  · exact hnew i k hi hk

theorem SepIn_int {g : Geom} {b : BTreeNode} {p0 : Nat} {kps : List (KEY_T × Nat)} {s : Nat}
    {ks : List KEY_T} (h : IntAt g b p0 kps s) (hk : ∀ e ∈ kps, e.1 ∈ ks) :
    ∀ (i : Nat) (k : KEY_T), i < b.info.numkeys → b.GetKey g.m i = .ok k → k ∈ ks := by
  intro i k hi hg
  obtain ⟨e, he, hek⟩ := IntAt_key_mem g b p0 kps s h i k hi hg
  rw [← hek]
  exact hk e he

theorem int_mem_key (g : Geom) (b : BTreeNode) (p0 : Nat) (kps : List (KEY_T × Nat)) (s : Nat)
    (e : KEY_T × Nat) (h : IntAt g b p0 kps s) (he : e ∈ kps) :
    ∃ i, i < b.info.numkeys ∧ b.GetKey g.m i = .ok e.1 := by
  obtain ⟨k1, k2, hsplit⟩ := List.append_of_mem he
  have h2 := h
  rw [hsplit] at h2
  refine ⟨k1.length, ?_, int_GetKey g b p0 _ _ _ s h2⟩
  rw [h.2.2.1, hsplit, List.length_append, List.length_cons]
  omega

theorem not_sep_type {b : BTreeNode} (hl : b.info.nodetype = NodeType.BTREE_LEAF_NODE)
    (hty : b.info.nodetype = NodeType.BTREE_ROOT_NODE ∨
      b.info.nodetype = NodeType.BTREE_INTERIOR_NODE) : False := by
  rw [hl] at hty
  rcases hty with h | h <;> cases h

theorem super_not_sep {t : BTreeIndex} (hs : SuperOK t) {c : BTreeNode}
    (hc : t.buffercache.blocks[0]? = some c)
    (hty : c.info.nodetype = NodeType.BTREE_ROOT_NODE ∨
      c.info.nodetype = NodeType.BTREE_INTERIOR_NODE) : False := by
  rw [hs.2.2.2] at hc
  cases hc
  rw [hs.2.1] at hty
  rcases hty with h | h <;> cases h

/-- SplitNode on a full node of a device whose separators are inserted keys:
the promoted key is an inserted key and the separators still are. -/
theorem ssplit (g : Geom) (hL : 3 ≤ g.capL) (hI : 1 ≤ g.capI) (ks : List KEY_T) (t : BTreeIndex)
    (hs : SuperOK t) (ht sl : Nat → Nat) (ptr : Nat) (b : BTreeNode)
    (hw : WBs g ks t.buffercache.blocks ht sl) (hsl : sl ptr = 0)
    (hb : t.buffercache.blocks[ptr]? = some b) (hd : hasData b.info.nodetype = true)
    (hsp : NeedToSplit g.m t ptr = true) (x : Nat) (xs : List Nat)
    (hf : FreeChain t.buffercache.blocks t.superblock.info.freelist (x :: xs))
    (hsep : SepIn g.m t.buffercache.blocks ks) (x1 : Nat) (pk : KEY_T) (t2 : BTreeIndex)
    (hsplit : SplitNode g.m t ptr [] = some (ERROR_T.ERROR_NOERROR, x1, pk, t2)) :
    pk ∈ ks ∧ SepIn g.m t2.buffercache.blocks ks := by
  have hwb := hw ptr b hb
  rw [hsl] at hwb
  rcases node_type_cases b hd with hty | hty
  · -- a leaf
    obtain ⟨hh0, es, hl, hes⟩ := hwb.1 hty
    rw [NeedToSplit_leaf g t ptr b es 0 hb hl] at hsp
    have hfull : es.length = g.capL := by
      have : g.capL = es.length := by simpa using hsp
      exact this.symm
    obtain ⟨t2', bl, br, el, e, er, heq, hes', her, hbl, hbr, hll, hlr, hkeep, hf2, hfr⟩ :=
      SplitNode_leaf g t hs ptr b es hb hl hfull hL x xs hf []
    rw [heq] at hsplit
    simp only [Option.some.injEq, Prod.mk.injEq, true_and] at hsplit
    obtain ⟨_, hpk, ht2⟩ := hsplit
    subst hpk ht2
    refine ⟨hes e (by rw [hes']; exact List.mem_append_right _ (List.mem_cons_self _ _)), ?_⟩
    apply SepIn_step hsep (fun k hk => hk)
    intro j c hc hcty
    by_cases hjp : j = ptr
    · subst hjp
      rw [hbl] at hc
      cases hc
      exact absurd hcty (fun h => not_sep_type hll.1 h)
    · by_cases hjx : j = x
      · subst hjx
        rw [hbr] at hc
        cases hc
        exact absurd hcty (fun h => not_sep_type hlr.1 h)
      · by_cases hj0 : j = 0
        · subst hj0
          exact absurd hcty (fun h => super_not_sep hkeep.1 hc h)
        · left
          rw [← hfr j hj0 hjp hjx]
          exact hc
  · -- a root or interior node
    obtain ⟨hh1, hhdr, hcap, hk⟩ := hwb.2 hty
    have hnum : b.info.numkeys = g.capI := by
      unfold NeedToSplit at hsp
      rw [Unserialize_data _ _ _ _ hb hd] at hsp
      have : g.capI = b.info.numkeys := by
        rcases hty with hty | hty <;>
          simpa only [hty, slots_int_of_hdr g b hhdr, decide_eq_true_eq] using hsp
      exact this.symm
    rcases hk with hz | ⟨p0, kps, hne, hint, hkids⟩
    · omega
    have hfull : kps.length = g.capI := by rw [← hint.2.2.1]; exact hnum
    have hkps : ∀ e ∈ kps, e.1 ∈ ks := by
      intro e he
      obtain ⟨i, hi, hg⟩ := int_mem_key g b p0 kps 0 e hint he
      exact hsep ptr b hb hty i e.1 hi hg
    obtain ⟨t2', bl, br, kl, e, kr, heq, hkpse, hkll, hbl, hbr, hil, htl, htr, hhr, hnr, hir,
      hkeep, hf2, hfr⟩ := SplitNode_int_any g t hs ptr b p0 kps hb hint hfull hI x xs hf []
    rw [heq] at hsplit
    simp only [Option.some.injEq, Prod.mk.injEq, true_and] at hsplit
    obtain ⟨_, hpk, ht2⟩ := hsplit
    subst hpk ht2
    refine ⟨hkps e (by rw [hkpse]; exact List.mem_append_right _ (List.mem_cons_self _ _)), ?_⟩
    apply SepIn_step hsep (fun k hk => hk)
    intro j c hc hcty
    by_cases hjp : j = ptr
    · subst hjp
      rw [hbl] at hc
      cases hc
      right
      exact SepIn_int hil (fun y hy => hkps y (by rw [hkpse]; exact List.mem_append_left _ hy))
    · by_cases hjx : j = x
      · subst hjx
        rw [hbr] at hc
        cases hc
        right
        by_cases hkr : kr = []
        · intro i k hi _
          rw [hnr, hkr] at hi
          exact absurd hi (Nat.not_lt_zero _)
        · exact SepIn_int (hir hkr) (fun y hy => hkps y (by
            rw [hkpse]; exact List.mem_append_right _ (List.mem_cons_of_mem _ hy)))
      · by_cases hj0 : j = 0
        · subst hj0
          exact absurd hcty (fun h => super_not_sep hkeep.1 hc h)
        · left
          rw [← hfr j hj0 hjp hjx]
          exact hc

/-- The descent of an insert on a device of well-formed blocks whose
separators are inserted keys: no call of AddKeyVal starts on a full node, and
after a successful descent the separators are inserted keys again. -/
theorem sdescent (g : Geom) (hL : 3 ≤ g.capL) (hI : 1 ≤ g.capI) (key : KEY_T) (v : VALUE_T)
    (hkey : key.length = g.keysize) (hv : v.length = g.valuesize) (ks : List KEY_T) :
    ∀ (h fuel : Nat) (t : BTreeIndex) (ht : Nat → Nat) (blk parent : Nat) (fl : List Nat),
      h < fuel → SuperOK t → t.buffercache.blocks.length ≤ 256 ^ g.P →
      FreeChain t.buffercache.blocks t.superblock.info.freelist fl →
      WBs g ks t.buffercache.blocks ht (fun _ => 1) →
      Live t.buffercache.blocks blk → ht blk = h →
      SepIn g.m t.buffercache.blocks ks →
      (∀ e ∈ (SearchInternal2Log g.m fuel t blk key v parent).2, e.2 = false) ∧
      (∀ t1, SearchInternal2 g.m fuel t blk key v parent = some (ERROR_T.ERROR_NOERROR, t1) →
        SepIn g.m t1.buffercache.blocks (key :: ks)) := by
  intro h
  induction h with
  | zero =>
    intro fuel t ht blk parent fl hf hs hN hfl hw hlive hh hsep
    obtain ⟨f, rfl⟩ : ∃ f, fuel = f + 1 := ⟨fuel - 1, by omega⟩
    obtain ⟨b, hb, hd⟩ := hlive
    have hu := Unserialize_data BTreeNode.default t.buffercache blk b hb hd
    have hwb := hw blk b hb
    have hty : b.info.nodetype = NodeType.BTREE_LEAF_NODE := by
      rcases node_type_cases b hd with hty | hty
      · exact hty
      · have := (hwb.2 hty).1; omega
    obtain ⟨_, es, hl, hes⟩ := hwb.1 hty
    obtain ⟨b', hadd, hl'⟩ := AddKeyVal_leaf g t blk b es key v 0 hb hl hkey hv
    have hlt := lt_length_of_getElem? hb
    constructor
    · intro e he
      rw [SearchInternal2Log_leaf g.m f t blk key v parent b hu hty] at he
      rw [List.mem_singleton.mp he, NeedToSplit_leaf g t blk b es 1 hb hl]
      have hroom : es.length + 1 ≤ g.capL := hl.2.2.2.1
      simp only [decide_eq_false_iff_not]
      omega
    · intro t1 hrun
      rw [SearchInternal2_leaf g.m f t blk key v parent b hu hty, hadd] at hrun
      simp only [Option.some.injEq, Prod.mk.injEq, true_and] at hrun
      subst hrun
      apply SepIn_step hsep (fun k hk => List.mem_cons_of_mem _ hk)
      intro j c hc hcty
      by_cases hjb : j = blk
      · subst hjb
        have hself : (t.put j b').buffercache.blocks[j]? = some b' := by
          show (t.buffercache.blocks.set j b')[j]? = some b'
          rw [List.getElem?_set_self hlt]
        rw [hself] at hc
        cases hc
        exact absurd hcty (fun h => not_sep_type hl'.1 h)
      · left
        have : (t.put blk b').buffercache.blocks[j]? = t.buffercache.blocks[j]? := by
          show (t.buffercache.blocks.set blk b')[j]? = _
          rw [List.getElem?_set_ne (Ne.symm hjb)]
        rw [← this]
        exact hc
  | succ h ih =>
    intro fuel t ht blk parent fl hf hs hN hfl hw hlive hh hsep
    obtain ⟨f, rfl⟩ : ∃ f, fuel = f + 1 := ⟨fuel - 1, by omega⟩
    obtain ⟨b, hb, hd⟩ := hlive
    have hu := Unserialize_data BTreeNode.default t.buffercache blk b hb hd
    have hwb := hw blk b hb
    have hty : b.info.nodetype = NodeType.BTREE_ROOT_NODE ∨
        b.info.nodetype = NodeType.BTREE_INTERIOR_NODE := by
      rcases node_type_cases b hd with hty | hty
      · have := (hwb.1 hty).1; omega
      · exact hty
    obtain ⟨_, hhdr, hcap, hk⟩ := hwb.2 hty
    have hblk0 : blk ≠ 0 := data_ne_zero hs hb hd
    rcases hk with hz | ⟨p0, kps, hne, hint, hkids⟩
    · constructor
      · intro e he
        rw [SearchInternal2Log_stop g.m f t blk key v parent b _ hu hty
          (pickChild_empty g.m b key hz)] at he
        exact absurd he (List.not_mem_nil e)
      · intro t1 hrun
        exfalso
        rw [SearchInternal2, hu] at hrun
        rcases hty with hty | hty <;>
          simp only [hty, pickChild_empty g.m b key hz, Option.some.injEq, Prod.mk.injEq] at hrun <;>
          exact absurd hrun.1 (by simp)
    have hne1 : 1 ≤ kps.length := by
      cases kps with
      | nil => exact absurd rfl hne
      | cons a r => simp
    have hp := pickChild_spec g b p0 1 kps key hint hne1
    obtain ⟨hlp, hhp⟩ := hkids _ (pick_mem key kps p0)
    have hhp' : ht (pick key p0 kps) = h := by omega
    obtain ⟨hstepA, hstepB⟩ := SearchInternal2_int g.m f t blk key v parent b _ hu hty hp
    obtain ⟨hlogA, hlogB⟩ := SearchInternal2Log_int g.m f t blk key v parent b _ hu hty hp
    obtain ⟨ihlog, ihsep⟩ := ih f t ht (pick key p0 kps) blk fl (by omega) hs hN hfl hw hlp hhp'
      hsep
    rcases wdescent g hL hI key v hkey hv ks h f t ht (pick key p0 kps) blk fl (by omega) hs hN
        hfl hw hlp hhp' with
      ⟨t1, ht1, fl', hrun, hfl1, hlen1, hw1, _, hE1, hF1⟩ | ⟨rc, t1, hrun, hrc, _, hF1⟩
    swap
    · constructor
      · intro e he
        rw [hlogB rc t1 hrun hrc] at he
        exact ihlog e he
      · intro t2 hrun2
        exfalso
        rw [hstepB rc t1 hrun hrc] at hrun2
        simp only [Option.some.injEq, Prod.mk.injEq] at hrun2
        exact hrc hrun2.1
    have hsep1 := ihsep t1 hrun
    have hkeep1 := SearchInternal2_keeps g.m f t hs _ key v blk _ t1 hrun
    have hs1 : SuperOK t1 := hkeep1.1
    have hb1 : t1.buffercache.blocks[blk]? = some b := by
      rw [hF1 blk ⟨b, hb, hd⟩ (by omega)]; exact hb
    have hptrblk : pick key p0 kps ≠ blk := by
      intro he
      rw [he] at hhp'
      omega
    obtain ⟨hlp1, hhp1⟩ := hE1 _ hlp
    obtain ⟨c1, hc1, hcd1⟩ := hlp1
    rw [hstepA t1 hrun, hlogA t1 hrun]
    by_cases hsp : NeedToSplit g.m t1 (pick key p0 kps) = true
    swap
    · -- the child is not full
      have hsp' : NeedToSplit g.m t1 (pick key p0 kps) = false := by
        cases hx : NeedToSplit g.m t1 (pick key p0 kps)
        · rfl
        · exact absurd hx hsp
      constructor
      · intro e he
        unfold splitChildLog at he
        simp only [hsp', Bool.false_eq_true, if_false, List.append_nil] at he
        exact ihlog e he
      · intro t2 hrun2
        unfold splitChild at hrun2
        simp only [hsp', Bool.false_eq_true, if_false, Option.some.injEq, Prod.mk.injEq,
          true_and] at hrun2
        subst hrun2
        exact hsep1
    · -- the child is full
      cases fl' with
      | nil =>
        have hhead : t1.superblock.info.freelist = 0 := hfl1
        constructor
        · intro e he
          unfold splitChildLog at he
          simp only [hsp, if_true] at he
          unfold SplitNode at he
          simp only [AllocateNode_nospace t1 hhead, List.append_nil] at he
          exact ihlog e he
        · intro t2 hrun2
          exfalso
          unfold splitChild at hrun2
          simp only [hsp, if_true] at hrun2
          unfold SplitNode at hrun2
          simp only [AllocateNode_nospace t1 hhead, Option.some.injEq, Prod.mk.injEq] at hrun2
          exact absurd hrun2.1 (by simp)
      | cons x xs =>
        obtain ⟨t2, pk, bl, br, hsplit, hpkl, hkeep2, hfl2, hbl, hbr, htl, htr, _, hw2, hE2,
          hfr2⟩ := wsplit g hL hI (key :: ks) t1 hs1 ht1 _ (pick key p0 kps) c1 hw1
            (by simp) hc1 hcd1 hsp x xs hfl1
        obtain ⟨hpkin, hsep2⟩ := ssplit g hL hI (key :: ks) t1 hs1 ht1 _ (pick key p0 kps) c1 hw1
          (by simp) hc1 hcd1 hsp x xs hfl1 hsep1 x pk t2 hsplit
        have hxl1 : ¬ Live t1.buffercache.blocks x :=
          fun hl => Live_not_free hfl1 hl (List.mem_cons_self _ _)
        have hxblk : blk ≠ x := fun he => hxl1 (he ▸ ⟨b, hb1, hd⟩)
        have hxlt : x < t1.buffercache.blocks.length := by
          obtain ⟨_, bx, hbx, _⟩ := FreeChain_mem _ _ _ hfl1 x (List.mem_cons_self _ _)
          exact lt_length_of_getElem? hbx
        have hx256 : x < 256 ^ g.P := by
          have := hkeep1.2.2.1
          omega
        have hb2 : t2.buffercache.blocks[blk]? = some b := by
          rw [hfr2 blk hblk0 (Ne.symm hptrblk) hxblk]; exact hb1
        obtain ⟨b', hadd, hint', hty'⟩ := AddKeyVal_int g t2 blk b p0 kps pk x hb2 hint hne1
          hpkl hx256
        have hlt2 := lt_length_of_getElem? hb2
        constructor
        · intro e he
          unfold splitChildLog at he
          simp only [hsp, if_true, hsplit] at he
          rcases List.mem_append.mp he with he | he
          · exact ihlog e he
          · rw [List.mem_singleton.mp he, NeedToSplit_int g t2 blk b p0 kps 1 hb2 hint]
            have hroom : kps.length + 1 ≤ g.capI := hint.2.2.2.1
            simp only [decide_eq_false_iff_not]
            omega
        · intro t3 hrun2
          unfold splitChild at hrun2
          simp only [hsp, if_true, hsplit, hadd, Option.some.injEq, Prod.mk.injEq,
            true_and] at hrun2
          subst hrun2
          apply SepIn_step hsep2 (fun k hk => hk)
          intro j c hc hcty
          by_cases hjb : j = blk
          · subst hjb
            have hself : (t2.put j b').buffercache.blocks[j]? = some b' := by
              show (t2.buffercache.blocks.set j b')[j]? = some b'
              rw [List.getElem?_set_self hlt2]
            rw [hself] at hc
            cases hc
            right
            apply SepIn_int hint'
            intro y hy
            rcases (mem_insSlot pk (pk, x) y kps).mp hy with h1 | h1
            · rw [h1]; exact hpkin
            · obtain ⟨i, hi, hg⟩ := int_mem_key g b p0 kps 1 y hint h1
              exact hsep2 j b hb2 hty i y.1 hi hg
          · left
            have : (t2.put blk b').buffercache.blocks[j]? = t2.buffercache.blocks[j]? := by
              show (t2.buffercache.blocks.set blk b')[j]? = _
              rw [List.getElem?_set_ne (Ne.symm hjb)]
            rw [← this]
            exact hc

/-- The root split on a device whose separators are inserted keys leaves them
so: the new root holds the promoted key, the halves keep keys of the old root. -/
theorem ssplitRoot (g : Geom) (hL : 3 ≤ g.capL) (hI : 1 ≤ g.capI) (ks : List KEY_T)
    (t1 : BTreeIndex) (hs1 : SuperOK t1) (hN : t1.buffercache.blocks.length ≤ 256 ^ g.P)
    (ht : Nat → Nat) (fl : List Nat) (b : BTreeNode)
    (hb : t1.buffercache.blocks[t1.superblock.info.rootnode]? = some b)
    (hty : b.info.nodetype = NodeType.BTREE_ROOT_NODE ∨
      b.info.nodetype = NodeType.BTREE_INTERIOR_NODE)
    (hw : WBs g ks t1.buffercache.blocks ht
      (fun j => if j = t1.superblock.info.rootnode then 0 else 1))
    (hsp : NeedToSplit g.m t1 t1.superblock.info.rootnode = true)
    (hfl : FreeChain t1.buffercache.blocks t1.superblock.info.freelist fl)
    (rootObj : BTreeNode)
    (hroty : rootObj.info.nodetype = NodeType.BTREE_ROOT_NODE ∨
      rootObj.info.nodetype = NodeType.BTREE_INTERIOR_NODE)
    (hrohdr : HdrOK g rootObj) (hsep : SepIn g.m t1.buffercache.blocks ks) (t3 : BTreeIndex)
    (hrun : splitRoot g.m t1 rootObj t1.superblock.info.rootnode
      = some (ERROR_T.ERROR_NOERROR, t3)) :
    SepIn g.m t3.buffercache.blocks ks := by
  have hd : hasData b.info.nodetype = true := by rcases hty with h | h <;> rw [h] <;> rfl
  have hr0 : t1.superblock.info.rootnode ≠ 0 := data_ne_zero hs1 hb hd
  have hrlt : t1.superblock.info.rootnode < t1.buffercache.blocks.length :=
    lt_length_of_getElem? hb
  have hshort : ∀ n, fl.length = n → n < 2 → False := by
    intro n hn hlt
    rcases wsplitRoot g hL hI ks t1 hs1 hN ht fl b hb hty hw hsp hfl rootObj hroty hrohdr with
      ⟨rc2, t2, hsr, hrc2⟩ | ⟨t2, ht2, fl', b4, hsr, _, _, _, _, _, _, hlen, _⟩
    · rw [hsr] at hrun
      simp only [Option.some.injEq, Prod.mk.injEq] at hrun
      exact hrc2 hrun.1
    · omega
  cases fl with
  | nil => exact absurd (hshort 0 rfl (by omega)) id
  | cons x fl1 =>
    cases fl1 with
    | nil => exact absurd (hshort 1 rfl (by omega)) id
    | cons y ys =>
      obtain ⟨t2, pk, bl, br, hsplit, hpkl, hkeep2, hfl2, hbl, hbr, htl, htr, hnums, hw2, hE2,
        hfr2⟩ := wsplit g hL hI ks t1 hs1 ht _ t1.superblock.info.rootnode b hw (by simp) hb hd
          hsp x (y :: ys) hfl
      obtain ⟨hpkin, hsep2⟩ := ssplit g hL hI ks t1 hs1 ht _ t1.superblock.info.rootnode b hw
        (by simp) hb hd hsp x (y :: ys) hfl hsep x pk t2 hsplit
      have hs2 : SuperOK t2 := hkeep2.1
      have hdl : hasData bl.info.nodetype = true := by rw [htl]; exact hd
      have hdr : hasData br.info.nodetype = true := by rw [htr]; exact hd
      have hre1 := reserialize_same (BTreeNode.mk4 g.m NodeType.BTREE_INTERIOR_NODE
        t2.superblock.info.keysize t2.superblock.info.valuesize t2.buffercache.blocksize)
        t2.buffercache _ bl hbl hdl
      have hre2 := reserialize_same ((BTreeNode.mk4 g.m NodeType.BTREE_INTERIOR_NODE
        t2.superblock.info.keysize t2.superblock.info.valuesize
        t2.buffercache.blocksize).Unserialize t2.buffercache t1.superblock.info.rootnode).2
        t2.buffercache _ br hbr hdr
      have heta : ({ t2 with buffercache := t2.buffercache } : BTreeIndex) = t2 := rfl
      have hxfl : x ∈ x :: y :: ys := List.mem_cons_self _ _
      have hxlt : x < t1.buffercache.blocks.length := by
        obtain ⟨_, bx, hbx, _⟩ := FreeChain_mem _ _ _ hfl x hxfl
        exact lt_length_of_getElem? hbx
      obtain ⟨t4, ha4, hs4, hroot4, hlen4, hbs4, hks4, hvs4, hf4, hfr4, hy0, hyn, hylt⟩ :=
        AllocateNode_spec t2 hs2 y ys true hfl2
      simp only [if_true] at hroot4
      obtain ⟨hroot4I, hinfo4⟩ := fillRoot_any g (rootObj.withNumkeys 1) hroty hrohdr 0
        (by omega) rfl pk t1.superblock.info.rootnode x hpkl (by omega) (by omega)
      obtain ⟨root4, hroot4def⟩ : ∃ root4, root4
        = fillRoot g.m (rootObj.withNumkeys 1) pk t1.superblock.info.rootnode x := ⟨_, rfl⟩
      rw [← hroot4def] at hroot4I hinfo4
      have hylt4 : y < t4.buffercache.blocks.length := by rw [hlen4]; exact hylt
      obtain ⟨tf, htf⟩ : ∃ tf : BTreeIndex, tf = { t4 with buffercache := { t4.buffercache with
        blocks := t4.buffercache.blocks.set y root4 } } := ⟨_, rfl⟩
      have hdevf : tf.buffercache.blocks = t4.buffercache.blocks.set y root4 := by rw [htf]
      have heq : splitRoot g.m t1 rootObj t1.superblock.info.rootnode
          = some (ERROR_T.ERROR_NOERROR, tf) := by
        unfold splitRoot
        simp only [hsplit, hre1, hre2, heta, ha4, ← hroot4def, hroot4]
        rw [Serialize_data root4 _ _ hylt4 hroot4I.nodeHasData, htf]
      rw [heq] at hrun
      simp only [Option.some.injEq, Prod.mk.injEq, true_and] at hrun
      subst hrun
      have hframe : ∀ j, j ≠ 0 → j ≠ y →
          tf.buffercache.blocks[j]? = t2.buffercache.blocks[j]? := by
        intro j h0 h1
        rw [hdevf, List.getElem?_set_ne (Ne.symm h1), hfr4 j h0]
      have hsf0 : tf.buffercache.blocks[0]? = t4.buffercache.blocks[0]? := by
        rw [hdevf, List.getElem?_set_ne hy0]
      have hselff : tf.buffercache.blocks[y]? = some root4 := by
        rw [hdevf, List.getElem?_set_self hylt4]
      apply SepIn_step hsep2 (fun k hk => hk)
      intro j c hc hcty
      by_cases hjy : j = y
      · subst hjy
        rw [hselff] at hc
        cases hc
        right
        apply SepIn_int hroot4I
        intro e he
        rw [List.mem_singleton.mp he]
        exact hpkin
      · by_cases hj0 : j = 0
        · subst hj0
          rw [hsf0] at hc
          exact absurd hcty (fun h => super_not_sep hs4 hc h)
        · left
          rw [← hframe j hj0 hjy]
          exact hc

/-- An entry of the record of Insert is an entry of the record of its
descent, which started after the bootstrap and the existence check. -/
theorem InsertLog_mem (m : Machine) (t : BTreeIndex) (key : KEY_T) (v : VALUE_T)
    (e : Nat × Bool) (he : e ∈ (InsertLog m t key v).2) :
    ∃ root tb val,
      (if (BTreeNode.default.Unserialize t.buffercache
          t.superblock.info.rootnode).2.info.numkeys = 0
        then bootstrap m t (BTreeNode.default.Unserialize t.buffercache
          t.superblock.info.rootnode).2 key
        else some (ERROR_T.ERROR_NOERROR, (BTreeNode.default.Unserialize t.buffercache
          t.superblock.info.rootnode).2, t)) = some (ERROR_T.ERROR_NOERROR, root, tb) ∧
      Lookup m tb key = some (ERROR_T.ERROR_NONEXISTENT, val) ∧
      e ∈ (SearchInternal2Log m (depthBound tb) tb tb.superblock.info.rootnode key v
        tb.superblock.info.rootnode).2 := by
  unfold InsertLog at he
  simp only at he
  generalize (if (BTreeNode.default.Unserialize t.buffercache
      t.superblock.info.rootnode).2.info.numkeys = 0
    then bootstrap m t (BTreeNode.default.Unserialize t.buffercache
      t.superblock.info.rootnode).2 key
    else some (ERROR_T.ERROR_NOERROR, (BTreeNode.default.Unserialize t.buffercache
      t.superblock.info.rootnode).2, t)) = pre at he ⊢
  cases pre with
  | none => exact absurd he (List.not_mem_nil e)
  | some r =>
    obtain ⟨rc0, root, tb⟩ := r
    cases rc0 <;> try (exact absurd he (List.not_mem_nil e))
    simp only at he
    cases hl : Lookup m tb key with
    | none => rw [hl] at he; exact absurd he (List.not_mem_nil e)
    | some l =>
      obtain ⟨rcl, val⟩ := l
      rw [hl] at he
      cases rcl <;> try (exact absurd he (List.not_mem_nil e))
      simp only at he
      refine ⟨root, tb, val, rfl, hl, ?_⟩
      cases hr : SearchInternal2Log m (depthBound tb) tb tb.superblock.info.rootnode key v
          tb.superblock.info.rootnode with
      | mk res log =>
        rw [hr] at he
        cases res with
        | none => exact he
        | some x => exact he


/-! ## Insert keeps the separators among the inserted keys and never calls AddKeyVal on a full node -/

theorem sinsert (g : Geom) (hL : 3 ≤ g.capL) (hI : 3 ≤ g.capI) (t : BTreeIndex)
    (ks : List KEY_T) (key : KEY_T) (v : VALUE_T) (hkey : key.length = g.keysize)
    (hv : v.length = g.valuesize) (hinv : WeakInv g t ks)
    (hslack : ∀ b, t.buffercache.blocks[t.superblock.info.rootnode]? = some b →
      b.info.numkeys + 1 ≤ g.capI)
    (hsep : SepIn g.m t.buffercache.blocks ks) :
    (∀ e ∈ (InsertLog g.m t key v).2, e.2 = false) ∧
    (∀ t1, BTreeIndex.Insert g.m t key v = some (ERROR_T.ERROR_NOERROR, t1) →
      SepIn g.m t1.buffercache.blocks (key :: ks)) := by
  have hI1 : 1 ≤ g.capI := by omega
  obtain ⟨hs, hks, hvs, hbs, hN, ht, fl, b, hb, hty, hfree, hbound, hfresh, hw, hroot⟩ := hinv
  have hd : hasData b.info.nodetype = true := by rcases hty with h | h <;> rw [h] <;> rfl
  have hu := Unserialize_data BTreeNode.default t.buffercache _ b hb hd
  have hwb := hw _ b hb
  simp only [if_true] at hwb
  obtain ⟨hh1, hhdr, hcap0, hk⟩ := hwb.2 hty
  have hr0 : t.superblock.info.rootnode ≠ 0 := data_ne_zero hs hb hd
  have hNpos : 1 ≤ t.buffercache.blocks.length := by
    have := lt_length_of_getElem? hb
    omega
  have hsl := hslack b hb
  by_cases hnum : b.info.numkeys = 0
  · -- the root has no key
    rcases wbootstrap g hI1 (by omega) t hs hks hvs hbs hN fl b hb hty hhdr hnum
        (hfree.imp id (fun h => h.2)) key hkey with
      ⟨rc, r, tb, hboot, hrc⟩ |
      ⟨tb, root4, x1, x2, fl', leaf, hboot, hkeepb, hfleq, hfc, hbr, hroot4, hb1, hb2, hleaf,
        hx12, hfcb, hfrb⟩
    · constructor
      · intro e he
        exfalso
        obtain ⟨root, tb', val, hpre, _, _⟩ := InsertLog_mem g.m t key v e he
        simp only [hu, hnum, if_true, hboot, Option.some.injEq, Prod.mk.injEq] at hpre
        exact hrc hpre.1
      · intro t1 hins
        exfalso
        unfold BTreeIndex.Insert at hins
        simp only [hu] at hins
        rw [if_pos hnum, hboot] at hins
        cases rc <;> first | exact absurd rfl hrc | simp at hins
    have hrootb : tb.superblock.info.rootnode = t.superblock.info.rootnode := hkeepb.2.1
    have hx1fl : x1 ∈ fl := by rw [hfleq]; simp
    have hx2fl : x2 ∈ fl := by rw [hfleq]; simp
    have hx1l : ¬ Live t.buffercache.blocks x1 := fun hl => Live_not_free hfc hl hx1fl
    have hx2l : ¬ Live t.buffercache.blocks x2 := fun hl => Live_not_free hfc hl hx2fl
    have hx1r : x1 ≠ t.superblock.info.rootnode := fun he => hx1l (he ▸ ⟨b, hb, hd⟩)
    have hx2r : x2 ≠ t.superblock.info.rootnode := fun he => hx2l (he ▸ ⟨b, hb, hd⟩)
    have hu4 := Unserialize_data BTreeNode.default tb.buffercache _ root4 hbr hroot4.nodeHasData
    have hul := Unserialize_data BTreeNode.default tb.buffercache _ leaf hb1 hleaf.leafHasData
    obtain ⟨leaf', hadd, hl'⟩ := AddKeyVal_leaf g tb x1 leaf [] key v 0 hb1 hleaf hkey hv
    have hl1 : LeafAt g leaf' [(key, v)] 0 := hl'
    have hpick : pickChild g.m root4 key = .ok x1 := by
      have := pickChild_spec g root4 x1 0 [(key, x2)] key hroot4 (by simp)
      simpa [pick] using this
    have hlt1 := lt_length_of_getElem? hb1
    have hself : (tb.put x1 leaf').buffercache.blocks[x1]? = some leaf' := by
      show (tb.buffercache.blocks.set x1 leaf')[x1]? = some leaf'
      rw [List.getElem?_set_self hlt1]
    have hother : ∀ j, j ≠ x1 →
        (tb.put x1 leaf').buffercache.blocks[j]? = tb.buffercache.blocks[j]? := by
      intro j hj
      show (tb.buffercache.blocks.set x1 leaf')[j]? = _
      rw [List.getElem?_set_ne (Ne.symm hj)]
    have hnsl : NeedToSplit g.m (tb.put x1 leaf') x1 = false := by
      rw [NeedToSplit_leaf g (tb.put x1 leaf') x1 leaf' _ 0 hself hl1]
      simp only [List.length_singleton, decide_eq_false_iff_not]
      omega
    have hlenb : tb.buffercache.blocks.length = t.buffercache.blocks.length := hkeepb.2.2.1
    obtain ⟨f, hf⟩ : ∃ f, depthBound tb = f + 1 + 1 :=
      ⟨tb.buffercache.blocks.length - 1, by unfold depthBound; omega⟩
    have hchild : SearchInternal2 g.m (f + 1) tb x1 key v t.superblock.info.rootnode
        = some (ERROR_T.ERROR_NOERROR, tb.put x1 leaf') := by
      rw [SearchInternal2_leaf g.m f tb x1 key v _ leaf hul hleaf.1, hadd]
    have hrun : SearchInternal2 g.m (depthBound tb) tb tb.superblock.info.rootnode key v
        tb.superblock.info.rootnode = some (ERROR_T.ERROR_NOERROR, tb.put x1 leaf') := by
      rw [hf, hrootb]
      obtain ⟨hstepA, _⟩ := SearchInternal2_int g.m (f + 1) tb t.superblock.info.rootnode key v
        t.superblock.info.rootnode root4 x1 hu4 hroot4.1 hpick
      rw [hstepA (tb.put x1 leaf') hchild]
      unfold splitChild
      simp only [hnsl, Bool.false_eq_true, if_false]
    have hbrs : (tb.put x1 leaf').buffercache.blocks[t.superblock.info.rootnode]? = some root4 := by
      rw [hother _ (Ne.symm hx1r)]; exact hbr
    constructor
    · intro e he
      obtain ⟨root, tb', val, hpre, _, hmem⟩ := InsertLog_mem g.m t key v e he
      simp only [hu, hnum, if_true, hboot, Option.some.injEq, Prod.mk.injEq, true_and] at hpre
      obtain ⟨_, htb⟩ := hpre
      subst htb
      rw [hf, hrootb] at hmem
      obtain ⟨hlogA, _⟩ := SearchInternal2Log_int g.m (f + 1) tb t.superblock.info.rootnode key v
        t.superblock.info.rootnode root4 x1 hu4 hroot4.1 hpick
      rw [hlogA (tb.put x1 leaf') hchild,
        SearchInternal2Log_leaf g.m f tb x1 key v _ leaf hul hleaf.1] at hmem
      unfold splitChildLog at hmem
      simp only [hnsl, Bool.false_eq_true, if_false, List.append_nil] at hmem
      rw [List.mem_singleton.mp hmem, NeedToSplit_leaf g tb x1 leaf [] 1 hb1 hleaf]
      simp only [List.length_nil, decide_eq_false_iff_not]
      omega
    · intro t1 hins
      unfold BTreeIndex.Insert at hins
      simp only [hu] at hins
      rw [if_pos hnum, hboot] at hins
      simp only at hins
      have hlk : ∃ val, Lookup g.m tb key = some (ERROR_T.ERROR_NONEXISTENT, val) := by
        cases hl : Lookup g.m tb key with
        | none => rw [hl] at hins; simp at hins
        | some r =>
          obtain ⟨rc, val⟩ := r
          rw [hl] at hins
          cases rc <;> first | exact ⟨val, rfl⟩ | simp at hins
      obtain ⟨val, hlk⟩ := hlk
      rw [hlk] at hins
      simp only at hins
      rw [hrun] at hins
      simp only at hins
      have hnsr : NeedToSplit g.m (tb.put x1 leaf') (tb.put x1 leaf').superblock.info.rootnode
          = false := by
        have hroots : (tb.put x1 leaf').superblock.info.rootnode = t.superblock.info.rootnode :=
          hrootb
        rw [hroots, NeedToSplit_int g (tb.put x1 leaf') _ root4 x1 [(key, x2)] 0 hbrs hroot4]
        simp only [List.length_singleton, decide_eq_false_iff_not]
        omega
      rw [hnsr] at hins
      simp only [Bool.false_eq_true, if_false, Option.some.injEq, Prod.mk.injEq, true_and] at hins
      subst hins
      have hkt := hkeepb.trans (by
        have := AddKeyVal_keeps g.m tb hkeepb.1 x1 key v 0
        rw [hadd] at this
        exact this : Keeps tb (tb.put x1 leaf'))
      apply SepIn_step hsep (fun k hk => List.mem_cons_of_mem _ hk)
      intro j c hc hcty
      by_cases hjr : j = t.superblock.info.rootnode
      · subst hjr
        rw [hbrs] at hc
        cases hc
        right
        apply SepIn_int hroot4
        intro e he
        rw [List.mem_singleton.mp he]
        exact List.mem_cons_self _ _
      · by_cases hj1 : j = x1
        · subst hj1
          rw [hself] at hc
          cases hc
          exact absurd hcty (fun h => not_sep_type hl1.1 h)
        · by_cases hj2 : j = x2
          · subst hj2
            rw [hother _ hj1, hb2] at hc
            cases hc
            exact absurd hcty (fun h => not_sep_type hleaf.1 h)
          · by_cases hj0 : j = 0
            · subst hj0
              exact absurd hcty (fun h => super_not_sep hkt.1 hc h)
            · left
              rw [← hfrb j hj0 hj1 hj2 hjr, ← hother j hj1]
              exact hc
  · -- the root has keys
    have hfc : FreeChain t.buffercache.blocks t.superblock.info.freelist fl := by
      rcases hfree with h | h
      · exact h
      · exact absurd h.1 hnum
    have hw' : WBs g ks t.buffercache.blocks ht (fun _ => 1) := by
      intro j c hc
      by_cases hjr : j = t.superblock.info.rootnode
      · subst hjr
        rw [hb] at hc
        cases hc
        exact WB_int_slack hwb hty hsl
      · have := hw j c hc
        simpa only [hjr, if_false] using this
    have hfuel : ht t.superblock.info.rootnode < depthBound t := by unfold depthBound; omega
    obtain ⟨hlog, hsepd⟩ := sdescent g hL hI1 key v hkey hv ks (ht t.superblock.info.rootnode)
      (depthBound t) t ht t.superblock.info.rootnode t.superblock.info.rootnode fl hfuel hs hN
      hfc hw' ⟨b, hb, hd⟩ rfl hsep
    constructor
    · intro e he
      obtain ⟨root, tb', val, hpre, _, hmem⟩ := InsertLog_mem g.m t key v e he
      simp only [hu, hnum, if_false, Option.some.injEq, Prod.mk.injEq, true_and] at hpre
      obtain ⟨_, htb⟩ := hpre
      subst htb
      exact hlog e hmem
    · intro t1 hins
      unfold BTreeIndex.Insert at hins
      simp only [hu] at hins
      rw [if_neg hnum] at hins
      simp only at hins
      have hlk : ∃ val, Lookup g.m t key = some (ERROR_T.ERROR_NONEXISTENT, val) := by
        cases hl : Lookup g.m t key with
        | none => rw [hl] at hins; simp at hins
        | some r =>
          obtain ⟨rc, val⟩ := r
          rw [hl] at hins
          cases rc <;> first | exact ⟨val, rfl⟩ | simp at hins
      obtain ⟨val, hlk⟩ := hlk
      rw [hlk] at hins
      simp only at hins
      rcases wdescent g hL hI1 key v hkey hv ks (ht t.superblock.info.rootnode) (depthBound t) t ht
          t.superblock.info.rootnode t.superblock.info.rootnode fl hfuel hs hN hfc hw'
          ⟨b, hb, hd⟩ rfl with
        ⟨ts, ht1, fl', hrun, hfl1, hlen1, hw1, hnum1, hE1, _⟩ | ⟨rc, ts, hrun, hrc, hblk, _⟩
      · rw [hrun] at hins
        simp only at hins
        have hsepts := hsepd ts hrun
        have hkeeps := SearchInternal2_keeps g.m _ t hs _ key v _ _ ts hrun
        have hroots : ts.superblock.info.rootnode = t.superblock.info.rootnode := hkeeps.2.1
        obtain ⟨⟨c, hc, hcd⟩, hh⟩ := hE1 _ ⟨b, hb, hd⟩
        have hcty : c.info.nodetype = NodeType.BTREE_ROOT_NODE ∨
            c.info.nodetype = NodeType.BTREE_INTERIOR_NODE := by
          rcases node_type_cases c hcd with h | h
          · have := ((hw1 _ c hc).1 h).1
            omega
          · exact h
        by_cases hsp : NeedToSplit g.m ts ts.superblock.info.rootnode = true
        · rw [if_pos hsp, ← hroots] at hins
          exact ssplitRoot g hL hI1 (key :: ks) ts hkeeps.1 (by rw [hkeeps.2.2.1]; exact hN) ht1
            fl' c (by rw [hroots]; exact hc) hcty (by rw [hroots]; exact hw1) hsp hfl1 b hty hhdr
            hsepts t1 hins
        · rw [if_neg hsp] at hins
          simp only [Option.some.injEq, Prod.mk.injEq, true_and] at hins
          subst hins
          exact hsepts
      · exfalso
        rw [hrun] at hins
        simp only at hins
        have hkeeps := SearchInternal2_keeps g.m _ t hs _ key v _ _ ts hrun
        have hroots : ts.superblock.info.rootnode = t.superblock.info.rootnode := hkeeps.2.1
        have hsp : NeedToSplit g.m ts ts.superblock.info.rootnode = false := by
          rw [hroots]
          unfold NeedToSplit
          rw [Unserialize_data _ _ _ b (by rw [hblk]; exact hb) hd]
          rcases hty with hty | hty <;>
            simp only [hty, slots_int_of_hdr g b hhdr, decide_eq_false_iff_not] <;> omega
        rw [hsp] at hins
        simp only [Bool.false_eq_true, if_false, Option.some.injEq, Prod.mk.injEq] at hins
        exact hrc hins.1

theorem TreeInv_root_slack (g : Geom) (hI : 1 ≤ g.capI) (t : BTreeIndex)
    (c : List (KEY_T × VALUE_T)) (hinv : TreeInv g t c) (b : BTreeNode)
    (hb : t.buffercache.blocks[t.superblock.info.rootnode]? = some b) :
    b.info.numkeys + 1 ≤ g.capI := by
  obtain ⟨_, _, _, _, _, fl, hcase⟩ := hinv
  rcases hcase with ⟨_, ⟨rb, hrb, _, _, hnum⟩, _⟩ | ⟨h, o, _, hnode⟩
  · rw [hb] at hrb
    cases hrb
    omega
  · obtain ⟨b', p0, kps, o1, hb', hint, _⟩ := hnode
    rw [hb] at hb'
    cases hb'
    have h1 : b.info.numkeys = kps.length := hint.2.2.1
    have h2 : kps.length + 1 ≤ g.capI := hint.2.2.2.1
    omega

theorem fresh_sep (m : Machine) (ks vs : Nat) (c : BufferCache) (t : BTreeIndex)
    (h : fresh m ks vs c = some t) : SepIn m t.buffercache.blocks [] := by
  obtain ⟨hs, hroot, hfree, hks, hvs, hbs, hlen⟩ := fresh_super m ks vs c t h
  obtain ⟨hb1, hchain⟩ := fresh_layout m ks vs c t h
  intro j b hb hty i k hi _
  exfalso
  by_cases hj0 : j = 0
  · subst hj0
    exact super_not_sep hs hb hty
  · by_cases hj1 : j = 1
    · subst hj1
      rw [hb1] at hb
      cases hb
      exact absurd hi (Nat.not_lt_zero _)
    · have hjlt : j < c.blocks.length := by
        rw [← hlen]; exact lt_length_of_getElem? hb
      rw [hchain j (by omega) hjlt] at hb
      cases hb
      rcases hty with h1 | h1 <;> cases h1

/-- A workload of successful inserts from a well-formed tree: the tree stays
well formed, its separators stay among the keys inserted, and no call of
AddKeyVal made on the way starts on a full node. -/
theorem runInserts_sep (g : Geom) (hL : 3 ≤ g.capL) (hI : 3 ≤ g.capI) :
    ∀ (w : List (KEY_T × VALUE_T)) (t : BTreeIndex) (c : List (KEY_T × VALUE_T))
      (ks : List KEY_T) (t1 : BTreeIndex),
      TreeInv g t c → WeakInv g t ks → SepIn g.m t.buffercache.blocks ks →
      (∀ e ∈ w, e.1.length = g.keysize ∧ e.2.length = g.valuesize) →
      runInserts g.m t w = some t1 →
      (∃ ks1, SepIn g.m t1.buffercache.blocks ks1 ∧ ∀ k ∈ ks1, k ∈ ks ∨ ∃ e ∈ w, e.1 = k) ∧
      ∀ e ∈ (runInsertsLog g.m t w).2, e.2 = false := by
  intro w
  induction w with
  | nil =>
    intro t c ks t1 _ _ hsep _ hrun
    simp only [runInserts, Option.some.injEq] at hrun
    subst hrun
    exact ⟨⟨ks, hsep, fun k hk => Or.inl hk⟩, fun e he => absurd he (List.not_mem_nil e)⟩
  | cons e r ih =>
    intro t c ks t1 htree hweak hsep hw hrun
    rw [runInserts] at hrun
    cases hi : BTreeIndex.Insert g.m t e.1 e.2 with
    | none => rw [hi] at hrun; simp at hrun
    | some res =>
      obtain ⟨rc, t2⟩ := res
      rw [hi] at hrun
      cases rc <;> try (simp at hrun; done)
      simp only at hrun
      have he := hw e (List.mem_cons_self _ _)
      have hrest : ∀ x ∈ r, x.1.length = g.keysize ∧ x.2.length = g.valuesize :=
        fun x hx => hw x (List.mem_cons_of_mem _ hx)
      obtain ⟨hlog, hsep2⟩ := sinsert g hL hI t ks e.1 e.2 he.1 he.2 hweak
        (fun b hb => TreeInv_root_slack g (by omega) t c htree b hb) hsep
      have hweak2 := WeakInv_insert g hL (by omega) t ks e.1 e.2 he.1 he.2 hweak t2 hi
      obtain ⟨_, c1, c2, _, htree2⟩ := Insert_step g hL hI t c e.1 e.2 he.1 he.2 htree t2 hi
      obtain ⟨⟨ks1, hsep1, hsub⟩, hlogr⟩ := ih t2 _ (e.1 :: ks) t1 htree2 hweak2 (hsep2 t2 hi)
        hrest hrun
      constructor
      · refine ⟨ks1, hsep1, ?_⟩
        intro k hk
        rcases hsub k hk with h1 | ⟨x, hx, hxk⟩
        · rcases List.mem_cons.mp h1 with h2 | h2
          · exact Or.inr ⟨e, List.mem_cons_self _ _, h2.symm⟩
          · exact Or.inl h2
        · exact Or.inr ⟨x, List.mem_cons_of_mem _ hx, hxk⟩
      · intro x hx
        rw [runInsertsLog] at hx
        have hfst := InsertLog_fst g.m t e.1 e.2
        rw [hi] at hfst
        cases hr : InsertLog g.m t e.1 e.2 with
        | mk res log =>
          rw [hr] at hfst hx hlog
          simp only at hfst hlog
          subst hfst
          simp only [List.mem_append] at hx
          rcases hx with hx | hx
          · exact hlog x hx
          · exact hlogr x hx

/-- In a state reached from a fresh tree by successful inserts, on a device
whose leaves and interior nodes hold at least three keys, every separator of
every root or interior block is the key of an inserted pair, and no call of
AddKeyVal made by the workload started on a full node. -/
theorem reached_sep (m : Machine) (keysize valuesize : Nat) (cache : BufferCache)
    (w : List (KEY_T × VALUE_T)) (t0 t : BTreeIndex)
    (hL : 3 ≤ leafCapacity m keysize valuesize cache.blocksize)
    (hI : 3 ≤ interiorCapacity m keysize cache.blocksize)
    (hN : cache.blocks.length ≤ 256 ^ m.sizeofSIZE_T)
    (hw : ∀ e ∈ w, e.1.length = keysize ∧ e.2.length = valuesize)
    (h0 : fresh m keysize valuesize cache = some t0) (hrun : runInserts m t0 w = some t) :
    (∀ (j : Nat) (b : BTreeNode), t.buffercache.blocks[j]? = some b →
      (b.info.nodetype = NodeType.BTREE_ROOT_NODE ∨
        b.info.nodetype = NodeType.BTREE_INTERIOR_NODE) →
      ∀ (i : Nat) (k : KEY_T), i < b.info.numkeys → b.GetKey m i = .ok k →
        ∃ e ∈ w, e.1 = k) ∧
    ∀ e ∈ (runInsertsLog m t0 w).2, e.2 = false := by
  have htree := fresh_inv m keysize valuesize cache t0 h0 hN
  have hweak := fresh_weak m keysize valuesize cache t0 h0 hN (by omega)
  have hsep := fresh_sep m keysize valuesize cache t0 h0
  obtain ⟨⟨ks1, hsep1, hsub⟩, hlog⟩ := runInserts_sep ⟨m, keysize, valuesize, cache.blocksize⟩
    hL hI w t0 [] [] t htree hweak hsep hw hrun
  refine ⟨?_, hlog⟩
  intro j b hb hty i k hi hk
  rcases hsub k (hsep1 j b hb hty i k hi hk) with h1 | h1
  · exact absurd h1 (List.not_mem_nil k)
  · exact h1

/-- The separators of a node reachable from the root, in a state reached from
a fresh tree by successful inserts on a device whose leaves and interior nodes
hold at least three keys: some leaf reachable through child pointer i of the
node holds an entry whose key equals separator key i of the node. -/
theorem reachable_separator_in_leaf (m : Machine) (keysize valuesize : Nat)
    (cache : BufferCache) (w : List (KEY_T × VALUE_T)) (t0 t : BTreeIndex)
    (hL : 3 ≤ leafCapacity m keysize valuesize cache.blocksize)
    (hI : 3 ≤ interiorCapacity m keysize cache.blocksize)
    (hN : cache.blocks.length ≤ 256 ^ m.sizeofSIZE_T)
    (hw : ∀ e ∈ w, e.1.length = keysize ∧ e.2.length = valuesize)
    (h0 : fresh m keysize valuesize cache = some t0) (hrun : runInserts m t0 w = some t)
    (j : Nat) (b : BTreeNode)
    (hr : Reach m t.buffercache.blocks t.superblock.info.rootnode j)
    (hb : t.buffercache.blocks[j]? = some b)
    (hty : b.info.nodetype = NodeType.BTREE_ROOT_NODE ∨
      b.info.nodetype = NodeType.BTREE_INTERIOR_NODE) :
    ∀ i, i < b.info.numkeys → ∃ p k, b.GetPtr m i = .ok p ∧ b.GetKey m i = .ok k ∧
      LeafKeyUnder m t.buffercache.blocks p k := by
  intro i hi
  rcases reached_node m keysize valuesize cache w t0 t hL hI hN hw h0 hrun j b hr hb hty with
    hz | ⟨c, h1, lo1, hi1, c1, o1, s1, hperm, hnode, hsub, hfull⟩
  · omega
  obtain ⟨q, hq⟩ := Node_ptr ⟨m, keysize, valuesize, cache.blocksize⟩ _ _ _ _ _ _ _ _ hnode b hb i
    (le_of_lt hi)
  obtain ⟨lo2, hi2, cc, oc, hchild, _, hcfull, hlo, hhi, hkey, _⟩ :=
    Node_child ⟨m, keysize, valuesize, cache.blocksize⟩ _ _ _ _ _ _ _ _ hnode b hb i q
      (le_of_lt hi) hq
  obtain ⟨k, hk, hhi2, habove⟩ := hkey hi
  obtain ⟨e, he, hek⟩ := (reached_sep m keysize valuesize cache w t0 t hL hI hN hw h0 hrun).1
    j b hb hty i k hi hk
  have hbelow : below k hi2 := by
    intro u hu
    rw [hhi2] at hu
    exact Or.inr (Option.some.inj hu)
  have hec : e ∈ c := hperm.symm.subset he
  have hec1 : e ∈ c1 := hfull e hec (by rw [hek]; exact hlo k habove)
    (by rw [hek]; exact hhi k hbelow)
  have hecc : e ∈ cc := hcfull e hec1 (by rw [hek]; exact habove) (by rw [hek]; exact hbelow)
  have := Node_mem_leaf ⟨m, keysize, valuesize, cache.blocksize⟩ _ _ _ _ _ _ _ _ hchild e hecc
  rw [hek] at this
  exact ⟨q, k, hq, hk, this⟩

/-- C27: with leaf capacity and interior capacity both at least 3, in every
state reached from a fresh tree by a workload of inserts that all returned
ERROR_NOERROR, every node reachable from the root has numkeys strictly below
the capacity of its node type, and no call of AddKeyVal made during the
workload started on a full node. -/
theorem nodes_below_capacity (m : Machine) (keysize valuesize : Nat)
    (cache : BufferCache) (w : List (KEY_T × VALUE_T)) (t0 t : BTreeIndex)
    (hL : 3 ≤ leafCapacity m keysize valuesize cache.blocksize)
    (hI : 3 ≤ interiorCapacity m keysize cache.blocksize)
    (hN : cache.blocks.length ≤ 256 ^ m.sizeofSIZE_T)
    (hw : ∀ e ∈ w, e.1.length = keysize ∧ e.2.length = valuesize)
    (h0 : fresh m keysize valuesize cache = some t0) (hrun : runInserts m t0 w = some t) :
    (∀ (j : Nat) (b : BTreeNode),
      Reach m t.buffercache.blocks t.superblock.info.rootnode j →
      t.buffercache.blocks[j]? = some b →
      (b.info.nodetype = NodeType.BTREE_LEAF_NODE →
        b.info.numkeys < leafCapacity m keysize valuesize cache.blocksize ∧
        b.info.numkeys < b.info.GetNumSlotsAsLeaf m) ∧
      ((b.info.nodetype = NodeType.BTREE_ROOT_NODE ∨
          b.info.nodetype = NodeType.BTREE_INTERIOR_NODE) →
        b.info.numkeys < interiorCapacity m keysize cache.blocksize ∧
        b.info.numkeys < b.info.GetNumSlotsAsInterior m)) ∧
    (runInsertsLog m t0 w).1 = some t ∧
    ∀ e ∈ (runInsertsLog m t0 w).2, e.2 = false := by
  obtain ⟨hs, hleaves, ⟨rb, hrb, hrty, _⟩, hints⟩ :=
    reached_blocks m keysize valuesize cache w t0 t hL (by omega) hN hw h0 hrun
  have htree0 := fresh_inv m keysize valuesize cache t0 h0 hN
  obtain ⟨c1, htree, _⟩ := runInserts_inv ⟨m, keysize, valuesize, cache.blocksize⟩ hL hI w t0 []
    t htree0 hw hrun
  have hrslack := TreeInv_root_slack ⟨m, keysize, valuesize, cache.blocksize⟩ (by
    show 1 ≤ interiorCapacity m keysize cache.blocksize
    omega) t c1 htree rb hrb
  have hrslack1 : rb.info.numkeys + 1 ≤ interiorCapacity m keysize cache.blocksize := hrslack
  refine ⟨?_, ?_, (reached_sep m keysize valuesize cache w t0 t hL hI hN hw h0 hrun).2⟩
  · intro j b _ hb
    constructor
    · intro hty
      obtain ⟨es, hl, _⟩ := hleaves j b hb hty
      have h1 : b.info.numkeys = es.length := hl.2.2.1
      have h2 : es.length + 1 ≤ leafCapacity m keysize valuesize cache.blocksize := hl.2.2.2.1
      have h3 := slots_leaf_of_hdr ⟨m, keysize, valuesize, cache.blocksize⟩ b hl.2.1
      have h4 : b.info.GetNumSlotsAsLeaf m
          = leafCapacity m keysize valuesize cache.blocksize := h3
      omega
    · intro hty
      by_cases hjr : j = t.superblock.info.rootnode
      · subst hjr
        have hbe : b = rb := by
          rw [hrb] at hb
          exact (Option.some.inj hb).symm
        subst hbe
        obtain ⟨hhdr, _⟩ : HdrOK ⟨m, keysize, valuesize, cache.blocksize⟩ b ∧ True := by
          obtain ⟨_, _, _, _, _, fl, hcase⟩ := htree
          rcases hcase with ⟨_, ⟨rb2, hrb2, _, hh, _⟩, _⟩ | ⟨h, o, _, hnode⟩
          · rw [hrb] at hrb2
            cases hrb2
            exact ⟨hh, trivial⟩
          · obtain ⟨b', p0, kps, o1, hb', hint, _⟩ := hnode
            rw [hrb] at hb'
            cases hb'
            exact ⟨hint.2.1, trivial⟩
        have h3 := slots_int_of_hdr ⟨m, keysize, valuesize, cache.blocksize⟩ b hhdr
        have h4 : b.info.GetNumSlotsAsInterior m = interiorCapacity m keysize cache.blocksize := h3
        omega
      · have hwk := fresh_weak m keysize valuesize cache t0 h0 hN (by omega)
        obtain ⟨ks1, hweak, _⟩ := runInserts_weak ⟨m, keysize, valuesize, cache.blocksize⟩ hL
          (by
            show 1 ≤ interiorCapacity m keysize cache.blocksize
            omega) w t0 [] t hwk hw hrun
        obtain ⟨_, _, _, _, _, ht, fl, rb2, _, _, _, _, _, hwbs, _⟩ := hweak
        have hwb := hwbs j b hb
        simp only [hjr, if_false] at hwb
        obtain ⟨_, hhdr, hcap, _⟩ := hwb.2 hty
        have h2 : b.info.numkeys + 1 ≤ interiorCapacity m keysize cache.blocksize := hcap
        have h3 := slots_int_of_hdr ⟨m, keysize, valuesize, cache.blocksize⟩ b hhdr
        have h4 : b.info.GetNumSlotsAsInterior m = interiorCapacity m keysize cache.blocksize := h3
        omega
  · rw [runInsertsLog_fst, hrun]


/-! ## Every tree node hangs below the root -/

theorem lastPtr_mem (k2 : List (KEY_T × Nat)) :
    ∀ (k1 : List (KEY_T × Nat)) (p0 : Nat), lastPtr p0 k1 ∈ kidsOf p0 (k1 ++ k2)
  | [], p0 => by simp [lastPtr, kidsOf]
  | (k, q) :: r, p0 => by
    have ih := lastPtr_mem k2 r q
    simp only [lastPtr, kidsOf, List.cons_append, List.map_cons, List.mem_cons] at ih ⊢
    exact Or.inr ih

theorem kid_of_ptr (g : Geom) (b : BTreeNode) (p0 : Nat) (kps : List (KEY_T × Nat)) (s : Nat)
    (h : IntAt g b p0 kps s) (i q : Nat) (hi : i ≤ b.info.numkeys)
    (hq : b.GetPtr g.m i = .ok q) : q ∈ kidsOf p0 kps := by
  have hnum : b.info.numkeys = kps.length := h.2.2.1
  have hlen : (kps.take i).length = i := by rw [List.length_take]; omega
  have h2 := h
  rw [← List.take_append_drop i kps] at h2
  have hptr := int_GetPtr_at g b p0 _ _ s h2
  rw [hlen, hq] at hptr
  have hq' : q = lastPtr p0 (kps.take i) := Except.ok.inj hptr
  have := lastPtr_mem (kps.drop i) (kps.take i) p0
  rw [List.take_append_drop] at this
  rw [hq']
  exact this

theorem ptr_of_kid (g : Geom) (b : BTreeNode) (p0 : Nat) (kps : List (KEY_T × Nat)) (s : Nat)
    (h : IntAt g b p0 kps s) (q : Nat) (hq : q ∈ kidsOf p0 kps) :
    ∃ i, i ≤ b.info.numkeys ∧ b.GetPtr g.m i = .ok q := by
  have hnum : b.info.numkeys = kps.length := h.2.2.1
  simp only [kidsOf, List.mem_cons, List.mem_map] at hq
  rcases hq with hq | ⟨e, he, heq⟩
  · refine ⟨0, Nat.zero_le _, ?_⟩
    rw [hq]
    exact int_GetPtr_zero g b p0 kps s h
  · obtain ⟨k1, k2, hsplit⟩ := List.append_of_mem he
    have h2 : IntAt g b p0 ((k1 ++ [e]) ++ k2) s := by
      rw [List.append_assoc]
      simpa [hsplit] using h
    have hptr := int_GetPtr_at g b p0 _ _ s h2
    rw [lastPtr_concat, heq] at hptr
    refine ⟨(k1 ++ [e]).length, ?_, hptr⟩
    rw [hnum, hsplit]
    simp

theorem kidsOf_split (p0 : Nat) (kl : List (KEY_T × Nat)) (e : KEY_T × Nat)
    (kr : List (KEY_T × Nat)) (p : Nat) (h : p ∈ kidsOf p0 (kl ++ e :: kr)) :
    p ∈ kidsOf p0 kl ∨ p ∈ kidsOf e.2 kr := by
  simp only [kidsOf, List.mem_cons, List.mem_map, List.mem_append] at h ⊢
  rcases h with h | ⟨a, ha | ha | ha, hap⟩
  · exact Or.inl (Or.inl h)
  · exact Or.inl (Or.inr ⟨a, ha, hap⟩)
  · exact Or.inr (Or.inl (by rw [← hap, ha]))
  · exact Or.inr (Or.inr ⟨a, ha, hap⟩)

theorem kidsOf_ins_old (pk : KEY_T) (x p0 : Nat) (kps : List (KEY_T × Nat)) (p : Nat)
    (h : p ∈ kidsOf p0 kps) : p ∈ kidsOf p0 (insSlot pk (pk, x) kps) := by
  simp only [kidsOf, List.mem_cons, List.mem_map] at h ⊢
  rcases h with h | ⟨a, ha, hap⟩
  · exact Or.inl h
  · exact Or.inr ⟨a, (mem_insSlot pk (pk, x) a kps).mpr (Or.inr ha), hap⟩

theorem kidsOf_ins_new (pk : KEY_T) (x p0 : Nat) (kps : List (KEY_T × Nat)) :
    x ∈ kidsOf p0 (insSlot pk (pk, x) kps) := by
  simp only [kidsOf, List.mem_cons, List.mem_map]
  exact Or.inr ⟨(pk, x), (mem_insSlot pk (pk, x) (pk, x) kps).mpr (Or.inl rfl), rfl⟩

theorem free_not_sep {dev : List BTreeNode} {head : Nat} {fl : List Nat}
    (hf : FreeChain dev head fl) {p : Nat} (hp : p ∈ fl) {bp : BTreeNode}
    (hbp : dev[p]? = some bp)
    (hty : bp.info.nodetype = NodeType.BTREE_ROOT_NODE ∨
      bp.info.nodetype = NodeType.BTREE_INTERIOR_NODE) : False := by
  obtain ⟨_, b, hb, htyb⟩ := FreeChain_mem _ _ _ hf p hp
  rw [hbp] at hb
  cases hb
  rw [htyb] at hty
  rcases hty with h | h <;> cases h

/-- SplitNode on a full node of a device whose tree nodes all have a parent:
afterwards every tree node but the new block has one. -/
theorem psplit (g : Geom) (hL : 3 ≤ g.capL) (hI : 3 ≤ g.capI) (ks : List KEY_T) (t : BTreeIndex)
    (hs : SuperOK t) (ht sl : Nat → Nat) (ptr : Nat) (b : BTreeNode)
    (hw : WBs g ks t.buffercache.blocks ht sl) (hsl : sl ptr = 0)
    (hb : t.buffercache.blocks[ptr]? = some b) (hd : hasData b.info.nodetype = true)
    (hsp : NeedToSplit g.m t ptr = true) (x : Nat) (xs : List Nat)
    (hf : FreeChain t.buffercache.blocks t.superblock.info.freelist (x :: xs))
    (r : Nat) (hpar : ParIn g.m t.buffercache.blocks r) (x1 : Nat) (pk : KEY_T) (t2 : BTreeIndex)
    (hsplit : SplitNode g.m t ptr [] = some (ERROR_T.ERROR_NOERROR, x1, pk, t2)) :
    ∀ (j : Nat) (c : BTreeNode), t2.buffercache.blocks[j]? = some c →
      hasData c.info.nodetype = true → j ≠ r → j ≠ x →
      ∃ (p : Nat) (bp : BTreeNode) (i : Nat), t2.buffercache.blocks[p]? = some bp ∧
        (bp.info.nodetype = NodeType.BTREE_ROOT_NODE ∨
          bp.info.nodetype = NodeType.BTREE_INTERIOR_NODE) ∧
        1 ≤ bp.info.numkeys ∧ i ≤ bp.info.numkeys ∧ bp.GetPtr g.m i = .ok j := by
  have hwb := hw ptr b hb
  rw [hsl] at hwb
  have hxfl : x ∈ x :: xs := List.mem_cons_self _ _
  -- the parent a node had before the split, when it is not the node split
  have hold : ∀ (t2 : BTreeIndex), SuperOK t2 →
      (∀ j, j ≠ 0 → j ≠ ptr → j ≠ x →
        t2.buffercache.blocks[j]? = t.buffercache.blocks[j]?) →
      ∀ (j : Nat) (c : BTreeNode), t2.buffercache.blocks[j]? = some c →
        hasData c.info.nodetype = true → j ≠ r → j ≠ x →
        ∃ (p : Nat) (bp : BTreeNode) (i : Nat), t.buffercache.blocks[p]? = some bp ∧
          (bp.info.nodetype = NodeType.BTREE_ROOT_NODE ∨
            bp.info.nodetype = NodeType.BTREE_INTERIOR_NODE) ∧
          1 ≤ bp.info.numkeys ∧ i ≤ bp.info.numkeys ∧ bp.GetPtr g.m i = .ok j ∧
          (p ≠ ptr → t2.buffercache.blocks[p]? = some bp) := by
    intro t2 hs2 hfr j c hc hcd hjr hjx
    have hj0 : j ≠ 0 := data_ne_zero hs2 hc hcd
    have hjl : Live t.buffercache.blocks j := by
      by_cases hjp : j = ptr
      · rw [hjp]; exact ⟨b, hb, hd⟩
      · exact ⟨c, by rw [← hfr j hj0 hjp hjx]; exact hc, hcd⟩
    obtain ⟨cj, hcj, hcjd⟩ := hjl
    obtain ⟨p, bp, i, hp, hpty, hpn, hi, hq⟩ := hpar j cj hcj hcjd hjr
    refine ⟨p, bp, i, hp, hpty, hpn, hi, hq, ?_⟩
    intro hpp
    have hp0 : p ≠ 0 := fun h0 => super_not_sep hs (h0 ▸ hp) hpty
    have hpx : p ≠ x := fun hx => free_not_sep hf hxfl (hx ▸ hp) hpty
    rw [hfr p hp0 hpp hpx]
    exact hp
  rcases node_type_cases b hd with hty | hty
  · -- a leaf
    obtain ⟨hh0, es, hl, hes⟩ := hwb.1 hty
    rw [NeedToSplit_leaf g t ptr b es 0 hb hl] at hsp
    have hfull : es.length = g.capL := by
      have : g.capL = es.length := by simpa using hsp
      exact this.symm
    obtain ⟨t2', bl, br, el, e, er, heq, hes', her, hbl, hbr, hll, hlr, hkeep, hf2, hfr⟩ :=
      SplitNode_leaf g t hs ptr b es hb hl hfull hL x xs hf []
    rw [heq] at hsplit
    simp only [Option.some.injEq, Prod.mk.injEq, true_and] at hsplit
    obtain ⟨_, hpk, ht2⟩ := hsplit
    subst hpk ht2
    intro j c hc hcd hjr hjx
    obtain ⟨p, bp, i, hp, hpty, hpn, hi, hq, hkeepp⟩ := hold t2' hkeep.1 hfr j c hc hcd hjr hjx
    have hpp : p ≠ ptr := by
      rintro rfl
      rw [hb] at hp
      cases hp
      exact not_sep_type hty hpty
    exact ⟨p, bp, i, hkeepp hpp, hpty, hpn, hi, hq⟩
  · -- a root or interior node
    obtain ⟨hh1, hhdr, hcap, hk⟩ := hwb.2 hty
    have hnum : b.info.numkeys = g.capI := by
      unfold NeedToSplit at hsp
      rw [Unserialize_data _ _ _ _ hb hd] at hsp
      have : g.capI = b.info.numkeys := by
        rcases hty with hty | hty <;>
          simpa only [hty, slots_int_of_hdr g b hhdr, decide_eq_true_eq] using hsp
      exact this.symm
    rcases hk with hz | ⟨p0, kps, hne, hint, hkids⟩
    · omega
    have hfull : kps.length = g.capI := by rw [← hint.2.2.1]; exact hnum
    obtain ⟨t2', bl, br, kl, e, kr, heq, hkpse, hkll, hbl, hbr, hil, htl, htr, hhr, hnr, hir,
      hkeep, hf2, hfr⟩ := SplitNode_int_any g t hs ptr b p0 kps hb hint hfull (by omega) x xs hf []
    rw [heq] at hsplit
    simp only [Option.some.injEq, Prod.mk.injEq, true_and] at hsplit
    obtain ⟨_, hpk, ht2⟩ := hsplit
    subst hpk ht2
    have hlen : kl.length + 1 + kr.length = kps.length := by
      have := congrArg List.length hkpse
      simp only [List.length_append, List.length_cons] at this
      omega
    have hkl1 : 1 ≤ kl.length := by
      rw [hkll, hfull]
      omega
    have hkr1 : 1 ≤ kr.length := by
      rw [hkll, hfull] at hlen
      omega
    have hkr : kr ≠ [] := by
      intro h0
      rw [h0] at hkr1
      simp at hkr1
    intro j c hc hcd hjr hjx
    obtain ⟨p, bp, i, hp, hpty, hpn, hi, hq, hkeepp⟩ := hold t2' hkeep.1 hfr j c hc hcd hjr hjx
    by_cases hpp : p = ptr
    · subst hpp
      have hbe : bp = b := by
        rw [hb] at hp
        exact (Option.some.inj hp).symm
      rw [hbe] at hi hq
      have hmem := kid_of_ptr g b p0 kps 0 hint i j hi hq
      rw [hkpse] at hmem
      rcases kidsOf_split p0 kl e kr j hmem with h1 | h1
      · obtain ⟨i', hi', hq'⟩ := ptr_of_kid g bl p0 kl 1 hil j h1
        exact ⟨p, bl, i', hbl, hil.1, by rw [hil.2.2.1]; exact hkl1, hi', hq'⟩
      · obtain ⟨i', hi', hq'⟩ := ptr_of_kid g br e.2 kr 1 (hir hkr) j h1
        exact ⟨x, br, i', hbr, (hir hkr).1, by rw [hnr]; exact hkr1, hi', hq'⟩
    · exact ⟨p, bp, i, hkeepp hpp, hpty, hpn, hi, hq⟩


/-- The descent of an insert on a device of well-formed blocks whose tree
nodes all have a parent: after a successful descent they still have. -/
theorem pdescent (g : Geom) (hL : 3 ≤ g.capL) (hI : 3 ≤ g.capI) (key : KEY_T) (v : VALUE_T)
    (hkey : key.length = g.keysize) (hv : v.length = g.valuesize) (ks : List KEY_T) (r : Nat) :
    ∀ (h fuel : Nat) (t : BTreeIndex) (ht : Nat → Nat) (blk parent : Nat) (fl : List Nat),
      h < fuel → SuperOK t → t.buffercache.blocks.length ≤ 256 ^ g.P →
      FreeChain t.buffercache.blocks t.superblock.info.freelist fl →
      WBs g ks t.buffercache.blocks ht (fun _ => 1) →
      Live t.buffercache.blocks blk → ht blk = h →
      ParIn g.m t.buffercache.blocks r →
      ∀ t1, SearchInternal2 g.m fuel t blk key v parent = some (ERROR_T.ERROR_NOERROR, t1) →
        ParIn g.m t1.buffercache.blocks r := by
  have hI1 : 1 ≤ g.capI := by omega
  intro h
  induction h with
  | zero =>
    intro fuel t ht blk parent fl hf hs hN hfl hw hlive hh hpar t1 hrun
    obtain ⟨f, rfl⟩ : ∃ f, fuel = f + 1 := ⟨fuel - 1, by omega⟩
    obtain ⟨b, hb, hd⟩ := hlive
    have hu := Unserialize_data BTreeNode.default t.buffercache blk b hb hd
    have hwb := hw blk b hb
    have hty : b.info.nodetype = NodeType.BTREE_LEAF_NODE := by
      rcases node_type_cases b hd with hty | hty
      · exact hty
      · have := (hwb.2 hty).1; omega
    obtain ⟨_, es, hl, hes⟩ := hwb.1 hty
    obtain ⟨b', hadd, hl'⟩ := AddKeyVal_leaf g t blk b es key v 0 hb hl hkey hv
    have hlt := lt_length_of_getElem? hb
    rw [SearchInternal2_leaf g.m f t blk key v parent b hu hty, hadd] at hrun
    simp only [Option.some.injEq, Prod.mk.injEq, true_and] at hrun
    subst hrun
    have hother : ∀ j, j ≠ blk →
        (t.put blk b').buffercache.blocks[j]? = t.buffercache.blocks[j]? := by
      intro j hj
      show (t.buffercache.blocks.set blk b')[j]? = _
      rw [List.getElem?_set_ne (Ne.symm hj)]
    intro j c hc hcd hjr
    have hjl : Live t.buffercache.blocks j := by
      by_cases hjb : j = blk
      · rw [hjb]; exact ⟨b, hb, hd⟩
      · exact ⟨c, by rw [← hother j hjb]; exact hc, hcd⟩
    obtain ⟨cj, hcj, hcjd⟩ := hjl
    obtain ⟨p, bp, i, hp, hpty, hpn, hi, hq⟩ := hpar j cj hcj hcjd hjr
    have hpb : p ≠ blk := by
      rintro rfl
      rw [hb] at hp
      cases hp
      exact not_sep_type hty hpty
    exact ⟨p, bp, i, by rw [hother p hpb]; exact hp, hpty, hpn, hi, hq⟩
  | succ h ih =>
    intro fuel t ht blk parent fl hf hs hN hfl hw hlive hh hpar t3 hrun3
    obtain ⟨f, rfl⟩ : ∃ f, fuel = f + 1 := ⟨fuel - 1, by omega⟩
    obtain ⟨b, hb, hd⟩ := hlive
    have hu := Unserialize_data BTreeNode.default t.buffercache blk b hb hd
    have hwb := hw blk b hb
    have hty : b.info.nodetype = NodeType.BTREE_ROOT_NODE ∨
        b.info.nodetype = NodeType.BTREE_INTERIOR_NODE := by
      rcases node_type_cases b hd with hty | hty
      · have := (hwb.1 hty).1; omega
      · exact hty
    obtain ⟨_, hhdr, hcap, hk⟩ := hwb.2 hty
    have hblk0 : blk ≠ 0 := data_ne_zero hs hb hd
    rcases hk with hz | ⟨p0, kps, hne, hint, hkids⟩
    · exfalso
      rw [SearchInternal2, hu] at hrun3
      rcases hty with hty | hty <;>
        simp only [hty, pickChild_empty g.m b key hz, Option.some.injEq, Prod.mk.injEq] at hrun3 <;>
        exact absurd hrun3.1 (by simp)
    have hne1 : 1 ≤ kps.length := by
      cases kps with
      | nil => exact absurd rfl hne
      | cons a r => simp
    have hp := pickChild_spec g b p0 1 kps key hint hne1
    obtain ⟨hlp, hhp⟩ := hkids _ (pick_mem key kps p0)
    have hhp' : ht (pick key p0 kps) = h := by omega
    obtain ⟨hstepA, hstepB⟩ := SearchInternal2_int g.m f t blk key v parent b _ hu hty hp
    have ihpar := ih f t ht (pick key p0 kps) blk fl (by omega) hs hN hfl hw hlp hhp' hpar
    rcases wdescent g hL hI1 key v hkey hv ks h f t ht (pick key p0 kps) blk fl (by omega) hs hN
        hfl hw hlp hhp' with
      ⟨t1, ht1, fl', hrun, hfl1, hlen1, hw1, _, hE1, hF1⟩ | ⟨rc, t1, hrun, hrc, _, hF1⟩
    swap
    · exfalso
      rw [hstepB rc t1 hrun hrc] at hrun3
      simp only [Option.some.injEq, Prod.mk.injEq] at hrun3
      exact hrc hrun3.1
    have hpar1 := ihpar t1 hrun
    have hkeep1 := SearchInternal2_keeps g.m f t hs _ key v blk _ t1 hrun
    have hs1 : SuperOK t1 := hkeep1.1
    have hb1 : t1.buffercache.blocks[blk]? = some b := by
      rw [hF1 blk ⟨b, hb, hd⟩ (by omega)]; exact hb
    have hptrblk : pick key p0 kps ≠ blk := by
      intro he
      rw [he] at hhp'
      omega
    obtain ⟨hlp1, hhp1⟩ := hE1 _ hlp
    obtain ⟨c1, hc1, hcd1⟩ := hlp1
    rw [hstepA t1 hrun] at hrun3
    by_cases hsp : NeedToSplit g.m t1 (pick key p0 kps) = true
    swap
    · -- the child is not full
      have hsp' : NeedToSplit g.m t1 (pick key p0 kps) = false := by
        cases hx : NeedToSplit g.m t1 (pick key p0 kps)
        · rfl
        · exact absurd hx hsp
      unfold splitChild at hrun3
      simp only [hsp', Bool.false_eq_true, if_false, Option.some.injEq, Prod.mk.injEq,
        true_and] at hrun3
      subst hrun3
      exact hpar1
    · -- the child is full
      cases fl' with
      | nil =>
        exfalso
        have hhead : t1.superblock.info.freelist = 0 := hfl1
        unfold splitChild at hrun3
        simp only [hsp, if_true] at hrun3
        unfold SplitNode at hrun3
        simp only [AllocateNode_nospace t1 hhead, Option.some.injEq, Prod.mk.injEq] at hrun3
        exact absurd hrun3.1 (by simp)
      | cons x xs =>
        obtain ⟨t2, pk, bl, br, hsplit, hpkl, hkeep2, hfl2, hbl, hbr, htl, htr, _, hw2, hE2,
          hfr2⟩ := wsplit g hL hI1 (key :: ks) t1 hs1 ht1 _ (pick key p0 kps) c1 hw1
            (by simp) hc1 hcd1 hsp x xs hfl1
        have hpar2 := psplit g hL hI (key :: ks) t1 hs1 ht1 _ (pick key p0 kps) c1 hw1
          (by simp) hc1 hcd1 hsp x xs hfl1 r hpar1 x pk t2 hsplit
        have hxl1 : ¬ Live t1.buffercache.blocks x :=
          fun hl => Live_not_free hfl1 hl (List.mem_cons_self _ _)
        have hxblk : blk ≠ x := fun he => hxl1 (he ▸ ⟨b, hb1, hd⟩)
        have hxlt : x < t1.buffercache.blocks.length := by
          obtain ⟨_, bx, hbx, _⟩ := FreeChain_mem _ _ _ hfl1 x (List.mem_cons_self _ _)
          exact lt_length_of_getElem? hbx
        have hx256 : x < 256 ^ g.P := by
          have := hkeep1.2.2.1
          omega
        have hb2 : t2.buffercache.blocks[blk]? = some b := by
          rw [hfr2 blk hblk0 (Ne.symm hptrblk) hxblk]; exact hb1
        obtain ⟨b', hadd, hint', hty'⟩ := AddKeyVal_int g t2 blk b p0 kps pk x hb2 hint hne1
          hpkl hx256
        have hlt2 := lt_length_of_getElem? hb2
        unfold splitChild at hrun3
        simp only [hsp, if_true, hsplit, hadd, Option.some.injEq, Prod.mk.injEq,
          true_and] at hrun3
        subst hrun3
        have hself : (t2.put blk b').buffercache.blocks[blk]? = some b' := by
          show (t2.buffercache.blocks.set blk b')[blk]? = some b'
          rw [List.getElem?_set_self hlt2]
        have hother : ∀ j, j ≠ blk →
            (t2.put blk b').buffercache.blocks[j]? = t2.buffercache.blocks[j]? := by
          intro j hj
          show (t2.buffercache.blocks.set blk b')[j]? = _
          rw [List.getElem?_set_ne (Ne.symm hj)]
        have hnum' : 1 ≤ b'.info.numkeys := by
          rw [hint'.2.2.1, length_insSlot]
          omega
        intro j c hc hcd hjr
        by_cases hjx : j = x
        · obtain ⟨i', hi', hq'⟩ := ptr_of_kid g b' p0 _ 0 hint' x (kidsOf_ins_new pk x p0 kps)
          rw [hjx]
          exact ⟨blk, b', i', hself, hint'.1, hnum', hi', hq'⟩
        · have hjl : Live t2.buffercache.blocks j := by
            by_cases hjb : j = blk
            · rw [hjb]; exact ⟨b, hb2, hd⟩
            · exact ⟨c, by rw [← hother j hjb]; exact hc, hcd⟩
          obtain ⟨cj, hcj, hcjd⟩ := hjl
          obtain ⟨p, bp, i, hp2, hpty, hpn, hi, hq⟩ := hpar2 j cj hcj hcjd hjr hjx
          by_cases hpb : p = blk
          · have hbe : bp = b := by
              rw [hpb, hb2] at hp2
              exact (Option.some.inj hp2).symm
            rw [hbe] at hi hq
            have hmem := kid_of_ptr g b p0 kps 1 hint i j hi hq
            obtain ⟨i', hi', hq'⟩ := ptr_of_kid g b' p0 _ 0 hint' j
              (kidsOf_ins_old pk x p0 kps j hmem)
            exact ⟨blk, b', i', hself, hint'.1, hnum', hi', hq'⟩
          · exact ⟨p, bp, i, by rw [hother p hpb]; exact hp2, hpty, hpn, hi, hq⟩

/-- The root split on a device whose tree nodes all have a parent: afterwards
every tree node but the new root has one. -/
theorem psplitRoot (g : Geom) (hL : 3 ≤ g.capL) (hI : 3 ≤ g.capI) (ks : List KEY_T)
    (t1 : BTreeIndex) (hs1 : SuperOK t1) (hN : t1.buffercache.blocks.length ≤ 256 ^ g.P)
    (ht : Nat → Nat) (fl : List Nat) (b : BTreeNode)
    (hb : t1.buffercache.blocks[t1.superblock.info.rootnode]? = some b)
    (hty : b.info.nodetype = NodeType.BTREE_ROOT_NODE ∨
      b.info.nodetype = NodeType.BTREE_INTERIOR_NODE)
    (hw : WBs g ks t1.buffercache.blocks ht
      (fun j => if j = t1.superblock.info.rootnode then 0 else 1))
    (hsp : NeedToSplit g.m t1 t1.superblock.info.rootnode = true)
    (hfl : FreeChain t1.buffercache.blocks t1.superblock.info.freelist fl)
    (rootObj : BTreeNode)
    (hroty : rootObj.info.nodetype = NodeType.BTREE_ROOT_NODE ∨
      rootObj.info.nodetype = NodeType.BTREE_INTERIOR_NODE)
    (hrohdr : HdrOK g rootObj)
    (hpar : ParIn g.m t1.buffercache.blocks t1.superblock.info.rootnode) (t3 : BTreeIndex)
    (hrun : splitRoot g.m t1 rootObj t1.superblock.info.rootnode
      = some (ERROR_T.ERROR_NOERROR, t3)) :
    ParIn g.m t3.buffercache.blocks t3.superblock.info.rootnode := by
  have hI1 : 1 ≤ g.capI := by omega
  have hd : hasData b.info.nodetype = true := by rcases hty with h | h <;> rw [h] <;> rfl
  have hr0 : t1.superblock.info.rootnode ≠ 0 := data_ne_zero hs1 hb hd
  have hrlt : t1.superblock.info.rootnode < t1.buffercache.blocks.length :=
    lt_length_of_getElem? hb
  have hshort : ∀ n, fl.length = n → n < 2 → False := by
    intro n hn hlt
    rcases wsplitRoot g hL hI1 ks t1 hs1 hN ht fl b hb hty hw hsp hfl rootObj hroty hrohdr with
      ⟨rc2, t2, hsr, hrc2⟩ | ⟨t2, ht2, fl', b4, hsr, _, _, _, _, _, _, hlen, _⟩
    · rw [hsr] at hrun
      simp only [Option.some.injEq, Prod.mk.injEq] at hrun
      exact hrc2 hrun.1
    · omega
  cases fl with
  | nil => exact absurd (hshort 0 rfl (by omega)) id
  | cons x fl1 =>
    cases fl1 with
    | nil => exact absurd (hshort 1 rfl (by omega)) id
    | cons y ys =>
      obtain ⟨t2, pk, bl, br, hsplit, hpkl, hkeep2, hfl2, hbl, hbr, htl, htr, hnums, hw2, hE2,
        hfr2⟩ := wsplit g hL hI1 ks t1 hs1 ht _ t1.superblock.info.rootnode b hw (by simp) hb hd
          hsp x (y :: ys) hfl
      have hpar2 := psplit g hL hI ks t1 hs1 ht _ t1.superblock.info.rootnode b hw
        (by simp) hb hd hsp x (y :: ys) hfl t1.superblock.info.rootnode hpar x pk t2 hsplit
      have hs2 : SuperOK t2 := hkeep2.1
      have hdl : hasData bl.info.nodetype = true := by rw [htl]; exact hd
      have hdr : hasData br.info.nodetype = true := by rw [htr]; exact hd
      have hre1 := reserialize_same (BTreeNode.mk4 g.m NodeType.BTREE_INTERIOR_NODE
        t2.superblock.info.keysize t2.superblock.info.valuesize t2.buffercache.blocksize)
        t2.buffercache _ bl hbl hdl
      have hre2 := reserialize_same ((BTreeNode.mk4 g.m NodeType.BTREE_INTERIOR_NODE
        t2.superblock.info.keysize t2.superblock.info.valuesize
        t2.buffercache.blocksize).Unserialize t2.buffercache t1.superblock.info.rootnode).2
        t2.buffercache _ br hbr hdr
      have heta : ({ t2 with buffercache := t2.buffercache } : BTreeIndex) = t2 := rfl
      have hxfl : x ∈ x :: y :: ys := List.mem_cons_self _ _
      have hxlt : x < t1.buffercache.blocks.length := by
        obtain ⟨_, bx, hbx, _⟩ := FreeChain_mem _ _ _ hfl x hxfl
        exact lt_length_of_getElem? hbx
      obtain ⟨t4, ha4, hs4, hroot4, hlen4, hbs4, hks4, hvs4, hf4, hfr4, hy0, hyn, hylt⟩ :=
        AllocateNode_spec t2 hs2 y ys true hfl2
      simp only [if_true] at hroot4
      obtain ⟨hroot4I, hinfo4⟩ := fillRoot_any g (rootObj.withNumkeys 1) hroty hrohdr 0
        (by omega) rfl pk t1.superblock.info.rootnode x hpkl (by omega) (by omega)
      obtain ⟨root4, hroot4def⟩ : ∃ root4, root4
        = fillRoot g.m (rootObj.withNumkeys 1) pk t1.superblock.info.rootnode x := ⟨_, rfl⟩
      rw [← hroot4def] at hroot4I hinfo4
      have hylt4 : y < t4.buffercache.blocks.length := by rw [hlen4]; exact hylt
      obtain ⟨tf, htf⟩ : ∃ tf : BTreeIndex, tf = { t4 with buffercache := { t4.buffercache with
        blocks := t4.buffercache.blocks.set y root4 } } := ⟨_, rfl⟩
      have hdevf : tf.buffercache.blocks = t4.buffercache.blocks.set y root4 := by rw [htf]
      have hrootf : tf.superblock.info.rootnode = y := by rw [htf]; exact hroot4
      have heq : splitRoot g.m t1 rootObj t1.superblock.info.rootnode
          = some (ERROR_T.ERROR_NOERROR, tf) := by
        unfold splitRoot
        simp only [hsplit, hre1, hre2, heta, ha4, ← hroot4def, hroot4]
        rw [Serialize_data root4 _ _ hylt4 hroot4I.nodeHasData, htf]
      rw [heq] at hrun
      simp only [Option.some.injEq, Prod.mk.injEq, true_and] at hrun
      subst hrun
      have hframe : ∀ j, j ≠ 0 → j ≠ y →
          tf.buffercache.blocks[j]? = t2.buffercache.blocks[j]? := by
        intro j h0 h1
        rw [hdevf, List.getElem?_set_ne (Ne.symm h1), hfr4 j h0]
      have hsf0 : tf.buffercache.blocks[0]? = t4.buffercache.blocks[0]? := by
        rw [hdevf, List.getElem?_set_ne hy0]
      have hselff : tf.buffercache.blocks[y]? = some root4 := by
        rw [hdevf, List.getElem?_set_self hylt4]
      have hnum4 : 1 ≤ root4.info.numkeys := by
        rw [hroot4I.2.2.1]
        simp
      rw [hrootf]
      intro j c hc hcd hjy
      have hj0 : j ≠ 0 := by
        rintro rfl
        rw [hsf0, hs4.2.2.2] at hc
        cases hc
        rw [hs4.2.1] at hcd
        cases hcd
      by_cases hjr : j = t1.superblock.info.rootnode
      · obtain ⟨i', hi', hq'⟩ := ptr_of_kid g root4 _ _ 0 hroot4I t1.superblock.info.rootnode
          (by simp [kidsOf])
        rw [hjr]
        exact ⟨y, root4, i', hselff, hroot4I.1, hnum4, hi', hq'⟩
      · by_cases hjx : j = x
        · obtain ⟨i', hi', hq'⟩ := ptr_of_kid g root4 _ _ 0 hroot4I x (by simp [kidsOf])
          rw [hjx]
          exact ⟨y, root4, i', hselff, hroot4I.1, hnum4, hi', hq'⟩
        · have hc2 : t2.buffercache.blocks[j]? = some c := by
            rw [← hframe j hj0 hjy]; exact hc
          obtain ⟨p, bp, i, hp2, hpty, hpn, hi, hq⟩ := hpar2 j c hc2 hcd hjr hjx
          have hp0 : p ≠ 0 := fun h0 => super_not_sep hs2 (h0 ▸ hp2) hpty
          have hpy : p ≠ y := fun h1 =>
            free_not_sep hfl2 (List.mem_cons_self _ _) (h1 ▸ hp2) hpty
          exact ⟨p, bp, i, by rw [hframe p hp0 hpy]; exact hp2, hpty, hpn, hi, hq⟩

/-- Insert on a well-formed tree whose tree nodes all have a parent: after a
successful insert they still have. -/
theorem pinsert (g : Geom) (hL : 3 ≤ g.capL) (hI : 3 ≤ g.capI) (t : BTreeIndex)
    (ks : List KEY_T) (key : KEY_T) (v : VALUE_T) (hkey : key.length = g.keysize)
    (hv : v.length = g.valuesize) (hinv : WeakInv g t ks)
    (hslack : ∀ b, t.buffercache.blocks[t.superblock.info.rootnode]? = some b →
      b.info.numkeys + 1 ≤ g.capI)
    (hpar : ParIn g.m t.buffercache.blocks t.superblock.info.rootnode) (t1 : BTreeIndex)
    (hins : BTreeIndex.Insert g.m t key v = some (ERROR_T.ERROR_NOERROR, t1)) :
    ParIn g.m t1.buffercache.blocks t1.superblock.info.rootnode := by
  have hI1 : 1 ≤ g.capI := by omega
  obtain ⟨hs, hks, hvs, hbs, hN, ht, fl, b, hb, hty, hfree, hbound, hfresh, hw, hroot⟩ := hinv
  have hd : hasData b.info.nodetype = true := by rcases hty with h | h <;> rw [h] <;> rfl
  have hu := Unserialize_data BTreeNode.default t.buffercache _ b hb hd
  have hwb := hw _ b hb
  simp only [if_true] at hwb
  obtain ⟨hh1, hhdr, hcap0, hk⟩ := hwb.2 hty
  have hr0 : t.superblock.info.rootnode ≠ 0 := data_ne_zero hs hb hd
  have hNpos : 1 ≤ t.buffercache.blocks.length := by
    have := lt_length_of_getElem? hb
    omega
  have hsl := hslack b hb
  unfold BTreeIndex.Insert at hins
  simp only [hu] at hins
  by_cases hnum : b.info.numkeys = 0
  · -- the root has no key
    rw [if_pos hnum] at hins
    rcases wbootstrap g hI1 (by omega) t hs hks hvs hbs hN fl b hb hty hhdr hnum
        (hfree.imp id (fun h => h.2)) key hkey with
      ⟨rc, r, tb, hboot, hrc⟩ |
      ⟨tb, root4, x1, x2, fl', leaf, hboot, hkeepb, hfleq, hfc, hbr, hroot4, hb1, hb2, hleaf,
        hx12, hfcb, hfrb⟩
    · exfalso
      rw [hboot] at hins
      cases rc <;> first | exact absurd rfl hrc | simp at hins
    rw [hboot] at hins
    simp only at hins
    have hlk : ∃ val, Lookup g.m tb key = some (ERROR_T.ERROR_NONEXISTENT, val) := by
      cases hl : Lookup g.m tb key with
      | none => rw [hl] at hins; simp at hins
      | some r =>
        obtain ⟨rc, val⟩ := r
        rw [hl] at hins
        cases rc <;> first | exact ⟨val, rfl⟩ | simp at hins
    obtain ⟨val, hlk⟩ := hlk
    rw [hlk] at hins
    simp only at hins
    have hrootb : tb.superblock.info.rootnode = t.superblock.info.rootnode := hkeepb.2.1
    have hx1fl : x1 ∈ fl := by rw [hfleq]; simp
    have hx2fl : x2 ∈ fl := by rw [hfleq]; simp
    have hx1l : ¬ Live t.buffercache.blocks x1 := fun hl => Live_not_free hfc hl hx1fl
    have hx2l : ¬ Live t.buffercache.blocks x2 := fun hl => Live_not_free hfc hl hx2fl
    have hx1r : x1 ≠ t.superblock.info.rootnode := fun he => hx1l (he ▸ ⟨b, hb, hd⟩)
    have hx2r : x2 ≠ t.superblock.info.rootnode := fun he => hx2l (he ▸ ⟨b, hb, hd⟩)
    have hu4 := Unserialize_data BTreeNode.default tb.buffercache _ root4 hbr hroot4.nodeHasData
    have hul := Unserialize_data BTreeNode.default tb.buffercache _ leaf hb1 hleaf.leafHasData
    obtain ⟨leaf', hadd, hl'⟩ := AddKeyVal_leaf g tb x1 leaf [] key v 0 hb1 hleaf hkey hv
    have hl1 : LeafAt g leaf' [(key, v)] 0 := hl'
    have hpick : pickChild g.m root4 key = .ok x1 := by
      have := pickChild_spec g root4 x1 0 [(key, x2)] key hroot4 (by simp)
      simpa [pick] using this
    have hlt1 := lt_length_of_getElem? hb1
    have hself : (tb.put x1 leaf').buffercache.blocks[x1]? = some leaf' := by
      show (tb.buffercache.blocks.set x1 leaf')[x1]? = some leaf'
      rw [List.getElem?_set_self hlt1]
    have hother : ∀ j, j ≠ x1 →
        (tb.put x1 leaf').buffercache.blocks[j]? = tb.buffercache.blocks[j]? := by
      intro j hj
      show (tb.buffercache.blocks.set x1 leaf')[j]? = _
      rw [List.getElem?_set_ne (Ne.symm hj)]
    have hnsl : NeedToSplit g.m (tb.put x1 leaf') x1 = false := by
      rw [NeedToSplit_leaf g (tb.put x1 leaf') x1 leaf' _ 0 hself hl1]
      simp only [List.length_singleton, decide_eq_false_iff_not]
      omega
    have hlenb : tb.buffercache.blocks.length = t.buffercache.blocks.length := hkeepb.2.2.1
    obtain ⟨f, hf⟩ : ∃ f, depthBound tb = f + 1 + 1 :=
      ⟨tb.buffercache.blocks.length - 1, by unfold depthBound; omega⟩
    have hchild : SearchInternal2 g.m (f + 1) tb x1 key v t.superblock.info.rootnode
        = some (ERROR_T.ERROR_NOERROR, tb.put x1 leaf') := by
      rw [SearchInternal2_leaf g.m f tb x1 key v _ leaf hul hleaf.1, hadd]
    have hrun : SearchInternal2 g.m (depthBound tb) tb tb.superblock.info.rootnode key v
        tb.superblock.info.rootnode = some (ERROR_T.ERROR_NOERROR, tb.put x1 leaf') := by
      rw [hf, hrootb]
      obtain ⟨hstepA, _⟩ := SearchInternal2_int g.m (f + 1) tb t.superblock.info.rootnode key v
        t.superblock.info.rootnode root4 x1 hu4 hroot4.1 hpick
      rw [hstepA (tb.put x1 leaf') hchild]
      unfold splitChild
      simp only [hnsl, Bool.false_eq_true, if_false]
    have hbrs : (tb.put x1 leaf').buffercache.blocks[t.superblock.info.rootnode]? = some root4 := by
      rw [hother _ (Ne.symm hx1r)]; exact hbr
    have hroots : (tb.put x1 leaf').superblock.info.rootnode = t.superblock.info.rootnode :=
      hrootb
    rw [hrun] at hins
    simp only at hins
    have hnsr : NeedToSplit g.m (tb.put x1 leaf') (tb.put x1 leaf').superblock.info.rootnode
        = false := by
      rw [hroots, NeedToSplit_int g (tb.put x1 leaf') _ root4 x1 [(key, x2)] 0 hbrs hroot4]
      simp only [List.length_singleton, decide_eq_false_iff_not]
      omega
    rw [hnsr] at hins
    simp only [Bool.false_eq_true, if_false, Option.some.injEq, Prod.mk.injEq, true_and] at hins
    subst hins
    have hkt := hkeepb.trans (by
      have := AddKeyVal_keeps g.m tb hkeepb.1 x1 key v 0
      rw [hadd] at this
      exact this : Keeps tb (tb.put x1 leaf'))
    have hnum4 : 1 ≤ root4.info.numkeys := by
      rw [hroot4.2.2.1]
      simp
    rw [hroots]
    intro j c hc hcd hjr
    by_cases hj1 : j = x1
    · obtain ⟨i', hi', hq'⟩ := ptr_of_kid g root4 _ _ 0 hroot4 x1 (by simp [kidsOf])
      rw [hj1]
      exact ⟨_, root4, i', hbrs, hroot4.1, hnum4, hi', hq'⟩
    · by_cases hj2 : j = x2
      · obtain ⟨i', hi', hq'⟩ := ptr_of_kid g root4 _ _ 0 hroot4 x2 (by simp [kidsOf])
        rw [hj2]
        exact ⟨_, root4, i', hbrs, hroot4.1, hnum4, hi', hq'⟩
      · have hj0 : j ≠ 0 := data_ne_zero hkt.1 hc hcd
        have hct : t.buffercache.blocks[j]? = some c := by
          rw [← hfrb j hj0 hj1 hj2 hjr, ← hother j hj1]; exact hc
        obtain ⟨p, bp, i, hp, hpty, hpn, hi, hq⟩ := hpar j c hct hcd hjr
        have hp0 : p ≠ 0 := fun h0 => super_not_sep hs (h0 ▸ hp) hpty
        have hp1 : p ≠ x1 := fun h1 => free_not_sep hfc hx1fl (h1 ▸ hp) hpty
        have hp2 : p ≠ x2 := fun h1 => free_not_sep hfc hx2fl (h1 ▸ hp) hpty
        have hpr : p ≠ t.superblock.info.rootnode := by
          rintro rfl
          rw [hb] at hp
          cases hp
          omega
        exact ⟨p, bp, i, by rw [hother p hp1, hfrb p hp0 hp1 hp2 hpr]; exact hp, hpty, hpn, hi,
          hq⟩
  · -- the root has keys
    rw [if_neg hnum] at hins
    simp only at hins
    have hfc : FreeChain t.buffercache.blocks t.superblock.info.freelist fl := by
      rcases hfree with h | h
      · exact h
      · exact absurd h.1 hnum
    have hw' : WBs g ks t.buffercache.blocks ht (fun _ => 1) := by
      intro j c hc
      by_cases hjr : j = t.superblock.info.rootnode
      · subst hjr
        rw [hb] at hc
        cases hc
        exact WB_int_slack hwb hty hsl
      · have := hw j c hc
        simpa only [hjr, if_false] using this
    have hfuel : ht t.superblock.info.rootnode < depthBound t := by unfold depthBound; omega
    have hlk : ∃ val, Lookup g.m t key = some (ERROR_T.ERROR_NONEXISTENT, val) := by
      cases hl : Lookup g.m t key with
      | none => rw [hl] at hins; simp at hins
      | some r =>
        obtain ⟨rc, val⟩ := r
        rw [hl] at hins
        cases rc <;> first | exact ⟨val, rfl⟩ | simp at hins
    obtain ⟨val, hlk⟩ := hlk
    rw [hlk] at hins
    simp only at hins
    rcases wdescent g hL hI1 key v hkey hv ks (ht t.superblock.info.rootnode) (depthBound t) t ht
        t.superblock.info.rootnode t.superblock.info.rootnode fl hfuel hs hN hfc hw'
        ⟨b, hb, hd⟩ rfl with
      ⟨ts, ht1, fl', hrun, hfl1, hlen1, hw1, hnum1, hE1, _⟩ | ⟨rc, ts, hrun, hrc, hblk, _⟩
    · have hpars := pdescent g hL hI key v hkey hv ks t.superblock.info.rootnode
        (ht t.superblock.info.rootnode) (depthBound t) t ht t.superblock.info.rootnode
        t.superblock.info.rootnode fl hfuel hs hN hfc hw' ⟨b, hb, hd⟩ rfl hpar ts hrun
      rw [hrun] at hins
      simp only at hins
      have hkeeps := SearchInternal2_keeps g.m _ t hs _ key v _ _ ts hrun
      have hroots : ts.superblock.info.rootnode = t.superblock.info.rootnode := hkeeps.2.1
      obtain ⟨⟨c, hc, hcd⟩, hh⟩ := hE1 _ ⟨b, hb, hd⟩
      have hcty : c.info.nodetype = NodeType.BTREE_ROOT_NODE ∨
          c.info.nodetype = NodeType.BTREE_INTERIOR_NODE := by
        rcases node_type_cases c hcd with h | h
        · have := ((hw1 _ c hc).1 h).1
          omega
        · exact h
      by_cases hsp : NeedToSplit g.m ts ts.superblock.info.rootnode = true
      · rw [if_pos hsp, ← hroots] at hins
        exact psplitRoot g hL hI (key :: ks) ts hkeeps.1 (by rw [hkeeps.2.2.1]; exact hN) ht1
          fl' c (by rw [hroots]; exact hc) hcty (by rw [hroots]; exact hw1) hsp hfl1 b hty hhdr
          (by rw [hroots]; exact hpars) t1 hins
      · rw [if_neg hsp] at hins
        simp only [Option.some.injEq, Prod.mk.injEq, true_and] at hins
        subst hins
        rw [hroots]
        exact hpars
    · exfalso
      rw [hrun] at hins
      simp only at hins
      have hkeeps := SearchInternal2_keeps g.m _ t hs _ key v _ _ ts hrun
      have hroots : ts.superblock.info.rootnode = t.superblock.info.rootnode := hkeeps.2.1
      have hsp : NeedToSplit g.m ts ts.superblock.info.rootnode = false := by
        rw [hroots]
        unfold NeedToSplit
        rw [Unserialize_data _ _ _ b (by rw [hblk]; exact hb) hd]
        rcases hty with hty | hty <;>
          simp only [hty, slots_int_of_hdr g b hhdr, decide_eq_false_iff_not] <;> omega
      rw [hsp] at hins
      simp only [Bool.false_eq_true, if_false, Option.some.injEq, Prod.mk.injEq] at hins
      exact hrc hins.1

theorem fresh_par (m : Machine) (ks vs : Nat) (c : BufferCache) (t : BTreeIndex)
    (h : fresh m ks vs c = some t) :
    ParIn m t.buffercache.blocks t.superblock.info.rootnode := by
  obtain ⟨hs, hroot, hfree, hks, hvs, hbs, hlen⟩ := fresh_super m ks vs c t h
  obtain ⟨hb1, hchain⟩ := fresh_layout m ks vs c t h
  intro j b hb hd hjr
  exfalso
  rw [hroot] at hjr
  have hj0 : j ≠ 0 := data_ne_zero hs hb hd
  have hjlt : j < c.blocks.length := by
    rw [← hlen]; exact lt_length_of_getElem? hb
  rw [hchain j (by omega) hjlt] at hb
  cases hb
  cases hd

/-- A workload of successful inserts from a well-formed tree whose tree nodes
all have a parent: they still have. -/
theorem runInserts_par (g : Geom) (hL : 3 ≤ g.capL) (hI : 3 ≤ g.capI) :
    ∀ (w : List (KEY_T × VALUE_T)) (t : BTreeIndex) (c : List (KEY_T × VALUE_T))
      (ks : List KEY_T) (t1 : BTreeIndex),
      TreeInv g t c → WeakInv g t ks →
      ParIn g.m t.buffercache.blocks t.superblock.info.rootnode →
      (∀ e ∈ w, e.1.length = g.keysize ∧ e.2.length = g.valuesize) →
      runInserts g.m t w = some t1 →
      ParIn g.m t1.buffercache.blocks t1.superblock.info.rootnode := by
  intro w
  induction w with
  | nil =>
    intro t c ks t1 _ _ hpar _ hrun
    simp only [runInserts, Option.some.injEq] at hrun
    subst hrun
    exact hpar
  | cons e r ih =>
    intro t c ks t1 htree hweak hpar hw hrun
    rw [runInserts] at hrun
    cases hi : BTreeIndex.Insert g.m t e.1 e.2 with
    | none => rw [hi] at hrun; simp at hrun
    | some res =>
      obtain ⟨rc, t2⟩ := res
      rw [hi] at hrun
      cases rc <;> try (simp at hrun; done)
      simp only at hrun
      have he := hw e (List.mem_cons_self _ _)
      have hrest : ∀ x ∈ r, x.1.length = g.keysize ∧ x.2.length = g.valuesize :=
        fun x hx => hw x (List.mem_cons_of_mem _ hx)
      have hpar2 := pinsert g hL hI t ks e.1 e.2 he.1 he.2 hweak
        (fun b hb => TreeInv_root_slack g (by omega) t c htree b hb) hpar t2 hi
      have hweak2 := WeakInv_insert g hL (by omega) t ks e.1 e.2 he.1 he.2 hweak t2 hi
      obtain ⟨_, c1, c2, _, htree2⟩ := Insert_step g hL hI t c e.1 e.2 he.1 he.2 htree t2 hi
      exact ih t2 _ (e.1 :: ks) t1 htree2 hweak2 hpar2 hrest hrun

theorem Reach_snoc (m : Machine) (dev : List BTreeNode) (a p : Nat)
    (hr : Reach m dev a p) :
    ∀ (bp : BTreeNode) (i j : Nat), dev[p]? = some bp →
      (bp.info.nodetype = NodeType.BTREE_ROOT_NODE ∨
        bp.info.nodetype = NodeType.BTREE_INTERIOR_NODE) →
      i ≤ bp.info.numkeys → bp.GetPtr m i = .ok j → Reach m dev a j := by
  induction hr with
  | here p =>
    intro bp i j hbp hty hi hq
    exact Reach.step p j j bp i hbp hty hi hq (Reach.here j)
  | step p q r b i0 hb hty0 hi0 hq0 _ ih =>
    intro bp i j hbp hty hi hq
    exact Reach.step p q j b i0 hb hty0 hi0 hq0 (ih bp i j hbp hty hi hq)

theorem height_bound (ht : Nat → Nat) : ∀ n : Nat, ∃ B, ∀ j, j < n → ht j ≤ B
  | 0 => ⟨0, fun j hj => absurd hj (Nat.not_lt_zero j)⟩
  | n + 1 => by
    obtain ⟨B, hB⟩ := height_bound ht n
    refine ⟨max B (ht n), ?_⟩
    intro j hj
    by_cases hjn : j = n
    · rw [hjn]; exact le_max_right _ _
    · exact le_trans (hB j (by omega)) (le_max_left _ _)

/-- On a device of well-formed blocks whose tree nodes all have a parent,
every tree node is reachable from the root through child pointers. -/
theorem rooted_of_par (g : Geom) (t : BTreeIndex) (ks : List KEY_T) (hinv : WeakInv g t ks)
    (hpar : ParIn g.m t.buffercache.blocks t.superblock.info.rootnode) :
    ∀ (j : Nat) (b : BTreeNode), t.buffercache.blocks[j]? = some b →
      hasData b.info.nodetype = true →
      Reach g.m t.buffercache.blocks t.superblock.info.rootnode j := by
  obtain ⟨hs, hks, hvs, hbs, hN, ht, fl, rb, hrb, hrty, hfree, hbound, hfresh, hw, hroot⟩ := hinv
  obtain ⟨B, hB⟩ := height_bound ht t.buffercache.blocks.length
  have key : ∀ (n j : Nat) (b : BTreeNode), t.buffercache.blocks[j]? = some b →
      hasData b.info.nodetype = true → B - ht j ≤ n →
      Reach g.m t.buffercache.blocks t.superblock.info.rootnode j := by
    intro n
    induction n with
    | zero =>
      intro j b hb hd hn
      by_cases hjr : j = t.superblock.info.rootnode
      · rw [hjr]; exact Reach.here _
      · exfalso
        obtain ⟨p, bp, i, hp, hpty, hpn, hi, hq⟩ := hpar j b hb hd hjr
        obtain ⟨_, _, _, hk⟩ := (hw p bp hp).2 hpty
        rcases hk with hz | ⟨p0, kps, hne, hint, hkids⟩
        · omega
        · have hmem := kid_of_ptr g bp p0 kps _ hint i j hi hq
          have hh := (hkids j hmem).2
          have h1 := hB p (lt_length_of_getElem? hp)
          have h2 := hB j (lt_length_of_getElem? hb)
          omega
    | succ n ih =>
      intro j b hb hd hn
      by_cases hjr : j = t.superblock.info.rootnode
      · rw [hjr]; exact Reach.here _
      · obtain ⟨p, bp, i, hp, hpty, hpn, hi, hq⟩ := hpar j b hb hd hjr
        obtain ⟨_, _, _, hk⟩ := (hw p bp hp).2 hpty
        rcases hk with hz | ⟨p0, kps, hne, hint, hkids⟩
        · omega
        · have hmem := kid_of_ptr g bp p0 kps _ hint i j hi hq
          have hh := (hkids j hmem).2
          have hpd : hasData bp.info.nodetype = true := hint.nodeHasData
          have hrp := ih p bp hp hpd (by omega)
          exact Reach_snoc g.m _ _ _ hrp bp i j hp hpty hi hq
  intro j b hb hd
  exact key (B - ht j) j b hb hd (le_refl _)

/-- In a state reached from a fresh tree by successful inserts, on a device
whose leaves and interior nodes hold at least three keys, every block stored
as a tree node (root, interior or leaf) is reachable from the root through
child pointers. -/
theorem reached_rooted (m : Machine) (keysize valuesize : Nat) (cache : BufferCache)
    (w : List (KEY_T × VALUE_T)) (t0 t : BTreeIndex)
    (hL : 3 ≤ leafCapacity m keysize valuesize cache.blocksize)
    (hI : 3 ≤ interiorCapacity m keysize cache.blocksize)
    (hN : cache.blocks.length ≤ 256 ^ m.sizeofSIZE_T)
    (hw : ∀ e ∈ w, e.1.length = keysize ∧ e.2.length = valuesize)
    (h0 : fresh m keysize valuesize cache = some t0) (hrun : runInserts m t0 w = some t) :
    ∀ (j : Nat) (b : BTreeNode), t.buffercache.blocks[j]? = some b →
      hasData b.info.nodetype = true →
      Reach m t.buffercache.blocks t.superblock.info.rootnode j := by
  have htree := fresh_inv m keysize valuesize cache t0 h0 hN
  have hweak := fresh_weak m keysize valuesize cache t0 h0 hN (by omega)
  have hpar0 := fresh_par m keysize valuesize cache t0 h0
  have hpar := runInserts_par ⟨m, keysize, valuesize, cache.blocksize⟩ hL hI w t0 [] [] t htree
    hweak hpar0 hw hrun
  obtain ⟨ks1, hweak1, _⟩ := runInserts_weak ⟨m, keysize, valuesize, cache.blocksize⟩ hL
    (by
      show 1 ≤ interiorCapacity m keysize cache.blocksize
      omega) w t0 [] t hweak hw hrun
  exact rooted_of_par ⟨m, keysize, valuesize, cache.blocksize⟩ t ks1 hweak1 hpar



/-! ## The separators of a reached tree and the keys of its leaves -/

/-- C22 (amended): with leaf capacity and interior capacity both at least 3,
in every state reached from a fresh tree by successful inserts, for every block
stored as a root or interior node, with keys k_0..k_{n-1} and children
c_0..c_n: every key held by a leaf reachable through c_i is less than or equal
to k_i, for each i < n, and every key held by a leaf reachable through c_n is
greater than or equal to k_{n-1}. -/
theorem leaf_keys_within_separators (m : Machine) (keysize valuesize : Nat)
    (cache : BufferCache) (w : List (KEY_T × VALUE_T)) (t0 t : BTreeIndex)
    (hL : 3 ≤ leafCapacity m keysize valuesize cache.blocksize)
    (hI : 3 ≤ interiorCapacity m keysize cache.blocksize)
    (hN : cache.blocks.length ≤ 256 ^ m.sizeofSIZE_T)
    (hw : ∀ e ∈ w, e.1.length = keysize ∧ e.2.length = valuesize)
    (h0 : fresh m keysize valuesize cache = some t0) (hrun : runInserts m t0 w = some t)
    (j : Nat) (b : BTreeNode) (hb : t.buffercache.blocks[j]? = some b)
    (hty : b.info.nodetype = NodeType.BTREE_ROOT_NODE ∨
      b.info.nodetype = NodeType.BTREE_INTERIOR_NODE) :
    (∀ i, i < b.info.numkeys → ∃ p k, b.GetPtr m i = .ok p ∧ b.GetKey m i = .ok k ∧
      ∀ key, LeafKeyUnder m t.buffercache.blocks p key → keyLt key k = true ∨ key = k) ∧
    (1 ≤ b.info.numkeys → ∃ p k, b.GetPtr m b.info.numkeys = .ok p ∧
      b.GetKey m (b.info.numkeys - 1) = .ok k ∧
      ∀ key, LeafKeyUnder m t.buffercache.blocks p key → keyLt k key = true ∨ k = key) :=
  reachable_keys_within_separators m keysize valuesize cache w t0 t hL hI hN hw h0 hrun j b
    (reached_rooted m keysize valuesize cache w t0 t hL hI hN hw h0 hrun j b hb
      (by rcases hty with h | h <;> rw [h] <;> rfl)) hb hty

/-- C23: in every state reached from a fresh tree by successful inserts, with
leaf and interior capacities at least 3, for every block stored as a root or
interior node and every index i below its numkeys: some leaf reachable through
child pointer i of the node holds an entry whose key equals separator key i of
the node. -/
theorem separator_key_in_leaf (m : Machine) (keysize valuesize : Nat)
    (cache : BufferCache) (w : List (KEY_T × VALUE_T)) (t0 t : BTreeIndex)
    (hL : 3 ≤ leafCapacity m keysize valuesize cache.blocksize)
    (hI : 3 ≤ interiorCapacity m keysize cache.blocksize)
    (hN : cache.blocks.length ≤ 256 ^ m.sizeofSIZE_T)
    (hw : ∀ e ∈ w, e.1.length = keysize ∧ e.2.length = valuesize)
    (h0 : fresh m keysize valuesize cache = some t0) (hrun : runInserts m t0 w = some t)
    (j : Nat) (b : BTreeNode) (hb : t.buffercache.blocks[j]? = some b)
    (hty : b.info.nodetype = NodeType.BTREE_ROOT_NODE ∨
      b.info.nodetype = NodeType.BTREE_INTERIOR_NODE) :
    ∀ i, i < b.info.numkeys → ∃ p k, b.GetPtr m i = .ok p ∧ b.GetKey m i = .ok k ∧
      LeafKeyUnder m t.buffercache.blocks p k :=
  reachable_separator_in_leaf m keysize valuesize cache w t0 t hL hI hN hw h0 hrun j b
    (reached_rooted m keysize valuesize cache w t0 t hL hI hN hw h0 hrun j b hb
      (by rcases hty with h | h <;> rw [h] <;> rfl)) hb hty


/-! ## Shapes of nodes and frames of writes -/

theorem SameShape.shRefl (b : BTreeNode) : SameShape b b := ⟨rfl, rfl, rfl, rfl, rfl⟩

theorem SameShape.shSymm {b b1 : BTreeNode} (h : SameShape b b1) : SameShape b1 b :=
  ⟨h.1.symm, h.2.1.symm, h.2.2.1.symm, h.2.2.2.1.symm, h.2.2.2.2.symm⟩

theorem SameShape.shTrans {b b1 b2 : BTreeNode} (h1 : SameShape b b1) (h2 : SameShape b1 b2) :
    SameShape b b2 :=
  ⟨h2.1.trans h1.1, h2.2.1.trans h1.2.1, h2.2.2.1.trans h1.2.2.1,
    h2.2.2.2.1.trans h1.2.2.2.1, h2.2.2.2.2.trans h1.2.2.2.2⟩

theorem SameShape.shData {b b1 : BTreeNode} (h : SameShape b b1)
    (hd : hasData b.info.nodetype = true) : hasData b1.info.nodetype = true := by
  rw [h.1]
  exact hd

theorem SameShape.shHdr {g : Geom} {b b1 : BTreeNode} (h : SameShape b b1) (hb : HdrOK g b) :
    HdrOK g b1 :=
  ⟨h.2.1.trans hb.1, h.2.2.1.trans hb.2.1, h.2.2.2.1.trans hb.2.2.1, h.2.2.2.2.trans hb.2.2.2⟩

theorem SameShape.shNumkeys (b : BTreeNode) (n : Nat) : SameShape b (b.withNumkeys n) :=
  ⟨rfl, rfl, rfl, rfl, rfl⟩

theorem SameShape.shBytes (b : BTreeNode) (d : List Nat) (h : d.length = b.data.length) :
    SameShape b (b.withData d) :=
  ⟨rfl, rfl, rfl, rfl, h⟩

theorem length_copyBytes (dst : List Nat) (d : Option Nat) (src : List Nat) (s : Option Nat)
    (len : Nat) : (copyBytes dst d src s len).length = dst.length := by
  unfold copyBytes
  split
  · exact length_writeAt _ _ _
  · rfl

theorem SetKey_shape (m : Machine) (b b2 : BTreeNode) (o : Nat) (k : KEY_T)
    (h : b.SetKey m o k = .ok b2) : SameShape b b2 := by
  unfold BTreeNode.SetKey at h
  split at h
  · cases h
  · split at h
    · cases h
      exact SameShape.shBytes _ _ (length_writeAt _ _ _)
    · cases h

theorem SetVal_shape (m : Machine) (b b2 : BTreeNode) (o : Nat) (v : VALUE_T)
    (h : b.SetVal m o v = .ok b2) : SameShape b b2 := by
  unfold BTreeNode.SetVal at h
  split at h
  · cases h
  · split at h
    · cases h
      exact SameShape.shBytes _ _ (length_writeAt _ _ _)
    · cases h

theorem SetPtr_shape (m : Machine) (b b2 : BTreeNode) (o p : Nat)
    (h : b.SetPtr m o p = .ok b2) : SameShape b b2 := by
  unfold BTreeNode.SetPtr at h
  split at h
  · split at h
    · cases h
      exact SameShape.shBytes _ _ (length_writeAt _ _ _)
    · cases h
  · split at h
    · cases h
      exact SameShape.shBytes _ _ (length_writeAt _ _ _)
    · cases h
  · split at h
    · cases h
      exact SameShape.shBytes _ _ (length_writeAt _ _ _)
    · cases h
  · cases h

theorem storeKeyVal_shape (m : Machine) (b : BTreeNode) (o : Nat) (k : KEY_T) (v : VALUE_T)
    (n : Nat) : SameShape b (storeKeyVal m b o k v n).2 := by
  unfold storeKeyVal
  cases h1 : b.SetKey m o k with
  | error e => exact SameShape.shRefl b
  | ok b2 =>
    have s1 := SetKey_shape m b b2 o k h1
    simp only
    split
    · cases h2 : b2.SetVal m o v with
      | error e => exact s1
      | ok b3 => exact s1.shTrans (SetVal_shape m b2 b3 o v h2)
    · cases h2 : b2.SetPtr m (o + 1) n with
      | error e => exact s1
      | ok b3 => exact s1.shTrans (SetPtr_shape m b2 b3 (o + 1) n h2)

theorem addKeyValLoop_shape (m : Machine) (k : KEY_T) (v : VALUE_T) (nn numkeys ps : Nat) :
    ∀ (cnt off : Nat) (b : BTreeNode),
      SameShape b (addKeyValLoop m b k v nn numkeys ps off cnt).2 := by
  intro cnt
  induction cnt with
  | zero => intro off b; exact SameShape.shRefl b
  | succ c ih =>
    intro off b
    rw [addKeyValLoop]
    simp only
    cases hg : b.GetKey m off with
    | error e => exact SameShape.shRefl b
    | ok testkey =>
      simp only
      split
      · exact (SameShape.shBytes b _ (length_copyBytes _ _ _ _ _)).shTrans
          (storeKeyVal_shape m _ off k v nn)
      · split
        · exact storeKeyVal_shape m b numkeys k v nn
        · exact ih (off + 1) b

theorem storeFirst_shape (m : Machine) (b : BTreeNode) (k : KEY_T) (v : VALUE_T) :
    SameShape b (storeFirst m b k v).2 := by
  unfold storeFirst
  cases h1 : b.SetKey m 0 k with
  | error e => exact SameShape.shRefl b
  | ok b2 =>
    have s1 := SetKey_shape m b b2 0 k h1
    simp only
    cases h2 : b2.SetVal m 0 v with
    | error e => exact s1
    | ok b3 => exact s1.shTrans (SetVal_shape m b2 b3 0 v h2)

theorem orKeep_shape (b : BTreeNode) (r : Except ERROR_T BTreeNode)
    (h : ∀ b2, r = .ok b2 → SameShape b b2) : SameShape b (orKeep b r) := by
  cases r with
  | error e => exact SameShape.shRefl b
  | ok b2 => exact h b2 rfl

theorem fillRoot_shape (m : Machine) (r : BTreeNode) (k : KEY_T) (p0 p1 : Nat) :
    SameShape r (fillRoot m r k p0 p1) := by
  unfold fillRoot
  simp only
  have s1 := orKeep_shape r (r.SetKey m 0 k) (fun b2 h => SetKey_shape m r b2 0 k h)
  have s2 := orKeep_shape (orKeep r (r.SetKey m 0 k)) ((orKeep r (r.SetKey m 0 k)).SetPtr m 0 p0)
    (fun b2 h => SetPtr_shape m _ b2 0 p0 h)
  have s3 := orKeep_shape (orKeep (orKeep r (r.SetKey m 0 k))
    ((orKeep r (r.SetKey m 0 k)).SetPtr m 0 p0))
    ((orKeep (orKeep r (r.SetKey m 0 k))
    ((orKeep r (r.SetKey m 0 k)).SetPtr m 0 p0)).SetPtr m 1 p1)
    (fun b2 h => SetPtr_shape m _ b2 1 p1 h)
  exact s1.shTrans (s2.shTrans s3)

/-! ## Frames -/

theorem Frame.frRefl (dev : List BTreeNode) : Frame dev dev :=
  ⟨rfl, fun _ b hb _ => ⟨b, hb, SameShape.shRefl b⟩, fun _ _ hb _ => hb⟩

theorem Frame.frTrans {d0 d1 d2 : List BTreeNode} (h1 : Frame d0 d1) (h2 : Frame d1 d2) :
    Frame d0 d2 := by
  refine ⟨h2.1.trans h1.1, ?_, ?_⟩
  · intro j b hb hd
    obtain ⟨b1, hb1, s1⟩ := h1.2.1 j b hb hd
    obtain ⟨b2, hb2, s2⟩ := h2.2.1 j b1 hb1 (s1.shData hd)
    exact ⟨b2, hb2, s1.shTrans s2⟩
  · intro j b2 hb2 hty
    exact h1.2.2 j b2 (h2.2.2 j b2 hb2 hty) hty

theorem Serialize_out (b : BTreeNode) (c : BufferCache) (n : Nat) (h : ¬ n < c.blocks.length) :
    b.Serialize c n = (ERROR_T.ERROR_NOSUCHBLOCK, c) := by
  unfold BTreeNode.Serialize
  simp only [h, if_false]

/-- A block of the cache after a write of a tree node is the node written, at
the block written, or a block of the cache before. -/
theorem Serialize_at (b : BTreeNode) (c : BufferCache) (n : Nat)
    (hd : hasData b.info.nodetype = true) (i : Nat) (old : BTreeNode)
    (h : (b.Serialize c n).2.blocks[i]? = some old) :
    c.blocks[i]? = some old ∨ (i = n ∧ old = b) := by
  by_cases hn : n < c.blocks.length
  · rw [Serialize_data b c n hn hd] at h
    simp only at h
    by_cases hi : i = n
    · subst hi
      rw [List.getElem?_set_self hn] at h
      exact Or.inr ⟨rfl, (Option.some.inj h).symm⟩
    · rw [List.getElem?_set_ne (Ne.symm hi)] at h
      exact Or.inl h
  · rw [Serialize_out b c n hn] at h
    exact Or.inl h

/-- Writing a tree node over a block that is no tree node, or is one of the
same shape, is a frame. -/
theorem Frame_serialize (b : BTreeNode) (c : BufferCache) (n : Nat)
    (h1 : hasData b.info.nodetype = true)
    (h2 : ∀ old, c.blocks[n]? = some old → hasData old.info.nodetype = true →
      SameShape old b) :
    Frame c.blocks (b.Serialize c n).2.blocks := by
  by_cases hn : n < c.blocks.length
  · rw [Serialize_data b c n hn h1]
    refine ⟨by simp, ?_, ?_⟩
    · intro j bj hj hd
      by_cases hjn : j = n
      · subst hjn
        exact ⟨b, by simp only [List.getElem?_set_self hn], h2 bj hj hd⟩
      · exact ⟨bj, by simp only [List.getElem?_set_ne (Ne.symm hjn)]; exact hj,
          SameShape.shRefl bj⟩
    · intro j b1 hj hty
      by_cases hjn : j = n
      · subst hjn
        simp only [List.getElem?_set_self hn, Option.some.injEq] at hj
        subst hj
        rw [hty] at h1
        cases h1
      · simp only [List.getElem?_set_ne (Ne.symm hjn)] at hj
        exact hj
  · rw [Serialize_out b c n hn]
    exact Frame.frRefl _

/-- Two devices that differ in block 0 only, a superblock in both, frame each
other. -/
theorem Frame_super (dev dev1 : List BTreeNode) (hlen : dev1.length = dev.length)
    (s s1 : BTreeNode) (h0 : dev[0]? = some s)
    (hs : s.info.nodetype = NodeType.BTREE_SUPERBLOCK) (h1 : dev1[0]? = some s1)
    (hs1 : s1.info.nodetype = NodeType.BTREE_SUPERBLOCK)
    (hsame : ∀ j, j ≠ 0 → dev1[j]? = dev[j]?) : Frame dev dev1 := by
  refine ⟨hlen, ?_, ?_⟩
  · intro j b hb hd
    by_cases hj : j = 0
    · subst hj
      rw [h0] at hb
      cases hb
      rw [hs] at hd
      cases hd
    · exact ⟨b, by rw [hsame j hj]; exact hb, SameShape.shRefl b⟩
  · intro j b1 hb1 hty
    by_cases hj : j = 0
    · subst hj
      rw [h1] at hb1
      cases hb1
      rw [hs1] at hty
      cases hty
    · rw [← hsame j hj]
      exact hb1

/-! ## AllocateNode -/

theorem Unserialize_default (c : BufferCache) (n : Nat)
    (hd : hasData (BTreeNode.default.Unserialize c n).2.info.nodetype = true) :
    ∃ blk, c.blocks[n]? = some blk ∧ (BTreeNode.default.Unserialize c n).2 = blk ∧
      hasData blk.info.nodetype = true := by
  unfold BTreeNode.Unserialize at hd ⊢
  cases hb : c.blocks[n]? with
  | none =>
    rw [hb] at hd
    cases hd
  | some blk =>
    rw [hb] at hd
    simp only at hd ⊢
    refine ⟨blk, rfl, ?_, hd⟩
    simp only [hd, if_true]

/-- What a successful AllocateNode tells of the state it was called in: the
head of the free list was not 0 and named no block or one stored as
unallocated, whose `freelist` field is the new head. -/
theorem AllocateNode_inv (t : BTreeIndex) (into : Bool) (n : Nat) (t1 : BTreeIndex)
    (ha : AllocateNode t into = some (ERROR_T.ERROR_NOERROR, n, t1)) :
    n = t.superblock.info.freelist ∧ n ≠ 0 ∧
    (∀ b, t.buffercache.blocks[n]? = some b →
      b.info.nodetype = NodeType.BTREE_UNALLOCATED_BLOCK ∧
        t1.superblock.info.freelist = b.info.freelist) ∧
    (t.buffercache.blocks[n]? = none → t1.superblock.info.freelist = 0) := by
  unfold AllocateNode at ha
  cases into
  all_goals
    simp only [Bool.false_eq_true, if_false, if_true] at ha
    by_cases h0 : t.superblock.info.freelist = 0
    · simp only [h0, if_true] at ha
      cases ha
    · simp only [h0, if_false] at ha
      split at ha
      · cases ha
      · rename_i hty
        simp only [ne_eq, Decidable.not_not] at hty
        simp only [Option.some.injEq, Prod.mk.injEq] at ha
        obtain ⟨_, hn, ht1⟩ := ha
        refine ⟨hn.symm, by rw [← hn]; exact h0, ?_, ?_⟩
        · intro b hb
          rw [← hn] at hb
          unfold BTreeNode.Unserialize at hty ht1
          simp only [hb] at hty ht1
          refine ⟨hty, ?_⟩
          rw [← ht1]
          rfl
        · intro hb
          rw [← hn] at hb
          unfold BTreeNode.Unserialize at ht1
          simp only [hb] at ht1
          rw [← ht1]
          rfl

/-- An AllocateNode that returns an error found the free list empty and leaves
it so. -/
theorem AllocateNode_fail (t : BTreeIndex) (into : Bool) (rc : ERROR_T) (n : Nat)
    (t1 : BTreeIndex) (ha : AllocateNode t into = some (rc, n, t1))
    (hrc : rc ≠ ERROR_T.ERROR_NOERROR) :
    t1.superblock.info.freelist = 0 ∧ t1.buffercache = t.buffercache ∧ n = 0 := by
  unfold AllocateNode at ha
  cases into
  all_goals
    simp only [Bool.false_eq_true, if_false, if_true] at ha
    by_cases h0 : t.superblock.info.freelist = 0
    · simp only [h0, if_true, Option.some.injEq, Prod.mk.injEq] at ha
      obtain ⟨_, hn, ht1⟩ := ha
      rw [← ht1, ← hn]
      exact ⟨h0, rfl, rfl⟩
    · simp only [h0, if_false] at ha
      split at ha
      · cases ha
      · simp only [Option.some.injEq, Prod.mk.injEq] at ha
        exact absurd ha.1.symm hrc

theorem AllocateNode_frame (t : BTreeIndex) (h : SuperOK t) (into : Bool) (rc : ERROR_T)
    (n : Nat) (t1 : BTreeIndex) (ha : AllocateNode t into = some (rc, n, t1)) :
    Frame t.buffercache.blocks t1.buffercache.blocks := by
  by_cases hrc : rc = ERROR_T.ERROR_NOERROR
  · subst hrc
    cases into with
    | false =>
      obtain ⟨hk, _, hsame⟩ := AllocateNode_keeps t h _ n t1 ha
      exact Frame_super _ _ hk.2.2.1 _ _ h.2.2.2 h.2.1 hk.1.2.2.2 hk.1.2.1 hsame
    | true =>
      obtain ⟨hs1, _, _, hlen, _, _, _, hsame⟩ := AllocateNode_root_keeps t h n t1 ha
      exact Frame_super _ _ hlen _ _ h.2.2.2 h.2.1 hs1.2.2.2 hs1.2.1 hsame
  · rw [(AllocateNode_fail t into rc n t1 ha hrc).2.1]
    exact Frame.frRefl _


/-! ## The writes of the descent are frames -/

theorem AddKeyVal_frame (m : Machine) (t : BTreeIndex) (node : Nat) (key : KEY_T)
    (value : VALUE_T) (newNode : Nat) :
    Frame t.buffercache.blocks (AddKeyVal m t node key value newNode).2.buffercache.blocks := by
  unfold AddKeyVal
  simp only
  split
  · exact Frame.frRefl _
  · rename_i pairSize hps
    have hd : hasData (BTreeNode.default.Unserialize t.buffercache node).2.info.nodetype
        = true := by
      revert hps
      generalize (BTreeNode.default.Unserialize t.buffercache node).2 = b
      cases hty : b.info.nodetype <;> simp [hty, hasData]
    obtain ⟨blk, hblk, hbe, _⟩ := Unserialize_default t.buffercache node hd
    split
    · rename_i b3 hr
      have hsh : SameShape (BTreeNode.default.Unserialize t.buffercache node).2 b3 := by
        have h0 := SameShape.shNumkeys (BTreeNode.default.Unserialize t.buffercache node).2
          ((BTreeNode.default.Unserialize t.buffercache node).2.info.numkeys + 1)
        split at hr
        · have := addKeyValLoop_shape m key value newNode
            (BTreeNode.default.Unserialize t.buffercache node).2.info.numkeys pairSize
            (BTreeNode.default.Unserialize t.buffercache node).2.info.numkeys 0
            ((BTreeNode.default.Unserialize t.buffercache node).2.withNumkeys
              ((BTreeNode.default.Unserialize t.buffercache node).2.info.numkeys + 1))
          rw [hr] at this
          exact h0.shTrans this
        · have := storeFirst_shape m
            ((BTreeNode.default.Unserialize t.buffercache node).2.withNumkeys
              ((BTreeNode.default.Unserialize t.buffercache node).2.info.numkeys + 1)) key value
          rw [hr] at this
          exact h0.shTrans this
      refine Frame_serialize b3 t.buffercache node (hsh.shData hd) ?_
      intro old hold _
      rw [hblk] at hold
      cases hold
      rw [hbe] at hsh
      exact hsh
    · exact Frame.frRefl _

theorem NeedToSplit_data (m : Machine) (t : BTreeIndex) (node : Nat)
    (hs : NeedToSplit m t node = true) :
    hasData (BTreeNode.default.Unserialize t.buffercache node).2.info.nodetype = true := by
  unfold NeedToSplit at hs
  revert hs
  generalize (BTreeNode.default.Unserialize t.buffercache node).2 = b
  cases hty : b.info.nodetype <;> simp [hty, hasData]

/-- The writes of SplitNode on a block stored as a tree node: the copy of the
node on the block allocated, which was no tree node, and the two halves. -/
theorem SplitNode_frame (m : Machine) (t : BTreeIndex) (h : SuperOK t) (node : Nat)
    (hd : hasData (BTreeNode.default.Unserialize t.buffercache node).2.info.nodetype = true)
    (pk pk1 : KEY_T) (rc : ERROR_T) (second : Nat) (t1 : BTreeIndex)
    (hs : SplitNode m t node pk = some (rc, second, pk1, t1)) :
    Frame t.buffercache.blocks t1.buffercache.blocks := by
  obtain ⟨blk, hblk, hbe, hdb⟩ := Unserialize_default t.buffercache node hd
  have hnode : node ≠ 0 := Unserialize_type_ne_zero h BTreeNode.default node hd
  unfold SplitNode at hs
  simp only at hs
  rw [hbe] at hs
  cases ha : AllocateNode t false with
  | none => rw [ha] at hs; cases hs
  | some r =>
    obtain ⟨rc0, sn, ta⟩ := r
    have hfa := AllocateNode_frame t h false rc0 sn ta ha
    obtain ⟨hk, hsn, hsame⟩ := AllocateNode_keeps t h rc0 sn ta ha
    rw [ha] at hs
    by_cases hrc0 : rc0 = ERROR_T.ERROR_NOERROR
    · subst hrc0
      have hsn := hsn rfl
      obtain ⟨_, _, hfree, _⟩ := AllocateNode_inv t false sn ta ha
      simp only at hs
      -- the blocks `node` and `sn` hold nodes of the shape of `blk` or no tree node
      have hQ0 : ∀ i old, (i = node ∨ i = sn) → ta.buffercache.blocks[i]? = some old →
          hasData old.info.nodetype = true → SameShape old blk := by
        intro i old hi hold hdo
        have hi0 : i ≠ 0 := by rcases hi with hi | hi <;> rw [hi] <;> assumption
        rw [hsame i hi0] at hold
        rcases hi with hi | hi
        · rw [hi, hblk] at hold
          cases hold
          exact SameShape.shRefl _
        · rw [hi] at hold
          rw [(hfree old hold).1] at hdo
          cases hdo
      have hstep : ∀ (c : BufferCache) (b : BTreeNode) (j : Nat), SameShape blk b →
          (j = node ∨ j = sn) →
          (∀ i old, (i = node ∨ i = sn) → c.blocks[i]? = some old →
            hasData old.info.nodetype = true → SameShape old blk) →
          Frame c.blocks (b.Serialize c j).2.blocks ∧
          (∀ i old, (i = node ∨ i = sn) → (b.Serialize c j).2.blocks[i]? = some old →
            hasData old.info.nodetype = true → SameShape old blk) := by
        intro c b j hb hj hQ
        refine ⟨Frame_serialize b c j (hb.shData hdb) ?_, ?_⟩
        · intro old hold hdo
          exact (hQ j old hj hold hdo).shTrans hb
        · intro i old hi hold hdo
          rcases Serialize_at b c j (hb.shData hdb) i old hold with h1 | ⟨_, h1⟩
          · exact hQ i old hi h1 hdo
          · rw [h1]
            exact hb.shSymm
      generalize hS : blk.Serialize ta.buffercache sn = r2 at hs
      obtain ⟨rc2, c2⟩ := r2
      obtain ⟨hf2, hQ2⟩ := hstep ta.buffercache blk sn (SameShape.shRefl _) (Or.inr rfl) hQ0
      rw [hS] at hf2 hQ2
      simp only at hf2 hQ2
      by_cases hrc2 : rc2 = ERROR_T.ERROR_NOERROR
      · subst hrc2
        simp only at hs
        split at hs
        · split at hs
          · cases hs
          · generalize hl1 : blk.withNumkeys ((blk.info.numkeys + 2) / 2) = left1 at hs
            have hsl : SameShape blk left1 := by rw [← hl1]; exact SameShape.shNumkeys _ _
            generalize hS3 : left1.Serialize c2 node = r3 at hs
            obtain ⟨rc3, c3⟩ := r3
            obtain ⟨hf3, hQ3⟩ := hstep c2 left1 node hsl (Or.inl rfl) hQ2
            rw [hS3] at hf3 hQ3
            simp only at hf3 hQ3
            by_cases hrc3 : rc3 = ERROR_T.ERROR_NOERROR
            · subst hrc3
              simp only [Option.some.injEq, Prod.mk.injEq] at hs
              obtain ⟨_, _, _, rfl⟩ := hs
              refine hfa.frTrans (hf2.frTrans (hf3.frTrans
                (hstep c3 _ sn ?_ (Or.inr rfl) hQ3).1))
              exact (SameShape.shBytes blk _ (length_copyBytes _ _ _ _ _)).shTrans
                (SameShape.shNumkeys _ _)
            · have : t1 = { ta with buffercache := c3 } := by
                cases rc3 <;> first | exact absurd rfl hrc3 | (simp at hs; exact hs.2.2.2.symm)
              subst this
              exact hfa.frTrans (hf2.frTrans hf3)
        · split at hs
          · cases hs
          · generalize hl1 : blk.withNumkeys (blk.info.numkeys / 2) = left1 at hs
            have hsl : SameShape blk left1 := by rw [← hl1]; exact SameShape.shNumkeys _ _
            generalize hS3 : left1.Serialize c2 node = r3 at hs
            obtain ⟨rc3, c3⟩ := r3
            obtain ⟨hf3, hQ3⟩ := hstep c2 left1 node hsl (Or.inl rfl) hQ2
            rw [hS3] at hf3 hQ3
            simp only at hf3 hQ3
            by_cases hrc3 : rc3 = ERROR_T.ERROR_NOERROR
            · subst hrc3
              simp only [Option.some.injEq, Prod.mk.injEq] at hs
              obtain ⟨_, _, _, rfl⟩ := hs
              refine hfa.frTrans (hf2.frTrans (hf3.frTrans
                (hstep c3 _ sn ?_ (Or.inr rfl) hQ3).1))
              exact (SameShape.shBytes blk _ (length_copyBytes _ _ _ _ _)).shTrans
                (SameShape.shNumkeys _ _)
            · have : t1 = { ta with buffercache := c3 } := by
                cases rc3 <;> first | exact absurd rfl hrc3 | (simp at hs; exact hs.2.2.2.symm)
              subst this
              exact hfa.frTrans (hf2.frTrans hf3)
      · have : t1 = { ta with buffercache := c2 } := by
          cases rc2 <;> first | exact absurd rfl hrc2 | (simp at hs; exact hs.2.2.2.symm)
        subst this
        exact hfa.frTrans hf2
    · have : t1 = ta := by
        cases rc0 <;> first | exact absurd rfl hrc0 | (simp at hs; exact hs.2.2.2.symm)
      subst this
      exact hfa

theorem splitChild_frame (m : Machine) (t : BTreeIndex) (h : SuperOK t) (node ptr : Nat)
    (rc : ERROR_T) (t1 : BTreeIndex) (hs : splitChild m t node ptr = some (rc, t1)) :
    Frame t.buffercache.blocks t1.buffercache.blocks := by
  unfold splitChild at hs
  split at hs
  · rename_i hsplit
    have hptr := NeedToSplit_ne_zero m t h ptr hsplit
    cases hsn : SplitNode m t ptr [] with
    | none => rw [hsn] at hs; cases hs
    | some r =>
      obtain ⟨rc2, sn, pk, t2⟩ := r
      have hk := SplitNode_keeps m t h ptr hptr [] pk rc2 sn t2 hsn
      have hf := SplitNode_frame m t h ptr (NeedToSplit_data m t ptr hsplit) [] pk rc2 sn t2 hsn
      rw [hsn] at hs
      by_cases hrc : rc2 = ERROR_T.ERROR_NOERROR
      · subst hrc
        simp only [Option.some.injEq] at hs
        have := AddKeyVal_frame m t2 node pk [] sn
        rw [hs] at this
        exact hf.frTrans this
      · have : t1 = t2 := by
          cases rc2 <;> first | exact absurd rfl hrc | (simp at hs; exact hs.2.symm)
        subst this
        exact hf
  · cases hs
    exact Frame.frRefl _

theorem SearchInternal2_frame (m : Machine) (fuel : Nat) (t : BTreeIndex) (h : SuperOK t)
    (node : Nat) (key : KEY_T) (value : VALUE_T) (parent : Nat) (rc : ERROR_T) (t1 : BTreeIndex)
    (hs : SearchInternal2 m fuel t node key value parent = some (rc, t1)) :
    Frame t.buffercache.blocks t1.buffercache.blocks := by
  induction fuel generalizing t node parent rc t1 with
  | zero => simp [SearchInternal2] at hs
  | succ f ih =>
    rw [SearchInternal2] at hs
    generalize hu : BTreeNode.default.Unserialize t.buffercache node = u at hs
    obtain ⟨rcu, b⟩ := u
    have hleaf : ∀ r : ERROR_T × BTreeIndex, some (AddKeyVal m t node key value 0) = some r →
        Frame t.buffercache.blocks r.2.buffercache.blocks := by
      intro r hr
      cases hr
      exact AddKeyVal_frame m t node key value 0
    have hint : ∀ r : ERROR_T × BTreeIndex,
        (match pickChild m b key with
          | .error rc => some (rc, t)
          | .ok ptr =>
            match SearchInternal2 m f t ptr key value node with
            | none => none
            | some (ERROR_T.ERROR_NOERROR, t1) => splitChild m t1 node ptr
            | some (rc, t1) => some (rc, t1)) = some r →
          Frame t.buffercache.blocks r.2.buffercache.blocks := by
      intro r hr
      split at hr
      · cases hr; exact Frame.frRefl _
      · rename_i ptr _
        cases hrec : SearchInternal2 m f t ptr key value node with
        | none => rw [hrec] at hr; cases hr
        | some r1 =>
          obtain ⟨rc1, ta⟩ := r1
          have hk := SearchInternal2_keeps m f t h ptr key value node rc1 ta hrec
          have hf := ih t h ptr node rc1 ta hrec
          rw [hrec] at hr
          by_cases hrc : rc1 = ERROR_T.ERROR_NOERROR
          · subst hrc
            simp only at hr
            exact hf.frTrans (splitChild_frame m ta hk.1 node ptr r.1 r.2 hr)
          · have : r.2 = ta := by
              cases rc1 <;> first | exact absurd rfl hrc | (simp at hr; rw [← hr])
            rw [this]
            exact hf
    by_cases hrcu : rcu = ERROR_T.ERROR_NOERROR
    · subst hrcu
      simp only at hs
      cases hty : b.info.nodetype <;> simp only [hty] at hs
      · cases hs; exact Frame.frRefl _
      · cases hs; exact Frame.frRefl _
      · exact hint _ hs
      · exact hint _ hs
      · exact hleaf _ hs
    · have : t1 = t := by
        cases rcu <;> first | exact absurd rfl hrcu | (simp at hs; exact hs.2.symm)
      subst this
      exact Frame.frRefl _


/-! ## The bootstrap of an empty root and the split of a full root, whatever the capacities -/

/-- CASE 1 of Insert on a root block stored as a tree node: its writes are a
frame, and the root object it hands on has the shape of the root block. -/
theorem bootstrap_frame (m : Machine) (t : BTreeIndex) (h : SuperOK t) (blk : BTreeNode)
    (hroot : t.buffercache.blocks[t.superblock.info.rootnode]? = some blk)
    (hd : hasData blk.info.nodetype = true) (key : KEY_T) (rc : ERROR_T) (root1 : BTreeNode)
    (tb : BTreeIndex) (hb : bootstrap m t blk key = some (rc, root1, tb)) :
    Frame t.buffercache.blocks tb.buffercache.blocks ∧ SameShape blk root1 := by
  have hr0 : t.superblock.info.rootnode ≠ 0 := data_ne_zero h hroot hd
  unfold bootstrap at hb
  simp only at hb
  cases ha1 : AllocateNode t false with
  | none => rw [ha1] at hb; cases hb
  | some r1 =>
    obtain ⟨rc1, n1, ta⟩ := r1
    have hf1 := AllocateNode_frame t h false rc1 n1 ta ha1
    obtain ⟨hk1, hn1, hsame1⟩ := AllocateNode_keeps t h rc1 n1 ta ha1
    rw [ha1] at hb
    by_cases hrc1 : rc1 = ERROR_T.ERROR_NOERROR
    · subst hrc1
      have hn1 := hn1 rfl
      obtain ⟨_, _, hfree1, _⟩ := AllocateNode_inv t false n1 ta ha1
      simp only at hb
      cases ha2 : AllocateNode ta false with
      | none => rw [ha2] at hb; cases hb
      | some r2 =>
        obtain ⟨rc2, n2, tb2⟩ := r2
        have hf2 := AllocateNode_frame ta hk1.1 false rc2 n2 tb2 ha2
        obtain ⟨hk2, hn2, hsame2⟩ := AllocateNode_keeps ta hk1.1 rc2 n2 tb2 ha2
        rw [ha2] at hb
        by_cases hrc2 : rc2 = ERROR_T.ERROR_NOERROR
        · subst hrc2
          have hn2 := hn2 rfl
          obtain ⟨_, _, hfree2, _⟩ := AllocateNode_inv ta false n2 tb2 ha2
          simp only [Option.some.injEq, Prod.mk.injEq] at hb
          obtain ⟨_, hr1, rfl⟩ := hb
          have hsh : SameShape blk root1 := by
            rw [← hr1]
            exact (SameShape.shNumkeys blk _).shTrans (fillRoot_shape m _ key n1 n2)
          obtain ⟨leaf, hleaf⟩ : ∃ leaf, leaf = BTreeNode.mk4 m NodeType.BTREE_LEAF_NODE
            t.superblock.info.keysize t.superblock.info.valuesize t.buffercache.blocksize :=
            ⟨_, rfl⟩
          have hdl : hasData leaf.info.nodetype = true := by rw [hleaf]; rfl
          rw [← hleaf, hr1]
          have hroot2 : tb2.superblock.info.rootnode = t.superblock.info.rootnode := by
            rw [hk2.2.1, hk1.2.1]
          -- the first leaf goes to a block that was free
          have hold1 : ∀ old, tb2.buffercache.blocks[n1]? = some old →
              hasData old.info.nodetype = true → SameShape old leaf := by
            intro old hold hdo
            rw [hsame2 n1 hn1, hsame1 n1 hn1] at hold
            rw [(hfree1 old hold).1] at hdo
            cases hdo
          have hf3 := Frame_serialize leaf tb2.buffercache n1 hdl hold1
          have hold2 : ∀ old, (leaf.Serialize tb2.buffercache n1).2.blocks[n2]? = some old →
              hasData old.info.nodetype = true → SameShape old leaf := by
            intro old hold hdo
            rcases Serialize_at leaf tb2.buffercache n1 hdl n2 old hold with h1 | ⟨_, h1⟩
            · rw [hsame2 n2 hn2] at h1
              rw [(hfree2 old h1).1] at hdo
              cases hdo
            · rw [h1]
              exact SameShape.shRefl _
          have hf4 := Frame_serialize leaf (leaf.Serialize tb2.buffercache n1).2 n2 hdl hold2
          have hold3 : ∀ old, (leaf.Serialize (leaf.Serialize tb2.buffercache n1).2
              n2).2.blocks[tb2.superblock.info.rootnode]? = some old →
              hasData old.info.nodetype = true → SameShape old root1 := by
            intro old hold hdo
            rw [hroot2] at hold
            rcases Serialize_at leaf _ n2 hdl _ old hold with h1 | ⟨h1, _⟩
            · rcases Serialize_at leaf _ n1 hdl _ old h1 with h2 | ⟨h2, _⟩
              · rw [hsame2 _ hr0, hsame1 _ hr0, hroot] at h2
                cases h2
                exact hsh
              · rw [h2] at hroot
                rw [(hfree1 blk hroot).1] at hd
                cases hd
            · rw [h1, ← hsame1 n2 hn2] at hroot
              rw [(hfree2 blk hroot).1] at hd
              cases hd
          have hf5 := Frame_serialize root1 (leaf.Serialize (leaf.Serialize tb2.buffercache
            n1).2 n2).2 tb2.superblock.info.rootnode (hsh.shData hd) hold3
          exact ⟨hf1.frTrans (hf2.frTrans (hf3.frTrans (hf4.frTrans hf5))), hsh⟩
        · have : tb = tb2 ∧ root1 = blk := by
            cases rc2 <;> first | exact absurd rfl hrc2 |
              (simp at hb; exact ⟨hb.2.2.symm, hb.2.1.symm⟩)
          obtain ⟨rfl, rfl⟩ := this
          exact ⟨hf1.frTrans hf2, SameShape.shRefl _⟩
    · have : tb = ta ∧ root1 = blk := by
        cases rc1 <;> first | exact absurd rfl hrc1 |
          (simp at hb; exact ⟨hb.2.2.symm, hb.2.1.symm⟩)
      obtain ⟨rfl, rfl⟩ := this
      exact ⟨hf1, SameShape.shRefl _⟩

theorem length_readAt_in (d : List Nat) (off len : Nat) (h : off + len ≤ d.length) :
    (readAt d off len).length = len := by
  unfold readAt
  rw [List.length_take, List.length_drop]
  omega

theorem root_GetKey (m : Machine) (c : BTreeNode)
    (hty : c.info.nodetype = NodeType.BTREE_ROOT_NODE ∨
      c.info.nodetype = NodeType.BTREE_INTERIOR_NODE) (i : Nat) (hi : i < c.info.numkeys) :
    c.GetKey m i = .ok (readAt c.data (m.sizeofSIZE_T + i * (m.sizeofSIZE_T + c.info.keysize))
      c.info.keysize) := by
  unfold BTreeNode.GetKey BTreeNode.ResolveKey
  rcases hty with hty | hty <;> simp only [hty, hi, if_true]

theorem NeedToSplit_root (g : Geom) (t : BTreeIndex) (r : Nat) (c : BTreeNode)
    (hc : t.buffercache.blocks[r]? = some c)
    (hty : c.info.nodetype = NodeType.BTREE_ROOT_NODE ∨
      c.info.nodetype = NodeType.BTREE_INTERIOR_NODE) (hhdr : HdrOK g c)
    (hs : NeedToSplit g.m t r = true) : c.info.numkeys = g.capI := by
  have hd : hasData c.info.nodetype = true := by rcases hty with h | h <;> rw [h] <;> rfl
  unfold NeedToSplit at hs
  rw [Unserialize_data _ _ _ _ hc hd] at hs
  rcases hty with hty | hty <;>
    simp only [hty, slots_int_of_hdr g c hhdr, decide_eq_true_eq] at hs <;> exact hs.symm

/-- What a returned SplitNode on a root or interior block `c` tells: either it
leaves the free list empty, or it took the head of the free list, a block
stored as unallocated, for the right half, promoted the key at index
`numkeys / 2` and wrote nodes of the shape of `c` to the two blocks, leaving
all blocks but these and block 0 as they were. -/
theorem SplitNode_root_inv (m : Machine) (ts : BTreeIndex) (hs : SuperOK ts) (r : Nat)
    (c : BTreeNode) (hc : ts.buffercache.blocks[r]? = some c)
    (hty : c.info.nodetype = NodeType.BTREE_ROOT_NODE ∨
      c.info.nodetype = NodeType.BTREE_INTERIOR_NODE)
    (pk0 pk : KEY_T) (rcS : ERROR_T) (newNode : Nat) (tS : BTreeIndex)
    (hsn : SplitNode m ts r pk0 = some (rcS, newNode, pk, tS)) :
    tS.superblock.info.freelist = 0 ∨
    (∃ bx l r1, newNode = ts.superblock.info.freelist ∧ newNode ≠ 0 ∧
      ts.buffercache.blocks[newNode]? = some bx ∧
      bx.info.nodetype = NodeType.BTREE_UNALLOCATED_BLOCK ∧
      tS.superblock.info.freelist = bx.info.freelist ∧
      c.info.numkeys / 2 < c.info.numkeys ∧
      pk = orKeep pk0 (c.GetKey m (c.info.numkeys / 2)) ∧
      SameShape c l ∧ SameShape c r1 ∧
      tS.buffercache.blocks[r]? = some l ∧ tS.buffercache.blocks[newNode]? = some r1 ∧
      (∀ j, j ≠ 0 → j ≠ r → j ≠ newNode →
        tS.buffercache.blocks[j]? = ts.buffercache.blocks[j]?)) := by
  have hd : hasData c.info.nodetype = true := by rcases hty with h | h <;> rw [h] <;> rfl
  have hnl : c.info.nodetype ≠ NodeType.BTREE_LEAF_NODE := by
    rcases hty with h | h <;> rw [h] <;> decide
  have hr0 : r ≠ 0 := data_ne_zero hs hc hd
  have hrlt : r < ts.buffercache.blocks.length := lt_length_of_getElem? hc
  unfold SplitNode at hsn
  simp only at hsn
  rw [Unserialize_data _ _ _ _ hc hd] at hsn
  simp only at hsn
  cases ha : AllocateNode ts false with
  | none => rw [ha] at hsn; cases hsn
  | some x =>
    obtain ⟨rc0, sn, ta⟩ := x
    obtain ⟨hk, _, hsame⟩ := AllocateNode_keeps ts hs rc0 sn ta ha
    rw [ha] at hsn
    by_cases hrc0 : rc0 = ERROR_T.ERROR_NOERROR
    · subst hrc0
      obtain ⟨hsnh, hsn0, hfree, hnone⟩ := AllocateNode_inv ts false sn ta ha
      simp only at hsn
      by_cases hsnlt : sn < ta.buffercache.blocks.length
      · have hsnlt2 : sn < ts.buffercache.blocks.length := by rw [← hk.2.2.1]; exact hsnlt
        obtain ⟨bx, hbx⟩ : ∃ bx, ts.buffercache.blocks[sn]? = some bx :=
          ⟨_, List.getElem?_eq_getElem hsnlt2⟩
        obtain ⟨hbxty, hbxfl⟩ := hfree bx hbx
        have hsnr : sn ≠ r := by
          intro he
          rw [he, hc] at hbx
          cases hbx
          rw [hbxty] at hd
          cases hd
        rw [Serialize_data c ta.buffercache sn hsnlt hd] at hsn
        simp only [hnl, if_false] at hsn
        by_cases hn : c.info.numkeys < c.info.numkeys / 2 + 1
        · simp only [hn, if_true] at hsn
          cases hsn
        · simp only [hn, if_false] at hsn
          rw [Serialize_data (c.withNumkeys (c.info.numkeys / 2)) _ r
            (by simp only [List.length_set]; rw [hk.2.2.1]; exact hrlt) hd] at hsn
          simp only at hsn
          generalize hr1 : BTreeNode.withNumkeys (BTreeNode.withData c _) _ = right1 at hsn
          have hsr1 : SameShape c right1 := by
            rw [← hr1]
            exact (SameShape.shBytes c _ (length_copyBytes _ _ _ _ _)).shTrans
              (SameShape.shNumkeys _ _)
          rw [Serialize_data right1 _ sn (by simp only [List.length_set]; exact hsnlt)
            (hsr1.shData hd)] at hsn
          simp only [Option.some.injEq, Prod.mk.injEq] at hsn
          obtain ⟨_, hnn, hpk, htS⟩ := hsn
          subst hnn
          right
          refine ⟨bx, c.withNumkeys (c.info.numkeys / 2), right1, hsnh, hsn0, hbx, hbxty, ?_,
            by omega, hpk.symm, SameShape.shNumkeys _ _, hsr1, ?_, ?_, ?_⟩
          · rw [← htS]
            exact hbxfl
          · rw [← htS]
            simp only
            rw [List.getElem?_set_ne hsnr, List.getElem?_set_self
              (by simp only [List.length_set]; rw [hk.2.2.1]; exact hrlt)]
          · rw [← htS]
            simp only
            rw [List.getElem?_set_self (by simp only [List.length_set]; exact hsnlt)]
          · intro j hj0 hjr hjs
            rw [← htS]
            simp only
            rw [List.getElem?_set_ne (Ne.symm hjs), List.getElem?_set_ne (Ne.symm hjr),
              List.getElem?_set_ne (Ne.symm hjs)]
            exact hsame j hj0
      · left
        have hnb : ts.buffercache.blocks[sn]? = none := by
          apply List.getElem?_eq_none
          rw [← hk.2.2.1]
          omega
        rw [Serialize_out c ta.buffercache sn hsnlt] at hsn
        simp only [Option.some.injEq, Prod.mk.injEq] at hsn
        rw [← hsn.2.2.2]
        exact hnone hnb
    · left
      have : tS = ta := by
        cases rc0 <;> first | exact absurd rfl hrc0 | (simp at hsn; exact hsn.2.2.2.symm)
      rw [this]
      exact (AllocateNode_fail ts false rc0 sn ta ha hrc0).1

/-- SUBCASE 2B of Insert, whatever the capacities: when the split of a full
root block `c`, stored as a root or interior node with the sizes of the tree,
returns ERROR_NOERROR, the head of the free list took the right half, the block
that followed it on the free list is the new root and holds one key, the key
at index `numkeys / 2` of `c`, between the old root block and the right
half; and no block turned unallocated. -/
theorem splitRoot_new_root (g : Geom) (ts : BTreeIndex) (hs : SuperOK ts)
    (hN : ts.buffercache.blocks.length ≤ 256 ^ g.P) (c : BTreeNode)
    (hc : ts.buffercache.blocks[ts.superblock.info.rootnode]? = some c)
    (hty : c.info.nodetype = NodeType.BTREE_ROOT_NODE ∨
      c.info.nodetype = NodeType.BTREE_INTERIOR_NODE) (hhdr : HdrOK g c)
    (hfull : NeedToSplit g.m ts ts.superblock.info.rootnode = true)
    (hfree : ∀ (j : Nat) (b : BTreeNode), ts.buffercache.blocks[j]? = some b →
      b.info.nodetype = NodeType.BTREE_UNALLOCATED_BLOCK →
      b.info.freelist < ts.buffercache.blocks.length)
    (rootObj : BTreeNode)
    (hroty : rootObj.info.nodetype = NodeType.BTREE_ROOT_NODE ∨
      rootObj.info.nodetype = NodeType.BTREE_INTERIOR_NODE)
    (hrohdr : HdrOK g rootObj) (t2 : BTreeIndex)
    (hsr : splitRoot g.m ts rootObj ts.superblock.info.rootnode
      = some (ERROR_T.ERROR_NOERROR, t2)) :
    ∃ bx bn pk b4,
      c.info.numkeys = g.capI ∧ c.GetKey g.m (c.info.numkeys / 2) = .ok pk ∧
      ts.buffercache.blocks[ts.superblock.info.freelist]? = some bx ∧
      bx.info.nodetype = NodeType.BTREE_UNALLOCATED_BLOCK ∧
      t2.superblock.info.rootnode = bx.info.freelist ∧
      ts.buffercache.blocks[t2.superblock.info.rootnode]? = some bn ∧
      bn.info.nodetype = NodeType.BTREE_UNALLOCATED_BLOCK ∧
      t2.superblock.info.rootnode ≠ ts.superblock.info.rootnode ∧
      t2.superblock.info.rootnode ≠ ts.superblock.info.freelist ∧
      ts.superblock.info.freelist ≠ ts.superblock.info.rootnode ∧
      t2.buffercache.blocks[t2.superblock.info.rootnode]? = some b4 ∧
      IntAt g b4 ts.superblock.info.rootnode [(pk, ts.superblock.info.freelist)] 0 ∧
      SuperOK t2 ∧ t2.buffercache.blocks.length = ts.buffercache.blocks.length ∧
      (∀ (j : Nat) (b : BTreeNode), t2.buffercache.blocks[j]? = some b →
        b.info.nodetype = NodeType.BTREE_UNALLOCATED_BLOCK →
        ts.buffercache.blocks[j]? = some b) := by
  have hd : hasData c.info.nodetype = true := by rcases hty with h | h <;> rw [h] <;> rfl
  have hr0 : ts.superblock.info.rootnode ≠ 0 := data_ne_zero hs hc hd
  have hrlt : ts.superblock.info.rootnode < ts.buffercache.blocks.length :=
    lt_length_of_getElem? hc
  have hnum : c.info.numkeys = g.capI := NeedToSplit_root g ts _ c hc hty hhdr hfull
  unfold splitRoot at hsr
  cases hsn : SplitNode g.m ts ts.superblock.info.rootnode [] with
  | none => rw [hsn] at hsr; cases hsr
  | some x =>
    obtain ⟨rcS, newNode, pk, tS⟩ := x
    have hkS := SplitNode_keeps g.m ts hs _ hr0 [] pk rcS newNode tS hsn
    rw [hsn] at hsr
    simp only at hsr
    split at hsr
    · cases hsr
    · rename_i y t4 heq
      obtain ⟨hyh, hy0, hyfree, _⟩ := AllocateNode_inv _ true y t4 heq
      simp only at hyh hyfree
      rcases SplitNode_root_inv g.m ts hs _ c hc hty [] pk rcS newNode tS hsn with h0 |
        ⟨bx, l, r1, hnn, hnn0, hbx, hbxty, hfl, hhalf, hpk, hsl, hsr1, hl, hr1, hsame⟩
      · exact absurd (hyh.trans h0) hy0
      · have hdl : hasData l.info.nodetype = true := hsl.shData hd
        have hdr : hasData r1.info.nodetype = true := hsr1.shData hd
        rw [reserialize_same _ tS.buffercache _ l hl hdl,
          reserialize_same _ tS.buffercache _ r1 hr1 hdr] at heq hyfree
        have heq2 : AllocateNode tS true = some (ERROR_T.ERROR_NOERROR, y, t4) := heq
        obtain ⟨hs4, hroot4, _, hlen4, _, _, _, hsame4⟩ :=
          AllocateNode_root_keeps tS hkS.1 y t4 heq2
        have hylt : y < ts.buffercache.blocks.length := by
          rw [hyh]
          show tS.superblock.info.freelist < _
          rw [hfl]
          exact hfree _ bx hbx hbxty
        have hyltS : y < tS.buffercache.blocks.length := by rw [hkS.2.2.1]; exact hylt
        obtain ⟨by1, hby1⟩ : ∃ b, tS.buffercache.blocks[y]? = some b :=
          ⟨_, List.getElem?_eq_getElem hyltS⟩
        have hby1ty := (hyfree by1 hby1).1
        have hyr : y ≠ ts.superblock.info.rootnode := by
          intro he
          rw [he, hl] at hby1
          cases hby1
          rw [hby1ty] at hdl
          cases hdl
        have hyn : y ≠ newNode := by
          intro he
          rw [he, hr1] at hby1
          cases hby1
          rw [hby1ty] at hdr
          cases hdr
        have hnr : newNode ≠ ts.superblock.info.rootnode := by
          intro he
          rw [he, hc] at hbx
          cases hbx
          rw [hbxty] at hd
          cases hd
        have hbn : ts.buffercache.blocks[y]? = some by1 := by
          rw [← hsame y hy0 hyr hyn]
          exact hby1
        -- the promoted key
        have hgk := root_GetKey g.m c hty (c.info.numkeys / 2) hhalf
        rw [hgk] at hpk
        simp only [orKeep] at hpk
        have hcap : 1 ≤ g.capI := by omega
        have hroom := capI_room g hcap
        have hpkl : pk.length = g.keysize := by
          rw [hpk, hhdr.1]
          apply length_readAt_in
          rw [hhdr.2.2.2]
          have h1 : (c.info.numkeys / 2 + 1) * (g.keysize + g.P)
              ≤ g.capI * (g.keysize + g.P) := by
            apply Nat.mul_le_mul_right
            omega
          rw [Nat.add_mul, Nat.one_mul] at h1
          have h2 : g.m.sizeofSIZE_T = g.P := rfl
          rw [h2, Nat.add_comm g.P g.keysize]
          omega
        have hnlt : newNode < ts.buffercache.blocks.length := lt_length_of_getElem? hbx
        obtain ⟨hroot4I, _⟩ := fillRoot_any g (rootObj.withNumkeys 1) hroty hrohdr 0
          (by omega) rfl pk ts.superblock.info.rootnode newNode hpkl (by omega) (by omega)
        obtain ⟨root4, hroot4def⟩ : ∃ root4, root4
          = fillRoot g.m (rootObj.withNumkeys 1) pk ts.superblock.info.rootnode newNode :=
          ⟨_, rfl⟩
        rw [← hroot4def] at hroot4I hsr
        have hylt4 : y < t4.buffercache.blocks.length := by rw [hlen4]; exact hyltS
        rw [hroot4, Serialize_data root4 _ _ hylt4 hroot4I.nodeHasData] at hsr
        simp only [Option.some.injEq, Prod.mk.injEq, true_and] at hsr
        subst hsr
        have hrt : ({ t4 with buffercache := { t4.buffercache with
            blocks := t4.buffercache.blocks.set y root4 } } : BTreeIndex).superblock.info.rootnode
            = y := hroot4
        simp only at hrt ⊢
        rw [hroot4]
        refine ⟨bx, by1, pk, root4, hnum, by rw [hgk, hpk], by rw [← hnn]; exact hbx, hbxty,
          ?_, hbn, hby1ty, hyr, by rw [← hnn]; exact hyn,
          by rw [← hnn]; exact hnr, by rw [List.getElem?_set_self hylt4],
          by rw [← hnn]; exact hroot4I, ?_, ?_, ?_⟩
        · rw [hyh]
          exact hfl
        · refine ⟨hs4.1, hs4.2.1, hs4.2.2.1, ?_⟩
          show (t4.buffercache.blocks.set y root4)[0]? = _
          rw [List.getElem?_set_ne hy0]
          exact hs4.2.2.2
        · rw [List.length_set, hlen4]
          exact hkS.2.2.1
        · intro j b hb hbty
          by_cases hjy : j = y
          · rw [hjy, List.getElem?_set_self hylt4] at hb
            cases hb
            have := hroot4I.nodeHasData
            rw [hbty] at this
            cases this
          · rw [List.getElem?_set_ne (Ne.symm hjy)] at hb
            by_cases hj0 : j = 0
            · rw [hj0, hs4.2.2.2] at hb
              cases hb
              rw [hs4.2.1] at hbty
              cases hbty
            · rw [hsame4 j hj0] at hb
              by_cases hjr : j = ts.superblock.info.rootnode
              · rw [hjr, hl] at hb
                cases hb
                rw [hbty] at hdl
                cases hdl
              · by_cases hjn : j = newNode
                · rw [hjn, hr1] at hb
                  cases hb
                  rw [hbty] at hdr
                  cases hdr
                · rw [← hsame j hj0 hjr hjn]
                  exact hb
    · rename_i rc4 n4 t4 hne heq
      simp only [Option.some.injEq, Prod.mk.injEq] at hsr
      exact absurd hsr.1 hne


/-! ## The root block in every reached state, and the new root of a root split -/

theorem RootInv_frame (g : Geom) (t t1 : BTreeIndex) (hinv : RootInv g t) (hk : Keeps t t1)
    (hf : Frame t.buffercache.blocks t1.buffercache.blocks) : RootInv g t1 := by
  obtain ⟨_, hN, ⟨b, hb, hty, hhdr⟩, hfree⟩ := hinv
  have hd : hasData b.info.nodetype = true := by rcases hty with h | h <;> rw [h] <;> rfl
  refine ⟨hk.1, by rw [hk.2.2.1]; exact hN, ?_, ?_⟩
  · obtain ⟨b1, hb1, hsh⟩ := hf.2.1 _ b hb hd
    refine ⟨b1, by rw [hk.2.1]; exact hb1, ?_, hsh.shHdr hhdr⟩
    rw [hsh.1]
    exact hty
  · intro j b1 hb1 hty1
    rw [hk.2.2.1]
    exact hfree j b1 (hf.2.2 j b1 hb1 hty1) hty1

/-- The descent of an Insert, whatever the capacities: it keeps the root
pointer, the root block stays a root or interior node with the sizes of the
tree, and the root object handed to the root split is such a node too. -/
theorem descent_rootinv (g : Geom) (t : BTreeIndex) (hinv : RootInv g t) (key : KEY_T)
    (v : VALUE_T) (rc : ERROR_T) (rootObj : BTreeNode) (ts : BTreeIndex)
    (hdesc : insertDescent g.m t key v = some (rc, rootObj, ts)) :
    RootInv g ts ∧ ts.superblock.info.rootnode = t.superblock.info.rootnode ∧
    (rootObj.info.nodetype = NodeType.BTREE_ROOT_NODE ∨
      rootObj.info.nodetype = NodeType.BTREE_INTERIOR_NODE) ∧ HdrOK g rootObj := by
  have hinv0 := hinv
  obtain ⟨hs, hN, ⟨b, hb, hty, hhdr⟩, hfree⟩ := hinv
  have hd : hasData b.info.nodetype = true := by rcases hty with h | h <;> rw [h] <;> rfl
  have hr0 : t.superblock.info.rootnode ≠ 0 := data_ne_zero hs hb hd
  unfold insertDescent at hdesc
  simp only at hdesc
  rw [Unserialize_data _ _ _ _ hb hd] at hdesc
  simp only at hdesc
  generalize hboot : (if b.info.numkeys = 0 then bootstrap g.m t b key
      else some (ERROR_T.ERROR_NOERROR, b, t)) = boot at hdesc
  have hbt : ∀ rcb root tb, boot = some (rcb, root, tb) →
      Keeps t tb ∧ Frame t.buffercache.blocks tb.buffercache.blocks ∧ SameShape b root := by
    intro rcb root tb hbt
    rw [← hboot] at hbt
    split at hbt
    · exact ⟨bootstrap_keeps g.m t hs hr0 _ _ key rcb tb hbt,
        bootstrap_frame g.m t hs b hb hd key rcb root tb hbt⟩
    · cases hbt
      exact ⟨Keeps.refl hs, Frame.frRefl _, SameShape.shRefl _⟩
  cases boot with
  | none => cases hdesc
  | some bt =>
    obtain ⟨rcb, root, tb⟩ := bt
    obtain ⟨hkb, hfb, hshb⟩ := hbt rcb root tb rfl
    cases rcb <;> try (simp only at hdesc; cases hdesc)
    simp only at hdesc
    cases hl : Lookup g.m tb key with
    | none => rw [hl] at hdesc; cases hdesc
    | some l =>
      obtain ⟨rcl, val⟩ := l
      rw [hl] at hdesc
      cases rcl <;> try (simp only at hdesc; cases hdesc)
      simp only at hdesc
      cases hsi : SearchInternal2 g.m (depthBound tb) tb tb.superblock.info.rootnode key v
          tb.superblock.info.rootnode with
      | none => rw [hsi] at hdesc; cases hdesc
      | some x =>
        obtain ⟨rcs, t1⟩ := x
        rw [hsi] at hdesc
        simp only [Option.some.injEq, Prod.mk.injEq] at hdesc
        obtain ⟨_, h2, h3⟩ := hdesc
        subst h2 h3
        have hks := SearchInternal2_keeps g.m _ tb hkb.1 _ key v _ rcs t1 hsi
        have hfs := SearchInternal2_frame g.m _ tb hkb.1 _ key v _ rcs t1 hsi
        have hkall := hkb.trans hks
        refine ⟨RootInv_frame g t t1 hinv0 hkall (hfb.frTrans hfs), hkall.2.1, ?_, hshb.shHdr hhdr⟩
        rw [hshb.1]
        exact hty

theorem descent_of_Insert (m : Machine) (t : BTreeIndex) (key : KEY_T) (v : VALUE_T)
    (t1 : BTreeIndex) (hins : BTreeIndex.Insert m t key v = some (ERROR_T.ERROR_NOERROR, t1)) :
    ∃ rc rootObj ts, insertDescent m t key v = some (rc, rootObj, ts) := by
  unfold BTreeIndex.Insert at hins
  unfold insertDescent
  simp only at hins ⊢
  generalize (if (BTreeNode.default.Unserialize t.buffercache
      t.superblock.info.rootnode).2.info.numkeys = 0
    then bootstrap m t (BTreeNode.default.Unserialize t.buffercache
      t.superblock.info.rootnode).2 key
    else some (ERROR_T.ERROR_NOERROR, (BTreeNode.default.Unserialize t.buffercache
      t.superblock.info.rootnode).2, t)) = pre at hins ⊢
  cases pre with
  | none => cases hins
  | some r =>
    obtain ⟨rc0, root, tb⟩ := r
    cases rc0 <;> try (simp only [Option.some.injEq, Prod.mk.injEq] at hins; cases hins.1)
    simp only at hins ⊢
    cases hl : Lookup m tb key with
    | none => rw [hl] at hins; cases hins
    | some l =>
      obtain ⟨rcl, val⟩ := l
      rw [hl] at hins
      cases rcl <;> try (simp only [Option.some.injEq, Prod.mk.injEq] at hins; cases hins.1)
      simp only at hins ⊢
      cases hd : SearchInternal2 m (depthBound tb) tb tb.superblock.info.rootnode key v
          tb.superblock.info.rootnode with
      | none => rw [hd] at hins; cases hins
      | some x =>
        obtain ⟨rcs, t2⟩ := x
        exact ⟨rcs, root, t2, rfl⟩

/-- A successful Insert keeps the invariant of the root block. -/
theorem Insert_rootinv (g : Geom) (t : BTreeIndex) (hinv : RootInv g t) (key : KEY_T)
    (v : VALUE_T) (t1 : BTreeIndex)
    (hins : BTreeIndex.Insert g.m t key v = some (ERROR_T.ERROR_NOERROR, t1)) :
    RootInv g t1 := by
  obtain ⟨rc, rootObj, ts, hdesc⟩ := descent_of_Insert g.m t key v t1 hins
  obtain ⟨hinvs, hroots, hroty, hrohdr⟩ := descent_rootinv g t hinv key v rc rootObj ts hdesc
  rw [Insert_of_descent g.m t key v rc rootObj ts hdesc] at hins
  by_cases hsp : NeedToSplit g.m ts ts.superblock.info.rootnode = true
  · rw [if_pos hsp, ← hroots] at hins
    obtain ⟨hss, hNs, ⟨c, hc, hcty, hchdr⟩, hfrees⟩ := hinvs
    obtain ⟨bx, bn, pk, b4, _, _, _, _, _, _, _, _, _, _, hb4, hint4, hs2, hlen2, hfk⟩ :=
      splitRoot_new_root g ts hss hNs c hc hcty hchdr hsp hfrees rootObj hroty hrohdr t1 hins
    refine ⟨hs2, by rw [hlen2]; exact hNs, ⟨b4, hb4, hint4.1, hint4.2.1⟩, ?_⟩
    intro j b hb hbty
    rw [hlen2]
    exact hfrees j b (hfk j b hb hbty) hbty
  · rw [if_neg hsp] at hins
    simp only [Option.some.injEq, Prod.mk.injEq] at hins
    rw [← hins.2]
    exact hinvs

theorem fresh_rootinv (m : Machine) (ks vs : Nat) (c : BufferCache) (t : BTreeIndex)
    (h : fresh m ks vs c = some t) (hN : c.blocks.length ≤ 256 ^ m.sizeofSIZE_T) :
    RootInv ⟨m, ks, vs, c.blocksize⟩ t := by
  obtain ⟨hs, hroot, _, _, _, _, hlen⟩ := fresh_super m ks vs c t h
  obtain ⟨hb1, hchain⟩ := fresh_layout m ks vs c t h
  refine ⟨hs, by rw [hlen]; exact hN, ?_, ?_⟩
  · rw [hroot]
    refine ⟨_, hb1, Or.inl rfl, ⟨rfl, rfl, rfl, ?_⟩⟩
    show (zeros (c.blocksize - m.sizeofNodeMetadata)).length = _
    simp [zeros, Geom.D]
  · intro j b hb hty
    have hjlt : j < t.buffercache.blocks.length := lt_length_of_getElem? hb
    by_cases hj0 : j = 0
    · rw [hj0, hs.2.2.2] at hb
      cases hb
      rw [hs.2.1] at hty
      cases hty
    · by_cases hj1 : j = 1
      · rw [hj1, hb1] at hb
        cases hb
        cases hty
      · rw [hchain j (by omega) (by rw [← hlen]; exact hjlt)] at hb
        cases hb
        show (if j + 1 = c.blocks.length then 0 else j + 1) < _
        split <;> omega

theorem runInserts_rootinv (g : Geom) :
    ∀ (w : List (KEY_T × VALUE_T)) (t t1 : BTreeIndex), RootInv g t →
      runInserts g.m t w = some t1 → RootInv g t1 := by
  intro w
  induction w with
  | nil =>
    intro t t1 hinv hrun
    simp only [runInserts, Option.some.injEq] at hrun
    rw [← hrun]
    exact hinv
  | cons e rest ih =>
    intro t t1 hinv hrun
    simp only [runInserts] at hrun
    cases hi : BTreeIndex.Insert g.m t e.1 e.2 with
    | none => rw [hi] at hrun; cases hrun
    | some x =>
      obtain ⟨rc, t2⟩ := x
      rw [hi] at hrun
      cases rc <;> try (simp only at hrun; cases hrun)
      simp only at hrun
      exact ih t2 t1 (Insert_rootinv g t hinv e.1 e.2 t2 hi) hrun

/-- C15: for every state reached from a fresh tree by successful inserts and
every successful insert after whose descent the root needs splitting (it holds
exactly as many keys as an interior node has slots): the superblock's rootnode
after the insert is a block that was free when the descent returned, different
from the old root block; the node stored there has numkeys 1, key 0 the middle
key of the old root as the descent left it (its key at index numkeys / 2),
pointer 0 the old root's block number and pointer 1 the block the split of the
root took off the free list for the right half. The block numbers of the
device fit a SIZE_T. -/
theorem root_split_new_root (m : Machine) (keysize valuesize : Nat) (cache : BufferCache)
    (w : List (KEY_T × VALUE_T)) (t0 t : BTreeIndex) (k : KEY_T) (v : VALUE_T)
    (t1 : BTreeIndex)
    (hN : cache.blocks.length ≤ 256 ^ m.sizeofSIZE_T)
    (h0 : fresh m keysize valuesize cache = some t0) (hrun : runInserts m t0 w = some t)
    (hfull : (insertDescent m t k v).map
      (fun r => NeedToSplit m r.2.2 r.2.2.superblock.info.rootnode) = some true)
    (hins : BTreeIndex.Insert m t k v = some (ERROR_T.ERROR_NOERROR, t1)) :
    ∃ rc rootObj ts oldRoot bx bn pk b4,
      insertDescent m t k v = some (rc, rootObj, ts) ∧
      ts.buffercache.blocks[t.superblock.info.rootnode]? = some oldRoot ∧
      oldRoot.info.numkeys = interiorCapacity m keysize cache.blocksize ∧
      oldRoot.GetKey m (oldRoot.info.numkeys / 2) = .ok pk ∧
      ts.buffercache.blocks[ts.superblock.info.freelist]? = some bx ∧
      bx.info.nodetype = NodeType.BTREE_UNALLOCATED_BLOCK ∧
      t1.superblock.info.rootnode = bx.info.freelist ∧
      ts.buffercache.blocks[t1.superblock.info.rootnode]? = some bn ∧
      bn.info.nodetype = NodeType.BTREE_UNALLOCATED_BLOCK ∧
      t1.superblock.info.rootnode ≠ t.superblock.info.rootnode ∧
      t1.superblock.info.rootnode ≠ ts.superblock.info.freelist ∧
      ts.superblock.info.freelist ≠ t.superblock.info.rootnode ∧
      t1.buffercache.blocks[t1.superblock.info.rootnode]? = some b4 ∧
      b4.info.numkeys = 1 ∧ b4.GetKey m 0 = .ok pk ∧
      b4.GetPtr m 0 = .ok t.superblock.info.rootnode ∧
      b4.GetPtr m 1 = .ok ts.superblock.info.freelist := by
  obtain ⟨g, hg⟩ : ∃ g : Geom, g = ⟨m, keysize, valuesize, cache.blocksize⟩ := ⟨_, rfl⟩
  have hgm : g.m = m := by rw [hg]
  have hinv0 : RootInv g t0 := by rw [hg]; exact fresh_rootinv m keysize valuesize cache t0 h0 hN
  have hinv : RootInv g t := runInserts_rootinv g w t0 t hinv0 (by rw [hgm]; exact hrun)
  obtain ⟨r, hdesc, hsplit⟩ := Option.map_eq_some'.mp hfull
  obtain ⟨rc, rootObj, ts⟩ := r
  simp only at hsplit
  obtain ⟨hinvs, hroots, hroty, hrohdr⟩ := descent_rootinv g t hinv k v rc rootObj ts
    (by rw [hgm]; exact hdesc)
  have hins2 := hins
  rw [Insert_of_descent m t k v rc rootObj ts hdesc, if_pos hsplit, ← hroots] at hins2
  obtain ⟨hss, hNs, ⟨c, hc, hcty, hchdr⟩, hfrees⟩ := hinvs
  obtain ⟨bx, bn, pk, b4, hnum, hgk, hbx, hbxty, hrfl, hbn, hbnty, hne1, hne2, hne3, hb4, hint4,
      _, _, _⟩ :=
    splitRoot_new_root g ts hss hNs c hc hcty hchdr (by rw [hgm]; exact hsplit) hfrees rootObj
      hroty hrohdr t1 (by rw [hgm]; exact hins2)
  rw [hroots] at hc hne1 hne3 hint4
  rw [hgm] at hgk
  refine ⟨rc, rootObj, ts, c, bx, bn, pk, b4, hdesc, hc, ?_, hgk, hbx, hbxty, hrfl, hbn, hbnty,
    hne1, hne2, hne3, hb4, hint4.2.2.1, ?_, ?_, ?_⟩
  · rw [hnum, hg]; rfl
  · have := int_GetKey g b4 t.superblock.info.rootnode [] [] (pk, ts.superblock.info.freelist)
      0 hint4
    rw [hgm] at this
    exact this
  · have := int_GetPtr_zero g b4 t.superblock.info.rootnode
      [(pk, ts.superblock.info.freelist)] 0 hint4
    rw [hgm] at this
    exact this
  · have := int_GetPtr_succ g b4 t.superblock.info.rootnode [] []
      (pk, ts.superblock.info.freelist) 0 hint4
    rw [hgm] at this
    exact this


/-! ## Concrete runs -/

/-- C3 at a concrete input: after `insert("aaaa","1111")` on a fresh
16-block device, `insert("aaaa","2222")` returns ERROR_CONFLICT and changes
nothing. -/
theorem insert_existing_key_conflict_witness :
    Lookup machine64 (stateAfter machine64 4 4 (blankCache 100 16) [([97, 97, 97, 97], [49, 49, 49, 49])])
        [97, 97, 97, 97] = some (ERROR_T.ERROR_NOERROR, [49, 49, 49, 49]) ∧
    (BTreeIndex.Insert machine64
        (stateAfter machine64 4 4 (blankCache 100 16) [([97, 97, 97, 97], [49, 49, 49, 49])])
        [97, 97, 97, 97] [50, 50, 50, 50]
      = some (ERROR_T.ERROR_CONFLICT,
          stateAfter machine64 4 4 (blankCache 100 16) [([97, 97, 97, 97], [49, 49, 49, 49])]) ∧
     Lookup machine64 (stateAfter machine64 4 4 (blankCache 100 16) [([97, 97, 97, 97], [49, 49, 49, 49])])
        [97, 97, 97, 97] = some (ERROR_T.ERROR_NOERROR, [49, 49, 49, 49])) :=
  ⟨by decide, insert_existing_key_conflict machine64 _ _ _ _ (by decide)⟩

/-- C6 (failing input): eight ascending inserts on a device whose leaves hold
4 and whose interior nodes hold 3 keys all return ERROR_NOERROR; the eighth
splits the root. The former root, block 1, is still stored with node type
BTREE_ROOT_NODE although the superblock's rootnode is now block 7, and
SanityCheck returns ERROR_BADCONFIG. -/
theorem sanity_check_fails_after_root_split :
    ((fresh machine64 4 4 (blankCache 100 12)).bind
        (fun t0 => runInserts machine64 t0 ((List.range 8).map (fun i => (word4 98 i, word4 118 i))))).map
      (fun t => (SanityCheck machine64 t, t.superblock.info.rootnode,
        (t.buffercache.blocks[1]?).map (fun b => b.info.nodetype)))
      = some (some ERROR_T.ERROR_BADCONFIG, 7, some NodeType.BTREE_ROOT_NODE) := by
  decide

/-- C8 (failing input): on a 3-block device the first insert pops block 2 off
the free list, finds no second free block and returns ERROR_NOSPACE. Block 2 is
then neither on the free list nor reachable from the root: one live block and
no free block on a device with two blocks besides the superblock. -/
theorem insert_nospace_leaks_block :
    (fresh machine64 4 4 (blankCache 100 3)).bind
        (fun t0 => (BTreeIndex.Insert machine64 t0 (word4 98 1) (word4 118 1)).map
          (fun r => (r.1, freeBlocks r.2, liveBlocks machine64 r.2, r.2.buffercache.blocks.length)))
      = some (ERROR_T.ERROR_NOSPACE, [], [1], 3) := by
  decide

/-- C10 (failing input): attach(0, create=true) on a 2-block device leaves the
superblock's freelist head at 2, a block the device does not have, instead
of 0. -/
theorem attach_two_blocks_freelist_head :
    (fresh machine64 4 4 (blankCache 100 2)).map
        (fun t => (t.superblock.info.freelist, t.superblock.info.rootnode,
          t.buffercache.blocks.length))
      = some (2, 1, 2) := by
  decide

/-- C1 (counterexample): with 4-byte keys and 1-byte values, 80-byte blocks
give leaves of three keys and interior nodes of one: the first insert into the
fresh tree returns ERROR_NOERROR, having split the root, and the lookup of the
same key returns ERROR_NONEXISTENT. With 88-byte blocks (leaves of four keys,
interior nodes of two), after the inserts of keys 0, 1, 2, 3 the insert of key
4 returns ERROR_NOERROR, having split a leaf and the root, and the lookup of
key 4 returns ERROR_NONEXISTENT. -/
theorem inserted_key_lost_small_interior :
    (leafCapacity machine64 4 1 80 = 3 ∧ interiorCapacity machine64 4 80 = 1 ∧
      (fresh machine64 4 1 (blankCache 80 8)).bind
          (fun t0 => (BTreeIndex.Insert machine64 t0 (word4 98 1) [7]).bind
            (fun r => (Lookup machine64 r.2 (word4 98 1)).map (fun l => (r.1, l))))
        = some (ERROR_T.ERROR_NOERROR, ERROR_T.ERROR_NONEXISTENT, [])) ∧
    (leafCapacity machine64 4 1 88 = 4 ∧ interiorCapacity machine64 4 88 = 2 ∧
      ((fresh machine64 4 1 (blankCache 88 12)).bind
          (fun t0 => runInserts machine64 t0
            ((([0, 1, 2, 3] : List Nat)).map (fun i => (word4 98 i, [i]))))).bind
        (fun t => (BTreeIndex.Insert machine64 t (word4 98 4) [4]).bind
          (fun r => (Lookup machine64 r.2 (word4 98 4)).map (fun l => (r.1, l))))
        = some (ERROR_T.ERROR_NOERROR, ERROR_T.ERROR_NONEXISTENT, [])) := by
  decide

/-- C2 (counterexample): with 4-byte keys, 1-byte values and 88-byte blocks a
leaf holds four keys and an interior node two. After successful inserts of
keys 10, 20, 5, 7 the insert of key 8 returns ERROR_NOERROR, and the lookup of
key 20 changes from its value to ERROR_NONEXISTENT. With 80-byte blocks (leaves
of three keys, interior nodes of one) the inserts of keys 1 and 2 both return
ERROR_NOERROR and neither key looks up to its value. -/
theorem insert_breaks_lookups_small_interior :
    (leafCapacity machine64 4 1 88 = 4 ∧ interiorCapacity machine64 4 88 = 2 ∧
      ((fresh machine64 4 1 (blankCache 88 10)).bind
          (fun t0 => runInserts machine64 t0
            ((([10, 20, 5, 7] : List Nat)).map (fun i => (word4 98 i, [i]))))).bind
        (fun t => (BTreeIndex.Insert machine64 t (word4 98 8) [8]).bind
            (fun r => (Lookup machine64 t (word4 98 20)).bind
              (fun before => (Lookup machine64 r.2 (word4 98 20)).map
                (fun after => (r.1, before, after)))))
        = some (ERROR_T.ERROR_NOERROR, (ERROR_T.ERROR_NOERROR, [20]),
            (ERROR_T.ERROR_NONEXISTENT, []))) ∧
    (leafCapacity machine64 4 1 80 = 3 ∧ interiorCapacity machine64 4 80 = 1 ∧
      ((fresh machine64 4 1 (blankCache 80 8)).bind
          (fun t0 => runInserts machine64 t0
            ((([1, 2] : List Nat)).map (fun i => (word4 98 i, [i]))))).map
        (fun t => (Lookup machine64 t (word4 98 1), Lookup machine64 t (word4 98 2)))
        = some (some (ERROR_T.ERROR_NONEXISTENT, []), some (ERROR_T.ERROR_NONEXISTENT, []))) := by
  decide

/-- C7 (counterexample): with 4-byte keys, 1-byte values and 88-byte blocks
(leaves of four keys, interior nodes of two), after successful inserts of keys
10, 20, 5, 7, 8 the sorted traversal emits four pairs only: the pair of key 20
is missing. With 80-byte blocks (leaves of three keys, interior nodes of one),
after the successful insert of key 1 the traversal emits nothing. -/
theorem display_misses_key_small_interior :
    (leafCapacity machine64 4 1 88 = 4 ∧ interiorCapacity machine64 4 88 = 2 ∧
      ((fresh machine64 4 1 (blankCache 88 10)).bind
          (fun t0 => runInserts machine64 t0
            ((([10, 20, 5, 7, 8] : List Nat)).map (fun i => (word4 98 i, [i]))))).bind
        (fun t => Display machine64 t)
        = some (ERROR_T.ERROR_NOERROR,
            (([5, 7, 8, 10] : List Nat)).map (fun i => (word4 98 i, [i])))) ∧
    (leafCapacity machine64 4 1 80 = 3 ∧ interiorCapacity machine64 4 80 = 1 ∧
      ((fresh machine64 4 1 (blankCache 80 8)).bind
          (fun t0 => runInserts machine64 t0 [(word4 98 1, [1])])).bind
        (fun t => Display machine64 t)
        = some (ERROR_T.ERROR_NOERROR, [])) := by
  decide

/-- C4 at a concrete input: after `insert("aaaa","1111")` and
`insert("bbbb","2222")` on a fresh 16-block device, `update("aaaa","9999")`
succeeds and the lookup of "aaaa" then returns "9999". -/
theorem update_then_lookup_witness :
    ∃ t1, Update machine64
        (stateAfter machine64 4 4 (blankCache 100 16)
          [([97, 97, 97, 97], [49, 49, 49, 49]), ([98, 98, 98, 98], [50, 50, 50, 50])])
        [97, 97, 97, 97] [57, 57, 57, 57] = some (ERROR_T.ERROR_NOERROR, t1) ∧
      Lookup machine64 t1 [97, 97, 97, 97] = some (ERROR_T.ERROR_NOERROR, [57, 57, 57, 57]) :=
  update_then_lookup machine64
    (stateAfter machine64 4 4 (blankCache 100 16)
      [([97, 97, 97, 97], [49, 49, 49, 49]), ([98, 98, 98, 98], [50, 50, 50, 50])])
    [97, 97, 97, 97] [57, 57, 57, 57] [49, 49, 49, 49] (by decide) (by decide) (by decide)

/-- C1 at a concrete input: on a 16-block device of 100-byte blocks (leaves
hold 4 keys, interior nodes 3), after the inserts of "b000".."b007", which
split leaves and the root, and an update of "b003", the insert of
("b008","v008") succeeds and the lookup of "b008" returns "v008". -/
theorem insert_then_lookup_witness :
    Lookup machine64
      (stateAfterCalls machine64 4 4 (blankCache 100 16)
        (((List.range 8).map (fun i => Call.insert (word4 98 i) (word4 118 i))
          ++ [Call.update (word4 98 3) (word4 119 3)])
          ++ [Call.insert (word4 98 8) (word4 118 8)]))
      (word4 98 8) = some (ERROR_T.ERROR_NOERROR, word4 118 8) :=
  (stateAfterCalls_step machine64 4 4 (blankCache 100 16)
    ((List.range 8).map (fun i => Call.insert (word4 98 i) (word4 118 i))
      ++ [Call.update (word4 98 3) (word4 119 3)])
    (word4 98 8) (word4 118 8) (by decide)).elim
    (fun t0 h => insert_then_lookup machine64 4 4 (blankCache 100 16)
      ((List.range 8).map (fun i => Call.insert (word4 98 i) (word4 118 i))
        ++ [Call.update (word4 98 3) (word4 119 3)])
      t0 _ _ (word4 98 8) (word4 118 8)
      (by decide) (by decide) (by decide) (by decide) (by decide) (by decide)
      h.1 h.2.1 h.2.2)

/-- C2 at a concrete input: on a 16-block device of 100-byte blocks, after the
inserts of "b000".."b006", the insert of "b007", which splits a leaf and the
root, leaves the lookup of every other key as it was, and the eight keys look
up to their values. -/
theorem insert_keeps_other_lookups_witness :
    (∀ k', k' ≠ word4 98 7 →
      Lookup machine64 (stateAfter machine64 4 4 (blankCache 100 16)
        ((List.range 7).map (fun i => (word4 98 i, word4 118 i))
          ++ [(word4 98 7, word4 118 7)])) k'
      = Lookup machine64 (stateAfter machine64 4 4 (blankCache 100 16)
        ((List.range 7).map (fun i => (word4 98 i, word4 118 i)))) k') ∧
    (∀ e ∈ (List.range 7).map (fun i => (word4 98 i, word4 118 i)) ++ [(word4 98 7, word4 118 7)],
      Lookup machine64 (stateAfter machine64 4 4 (blankCache 100 16)
        ((List.range 7).map (fun i => (word4 98 i, word4 118 i))
          ++ [(word4 98 7, word4 118 7)])) e.1
      = some (ERROR_T.ERROR_NOERROR, e.2)) :=
  (stateAfter_step machine64 4 4 (blankCache 100 16)
    ((List.range 7).map (fun i => (word4 98 i, word4 118 i)))
    (word4 98 7) (word4 118 7) (by decide)).elim
    (fun t0 h => insert_keeps_other_lookups machine64 4 4 (blankCache 100 16)
      ((List.range 7).map (fun i => (word4 98 i, word4 118 i)))
      t0 _ _ (word4 98 7) (word4 118 7)
      (by decide) (by decide) (by decide) (by decide) (by decide) (by decide)
      h.1 h.2.1 h.2.2)

/-- C7 at a concrete input: on a 16-block device of 100-byte blocks, after the
inserts of "b008", "b007", .., "b000" (descending), the traversal emits a
permutation of the nine pairs with strictly increasing keys. -/
theorem display_sorted_inserted_witness :
    ∃ out, Display machine64 (stateAfter machine64 4 4 (blankCache 100 16)
        ((List.range 9).reverse.map (fun i => (word4 98 i, word4 118 i))))
        = some (ERROR_T.ERROR_NOERROR, out) ∧
      out.Perm ((List.range 9).reverse.map (fun i => (word4 98 i, word4 118 i))) ∧
      out.Pairwise (fun x y => keyLt x.1 y.1 = true) :=
  (stateAfter_run machine64 4 4 (blankCache 100 16)
    ((List.range 9).reverse.map (fun i => (word4 98 i, word4 118 i))) (by decide)).elim
    (fun t0 h => display_sorted_inserted machine64 4 4 (blankCache 100 16)
      ((List.range 9).reverse.map (fun i => (word4 98 i, word4 118 i)))
      t0 _ (by decide) (by decide) (by decide) (by decide) h.1 h.2)


/-! ## Concrete runs: the allocator, the splits and the root -/

/-- C11 (counterexample): on a fresh 4-block device whose cached free-list
head is set to 1, the root block, which is not stored as unallocated,
AllocateNode does not return: its assertion fails. And after one insert, which
takes the two free blocks, the call with `superblock.info.rootnode` as `n`
returns ERROR_NOSPACE having set the cached rootnode, 1 before, to 0. -/
theorem allocate_asserts_or_clears_root :
    ((fresh machine64 4 4 (blankCache 100 4)).map
        (fun t => (t.superblock.info.freelist,
          (t.buffercache.blocks[1]?).map (fun b => b.info.nodetype),
          (AllocateNode { t with superblock := t.superblock.withFreelist 1 } false).isSome))
      = some (2, some NodeType.BTREE_ROOT_NODE, false)) ∧
    (((fresh machine64 4 4 (blankCache 100 4)).bind
        (fun t0 => runInserts machine64 t0 (ascendingRun 1))).bind
        (fun t => (AllocateNode t true).map
          (fun r => (t.superblock.info.freelist, t.superblock.info.rootnode, r.1,
            r.2.2.superblock.info.rootnode)))
      = some (0, 1, ERROR_T.ERROR_NOSPACE, 0)) := by
  decide

/-- C12 (failing input): on a 7-block device of 100-byte blocks (leaves of 4
keys, interior nodes of 3) the inserts of "b000".."b006" succeed and leave the
root at block 1. The insert of "b007" fills the root; its split takes the last
free block for the right half, the allocation of the new root finds the free
list empty, and Insert returns ERROR_NOSPACE with the cached rootnode 0, the
superblock's own block. -/
theorem root_split_nospace_clears_rootnode :
    ((fresh machine64 4 4 (blankCache 100 7)).bind
        (fun t0 => runInserts machine64 t0 (ascendingRun 7))).bind
        (fun t => (BTreeIndex.Insert machine64 t (word4 98 7) (word4 118 7)).map
          (fun r => (t.superblock.info.rootnode,
            (t.buffercache.blocks[t.superblock.info.rootnode]?).map (fun b => b.info.nodetype),
            r.1, r.2.superblock.info.rootnode,
            (r.2.buffercache.blocks[r.2.superblock.info.rootnode]?).map
              (fun b => b.info.nodetype))))
      = some (1, some NodeType.BTREE_ROOT_NODE, ERROR_T.ERROR_NOSPACE, 0,
          some NodeType.BTREE_SUPERBLOCK) := by
  decide

/-- C13 (failing input): after the insert of "b000" on a fresh 4-block device
the root has one key and two leaves, blocks 2 and 3. With block 2 overwritten
by an unallocated block, the lookup of "a000", never inserted, reaches that
block and returns ERROR_INSANE; Insert of "a000" then returns ERROR_CONFLICT,
not ERROR_INSANE, and changes nothing. -/
theorem insert_reports_lookup_error_as_conflict :
    ((fresh machine64 4 4 (blankCache 100 4)).bind
        (fun t0 => runInserts machine64 t0 (ascendingRun 1))).map
        (fun t => (Lookup machine64 (t.put 2 BTreeNode.default) (word4 97 0),
          (BTreeIndex.Insert machine64 (t.put 2 BTreeNode.default) (word4 97 0) (word4 118 9)).map
            (fun r => (r.1, decide (r.2 = t.put 2 BTreeNode.default)))))
      = some (some (ERROR_T.ERROR_INSANE, []), some (ERROR_T.ERROR_CONFLICT, true)) := by
  decide

/-- C16 (failing input): after the inserts of "b000".."b007" on a 12-block
device of 100-byte blocks, the eighth of which splits the root, the
superblock's rootnode is block 7, whose two children are block 1, the former
root, and block 6, the right half of the split; blocks 1, 6 and 7 are all
stored with node type BTREE_ROOT_NODE. -/
theorem root_split_leaves_three_root_nodes :
    ((fresh machine64 4 4 (blankCache 100 12)).bind
        (fun t0 => runInserts machine64 t0 (ascendingRun 8))).map
        (fun t => (t.superblock.info.rootnode,
          [(t.buffercache.blocks[7]?).bind (fun b => (b.GetPtr machine64 0).toOption),
           (t.buffercache.blocks[7]?).bind (fun b => (b.GetPtr machine64 1).toOption)],
          [(t.buffercache.blocks[1]?).map (fun b => b.info.nodetype),
           (t.buffercache.blocks[6]?).map (fun b => b.info.nodetype),
           (t.buffercache.blocks[7]?).map (fun b => b.info.nodetype)]))
      = some (7, [some 1, some 6], [some NodeType.BTREE_ROOT_NODE,
          some NodeType.BTREE_ROOT_NODE, some NodeType.BTREE_ROOT_NODE]) := by
  decide

/-- C17 (counterexample): with leaves of 4 keys (100-byte blocks), after the
inserts of "b009", "b008", "b007", which all went into the leaf at block 2
(numkeys of blocks 0..4: 0, 1, 3, 0, 0; free-list head 4), the insert of "b006"
returns ERROR_NOERROR, brings that leaf to 4 entries and splits it in the same
call: the leaf keeps 3 entries, block 4 is taken off the free list and holds
the fourth as a leaf, the root has 2 keys instead of 1 (numkeys 0, 2, 3, 0, 1;
free-list head 5). -/
theorem leaf_split_at_capacity :
    leafCapacity machine64 4 4 100 = 4 ∧
    ((fresh machine64 4 4 (blankCache 100 12)).bind
        (fun t0 => runInserts machine64 t0 (descendingRun 3))).bind
        (fun t => (BTreeIndex.Insert machine64 t (word4 98 6) (word4 118 6)).map
          (fun r => ((t.buffercache.blocks.map (fun b => b.info.numkeys)).take 5
              ++ [t.superblock.info.freelist], r.1,
            (r.2.buffercache.blocks.map (fun b => b.info.numkeys)).take 5
              ++ [r.2.superblock.info.freelist],
            (r.2.buffercache.blocks[4]?).map (fun b => b.info.nodetype))))
      = some ([0, 1, 3, 0, 0, 4], ERROR_T.ERROR_NOERROR, [0, 2, 3, 0, 1, 5],
          some NodeType.BTREE_LEAF_NODE) := by
  decide

/-- C19 (counterexample): on a 12-block device of 100-byte blocks, after the
inserts of "b000".."b003" the root, block 1, has one key and the children 2 and
3: SplitNode returns ERROR_NOERROR with the new block 4, which has no key and
holds child 2 as its pointer 0, as the old block does; child 3 is in neither.
After the insert of "b004" the root has two keys and the children 2, 3, 4:
SplitNode returns ERROR_NOERROR with the new block 5, which has no key and
holds child 2 as its pointer 0, while the old block keeps one key and the
children 2 and 3; child 4 is in neither. Each list gives numkeys and the
pointers 0, 1, .. of a node. -/
theorem interior_split_drops_child :
    (((fresh machine64 4 4 (blankCache 100 12)).bind
        (fun t0 => runInserts machine64 t0 (ascendingRun 4))).bind
        (fun t => (SplitNode machine64 t 1 []).map
          (fun r => (r.1, r.2.1,
            [(t.buffercache.blocks[1]?).map (fun b => b.info.numkeys),
             (t.buffercache.blocks[1]?).bind (fun b => (b.GetPtr machine64 0).toOption),
             (t.buffercache.blocks[1]?).bind (fun b => (b.GetPtr machine64 1).toOption)],
            [(r.2.2.2.buffercache.blocks[1]?).map (fun b => b.info.numkeys),
             (r.2.2.2.buffercache.blocks[1]?).bind (fun b => (b.GetPtr machine64 0).toOption),
             (r.2.2.2.buffercache.blocks[r.2.1]?).map (fun b => b.info.numkeys),
             (r.2.2.2.buffercache.blocks[r.2.1]?).bind
               (fun b => (b.GetPtr machine64 0).toOption)])))
      = some (ERROR_T.ERROR_NOERROR, 4, [some 1, some 2, some 3],
          [some 0, some 2, some 0, some 2])) ∧
    (((fresh machine64 4 4 (blankCache 100 12)).bind
        (fun t0 => runInserts machine64 t0 (ascendingRun 5))).bind
        (fun t => (SplitNode machine64 t 1 []).map
          (fun r => (r.1, r.2.1,
            [(t.buffercache.blocks[1]?).map (fun b => b.info.numkeys),
             (t.buffercache.blocks[1]?).bind (fun b => (b.GetPtr machine64 0).toOption),
             (t.buffercache.blocks[1]?).bind (fun b => (b.GetPtr machine64 1).toOption),
             (t.buffercache.blocks[1]?).bind (fun b => (b.GetPtr machine64 2).toOption)],
            [(r.2.2.2.buffercache.blocks[1]?).map (fun b => b.info.numkeys),
             (r.2.2.2.buffercache.blocks[1]?).bind (fun b => (b.GetPtr machine64 0).toOption),
             (r.2.2.2.buffercache.blocks[1]?).bind (fun b => (b.GetPtr machine64 1).toOption),
             (r.2.2.2.buffercache.blocks[r.2.1]?).map (fun b => b.info.numkeys),
             (r.2.2.2.buffercache.blocks[r.2.1]?).bind
               (fun b => (b.GetPtr machine64 0).toOption)])))
      = some (ERROR_T.ERROR_NOERROR, 5, [some 2, some 2, some 3, some 4],
          [some 1, some 2, some 3, some 0, some 2])) :=
  ⟨by decide, by decide⟩

/-- C20 (counterexample): the root of a fresh tree on a device of 100-byte
blocks has no key and room for 3; AddKeyVal on it returns
ERROR_WRONGNODETYPE, the code of the SetVal it calls on a node without
keys. -/
theorem add_key_val_keyless_root_fails :
    (fresh machine64 4 4 (blankCache 100 4)).map
        (fun t => ((t.buffercache.blocks[1]?).map (fun b => (b.info.nodetype, b.info.numkeys)),
          interiorCapacity machine64 4 100,
          (AddKeyVal machine64 t 1 (word4 98 1) [] 2).1))
      = some (some (NodeType.BTREE_ROOT_NODE, 0), 3, ERROR_T.ERROR_WRONGNODETYPE) := by
  decide

/-! ## The claims at concrete inputs -/

/-- C11 at a concrete input: on a fresh 4-block device, whose free list is
block 2 then block 3, AllocateNode returns ERROR_NOERROR and block 2, leaves
block 3 as the head of the free list, and changes no block but block 0. -/
theorem allocate_pops_free_list_head_witness :
    ∃ t1, AllocateNode (stateAfter machine64 4 4 (blankCache 100 4) []) false
        = some (ERROR_T.ERROR_NOERROR, 2, t1) ∧
      t1.superblock.info.freelist = 3 ∧
      (∀ j, j ≠ 0 → t1.buffercache.blocks[j]?
        = (stateAfter machine64 4 4 (blankCache 100 4) []).buffercache.blocks[j]?) := by
  obtain ⟨b, t1, hb, hal, _, hfl, _, _, _, hfr⟩ :=
    (allocate_pops_free_list_head (stateAfter machine64 4 4 (blankCache 100 4) []) false
      (fun _ => Option.map_eq_some'.mp (by decide))).2.2 (by decide)
  have hf : (stateAfter machine64 4 4 (blankCache 100 4) []).superblock.info.freelist = 2 := by
    decide
  have hi : (stateAfter machine64 4 4 (blankCache 100 4) []).superblock_index = 0 := by
    decide
  have hb2 : ((stateAfter machine64 4 4 (blankCache 100 4) []).buffercache.blocks[2]?).map
      (fun x => x.info.freelist) = some 3 := by decide
  rw [hf] at hb hal
  rw [hi] at hfr
  rw [hb] at hb2
  refine ⟨t1, hal, ?_, hfr⟩
  rw [hfl]
  exact Option.some.inj hb2

/-- C15 at concrete inputs: on a 12-block device of 100-byte blocks, after
the inserts of "b000".."b006" the root is block 1; the insert of "b007" fills
it and splits it, and the new root then holds one key, block 1 as its left
pointer and the block taken for the right half as its right pointer. And on a
fresh 8-block device of 80-byte blocks (leaves of 2 keys, interior nodes of 1)
the insert of "b000" fills the root and splits it, with the same outcome. -/
theorem root_split_new_root_witness :
    (∃ t1 b4 pk right,
      BTreeIndex.Insert machine64 (stateAfter machine64 4 4 (blankCache 100 12) (ascendingRun 7))
        (word4 98 7) (word4 118 7) = some (ERROR_T.ERROR_NOERROR, t1) ∧
      t1.superblock.info.rootnode ≠ 1 ∧
      t1.buffercache.blocks[t1.superblock.info.rootnode]? = some b4 ∧
      b4.info.numkeys = 1 ∧ b4.GetKey machine64 0 = .ok pk ∧
      b4.GetPtr machine64 0 = .ok 1 ∧ b4.GetPtr machine64 1 = .ok right ∧
      right ≠ 1 ∧ right ≠ t1.superblock.info.rootnode) ∧
    (leafCapacity machine64 4 4 80 = 2 ∧ interiorCapacity machine64 4 80 = 1 ∧
      ∃ t1 b4 pk right,
      BTreeIndex.Insert machine64 (stateAfter machine64 4 4 (blankCache 80 8) [])
        (word4 98 0) (word4 118 0) = some (ERROR_T.ERROR_NOERROR, t1) ∧
      t1.superblock.info.rootnode ≠ 1 ∧
      t1.buffercache.blocks[t1.superblock.info.rootnode]? = some b4 ∧
      b4.info.numkeys = 1 ∧ b4.GetKey machine64 0 = .ok pk ∧
      b4.GetPtr machine64 0 = .ok 1 ∧ b4.GetPtr machine64 1 = .ok right ∧
      right ≠ 1 ∧ right ≠ t1.superblock.info.rootnode) := by
  constructor
  · obtain ⟨t0, h0, hrun, hins⟩ := stateAfter_step machine64 4 4 (blankCache 100 12)
      (ascendingRun 7) (word4 98 7) (word4 118 7) (by decide)
    obtain ⟨rc, rootObj, ts, oldRoot, bx, bn, pk, b4, _, _, _, _, _, _, _, _, _, hne1, hne2,
        hne3, hb4, hn, hk, hp0, hp1⟩ :=
      root_split_new_root machine64 4 4 (blankCache 100 12) (ascendingRun 7) t0 _
        (word4 98 7) (word4 118 7) _ (by decide) h0 hrun (by decide) hins
    have hr : (stateAfter machine64 4 4 (blankCache 100 12)
        (ascendingRun 7)).superblock.info.rootnode = 1 := by decide
    rw [hr] at hne1 hne3 hp0
    exact ⟨_, b4, pk, _, hins, hne1, hb4, hn, hk, hp0, hp1, hne3, fun h => hne2 h.symm⟩
  · refine ⟨by decide, by decide, ?_⟩
    obtain ⟨t0, h0, hrun, hins⟩ := stateAfter_step machine64 4 4 (blankCache 80 8)
      [] (word4 98 0) (word4 118 0) (by decide)
    obtain ⟨rc, rootObj, ts, oldRoot, bx, bn, pk, b4, _, _, _, _, _, _, _, _, _, hne1, hne2,
        hne3, hb4, hn, hk, hp0, hp1⟩ :=
      root_split_new_root machine64 4 4 (blankCache 80 8) [] t0 _
        (word4 98 0) (word4 118 0) _ (by decide) h0 hrun (by decide) hins
    have hr : (stateAfter machine64 4 4 (blankCache 80 8)
        []).superblock.info.rootnode = 1 := by decide
    rw [hr] at hne1 hne3 hp0
    exact ⟨_, b4, pk, _, hins, hne1, hb4, hn, hk, hp0, hp1, hne3, fun h => hne2 h.symm⟩

/-- C17 at a concrete input: on a 12-block device of 100-byte blocks (leaves
of 4 keys), after the inserts of "b009", "b008", "b007" the leaf at block 2
holds 3 keys; the insert of "b006" brings it to 4 and splits it: the call
returns ERROR_NOERROR, block 2 is then a leaf of 3 keys and block 4, the head
of the free list before, a leaf of 1 key. -/
theorem leaf_split_on_reaching_capacity_witness :
    ∃ t2 bl br,
      BTreeIndex.Insert machine64 (stateAfter machine64 4 4 (blankCache 100 12) (descendingRun 3))
        (word4 98 6) (word4 118 6) = some (ERROR_T.ERROR_NOERROR, t2) ∧
      t2.buffercache.blocks[2]? = some bl ∧
      bl.info.nodetype = NodeType.BTREE_LEAF_NODE ∧ bl.info.numkeys = 3 ∧
      t2.buffercache.blocks[4]? = some br ∧
      br.info.nodetype = NodeType.BTREE_LEAF_NODE ∧ br.info.numkeys = 1 := by
  obtain ⟨t0, h0, hrun⟩ := stateAfter_run machine64 4 4 (blankCache 100 12) (descendingRun 3)
    (by decide)
  obtain ⟨bp, p0, kps, lf, es, hbp, hint, hlf, hleaf, _, hsplit⟩ :=
    leaf_split_on_reaching_capacity machine64 4 4 (blankCache 100 12) (descendingRun 3) t0 _
      (word4 98 6) (word4 118 6) [] 1 2 (by decide) (by decide) (by decide) (by decide) h0 hrun
      (by decide) (by decide) (by decide) (by decide) (by decide)
  have hn2 : ((stateAfter machine64 4 4 (blankCache 100 12)
      (descendingRun 3)).buffercache.blocks[2]?).map (fun b => b.info.numkeys) = some 3 := by
    decide
  have hn1 : ((stateAfter machine64 4 4 (blankCache 100 12)
      (descendingRun 3)).buffercache.blocks[1]?).map (fun b => b.info.numkeys) = some 1 := by
    decide
  have hf : (stateAfter machine64 4 4 (blankCache 100 12)
      (descendingRun 3)).superblock.info.freelist = 4 := by decide
  rw [hlf] at hn2
  rw [hbp] at hn1
  have hes : es.length = 3 := by
    have h2 : lf.info.numkeys = es.length := hleaf.2.2.1
    have h3 : lf.info.numkeys = 3 := Option.some.inj hn2
    omega
  have hkps : kps.length = 1 := by
    have h2 : bp.info.numkeys = kps.length := hint.2.2.1
    have h3 : bp.info.numkeys = 1 := Option.some.inj hn1
    omega
  have hcL : leafCapacity machine64 4 4 (blankCache 100 12).blocksize = 4 := by decide
  have hcI : interiorCapacity machine64 4 (blankCache 100 12).blocksize = 3 := by decide
  obtain ⟨bx, t2, bl, br, bp1, el, e, er, _, _, _, hsp, hlen, hbl, hll, hbr, hlr, _, _, _, _,
      hins⟩ := hsplit (by rw [hes, hcL]) (by rw [hf]; decide)
  rw [hf] at hbr
  rw [hcL] at hlen
  have hlen4 := congrArg List.length hsp
  rw [length_insSlot, hes] at hlen4
  simp only [List.length_append, List.length_cons, List.length_nil] at hlen4 hlen
  refine ⟨t2, bl, br, hins (by rw [hkps, hcI]), hbl, hll.1, ?_, hbr, hlr.1, ?_⟩
  · rw [hll.2.2.1]
    simp only [List.length_append, List.length_cons, List.length_nil]
    omega
  · rw [hlr.2.2.1]
    omega

/-- C18 at a concrete input: on a 12-block device of 100-byte blocks, after
the inserts of "b009", "b008", "b007" the leaf at block 2 holds 3 keys and
block 4 heads the free list; SplitNode on block 2 returns ERROR_NOERROR and
block 4, leaving a leaf of 2 keys at block 2 and a leaf of 1 key at block 4. -/
theorem leaf_split_halves_witness :
    ∃ sep t2 bl br,
      SplitNode machine64 (stateAfter machine64 4 4 (blankCache 100 12) (descendingRun 3)) 2 []
        = some (ERROR_T.ERROR_NOERROR, 4, sep, t2) ∧
      t2.buffercache.blocks[2]? = some bl ∧
      bl.info.nodetype = NodeType.BTREE_LEAF_NODE ∧ bl.info.numkeys = 2 ∧
      t2.buffercache.blocks[4]? = some br ∧
      br.info.nodetype = NodeType.BTREE_LEAF_NODE ∧ br.info.numkeys = 1 := by
  obtain ⟨t0, h0, hrun⟩ := stateAfter_run machine64 4 4 (blankCache 100 12) (descendingRun 3)
    (by decide)
  obtain ⟨hs, hleaves, _, _⟩ := reached_blocks machine64 4 4 (blankCache 100 12)
    (descendingRun 3) t0 _ (by decide) (by decide) (by decide) (by decide) h0 hrun
  obtain ⟨b, hb, hb2⟩ := Option.map_eq_some'.mp (by decide :
    ((stateAfter machine64 4 4 (blankCache 100 12) (descendingRun 3)).buffercache.blocks[2]?).map
      (fun b => (b.info.nodetype, b.info.numkeys)) = some (NodeType.BTREE_LEAF_NODE, 3))
  have hty : b.info.nodetype = NodeType.BTREE_LEAF_NODE := congrArg Prod.fst hb2
  have hnk : b.info.numkeys = 3 := congrArg Prod.snd hb2
  obtain ⟨es, hl, _⟩ := hleaves 2 b hb hty
  have hes : es.length = 3 := by
    have h2 : b.info.numkeys = es.length := hl.2.2.1
    omega
  have hf : (stateAfter machine64 4 4 (blankCache 100 12)
      (descendingRun 3)).superblock.info.freelist = 4 := by decide
  obtain ⟨bx, hbx, htyx⟩ := Option.map_eq_some'.mp (by decide :
    ((stateAfter machine64 4 4 (blankCache 100 12) (descendingRun 3)).buffercache.blocks[
      (stateAfter machine64 4 4 (blankCache 100 12)
        (descendingRun 3)).superblock.info.freelist]?).map
      (fun b => b.info.nodetype) = some NodeType.BTREE_UNALLOCATED_BLOCK)
  obtain ⟨t2, bl, br, el, e, er, hsp, hsplit, hlen, hbl, hll, hbr, hlr, _, _⟩ :=
    leaf_split_halves ⟨machine64, 4, 4, (blankCache 100 12).blocksize⟩
      (stateAfter machine64 4 4 (blankCache 100 12) (descendingRun 3)) hs 2 b es hb
      (LeafAt_slack _ _ _ 1 0 hl (by omega)) (by omega) bx (by rw [hf]; decide) hbx htyx []
  rw [hf] at hsp hbr
  have hlen3 := congrArg List.length hsplit
  rw [hes] at hlen3 hlen
  simp only [List.length_append, List.length_cons, List.length_nil] at hlen3 hlen
  refine ⟨e.1, t2, bl, br, hsp, hbl, hll.1, ?_, hbr, hlr.1, ?_⟩
  · rw [hll.2.2.1]
    simp only [List.length_append, List.length_cons, List.length_nil]
    omega
  · rw [hlr.2.2.1]
    omega

/-- C19 at a concrete input: with 4-byte keys, 12-byte values and 112-byte
blocks (leaves of 3 keys, interior nodes of 4) on a 12-block device, after six
ascending inserts the root, block 1, holds 3 keys and block 6 heads the free
list; SplitNode on block 1 returns ERROR_NOERROR and block 6, leaving one key
in each half, and the pointers of the two halves are the four pointers of the
node before, in order. -/
theorem interior_split_halves_witness :
    ∃ t2 bl br p0 kl e kr,
      SplitNode machine64 (stateAfter machine64 4 12 (blankCache 112 12) (wideRun 6)) 1 []
        = some (ERROR_T.ERROR_NOERROR, 6, e.1, t2) ∧
      t2.buffercache.blocks[1]? = some bl ∧
      IntAt ⟨machine64, 4, 12, 112⟩ bl p0 kl 0 ∧ bl.info.numkeys = 1 ∧
      t2.buffercache.blocks[6]? = some br ∧
      IntAt ⟨machine64, 4, 12, 112⟩ br e.2 kr 0 ∧ br.info.numkeys = 1 ∧
      kidsOf p0 kl ++ kidsOf e.2 kr = kidsOf p0 (kl ++ e :: kr) := by
  obtain ⟨t0, h0, hrun⟩ := stateAfter_run machine64 4 12 (blankCache 112 12) (wideRun 6)
    (by decide)
  obtain ⟨hs, _, ⟨rb, hrb, _, hroot⟩, _⟩ := reached_blocks machine64 4 12 (blankCache 112 12)
    (wideRun 6) t0 _ (by decide) (by decide) (by decide) (by decide) h0 hrun
  have hr : (stateAfter machine64 4 12 (blankCache 112 12)
      (wideRun 6)).superblock.info.rootnode = 1 := by decide
  have hf : (stateAfter machine64 4 12 (blankCache 112 12)
      (wideRun 6)).superblock.info.freelist = 6 := by decide
  have hn1 : ((stateAfter machine64 4 12 (blankCache 112 12)
      (wideRun 6)).buffercache.blocks[1]?).map (fun b => b.info.numkeys) = some 3 := by
    decide
  rw [hr] at hrb
  rw [hrb] at hn1
  have hnk : rb.info.numkeys = 3 := Option.some.inj hn1
  obtain ⟨bx, hbx, htyx⟩ := Option.map_eq_some'.mp (by decide :
    ((stateAfter machine64 4 12 (blankCache 112 12) (wideRun 6)).buffercache.blocks[
      (stateAfter machine64 4 12 (blankCache 112 12)
        (wideRun 6)).superblock.info.freelist]?).map
      (fun b => b.info.nodetype) = some NodeType.BTREE_UNALLOCATED_BLOCK)
  rcases hroot with h | ⟨p0, kps, _, hint⟩
  · omega
  · have hkps : kps.length = 3 := by
      have h2 : rb.info.numkeys = kps.length := hint.2.2.1
      omega
    obtain ⟨t2, bl, br, kl, e, kr, hsp, hsplit, hlen, hbl, hll, hbr, hlr, hkids, _⟩ :=
      interior_split_halves ⟨machine64, 4, 12, (blankCache 112 12).blocksize⟩
        (stateAfter machine64 4 12 (blankCache 112 12) (wideRun 6)) hs 1 rb p0 kps hrb
        hint (by omega) bx (by rw [hf]; decide) hbx htyx []
    rw [hf] at hsp hbr
    have hlen3 := congrArg List.length hsplit
    rw [hkps] at hlen3 hlen
    simp only [List.length_append, List.length_cons, List.length_nil] at hlen3
    rw [hsplit] at hkids
    refine ⟨t2, bl, br, p0, kl, e, kr, hsp, hbl, hll, ?_, hbr, hlr, ?_, hkids⟩
    · rw [hll.2.2.1]
      omega
    · rw [hlr.2.2.1]
      omega

/-- C20 at a concrete input: on a 6-block device of 100-byte blocks, after the
insert of "b000" the leaf at block 2 holds that key and the root, block 1,
holds one separator; AddKeyVal of "a005" on block 2 returns ERROR_NOERROR and
leaves a leaf of 2 keys in ascending order, and AddKeyVal of "a005" with child
5 on block 1 returns ERROR_NOERROR and leaves a root of 2 keys. -/
theorem add_key_val_ordered_witness :
    (∃ b1 es, AddKeyVal machine64 (stateAfter machine64 4 4 (blankCache 100 6) (ascendingRun 1)) 2
        (word4 97 5) (word4 118 5) 0
        = (ERROR_T.ERROR_NOERROR,
            (stateAfter machine64 4 4 (blankCache 100 6) (ascendingRun 1)).put 2 b1) ∧
      LeafAt ⟨machine64, 4, 4, 100⟩ b1 es 0 ∧ b1.info.numkeys = 2 ∧
      es.Pairwise (fun x y => keyLt x.1 y.1 = true)) ∧
    (∃ b1 p0 kps, AddKeyVal machine64
        (stateAfter machine64 4 4 (blankCache 100 6) (ascendingRun 1)) 1
        (word4 97 5) [] 5
        = (ERROR_T.ERROR_NOERROR,
            (stateAfter machine64 4 4 (blankCache 100 6) (ascendingRun 1)).put 1 b1) ∧
      IntAt ⟨machine64, 4, 4, 100⟩ b1 p0 kps 0 ∧ b1.info.numkeys = 2 ∧
      b1.info.nodetype = NodeType.BTREE_ROOT_NODE ∧
      kps.Pairwise (fun x y => keyLt x.1 y.1 = true)) := by
  obtain ⟨t0, h0, hrun⟩ := stateAfter_run machine64 4 4 (blankCache 100 6) (ascendingRun 1)
    (by decide)
  obtain ⟨hs, hleaves, ⟨rb, hrb, _, hroot⟩, _⟩ := reached_blocks machine64 4 4
    (blankCache 100 6) (ascendingRun 1) t0 _ (by decide) (by decide) (by decide) (by decide)
    h0 hrun
  constructor
  · obtain ⟨b, hb, hb2⟩ := Option.map_eq_some'.mp (by decide :
      ((stateAfter machine64 4 4 (blankCache 100 6) (ascendingRun 1)).buffercache.blocks[2]?).map
        (fun b => (b.info.nodetype, b.info.numkeys)) = some (NodeType.BTREE_LEAF_NODE, 1))
    have hty : b.info.nodetype = NodeType.BTREE_LEAF_NODE := congrArg Prod.fst hb2
    have hnk : b.info.numkeys = 1 := congrArg Prod.snd hb2
    obtain ⟨es, hl, hes⟩ := hleaves 2 b hb hty
    have hlen : es.length = 1 := by
      have h2 : b.info.numkeys = es.length := hl.2.2.1
      omega
    obtain ⟨x, hx⟩ := List.length_eq_one.mp hlen
    obtain ⟨b1, es1, es2, hadd, _, hl1, hn1, hsorted⟩ :=
      (add_key_val_ordered ⟨machine64, 4, 4, (blankCache 100 6).blocksize⟩
        (stateAfter machine64 4 4 (blankCache 100 6) (ascendingRun 1)) 2 b hb
        (word4 97 5) (by decide) (word4 118 5) 0).1 es hl (by decide)
        (by rw [hx]; exact List.pairwise_singleton _ _)
        (fun e he heq => by
          obtain ⟨y, hy, hye⟩ := hes e he
          rw [heq] at hye
          exact absurd (hye ▸ List.mem_map_of_mem Prod.fst hy)
            (by decide : word4 97 5 ∉ (ascendingRun 1).map Prod.fst))
    exact ⟨b1, _, hadd, hl1, by rw [hn1, hnk], hsorted⟩
  · have hr : (stateAfter machine64 4 4 (blankCache 100 6)
        (ascendingRun 1)).superblock.info.rootnode = 1 := by decide
    have hn1 : ((stateAfter machine64 4 4 (blankCache 100 6)
        (ascendingRun 1)).buffercache.blocks[1]?).map
        (fun b => (b.info.nodetype, b.info.numkeys, (b.GetKey machine64 0).toOption))
        = some (NodeType.BTREE_ROOT_NODE, 1, some (word4 98 0)) := by decide
    rw [hr] at hrb
    rw [hrb] at hn1
    have hq := Option.some.inj hn1
    have hty : rb.info.nodetype = NodeType.BTREE_ROOT_NODE := congrArg Prod.fst hq
    have hnk : rb.info.numkeys = 1 := congrArg (fun q => q.2.1) hq
    have hkey : (rb.GetKey machine64 0).toOption = some (word4 98 0) :=
      congrArg (fun q => q.2.2) hq
    rcases hroot with h | ⟨p0, kps, _, hint⟩
    · omega
    · have hlen : kps.length = 1 := by
        have h2 : rb.info.numkeys = kps.length := hint.2.2.1
        omega
      obtain ⟨x, hx⟩ := List.length_eq_one.mp hlen
      have hx1 : x.1 = word4 98 0 := by
        have hg := int_GetKey ⟨machine64, 4, 4, (blankCache 100 6).blocksize⟩ rb p0 [] []
          x 0 (by rw [hx] at hint; exact hint)
        have hg2 : rb.GetKey machine64 0 = .ok x.1 := hg
        rw [hg2] at hkey
        exact Option.some.inj hkey
      obtain ⟨b1, k1, k2, hadd, _, hl1, hty1, hnum1, hsorted⟩ :=
        (add_key_val_ordered ⟨machine64, 4, 4, (blankCache 100 6).blocksize⟩
          (stateAfter machine64 4 4 (blankCache 100 6) (ascendingRun 1)) 1 rb hrb
          (word4 97 5) (by decide) [] 5).2 p0 kps
          ⟨hint.1, hint.2.1, hint.2.2.1, by rw [hlen]; decide, hint.2.2.2.2⟩
          (by omega) (by decide)
          (by rw [hx]; exact List.pairwise_singleton _ _)
          (fun e he heq => by
            rw [hx, List.mem_singleton] at he
            rw [he, hx1] at heq
            exact absurd heq (by decide))
      exact ⟨b1, p0, _, hadd, hl1, by rw [hnum1, hnk], by rw [hty1, hty], hsorted⟩


/-! ## Concrete runs: the full node, the sanity check and the interior copy -/

theorem ok_of_toOption {ε α : Type} {x : Except ε α} {a : α} (h : x.toOption = some a) :
    x = .ok a := by
  cases x with
  | error e => cases h
  | ok b =>
    simp only [Except.toOption, Option.some.injEq] at h
    rw [h]

theorem Reach_child {m : Machine} {dev : List BTreeNode} {p q : Nat} {b : BTreeNode} {i : Nat}
    (hb : dev[p]? = some b)
    (hty : b.info.nodetype = NodeType.BTREE_ROOT_NODE ∨
      b.info.nodetype = NodeType.BTREE_INTERIOR_NODE)
    (hi : i ≤ b.info.numkeys) (hq : (b.GetPtr m i).toOption = some q) : Reach m dev p q :=
  Reach.step p q q b i hb hty hi (ok_of_toOption hq) (Reach.here q)

theorem LeafKeyUnder_here {m : Machine} {dev : List BTreeNode} {q : Nat} {lf : BTreeNode}
    {j : Nat} {key : KEY_T} (hb : dev[q]? = some lf)
    (hty : lf.info.nodetype = NodeType.BTREE_LEAF_NODE) (hj : j < lf.info.numkeys)
    (hk : (lf.GetKey m j).toOption = some key) : LeafKeyUnder m dev q key :=
  ⟨q, lf, j, Reach.here q, hb, hty, hj, ok_of_toOption hk⟩

/-- C21 (failing input): on a device of 100-byte blocks (leaves of 4 keys),
after the inserts of "b009", "b008", "b007" the leaf at block 2 holds 3 keys.
AddKeyVal of "b006" on it returns ERROR_NOERROR and fills it (4 keys); AddKeyVal
of "b005" on the full leaf returns ERROR_NOERROR again and writes the leaf back
with numkeys 5, one more than its capacity. -/
theorem add_key_val_overfills_full_leaf :
    (leafCapacity machine64 4 4 100,
      ((stateAfter machine64 4 4 (blankCache 100 12) (descendingRun 3)).buffercache.blocks[2]?).map
        (fun b => (b.info.nodetype, b.info.numkeys)),
      (AddKeyVal machine64 (stateAfter machine64 4 4 (blankCache 100 12) (descendingRun 3)) 2
        (word4 98 6) (word4 118 6) 0).1,
      ((AddKeyVal machine64 (stateAfter machine64 4 4 (blankCache 100 12) (descendingRun 3)) 2
        (word4 98 6) (word4 118 6) 0).2.buffercache.blocks[2]?).map
        (fun b => (b.info.nodetype, b.info.numkeys)))
      = (4, some (NodeType.BTREE_LEAF_NODE, 3), ERROR_T.ERROR_NOERROR,
          some (NodeType.BTREE_LEAF_NODE, 4)) ∧
    ((AddKeyVal machine64
        (AddKeyVal machine64 (stateAfter machine64 4 4 (blankCache 100 12) (descendingRun 3)) 2
          (word4 98 6) (word4 118 6) 0).2 2 (word4 98 5) (word4 118 5) 0).1,
      ((AddKeyVal machine64
        (AddKeyVal machine64 (stateAfter machine64 4 4 (blankCache 100 12) (descendingRun 3)) 2
          (word4 98 6) (word4 118 6) 0).2 2 (word4 98 5) (word4 118 5) 0).2.buffercache.blocks[2]?).map
        (fun b => (b.info.nodetype, b.info.numkeys, b.info.GetNumSlotsAsLeaf machine64)))
      = (ERROR_T.ERROR_NOERROR, some (NodeType.BTREE_LEAF_NODE, 5, 4)) :=
  ⟨by decide, by decide⟩

/-- C22 (counterexample): after the insert of "b000" on a fresh device of
100-byte blocks the root, block 1, has the separator "b000" and child 0 is the
leaf at block 2, which holds the key "b000" itself: a leaf key under child 0
that is not strictly less than separator 0. And with interior nodes of 2 keys
(88-byte blocks, 1-byte values), after the inserts of "b000".."b004" the root,
block 6, has the separator "b003" and the trailing child 5, a node without keys
whose pointer 0 is the leaf at block 2, which holds "b000": a leaf key under
the trailing child that is less than the last separator. -/
theorem leaf_key_not_below_separator :
    (∃ t0 b, fresh machine64 4 4 (blankCache 100 12) = some t0 ∧
      runInserts machine64 t0 (ascendingRun 1)
        = some (stateAfter machine64 4 4 (blankCache 100 12) (ascendingRun 1)) ∧
      (stateAfter machine64 4 4 (blankCache 100 12) (ascendingRun 1)).buffercache.blocks[
        (stateAfter machine64 4 4 (blankCache 100 12) (ascendingRun 1)).superblock.info.rootnode]?
        = some b ∧
      b.info.nodetype = NodeType.BTREE_ROOT_NODE ∧ b.info.numkeys = 1 ∧
      b.GetPtr machine64 0 = .ok 2 ∧ b.GetKey machine64 0 = .ok (word4 98 0) ∧
      LeafKeyUnder machine64
        (stateAfter machine64 4 4 (blankCache 100 12) (ascendingRun 1)).buffercache.blocks 2
        (word4 98 0) ∧
      keyLt (word4 98 0) (word4 98 0) = false) ∧
    (interiorCapacity machine64 4 88 = 2 ∧
      ∃ t0 b, fresh machine64 4 1 (blankCache 88 10) = some t0 ∧
      runInserts machine64 t0 (plainRun 1 5)
        = some (stateAfter machine64 4 1 (blankCache 88 10) (plainRun 1 5)) ∧
      (stateAfter machine64 4 1 (blankCache 88 10) (plainRun 1 5)).buffercache.blocks[
        (stateAfter machine64 4 1 (blankCache 88 10) (plainRun 1 5)).superblock.info.rootnode]?
        = some b ∧
      b.info.nodetype = NodeType.BTREE_ROOT_NODE ∧ b.info.numkeys = 1 ∧
      b.GetPtr machine64 1 = .ok 5 ∧ b.GetKey machine64 0 = .ok (word4 98 3) ∧
      LeafKeyUnder machine64
        (stateAfter machine64 4 1 (blankCache 88 10) (plainRun 1 5)).buffercache.blocks 5
        (word4 98 0) ∧
      keyLt (word4 98 0) (word4 98 3) = true) := by
  constructor
  · obtain ⟨t0, h0, hrun⟩ := stateAfter_run machine64 4 4 (blankCache 100 12) (ascendingRun 1)
      (by decide)
    obtain ⟨b, hb, hinfo⟩ := Option.map_eq_some'.mp (by decide :
      ((stateAfter machine64 4 4 (blankCache 100 12) (ascendingRun 1)).buffercache.blocks[
        (stateAfter machine64 4 4 (blankCache 100 12)
          (ascendingRun 1)).superblock.info.rootnode]?).map
        (fun x => (x.info.nodetype, x.info.numkeys, (x.GetPtr machine64 0).toOption,
          (x.GetKey machine64 0).toOption))
        = some (NodeType.BTREE_ROOT_NODE, 1, some 2, some (word4 98 0)))
    simp only [Prod.mk.injEq] at hinfo
    obtain ⟨h1, h2, h3, h4⟩ := hinfo
    obtain ⟨lf, hlf, hlinfo⟩ := Option.map_eq_some'.mp (by decide :
      ((stateAfter machine64 4 4 (blankCache 100 12) (ascendingRun 1)).buffercache.blocks[2]?).map
        (fun x => (x.info.nodetype, x.info.numkeys, (x.GetKey machine64 0).toOption))
        = some (NodeType.BTREE_LEAF_NODE, 1, some (word4 98 0)))
    simp only [Prod.mk.injEq] at hlinfo
    obtain ⟨g1, g2, g3⟩ := hlinfo
    exact ⟨t0, b, h0, hrun, hb, h1, h2, ok_of_toOption h3, ok_of_toOption h4,
      LeafKeyUnder_here hlf g1 (by rw [g2]; decide) g3, by decide⟩
  · refine ⟨by decide, ?_⟩
    obtain ⟨t0, h0, hrun⟩ := stateAfter_run machine64 4 1 (blankCache 88 10) (plainRun 1 5)
      (by decide)
    obtain ⟨b, hb, hinfo⟩ := Option.map_eq_some'.mp (by decide :
      ((stateAfter machine64 4 1 (blankCache 88 10) (plainRun 1 5)).buffercache.blocks[
        (stateAfter machine64 4 1 (blankCache 88 10)
          (plainRun 1 5)).superblock.info.rootnode]?).map
        (fun x => (x.info.nodetype, x.info.numkeys, (x.GetPtr machine64 1).toOption,
          (x.GetKey machine64 0).toOption))
        = some (NodeType.BTREE_ROOT_NODE, 1, some 5, some (word4 98 3)))
    simp only [Prod.mk.injEq] at hinfo
    obtain ⟨h1, h2, h3, h4⟩ := hinfo
    obtain ⟨c, hc, hcinfo⟩ := Option.map_eq_some'.mp (by decide :
      ((stateAfter machine64 4 1 (blankCache 88 10) (plainRun 1 5)).buffercache.blocks[5]?).map
        (fun x => (x.info.nodetype, x.info.numkeys, (x.GetPtr machine64 0).toOption))
        = some (NodeType.BTREE_ROOT_NODE, 0, some 2))
    simp only [Prod.mk.injEq] at hcinfo
    obtain ⟨c1, c2, c3⟩ := hcinfo
    obtain ⟨lf, hlf, hlinfo⟩ := Option.map_eq_some'.mp (by decide :
      ((stateAfter machine64 4 1 (blankCache 88 10) (plainRun 1 5)).buffercache.blocks[2]?).map
        (fun x => (x.info.nodetype, x.info.numkeys, (x.GetKey machine64 0).toOption))
        = some (NodeType.BTREE_LEAF_NODE, 1, some (word4 98 0)))
    simp only [Prod.mk.injEq] at hlinfo
    obtain ⟨g1, g2, g3⟩ := hlinfo
    exact ⟨t0, b, h0, hrun, hb, h1, h2, ok_of_toOption h3, ok_of_toOption h4,
      ⟨2, lf, 0, Reach_child hc (Or.inl c1) (by rw [c2]) c3, hlf, g1, by rw [g2]; decide,
        ok_of_toOption g3⟩, by decide⟩

/-- C24 (failing input): after the insert of "b000" on a fresh device of
100-byte blocks the root, block 1, has one key, child 0 at block 2 and the
trailing child at block 3. With block 3 overwritten by a leaf holding "b009",
"b005" in this order, SanityCheck returns ERROR_NOERROR although a leaf
reachable from the root through the trailing pointer has decreasing keys. -/
theorem sanity_check_skips_trailing_child :
    SanityCheck machine64
      ((stateAfter machine64 4 4 (blankCache 100 12) (ascendingRun 1)).put 3 unsortedLeaf)
      = some ERROR_T.ERROR_NOERROR ∧
    ((stateAfter machine64 4 4 (blankCache 100 12) (ascendingRun 1)).put 3
      unsortedLeaf).superblock.info.rootnode = 1 ∧
    Reach machine64
      ((stateAfter machine64 4 4 (blankCache 100 12) (ascendingRun 1)).put 3
        unsortedLeaf).buffercache.blocks 1 3 ∧
    (((stateAfter machine64 4 4 (blankCache 100 12) (ascendingRun 1)).put 3
        unsortedLeaf).buffercache.blocks[1]?).map
      (fun b => (b.info.nodetype, b.info.numkeys, (b.GetPtr machine64 0).toOption,
        (b.GetPtr machine64 1).toOption))
      = some (NodeType.BTREE_ROOT_NODE, 1, some 2, some 3) ∧
    ((stateAfter machine64 4 4 (blankCache 100 12) (ascendingRun 1)).put 3
      unsortedLeaf).buffercache.blocks[3]? = some unsortedLeaf ∧
    unsortedLeaf.info.nodetype = NodeType.BTREE_LEAF_NODE ∧ unsortedLeaf.info.numkeys = 2 ∧
    unsortedLeaf.GetKey machine64 0 = .ok (word4 98 9) ∧
    unsortedLeaf.GetKey machine64 1 = .ok (word4 98 5) ∧
    keyLt (word4 98 9) (word4 98 5) = false := by
  obtain ⟨rb, hrb, hinfo⟩ := Option.map_eq_some'.mp (by decide :
    (((stateAfter machine64 4 4 (blankCache 100 12) (ascendingRun 1)).put 3
        unsortedLeaf).buffercache.blocks[1]?).map
      (fun b => (b.info.nodetype, b.info.numkeys, (b.GetPtr machine64 1).toOption))
      = some (NodeType.BTREE_ROOT_NODE, 1, some 3))
  simp only [Prod.mk.injEq] at hinfo
  obtain ⟨h1, h2, h3⟩ := hinfo
  exact ⟨by decide, by decide, Reach_child hrb (Or.inl h1) (by rw [h2]) h3, by decide, by decide,
    by decide, by decide, ok_of_toOption (by decide), ok_of_toOption (by decide), by decide⟩

/-- C25 (failing input): after the insert of "b000" on a fresh device of
100-byte blocks the root, block 1, has one key and the trailing child at block
3; with block 3 overwritten by a node of type BTREE_ROOT_NODE, SanityCheck
returns ERROR_NOERROR although block 3 is reachable from the root. And after
the inserts of "b000".."b007", which split the root, the new root is block 7,
with child 0 at block 1 and the trailing child at block 6, both stored as
BTREE_ROOT_NODE; with block 1 alone retyped to BTREE_INTERIOR_NODE, SanityCheck
returns ERROR_NOERROR although block 6, reachable from the root, is still
stored as a root. -/
theorem sanity_check_misses_trailing_root :
    (SanityCheck machine64
        ((stateAfter machine64 4 4 (blankCache 100 12) (ascendingRun 1)).put 3
          (BTreeNode.mk4 machine64 NodeType.BTREE_ROOT_NODE 4 4 100))
        = some ERROR_T.ERROR_NOERROR ∧
      ((stateAfter machine64 4 4 (blankCache 100 12) (ascendingRun 1)).put 3
        (BTreeNode.mk4 machine64 NodeType.BTREE_ROOT_NODE 4 4 100)).superblock.info.rootnode = 1 ∧
      Reach machine64
        ((stateAfter machine64 4 4 (blankCache 100 12) (ascendingRun 1)).put 3
          (BTreeNode.mk4 machine64 NodeType.BTREE_ROOT_NODE 4 4 100)).buffercache.blocks 1 3 ∧
      (((stateAfter machine64 4 4 (blankCache 100 12) (ascendingRun 1)).put 3
          (BTreeNode.mk4 machine64 NodeType.BTREE_ROOT_NODE 4 4 100)).buffercache.blocks[3]?).map
        (fun b => b.info.nodetype) = some NodeType.BTREE_ROOT_NODE) ∧
    (stateAfter machine64 4 4 (blankCache 100 12) (ascendingRun 8)).superblock.info.rootnode = 7 ∧
    ∃ b1, (stateAfter machine64 4 4 (blankCache 100 12) (ascendingRun 8)).buffercache.blocks[1]?
        = some b1 ∧
      SanityCheck machine64
        ((stateAfter machine64 4 4 (blankCache 100 12) (ascendingRun 8)).put 1
          (b1.withNodetype NodeType.BTREE_INTERIOR_NODE)) = some ERROR_T.ERROR_NOERROR ∧
      Reach machine64
        ((stateAfter machine64 4 4 (blankCache 100 12) (ascendingRun 8)).put 1
          (b1.withNodetype NodeType.BTREE_INTERIOR_NODE)).buffercache.blocks 7 6 ∧
      (((stateAfter machine64 4 4 (blankCache 100 12) (ascendingRun 8)).put 1
          (b1.withNodetype NodeType.BTREE_INTERIOR_NODE)).buffercache.blocks[6]?).map
        (fun b => b.info.nodetype) = some NodeType.BTREE_ROOT_NODE := by
  refine ⟨?_, by decide, ?_⟩
  · obtain ⟨rb, hrb, hinfo⟩ := Option.map_eq_some'.mp (by decide :
      (((stateAfter machine64 4 4 (blankCache 100 12) (ascendingRun 1)).put 3
          (BTreeNode.mk4 machine64 NodeType.BTREE_ROOT_NODE 4 4 100)).buffercache.blocks[1]?).map
        (fun b => (b.info.nodetype, b.info.numkeys, (b.GetPtr machine64 1).toOption))
        = some (NodeType.BTREE_ROOT_NODE, 1, some 3))
    simp only [Prod.mk.injEq] at hinfo
    obtain ⟨h1, h2, h3⟩ := hinfo
    exact ⟨by decide, by decide, Reach_child hrb (Or.inl h1) (by rw [h2]) h3, by decide⟩
  · obtain ⟨b1, hb1, hsc⟩ := Option.map_eq_some'.mp (by decide :
      ((stateAfter machine64 4 4 (blankCache 100 12) (ascendingRun 8)).buffercache.blocks[1]?).map
        (fun b => SanityCheck machine64
          ((stateAfter machine64 4 4 (blankCache 100 12) (ascendingRun 8)).put 1
            (b.withNodetype NodeType.BTREE_INTERIOR_NODE))) = some (some ERROR_T.ERROR_NOERROR))
    obtain ⟨rb, hrb, hinfo⟩ := Option.map_eq_some'.mp (by decide :
      ((stateAfter machine64 4 4 (blankCache 100 12) (ascendingRun 8)).buffercache.blocks[7]?).map
        (fun b => (b.info.nodetype, b.info.numkeys, (b.GetPtr machine64 1).toOption))
        = some (NodeType.BTREE_ROOT_NODE, 1, some 6))
    simp only [Prod.mk.injEq] at hinfo
    obtain ⟨h1, h2, h3⟩ := hinfo
    have h7 : ((stateAfter machine64 4 4 (blankCache 100 12) (ascendingRun 8)).put 1
        (b1.withNodetype NodeType.BTREE_INTERIOR_NODE)).buffercache.blocks[7]? = some rb := by
      show ((stateAfter machine64 4 4 (blankCache 100 12)
        (ascendingRun 8)).buffercache.blocks.set 1 _)[7]? = some rb
      rw [List.getElem?_set_ne (by decide)]
      exact hrb
    have h6 : ((stateAfter machine64 4 4 (blankCache 100 12) (ascendingRun 8)).put 1
        (b1.withNodetype NodeType.BTREE_INTERIOR_NODE)).buffercache.blocks[6]?
        = (stateAfter machine64 4 4 (blankCache 100 12) (ascendingRun 8)).buffercache.blocks[6]? := by
      show ((stateAfter machine64 4 4 (blankCache 100 12)
        (ascendingRun 8)).buffercache.blocks.set 1 _)[6]? = _
      rw [List.getElem?_set_ne (by decide)]
    refine ⟨b1, hb1, hsc, Reach_child h7 (Or.inl h1) (by rw [h2]) h3, ?_⟩
    rw [h6]
    decide

/-- C26 (counterexample): after the inserts of "b009" and "b008" on a fresh
device of 100-byte blocks the root, block 1, has the separator "b009" and child
0 is the leaf at block 2, whose first key is "b008", smaller than the
separator: SanityCheck visits that child and returns ERROR_NOERROR. -/
theorem sanity_check_accepts_smaller_first_key :
    (((stateAfter machine64 4 4 (blankCache 100 12) (descendingRun 2)).buffercache.blocks[1]?).map
        (fun b => (b.info.numkeys, (b.GetKey machine64 0).toOption,
          (b.GetPtr machine64 0).toOption)),
      ((stateAfter machine64 4 4 (blankCache 100 12) (descendingRun 2)).buffercache.blocks[2]?).map
        (fun b => (b.info.numkeys, (b.GetKey machine64 0).toOption)),
      keyLt (word4 98 8) (word4 98 9))
      = (some (1, some (word4 98 9), some 2), some (2, some (word4 98 8)), true) ∧
    SanityCheckLog machine64 (stateAfter machine64 4 4 (blankCache 100 12) (descendingRun 2))
      = (some ERROR_T.ERROR_NOERROR, [(2, word4 98 9)]) ∧
    SanityCheck machine64 (stateAfter machine64 4 4 (blankCache 100 12) (descendingRun 2))
      = some ERROR_T.ERROR_NOERROR :=
  ⟨by decide, by decide, by decide⟩

/-- C29 (failing input): with 8-byte SIZE_T, 4-byte keys and 124-byte blocks
the slot region has 68 bytes and an interior node holds 5 keys. For a node with
5 keys the interior branch of SplitNode reads 40 bytes from offset 36: the
range ends at byte 76, 8 bytes past the slot region (the range written, 40
bytes from offset 0, is inside). And on a 16-block device with 16-byte values,
after the inserts of "b000".."b008" the descent of the insert of "b009" leaves
the root, block 1, with 5 keys in a slot region of 68 bytes: the split of the
root that follows makes this copy, and the insert returns ERROR_NOERROR. -/
theorem interior_split_reads_past_slot_region :
    (interiorCapacity machine64 4 124,
      ((BTreeNode.mk4 machine64 NodeType.BTREE_INTERIOR_NODE 4 16 124).withNumkeys 5).data.length,
      interiorSplitCopy machine64
        ((BTreeNode.mk4 machine64 NodeType.BTREE_INTERIOR_NODE 4 16 124).withNumkeys 5))
      = (5, 68, some 0, some 36, 40) ∧
    (insertDescent machine64 (stateAfter machine64 4 16 (blankCache 124 16) (plainRun 16 9))
        (word4 98 9) (List.replicate 16 9)).bind
      (fun r => (r.2.2.buffercache.blocks[r.2.2.superblock.info.rootnode]?).map
        (fun b => (r.2.2.superblock.info.rootnode, b.info.numkeys, b.data.length,
          interiorSplitCopy machine64 b)))
      = some (1, 5, 68, some 0, some 36, 40) ∧
    (BTreeIndex.Insert machine64 (stateAfter machine64 4 16 (blankCache 124 16) (plainRun 16 9))
        (word4 98 9) (List.replicate 16 9)).map (fun r => r.1)
      = some ERROR_T.ERROR_NOERROR :=
  ⟨by decide, by decide, by decide⟩

/-- C22 at a concrete input: on a 16-block device of 100-byte blocks, after
the inserts of "b000".."b007", which split leaves and the root, every leaf key
under child i of the root is at most separator i, and every leaf key under its
trailing child is at least the last separator. -/
theorem leaf_keys_within_separators_witness :
    ∃ b, (stateAfter machine64 4 4 (blankCache 100 16) (ascendingRun 8)).buffercache.blocks[
        (stateAfter machine64 4 4 (blankCache 100 16) (ascendingRun 8)).superblock.info.rootnode]?
        = some b ∧ b.info.numkeys = 1 ∧
      (∀ i, i < b.info.numkeys → ∃ p k, b.GetPtr machine64 i = .ok p ∧
        b.GetKey machine64 i = .ok k ∧
        ∀ key, LeafKeyUnder machine64
          (stateAfter machine64 4 4 (blankCache 100 16) (ascendingRun 8)).buffercache.blocks p key →
          keyLt key k = true ∨ key = k) ∧
      (1 ≤ b.info.numkeys → ∃ p k, b.GetPtr machine64 b.info.numkeys = .ok p ∧
        b.GetKey machine64 (b.info.numkeys - 1) = .ok k ∧
        ∀ key, LeafKeyUnder machine64
          (stateAfter machine64 4 4 (blankCache 100 16) (ascendingRun 8)).buffercache.blocks p key →
          keyLt k key = true ∨ k = key) := by
  obtain ⟨t0, h0, hrun⟩ := stateAfter_run machine64 4 4 (blankCache 100 16) (ascendingRun 8)
    (by decide)
  obtain ⟨b, hb, hinfo⟩ := Option.map_eq_some'.mp (by decide :
    ((stateAfter machine64 4 4 (blankCache 100 16) (ascendingRun 8)).buffercache.blocks[
      (stateAfter machine64 4 4 (blankCache 100 16) (ascendingRun 8)).superblock.info.rootnode]?).map
      (fun x => (x.info.nodetype, x.info.numkeys)) = some (NodeType.BTREE_ROOT_NODE, 1))
  have hty : b.info.nodetype = NodeType.BTREE_ROOT_NODE := congrArg Prod.fst hinfo
  have hnum : b.info.numkeys = 1 := congrArg Prod.snd hinfo
  exact ⟨b, hb, hnum, leaf_keys_within_separators machine64 4 4 (blankCache 100 16)
    (ascendingRun 8) t0 _ (by decide) (by decide) (by decide) (by decide) h0 hrun _ b
    hb (Or.inl hty)⟩

/-- C23 at a concrete input: on a 16-block device of 100-byte blocks, after
the inserts of "b000".."b007", which split leaves and the root, the separator
of the root is the key of an entry of a leaf under child 0 of the root. -/
theorem separator_key_in_leaf_witness :
    ∃ b, (stateAfter machine64 4 4 (blankCache 100 16) (ascendingRun 8)).buffercache.blocks[
        (stateAfter machine64 4 4 (blankCache 100 16) (ascendingRun 8)).superblock.info.rootnode]?
        = some b ∧ b.info.numkeys = 1 ∧
      ∀ i, i < b.info.numkeys → ∃ p k, b.GetPtr machine64 i = .ok p ∧
        b.GetKey machine64 i = .ok k ∧
        LeafKeyUnder machine64
          (stateAfter machine64 4 4 (blankCache 100 16) (ascendingRun 8)).buffercache.blocks p k := by
  obtain ⟨t0, h0, hrun⟩ := stateAfter_run machine64 4 4 (blankCache 100 16) (ascendingRun 8)
    (by decide)
  obtain ⟨b, hb, hinfo⟩ := Option.map_eq_some'.mp (by decide :
    ((stateAfter machine64 4 4 (blankCache 100 16) (ascendingRun 8)).buffercache.blocks[
      (stateAfter machine64 4 4 (blankCache 100 16) (ascendingRun 8)).superblock.info.rootnode]?).map
      (fun x => (x.info.nodetype, x.info.numkeys)) = some (NodeType.BTREE_ROOT_NODE, 1))
  have hty : b.info.nodetype = NodeType.BTREE_ROOT_NODE := congrArg Prod.fst hinfo
  have hnum : b.info.numkeys = 1 := congrArg Prod.snd hinfo
  exact ⟨b, hb, hnum, separator_key_in_leaf machine64 4 4 (blankCache 100 16)
    (ascendingRun 8) t0 _ (by decide) (by decide) (by decide) (by decide) h0 hrun _ b
    hb (Or.inl hty)⟩

/-- C26 (amended) at a concrete input: after the inserts of "b009" and "b008"
on a fresh device of 100-byte blocks SanityCheck returns ERROR_NOERROR, and
child 0 of the root, block 1, is visited with the root's separator, has a key,
and its first key is at most that separator. -/
theorem sanity_check_first_key_bound_witness :
    SanityCheck machine64 (stateAfter machine64 4 4 (blankCache 100 12) (descendingRun 2))
      = some ERROR_T.ERROR_NOERROR ∧
    ∃ b, (stateAfter machine64 4 4 (blankCache 100 12) (descendingRun 2)).buffercache.blocks[1]?
        = some b ∧ b.info.numkeys = 1 ∧
      ∀ i, i < b.info.numkeys → ∃ p k c f, b.GetPtr machine64 i = .ok p ∧
        b.GetKey machine64 i = .ok k ∧
        (p, k) ∈ (SanityCheckLog machine64
          (stateAfter machine64 4 4 (blankCache 100 12) (descendingRun 2))).2 ∧
        (stateAfter machine64 4 4 (blankCache 100 12) (descendingRun 2)).buffercache.blocks[p]?
          = some c ∧
        1 ≤ c.info.numkeys ∧ c.GetKey machine64 0 = .ok f ∧ (keyLt f k = true ∨ f = k) := by
  obtain ⟨b, hb, hinfo⟩ := Option.map_eq_some'.mp (by decide :
    ((stateAfter machine64 4 4 (blankCache 100 12) (descendingRun 2)).buffercache.blocks[1]?).map
      (fun x => (x.info.nodetype, x.info.numkeys)) = some (NodeType.BTREE_ROOT_NODE, 1))
  have hty : b.info.nodetype = NodeType.BTREE_ROOT_NODE := congrArg Prod.fst hinfo
  have hnum : b.info.numkeys = 1 := congrArg Prod.snd hinfo
  exact ⟨by decide, b, hb, hnum,
    (sanity_check_first_key_bound machine64
      (stateAfter machine64 4 4 (blankCache 100 12) (descendingRun 2))).1 (by decide) 1 b
      (Or.inl (by decide)) hb (Or.inl hty)⟩

/-- C27 at a concrete input: on a 16-block device of 100-byte blocks (leaves
of 4 keys, interior nodes of 3), after the inserts of "b000".."b007", which
split leaves and the root, the root has fewer keys than an interior node
holds, and none of the calls of AddKeyVal the eight inserts made started on a
full node. -/
theorem nodes_below_capacity_witness :
    ∃ t0 b, fresh machine64 4 4 (blankCache 100 16) = some t0 ∧
      (stateAfter machine64 4 4 (blankCache 100 16) (ascendingRun 8)).buffercache.blocks[
        (stateAfter machine64 4 4 (blankCache 100 16) (ascendingRun 8)).superblock.info.rootnode]?
        = some b ∧
      b.info.numkeys < interiorCapacity machine64 4 100 ∧
      b.info.numkeys < b.info.GetNumSlotsAsInterior machine64 ∧
      (runInsertsLog machine64 t0 (ascendingRun 8)).1
        = some (stateAfter machine64 4 4 (blankCache 100 16) (ascendingRun 8)) ∧
      ∀ e ∈ (runInsertsLog machine64 t0 (ascendingRun 8)).2, e.2 = false := by
  obtain ⟨t0, h0, hrun⟩ := stateAfter_run machine64 4 4 (blankCache 100 16) (ascendingRun 8)
    (by decide)
  obtain ⟨b, hb, hty⟩ := Option.map_eq_some'.mp (by decide :
    ((stateAfter machine64 4 4 (blankCache 100 16) (ascendingRun 8)).buffercache.blocks[
      (stateAfter machine64 4 4 (blankCache 100 16) (ascendingRun 8)).superblock.info.rootnode]?).map
      (fun x => x.info.nodetype) = some NodeType.BTREE_ROOT_NODE)
  obtain ⟨hnodes, hfst, hlog⟩ := nodes_below_capacity machine64 4 4 (blankCache 100 16)
    (ascendingRun 8) t0 _ (by decide) (by decide) (by decide) (by decide) h0 hrun
  obtain ⟨h1, h2⟩ := (hnodes _ b (Reach.here _) hb).2 (Or.inl hty)
  exact ⟨t0, b, h0, hb, h1, h2, hfst, hlog⟩

/-- C28 at a concrete input: on a 12-block device of 100-byte blocks, after
the inserts of "b000", "b001", "b002" the update of "b001" to "v009" returns
ERROR_NOERROR; the superblock and the free list are as before and the lookup
of every other key returns what it returned before. -/
theorem update_writes_one_value_witness :
    ∃ t1, Update machine64 (stateAfter machine64 4 4 (blankCache 100 12) (ascendingRun 3))
        (word4 98 1) (word4 118 9) = some (ERROR_T.ERROR_NOERROR, t1) ∧
      t1.superblock = (stateAfter machine64 4 4 (blankCache 100 12) (ascendingRun 3)).superblock ∧
      freeBlocks t1 = freeBlocks (stateAfter machine64 4 4 (blankCache 100 12) (ascendingRun 3)) ∧
      ∀ k, k ≠ word4 98 1 → Lookup machine64 t1 k
        = Lookup machine64 (stateAfter machine64 4 4 (blankCache 100 12) (ascendingRun 3)) k := by
  obtain ⟨r, hr, hrc⟩ := Option.map_eq_some'.mp (by decide :
    (Update machine64 (stateAfter machine64 4 4 (blankCache 100 12) (ascendingRun 3))
      (word4 98 1) (word4 118 9)).map (fun r => r.1) = some ERROR_T.ERROR_NOERROR)
  obtain ⟨rc, t1⟩ := r
  simp only at hrc
  subst hrc
  obtain ⟨leaf, b, b1, off, p, _, _, _, _, _, _, _, _, _, _, _, _, _, hsup, _, _, _, hfree, hlook⟩ :=
    update_writes_one_value machine64 _ (word4 98 1) (word4 118 9) t1 hr
  exact ⟨t1, hr, hsup, hfree, hlook⟩


/-! ## Concrete runs: states in which a lookup misses what the tree holds -/

/-- C4 (counterexample): on a device of 5 blocks of 100 bytes (leaves of 4
keys) the inserts of "b009", "b008", "b007", "b006" succeed, the insert of
"b005" returns ERROR_NOSPACE after storing its key, leaving the leaf at block 2
full, and the insert of "b004" stores a fifth entry in that leaf, whose value
bytes lie past the end of the block. In this state the lookup of "b008", the
key of that fifth slot, returns ERROR_NOERROR (with no value bytes), the update
of "b008" with "v001" returns ERROR_NOERROR, and the lookup that follows
returns ERROR_NOERROR again without the value "v001". And in the tree of "b000"
whose leaf carries a value size of 2 in its header, the lookup of "b000" and
its update with "v007" return ERROR_NOERROR and the lookup that follows returns
the two bytes "v0", not "v007". -/
theorem update_lost_on_overfull_leaf :
    (leafCapacity machine64 4 4 100 = 4 ∧
      ∃ t0 t t1, fresh machine64 4 4 (blankCache 100 5) = some t0 ∧
      runInsertsAny machine64 t0 (descendingRun 6) = some t ∧
      (t.buffercache.blocks[2]?).map (fun b => (b.info.nodetype, b.info.numkeys))
        = some (NodeType.BTREE_LEAF_NODE, 5) ∧
      ¬ LeavesOK machine64 t ∧
      Lookup machine64 t (word4 98 8) = some (ERROR_T.ERROR_NOERROR, []) ∧
      Update machine64 t (word4 98 8) (word4 118 1) = some (ERROR_T.ERROR_NOERROR, t1) ∧
      Lookup machine64 t1 (word4 98 8) = some (ERROR_T.ERROR_NOERROR, [])) ∧
    (¬ LeavesOK machine64 shortValueLeaf ∧
      Lookup machine64 shortValueLeaf (word4 98 0) = some (ERROR_T.ERROR_NOERROR, [118, 48]) ∧
      ∃ t1, Update machine64 shortValueLeaf (word4 98 0) (word4 118 7)
        = some (ERROR_T.ERROR_NOERROR, t1) ∧
      Lookup machine64 t1 (word4 98 0) = some (ERROR_T.ERROR_NOERROR, [118, 48])) := by
  constructor
  · refine ⟨by decide, ?_⟩
    obtain ⟨t0, h0, hrest⟩ := Option.bind_eq_some.mp (by decide :
      (fresh machine64 4 4 (blankCache 100 5)).bind (fun t0 =>
        (runInsertsAny machine64 t0 (descendingRun 6)).bind (fun t =>
          (Update machine64 t (word4 98 8) (word4 118 1)).map (fun r =>
            (Lookup machine64 t (word4 98 8), r.1, Lookup machine64 r.2 (word4 98 8)))))
        = some (some (ERROR_T.ERROR_NOERROR, []), ERROR_T.ERROR_NOERROR,
            some (ERROR_T.ERROR_NOERROR, [])))
    obtain ⟨t, ht, hrest⟩ := Option.bind_eq_some.mp hrest
    obtain ⟨r, hr, hrest⟩ := Option.map_eq_some'.mp hrest
    obtain ⟨rc, t1⟩ := r
    simp only [Prod.mk.injEq] at hrest
    obtain ⟨h3, h4, h5⟩ := hrest
    subst h4
    have hshape : (fresh machine64 4 4 (blankCache 100 5)).bind (fun t0 =>
        (runInsertsAny machine64 t0 (descendingRun 6)).map (fun t =>
          ((t.buffercache.blocks[2]?).map (fun b => (b.info.nodetype, b.info.numkeys)),
            decide (LeavesOK machine64 t))))
        = some (some (NodeType.BTREE_LEAF_NODE, 5), false) := by decide
    rw [h0, Option.some_bind, ht] at hshape
    simp only [Option.map_some', Option.some.injEq, Prod.mk.injEq,
      decide_eq_false_iff_not] at hshape
    exact ⟨t0, t, t1, h0, ht, hshape.1, hshape.2, h3, hr, h5⟩
  · refine ⟨by decide, by decide, ?_⟩
    obtain ⟨r, hr, hrest⟩ := Option.map_eq_some'.mp (by decide :
      (Update machine64 shortValueLeaf (word4 98 0) (word4 118 7)).map (fun r =>
        (r.1, Lookup machine64 r.2 (word4 98 0)))
        = some (ERROR_T.ERROR_NOERROR, some (ERROR_T.ERROR_NOERROR, [118, 48])))
    obtain ⟨rc, t1⟩ := r
    simp only [Prod.mk.injEq] at hrest
    obtain ⟨h4, h5⟩ := hrest
    subst h4
    exact ⟨t1, hr, h5⟩

/-- Leaves of two keys: with 4-byte keys, 12-byte values and 100-byte blocks a
leaf has 2 slots. The inserts of "b002", "b001", "b000" on the fresh tree all
return ERROR_NOERROR and leave the leaf at block 2 with numkeys 3: its third
slot lies past the end of the block. -/
theorem two_slot_leaf_overfilled :
    leafCapacity machine64 4 12 100 = 2 ∧ interiorCapacity machine64 4 100 = 3 ∧
    ∃ t0, fresh machine64 4 12 (blankCache 100 8) = some t0 ∧
      runInserts machine64 t0 [(word4 98 2, List.replicate 12 2),
          (word4 98 1, List.replicate 12 1), (word4 98 0, List.replicate 12 0)]
        = some (stateAfter machine64 4 12 (blankCache 100 8) [(word4 98 2, List.replicate 12 2),
          (word4 98 1, List.replicate 12 1), (word4 98 0, List.replicate 12 0)]) ∧
      ((stateAfter machine64 4 12 (blankCache 100 8) [(word4 98 2, List.replicate 12 2),
          (word4 98 1, List.replicate 12 1),
          (word4 98 0, List.replicate 12 0)]).buffercache.blocks[2]?).map
        (fun b => (b.info.nodetype, b.info.numkeys, b.info.GetNumSlotsAsLeaf machine64))
        = some (NodeType.BTREE_LEAF_NODE, 3, 2) := by
  obtain ⟨t0, h0, hrun⟩ := stateAfter_run machine64 4 12 (blankCache 100 8)
    [(word4 98 2, List.replicate 12 2), (word4 98 1, List.replicate 12 1),
      (word4 98 0, List.replicate 12 0)] (by decide)
  exact ⟨by decide, by decide, t0, h0, hrun, by decide⟩
